import Mathlib

/-!
# a-json-sax-library: a shallow embedding of the SAX parser

The C function `ajson_sax_parse` (src/src/ajson_sax.c) is a goto-threaded state
machine over a mutable byte buffer.  It is embedded here as a transition function
over an explicit machine state, one Lean definition per C label, with the C macros
(`SAX_ERROR`, `CHECK_CB`, `SYNTAX_PUSH`, `SYNTAX_POP`, `CURRENT_MODE`) kept as
helpers of the same names.

* bytes are natural numbers (character codes), pointers are offsets into `mem`;
* `mem` is the memory reachable from the buffer start; reading past its end
  yields 0, and the tests hand the parser a buffer with a NUL at `ep`;
* a handler set is named by a value of an arbitrary type `H` (the address of a
  `ajson_sax_cb_t` in C) and `vt : H → ajson_sax_cb_t σ H` reads the table;
* a callback receives the user context and the handle and returns the new
  context, the new handle and its return code;
* the local variables are kept in two records: `Lexer` for what the scanner
  itself reads and writes, `Consumer` for what a callback can reach (`sax`,
  `ctx`) together with `trace`, a ghost log of the callbacks really invoked.
-/

namespace AJsonSax

/-! ## The handle and the handler table (ajson_sax.h) -/

/-- The SAX context `struct ajson_sax_s`: active handler set, handler stack (the
linked list of `sax_handler_node_t`, each node a saved set with its anchor depth),
current depth and anchor depth.  The pool only feeds the node allocation. -/
structure ajson_sax_t (H : Type) where
  cb : H
  top : List (H × Int)
  current_depth : Int
  anchor_depth : Int
deriving DecidableEq, Repr

/-- What a callback hands back: the user context, the handle, the return code. -/
abbrev CbResult (σ H : Type) := σ × ajson_sax_t H × Int

/-- The table `ajson_sax_cb_t`; `none` is a NULL function pointer.  Slices are
given by their bytes. -/
structure ajson_sax_cb_t (σ H : Type) where
  on_null : Option (σ → ajson_sax_t H → CbResult σ H)
  on_bool : Option (σ → ajson_sax_t H → Bool → CbResult σ H)
  on_number : Option (σ → ajson_sax_t H → List Nat → CbResult σ H)
  on_string : Option (σ → ajson_sax_t H → List Nat → CbResult σ H)
  on_key : Option (σ → ajson_sax_t H → List Nat → CbResult σ H)
  on_start_object : Option (σ → ajson_sax_t H → CbResult σ H)
  on_end_object : Option (σ → ajson_sax_t H → CbResult σ H)
  on_start_array : Option (σ → ajson_sax_t H → CbResult σ H)
  on_end_array : Option (σ → ajson_sax_t H → CbResult σ H)

/-- Push a new set of handlers (`ajson_sax_push`); `none` is a NULL `new_cb`. -/
def ajson_sax_push {H : Type} (sax : ajson_sax_t H) (new_cb : Option H) : ajson_sax_t H :=
  let sax1 := { sax with top := (sax.cb, sax.anchor_depth) :: sax.top }
  match new_cb with
  | some c => { sax1 with cb := c, anchor_depth := sax1.current_depth + 1 }
  | none => sax1

/-- Pop the current handlers and restore the previous state (`ajson_sax_pop`). -/
def ajson_sax_pop {H : Type} (sax : ajson_sax_t H) : ajson_sax_t H :=
  match sax.top with
  | [] => sax
  | (c, a) :: rest => { sax with cb := c, anchor_depth := a, top := rest }

/-- Pop only at the anchor depth (`ajson_sax_try_pop`). -/
def ajson_sax_try_pop {H : Type} (sax : ajson_sax_t H) : ajson_sax_t H × Bool :=
  if sax.current_depth = sax.anchor_depth then (ajson_sax_pop sax, true) else (sax, false)

/-! ## Events, machine state -/

/-- The nine kinds of callback invocation, with the bytes of the slice. -/
inductive Event where
  | null
  | bool (b : Bool)
  | number (s : List Nat)
  | string (s : List Nat)
  | key (s : List Nat)
  | start_object
  | end_object
  | start_array
  | end_array
deriving DecidableEq, Repr

/-- The labels of `ajson_sax_parse`. -/
inductive Label where
  | start_key | get_end_of_key | start_key_object | keyed_start_string | look_for_key
  | keyed_next_digit | keyed_decimal_number | start_value | start_string | add_string
  | look_for_next_object | next_digit | decimal_number | determine_next_step
deriving DecidableEq, Repr

def SAX_MODE_ROOT : Nat := 0
def SAX_MODE_OBJECT : Nat := 1
def SAX_MODE_ARRAY : Nat := 2
def AJSON_SAX_MAX_STACK_DEPTH : Nat := 512

/-- The scanner's local variables of `ajson_sax_parse`.  `stack` holds the entries
`stack[stack_depth], …, stack[1]` of the C array, top first, so that
`stack_depth` is its length and the root entry `stack[0]` is implicit.
`error_at` is the value stored through the `error_at` pointer, if any. -/
structure Lexer where
  mem : List Nat
  ep : Nat
  p : Nat
  ch : Nat
  stringp : Nat
  after_comma : Bool
  stack : List Nat
  error_at : Option Nat
deriving DecidableEq, Repr

/-- The variables a callback is handed, `sax` and `ctx`, and the ghost log of the
callbacks invoked so far, each with the code it returned. -/
structure Consumer (σ H : Type) where
  sax : ajson_sax_t H
  ctx : σ
  trace : List (Event × Int)

/-- One transition: the function returns, or control jumps to a label. -/
inductive Step (σ H : Type) where
  | ret (rc : Int) (lx : Lexer) (cs : Consumer σ H)
  | goto (l : Label) (lx : Lexer) (cs : Consumer σ H)

/-- Read a byte: `*q`. -/
def rd (mem : List Nat) (q : Nat) : Nat := mem.getD q 0

/-- Write a byte: `*q = v`. -/
def wr (mem : List Nat) (q : Nat) (v : Nat) : List Nat := mem.set q v

/-- The bytes of the slice `(q, len)`. -/
def slice (mem : List Nat) (q len : Nat) : List Nat := (mem.drop q).take len

/-- The case list `AJSON_SPACE_CASE`. -/
def isSpace (c : Nat) : Prop := c = 32 ∨ c = 9 ∨ c = 13 ∨ c = 10

instance (c : Nat) : Decidable (isSpace c) := by unfold isSpace; infer_instance

/-- The test `ch >= '0' && ch <= '9'`. -/
def isDigit (c : Nat) : Prop := 48 ≤ c ∧ c ≤ 57

instance (c : Nat) : Decidable (isDigit c) := by unfold isDigit; infer_instance

def stack_depth (lx : Lexer) : Nat := lx.stack.length

def CURRENT_MODE (lx : Lexer) : Nat := lx.stack.headD SAX_MODE_ROOT

/-- The statement `ch = *p++`. -/
def next_ch (lx : Lexer) : Lexer :=
  { lx with ch := rd lx.mem lx.p, p := lx.p + 1 }

/-- The loop `while (p < ep && *p != c) p++;`, with the iteration count as fuel. -/
def scan_to (mem : List Nat) (ep c : Nat) : Nat → Nat → Nat
  | 0, q => q
  | n + 1, q => if q < ep ∧ rd mem q ≠ c then scan_to mem ep c n (q + 1) else q

/-- The loop `while (*backtrack == '\\') backtrack--;`.  It stops at offset 0:
every string starts after a quote, so the C loop never leaves the buffer. -/
def backtrack_loop (mem : List Nat) : Nat → Nat → Nat
  | 0, b => b
  | n + 1, b => if rd mem b = 92 then backtrack_loop mem n (b - 1) else b

/-- The loop `while (ch >= '0' && ch <= '9') ch = *p++;`. -/
def digit_loop (mem : List Nat) : Nat → Nat → Nat → Nat × Nat
  | 0, c, q => (c, q)
  | n + 1, c, q => if isDigit c then digit_loop mem n (rd mem q) (q + 1) else (c, q)

/-- The digit loop on the scanner state; a read past `mem` yields 0 and ends it. -/
def digits (lx : Lexer) : Lexer :=
  let r := digit_loop lx.mem (lx.mem.length + 2 - lx.p) lx.ch lx.p
  { lx with ch := r.1, p := r.2 }

/-- The test of a string scan: the quote at `p` is escaped, that is
`p[-1] == '\\'` and `((p - backtrack) & 1) == 0`. -/
def escaped_quote (mem : List Nat) (q : Nat) : Prop :=
  rd mem (q - 1) = 92 ∧ (q - backtrack_loop mem q (q - 1)) % 2 = 0

instance (mem : List Nat) (q : Nat) : Decidable (escaped_quote mem q) := by
  unfold escaped_quote; infer_instance

section Machine

variable {σ H : Type}

/-- The call `sax.cb.on_X(ctx, &sax, ...)` that delivers `ev`, or `none` when the
pointer `sax.cb.on_X` is NULL. -/
def invoke (vt : H → ajson_sax_cb_t σ H) (cs : Consumer σ H) (ev : Event) :
    Option (CbResult σ H) :=
  match ev with
  | .null => (vt cs.sax.cb).on_null.map fun f => f cs.ctx cs.sax
  | .bool b => (vt cs.sax.cb).on_bool.map fun f => f cs.ctx cs.sax b
  | .number s => (vt cs.sax.cb).on_number.map fun f => f cs.ctx cs.sax s
  | .string s => (vt cs.sax.cb).on_string.map fun f => f cs.ctx cs.sax s
  | .key s => (vt cs.sax.cb).on_key.map fun f => f cs.ctx cs.sax s
  | .start_object => (vt cs.sax.cb).on_start_object.map fun f => f cs.ctx cs.sax
  | .end_object => (vt cs.sax.cb).on_end_object.map fun f => f cs.ctx cs.sax
  | .start_array => (vt cs.sax.cb).on_start_array.map fun f => f cs.ctx cs.sax
  | .end_array => (vt cs.sax.cb).on_end_array.map fun f => f cs.ctx cs.sax

/-- The consumer state when the callback for `ev` has returned `rc`, leaving the
context `ctx1` and the handle `sax1`; the call is logged. -/
def after_cb (cs : Consumer σ H) (ev : Event) (ctx1 : σ) (sax1 : ajson_sax_t H) (rc : Int) :
    Consumer σ H :=
  { sax := sax1, ctx := ctx1, trace := cs.trace ++ [(ev, rc)] }

/-- The macro `SAX_ERROR`. -/
def SAX_ERROR (lx : Lexer) (cs : Consumer σ H) : Step σ H :=
  .ret (-1) { lx with error_at := some lx.p } cs

/-- The statement `if (sax.cb.on_X) CHECK_CB(sax.cb.on_X(ctx, &sax, ...));` for
the callback that delivers `ev`, followed by the code `k`. -/
def CHECK_CB (vt : H → ajson_sax_cb_t σ H) (lx : Lexer) (cs : Consumer σ H) (ev : Event)
    (k : Consumer σ H → Step σ H) : Step σ H :=
  match invoke vt cs ev with
  | none => k cs
  | some (ctx1, sax1, rc) =>
    let cs1 := after_cb cs ev ctx1 sax1 rc
    if rc ≠ 0 then .ret rc { lx with error_at := some lx.p } cs1 else k cs1

/-- The statement `sax.current_depth++` of `SYNTAX_PUSH`. -/
def depth_inc (cs : Consumer σ H) : Consumer σ H :=
  { cs with sax := { cs.sax with current_depth := cs.sax.current_depth + 1 } }

/-- The macro `SYNTAX_PUSH`. -/
def SYNTAX_PUSH (lx : Lexer) (cs : Consumer σ H) (mode : Nat)
    (k : Lexer → Consumer σ H → Step σ H) : Step σ H :=
  if stack_depth lx ≥ AJSON_SAX_MAX_STACK_DEPTH - 1 then .ret (-1) lx cs
  else k { lx with stack := mode :: lx.stack } (depth_inc cs)

/-- The macro `SYNTAX_POP`, on the syntax stack. -/
def SYNTAX_POP (lx : Lexer) : Lexer := { lx with stack := lx.stack.tail }

/-- The statement `sax.current_depth--` of `SYNTAX_POP`. -/
def depth_dec (cs : Consumer σ H) : Consumer σ H :=
  { cs with sax := { cs.sax with current_depth := cs.sax.current_depth - 1 } }

/-- The statement `if (*p++ != c) SAX_ERROR;`. -/
def expect (lx : Lexer) (cs : Consumer σ H) (c : Nat) (k : Lexer → Step σ H) : Step σ H :=
  let lx1 := { lx with p := lx.p + 1 }
  if rd lx.mem lx.p ≠ c then SAX_ERROR lx1 cs else k lx1

/-- The optional exponent of a number:
`if (ch == 'e' || ch == 'E') { ch = *p++; if (ch == '+' || ch == '-') ch = *p++;
 if (ch < '0' || ch > '9') SAX_ERROR; while (...) ch = *p++; }`. -/
def exponent_part (lx : Lexer) (cs : Consumer σ H) (k : Lexer → Step σ H) : Step σ H :=
  if lx.ch = 101 ∨ lx.ch = 69 then
    let lx1 := next_ch lx
    let lx2 := if lx1.ch = 43 ∨ lx1.ch = 45 then next_ch lx1 else lx1
    if lx2.ch < 48 ∨ lx2.ch > 57 then SAX_ERROR lx2 cs else k (digits lx2)
  else k lx

/-- The tail of a number scan:
`p--; *p = 0; if (sax.cb.on_number) CHECK_CB(...(stringp, p - stringp)); *p = ch;`
followed by the jump to `next`. -/
def finish_number (vt : H → ajson_sax_cb_t σ H) (lx : Lexer) (cs : Consumer σ H)
    (next : Label) : Step σ H :=
  let lx1 := { lx with p := lx.p - 1 }
  let lx2 := { lx1 with mem := wr lx1.mem lx1.p 0 }
  CHECK_CB vt lx2 cs (.number (slice lx2.mem lx2.stringp (lx2.p - lx2.stringp))) fun cs =>
    .goto next { lx2 with mem := wr lx2.mem lx2.p lx2.ch } cs

/-- The tail of a string scan:
`*p = 0; if (sax.cb.on_string) CHECK_CB(...(stringp, p - stringp)); *p = quote; p++; ch = *p;`
followed by the fall through into `next`. -/
def finish_string (vt : H → ajson_sax_cb_t σ H) (lx : Lexer) (cs : Consumer σ H)
    (next : Label) : Step σ H :=
  let lx1 := { lx with mem := wr lx.mem lx.p 0 }
  CHECK_CB vt lx1 cs (.string (slice lx1.mem lx1.stringp (lx1.p - lx1.stringp))) fun cs =>
    let lx2 := { lx1 with mem := wr lx1.mem lx1.p 34 }
    let lx3 := { lx2 with p := lx2.p + 1 }
    .goto next { lx3 with ch := rd lx3.mem lx3.p } cs

/-- The body shared by the labels `start_string` and `keyed_start_string`, which
differ in the label that follows:
`while (p < ep && *p != quote) p++; if (p >= ep) SAX_ERROR;
 if (p[-1] == backslash) { ...; if (((p-backtrack) & 1) == 0) { p++; goto self; } }`
and then the tail of the string scan. -/
def string_body (vt : H → ajson_sax_cb_t σ H) (lx : Lexer) (cs : Consumer σ H)
    (self next : Label) : Step σ H :=
  let lx := { lx with p := scan_to lx.mem lx.ep 34 (lx.ep - lx.p) lx.p }
  if lx.p ≥ lx.ep then SAX_ERROR lx cs
  else if escaped_quote lx.mem lx.p then .goto self { lx with p := lx.p + 1 } cs
  else finish_string vt lx cs next

/-- The body shared by the labels `next_digit` and `keyed_next_digit`:
`ch = *p++; while (digit) ch = *p++; if (ch == '.') goto dec;`, the optional
exponent and the tail of the number scan. -/
def next_digit_body (vt : H → ajson_sax_cb_t σ H) (lx : Lexer) (cs : Consumer σ H)
    (dec next : Label) : Step σ H :=
  let lx := digits (next_ch lx)
  if lx.ch = 46 then .goto dec lx cs
  else exponent_part lx cs fun lx => finish_number vt lx cs next

/-- The body shared by the labels `decimal_number` and `keyed_decimal_number`:
`ch = *p++; if (ch < '0' || ch > '9') SAX_ERROR; while (digit) ch = *p++;`, the
optional exponent and the tail of the number scan. -/
def decimal_number_body (vt : H → ajson_sax_cb_t σ H) (lx : Lexer) (cs : Consumer σ H)
    (next : Label) : Step σ H :=
  let lx := next_ch lx
  if lx.ch < 48 ∨ lx.ch > 57 then SAX_ERROR lx cs else
  exponent_part (digits lx) cs fun lx => finish_number vt lx cs next

/-- The code of `case '{'` and `case '['`: the start callback, `SYNTAX_PUSH(mode)`
and the jump to `next`. -/
def open_container (vt : H → ajson_sax_cb_t σ H) (lx : Lexer) (cs : Consumer σ H)
    (ev : Event) (mode : Nat) (next : Label) : Step σ H :=
  CHECK_CB vt lx cs ev fun cs =>
    SYNTAX_PUSH lx cs mode fun lx cs => .goto next lx cs

/-- The code of a closer met by `start_key` (`}`) or `start_value` (`]`), whose
byte `ch = *p++` has already consumed:
`if (after_comma) SAX_ERROR; end callback; SYNTAX_POP(); goto determine_next_step;`. -/
def close_here (vt : H → ajson_sax_cb_t σ H) (lx : Lexer) (cs : Consumer σ H)
    (ev : Event) : Step σ H :=
  if lx.after_comma then SAX_ERROR lx cs else
  CHECK_CB vt lx cs ev fun cs =>
    .goto .determine_next_step (SYNTAX_POP lx) (depth_dec cs)

/-- The code of a closer met by `look_for_key` (`}`) or `look_for_next_object`
(`]`), where `p` still points at it:
`if (after_comma) SAX_ERROR; end callback; SYNTAX_POP(); p++; goto determine_next_step;`. -/
def close_ahead (vt : H → ajson_sax_cb_t σ H) (lx : Lexer) (cs : Consumer σ H)
    (ev : Event) : Step σ H :=
  if lx.after_comma then SAX_ERROR lx cs else
  CHECK_CB vt lx cs ev fun cs =>
    let lx := SYNTAX_POP lx
    .goto .determine_next_step { lx with p := lx.p + 1 } (depth_dec cs)

/-- One `if (*p++ != c) SAX_ERROR;` for each byte of `word`, in order. -/
def expect_all (cs : Consumer σ H) : List Nat → Lexer → (Lexer → Step σ H) → Step σ H
  | [], lx, k => k lx
  | c :: word, lx, k => expect lx cs c fun lx => expect_all cs word lx k

/-- The code of `case 't'`, `case 'f'` and `case 'n'` after the first byte, `word`
being the rest of the literal (`rue`, `alse`, `ull`):
`if (p + len > ep) SAX_ERROR;`, the byte tests, the callback, `ch = *p;` and the
jump to `next`. -/
def literal (vt : H → ajson_sax_cb_t σ H) (lx : Lexer) (cs : Consumer σ H)
    (word : List Nat) (ev : Event) (next : Label) : Step σ H :=
  if lx.p + word.length > lx.ep then SAX_ERROR lx cs else
  expect_all cs word lx fun lx =>
    CHECK_CB vt lx cs ev fun cs => .goto next { lx with ch := rd lx.mem lx.p } cs

/-- The code of `case '0'` after `stringp = p - 1;`, the same in `start_value` and
`start_key_object` up to the labels jumped to. -/
def zero_case (vt : H → ajson_sax_cb_t σ H) (lx : Lexer) (cs : Consumer σ H)
    (dec digit next : Label) : Step σ H :=
  let la := rd lx.mem lx.p
  if lx.p < lx.ep ∧ la = 46 then .goto dec { lx with p := lx.p + 1 } cs
  else if lx.p < lx.ep ∧ (la = 101 ∨ la = 69) then .goto digit lx cs
  else if lx.p < lx.ep ∧ isDigit la then SAX_ERROR lx cs
  else CHECK_CB vt lx cs (.number [48]) fun cs => .goto next { lx with ch := rd lx.mem lx.p } cs

/-- The code of `case '-'` in `start_key_object` after `stringp = p - 1; ch = *p++;`.
After the callback for `-0` it jumps to `look_for_key` with `ch` left as it is. -/
def start_key_object_minus (vt : H → ajson_sax_cb_t σ H) (lx : Lexer) (cs : Consumer σ H) :
    Step σ H :=
  if lx.ch = 48 then
    let la := rd lx.mem lx.p
    if la = 46 then .goto .keyed_decimal_number { lx with p := lx.p + 1 } cs
    else if la = 101 ∨ la = 69 then .goto .keyed_next_digit lx cs
    else if isDigit la then SAX_ERROR lx cs
    else CHECK_CB vt lx cs (.number [45, 48]) fun cs => .goto .look_for_key lx cs
  else if 49 ≤ lx.ch ∧ lx.ch ≤ 57 then .goto .keyed_next_digit lx cs
  else SAX_ERROR lx cs

/-- The code of `case '-'` in `start_value` after `stringp = p - 1; ch = *p++;`.
After the callback for `-0` it sets `ch = *p` and jumps to `add_string`. -/
def start_value_minus (vt : H → ajson_sax_cb_t σ H) (lx : Lexer) (cs : Consumer σ H) :
    Step σ H :=
  if lx.ch = 48 then
    let la := rd lx.mem lx.p
    if la = 46 then .goto .decimal_number { lx with p := lx.p + 1 } cs
    else if la = 101 ∨ la = 69 then .goto .next_digit lx cs
    else if isDigit la then SAX_ERROR lx cs
    else
      CHECK_CB vt lx cs (.number [45, 48]) fun cs =>
        .goto .add_string { lx with ch := rd lx.mem lx.p } cs
  else if 49 ≤ lx.ch ∧ lx.ch ≤ 57 then .goto .next_digit lx cs
  else SAX_ERROR lx cs

/-- Label `start_key`. -/
def start_key (vt : H → ajson_sax_cb_t σ H) (lx : Lexer) (cs : Consumer σ H) : Step σ H :=
  if lx.p ≥ lx.ep then SAX_ERROR lx cs else
  let lx := next_ch lx
  if lx.ch = 34 then
    .goto .get_end_of_key { lx with after_comma := false, stringp := lx.p } cs
  else if isSpace lx.ch then .goto .start_key lx cs
  else if lx.ch = 125 then close_here vt lx cs .end_object
  else SAX_ERROR lx cs

/-- The code of `get_end_of_key` from the key callback on:
`on_key(stringp, p - stringp); *p = quote; p++; while (p < ep && *p != ':') p++; p++;`
and the fall through into `start_key_object`. -/
def finish_key (vt : H → ajson_sax_cb_t σ H) (lx : Lexer) (cs : Consumer σ H) : Step σ H :=
  CHECK_CB vt lx cs (.key (slice lx.mem lx.stringp (lx.p - lx.stringp))) fun cs =>
    let lx := { lx with mem := wr lx.mem lx.p 34 }
    let lx := { lx with p := lx.p + 1 }
    let lx := { lx with p := scan_to lx.mem lx.ep 58 (lx.ep - lx.p) lx.p }
    .goto .start_key_object { lx with p := lx.p + 1 } cs

/-- Label `get_end_of_key`. -/
def get_end_of_key (vt : H → ajson_sax_cb_t σ H) (lx : Lexer) (cs : Consumer σ H) :
    Step σ H :=
  let lx := { lx with p := scan_to lx.mem lx.ep 34 (lx.ep - lx.p) lx.p }
  if lx.p < lx.ep ∧ escaped_quote lx.mem lx.p then
    .goto .get_end_of_key { lx with p := lx.p + 1 } cs
  else
    finish_key vt (if lx.p < lx.ep then { lx with mem := wr lx.mem lx.p 0 } else lx) cs

/-- Label `start_key_object`. -/
def start_key_object (vt : H → ajson_sax_cb_t σ H) (lx : Lexer) (cs : Consumer σ H) :
    Step σ H :=
  if lx.p ≥ lx.ep then SAX_ERROR lx cs else
  let lx := next_ch lx
  if lx.ch = 34 then .goto .keyed_start_string { lx with stringp := lx.p } cs
  else if isSpace lx.ch then .goto .start_key_object lx cs
  else if lx.ch = 123 then open_container vt lx cs .start_object SAX_MODE_OBJECT .start_key
  else if lx.ch = 91 then open_container vt lx cs .start_array SAX_MODE_ARRAY .start_value
  else if lx.ch = 45 then
    start_key_object_minus vt (next_ch { lx with stringp := lx.p - 1 }) cs
  else if lx.ch = 48 then
    zero_case vt { lx with stringp := lx.p - 1 } cs
      .keyed_decimal_number .keyed_next_digit .look_for_key
  else if 49 ≤ lx.ch ∧ lx.ch ≤ 57 then
    .goto .keyed_next_digit { lx with stringp := lx.p - 1 } cs
  else if lx.ch = 116 then literal vt lx cs [114, 117, 101] (.bool true) .look_for_key
  else if lx.ch = 102 then literal vt lx cs [97, 108, 115, 101] (.bool false) .look_for_key
  else if lx.ch = 110 then literal vt lx cs [117, 108, 108] .null .look_for_key
  else SAX_ERROR lx cs

/-- Label `keyed_start_string`, up to the fall through into `look_for_key`. -/
def keyed_start_string (vt : H → ajson_sax_cb_t σ H) (lx : Lexer) (cs : Consumer σ H) :
    Step σ H :=
  string_body vt lx cs .keyed_start_string .look_for_key

/-- Label `look_for_key`. -/
def look_for_key (vt : H → ajson_sax_cb_t σ H) (lx : Lexer) (cs : Consumer σ H) : Step σ H :=
  if lx.ch = 44 then
    if lx.p ≥ lx.ep then SAX_ERROR lx cs
    else .goto .start_key { lx with p := lx.p + 1, after_comma := true } cs
  else if lx.ch = 125 then close_ahead vt lx cs .end_object
  else if isSpace lx.ch then
    let lx := { lx with p := lx.p + 1 }
    .goto .look_for_key { lx with ch := rd lx.mem lx.p } cs
  else SAX_ERROR lx cs

/-- Label `keyed_next_digit`. -/
def keyed_next_digit (vt : H → ajson_sax_cb_t σ H) (lx : Lexer) (cs : Consumer σ H) :
    Step σ H :=
  next_digit_body vt lx cs .keyed_decimal_number .look_for_key

/-- Label `keyed_decimal_number`. -/
def keyed_decimal_number (vt : H → ajson_sax_cb_t σ H) (lx : Lexer) (cs : Consumer σ H) :
    Step σ H :=
  decimal_number_body vt lx cs .look_for_key

/-- Label `start_value`. -/
def start_value (vt : H → ajson_sax_cb_t σ H) (lx : Lexer) (cs : Consumer σ H) : Step σ H :=
  if lx.p ≥ lx.ep then SAX_ERROR lx cs else
  let lx := next_ch lx
  if lx.ch = 34 then
    .goto .start_string { lx with after_comma := false, stringp := lx.p } cs
  else if isSpace lx.ch then .goto .start_value lx cs
  else if lx.ch = 123 then
    open_container vt { lx with after_comma := false } cs .start_object SAX_MODE_OBJECT .start_key
  else if lx.ch = 91 then
    open_container vt { lx with after_comma := false } cs .start_array SAX_MODE_ARRAY .start_value
  else if lx.ch = 93 then close_here vt lx cs .end_array
  else if lx.ch = 45 then
    start_value_minus vt (next_ch { lx with after_comma := false, stringp := lx.p - 1 }) cs
  else if lx.ch = 48 then
    zero_case vt { lx with after_comma := false, stringp := lx.p - 1 } cs
      .decimal_number .next_digit .add_string
  else if 49 ≤ lx.ch ∧ lx.ch ≤ 57 then
    .goto .next_digit { lx with after_comma := false, stringp := lx.p - 1 } cs
  else if lx.ch = 116 then
    literal vt { lx with after_comma := false } cs [114, 117, 101] (.bool true) .add_string
  else if lx.ch = 102 then
    literal vt { lx with after_comma := false } cs [97, 108, 115, 101] (.bool false) .add_string
  else if lx.ch = 110 then
    literal vt { lx with after_comma := false } cs [117, 108, 108] .null .add_string
  else SAX_ERROR lx cs

/-- Label `start_string`, up to the fall through into `add_string`. -/
def start_string (vt : H → ajson_sax_cb_t σ H) (lx : Lexer) (cs : Consumer σ H) : Step σ H :=
  string_body vt lx cs .start_string .add_string

/-- Label `add_string`. -/
def add_string (lx : Lexer) (cs : Consumer σ H) : Step σ H := .goto .look_for_next_object lx cs

/-- Label `look_for_next_object`. -/
def look_for_next_object (vt : H → ajson_sax_cb_t σ H) (lx : Lexer) (cs : Consumer σ H) :
    Step σ H :=
  if lx.ch = 44 then
    if lx.p ≥ lx.ep then SAX_ERROR lx cs
    else .goto .start_value { lx with p := lx.p + 1, after_comma := true } cs
  else if lx.ch = 93 then close_ahead vt lx cs .end_array
  else if isSpace lx.ch then
    let lx := { lx with p := lx.p + 1 }
    if lx.p ≥ lx.ep then
      if stack_depth lx = 0 then .ret 0 lx cs else SAX_ERROR lx cs
    else .goto .look_for_next_object { lx with ch := rd lx.mem lx.p } cs
  else if lx.ch = 0 then
    if stack_depth lx = 0 then .ret 0 lx cs else SAX_ERROR lx cs
  else SAX_ERROR lx cs

/-- Label `next_digit`. -/
def next_digit (vt : H → ajson_sax_cb_t σ H) (lx : Lexer) (cs : Consumer σ H) : Step σ H :=
  next_digit_body vt lx cs .decimal_number .add_string

/-- Label `decimal_number`. -/
def decimal_number (vt : H → ajson_sax_cb_t σ H) (lx : Lexer) (cs : Consumer σ H) :
    Step σ H :=
  decimal_number_body vt lx cs .add_string

/-- Label `determine_next_step`. -/
def determine_next_step (lx : Lexer) (cs : Consumer σ H) : Step σ H :=
  if stack_depth lx = 0 then .ret 0 lx cs
  else if lx.p ≥ lx.ep then .ret 0 lx cs
  else
    let lx := { lx with ch := rd lx.mem lx.p }
    if CURRENT_MODE lx = SAX_MODE_OBJECT then .goto .look_for_key lx cs
    else .goto .look_for_next_object lx cs

/-- The code at a label, run up to its next jump or return. -/
def step (vt : H → ajson_sax_cb_t σ H) (l : Label) (lx : Lexer) (cs : Consumer σ H) :
    Step σ H :=
  match l with
  | .start_key => start_key vt lx cs
  | .get_end_of_key => get_end_of_key vt lx cs
  | .start_key_object => start_key_object vt lx cs
  | .keyed_start_string => keyed_start_string vt lx cs
  | .look_for_key => look_for_key vt lx cs
  | .keyed_next_digit => keyed_next_digit vt lx cs
  | .keyed_decimal_number => keyed_decimal_number vt lx cs
  | .start_value => start_value vt lx cs
  | .start_string => start_string vt lx cs
  | .add_string => add_string lx cs
  | .look_for_next_object => look_for_next_object vt lx cs
  | .next_digit => next_digit vt lx cs
  | .decimal_number => decimal_number vt lx cs
  | .determine_next_step => determine_next_step lx cs

/-- What `ajson_sax_parse` leaves behind: the return code, the scanner state
(buffer, error position) and the consumer state (context, handle, trace). -/
structure Result (σ H : Type) where
  rc : Int
  lx : Lexer
  cs : Consumer σ H

/-- Follow jumps until the function returns; `none` when `n` jumps do not suffice. -/
def run (vt : H → ajson_sax_cb_t σ H) : Nat → Label → Lexer → Consumer σ H →
    Option (Result σ H)
  | 0, _, _, _ => none
  | n + 1, l, lx, cs =>
    match step vt l lx cs with
    | .ret rc lx1 cs1 => some ⟨rc, lx1, cs1⟩
    | .goto l1 lx1 cs1 => run vt n l1 lx1 cs1

/-- The scanner state set up by the declarations at the top of `ajson_sax_parse`;
the buffer starts at offset 0 of `mem` and ends at `ep`. -/
def init_lexer (mem : List Nat) (ep : Nat) : Lexer :=
  { mem := mem, ep := ep, p := 0, ch := 0, stringp := 0, after_comma := false,
    stack := [], error_at := none }

/-- The handle set up at the top of `ajson_sax_parse`, with the caller's context. -/
def init_consumer (initial_cb : H) (ctx : σ) : Consumer σ H :=
  { sax := { cb := initial_cb, top := [], current_depth := 0, anchor_depth := 0 },
    ctx := ctx, trace := [] }

/-- A number of jumps that every run stays below: each jump moves the cursor
forward or goes from one of four labels to a label that does. -/
def fuel (mem : List Nat) (ep : Nat) : Nat := 3 * (max ep mem.length + 4)

/-- The function `ajson_sax_parse` on the buffer `[mem, mem + ep)`. -/
def ajson_sax_parse (vt : H → ajson_sax_cb_t σ H) (mem : List Nat) (ep : Nat)
    (initial_cb : H) (ctx : σ) : Option (Result σ H) :=
  let lx := init_lexer mem ep
  let cs := init_consumer initial_cb ctx
  if lx.p ≥ lx.ep then some ⟨-1, { lx with error_at := some lx.p }, cs⟩
  else run vt (fuel mem ep) .start_value lx cs

/-- The call of the tests: the document `doc` in a buffer that holds a NUL right
after it, `ajson_sax_parse(buf, buf + strlen(buf), ...)`. -/
def parse_doc (vt : H → ajson_sax_cb_t σ H) (doc : List Nat) (initial_cb : H) (ctx : σ) :
    Option (Result σ H) :=
  ajson_sax_parse vt (doc ++ [0]) doc.length initial_cb ctx

end Machine

/-! ## Predicates used by the proofs -/

/-- The cursor carries the byte it last read: `ch == p[-1]`. -/
def Fresh (lx : Lexer) : Prop := 1 ≤ lx.p ∧ lx.ch = rd lx.mem (lx.p - 1)

/-- A property of jumps only: it holds of every return. -/
def OnGoto (Q : Label → Lexer → Prop) : Step σ H → Prop
  | .ret _ _ _ => True
  | .goto l lx _ => Q l lx

/-- An upper bound of every offset the cursor is read at. -/
def span (lx : Lexer) : Nat := max lx.ep lx.mem.length

def rank : Label → Nat
  | .look_for_key | .look_for_next_object => 0
  | .add_string => 1
  | _ => 2

/-- The quantity that falls at every jump. -/
def weight (l : Label) (lx : Lexer) : Nat := 3 * (span lx + 3 - lx.p) + rank l

/-- What is known of the scanner state on entry to a label: where a delimiter is
dispatched on, `ch` is the byte under the cursor (or the `0` left by `-0`). -/
def Sane (l : Label) (lx : Lexer) : Prop :=
  match l with
  | .look_for_key | .look_for_next_object | .add_string => lx.ch ≠ rd lx.mem lx.p → lx.ch = 48
  | .start_key | .start_key_object | .start_value | .determine_next_step => True
  | _ => lx.p ≤ span lx + 2

def Falls (l : Label) (lx : Lexer) (l1 : Label) (lx1 : Lexer) : Prop :=
  Sane l1 lx1 ∧ span lx1 = span lx ∧ weight l1 lx1 < weight l lx

/-- What the optional exponent leaves of the scanner state: the cursor has not
moved back and carries the byte it last read; nothing else has changed. -/
def Scanned (lx lx1 : Lexer) : Prop :=
  Fresh lx1 ∧ lx.p ≤ lx1.p ∧ lx1.mem = lx.mem ∧ lx1.ep = lx.ep ∧ lx1.stringp = lx.stringp ∧
    lx1.after_comma = lx.after_comma ∧ lx1.stack = lx.stack ∧ lx1.error_at = lx.error_at

section ConsumerSide

variable {σ H : Type}

/-- The consumer state once the event `ev` has been offered and accepted: unchanged
when the handler is absent, else as the callback left it, with return code 0. -/
def Delivered (vt : H → ajson_sax_cb_t σ H) (cs : Consumer σ H) (ev : Event)
    (cs1 : Consumer σ H) : Prop :=
  (invoke vt cs ev = none ∧ cs1 = cs) ∨
    ∃ c s, invoke vt cs ev = some (c, s, 0) ∧ cs1 = after_cb cs ev c s 0

/-- The depth bookkeeping that follows an accepted event: `SYNTAX_PUSH` after a
start event, `SYNTAX_POP` after an end event. -/
def after_event (ev : Event) (cs : Consumer σ H) : Consumer σ H :=
  match ev with
  | .start_object | .start_array => depth_inc cs
  | .end_object | .end_array => depth_dec cs
  | _ => cs

/-- What one transition can do to the consumer state `cs`: nothing; one callback
that aborts; or one callback that is accepted, followed by the depth bookkeeping
of its event or by the return of a failed `SYNTAX_PUSH`. -/
inductive CStep (vt : H → ajson_sax_cb_t σ H) (cs : Consumer σ H) : Step σ H → Prop where
  | quiet_goto (l : Label) (lx : Lexer) : CStep vt cs (.goto l lx cs)
  | quiet_ret (rc : Int) (lx : Lexer) (h : rc = 0 ∨ rc = -1) : CStep vt cs (.ret rc lx cs)
  | abort (ev : Event) (c : σ) (s : ajson_sax_t H) (rc : Int) (lx : Lexer)
      (h : invoke vt cs ev = some (c, s, rc)) (hrc : rc ≠ 0) :
      CStep vt cs (.ret rc lx (after_cb cs ev c s rc))
  | cb_goto (ev : Event) (cs1 : Consumer σ H) (l : Label) (lx : Lexer)
      (h : Delivered vt cs ev cs1) : CStep vt cs (.goto l lx (after_event ev cs1))
  | cb_full (ev : Event) (cs1 : Consumer σ H) (lx : Lexer)
      (h : Delivered vt cs ev cs1) : CStep vt cs (.ret (-1) lx cs1)

end ConsumerSide

/-! ## Consumers and inputs of the tests -/

/-- The bytes of an ASCII text. -/
def ascii (s : String) : List Nat := s.toList.map Char.toNat

/-- The handler set with no handler at all, `empty_cb` of the tests. -/
def no_handlers (σ H : Type) : ajson_sax_cb_t σ H :=
  { on_null := none, on_bool := none, on_number := none, on_string := none, on_key := none,
    on_start_object := none, on_end_object := none, on_start_array := none,
    on_end_array := none }

/-- A handler set with all nine handlers, each returning 0 and touching nothing;
the trace then lists every event of the parse. -/
def quiet_handlers : ajson_sax_cb_t Unit Unit :=
  { on_null := some fun c s => (c, s, 0)
    on_bool := some fun c s _ => (c, s, 0)
    on_number := some fun c s _ => (c, s, 0)
    on_string := some fun c s _ => (c, s, 0)
    on_key := some fun c s _ => (c, s, 0)
    on_start_object := some fun c s => (c, s, 0)
    on_end_object := some fun c s => (c, s, 0)
    on_start_array := some fun c s => (c, s, 0)
    on_end_array := some fun c s => (c, s, 0) }

/-- The C string that starts at the first byte of a slice, as `strcmp`, `strcpy`
and `atoi` read it: the parser has put a NUL right after the slice, so the string
is the slice up to its first NUL byte, if it holds one. -/
def c_string (s : List Nat) : List Nat := s.takeWhile fun c => decide (c ≠ 0)

/-- The handler set `abort_h` of the test `sax_abort_code`: `on_key` returns 42
when `strcmp(k, "abort")` is 0, and 0 for any other key. -/
def abort_h : ajson_sax_cb_t Unit Unit :=
  { no_handlers Unit Unit with
    on_key := some fun c s k => (c, s, if c_string k = ascii "abort" then 42 else 0) }

/-- The observable outcome of a parse: the return code and the callbacks invoked,
each with the code it returned. -/
def outcome {σ H : Type} (r : Option (Result σ H)) : Option (Int × List (Event × Int)) :=
  r.map fun r => (r.rc, r.cs.trace)

/-- The observable outcome of a parse whose callbacks all returned 0: the return
code and the events delivered. -/
def events {σ H : Type} (r : Option (Result σ H)) : Option (Int × List Event) :=
  r.map fun r => (r.rc, r.cs.trace.map Prod.fst)

/-- The return code of a parse. -/
def code {σ H : Type} (r : Option (Result σ H)) : Option Int := r.map fun r => r.rc

/-- Every callback logged in `t` returned 0. -/
def Quiet (t : List (Event × Int)) : Prop := ∀ e ∈ t, e.2 = 0

/-- Every handler of every handler set returns 0, whatever it is given. -/
def ReturnsZero {σ H : Type} (vt : H → ajson_sax_cb_t σ H) : Prop :=
  ∀ (cs : Consumer σ H) (ev : Event) (c : σ) (s : ajson_sax_t H) (rc : Int),
    invoke vt cs ev = some (c, s, rc) → rc = 0

/-- The log of a returned run: all callbacks returned 0, or all but the last did
and the last returned the nonzero code that the run returns. -/
def AbortLast (rc : Int) (t : List (Event × Int)) : Prop :=
  Quiet t ∨ ∃ t0 ev, t = t0 ++ [(ev, rc)] ∧ Quiet t0 ∧ rc ≠ 0


section TwoConsumers

variable {σ₁ H₁ σ₂ H₂ : Type}

/-- Two transitions that agree on everything the scanner owns (label or return
code, scanner state) and leave consumer states related by `R`. -/
def Rel (R : Consumer σ₁ H₁ → Consumer σ₂ H₂ → Prop) : Step σ₁ H₁ → Step σ₂ H₂ → Prop
  | .ret rc1 lx1 cs1, .ret rc2 lx2 cs2 => rc1 = rc2 ∧ lx1 = lx2 ∧ R cs1 cs2
  | .goto l1 lx1 cs1, .goto l2 lx2 cs2 => l1 = l2 ∧ lx1 = lx2 ∧ R cs1 cs2
  | _, _ => False

/-- Two consumers that accept every event in related states, and whose relation
survives the depth bookkeeping. -/
structure Compat (vt₁ : H₁ → ajson_sax_cb_t σ₁ H₁) (vt₂ : H₂ → ajson_sax_cb_t σ₂ H₂)
    (R : Consumer σ₁ H₁ → Consumer σ₂ H₂ → Prop) : Prop where
  cb : ∀ cs1 cs2 ev, R cs1 cs2 →
    ∃ cs1' cs2', Delivered vt₁ cs1 ev cs1' ∧ Delivered vt₂ cs2 ev cs2' ∧ R cs1' cs2'
  inc : ∀ cs1 cs2, R cs1 cs2 → R (depth_inc cs1) (depth_inc cs2)
  dec : ∀ cs1 cs2, R cs1 cs2 → R (depth_dec cs1) (depth_dec cs2)

/-- Two results that agree on the return code and the scanner state and have
consumer states related by `R`; running out of fuel agrees with itself only. -/
def RelResult (R : Consumer σ₁ H₁ → Consumer σ₂ H₂ → Prop) :
    Option (Result σ₁ H₁) → Option (Result σ₂ H₂) → Prop
  | some r1, some r2 => r1.rc = r2.rc ∧ r1.lx = r2.lx ∧ R r1.cs r2.cs
  | none, none => True
  | _, _ => False

end TwoConsumers

/-- Every handler of every handler set is present and returns 0. -/
def Complete {σ H : Type} (vt : H → ajson_sax_cb_t σ H) : Prop :=
  ∀ (cs : Consumer σ H) (ev : Event), ∃ c s, invoke vt cs ev = some (c, s, 0)

/-- Some run from the state returns, with a result that satisfies `Q`. -/
def Ends {σ H : Type} (vt : H → ajson_sax_cb_t σ H) (l : Label) (lx : Lexer)
    (cs : Consumer σ H) (Q : Result σ H → Prop) : Prop :=
  ∃ n r, run vt n l lx cs = some r ∧ Q r

/-- The table of the parse without handlers. -/
def vt_none : Unit → ajson_sax_cb_t Unit Unit := fun _ => no_handlers Unit Unit

/-- The table of the parse that logs every event. -/
def vt_quiet : Unit → ajson_sax_cb_t Unit Unit := fun _ => quiet_handlers

/-- The document of `n` opening brackets followed by `n` closing brackets. -/
def brackets (n : Nat) : List Nat := List.replicate n 91 ++ List.replicate n 93


/-- The state after `n` jumps, `none` when the function has returned before. -/
def reach {σ H : Type} (vt : H → ajson_sax_cb_t σ H) :
    Nat → Label → Lexer → Consumer σ H → Option (Label × Lexer × Consumer σ H)
  | 0, l, lx, cs => some (l, lx, cs)
  | n + 1, l, lx, cs =>
    match step vt l lx cs with
    | .ret _ _ _ => none
    | .goto l1 lx1 cs1 => reach vt n l1 lx1 cs1

/-- The parse of the document `doc` comes to the label `l` with the scanner
state `lx`. -/
def Passes {σ H : Type} (vt : H → ajson_sax_cb_t σ H) (doc : List Nat) (cb : H) (ctx : σ)
    (l : Label) (lx : Lexer) : Prop :=
  ∃ k cs, reach vt k .start_value (init_lexer (doc ++ [0]) doc.length) (init_consumer cb ctx) =
    some (l, lx, cs)

/-- The scanner stands inside a key (at `get_end_of_key`) whose closing quote is at
offset `q`: no quote between the cursor and `q`, a quote at `q` that is not
escaped, inside the buffer. -/
def KeyEndsAt (lx : Lexer) (q : Nat) : Prop :=
  lx.p ≤ q ∧ q < lx.ep ∧ (∀ i, i < q → lx.p ≤ i → rd lx.mem i ≠ 34) ∧ rd lx.mem q = 34 ∧
    ¬ escaped_quote lx.mem q

/-- No byte `:` between offset `q` and the end of the buffer. -/
def NoColonAfter (lx : Lexer) (q : Nat) : Prop :=
  ∀ i, i < lx.ep → q < i → rd lx.mem i ≠ 58

/-- A transition ends with a result that satisfies `Q`: it returns one, or it jumps
to a state from which some run does. -/
def EndsStep {σ H : Type} (vt : H → ajson_sax_cb_t σ H) (s : Step σ H)
    (Q : Result σ H → Prop) : Prop :=
  match s with
  | .ret rc lx cs => Q ⟨rc, lx, cs⟩
  | .goto l lx cs => Ends vt l lx cs Q

/-! ## The number shape of the specification -/

/-- The bytes a number text is made of: `0-9 + - . e E`. -/
def InAlphabet (c : Nat) : Prop := isDigit c ∨ c = 43 ∨ c = 45 ∨ c = 46 ∨ c = 101 ∨ c = 69

/-- The shape `0 | [1-9][0-9]*`. -/
def IsIntPart (s : List Nat) : Prop :=
  s = [48] ∨ ∃ d ds, s = d :: ds ∧ (49 ≤ d ∧ d ≤ 57) ∧ ∀ c ∈ ds, isDigit c

/-- The shape `( \. [0-9]+ )?`. -/
def IsFracPart (s : List Nat) : Prop :=
  s = [] ∨ ∃ ds, s = 46 :: ds ∧ ds ≠ [] ∧ ∀ c ∈ ds, isDigit c

/-- The shape `( [eE] [+-]? [0-9]+ )?`. -/
def IsExpPart (s : List Nat) : Prop :=
  s = [] ∨ ∃ e sg ds, s = e :: (sg ++ ds) ∧ (e = 101 ∨ e = 69) ∧
    (sg = [] ∨ sg = [43] ∨ sg = [45]) ∧ ds ≠ [] ∧ ∀ c ∈ ds, isDigit c

/-- The shape of the specification,
`-? (0 | [1-9][0-9]*) ( \. [0-9]+ )? ( [eE] [+-]? [0-9]+ )?`, written as the
sentence reads: a text that splits into an optional minus, an integer part, an
optional fraction and an optional exponent. -/
def NumberShape (t : List Nat) : Prop :=
  ∃ m i f x, t = m ++ i ++ f ++ x ∧ (m = [] ∨ m = [45]) ∧ IsIntPart i ∧ IsFracPart f ∧
    IsExpPart x

/-- The digit test as a boolean. -/
def dig (c : Nat) : Bool := decide (isDigit c)

/-- Drop an optional sign `+` or `-`. -/
def skip_sign (r : List Nat) : List Nat :=
  match r with
  | 43 :: r1 => r1
  | 45 :: r1 => r1
  | _ => r

/-- One digit at least, then `f` on what follows the digits. -/
def digits_then (f : List Nat → Bool) (s : List Nat) : Bool :=
  match s with
  | d :: r => dig d && f (r.dropWhile dig)
  | [] => false

/-- A left-to-right matcher for the exponent and the end of the text. -/
def exp_ok (s : List Nat) : Bool :=
  match s with
  | [] => true
  | e :: r => (e == 101 || e == 69) && digits_then List.isEmpty (skip_sign r)

/-- A left-to-right matcher for the fraction and what follows it. -/
def frac_ok (s : List Nat) : Bool :=
  match s with
  | 46 :: r => digits_then exp_ok r
  | _ => exp_ok s

/-- A left-to-right matcher for the integer part and what follows it. -/
def int_ok (s : List Nat) : Bool :=
  match s with
  | [] => false
  | 48 :: r => frac_ok r
  | d :: r => decide (49 ≤ d ∧ d ≤ 57) && frac_ok (r.dropWhile dig)

/-- A left-to-right matcher for the number shape. -/
def number_ok (t : List Nat) : Bool :=
  match t with
  | 45 :: r => int_ok r
  | _ => int_ok t

/-- The buffer of the one-element array `[t]`, with the NUL after it. -/
def numMem (t : List Nat) : List Nat := (91 :: t ++ [93]) ++ [0]

/-- The scanner state inside the number of `[t]`: cursor `p`, last byte read `ch`,
the number starting at offset 1. -/
def numLx (t : List Nat) (p ch : Nat) : Lexer :=
  { mem := numMem t, ep := t.length + 2, p := p, ch := ch, stringp := 1,
    after_comma := false, stack := [SAX_MODE_ARRAY], error_at := none }

/-- The parse of `[t]` has accepted: return code 0 and, after the events `tr`
delivered before the number, one number event with the slice `t` and `end_array`. -/
def Accepts (t : List Nat) (tr : List Event) (r : Result Unit Unit) : Prop :=
  r.rc = 0 ∧ r.cs.trace.map Prod.fst = tr ++ [.number t, .end_array]

/-- The parse of `[t]` ends as the matcher says: accepted when `ok`, else -1. -/
def Verdict (ok : Bool) (t : List Nat) (tr : List Event) (r : Result Unit Unit) : Prop :=
  (ok = true → Accepts t tr r) ∧ (ok = false → r.rc = -1)

/-! ## The syntax stack and the error position along a transition -/

/-- A start event. -/
def Event.opens : Event → Bool
  | .start_object | .start_array => true
  | _ => false

/-- An end event. -/
def Event.closes : Event → Bool
  | .end_object | .end_array => true
  | _ => false

/-- The scanner has left the syntax stack and the error position alone. -/
def Keeps (lx lx1 : Lexer) : Prop := lx1.stack = lx.stack ∧ lx1.error_at = lx.error_at

/-- What one transition from the scanner state `lx` and the consumer state `cs`
does to the syntax stack, the depth and the error position: a jump or a return
without a callback; a syntax error, which stores the cursor; a callback that
aborts, which stores the cursor too; a scalar or key event; a start event followed
by `SYNTAX_PUSH`, which either pushes or returns -1 storing nothing; an end event
followed by `SYNTAX_POP`. -/
inductive LStep {σ H : Type} (vt : H → ajson_sax_cb_t σ H) (lx : Lexer) (cs : Consumer σ H) :
    Step σ H → Prop where
  | jump (l : Label) (lx1 : Lexer) (h : Keeps lx lx1) : LStep vt lx cs (.goto l lx1 cs)
  | accept (lx1 : Lexer) (h : Keeps lx lx1) : LStep vt lx cs (.ret 0 lx1 cs)
  | error (lx1 : Lexer) (h : Keeps lx lx1) :
      LStep vt lx cs (.ret (-1) { lx1 with error_at := some lx1.p } cs)
  | abort (ev : Event) (c : σ) (s : ajson_sax_t H) (rc : Int) (lx1 : Lexer)
      (h : invoke vt cs ev = some (c, s, rc)) (hrc : rc ≠ 0) :
      LStep vt lx cs (.ret rc { lx1 with error_at := some lx1.p } (after_cb cs ev c s rc))
  | scalar (ev : Event) (cs1 : Consumer σ H) (l : Label) (lx1 : Lexer)
      (ho : ev.opens = false) (hc : ev.closes = false) (hd : Delivered vt cs ev cs1)
      (h : Keeps lx lx1) : LStep vt lx cs (.goto l lx1 cs1)
  | opened (ev : Event) (cs1 : Consumer σ H) (l : Label) (lx1 : Lexer) (mode : Nat)
      (ho : ev.opens = true) (hd : Delivered vt cs ev cs1)
      (hs : lx1.stack = mode :: lx.stack) (he : lx1.error_at = lx.error_at)
      (hroom : lx.stack.length < 511) : LStep vt lx cs (.goto l lx1 (depth_inc cs1))
  | full (ev : Event) (cs1 : Consumer σ H) (lx1 : Lexer) (ho : ev.opens = true)
      (hd : Delivered vt cs ev cs1) (h : Keeps lx lx1) (hfull : 511 ≤ lx.stack.length) :
      LStep vt lx cs (.ret (-1) lx1 cs1)
  | closed (ev : Event) (cs1 : Consumer σ H) (lx1 : Lexer) (hc : ev.closes = true)
      (hd : Delivered vt cs ev cs1) (hs : lx1.stack = lx.stack.tail)
      (he : lx1.error_at = lx.error_at) :
      LStep vt lx cs (.goto .determine_next_step lx1 (depth_dec cs1))

/-- The return code of a parse and the position stored through `error_at`, if any. -/
def error_report {σ H : Type} (r : Option (Result σ H)) : Option (Int × Option Nat) :=
  r.map fun r => (r.rc, r.lx.error_at)

/-- No callback ever writes `current_depth`, the field "tracked by the parser". -/
def KeepsDepth {σ H : Type} (vt : H → ajson_sax_cb_t σ H) : Prop :=
  ∀ (cs : Consumer σ H) (ev : Event) (c : σ) (s : ajson_sax_t H) (rc : Int),
    invoke vt cs ev = some (c, s, rc) → s.current_depth = cs.sax.current_depth

/-- The depth of the handle is the depth of the syntax stack.  The one exception
is the state after a closer met at the root: `SYNTAX_POP` leaves `stack_depth` at
0 and takes `current_depth` to -1, and `determine_next_step` returns at once. -/
def DepthInv {σ H : Type} (l : Label) (lx : Lexer) (cs : Consumer σ H) : Prop :=
  cs.sax.current_depth = (lx.stack.length : Int) ∨ (l = .determine_next_step ∧ lx.stack = [])

/-- The handler sets of the test `sax_anchor_correctness`. -/
inductive AnchorSet where
  | anchor_root
  | anchor_h
deriving DecidableEq, Repr

/-- The table of the test `sax_anchor_correctness`, the context being the counter
`pop_count`: `anchor_root` pushes `anchor_h` in `on_start_object`; `anchor_h` calls
`ajson_sax_try_pop` in `on_end_object` and counts the pops that succeed. -/
def anchor_vt : AnchorSet → ajson_sax_cb_t Nat AnchorSet
  | .anchor_root =>
    { no_handlers Nat AnchorSet with
      on_start_object := some fun c s => (c, ajson_sax_push s (some .anchor_h), 0) }
  | .anchor_h =>
    { no_handlers Nat AnchorSet with
      on_end_object := some fun c s =>
        (if (ajson_sax_try_pop s).2 then c + 1 else c, (ajson_sax_try_pop s).1, 0) }

/-! ## Bare identifiers -/

/-- An ASCII letter. -/
def isLetter (c : Nat) : Prop := (65 ≤ c ∧ c ≤ 90) ∨ (97 ≤ c ∧ c ≤ 122)

instance (c : Nat) : Decidable (isLetter c) := by unfold isLetter; infer_instance

/-- A byte of an identifier: a letter, a digit or `_`. -/
def isIdentByte (c : Nat) : Prop := isLetter c ∨ isDigit c ∨ c = 95

instance (c : Nat) : Decidable (isIdentByte c) := by unfold isIdentByte; infer_instance

/-- The bare identifier `w` is the token under the cursor: its bytes stand at the
cursor, wholly inside the buffer, it starts with a letter, and the byte after it,
if the buffer has one, does not continue it. -/
def BareWordAt (lx : Lexer) (w : List Nat) : Prop :=
  lx.p + w.length ≤ lx.ep ∧ (∀ i, i < w.length → rd lx.mem (lx.p + i) = rd w i) ∧
    isLetter (rd w 0) ∧ (∀ c ∈ w, isIdentByte c) ∧
    (lx.p + w.length < lx.ep → ¬ isIdentByte (rd lx.mem (lx.p + w.length)))

/-! ## Strings and keys -/

/-- The number of consecutive backslashes that end just before offset `q`. -/
def backslashes (mem : List Nat) : Nat → Nat
  | 0 => 0
  | q + 1 => if rd mem q = 92 then backslashes mem q + 1 else 0

/-- A quote at offset `i` preceded by an even number (possibly zero) of
consecutive backslashes. -/
def Unescaped (mem : List Nat) (i : Nat) : Prop := rd mem i = 34 ∧ backslashes mem i % 2 = 0

instance (mem : List Nat) (i : Nat) : Decidable (Unescaped mem i) := by
  unfold Unescaped; infer_instance

/-- The string or key that opens at the quote at offset `o` ends at offset `q`:
the first later quote, inside the buffer, that is preceded by an even number of
consecutive backslashes. -/
def ClosingQuote (mem : List Nat) (o ep q : Nat) : Prop :=
  rd mem o = 34 ∧ o < q ∧ q < ep ∧ Unescaped mem q ∧ ∀ i, i < q → o < i → ¬ Unescaped mem i

/-- From the state `(l, lx, cs)` the scanner makes some jumps without a callback
and then runs `if (sax.cb.on_X) CHECK_CB(sax.cb.on_X(...))` for the event `ev`,
followed by a jump to `l1` with the scanner state `lx1`. -/
def Emits {σ H : Type} (vt : H → ajson_sax_cb_t σ H) (l : Label) (lx : Lexer)
    (cs : Consumer σ H) (ev : Event) (l1 : Label) (lx1 : Lexer) : Prop :=
  ∃ k l2 lx2 lxa, reach vt k l lx cs = some (l2, lx2, cs) ∧
    step vt l2 lx2 cs = CHECK_CB vt lxa cs ev (fun cs1 => .goto l1 lx1 cs1)

/-! ## Number tokens in any context -/

/-- The bytes `R` stand in `mem` from offset `s` on. -/
def At (mem : List Nat) (s : Nat) (R : List Nat) : Prop :=
  ∀ k, k < R.length → rd mem (s + k) = rd R k

/-- The scanner state inside a value token that starts at offset `a`: cursor `p`,
last byte read `ch`. -/
def tokLx (lx : Lexer) (a p ch : Nat) : Lexer :=
  { lx with p := p, ch := ch, stringp := a, after_comma := false }

/-- The memory `mem1` is `mem` with `n` whitespace bytes inserted at offset `a`. -/
structure Ins (a n : Nat) (mem mem1 : List Nat) : Prop where
  len : mem1.length = mem.length + n
  fits : a ≤ mem.length
  low : ∀ i, i < a → rd mem1 i = rd mem i
  high : ∀ i, a ≤ i → rd mem1 (i + n) = rd mem i
  gap : ∀ i, a ≤ i → i < a + n → isSpace (rd mem1 i)

/-- The transition `s1` goes the way of the transition given last: when that one
returns and `R` holds, `s1` returns the same code with the same consumer state;
when that one jumps to a label and a scanner state that satisfy `G`, `s1` jumps to
the same label with the same consumer state and a scanner state related by `Q`. -/
def Sim {σ H : Type} (R : Prop) (G : Label → Lexer → Prop)
    (Q : Label → Lexer → Lexer → Prop) (s1 : Step σ H) : Step σ H → Prop
  | .ret rc _ cs => R → ∃ lx1, s1 = .ret rc lx1 cs
  | .goto l lx cs => G l lx → ∃ lx1, s1 = .goto l lx1 cs ∧ Q l lx lx1

/-- Inside a token that began at or after offset `a`: the scanner state `lx1` on
the memory with the inserted bytes is the state `lx` moved forward by `n`. -/
structure Tok (a n : Nat) (lx lx1 : Lexer) : Prop where
  ins : Ins a n lx.mem lx1.mem
  ep : lx1.ep = lx.ep + n
  p : lx1.p = lx.p + n
  ch : lx1.ch = lx.ch
  stringp : lx1.stringp = lx.stringp + n
  after_comma : lx1.after_comma = lx.after_comma
  stack : lx1.stack = lx.stack
  lo : a ≤ lx.stringp
  hi : lx.stringp < lx.p

/-- What a label reads of the scanner state besides the cursor, on the two
memories, once the cursor is past the inserted bytes: the delimiter tests read
`ch`; a string scan reads `stringp`, which stands right after the opening quote; a
number scan reads `stringp`. -/
def ShiftedAt (a n : Nat) (l : Label) (lx lx1 : Lexer) : Prop :=
  match l with
  | .look_for_key | .look_for_next_object | .add_string => lx1.ch = lx.ch
  | .get_end_of_key | .keyed_start_string | .start_string =>
    lx1.stringp = lx.stringp + n ∧ a < lx.stringp ∧ lx.stringp ≤ lx.p ∧
      rd lx.mem (lx.stringp - 1) = 34
  | .next_digit | .keyed_next_digit | .decimal_number | .keyed_decimal_number =>
    lx1.stringp = lx.stringp + n ∧ a ≤ lx.stringp ∧ lx.stringp < lx.p
  | _ => True

/-- The scanner state `lx1` on the memory with the inserted bytes is the state
`lx` moved forward by `n`, the cursor being at or after offset `a`. -/
def Shifted (a n : Nat) (l : Label) (lx lx1 : Lexer) : Prop :=
  Ins a n lx.mem lx1.mem ∧ lx1.ep = lx.ep + n ∧ lx1.p = lx.p + n ∧ a ≤ lx.p ∧
    lx1.after_comma = lx.after_comma ∧ lx1.stack = lx.stack ∧ ShiftedAt a n l lx lx1

/-- The labels that a finished value token jumps to. -/
def AfterTok : Label → Prop
  | .look_for_key | .look_for_next_object | .add_string | .next_digit | .keyed_next_digit
  | .decimal_number | .keyed_decimal_number => True
  | _ => False

/-- No condition on a jump. -/
def AnyJump : Label → Lexer → Prop := fun _ _ => True

/-- A byte that ends the digits of a number without continuing the number. -/
def Delim (c : Nat) : Prop := ¬ isDigit c ∧ c ≠ 46 ∧ c ≠ 101 ∧ c ≠ 69

instance (c : Nat) : Decidable (Delim c) := by unfold Delim; infer_instance

/-- The states whose jump can leave the cursor where it is: `add_string`,
`determine_next_step`, and a digit scan that meets a delimiter at once. -/
def Stays (l : Label) (lx : Lexer) : Prop :=
  match l with
  | .add_string | .determine_next_step => True
  | .next_digit | .keyed_next_digit => Delim (rd lx.mem lx.p)
  | _ => False

/-- The jump from `(l, lx)` to `(l1, lx1)` moves the cursor forward, or leaves it
in place from a state that can stay. -/
def Advances (l : Label) (lx : Lexer) (_l1 : Label) (lx1 : Lexer) : Prop :=
  lx.p < lx1.p ∨ (lx1.p = lx.p ∧ Stays l lx)

/-- The labels at which the scanner stands between two tokens: it is about to
read the first byte of a value or key, or to test the delimiter after a value. -/
def Dispatch : Label → Prop
  | .start_value | .start_key | .start_key_object | .look_for_key | .look_for_next_object
  | .add_string | .determine_next_step => True
  | _ => False

instance (l : Label) : Decidable (Dispatch l) := by cases l <;> unfold Dispatch <;> infer_instance

/-- A state that the parse can still leave for a state between two tokens at
offset `a`: the cursor is before `a`, or it is at `a` and the label is one of
those between tokens or a digit scan that meets a delimiter at once. -/
def PreOk (a : Nat) (l : Label) (lx : Lexer) : Prop :=
  lx.p < a ∨ (lx.p = a ∧ (Dispatch l ∨
    ((l = .next_digit ∨ l = .keyed_next_digit) ∧ Delim (rd lx.mem a))))

/-- What the delimiter tests read of `ch` before the inserted bytes: on either
memory it is the byte under the cursor, or it is the `0` left by `-0`. -/
def PrefixedAt (l : Label) (lx lx1 : Lexer) : Prop :=
  match l with
  | .look_for_key | .look_for_next_object | .add_string =>
    (lx.ch = rd lx.mem lx.p ∧ lx1.ch = rd lx1.mem lx1.p) ∨ (lx.ch = 48 ∧ lx1.ch = 48)
  | _ => True

/-- The scanner state `lx1` on the memory with the inserted bytes stands where
`lx` stands, the cursor being at or before offset `a`. -/
def Prefixed (a n : Nat) (l : Label) (lx lx1 : Lexer) : Prop :=
  Ins a n lx.mem lx1.mem ∧ lx1.ep = lx.ep + n ∧ a < lx.ep ∧ lx1.p = lx.p ∧ lx.p ≤ a ∧
    lx1.after_comma = lx.after_comma ∧ lx1.stack = lx.stack ∧ lx1.stringp = lx.stringp ∧
    PrefixedAt l lx lx1

/-- Inside a number before the inserted bytes: both scanners have just read the
byte before the cursor, which is at most one past offset `a`. -/
structure Low (a n : Nat) (lx lx1 : Lexer) : Prop where
  ins : Ins a n lx.mem lx1.mem
  ep : lx1.ep = lx.ep + n
  hae : a < lx.ep
  p : lx1.p = lx.p
  le : lx.p ≤ a + 1
  fresh : Fresh lx
  fresh1 : Fresh lx1
  stringp : lx1.stringp = lx.stringp
  after_comma : lx1.after_comma = lx.after_comma
  stack : lx1.stack = lx.stack

/-- The offset `a` lies between the closing quote of the key that is scanned from
the state `lx` and the colon (or the end of the buffer) that the scan for the
colon stops at. -/
def KeyGap (lx : Lexer) (a : Nat) : Prop :=
  scan_to lx.mem lx.ep 34 (lx.ep - lx.p) lx.p < lx.ep ∧
    ¬ escaped_quote lx.mem (scan_to lx.mem lx.ep 34 (lx.ep - lx.p) lx.p) ∧
    scan_to lx.mem lx.ep 34 (lx.ep - lx.p) lx.p < a ∧
    a ≤ scan_to lx.mem lx.ep 58 (lx.ep - (scan_to lx.mem lx.ep 34 (lx.ep - lx.p) lx.p + 1))
      (scan_to lx.mem lx.ep 34 (lx.ep - lx.p) lx.p + 1)

instance (lx : Lexer) (a : Nat) : Decidable (KeyGap lx a) := by unfold KeyGap; infer_instance

/-- The offset `a` of the document is a place between two tokens for the parser:
the parse passes through a state that is about to read the next token or the
delimiter after a value with the cursor at `a`, or through the scan of a key with
`a` between the closing quote of the key and its colon. -/
def TokenBoundary {σ H : Type} (vt : H → ajson_sax_cb_t σ H) (doc : List Nat) (cb : H)
    (ctx : σ) (a : Nat) : Prop :=
  ∃ l lx, Passes vt doc cb ctx l lx ∧
    ((Dispatch l ∧ lx.p = a) ∨ (l = .get_end_of_key ∧ KeyGap lx a))
/-! ## The string utilities (ajson_string_utils.c)

`ajson_encode`, `ajson_decode` and `ajson_decode2` take a pointer `s` and a
length.  As for the parser, `mem` is the memory from `s` on, a pointer is an
offset into it and a read past its end yields 0; the slice handed to the
function is `[0, length)`.  The decoder reads past the end of its slice when an
escape is cut short by it, so what stands in memory after the slice matters.
The pool only serves the allocation of the result, which is modelled by the list
of the bytes written to it, in order. -/

/-- What `ajson_encode`, `ajson_decode` and `ajson_decode2` return: the argument
`s` itself (`same = true`) or a buffer from the pool, with the bytes that stand
in it: the slice for `s` itself, else the bytes written before the final NUL. -/
structure Returned where
  same : Bool
  bytes : List Nat
deriving DecidableEq, Repr

/-- One hex digit of `unicode_to_utf8`: the value added to `ch << 4`, or `none`
where the C code returns -1:
`if (c >= '0' && c <= '9') .. c - '0'; else if (c >= 'A' && c <= 'F') .. c - 'A' + 10;
 else if (c >= 'a' && c <= 'f') .. c - 'a' + 10; else return -1;`. -/
def hex_value (c : Nat) : Option Nat :=
  if 48 ≤ c ∧ c ≤ 57 then some (c - 48)
  else if 65 ≤ c ∧ c ≤ 70 then some (c - 65 + 10)
  else if 97 ≤ c ∧ c ≤ 102 then some (c - 97 + 10)
  else none

/-- The four hex digits read by `unicode_to_utf8` from offset `s` on:
`c = *s++; ch = digit; c = *s++; ch = (ch << 4) + digit;` twice more; `none` where
the C code returns -1. -/
def hex4 (mem : List Nat) (s : Nat) : Option Nat :=
  match hex_value (rd mem s) with
  | none => none
  | some v0 =>
    match hex_value (rd mem (s + 1)) with
    | none => none
    | some v1 =>
      match hex_value (rd mem (s + 2)) with
      | none => none
      | some v2 =>
        match hex_value (rd mem (s + 3)) with
        | none => none
        | some v3 => some ((((((v0 <<< 4) + v1) <<< 4) + v2) <<< 4) + v3)

/-- The end of `unicode_to_utf8`, from `*src = s;` on: the bytes stored to `dest`,
as many as the value returned.  Every byte stored is below 256, so the conversion
to `char` loses nothing. -/
def utf8_store (ch : Nat) : List Nat :=
  if ch < 0x80 then [ch]
  else if ch < 0x800 then [(ch >>> 6) ||| 0xC0, (ch &&& 0x3F) ||| 0x80]
  else if ch < 0x10000 then
    [(ch >>> 12) ||| 0xE0, ((ch >>> 6) &&& 0x3F) ||| 0x80, (ch &&& 0x3F) ||| 0x80]
  else if ch < 0x110000 then
    [(ch >>> 18) ||| 0xF0, ((ch >>> 12) &&& 0x3F) ||| 0x80, ((ch >>> 6) &&& 0x3F) ||| 0x80,
      (ch &&& 0x3F) ||| 0x80]
  else []

/-- The function `unicode_to_utf8(dest, &src)` with `*src` at offset `s`: `none`
where it returns -1, else the bytes stored to `dest` (as many as the value
returned) and the new `*src`. -/
def unicode_to_utf8 (mem : List Nat) (s : Nat) : Option (List Nat × Nat) :=
  match hex4 mem s with
  | none => none
  | some ch =>
    let s := s + 4
    if 0xD800 ≤ ch ∧ ch ≤ 0xDBFF then
      if rd mem s ≠ 92 ∨ rd mem (s + 1) ≠ 117 then none
      else
        let s := s + 2
        match hex4 mem s with
        | none => none
        | some ch2 =>
          let s := s + 4
          if ch2 < 0xDC00 ∨ ch2 > 0xDFFF then none
          else some (utf8_store (((ch - 0xD800) <<< 10) + (ch2 - 0xDC00) + 0x10000), s)
    else some (utf8_store ch, s)

/-- The `switch (ch)` of `_ajson_decode` on the byte after a backslash, with the
cursor `p` on that byte: the new cursor and the bytes written.  An escape that the
`switch` does not list writes nothing. -/
def decode_escape (mem : List Nat) (p : Nat) (out : List Nat) : Nat × List Nat :=
  let ch := rd mem p
  let p := p + 1
  if ch = 34 then (p, out ++ [34])
  else if ch = 92 then (p, out ++ [92])
  else if ch = 47 then (p, out ++ [47])
  else if ch = 98 then (p, out ++ [8])
  else if ch = 102 then (p, out ++ [12])
  else if ch = 110 then (p, out ++ [10])
  else if ch = 114 then (p, out ++ [13])
  else if ch = 116 then (p, out ++ [9])
  else if ch = 117 then
    let sp := p - 2
    match unicode_to_utf8 mem p with
    | none =>
      (sp + 6, out ++ [rd mem sp, rd mem (sp + 1), rd mem (sp + 2), rd mem (sp + 3),
        rd mem (sp + 4), rd mem (sp + 5)])
    | some (bytes, p1) => (p1, out ++ bytes)
  else (p, out)

/-- One iteration of the loop of `_ajson_decode`, from the cursor `p` with the
bytes `out` written so far (`rp - res` is their number): the new cursor and the
bytes written. -/
def decode_step (mem : List Nat) (p : Nat) (out : List Nat) : Nat × List Nat :=
  let ch := rd mem p
  let p := p + 1
  if ch ≠ 92 then (p, out ++ [ch]) else decode_escape mem p out

/-- The loop `while (p < ep) { ... }` of `_ajson_decode`; `none` when `n`
iterations do not suffice. -/
def decode_loop (mem : List Nat) (ep : Nat) : Nat → Nat → List Nat → Option (List Nat)
  | 0, p, out => if p < ep then none else some out
  | n + 1, p, out =>
    if p < ep then decode_loop mem ep n (decode_step mem p out).1 (decode_step mem p out).2
    else some out

/-- The function `_ajson_decode(pool, &eptr, s, p, length)`: the bytes of the
result `res` up to `rp`, where the final NUL is written and where `eptr` points.
The first `p - s` bytes are copied by `memcpy`; every iteration moves the cursor
forward, so `length - p` iterations suffice. -/
def _ajson_decode (mem : List Nat) (p length : Nat) : Option (List Nat) :=
  decode_loop mem length (length - p) p (slice mem 0 p)

/-- The loop `for (;;) { if (p == ep) ...; else if (*p == '\\') break; p++; }` of
`ajson_decode` and `ajson_decode2`, with `ep - p` as the first argument: the
offset of the first backslash, or `none` when `p` comes to `ep`. -/
def first_backslash (mem : List Nat) : Nat → Nat → Option Nat
  | 0, _ => none
  | n + 1, p => if rd mem p = 92 then some p else first_backslash mem n (p + 1)

/-- The function `ajson_decode(pool, s, length)`. -/
def ajson_decode (mem : List Nat) (length : Nat) : Option Returned :=
  match first_backslash mem length 0 with
  | none => some ⟨true, slice mem 0 length⟩
  | some p => (_ajson_decode mem p length).map fun out => ⟨false, out⟩

/-- The function `ajson_decode2(&rlen, pool, s, length)`: what it returns and the
length stored to `*rlen`, which is `length` or `eptr - r`. -/
def ajson_decode2 (mem : List Nat) (length : Nat) : Option (Returned × Nat) :=
  match first_backslash mem length 0 with
  | none => some (⟨true, slice mem 0 length⟩, length)
  | some p => (_ajson_decode mem p length).map fun out => (⟨false, out⟩, out.length)

/-- An upper-case hex digit, as `%X` prints it. -/
def hex_upper (v : Nat) : Nat := if v < 10 then 48 + v else 55 + v

/-- The six bytes that `sprintf(wp, "\\u%04X", v)` writes before its NUL, for a
value `v` of `unsigned char`. -/
def sprintf_u04X (v : Nat) : List Nat :=
  [92, 117, hex_upper (v / 4096 % 16), hex_upper (v / 256 % 16), hex_upper (v / 16 % 16),
    hex_upper (v % 16)]

/-- The `switch (*p)` of `_ajson_encode`: the bytes written for the byte `c`. -/
def encode_byte (c : Nat) : List Nat :=
  if c = 34 then [92, 34]
  else if c = 92 then [92, 92]
  else if c = 47 then [92, 47]
  else if c = 8 then [92, 98]
  else if c = 12 then [92, 102]
  else if c = 10 then [92, 110]
  else if c = 13 then [92, 114]
  else if c = 9 then [92, 116]
  else if c < 0x20 then sprintf_u04X c
  else [c]

/-- The loop `while (p < ep) { switch (*p) ... }` of `_ajson_encode`, with
`ep - p` as the first argument: every iteration is one `p++`. -/
def encode_loop (mem : List Nat) : Nat → Nat → List Nat → List Nat
  | 0, _, out => out
  | n + 1, p, out => encode_loop mem n (p + 1) (out ++ encode_byte (rd mem p))

/-- The function `_ajson_encode(pool, s, p, length)`: the bytes of the result up
to `wp`, where the final NUL is written. -/
def _ajson_encode (mem : List Nat) (p length : Nat) : List Nat :=
  encode_loop mem (length - p) p (slice mem 0 p)

/-- The test of the loop of `ajson_encode`:
`ch < 0x20 || ch == quote || ch == backslash || ch == '/' || ch == 0`. -/
def needs_escape (c : Nat) : Prop := c < 0x20 ∨ c = 34 ∨ c = 92 ∨ c = 47 ∨ c = 0

instance (c : Nat) : Decidable (needs_escape c) := by unfold needs_escape; infer_instance

/-- The loop `while (p < ep) { if (...) return _ajson_encode(pool, s, p, length); p++; }`
of `ajson_encode`, with `ep - p` as the first argument: the offset of the first
byte to escape, or `none` when `p` comes to `ep`. -/
def first_escape (mem : List Nat) : Nat → Nat → Option Nat
  | 0, _ => none
  | n + 1, p => if needs_escape (rd mem p) then some p else first_escape mem n (p + 1)

/-- The function `ajson_encode(pool, s, length)`. -/
def ajson_encode (mem : List Nat) (length : Nat) : Returned :=
  match first_escape mem length 0 with
  | none => ⟨true, slice mem 0 length⟩
  | some p => ⟨false, _ajson_encode mem p length⟩

/-! ### The layouts of the specification -/

/-- The byte-wise escape map of the specification: the short forms for the quote,
the backslash, the slash and the five named controls, `\u00XX` with upper-case hex
digits for any other byte below 0x20, the byte itself otherwise. -/
def escape_map (c : Nat) : List Nat :=
  if c = 34 then ascii "\\\""
  else if c = 92 then ascii "\\\\"
  else if c = 47 then ascii "\\/"
  else if c = 8 then ascii "\\b"
  else if c = 12 then ascii "\\f"
  else if c = 10 then ascii "\\n"
  else if c = 13 then ascii "\\r"
  else if c = 9 then ascii "\\t"
  else if c < 0x20 then ascii "\\u00" ++ [hex_upper (c / 16), hex_upper (c % 16)]
  else [c]

/-- The UTF-8 bit layout of a code point below 0x10000, as the specification
gives it: one, two or three bytes. -/
def utf8_bmp (cp : Nat) : List Nat :=
  if cp < 0x80 then [cp]
  else if cp < 0x800 then [0xC0 ||| (cp >>> 6), 0x80 ||| (cp &&& 0x3F)]
  else [0xE0 ||| (cp >>> 12), 0x80 ||| ((cp >>> 6) &&& 0x3F), 0x80 ||| (cp &&& 0x3F)]

/-- The four-byte UTF-8 encoding of a code point from 0x10000 to 0x10FFFF. -/
def utf8_four (cp : Nat) : List Nat :=
  [0xF0 ||| (cp >>> 18), 0x80 ||| ((cp >>> 12) &&& 0x3F), 0x80 ||| ((cp >>> 6) &&& 0x3F),
    0x80 ||| (cp &&& 0x3F)]

/-- The character `c` is a hex digit, upper or lower case. -/
def IsHexDigit (c : Nat) : Prop := (48 ≤ c ∧ c ≤ 57) ∨ (65 ≤ c ∧ c ≤ 70) ∨ (97 ≤ c ∧ c ≤ 102)

instance (c : Nat) : Decidable (IsHexDigit c) := by unfold IsHexDigit; infer_instance

/-- The value of a hex digit: `0-9`, `A-F` and `a-f` stand for 0 to 15. -/
def hexval (c : Nat) : Nat := if c ≤ 57 then c - 48 else if c ≤ 70 then c - 55 else c - 87

/-- The number that four hex digits encode, most significant first. -/
def code_point (c0 c1 c2 c3 : Nat) : Nat :=
  4096 * hexval c0 + 256 * hexval c1 + 16 * hexval c2 + hexval c3

/-- Four hex digits stand at offset `s`. -/
def HexAt (mem : List Nat) (s : Nat) : Prop :=
  IsHexDigit (rd mem s) ∧ IsHexDigit (rd mem (s + 1)) ∧ IsHexDigit (rd mem (s + 2)) ∧
    IsHexDigit (rd mem (s + 3))

instance (mem : List Nat) (s : Nat) : Decidable (HexAt mem s) := by
  unfold HexAt; infer_instance

/-- The number that the four bytes at offset `s` encode as hex digits. -/
def code_at (mem : List Nat) (s : Nat) : Nat :=
  code_point (rd mem s) (rd mem (s + 1)) (rd mem (s + 2)) (rd mem (s + 3))

/-- The escape at offset `p` is malformed: `\u` and then four bytes of which one
is no hex digit; or four hex digits of a high surrogate (D800-DBFF) that is not
followed by `\u` and four hex digits of a low surrogate (DC00-DFFF): no `\u`
follows, or the four bytes after it hold a byte that is no hex digit or encode a
value outside DC00-DFFF. -/
def Malformed (mem : List Nat) (p : Nat) : Prop :=
  rd mem p = 92 ∧ rd mem (p + 1) = 117 ∧
    (¬ HexAt mem (p + 2) ∨
      (HexAt mem (p + 2) ∧ (0xD800 ≤ code_at mem (p + 2) ∧ code_at mem (p + 2) ≤ 0xDBFF) ∧
        ¬ (rd mem (p + 6) = 92 ∧ rd mem (p + 7) = 117 ∧ HexAt mem (p + 8) ∧
          0xDC00 ≤ code_at mem (p + 8) ∧ code_at mem (p + 8) ≤ 0xDFFF)))

instance (mem : List Nat) (p : Nat) : Decidable (Malformed mem p) := by
  unfold Malformed; infer_instance

/-! ## The buffer along a transition -/

/-- The buffer `[buf_begin, buf_end)` holds in the scanner state `lx1` what it
holds in `lx`, byte for byte. -/
def SameBuf (lx lx1 : Lexer) : Prop :=
  lx1.ep = lx.ep ∧ ∀ i, i < lx.ep → rd lx1.mem i = rd lx.mem i

/-- A transition from the scanner state `lx` ends, by a jump or by a return, with
the buffer as it was. -/
def KeepsBuf {σ H : Type} (lx : Lexer) : Step σ H → Prop
  | .ret _ lx1 _ => SameBuf lx lx1
  | .goto _ lx1 _ => SameBuf lx lx1

/-! ## Delegation -/

/-- The handler set `sub` is a delegate that resigns in its end callbacks: while
it is the active set, a callback of it for a start, scalar or key event leaves the
handle as it is, and a callback of it for an end event leaves the handle as
`ajson_sax_try_pop` does. -/
structure Resigns {σ H : Type} (vt : H → ajson_sax_cb_t σ H) (sub : H) : Prop where
  keeps : ∀ (cs : Consumer σ H) (ev : Event) (c : σ) (s : ajson_sax_t H) (rc : Int),
    cs.sax.cb = sub → ev.closes = false → invoke vt cs ev = some (c, s, rc) → s = cs.sax
  pops : ∀ (cs : Consumer σ H) (ev : Event) (c : σ) (s : ajson_sax_t H) (rc : Int),
    cs.sax.cb = sub → ev.closes = true → invoke vt cs ev = some (c, s, rc) →
      s = (ajson_sax_try_pop cs.sax).1

/-- The state after `n` jumps when every state passed, the first and the last
included, has a syntax stack of `d` frames at least (a container opened at depth
`d` is still open); `none` otherwise. -/
def reach_within {σ H : Type} (vt : H → ajson_sax_cb_t σ H) (d : Nat) :
    Nat → Label → Lexer → Consumer σ H → Option (Label × Lexer × Consumer σ H)
  | 0, l, lx, cs => if d ≤ lx.stack.length then some (l, lx, cs) else none
  | n + 1, l, lx, cs =>
    if d ≤ lx.stack.length then
      match step vt l lx cs with
      | .ret _ _ _ => none
      | .goto l1 lx1 cs1 => reach_within vt d n l1 lx1 cs1
    else none

/-- What is known inside a container whose start callback pushed the delegate
`sub`: `sub` is the active set, the frame saved by the push is the top frame, the
anchor depth is the depth of the container, and the depth of the handle is the
depth of the syntax stack. -/
structure Delegated {σ H : Type} (sub : H) (top : List (H × Int)) (d : Nat) (lx : Lexer)
    (cs : Consumer σ H) : Prop where
  cb : cs.sax.cb = sub
  top : cs.sax.top = top
  anchor : cs.sax.anchor_depth = (d : Int)
  depth : cs.sax.current_depth = (lx.stack.length : Int)
  deep : d ≤ lx.stack.length
  pos : 1 ≤ d

/-- The digits at the head of a text, read as a decimal number on top of `acc`. -/
def atoi_digits : List Nat → Nat → Nat
  | [], acc => acc
  | c :: r, acc => if 48 ≤ c ∧ c ≤ 57 then atoi_digits r (acc * 10 + (c - 48)) else acc

/-- The conversion of a value to `int`, an integer of 32 bits in two's
complement. -/
def to_int (n : Int) : Int := (n + 2147483648) % 4294967296 - 2147483648

/-- The value that `strtol(s, NULL, 10)` reads: white space, an optional sign and
the decimal digits that follow. -/
def strtol_value (s : List Nat) : Int :=
  match s.dropWhile (fun c => decide (c = 32 ∨ (9 ≤ c ∧ c ≤ 13))) with
  | 45 :: r => - (atoi_digits r 0 : Int)
  | 43 :: r => (atoi_digits r 0 : Int)
  | r => (atoi_digits r 0 : Int)

/-- The function `strtol(s, NULL, 10)` of the C library where `long` has 64 bits:
the value read, brought into the range of `long`. -/
def strtol (s : List Nat) : Int :=
  if 9223372036854775807 < strtol_value s then 9223372036854775807
  else if strtol_value s < -9223372036854775808 then -9223372036854775808
  else strtol_value s

/-- The function `atoi` of the C library as the C standard writes it,
`(int) strtol(s, NULL, 10)`.  The standard leaves `atoi` undefined on a text whose
value is out of the range of `int`; what a consumer computes with it is therefore
stated for every function that stands for `atoi`, this one being an instance. -/
def atoi (s : List Nat) : Int := to_int (strtol s)

/-- The context `unified_ctx_t` of the test `sax_stack_unified_logic`; the key is
kept by the bytes of its C string, the two numbers are of type `int`. -/
structure unified_ctx_t where
  current_key : List Nat
  user_num : Int
  root_num : Int
deriving DecidableEq, Repr

/-- The two handler sets of the test `sax_stack_unified_logic`. -/
inductive UnifiedSet where
  | u_root_handlers
  | u_user_handlers
deriving DecidableEq, Repr

/-- The table of the test `sax_stack_unified_logic`, given the function `atoi` of
the C library.  `u_root_handlers`: `on_key` copies the key to the context
(`strcpy`), `on_start_object` pushes `u_user_handlers` when the key copied last is
`special` (`strcmp`), `on_number` stores `atoi` of the slice to `root_num`.
`u_user_handlers`: `on_number` stores `atoi` of the slice to `user_num`,
`on_end_object` calls `ajson_sax_try_pop`.  (The field `current_key` has 32 bytes;
the table stands for the C handlers on keys shorter than that.) -/
def unified_vt (atoi : List Nat → Int) : UnifiedSet → ajson_sax_cb_t unified_ctx_t UnifiedSet
  | .u_root_handlers =>
    { no_handlers unified_ctx_t UnifiedSet with
      on_key := some fun c s k => ({ c with current_key := c_string k }, s, 0)
      on_start_object := some fun c s =>
        (c, if c.current_key = ascii "special" then ajson_sax_push s (some .u_user_handlers)
          else s, 0)
      on_number := some fun c s v => ({ c with root_num := atoi (c_string v) }, s, 0) }
  | .u_user_handlers =>
    { no_handlers unified_ctx_t UnifiedSet with
      on_number := some fun c s v => ({ c with user_num := atoi (c_string v) }, s, 0)
      on_end_object := some fun c s => (c, (ajson_sax_try_pop s).1, 0) }

/-- The document `{"special": {"v": x}, "normal": {"v": y}}` of the test
`sax_stack_unified_logic`, with the texts `x` and `y` for its two numbers. -/
def unified_doc (x y : List Nat) : List Nat :=
  ascii "\x7b\"special\": \x7b\"v\": " ++ x ++ ascii "\x7d, \"normal\": \x7b\"v\": " ++ y ++
    ascii "\x7d\x7d"

/-- The consumer state after the statement `if (sax.cb.on_X) CHECK_CB(...)` for
the event `ev`: unchanged when the handler is absent, else as the callback leaves
it, the call logged. -/
def deliver {σ H : Type} (vt : H → ajson_sax_cb_t σ H) (cs : Consumer σ H) (ev : Event) :
    Consumer σ H :=
  match invoke vt cs ev with
  | none => cs
  | some (c, s, rc) => after_cb cs ev c s rc

/-- The scanner state `lx` with the cursor, the byte read last, the start of the
token, the comma flag and the syntax stack as given. -/
def moved (lx : Lexer) (p ch stringp : Nat) (after_comma : Bool) (stack : List Nat) : Lexer :=
  { lx with p := p, ch := ch, stringp := stringp, after_comma := after_comma, stack := stack }

/-- The consumer state after the events of the member `"K": {"v": N}` of an
object, all accepted: the key `K`, the start of an object, the key `v`, the number
`N` and the end of the object, with the depth bookkeeping of the parser. -/
def after_member {σ H : Type} (vt : H → ajson_sax_cb_t σ H) (cs : Consumer σ H)
    (K N : List Nat) : Consumer σ H :=
  depth_dec (deliver vt (deliver vt (deliver vt (depth_inc (deliver vt
    (deliver vt cs (.key K)) .start_object)) (.key [118])) (.number N)) .end_object)

/-! ## The UTF-8 filter (ajson_string_utils.c)

`ajson_copy_valid_utf8`, `ajson_buffer_append_valid_utf8` and
`ajson_strip_invalid_utf8_inplace` run the same loop over the range
`[src, src + len)` and differ in where the bytes kept go: through the pointer
`d`, to a growable buffer, or back into the range itself.  `mem` is the memory
from `src` on; its cells are bytes, read as `unsigned char`.  The destination of
`ajson_copy_valid_utf8` is a separate memory, modelled by the list of the bytes
stored through `d`, in order; the pointer returned is `dest` plus their number. -/

/-- One iteration of the loop of `ajson_copy_valid_utf8`, for an index `i` below
`len`: the new index and the bytes stored through `d`, in order. -/
def copy_valid_step (mem : List Nat) (len i : Nat) : Nat × List Nat :=
  let c := rd mem i
  if c < 0x80 then (i + 1, [c])
  else if c &&& 0xE0 = 0xC0 ∧ i + 1 < len then
    let c2 := rd mem (i + 1)
    if c2 &&& 0xC0 = 0x80 then (i + 2, [c, c2]) else (i + 1, [])
  else if c &&& 0xF0 = 0xE0 ∧ i + 2 < len then
    let c2 := rd mem (i + 1)
    let c3 := rd mem (i + 2)
    if c2 &&& 0xC0 = 0x80 ∧ c3 &&& 0xC0 = 0x80 then (i + 3, [c, c2, c3]) else (i + 1, [])
  else if c &&& 0xF8 = 0xF0 ∧ i + 3 < len then
    let c2 := rd mem (i + 1)
    let c3 := rd mem (i + 2)
    let c4 := rd mem (i + 3)
    if c2 &&& 0xC0 = 0x80 ∧ c3 &&& 0xC0 = 0x80 ∧ c4 &&& 0xC0 = 0x80 then
      (i + 4, [c, c2, c3, c4])
    else (i + 1, [])
  else (i + 1, [])

/-- The loop `while (i < len) { ... }` of `ajson_copy_valid_utf8`, from the index
`i` with the bytes `out` stored so far; `none` when `n` iterations do not
suffice. -/
def copy_valid_loop (mem : List Nat) (len : Nat) : Nat → Nat → List Nat → Option (List Nat)
  | 0, i, out => if i < len then none else some out
  | n + 1, i, out =>
    if i < len then
      copy_valid_loop mem len n (copy_valid_step mem len i).1
        (out ++ (copy_valid_step mem len i).2)
    else some out

/-- The function `ajson_copy_valid_utf8(dest, src, len)`: the bytes stored to
`dest`; the pointer returned is `dest` plus their number.  Every iteration moves
the index forward, so `len` iterations suffice. -/
def ajson_copy_valid_utf8 (mem : List Nat) (len : Nat) : Option (List Nat) :=
  copy_valid_loop mem len len 0 []

/-- The call `aml_buffer_appendc(bh, c)` of the buffer library: the contents of
the buffer with the byte `c` appended. -/
def aml_buffer_appendc (bh : List Nat) (c : Nat) : List Nat := bh ++ [c]

/-- One iteration of the loop of `ajson_buffer_append_valid_utf8`: the new index
and the contents of the buffer. -/
def append_valid_step (mem : List Nat) (len i : Nat) (bh : List Nat) : Nat × List Nat :=
  let c := rd mem i
  if c < 0x80 then (i + 1, aml_buffer_appendc bh c)
  else if c &&& 0xE0 = 0xC0 ∧ i + 1 < len then
    let c2 := rd mem (i + 1)
    if c2 &&& 0xC0 = 0x80 then (i + 2, aml_buffer_appendc (aml_buffer_appendc bh c) c2)
    else (i + 1, bh)
  else if c &&& 0xF0 = 0xE0 ∧ i + 2 < len then
    let c2 := rd mem (i + 1)
    let c3 := rd mem (i + 2)
    if c2 &&& 0xC0 = 0x80 ∧ c3 &&& 0xC0 = 0x80 then
      (i + 3, aml_buffer_appendc (aml_buffer_appendc (aml_buffer_appendc bh c) c2) c3)
    else (i + 1, bh)
  else if c &&& 0xF8 = 0xF0 ∧ i + 3 < len then
    let c2 := rd mem (i + 1)
    let c3 := rd mem (i + 2)
    let c4 := rd mem (i + 3)
    if c2 &&& 0xC0 = 0x80 ∧ c3 &&& 0xC0 = 0x80 ∧ c4 &&& 0xC0 = 0x80 then
      (i + 4, aml_buffer_appendc
        (aml_buffer_appendc (aml_buffer_appendc (aml_buffer_appendc bh c) c2) c3) c4)
    else (i + 1, bh)
  else (i + 1, bh)

/-- The loop of `ajson_buffer_append_valid_utf8`; `none` when `n` iterations do
not suffice. -/
def append_valid_loop (mem : List Nat) (len : Nat) : Nat → Nat → List Nat → Option (List Nat)
  | 0, i, bh => if i < len then none else some bh
  | n + 1, i, bh =>
    if i < len then
      append_valid_loop mem len n (append_valid_step mem len i bh).1
        (append_valid_step mem len i bh).2
    else some bh

/-- The function `ajson_buffer_append_valid_utf8(bh, src, len)`: the contents of
the buffer `bh` afterwards. -/
def ajson_buffer_append_valid_utf8 (bh mem : List Nat) (len : Nat) : Option (List Nat) :=
  append_valid_loop mem len len 0 bh

/-- One iteration of the loop of `ajson_strip_invalid_utf8_inplace`: the memory
after the stores `str[out_i++] = ...`, the new `in_i` and the new `out_i`.  The
bytes of a sequence are all read before the first of them is stored. -/
def strip_step (mem : List Nat) (len in_i out_i : Nat) : List Nat × Nat × Nat :=
  let c := rd mem in_i
  if c < 0x80 then (wr mem out_i c, in_i + 1, out_i + 1)
  else if c &&& 0xE0 = 0xC0 ∧ in_i + 1 < len then
    let c2 := rd mem (in_i + 1)
    if c2 &&& 0xC0 = 0x80 then (wr (wr mem out_i c) (out_i + 1) c2, in_i + 2, out_i + 2)
    else (mem, in_i + 1, out_i)
  else if c &&& 0xF0 = 0xE0 ∧ in_i + 2 < len then
    let c2 := rd mem (in_i + 1)
    let c3 := rd mem (in_i + 2)
    if c2 &&& 0xC0 = 0x80 ∧ c3 &&& 0xC0 = 0x80 then
      (wr (wr (wr mem out_i c) (out_i + 1) c2) (out_i + 2) c3, in_i + 3, out_i + 3)
    else (mem, in_i + 1, out_i)
  else if c &&& 0xF8 = 0xF0 ∧ in_i + 3 < len then
    let c2 := rd mem (in_i + 1)
    let c3 := rd mem (in_i + 2)
    let c4 := rd mem (in_i + 3)
    if c2 &&& 0xC0 = 0x80 ∧ c3 &&& 0xC0 = 0x80 ∧ c4 &&& 0xC0 = 0x80 then
      (wr (wr (wr (wr mem out_i c) (out_i + 1) c2) (out_i + 2) c3) (out_i + 3) c4, in_i + 4,
        out_i + 4)
    else (mem, in_i + 1, out_i)
  else (mem, in_i + 1, out_i)

/-- The loop of `ajson_strip_invalid_utf8_inplace`; `none` when `n` iterations do
not suffice. -/
def strip_loop (len : Nat) : Nat → List Nat → Nat → Nat → Option (List Nat × Nat)
  | 0, mem, in_i, out_i => if in_i < len then none else some (mem, out_i)
  | n + 1, mem, in_i, out_i =>
    if in_i < len then
      strip_loop len n (strip_step mem len in_i out_i).1 (strip_step mem len in_i out_i).2.1
        (strip_step mem len in_i out_i).2.2
    else some (mem, out_i)

/-- The function `ajson_strip_invalid_utf8_inplace(str, len)`: the memory
afterwards and the length returned. -/
def ajson_strip_invalid_utf8_inplace (mem : List Nat) (len : Nat) : Option (List Nat × Nat) :=
  strip_loop len len mem 0 0

/-! ### The sequences of the specification -/

/-- A continuation byte `10xxxxxx`. -/
def IsContinuation (c : Nat) : Prop := 0x80 ≤ c ∧ c ≤ 0xBF

instance (c : Nat) : Decidable (IsContinuation c) := by unfold IsContinuation; infer_instance

/-- A lead byte `110xxxxx`, of a sequence of two bytes. -/
def IsLead2 (c : Nat) : Prop := 0xC0 ≤ c ∧ c ≤ 0xDF

instance (c : Nat) : Decidable (IsLead2 c) := by unfold IsLead2; infer_instance

/-- A lead byte `1110xxxx`, of a sequence of three bytes. -/
def IsLead3 (c : Nat) : Prop := 0xE0 ≤ c ∧ c ≤ 0xEF

instance (c : Nat) : Decidable (IsLead3 c) := by unfold IsLead3; infer_instance

/-- A lead byte `11110xxx`, of a sequence of four bytes. -/
def IsLead4 (c : Nat) : Prop := 0xF0 ≤ c ∧ c ≤ 0xF7

instance (c : Nat) : Decidable (IsLead4 c) := by unfold IsLead4; infer_instance

/-- A complete sequence: a byte below 0x80, or a lead byte followed by exactly
one, two or three continuation bytes, as the lead byte demands. -/
def IsSequence (u : List Nat) : Prop :=
  (∃ c, u = [c] ∧ c < 0x80) ∨
  (∃ c c2, u = [c, c2] ∧ IsLead2 c ∧ IsContinuation c2) ∨
  (∃ c c2 c3, u = [c, c2, c3] ∧ IsLead3 c ∧ IsContinuation c2 ∧ IsContinuation c3) ∨
  (∃ c c2 c3 c4, u = [c, c2, c3, c4] ∧ IsLead4 c ∧ IsContinuation c2 ∧ IsContinuation c3 ∧
    IsContinuation c4)

/-- A concatenation of complete sequences. -/
def WellFormed (x : List Nat) : Prop :=
  ∃ us : List (List Nat), x = us.flatten ∧ ∀ u ∈ us, IsSequence u

/-- The first `k` bytes of `r` are there and are continuation bytes. -/
def ContinuedBy (r : List Nat) (k : Nat) : Prop :=
  k ≤ r.length ∧ ∀ j, j < k → IsContinuation (rd r j)

/-- The byte `c`, followed in the range by the bytes `r`, is one that the filter
drops alone: a lead byte without its full set of continuation bytes in the range,
a stray continuation byte, or a byte from 0xF8 on. -/
def DroppedAlone (c : Nat) (r : List Nat) : Prop :=
  (IsLead2 c ∧ ¬ ContinuedBy r 1) ∨ (IsLead3 c ∧ ¬ ContinuedBy r 2) ∨
    (IsLead4 c ∧ ¬ ContinuedBy r 3) ∨ IsContinuation c ∨ 0xF8 ≤ c

/-- The output `y` is what is left of the range `x` when it is read from left to
right, every complete sequence met is kept, and every byte that does not start
one is dropped alone, the bytes after it being examined afresh. -/
inductive Sifted : List Nat → List Nat → Prop where
  | done : Sifted [] []
  | keep (u r o : List Nat) (hu : IsSequence u) (h : Sifted r o) : Sifted (u ++ r) (u ++ o)
  | drop (c : Nat) (r o : List Nat) (hd : DroppedAlone c r) (h : Sifted r o) : Sifted (c :: r) o

/-- The stores `str[out_i++] = c` of one iteration, for the bytes `u` of a
sequence, in order, from the index `o` on. -/
def store (mem : List Nat) (o : Nat) : List Nat → List Nat
  | [] => mem
  | c :: u => store (wr mem o c) (o + 1) u

/-! ## Bytes after the root container -/

/-- The labels at which a closer is read. -/
def Closes (l : Label) (lx : Lexer) : Prop :=
  ((l = .start_key ∨ l = .start_value) ∧ lx.p < lx.ep) ∨
    (l = .look_for_key ∧ lx.ch = 125) ∨ (l = .look_for_next_object ∧ lx.ch = 93)

/-- What a jump from the label `l` and the scanner state `lx` to the label `l1`
and the scanner state `lx1` keeps: the end of the buffer; the memory, every NUL
written being replaced by the byte that stood there (the one exception is the
quote that the key scan stores at `buf_end` when the key has no closing quote,
before the jump to `start_key_object` with the cursor past the end); the syntax
stack does not shrink, except by the jump to `determine_next_step` after a
closer, which leaves the cursor right after that closer. -/
def Kept (l : Label) (lx : Lexer) (l1 : Label) (lx1 : Lexer) : Prop :=
  lx1.ep = lx.ep ∧ (lx1.mem = lx.mem ∨ (l1 = .start_key_object ∧ lx.ep < lx1.p)) ∧
    (l1 = .determine_next_step → Closes l lx ∧ lx1.p = lx.p + 1) ∧
    (l1 ≠ .determine_next_step → lx.stack.length ≤ lx1.stack.length)

/-- A state of the parse of a document of `a` bytes, in the memory `M`, that is
past the end of the buffer with a container still open. -/
def PastEnd (a : Nat) (M : List Nat) (l : Label) (lx : Lexer) : Prop :=
  lx.ep = a ∧ a ≤ lx.p ∧ Sane l lx ∧ lx.stack ≠ [] ∧ (lx.mem = M ∨ l = .start_key_object)

/-- The memory `mem1` holds the bytes of `mem` below offset `a`, and is at least
as long. -/
structure Agree (a : Nat) (mem mem1 : List Nat) : Prop where
  len : mem.length ≤ mem1.length
  fits : a ≤ mem.length
  low : ∀ i, i < a → rd mem1 i = rd mem i

/-- What a label reads of `ch` on entry, on the two buffers: the delimiter tests
read the same byte. -/
def ExtAt (l : Label) (lx lx1 : Lexer) : Prop :=
  match l with
  | .look_for_key | .look_for_next_object | .add_string => lx1.ch = lx.ch
  | _ => True

/-- The scanner state `lx1`, on a buffer that goes on after offset `a`, stands
where the state `lx` stands on the buffer that ends at `a`. -/
def Ext (a : Nat) (l : Label) (lx lx1 : Lexer) : Prop :=
  Agree a lx.mem lx1.mem ∧ lx.ep = a ∧ a ≤ lx1.ep ∧ lx1.p = lx.p ∧
    lx1.after_comma = lx.after_comma ∧ lx1.stack = lx.stack ∧ lx1.stringp = lx.stringp ∧
    ExtAt l lx lx1

/-- The jumps that the scanner on the longer buffer follows: the cursor is still
before offset `a`, or a container has just been closed. -/
def Within (a : Nat) (l : Label) (lx : Lexer) : Prop :=
  lx.p < a ∨ l = .determine_next_step

/-- Inside a number before offset `a`: both scanners have just read the byte
before the cursor. -/
structure ExtLow (a : Nat) (lx lx1 : Lexer) : Prop where
  agree : Agree a lx.mem lx1.mem
  ep : lx.ep = a
  ep1 : a ≤ lx1.ep
  p : lx1.p = lx.p
  le : lx.p ≤ a
  fresh : Fresh lx
  fresh1 : Fresh lx1
  stringp : lx1.stringp = lx.stringp
  after_comma : lx1.after_comma = lx.after_comma
  stack : lx1.stack = lx.stack

/-- The state before the root container, which opens at offset `w`: the parse is
at `start_value` with nothing open, and only whitespace lies between the cursor
and the opening bracket. -/
def Opening (w : Nat) (l : Label) (lx : Lexer) : Prop :=
  l = .start_value ∧ lx.stack = [] ∧ lx.p ≤ w ∧ w < lx.ep ∧
    (∀ i, lx.p ≤ i → i < w → isSpace (rd lx.mem i)) ∧ (rd lx.mem w = 123 ∨ rd lx.mem w = 91)

/-- What a transition from a state before the root container does: it does not
return 0, and a jump leaves a container open or the state before the root
container. -/
def Opens {σ H : Type} (w : Nat) : Step σ H → Prop
  | .ret rc _ _ => rc ≠ 0
  | .goto l lx _ => lx.stack ≠ [] ∨ Opening w l lx

/-! ## Documents built only from objects and arrays -/

/-- The phrases of the grammar of nested containers: a value (an object or an
array), one member of an object, a list of members, one element of an array, a
list of elements. -/
inductive Phrase where
  | value | member | members | element | elements

/-- Whitespace: bytes of the case list `AJSON_SPACE_CASE` only. -/
def Blank (w : List Nat) : Prop := ∀ c ∈ w, isSpace c

instance (w : List Nat) : Decidable (Blank w) := by unfold Blank; infer_instance

/-- A key written without escapes: no control byte, no quote, no backslash. -/
def PlainKey (K : List Nat) : Prop := ∀ c ∈ K, 32 ≤ c ∧ c ≠ 34 ∧ c ≠ 92

instance (K : List Nat) : Decidable (PlainKey K) := by unfold PlainKey; infer_instance

/-- The text `t` is a phrase of the JSON grammar restricted to objects and
arrays, with whitespace wherever the grammar allows it; `depth` is the number of
containers open at its deepest point, `objects` and `arrays` count its
containers and `members` counts the members of its objects. -/
inductive Nested : Phrase → List Nat → (depth objects arrays members : Nat) → Prop where
  | empty_object (w : List Nat) (hw : Blank w) : Nested .value (123 :: (w ++ [125])) 1 1 0 0
  | object (b : List Nat) (d o a m : Nat) (h : Nested .members b d o a m) :
      Nested .value (123 :: (b ++ [125])) (d + 1) (o + 1) a m
  | empty_array (w : List Nat) (hw : Blank w) : Nested .value (91 :: (w ++ [93])) 1 0 1 0
  | array (b : List Nat) (d o a m : Nat) (h : Nested .elements b d o a m) :
      Nested .value (91 :: (b ++ [93])) (d + 1) o (a + 1) m
  | member (w1 K w2 w3 v w4 : List Nat) (d o a m : Nat) (h1 : Blank w1) (hK : PlainKey K)
      (h2 : Blank w2) (h3 : Blank w3) (hv : Nested .value v d o a m) (h4 : Blank w4) :
      Nested .member (w1 ++ (34 :: (K ++ (34 :: (w2 ++ (58 :: (w3 ++ (v ++ w4)))))))) d o a (m + 1)
  | one_member (b : List Nat) (d o a m : Nat) (h : Nested .member b d o a m) :
      Nested .members b d o a m
  | more_members (b r : List Nat) (d o a m d1 o1 a1 m1 : Nat) (h : Nested .member b d o a m)
      (hr : Nested .members r d1 o1 a1 m1) :
      Nested .members (b ++ (44 :: r)) (max d d1) (o + o1) (a + a1) (m + m1)
  | element (w1 v w2 : List Nat) (d o a m : Nat) (h1 : Blank w1)
      (hv : Nested .value v d o a m) (h2 : Blank w2) :
      Nested .element (w1 ++ (v ++ w2)) d o a m
  | one_element (b : List Nat) (d o a m : Nat) (h : Nested .element b d o a m) :
      Nested .elements b d o a m
  | more_elements (b r : List Nat) (d o a m d1 o1 a1 m1 : Nat) (h : Nested .element b d o a m)
      (hr : Nested .elements r d1 o1 a1 m1) :
      Nested .elements (b ++ (44 :: r)) (max d d1) (o + o1) (a + a1) (m + m1)

/-- The number of logged callbacks whose event satisfies `f`. -/
def count_events (f : Event → Bool) (t : List (Event × Int)) : Nat :=
  t.countP fun e => f e.1

/-- A key event. -/
def Event.isKey : Event → Bool
  | .key _ => true
  | _ => false

/-- The event is `ev`. -/
def Event.isEvent (ev : Event) (e : Event) : Bool := decide (e = ev)

/-- From the consumer state `cs` to `cs1` the callbacks logged are `so` starts and
`eo` ends of objects, `sa` starts and `ea` ends of arrays, `k` keys, and none of
any other kind. -/
def Tally {σ H : Type} (cs cs1 : Consumer σ H) (so eo sa ea k : Nat) : Prop :=
  ∃ t, cs1.trace = cs.trace ++ t ∧ t.length = so + eo + sa + ea + k ∧
    count_events (Event.isEvent .start_object) t = so ∧
    count_events (Event.isEvent .end_object) t = eo ∧
    count_events (Event.isEvent .start_array) t = sa ∧
    count_events (Event.isEvent .end_array) t = ea ∧
    count_events Event.isKey t = k

/-- What the scanner does with a phrase that stands at the cursor.  A value met
by `start_value` or `start_key_object` with `depth` free slots on the syntax
stack is scanned up to `determine_next_step`, the cursor right after it.  The
members of an object are scanned from `start_key` up to `look_for_key`, the
elements of an array from `start_value` up to `look_for_next_object`, the cursor at
the byte after them, which is the byte read last.  The callbacks logged on the
way are the starts and ends of the `objects` and `arrays` and the `members`
keys. -/
def Scans {σ H : Type} (vt : H → ajson_sax_cb_t σ H) :
    Phrase → List Nat → (depth objects arrays members : Nat) → Prop
  | .value, v, d, o, a, m =>
    ∀ (lx : Lexer) (p ch sp : Nat) (ac : Bool) (st : List Nat) (cs : Consumer σ H) (l : Label),
      l = .start_value ∨ (l = .start_key_object ∧ ac = false) → At lx.mem p v →
      p + v.length ≤ lx.ep → st.length + d ≤ 511 →
      ∃ k ch1 sp1 cs1, reach vt k l (moved lx p ch sp ac st) cs =
          some (.determine_next_step, moved lx (p + v.length) ch1 sp1 false st, cs1) ∧
        Tally cs cs1 o o a a m
  | .member, b, d, o, a, m | .members, b, d, o, a, m =>
    ∀ (lx : Lexer) (p ch sp : Nat) (ac : Bool) (st : List Nat) (cs : Consumer σ H),
      At lx.mem p b → p + b.length < lx.ep → st.length + 1 + d ≤ 511 →
      ∃ k sp1 cs1, reach vt k .start_key (moved lx p ch sp ac (SAX_MODE_OBJECT :: st)) cs =
          some (.look_for_key, moved lx (p + b.length) (rd lx.mem (p + b.length)) sp1 false
            (SAX_MODE_OBJECT :: st), cs1) ∧
        Tally cs cs1 o o a a m
  | .element, b, d, o, a, m | .elements, b, d, o, a, m =>
    ∀ (lx : Lexer) (p ch sp : Nat) (ac : Bool) (st : List Nat) (cs : Consumer σ H),
      At lx.mem p b → p + b.length < lx.ep → st.length + 1 + d ≤ 511 →
      ∃ k sp1 cs1, reach vt k .start_value (moved lx p ch sp ac (SAX_MODE_ARRAY :: st)) cs =
          some (.look_for_next_object, moved lx (p + b.length) (rd lx.mem (p + b.length)) sp1
            false (SAX_MODE_ARRAY :: st), cs1) ∧
        Tally cs cs1 o o a a m

/-! ## The anchor depth and the chain of saved frames -/

/-- The end event of the container that a start event opens. -/
def Event.closer : Event → Event
  | .start_object => .end_object
  | .start_array => .end_array
  | ev => ev

/-- The end event of a container whose entry on the syntax stack is `mode`. -/
def end_event (mode : Nat) : Event :=
  if mode = SAX_MODE_OBJECT then .end_object else .end_array

/-- The handler set `sub` resigns at the end event `ev`: while `sub` is the active
set and `current_depth == anchor_depth`, its callback for `ev` is present and
leaves the handle as `ajson_sax_try_pop` does. -/
def ResignsAt {σ H : Type} (vt : H → ajson_sax_cb_t σ H) (sub : H) (ev : Event) : Prop :=
  ∀ cs : Consumer σ H, cs.sax.cb = sub → cs.sax.current_depth = cs.sax.anchor_depth →
    ∃ c rc, invoke vt cs ev = some (c, (ajson_sax_try_pop cs.sax).1, rc)

/-- The active set `cb` with its anchor depth `a` over the saved frames, on the
syntax stack `stack`: with no frame saved the anchor depth is the 0 of the initial
set; else the frame on top was saved by a push made at a depth below `a`, the
container at depth `a` is open, `cb` resigns at the end event of that container,
and the set of that frame, with its anchor depth, stands in the same way over the
frames below. -/
def Framed {σ H : Type} (vt : H → ajson_sax_cb_t σ H) (stack : List Nat) :
    H → Int → List (H × Int) → Prop
  | _, a, [] => a = 0
  | cb, a, (c1, a1) :: rest =>
    a1 < a ∧
    (∃ pre m suf, stack = pre ++ m :: suf ∧ a = (suf.length : Int) + 1 ∧
      ResignsAt vt cb (end_event m)) ∧
    Framed vt stack c1 a1 rest

/-- The discipline of delegation: a callback for a scalar or a key leaves the
handle as it is; a start callback leaves it as it is or calls `ajson_sax_push`
with a set that resigns at the end of the container being opened; an end callback
leaves it as it is or calls `ajson_sax_try_pop` or `ajson_sax_pop`. -/
structure Orderly {σ H : Type} (vt : H → ajson_sax_cb_t σ H) : Prop where
  plain : ∀ (cs : Consumer σ H) (ev : Event) (c : σ) (s : ajson_sax_t H) (rc : Int),
    ev.opens = false → ev.closes = false → invoke vt cs ev = some (c, s, rc) → s = cs.sax
  starts : ∀ (cs : Consumer σ H) (ev : Event) (c : σ) (s : ajson_sax_t H) (rc : Int),
    ev.opens = true → invoke vt cs ev = some (c, s, rc) →
      s = cs.sax ∨ ∃ sub, s = ajson_sax_push cs.sax (some sub) ∧ ResignsAt vt sub ev.closer
  ends : ∀ (cs : Consumer σ H) (ev : Event) (c : σ) (s : ajson_sax_t H) (rc : Int),
    ev.closes = true → invoke vt cs ev = some (c, s, rc) →
      s = cs.sax ∨ s = (ajson_sax_try_pop cs.sax).1 ∨ s = ajson_sax_pop cs.sax

/-- What holds of the handle between two transitions: `current_depth` is the depth
of the syntax stack, the anchor depth of the active set is at most
`current_depth`, and the active set stands over the saved frames as `Framed` says.
The one exception is the state after a closer met outside every container:
`SYNTAX_POP` has taken `current_depth` to -1 and `determine_next_step` returns at
once. -/
def Anchored {σ H : Type} (vt : H → ajson_sax_cb_t σ H) (l : Label) (lx : Lexer)
    (cs : Consumer σ H) : Prop :=
  (cs.sax.current_depth = (lx.stack.length : Int) ∧
    cs.sax.anchor_depth ≤ cs.sax.current_depth ∧
    Framed vt lx.stack cs.sax.cb cs.sax.anchor_depth cs.sax.top) ∨
  (l = .determine_next_step ∧ lx.stack = [] ∧ cs.sax.current_depth = -1)

/-! ## Literals -/

/-- The consumer state that a transition ends with. -/
def Step.consumer {σ H : Type} : Step σ H → Consumer σ H
  | .ret _ _ cs => cs
  | .goto _ _ cs => cs

/-- The callback that a transition from the consumer state `cs` invokes, if it
invokes one, is for an event of `E`: whenever the log has grown by one call, the
event of that call is in `E`. -/
def Logs {σ H : Type} (cs : Consumer σ H) (E : Event → Prop) (s : Step σ H) : Prop :=
  ∀ ev rc, s.consumer.trace = cs.trace ++ [(ev, rc)] → E ev

/-- The text of the literal that an event stands for. -/
def literal_text : Event → Option (List Nat)
  | .bool true => some [116, 114, 117, 101]
  | .bool false => some [102, 97, 108, 115, 101]
  | .null => some [110, 117, 108, 108]
  | _ => none

/-- The bytes `word` stand at the cursor, wholly inside the buffer. -/
def WordAt (lx : Lexer) (word : List Nat) : Prop :=
  lx.p + word.length ≤ lx.ep ∧ ∀ i, i < word.length → rd lx.mem (lx.p + i) = rd word i

instance (lx : Lexer) (word : List Nat) : Decidable (WordAt lx word) := by
  unfold WordAt; infer_instance

/-- The label that a value position jumps to after a scalar. -/
def after_scalar : Label → Label
  | .start_key_object => .look_for_key
  | _ => .add_string

/-! ## The two sides of the state machine -/

/-- The labels of the object side: the code that runs between a `{` and its `}`,
outside any array nested in between. -/
def Label.keyed : Label → Bool
  | .start_key | .get_end_of_key | .start_key_object | .keyed_start_string | .look_for_key
  | .keyed_next_digit | .keyed_decimal_number => true
  | _ => false

/-- The labels of the value side: the code that runs at the root and between a `[`
and its `]`, outside any object nested in between. -/
def Label.valued : Label → Bool
  | .start_value | .start_string | .add_string | .look_for_next_object | .next_digit
  | .decimal_number => true
  | _ => false

/-- The jumps that leave the syntax stack alone: a label of one side jumps to a
label of the same side, and `determine_next_step`, with a container open, jumps
to the delimiter label of the side that `CURRENT_MODE()` names. -/
def Follows (l : Label) (lx : Lexer) (l1 : Label) : Prop :=
  (l.keyed = true ∧ l1.keyed = true) ∨ (l.valued = true ∧ l1.valued = true) ∨
  (l = .determine_next_step ∧ lx.stack ≠ [] ∧
    ((CURRENT_MODE lx = SAX_MODE_OBJECT ∧ l1 = .look_for_key) ∨
     (CURRENT_MODE lx ≠ SAX_MODE_OBJECT ∧ l1 = .look_for_next_object)))

/-- The two ways a container is opened: `{` delivers `start_object`, pushes
`SAX_MODE_OBJECT` and jumps to `start_key`; `[` delivers `start_array`, pushes
`SAX_MODE_ARRAY` and jumps to `start_value`. -/
def Opener (ev : Event) (mode : Nat) (l1 : Label) : Prop :=
  (ev = .start_object ∧ mode = SAX_MODE_OBJECT ∧ l1 = .start_key) ∨
  (ev = .start_array ∧ mode = SAX_MODE_ARRAY ∧ l1 = .start_value)

/-- The two ways a container is closed: the object side delivers `end_object`, the
value side delivers `end_array`. -/
def Closer (l : Label) (ev : Event) : Prop :=
  (ev = .end_object ∧ l.keyed = true) ∨ (ev = .end_array ∧ l.valued = true)

/-- What a jump from the label `l`, the scanner state `lx` and the consumer state
`cs` does: it leaves the syntax stack alone, with no callback or with the callback
of a scalar or a key, and stays on its side; or it delivers a start event, pushes
the mode of that event and enters the container; or it delivers the end event of
its side, pops the syntax stack and goes to `determine_next_step`.  The callback
is invoked on `cs`, and `current_depth` is changed after it has returned. -/
inductive Turn {σ H : Type} (vt : H → ajson_sax_cb_t σ H) (l : Label) (lx : Lexer)
    (cs : Consumer σ H) : Step σ H → Prop where
  | ret (rc : Int) (lx1 : Lexer) (cs1 : Consumer σ H) : Turn vt l lx cs (.ret rc lx1 cs1)
  | jump (l1 : Label) (lx1 : Lexer) (hs : lx1.stack = lx.stack) (hl : Follows l lx l1) :
      Turn vt l lx cs (.goto l1 lx1 cs)
  | scalar (ev : Event) (cs1 : Consumer σ H) (l1 : Label) (lx1 : Lexer)
      (ho : ev.opens = false) (hc : ev.closes = false) (hd : Delivered vt cs ev cs1)
      (hs : lx1.stack = lx.stack) (hl : Follows l lx l1) : Turn vt l lx cs (.goto l1 lx1 cs1)
  | opened (ev : Event) (cs1 : Consumer σ H) (l1 : Label) (lx1 : Lexer) (mode : Nat)
      (hm : Opener ev mode l1) (hd : Delivered vt cs ev cs1)
      (hs : lx1.stack = mode :: lx.stack) : Turn vt l lx cs (.goto l1 lx1 (depth_inc cs1))
  | closed (ev : Event) (cs1 : Consumer σ H) (lx1 : Lexer) (hm : Closer l ev)
      (hd : Delivered vt cs ev cs1) (hs : lx1.stack = lx.stack.tail) :
      Turn vt l lx cs (.goto .determine_next_step lx1 (depth_dec cs1))

/-- What the label tells of the syntax stack: every entry is `SAX_MODE_OBJECT` or
`SAX_MODE_ARRAY`; on the object side the innermost open container is an object; on
the value side nothing is open or the innermost open container is an array. -/
def Sided (l : Label) (lx : Lexer) : Prop :=
  (∀ m ∈ lx.stack, m = SAX_MODE_OBJECT ∨ m = SAX_MODE_ARRAY) ∧
  (l.keyed = true → ∃ rest, lx.stack = SAX_MODE_OBJECT :: rest) ∧
  (l.valued = true → lx.stack = [] ∨ ∃ rest, lx.stack = SAX_MODE_ARRAY :: rest)

/-! ## Delegates that defer to `ajson_sax_try_pop` -/

/-- The handler set `sub` pushes nothing and gives the handle back only through
`ajson_sax_try_pop`: while it is the active set, a callback of it for a start,
scalar or key event leaves the handle as it is, and a callback of it for an end
event leaves the handle as it is or as `ajson_sax_try_pop` does. -/
structure Defers {σ H : Type} (vt : H → ajson_sax_cb_t σ H) (sub : H) : Prop where
  keeps : ∀ (cs : Consumer σ H) (ev : Event) (c : σ) (s : ajson_sax_t H) (rc : Int),
    cs.sax.cb = sub → ev.closes = false → invoke vt cs ev = some (c, s, rc) → s = cs.sax
  ends : ∀ (cs : Consumer σ H) (ev : Event) (c : σ) (s : ajson_sax_t H) (rc : Int),
    cs.sax.cb = sub → ev.closes = true → invoke vt cs ev = some (c, s, rc) →
      s = cs.sax ∨ s = (ajson_sax_try_pop cs.sax).1

/-- The number of transitions, among the first `n` from a state, whose callback
has popped a frame of the handler stack: the list of saved frames is shorter after
the transition than before it. -/
def pop_count {σ H : Type} (vt : H → ajson_sax_cb_t σ H) :
    Nat → Label → Lexer → Consumer σ H → Nat
  | 0, _, _, _ => 0
  | n + 1, l, lx, cs =>
    match step vt l lx cs with
    | .ret _ _ cs1 => if cs1.sax.top.length < cs.sax.top.length then 1 else 0
    | .goto l1 lx1 cs1 =>
      (if cs1.sax.top.length < cs.sax.top.length then 1 else 0) + pop_count vt n l1 lx1 cs1


/-! # Theorems -/

section Theorems

variable {σ H : Type}

/-! ## Basic facts about memory and the scanning loops -/

theorem rd_ne_zero {mem : List Nat} {q : Nat} (h : rd mem q ≠ 0) : q < mem.length := by
  unfold rd at h
  by_contra hc
  exact h (List.getD_eq_default _ _ (Nat.le_of_not_lt hc))

theorem wr_length (mem : List Nat) (q v : Nat) : (wr mem q v).length = mem.length := by
  simp [wr]

theorem rd_wr_same (mem : List Nat) (q v : Nat) (h : q < mem.length) : rd (wr mem q v) q = v := by
  simp [rd, wr, List.getD_eq_getElem?_getD, h]

theorem rd_wr_other (mem : List Nat) (q r v : Nat) (h : q ≠ r) : rd (wr mem q v) r = rd mem r := by
  simp [rd, wr, List.getD_eq_getElem?_getD, List.getElem?_set, h]

theorem rd_beyond (mem : List Nat) (q : Nat) (h : mem.length ≤ q) : rd mem q = 0 :=
  List.getD_eq_default _ _ h

/-- Writing a byte and then putting back what a read finds there restores every read. -/
theorem rd_restore (mem : List Nat) (q r : Nat) :
    rd (wr (wr mem q 0) q (rd mem q)) r = rd mem r := by
  by_cases h : q = r
  · subst h
    by_cases hq : q < mem.length
    · rw [rd_wr_same _ _ _ (by simpa [wr_length] using hq)]
    · rw [rd_beyond _ _ (by simpa [wr_length] using hq), rd_beyond _ _ (by omega)]
  · rw [rd_wr_other _ _ _ _ h, rd_wr_other _ _ _ _ h]

theorem scan_to_ge (mem : List Nat) (ep c : Nat) (n q : Nat) : q ≤ scan_to mem ep c n q := by
  induction n generalizing q with
  | zero => simp [scan_to]
  | succ n ih =>
    unfold scan_to
    split
    · exact Nat.le_trans (Nat.le_succ q) (ih (q + 1))
    · exact Nat.le_refl q

theorem scan_to_le (mem : List Nat) (ep c : Nat) (n q : Nat) :
    scan_to mem ep c n q ≤ max q ep := by
  induction n generalizing q with
  | zero => simp [scan_to]
  | succ n ih =>
    unfold scan_to
    split
    · rename_i h
      have := ih (q + 1)
      omega
    · omega

theorem Fresh_next_ch (lx : Lexer) : Fresh (next_ch lx) := by
  simp [Fresh, next_ch]

theorem digit_loop_spec (mem : List Nat) (n c q : Nat) (hq : 1 ≤ q) (hc : c = rd mem (q - 1)) :
    q ≤ (digit_loop mem n c q).2 ∧
      (digit_loop mem n c q).1 = rd mem ((digit_loop mem n c q).2 - 1) := by
  induction n generalizing c q with
  | zero => simp [digit_loop, hc]
  | succ n ih =>
    unfold digit_loop
    split
    · have := ih (rd mem q) (q + 1) (by omega) (by simp)
      exact ⟨by omega, this.2⟩
    · simp [hc]

theorem digits_spec (lx : Lexer) (h : Fresh lx) :
    Fresh (digits lx) ∧ lx.p ≤ (digits lx).p ∧ (digits lx).mem = lx.mem ∧
      (digits lx).ep = lx.ep := by
  have := digit_loop_spec lx.mem (lx.mem.length + 2 - lx.p) lx.ch lx.p h.1 h.2
  refine ⟨⟨?_, ?_⟩, ?_, rfl, rfl⟩
  · show 1 ≤ (digit_loop _ _ _ _).2
    have := h.1
    omega
  · exact this.2
  · exact this.1

/-! ## Rules for the macros: a property of the step follows from the property of
each way the macro can go -/

theorem wp_ite {P : Step σ H → Prop} {c : Prop} [Decidable c] {a b : Step σ H}
    (ha : c → P a) (hb : ¬ c → P b) : P (if c then a else b) := by
  split
  · exact ha ‹_›
  · exact hb ‹_›

theorem wp_CHECK_CB {P : Step σ H → Prop} (vt : H → ajson_sax_cb_t σ H) (lx : Lexer)
    (cs : Consumer σ H) (ev : Event) (k : Consumer σ H → Step σ H)
    (hnone : invoke vt cs ev = none → P (k cs))
    (habort : ∀ c s rc, invoke vt cs ev = some (c, s, rc) → rc ≠ 0 →
      P (.ret rc { lx with error_at := some lx.p } (after_cb cs ev c s rc)))
    (hcont : ∀ c s, invoke vt cs ev = some (c, s, 0) → P (k (after_cb cs ev c s 0))) :
    P (CHECK_CB vt lx cs ev k) := by
  unfold CHECK_CB
  split
  · rename_i h
    exact hnone h
  · rename_i c s rc h
    dsimp only
    split
    · rename_i hrc
      exact habort c s rc h hrc
    · rename_i hrc
      have hz : rc = 0 := by simpa using hrc
      subst hz
      exact hcont c s h

theorem wp_SYNTAX_PUSH {P : Step σ H → Prop} (lx : Lexer) (cs : Consumer σ H) (mode : Nat)
    (k : Lexer → Consumer σ H → Step σ H)
    (hfull : 511 ≤ lx.stack.length → P (.ret (-1) lx cs))
    (hk : lx.stack.length < 511 → P (k { lx with stack := mode :: lx.stack } (depth_inc cs))) :
    P (SYNTAX_PUSH lx cs mode k) := by
  unfold SYNTAX_PUSH
  split
  · rename_i h
    exact hfull (by simpa [stack_depth, AJSON_SAX_MAX_STACK_DEPTH] using h)
  · rename_i h
    exact hk (by simpa [stack_depth, AJSON_SAX_MAX_STACK_DEPTH] using h)

theorem wp_expect {P : Step σ H → Prop} (lx : Lexer) (cs : Consumer σ H) (c : Nat)
    (k : Lexer → Step σ H)
    (herr : rd lx.mem lx.p ≠ c → P (SAX_ERROR { lx with p := lx.p + 1 } cs))
    (hk : rd lx.mem lx.p = c → P (k { lx with p := lx.p + 1 })) :
    P (expect lx cs c k) := by
  unfold expect
  dsimp only
  split
  · rename_i h
    exact herr h
  · rename_i h
    exact hk (by simpa using h)

theorem OnGoto_CHECK_CB {Q : Label → Lexer → Prop} (vt : H → ajson_sax_cb_t σ H) (lx : Lexer)
    (cs : Consumer σ H) (ev : Event) (k : Consumer σ H → Step σ H)
    (hk : ∀ cs1, OnGoto Q (k cs1)) : OnGoto Q (CHECK_CB vt lx cs ev k) :=
  wp_CHECK_CB vt lx cs ev k (fun _ => hk _) (fun _ _ _ _ _ => trivial) (fun _ _ _ => hk _)

theorem OnGoto_expect_all {Q : Label → Lexer → Prop} (cs : Consumer σ H) (word : List Nat)
    (lx : Lexer) (k : Lexer → Step σ H)
    (hk : OnGoto Q (k { lx with p := lx.p + word.length })) :
    OnGoto Q (expect_all cs word lx k) := by
  induction word generalizing lx with
  | nil => simpa [expect_all] using hk
  | cons c word ih =>
    unfold expect_all
    refine wp_expect lx cs c _ (fun _ => trivial) (fun _ => ?_)
    apply ih
    simpa [Nat.add_assoc, Nat.add_comm 1] using hk

/-! ## Every run returns -/

theorem ep_le_span (lx : Lexer) : lx.ep ≤ span lx := Nat.le_max_left _ _

theorem length_le_span (lx : Lexer) : lx.mem.length ≤ span lx := Nat.le_max_right _ _

theorem lt_span_of_rd {lx : Lexer} {q : Nat} (h : rd lx.mem q ≠ 0) : q < span lx :=
  Nat.lt_of_lt_of_le (rd_ne_zero h) (length_le_span lx)

theorem OnGoto_open_container {Q : Label → Lexer → Prop} (vt : H → ajson_sax_cb_t σ H)
    (lx : Lexer) (cs : Consumer σ H) (ev : Event) (mode : Nat) (next : Label)
    (h : Q next { lx with stack := mode :: lx.stack }) :
    OnGoto Q (open_container vt lx cs ev mode next) := by
  unfold open_container
  refine OnGoto_CHECK_CB vt lx cs ev _ (fun cs1 => ?_)
  exact wp_SYNTAX_PUSH lx cs1 mode _ (fun _ => trivial) (fun _ => h)

theorem OnGoto_close_here {Q : Label → Lexer → Prop} (vt : H → ajson_sax_cb_t σ H)
    (lx : Lexer) (cs : Consumer σ H) (ev : Event)
    (h : Q .determine_next_step (SYNTAX_POP lx)) :
    OnGoto Q (close_here vt lx cs ev) := by
  unfold close_here
  refine wp_ite (fun _ => trivial) (fun _ => ?_)
  exact OnGoto_CHECK_CB vt lx cs ev _ (fun _ => h)

theorem OnGoto_close_ahead {Q : Label → Lexer → Prop} (vt : H → ajson_sax_cb_t σ H)
    (lx : Lexer) (cs : Consumer σ H) (ev : Event)
    (h : Q .determine_next_step { SYNTAX_POP lx with p := lx.p + 1 }) :
    OnGoto Q (close_ahead vt lx cs ev) := by
  unfold close_ahead
  refine wp_ite (fun _ => trivial) (fun _ => ?_)
  exact OnGoto_CHECK_CB vt lx cs ev _ (fun _ => h)

theorem OnGoto_literal {Q : Label → Lexer → Prop} (vt : H → ajson_sax_cb_t σ H)
    (lx : Lexer) (cs : Consumer σ H) (word : List Nat) (ev : Event) (next : Label)
    (h : lx.p + word.length ≤ lx.ep →
      Q next { lx with p := lx.p + word.length, ch := rd lx.mem (lx.p + word.length) }) :
    OnGoto Q (literal vt lx cs word ev next) := by
  unfold literal
  refine wp_ite (fun _ => trivial) (fun hle => ?_)
  apply OnGoto_expect_all
  exact OnGoto_CHECK_CB vt _ cs ev _ (fun _ => h (by omega))

theorem OnGoto_zero_case {Q : Label → Lexer → Prop} (vt : H → ajson_sax_cb_t σ H)
    (lx : Lexer) (cs : Consumer σ H) (dec digit next : Label)
    (hdec : lx.p < lx.ep → Q dec { lx with p := lx.p + 1 })
    (hdigit : lx.p < lx.ep → Q digit lx)
    (hnext : Q next { lx with ch := rd lx.mem lx.p }) :
    OnGoto Q (zero_case vt lx cs dec digit next) := by
  unfold zero_case
  dsimp only
  refine wp_ite (fun h => hdec h.1) (fun _ => ?_)
  refine wp_ite (fun h => hdigit h.1) (fun _ => ?_)
  refine wp_ite (fun _ => trivial) (fun _ => ?_)
  exact OnGoto_CHECK_CB vt lx cs _ _ (fun _ => hnext)

theorem OnGoto_finish_number {Q : Label → Lexer → Prop} (vt : H → ajson_sax_cb_t σ H)
    (lx : Lexer) (cs : Consumer σ H) (next : Label)
    (h : Q next { lx with p := lx.p - 1, mem := wr (wr lx.mem (lx.p - 1) 0) (lx.p - 1) lx.ch }) :
    OnGoto Q (finish_number vt lx cs next) := by
  unfold finish_number
  exact OnGoto_CHECK_CB vt _ cs _ _ (fun _ => h)

theorem OnGoto_finish_string {Q : Label → Lexer → Prop} (vt : H → ajson_sax_cb_t σ H)
    (lx : Lexer) (cs : Consumer σ H) (next : Label)
    (h : Q next { lx with mem := wr (wr lx.mem lx.p 0) lx.p 34, p := lx.p + 1,
                          ch := rd (wr (wr lx.mem lx.p 0) lx.p 34) (lx.p + 1) }) :
    OnGoto Q (finish_string vt lx cs next) := by
  unfold finish_string
  exact OnGoto_CHECK_CB vt _ cs _ _ (fun _ => h)

theorem Scanned_refl {lx : Lexer} (h : Fresh lx) : Scanned lx lx :=
  ⟨h, Nat.le_refl _, rfl, rfl, rfl, rfl, rfl, rfl⟩

theorem Scanned_next_ch (lx : Lexer) : Scanned lx (next_ch lx) :=
  ⟨Fresh_next_ch lx, Nat.le_succ _, rfl, rfl, rfl, rfl, rfl, rfl⟩

theorem Scanned_digits {lx : Lexer} (h : Fresh lx) : Scanned lx (digits lx) :=
  ⟨(digits_spec lx h).1, (digits_spec lx h).2.1, rfl, rfl, rfl, rfl, rfl, rfl⟩

theorem Scanned_trans {a b c : Lexer} (h1 : Scanned a b) (h2 : Scanned b c) : Scanned a c := by
  obtain ⟨_, hp1, hm1, he1, hs1, ha1, hk1, hr1⟩ := h1
  obtain ⟨hf, hp2, hm2, he2, hs2, ha2, hk2, hr2⟩ := h2
  exact ⟨hf, Nat.le_trans hp1 hp2, hm2.trans hm1, he2.trans he1, hs2.trans hs1, ha2.trans ha1,
    hk2.trans hk1, hr2.trans hr1⟩

theorem OnGoto_exponent_part {Q : Label → Lexer → Prop} (lx : Lexer) (cs : Consumer σ H)
    (k : Lexer → Step σ H) (hf : Fresh lx)
    (hk : ∀ lx1, Scanned lx lx1 → OnGoto Q (k lx1)) :
    OnGoto Q (exponent_part lx cs k) := by
  unfold exponent_part
  refine wp_ite (fun _ => ?_) (fun _ => hk lx (Scanned_refl hf))
  dsimp only
  refine wp_ite (fun _ => trivial) (fun _ => ?_)
  apply hk
  have h1 := Scanned_next_ch lx
  split
  · have h2 := Scanned_trans h1 (Scanned_next_ch (next_ch lx))
    exact Scanned_trans h2 (Scanned_digits h2.1)
  · exact Scanned_trans h1 (Scanned_digits h1.1)

theorem rank_le (l : Label) : rank l ≤ 2 := by cases l <;> simp [rank]

theorem Falls_advance {l l1 : Label} {lx lx1 : Lexer} (hs : Sane l1 lx1) (he : lx1.ep = lx.ep)
    (hm : lx1.mem.length = lx.mem.length) (hp : lx.p < lx1.p) (hb : lx.p ≤ span lx + 2) :
    Falls l lx l1 lx1 := by
  have hspan : span lx1 = span lx := by simp [span, he, hm]
  refine ⟨hs, hspan, ?_⟩
  have := rank_le l1
  rw [weight, weight, hspan]
  omega

theorem Falls_rank {l l1 : Label} {lx lx1 : Lexer} (hs : Sane l1 lx1) (he : lx1.ep = lx.ep)
    (hm : lx1.mem.length = lx.mem.length) (hp : lx.p ≤ lx1.p) (hr : rank l1 < rank l) :
    Falls l lx l1 lx1 := by
  have hspan : span lx1 = span lx := by simp [span, he, hm]
  refine ⟨hs, hspan, ?_⟩
  rw [weight, weight, hspan]
  omega

theorem sane_of_read {l : Label} {x : Lexer} (hl : rank l < 2) (h : x.ch = rd x.mem x.p) :
    Sane l x := by
  cases l <;> first | exact fun hne => absurd h hne | simp [rank] at hl

theorem sane_of_bound {l : Label} {x : Lexer} (hl : rank l = 2) (h : x.p ≤ span x + 2) :
    Sane l x := by
  cases l <;> first | exact h | trivial

theorem falls_string_body (vt : H → ajson_sax_cb_t σ H) (lx : Lexer) (cs : Consumer σ H)
    (l self next : Label) (hself : rank self = 2) (hnext : rank next < 2)
    (hs : lx.p ≤ span lx + 2) :
    OnGoto (Falls l lx) (string_body vt lx cs self next) := by
  unfold string_body
  dsimp only
  have h1 := scan_to_ge lx.mem lx.ep 34 (lx.ep - lx.p) lx.p
  have h2 := ep_le_span lx
  refine wp_ite (fun _ => trivial) (fun h => ?_)
  refine wp_ite (fun _ => ?_) (fun _ => ?_)
  · refine Falls_advance (sane_of_bound hself ?_) rfl rfl (by dsimp only; omega) hs
    have : span { lx with p := scan_to lx.mem lx.ep 34 (lx.ep - lx.p) lx.p + 1 } = span lx := rfl
    rw [this]
    dsimp only
    omega
  · apply OnGoto_finish_string
    exact Falls_advance (sane_of_read hnext rfl) rfl (by simp [wr_length]) (by dsimp only; omega) hs

theorem falls_finish_number (vt : H → ajson_sax_cb_t σ H) (lx0 lx : Lexer) (cs : Consumer σ H)
    (l next : Label) (hl : rank l = 2) (hr : rank next < 2)
    (hsc : Scanned lx0 lx) (hp : lx0.p + 1 ≤ lx.p) :
    OnGoto (Falls l lx0) (finish_number vt lx cs next) := by
  apply OnGoto_finish_number
  obtain ⟨⟨hp1, hch⟩, _, hm, he, _⟩ := hsc
  refine Falls_rank (sane_of_read hr ?_) he (by simp [wr_length, hm]) (by dsimp only; omega) (by omega)
  dsimp only
  rw [hch, rd_restore]

theorem falls_next_digit_body (vt : H → ajson_sax_cb_t σ H) (lx : Lexer) (cs : Consumer σ H)
    (l dec next : Label) (hl : rank l = 2) (hr : rank next < 2)
    (hdec : rank dec = 2)
    (hs : lx.p ≤ span lx + 2) :
    OnGoto (Falls l lx) (next_digit_body vt lx cs dec next) := by
  unfold next_digit_body
  dsimp only
  have h1 := Scanned_trans (Scanned_next_ch lx) (Scanned_digits (Fresh_next_ch lx))
  have hp : lx.p + 1 ≤ (digits (next_ch lx)).p := (digits_spec _ (Fresh_next_ch lx)).2.1
  refine wp_ite (fun h => ?_) (fun _ => ?_)
  · have hne : rd (digits (next_ch lx)).mem ((digits (next_ch lx)).p - 1) ≠ 0 := by
      rw [← h1.1.2, h]; decide
    have := lt_span_of_rd hne
    have hsp : span (digits (next_ch lx)) = span lx := by simp [span, h1.2.2.1, h1.2.2.2.1]
    refine Falls_advance (sane_of_bound hdec (by omega)) h1.2.2.2.1 (by rw [h1.2.2.1]) (by omega) hs
  · refine OnGoto_exponent_part _ cs _ h1.1 (fun lx1 h2 => ?_)
    exact falls_finish_number vt lx lx1 cs l next hl hr (Scanned_trans h1 h2)
      (Nat.le_trans hp h2.2.1)

theorem falls_decimal_number_body (vt : H → ajson_sax_cb_t σ H) (lx : Lexer)
    (cs : Consumer σ H) (l next : Label) (hl : rank l = 2) (hr : rank next < 2) :
    OnGoto (Falls l lx) (decimal_number_body vt lx cs next) := by
  unfold decimal_number_body
  dsimp only
  have h1 := Scanned_trans (Scanned_next_ch lx) (Scanned_digits (Fresh_next_ch lx))
  have hp : lx.p + 1 ≤ (digits (next_ch lx)).p := (digits_spec _ (Fresh_next_ch lx)).2.1
  refine wp_ite (fun _ => trivial) (fun _ => ?_)
  refine OnGoto_exponent_part _ cs _ h1.1 (fun lx1 h2 => ?_)
  exact falls_finish_number vt lx lx1 cs l next hl hr (Scanned_trans h1 h2)
    (Nat.le_trans hp h2.2.1)

theorem Falls_bound {l l1 : Label} {lx lx1 : Lexer} (hr : rank l1 = 2) (he : lx1.ep = lx.ep)
    (hm : lx1.mem.length = lx.mem.length) (hp : lx.p < lx1.p) (hq : lx1.p ≤ span lx + 2) :
    Falls l lx l1 lx1 := by
  have hspan : span lx1 = span lx := by simp [span, he, hm]
  exact Falls_advance (sane_of_bound hr (by omega)) he hm hp (by omega)

theorem Falls_read {l l1 : Label} {lx lx1 : Lexer} (hr : rank l1 < 2)
    (hch : lx1.ch = rd lx1.mem lx1.p) (he : lx1.ep = lx.ep)
    (hm : lx1.mem.length = lx.mem.length) (hp : lx.p < lx1.p) (hb : lx.p ≤ span lx + 2) :
    Falls l lx l1 lx1 :=
  Falls_advance (sane_of_read hr hch) he hm hp hb

theorem OnGoto_finish_key {Q : Label → Lexer → Prop} (vt : H → ajson_sax_cb_t σ H)
    (lx : Lexer) (cs : Consumer σ H)
    (h : Q .start_key_object
      { lx with
        mem := wr lx.mem lx.p 34,
        p := scan_to (wr lx.mem lx.p 34) lx.ep 58 (lx.ep - (lx.p + 1)) (lx.p + 1) + 1 }) :
    OnGoto Q (finish_key vt lx cs) := by
  unfold finish_key
  exact OnGoto_CHECK_CB vt _ cs _ _ (fun _ => h)

theorem falls_start_key (vt : H → ajson_sax_cb_t σ H) (lx : Lexer) (cs : Consumer σ H) :
    OnGoto (Falls .start_key lx) (start_key vt lx cs) := by
  have hep := ep_le_span lx
  unfold start_key
  dsimp only
  refine wp_ite (fun _ => trivial) (fun hp => ?_)
  have hf : ∀ l1 lx1, rank l1 = 2 → lx1.ep = lx.ep → lx1.mem.length = lx.mem.length →
      lx1.p = lx.p + 1 → Falls .start_key lx l1 lx1 := fun l1 lx1 h1 h2 h3 h4 =>
    Falls_bound h1 h2 h3 (by omega) (by omega)
  refine wp_ite (fun _ => hf _ _ rfl rfl rfl rfl) (fun _ => ?_)
  refine wp_ite (fun _ => hf _ _ rfl rfl rfl rfl) (fun _ => ?_)
  refine wp_ite (fun _ => ?_) (fun _ => trivial)
  exact OnGoto_close_here vt _ cs _ (hf _ _ rfl rfl rfl rfl)

theorem falls_finish_key (vt : H → ajson_sax_cb_t σ H) (lx0 lx : Lexer) (cs : Consumer σ H)
    (l : Label) (hs : lx0.p ≤ span lx0 + 2) (hp : lx0.p ≤ lx.p) (he : lx.ep = lx0.ep)
    (hm : lx.mem.length = lx0.mem.length) :
    OnGoto (Falls l lx0) (finish_key vt lx cs) := by
  apply OnGoto_finish_key
  have h2 := scan_to_ge (wr lx.mem lx.p 34) lx.ep 58 (lx.ep - (lx.p + 1)) (lx.p + 1)
  exact Falls_advance trivial he (by simp [wr_length, hm]) (by dsimp only; omega) hs

theorem falls_get_end_of_key (vt : H → ajson_sax_cb_t σ H) (lx : Lexer) (cs : Consumer σ H)
    (hs : lx.p ≤ span lx + 2) :
    OnGoto (Falls .get_end_of_key lx) (get_end_of_key vt lx cs) := by
  have hep := ep_le_span lx
  have h1 := scan_to_ge lx.mem lx.ep 34 (lx.ep - lx.p) lx.p
  unfold get_end_of_key
  dsimp only
  refine wp_ite (fun h => ?_) (fun _ => ?_)
  · exact Falls_bound rfl rfl rfl (by dsimp only; omega) (by dsimp only; omega)
  · apply falls_finish_key vt lx _ cs _ hs
    · split <;> exact h1
    · split <;> rfl
    · split <;> simp [wr_length]

theorem falls_look_for_key (vt : H → ajson_sax_cb_t σ H) (lx : Lexer) (cs : Consumer σ H)
    (hs : lx.ch ≠ rd lx.mem lx.p → lx.ch = 48) :
    OnGoto (Falls .look_for_key lx) (look_for_key vt lx cs) := by
  have hep := ep_le_span lx
  have hlt : lx.ch ≠ 48 → lx.ch ≠ 0 → lx.p < span lx := fun h48 h0 => by
    have : lx.ch = rd lx.mem lx.p := by
      by_contra hne
      exact h48 (hs hne)
    exact lt_span_of_rd (this ▸ h0)
  unfold look_for_key
  refine wp_ite (fun _ => ?_) (fun _ => ?_)
  · refine wp_ite (fun _ => trivial) (fun _ => ?_)
    exact Falls_bound rfl rfl rfl (Nat.lt_succ_self _) (by dsimp only; omega)
  refine wp_ite (fun h => ?_) (fun _ => ?_)
  · have := hlt (by omega) (by omega)
    apply OnGoto_close_ahead
    exact Falls_bound rfl rfl rfl (Nat.lt_succ_self _) (by dsimp only; omega)
  refine wp_ite (fun h => ?_) (fun _ => trivial)
  have := hlt (by unfold isSpace at h; omega) (by unfold isSpace at h; omega)
  exact Falls_read (by decide) rfl rfl rfl (Nat.lt_succ_self _) (by omega)

theorem falls_look_for_next_object (vt : H → ajson_sax_cb_t σ H) (lx : Lexer)
    (cs : Consumer σ H) (hs : lx.ch ≠ rd lx.mem lx.p → lx.ch = 48) :
    OnGoto (Falls .look_for_next_object lx) (look_for_next_object vt lx cs) := by
  have hep := ep_le_span lx
  have hlt : lx.ch ≠ 48 → lx.ch ≠ 0 → lx.p < span lx := fun h48 h0 => by
    have : lx.ch = rd lx.mem lx.p := by
      by_contra hne
      exact h48 (hs hne)
    exact lt_span_of_rd (this ▸ h0)
  unfold look_for_next_object
  refine wp_ite (fun _ => ?_) (fun _ => ?_)
  · refine wp_ite (fun _ => trivial) (fun _ => ?_)
    exact Falls_bound rfl rfl rfl (Nat.lt_succ_self _) (by dsimp only; omega)
  refine wp_ite (fun h => ?_) (fun _ => ?_)
  · have := hlt (by omega) (by omega)
    apply OnGoto_close_ahead
    exact Falls_bound rfl rfl rfl (Nat.lt_succ_self _) (by dsimp only; omega)
  refine wp_ite (fun h => ?_) (fun _ => ?_)
  · have := hlt (by unfold isSpace at h; omega) (by unfold isSpace at h; omega)
    dsimp only
    refine wp_ite (fun _ => wp_ite (fun _ => trivial) (fun _ => trivial)) (fun _ => ?_)
    exact Falls_read (by decide) rfl rfl rfl (Nat.lt_succ_self _) (by omega)
  · exact wp_ite (fun _ => wp_ite (fun _ => trivial) (fun _ => trivial)) (fun _ => trivial)

theorem falls_determine_next_step (lx : Lexer) (cs : Consumer σ H) :
    OnGoto (Falls .determine_next_step lx) (determine_next_step lx cs) := by
  unfold determine_next_step
  refine wp_ite (fun _ => trivial) (fun _ => ?_)
  refine wp_ite (fun _ => trivial) (fun _ => ?_)
  dsimp only
  refine wp_ite (fun _ => ?_) (fun _ => ?_) <;>
    exact Falls_rank (sane_of_read (by decide) rfl) rfl rfl (Nat.le_refl _) (by decide)

/-- After the dispatch byte of a value, every jump goes forward by one to three
bytes, and a jump to a delimiter test either re-reads `ch` or leaves the `0`. -/
theorem falls_value_cases (l : Label) (lx0 : Lexer) (l1 : Label) (lx1 : Lexer)
    (he : lx1.ep = lx0.ep) (hm : lx1.mem.length = lx0.mem.length)
    (hp : lx0.p < lx1.p) (hq : lx1.p ≤ lx0.ep + 2)
    (hch : rank l1 = 2 ∨ lx1.ch = rd lx1.mem lx1.p ∨ lx1.ch = 48) :
    Falls l lx0 l1 lx1 := by
  have hep := ep_le_span lx0
  by_cases hr : rank l1 = 2
  · exact Falls_bound hr he hm hp (by omega)
  · have hr1 : rank l1 < 2 := by have := rank_le l1; omega
    refine Falls_advance ?_ he hm hp (by omega)
    rcases hch with h | h | h
    · exact absurd h hr
    · exact sane_of_read hr1 h
    · cases l1 <;> first | exact fun _ => h | simp [rank] at hr1

theorem falls_start_value_minus (vt : H → ajson_sax_cb_t σ H) (lx0 lx : Lexer)
    (cs : Consumer σ H) (l : Label) (hp0 : lx0.p < lx0.ep) (he : lx.ep = lx0.ep)
    (hm : lx.mem = lx0.mem) (hp : lx.p = lx0.p + 2) :
    OnGoto (Falls l lx0) (start_value_minus vt lx cs) := by
  unfold start_value_minus
  have hgo : ∀ l1 lx1, lx1.ep = lx.ep → lx1.mem = lx.mem → lx1.p = lx.p →
      (rank l1 = 2 ∨ lx1.ch = rd lx1.mem lx1.p ∨ lx1.ch = 48) → Falls l lx0 l1 lx1 :=
    fun l1 lx1 h1 h2 h3 h4 =>
      falls_value_cases l lx0 l1 lx1 (h1.trans he) (by rw [h2, hm]) (by omega) (by omega) h4
  refine wp_ite (fun h48 => ?_) (fun _ => ?_)
  · dsimp only
    refine wp_ite (fun hdot => ?_) (fun _ => ?_)
    · have : lx.p < lx.mem.length := rd_ne_zero (by rw [hdot]; decide)
      have := length_le_span lx0
      refine Falls_bound rfl he (by rw [hm]) (by dsimp only; omega) ?_
      dsimp only
      rw [hm] at *
      omega
    refine wp_ite (fun _ => hgo _ _ rfl rfl rfl (Or.inl rfl)) (fun _ => ?_)
    refine wp_ite (fun _ => trivial) (fun _ => ?_)
    exact OnGoto_CHECK_CB vt _ cs _ _ (fun _ => hgo _ _ rfl rfl rfl (Or.inr (Or.inl rfl)))
  · exact wp_ite (fun _ => hgo _ _ rfl rfl rfl (Or.inl rfl)) (fun _ => trivial)

theorem falls_start_key_object_minus (vt : H → ajson_sax_cb_t σ H) (lx0 lx : Lexer)
    (cs : Consumer σ H) (l : Label) (hp0 : lx0.p < lx0.ep) (he : lx.ep = lx0.ep)
    (hm : lx.mem = lx0.mem) (hp : lx.p = lx0.p + 2) :
    OnGoto (Falls l lx0) (start_key_object_minus vt lx cs) := by
  unfold start_key_object_minus
  have hgo : ∀ l1 lx1, lx1.ep = lx.ep → lx1.mem = lx.mem → lx1.p = lx.p →
      (rank l1 = 2 ∨ lx1.ch = rd lx1.mem lx1.p ∨ lx1.ch = 48) → Falls l lx0 l1 lx1 :=
    fun l1 lx1 h1 h2 h3 h4 =>
      falls_value_cases l lx0 l1 lx1 (h1.trans he) (by rw [h2, hm]) (by omega) (by omega) h4
  refine wp_ite (fun h48 => ?_) (fun _ => ?_)
  · dsimp only
    refine wp_ite (fun hdot => ?_) (fun _ => ?_)
    · have : lx.p < lx.mem.length := rd_ne_zero (by rw [hdot]; decide)
      have := length_le_span lx0
      refine Falls_bound rfl he (by rw [hm]) (by dsimp only; omega) ?_
      dsimp only
      rw [hm] at *
      omega
    refine wp_ite (fun _ => hgo _ _ rfl rfl rfl (Or.inl rfl)) (fun _ => ?_)
    refine wp_ite (fun _ => trivial) (fun _ => ?_)
    exact OnGoto_CHECK_CB vt _ cs _ _ (fun _ => hgo _ _ rfl rfl rfl (Or.inr (Or.inr h48)))
  · exact wp_ite (fun _ => hgo _ _ rfl rfl rfl (Or.inl rfl)) (fun _ => trivial)

theorem falls_start_value (vt : H → ajson_sax_cb_t σ H) (lx : Lexer) (cs : Consumer σ H) :
    OnGoto (Falls .start_value lx) (start_value vt lx cs) := by
  unfold start_value
  dsimp only
  refine wp_ite (fun _ => trivial) (fun hp => ?_)
  have hp0 : lx.p < lx.ep := by omega
  have hgo : ∀ l1 lx1, lx1.ep = lx.ep → lx1.mem = lx.mem → lx.p < lx1.p → lx1.p ≤ lx.ep + 2 →
      (rank l1 = 2 ∨ lx1.ch = rd lx1.mem lx1.p ∨ lx1.ch = 48) →
      Falls .start_value lx l1 lx1 :=
    fun l1 lx1 h1 h2 h3 h4 h5 =>
      falls_value_cases _ lx l1 lx1 h1 (by rw [h2]) h3 h4 h5
  have h1 : lx.p < (next_ch lx).p := Nat.lt_succ_self _
  have h2 : (next_ch lx).p ≤ lx.ep + 2 := by show lx.p + 1 ≤ lx.ep + 2; omega
  refine wp_ite (fun _ => hgo _ _ rfl rfl h1 h2 (Or.inl rfl)) (fun _ => ?_)
  refine wp_ite (fun _ => hgo _ _ rfl rfl h1 h2 (Or.inl rfl)) (fun _ => ?_)
  refine wp_ite (fun _ => ?_) (fun _ => ?_)
  · exact OnGoto_open_container vt _ cs _ _ _ (hgo _ _ rfl rfl h1 h2 (Or.inl rfl))
  refine wp_ite (fun _ => ?_) (fun _ => ?_)
  · exact OnGoto_open_container vt _ cs _ _ _ (hgo _ _ rfl rfl h1 h2 (Or.inl rfl))
  refine wp_ite (fun _ => ?_) (fun _ => ?_)
  · exact OnGoto_close_here vt _ cs _ (hgo _ _ rfl rfl h1 h2 (Or.inl rfl))
  refine wp_ite (fun _ => ?_) (fun _ => ?_)
  · exact falls_start_value_minus vt lx _ cs _ hp0 rfl rfl rfl
  refine wp_ite (fun _ => ?_) (fun _ => ?_)
  · refine OnGoto_zero_case vt _ cs _ _ _ (fun h => ?_) (fun _ => ?_) ?_
    · exact hgo _ _ rfl rfl (by dsimp only [next_ch]; omega)
        (by dsimp only [next_ch] at h ⊢; omega) (Or.inl rfl)
    · exact hgo _ _ rfl rfl h1 h2 (Or.inl rfl)
    · exact hgo _ _ rfl rfl h1 h2 (Or.inr (Or.inl rfl))
  refine wp_ite (fun _ => hgo _ _ rfl rfl h1 h2 (Or.inl rfl)) (fun _ => ?_)
  have hlit : ∀ word ev, OnGoto (Falls .start_value lx)
      (literal vt { next_ch lx with after_comma := false } cs word ev .add_string) :=
    fun word ev => OnGoto_literal vt _ cs word ev _ (fun hle =>
      hgo _ _ rfl rfl (by dsimp only [next_ch]; omega) (by dsimp only [next_ch] at hle ⊢; omega)
        (Or.inr (Or.inl rfl)))
  refine wp_ite (fun _ => hlit _ _) (fun _ => ?_)
  refine wp_ite (fun _ => hlit _ _) (fun _ => ?_)
  exact wp_ite (fun _ => hlit _ _) (fun _ => trivial)

theorem falls_start_key_object (vt : H → ajson_sax_cb_t σ H) (lx : Lexer) (cs : Consumer σ H) :
    OnGoto (Falls .start_key_object lx) (start_key_object vt lx cs) := by
  unfold start_key_object
  dsimp only
  refine wp_ite (fun _ => trivial) (fun hp => ?_)
  have hp0 : lx.p < lx.ep := by omega
  have hgo : ∀ l1 lx1, lx1.ep = lx.ep → lx1.mem = lx.mem → lx.p < lx1.p → lx1.p ≤ lx.ep + 2 →
      (rank l1 = 2 ∨ lx1.ch = rd lx1.mem lx1.p ∨ lx1.ch = 48) →
      Falls .start_key_object lx l1 lx1 :=
    fun l1 lx1 h1 h2 h3 h4 h5 =>
      falls_value_cases _ lx l1 lx1 h1 (by rw [h2]) h3 h4 h5
  have h1 : lx.p < (next_ch lx).p := Nat.lt_succ_self _
  have h2 : (next_ch lx).p ≤ lx.ep + 2 := by show lx.p + 1 ≤ lx.ep + 2; omega
  refine wp_ite (fun _ => hgo _ _ rfl rfl h1 h2 (Or.inl rfl)) (fun _ => ?_)
  refine wp_ite (fun _ => hgo _ _ rfl rfl h1 h2 (Or.inl rfl)) (fun _ => ?_)
  refine wp_ite (fun _ => ?_) (fun _ => ?_)
  · exact OnGoto_open_container vt _ cs _ _ _ (hgo _ _ rfl rfl h1 h2 (Or.inl rfl))
  refine wp_ite (fun _ => ?_) (fun _ => ?_)
  · exact OnGoto_open_container vt _ cs _ _ _ (hgo _ _ rfl rfl h1 h2 (Or.inl rfl))
  refine wp_ite (fun _ => ?_) (fun _ => ?_)
  · exact falls_start_key_object_minus vt lx _ cs _ hp0 rfl rfl rfl
  refine wp_ite (fun _ => ?_) (fun _ => ?_)
  · refine OnGoto_zero_case vt _ cs _ _ _ (fun h => ?_) (fun _ => ?_) ?_
    · exact hgo _ _ rfl rfl (by dsimp only [next_ch]; omega)
        (by dsimp only [next_ch] at h ⊢; omega) (Or.inl rfl)
    · exact hgo _ _ rfl rfl h1 h2 (Or.inl rfl)
    · exact hgo _ _ rfl rfl h1 h2 (Or.inr (Or.inl rfl))
  refine wp_ite (fun _ => hgo _ _ rfl rfl h1 h2 (Or.inl rfl)) (fun _ => ?_)
  have hlit : ∀ word ev, OnGoto (Falls .start_key_object lx)
      (literal vt (next_ch lx) cs word ev .look_for_key) :=
    fun word ev => OnGoto_literal vt _ cs word ev _ (fun hle =>
      hgo _ _ rfl rfl (by dsimp only [next_ch]; omega) (by dsimp only [next_ch] at hle ⊢; omega)
        (Or.inr (Or.inl rfl)))
  refine wp_ite (fun _ => hlit _ _) (fun _ => ?_)
  refine wp_ite (fun _ => hlit _ _) (fun _ => ?_)
  exact wp_ite (fun _ => hlit _ _) (fun _ => trivial)

theorem step_falls (vt : H → ajson_sax_cb_t σ H) (l : Label) (lx : Lexer) (cs : Consumer σ H)
    (hs : Sane l lx) : OnGoto (Falls l lx) (step vt l lx cs) := by
  cases l
  case start_key => exact falls_start_key vt lx cs
  case get_end_of_key => exact falls_get_end_of_key vt lx cs hs
  case start_key_object => exact falls_start_key_object vt lx cs
  case keyed_start_string =>
    exact falls_string_body vt lx cs .keyed_start_string .keyed_start_string .look_for_key rfl
      (by decide) hs
  case look_for_key => exact falls_look_for_key vt lx cs hs
  case keyed_next_digit =>
    exact falls_next_digit_body vt lx cs .keyed_next_digit .keyed_decimal_number .look_for_key rfl
      (by decide) rfl hs
  case keyed_decimal_number =>
    exact falls_decimal_number_body vt lx cs .keyed_decimal_number .look_for_key rfl (by decide)
  case start_value => exact falls_start_value vt lx cs
  case start_string =>
    exact falls_string_body vt lx cs .start_string .start_string .add_string rfl (by decide) hs
  case add_string => exact Falls_rank hs rfl rfl (Nat.le_refl _) (by decide)
  case look_for_next_object => exact falls_look_for_next_object vt lx cs hs
  case next_digit =>
    exact falls_next_digit_body vt lx cs .next_digit .decimal_number .add_string rfl
      (by decide) rfl hs
  case decimal_number =>
    exact falls_decimal_number_body vt lx cs .decimal_number .add_string rfl (by decide)
  case determine_next_step => exact falls_determine_next_step lx cs

theorem run_total (vt : H → ajson_sax_cb_t σ H) (n : Nat) (l : Label) (lx : Lexer)
    (cs : Consumer σ H) (hs : Sane l lx) (hw : weight l lx < n) :
    ∃ r, run vt n l lx cs = some r := by
  induction n generalizing l lx cs with
  | zero => omega
  | succ n ih =>
    have hstep := step_falls vt l lx cs hs
    unfold run
    cases h : step vt l lx cs with
    | ret rc lx1 cs1 => exact ⟨_, rfl⟩
    | goto l1 lx1 cs1 =>
      rw [h] at hstep
      exact ih l1 lx1 cs1 hstep.1 (by have := hstep.2.2; omega)

theorem run_mono (vt : H → ajson_sax_cb_t σ H) (n k : Nat) (l : Label) (lx : Lexer)
    (cs : Consumer σ H) (r : Result σ H) (h : run vt n l lx cs = some r) :
    run vt (n + k) l lx cs = some r := by
  induction n generalizing l lx cs with
  | zero => simp [run] at h
  | succ n ih =>
    rw [Nat.succ_add]
    unfold run at h ⊢
    cases hs : step vt l lx cs with
    | ret rc lx1 cs1 => rw [hs] at h; exact h
    | goto l1 lx1 cs1 => rw [hs] at h; exact ih l1 lx1 cs1 h

/-- Two runs from the same state that both return, return the same. -/
theorem run_unique (vt : H → ajson_sax_cb_t σ H) (n k : Nat) (l : Label) (lx : Lexer)
    (cs : Consumer σ H) (r s : Result σ H) (h1 : run vt n l lx cs = some r)
    (h2 : run vt k l lx cs = some s) : r = s := by
  have a := run_mono vt n k l lx cs r h1
  have b := run_mono vt k n l lx cs s h2
  rw [Nat.add_comm] at b
  rw [a] at b
  exact Option.some.inj b

theorem weight_init_lt (mem : List Nat) (ep : Nat) :
    weight .start_value (init_lexer mem ep) < fuel mem ep := by
  simp only [weight, span, init_lexer, rank, fuel]
  omega

/-- The function returns on every buffer and for every consumer. -/
theorem ajson_sax_parse_total (vt : H → ajson_sax_cb_t σ H) (mem : List Nat) (ep : Nat)
    (initial_cb : H) (ctx : σ) : ∃ r, ajson_sax_parse vt mem ep initial_cb ctx = some r := by
  unfold ajson_sax_parse
  dsimp only
  split
  · exact ⟨_, rfl⟩
  · exact run_total vt _ _ _ _ trivial (weight_init_lt mem ep)

/-- A run of any length from the initial state that returns gives the result of
`ajson_sax_parse`. -/
theorem ajson_sax_parse_of_run (vt : H → ajson_sax_cb_t σ H) (mem : List Nat) (ep : Nat)
    (initial_cb : H) (ctx : σ) (n : Nat) (r : Result σ H) (hep : 0 < ep)
    (h : run vt n .start_value (init_lexer mem ep) (init_consumer initial_cb ctx) = some r) :
    ajson_sax_parse vt mem ep initial_cb ctx = some r := by
  obtain ⟨s, hs⟩ := ajson_sax_parse_total vt mem ep initial_cb ctx
  rw [hs]
  unfold ajson_sax_parse at hs
  dsimp only at hs
  rw [if_neg (by simp only [init_lexer]; omega)] at hs
  rw [run_unique vt _ _ _ _ _ _ _ hs h]

/-! ## What one transition does to the consumer state -/

theorem CStep_error (vt : H → ajson_sax_cb_t σ H) (lx : Lexer) (cs : Consumer σ H) :
    CStep vt cs (SAX_ERROR lx cs) :=
  CStep.quiet_ret _ _ (Or.inr rfl)

theorem CStep_CHECK_CB (vt : H → ajson_sax_cb_t σ H) (lx : Lexer) (cs : Consumer σ H)
    (ev : Event) (k : Consumer σ H → Step σ H)
    (hk : ∀ cs1, Delivered vt cs ev cs1 → CStep vt cs (k cs1)) :
    CStep vt cs (CHECK_CB vt lx cs ev k) :=
  wp_CHECK_CB vt lx cs ev k (fun h => hk cs (Or.inl ⟨h, rfl⟩))
    (fun c s rc h hrc => CStep.abort ev c s rc _ h hrc)
    (fun c s h => hk _ (Or.inr ⟨c, s, h, rfl⟩))

theorem CStep_plain (vt : H → ajson_sax_cb_t σ H) (lx : Lexer) (cs : Consumer σ H)
    (ev : Event) (l : Label) (f : Lexer) (hev : ∀ c : Consumer σ H, after_event ev c = c) :
    CStep vt cs (CHECK_CB vt lx cs ev fun cs1 => .goto l f cs1) := by
  refine CStep_CHECK_CB vt lx cs ev _ (fun cs1 h => ?_)
  have := CStep.cb_goto ev cs1 l f h
  rwa [hev] at this

theorem CStep_open_container (vt : H → ajson_sax_cb_t σ H) (lx : Lexer) (cs : Consumer σ H)
    (ev : Event) (mode : Nat) (next : Label)
    (hev : ∀ c : Consumer σ H, after_event ev c = depth_inc c) :
    CStep vt cs (open_container vt lx cs ev mode next) := by
  unfold open_container
  refine CStep_CHECK_CB vt lx cs ev _ (fun cs1 h => ?_)
  refine wp_SYNTAX_PUSH lx cs1 mode _ (fun _ => CStep.cb_full ev cs1 _ h) (fun _ => ?_)
  have := CStep.cb_goto ev cs1 next { lx with stack := mode :: lx.stack } h
  rwa [hev] at this

theorem CStep_close_here (vt : H → ajson_sax_cb_t σ H) (lx : Lexer) (cs : Consumer σ H)
    (ev : Event) (hev : ∀ c : Consumer σ H, after_event ev c = depth_dec c) :
    CStep vt cs (close_here vt lx cs ev) := by
  unfold close_here
  refine wp_ite (fun _ => CStep_error vt lx cs) (fun _ => ?_)
  refine CStep_CHECK_CB vt lx cs ev _ (fun cs1 h => ?_)
  have := CStep.cb_goto ev cs1 .determine_next_step (SYNTAX_POP lx) h
  rwa [hev] at this

theorem CStep_close_ahead (vt : H → ajson_sax_cb_t σ H) (lx : Lexer) (cs : Consumer σ H)
    (ev : Event) (hev : ∀ c : Consumer σ H, after_event ev c = depth_dec c) :
    CStep vt cs (close_ahead vt lx cs ev) := by
  unfold close_ahead
  refine wp_ite (fun _ => CStep_error vt lx cs) (fun _ => ?_)
  refine CStep_CHECK_CB vt lx cs ev _ (fun cs1 h => ?_)
  have := CStep.cb_goto ev cs1 .determine_next_step { SYNTAX_POP lx with p := lx.p + 1 } h
  rwa [hev] at this

theorem CStep_expect_all (vt : H → ajson_sax_cb_t σ H) (cs : Consumer σ H) (word : List Nat)
    (lx : Lexer) (k : Lexer → Step σ H) (hk : ∀ lx1, CStep vt cs (k lx1)) :
    CStep vt cs (expect_all cs word lx k) := by
  induction word generalizing lx with
  | nil => exact hk lx
  | cons c word ih =>
    unfold expect_all
    exact wp_expect lx cs c _ (fun _ => CStep_error vt _ cs) (fun _ => ih _)

theorem CStep_literal (vt : H → ajson_sax_cb_t σ H) (lx : Lexer) (cs : Consumer σ H)
    (word : List Nat) (ev : Event) (next : Label)
    (hev : ∀ c : Consumer σ H, after_event ev c = c) :
    CStep vt cs (literal vt lx cs word ev next) := by
  unfold literal
  refine wp_ite (fun _ => CStep_error vt lx cs) (fun _ => ?_)
  exact CStep_expect_all vt cs word lx _ (fun lx1 => CStep_plain vt lx1 cs ev next _ hev)

theorem CStep_zero_case (vt : H → ajson_sax_cb_t σ H) (lx : Lexer) (cs : Consumer σ H)
    (dec digit next : Label) : CStep vt cs (zero_case vt lx cs dec digit next) := by
  unfold zero_case
  dsimp only
  refine wp_ite (fun _ => CStep.quiet_goto _ _) (fun _ => ?_)
  refine wp_ite (fun _ => CStep.quiet_goto _ _) (fun _ => ?_)
  refine wp_ite (fun _ => CStep_error vt lx cs) (fun _ => ?_)
  exact CStep_plain vt lx cs _ next _ (fun _ => rfl)

theorem CStep_start_value_minus (vt : H → ajson_sax_cb_t σ H) (lx : Lexer)
    (cs : Consumer σ H) : CStep vt cs (start_value_minus vt lx cs) := by
  unfold start_value_minus
  refine wp_ite (fun _ => ?_) (fun _ => ?_)
  · dsimp only
    refine wp_ite (fun _ => CStep.quiet_goto _ _) (fun _ => ?_)
    refine wp_ite (fun _ => CStep.quiet_goto _ _) (fun _ => ?_)
    refine wp_ite (fun _ => CStep_error vt lx cs) (fun _ => ?_)
    exact CStep_plain vt lx cs _ _ _ (fun _ => rfl)
  · exact wp_ite (fun _ => CStep.quiet_goto _ _) (fun _ => CStep_error vt lx cs)

theorem CStep_start_key_object_minus (vt : H → ajson_sax_cb_t σ H) (lx : Lexer)
    (cs : Consumer σ H) : CStep vt cs (start_key_object_minus vt lx cs) := by
  unfold start_key_object_minus
  refine wp_ite (fun _ => ?_) (fun _ => ?_)
  · dsimp only
    refine wp_ite (fun _ => CStep.quiet_goto _ _) (fun _ => ?_)
    refine wp_ite (fun _ => CStep.quiet_goto _ _) (fun _ => ?_)
    refine wp_ite (fun _ => CStep_error vt lx cs) (fun _ => ?_)
    exact CStep_plain vt lx cs _ _ _ (fun _ => rfl)
  · exact wp_ite (fun _ => CStep.quiet_goto _ _) (fun _ => CStep_error vt lx cs)

theorem CStep_finish_number (vt : H → ajson_sax_cb_t σ H) (lx : Lexer) (cs : Consumer σ H)
    (next : Label) : CStep vt cs (finish_number vt lx cs next) := by
  unfold finish_number
  exact CStep_plain vt _ cs _ next _ (fun _ => rfl)

theorem CStep_finish_string (vt : H → ajson_sax_cb_t σ H) (lx : Lexer) (cs : Consumer σ H)
    (next : Label) : CStep vt cs (finish_string vt lx cs next) := by
  unfold finish_string
  exact CStep_plain vt _ cs _ next _ (fun _ => rfl)

theorem CStep_finish_key (vt : H → ajson_sax_cb_t σ H) (lx : Lexer) (cs : Consumer σ H) :
    CStep vt cs (finish_key vt lx cs) := by
  unfold finish_key
  exact CStep_plain vt _ cs _ _ _ (fun _ => rfl)

theorem CStep_exponent_part (vt : H → ajson_sax_cb_t σ H) (lx : Lexer) (cs : Consumer σ H)
    (k : Lexer → Step σ H) (hk : ∀ lx1, CStep vt cs (k lx1)) :
    CStep vt cs (exponent_part lx cs k) := by
  unfold exponent_part
  refine wp_ite (fun _ => ?_) (fun _ => hk lx)
  dsimp only
  exact wp_ite (fun _ => CStep_error vt _ cs) (fun _ => hk _)

theorem CStep_string_body (vt : H → ajson_sax_cb_t σ H) (lx : Lexer) (cs : Consumer σ H)
    (self next : Label) : CStep vt cs (string_body vt lx cs self next) := by
  unfold string_body
  dsimp only
  refine wp_ite (fun _ => CStep_error vt _ cs) (fun _ => ?_)
  exact wp_ite (fun _ => CStep.quiet_goto _ _) (fun _ => CStep_finish_string vt _ cs next)

theorem CStep_next_digit_body (vt : H → ajson_sax_cb_t σ H) (lx : Lexer) (cs : Consumer σ H)
    (dec next : Label) : CStep vt cs (next_digit_body vt lx cs dec next) := by
  unfold next_digit_body
  dsimp only
  refine wp_ite (fun _ => CStep.quiet_goto _ _) (fun _ => ?_)
  exact CStep_exponent_part vt _ cs _ (fun lx1 => CStep_finish_number vt lx1 cs next)

theorem CStep_decimal_number_body (vt : H → ajson_sax_cb_t σ H) (lx : Lexer)
    (cs : Consumer σ H) (next : Label) : CStep vt cs (decimal_number_body vt lx cs next) := by
  unfold decimal_number_body
  dsimp only
  refine wp_ite (fun _ => CStep_error vt _ cs) (fun _ => ?_)
  exact CStep_exponent_part vt _ cs _ (fun lx1 => CStep_finish_number vt lx1 cs next)

theorem CStep_start_value (vt : H → ajson_sax_cb_t σ H) (lx : Lexer) (cs : Consumer σ H) :
    CStep vt cs (start_value vt lx cs) := by
  unfold start_value
  dsimp only
  refine wp_ite (fun _ => CStep_error vt _ cs) (fun _ => ?_)
  refine wp_ite (fun _ => CStep.quiet_goto _ _) (fun _ => ?_)
  refine wp_ite (fun _ => CStep.quiet_goto _ _) (fun _ => ?_)
  refine wp_ite (fun _ => CStep_open_container vt _ cs _ _ _ (fun _ => rfl)) (fun _ => ?_)
  refine wp_ite (fun _ => CStep_open_container vt _ cs _ _ _ (fun _ => rfl)) (fun _ => ?_)
  refine wp_ite (fun _ => CStep_close_here vt _ cs _ (fun _ => rfl)) (fun _ => ?_)
  refine wp_ite (fun _ => CStep_start_value_minus vt _ cs) (fun _ => ?_)
  refine wp_ite (fun _ => CStep_zero_case vt _ cs _ _ _) (fun _ => ?_)
  refine wp_ite (fun _ => CStep.quiet_goto _ _) (fun _ => ?_)
  refine wp_ite (fun _ => CStep_literal vt _ cs _ _ _ (fun _ => rfl)) (fun _ => ?_)
  refine wp_ite (fun _ => CStep_literal vt _ cs _ _ _ (fun _ => rfl)) (fun _ => ?_)
  exact wp_ite (fun _ => CStep_literal vt _ cs _ _ _ (fun _ => rfl))
    (fun _ => CStep_error vt _ cs)

theorem CStep_start_key_object (vt : H → ajson_sax_cb_t σ H) (lx : Lexer)
    (cs : Consumer σ H) : CStep vt cs (start_key_object vt lx cs) := by
  unfold start_key_object
  dsimp only
  refine wp_ite (fun _ => CStep_error vt _ cs) (fun _ => ?_)
  refine wp_ite (fun _ => CStep.quiet_goto _ _) (fun _ => ?_)
  refine wp_ite (fun _ => CStep.quiet_goto _ _) (fun _ => ?_)
  refine wp_ite (fun _ => CStep_open_container vt _ cs _ _ _ (fun _ => rfl)) (fun _ => ?_)
  refine wp_ite (fun _ => CStep_open_container vt _ cs _ _ _ (fun _ => rfl)) (fun _ => ?_)
  refine wp_ite (fun _ => CStep_start_key_object_minus vt _ cs) (fun _ => ?_)
  refine wp_ite (fun _ => CStep_zero_case vt _ cs _ _ _) (fun _ => ?_)
  refine wp_ite (fun _ => CStep.quiet_goto _ _) (fun _ => ?_)
  refine wp_ite (fun _ => CStep_literal vt _ cs _ _ _ (fun _ => rfl)) (fun _ => ?_)
  refine wp_ite (fun _ => CStep_literal vt _ cs _ _ _ (fun _ => rfl)) (fun _ => ?_)
  exact wp_ite (fun _ => CStep_literal vt _ cs _ _ _ (fun _ => rfl))
    (fun _ => CStep_error vt _ cs)

theorem CStep_start_key (vt : H → ajson_sax_cb_t σ H) (lx : Lexer) (cs : Consumer σ H) :
    CStep vt cs (start_key vt lx cs) := by
  unfold start_key
  dsimp only
  refine wp_ite (fun _ => CStep_error vt _ cs) (fun _ => ?_)
  refine wp_ite (fun _ => CStep.quiet_goto _ _) (fun _ => ?_)
  refine wp_ite (fun _ => CStep.quiet_goto _ _) (fun _ => ?_)
  exact wp_ite (fun _ => CStep_close_here vt _ cs _ (fun _ => rfl))
    (fun _ => CStep_error vt _ cs)

theorem CStep_get_end_of_key (vt : H → ajson_sax_cb_t σ H) (lx : Lexer) (cs : Consumer σ H) :
    CStep vt cs (get_end_of_key vt lx cs) := by
  unfold get_end_of_key
  dsimp only
  exact wp_ite (fun _ => CStep.quiet_goto _ _) (fun _ => CStep_finish_key vt _ cs)

theorem CStep_look_for_key (vt : H → ajson_sax_cb_t σ H) (lx : Lexer) (cs : Consumer σ H) :
    CStep vt cs (look_for_key vt lx cs) := by
  unfold look_for_key
  refine wp_ite (fun _ => ?_) (fun _ => ?_)
  · exact wp_ite (fun _ => CStep_error vt _ cs) (fun _ => CStep.quiet_goto _ _)
  refine wp_ite (fun _ => CStep_close_ahead vt _ cs _ (fun _ => rfl)) (fun _ => ?_)
  exact wp_ite (fun _ => CStep.quiet_goto _ _) (fun _ => CStep_error vt _ cs)

theorem CStep_look_for_next_object (vt : H → ajson_sax_cb_t σ H) (lx : Lexer)
    (cs : Consumer σ H) : CStep vt cs (look_for_next_object vt lx cs) := by
  have hend : ∀ lx1 : Lexer, CStep vt cs
      (if stack_depth lx1 = 0 then .ret 0 lx1 cs else SAX_ERROR lx1 cs) := fun lx1 =>
    wp_ite (fun _ => CStep.quiet_ret _ _ (Or.inl rfl)) (fun _ => CStep_error vt _ cs)
  unfold look_for_next_object
  refine wp_ite (fun _ => ?_) (fun _ => ?_)
  · exact wp_ite (fun _ => CStep_error vt _ cs) (fun _ => CStep.quiet_goto _ _)
  refine wp_ite (fun _ => CStep_close_ahead vt _ cs _ (fun _ => rfl)) (fun _ => ?_)
  refine wp_ite (fun _ => ?_) (fun _ => ?_)
  · dsimp only
    exact wp_ite (fun _ => hend _) (fun _ => CStep.quiet_goto _ _)
  · exact wp_ite (fun _ => hend _) (fun _ => CStep_error vt _ cs)

theorem CStep_determine_next_step (vt : H → ajson_sax_cb_t σ H) (lx : Lexer)
    (cs : Consumer σ H) : CStep vt cs (determine_next_step lx cs) := by
  unfold determine_next_step
  refine wp_ite (fun _ => CStep.quiet_ret _ _ (Or.inl rfl)) (fun _ => ?_)
  refine wp_ite (fun _ => CStep.quiet_ret _ _ (Or.inl rfl)) (fun _ => ?_)
  dsimp only
  exact wp_ite (fun _ => CStep.quiet_goto _ _) (fun _ => CStep.quiet_goto _ _)

/-- Every transition handles the consumer state in one of the five ways of `CStep`. -/
theorem step_CStep (vt : H → ajson_sax_cb_t σ H) (l : Label) (lx : Lexer)
    (cs : Consumer σ H) : CStep vt cs (step vt l lx cs) := by
  cases l
  case start_key => exact CStep_start_key vt lx cs
  case get_end_of_key => exact CStep_get_end_of_key vt lx cs
  case start_key_object => exact CStep_start_key_object vt lx cs
  case keyed_start_string => exact CStep_string_body vt lx cs _ _
  case look_for_key => exact CStep_look_for_key vt lx cs
  case keyed_next_digit => exact CStep_next_digit_body vt lx cs _ _
  case keyed_decimal_number => exact CStep_decimal_number_body vt lx cs _
  case start_value => exact CStep_start_value vt lx cs
  case start_string => exact CStep_string_body vt lx cs _ _
  case add_string => exact CStep.quiet_goto _ _
  case look_for_next_object => exact CStep_look_for_next_object vt lx cs
  case next_digit => exact CStep_next_digit_body vt lx cs _ _
  case decimal_number => exact CStep_decimal_number_body vt lx cs _
  case determine_next_step => exact CStep_determine_next_step vt lx cs

/-! ## The log of callbacks: a nonzero code ends the run -/

theorem trace_after_event (ev : Event) (cs : Consumer σ H) :
    (after_event ev cs).trace = cs.trace := by
  cases ev <;> rfl

theorem Quiet_delivered (vt : H → ajson_sax_cb_t σ H) (cs cs1 : Consumer σ H) (ev : Event)
    (h : Delivered vt cs ev cs1) (hq : Quiet cs.trace) : Quiet cs1.trace := by
  rcases h with ⟨_, rfl⟩ | ⟨c, s, _, rfl⟩
  · exact hq
  · intro e he
    simp only [after_cb, List.mem_append, List.mem_singleton] at he
    rcases he with he | rfl
    · exact hq e he
    · rfl

theorem run_AbortLast (vt : H → ajson_sax_cb_t σ H) (n : Nat) (l : Label) (lx : Lexer)
    (cs : Consumer σ H) (r : Result σ H) (hq : Quiet cs.trace)
    (h : run vt n l lx cs = some r) : AbortLast r.rc r.cs.trace := by
  induction n generalizing l lx cs with
  | zero => simp [run] at h
  | succ n ih =>
    unfold run at h
    have hc := step_CStep vt l lx cs
    cases hs : step vt l lx cs with
    | ret rc lx1 cs1 =>
      rw [hs] at h hc
      obtain rfl := Option.some.inj h
      cases hc with
      | quiet_ret _ _ _ => exact Or.inl hq
      | abort ev c s _ _ hi hrc => exact Or.inr ⟨cs.trace, ev, rfl, hq, hrc⟩
      | cb_full ev _ _ hd => exact Or.inl (Quiet_delivered vt cs _ ev hd hq)
    | goto l1 lx1 cs1 =>
      rw [hs] at h hc
      refine ih l1 lx1 cs1 ?_ h
      cases hc with
      | quiet_goto _ _ => exact hq
      | cb_goto ev cs2 _ _ hd =>
        rw [trace_after_event]
        exact Quiet_delivered vt cs _ ev hd hq

theorem AbortLast_get (rc : Int) (t : List (Event × Int)) (h : AbortLast rc t) (i : Nat)
    (hi : i < t.length) (hne : (t.get ⟨i, hi⟩).2 ≠ 0) :
    rc = (t.get ⟨i, hi⟩).2 ∧ i + 1 = t.length := by
  rcases h with hq | ⟨t0, ev, rfl, hq, _⟩
  · exact absurd (hq _ (List.get_mem t i hi)) hne
  · by_cases hlt : i < t0.length
    · have : (t0 ++ [(ev, rc)]).get ⟨i, hi⟩ = t0.get ⟨i, hlt⟩ := by
        simp [List.getElem_append_left, hlt]
      rw [this] at hne
      exact absurd (hq _ (List.get_mem t0 i hlt)) hne
    · have hlen : i = t0.length := by
        simp only [List.length_append, List.length_singleton] at hi
        omega
      subst hlen
      simp

/-! ## Two consumers on the same buffer -/

section TwoConsumers

variable {σ₁ H₁ σ₂ H₂ : Type} {vt₁ : H₁ → ajson_sax_cb_t σ₁ H₁}
  {vt₂ : H₂ → ajson_sax_cb_t σ₂ H₂} {R : Consumer σ₁ H₁ → Consumer σ₂ H₂ → Prop}

theorem CHECK_CB_delivered {σ H : Type} (vt : H → ajson_sax_cb_t σ H) (lx : Lexer)
    (cs cs1 : Consumer σ H) (ev : Event) (k : Consumer σ H → Step σ H)
    (h : Delivered vt cs ev cs1) : CHECK_CB vt lx cs ev k = k cs1 := by
  unfold CHECK_CB
  rcases h with ⟨h, rfl⟩ | ⟨c, s, h, rfl⟩
  · rw [h]
  · rw [h]
    simp

theorem Rel_ite {c : Prop} [Decidable c] {a1 b1 : Step σ₁ H₁} {a2 b2 : Step σ₂ H₂}
    (ha : c → Rel R a1 a2) (hb : ¬ c → Rel R b1 b2) :
    Rel R (if c then a1 else b1) (if c then a2 else b2) := by
  split
  · exact ha ‹_›
  · exact hb ‹_›

theorem Rel_error (lx : Lexer) {cs1 : Consumer σ₁ H₁} {cs2 : Consumer σ₂ H₂} (h : R cs1 cs2) :
    Rel R (SAX_ERROR lx cs1) (SAX_ERROR lx cs2) :=
  ⟨rfl, rfl, h⟩

theorem Rel_goto (l : Label) (lx : Lexer) {cs1 : Consumer σ₁ H₁} {cs2 : Consumer σ₂ H₂}
    (h : R cs1 cs2) : Rel R (.goto l lx cs1) (.goto l lx cs2) :=
  ⟨rfl, rfl, h⟩

theorem Rel_ret (rc : Int) (lx : Lexer) {cs1 : Consumer σ₁ H₁} {cs2 : Consumer σ₂ H₂}
    (h : R cs1 cs2) : Rel R (.ret rc lx cs1) (.ret rc lx cs2) :=
  ⟨rfl, rfl, h⟩

theorem Rel_CHECK_CB (hc : Compat vt₁ vt₂ R) (lx : Lexer) {cs1 : Consumer σ₁ H₁}
    {cs2 : Consumer σ₂ H₂} (ev : Event) (k1 : Consumer σ₁ H₁ → Step σ₁ H₁)
    (k2 : Consumer σ₂ H₂ → Step σ₂ H₂) (h : R cs1 cs2)
    (hk : ∀ c1 c2, R c1 c2 → Rel R (k1 c1) (k2 c2)) :
    Rel R (CHECK_CB vt₁ lx cs1 ev k1) (CHECK_CB vt₂ lx cs2 ev k2) := by
  obtain ⟨c1, c2, hd1, hd2, hr⟩ := hc.cb cs1 cs2 ev h
  rw [CHECK_CB_delivered vt₁ lx cs1 c1 ev k1 hd1, CHECK_CB_delivered vt₂ lx cs2 c2 ev k2 hd2]
  exact hk c1 c2 hr

theorem Rel_plain (hc : Compat vt₁ vt₂ R) (lx : Lexer) {cs1 : Consumer σ₁ H₁}
    {cs2 : Consumer σ₂ H₂} (ev : Event) (l : Label) (f : Lexer) (h : R cs1 cs2) :
    Rel R (CHECK_CB vt₁ lx cs1 ev fun c => .goto l f c)
      (CHECK_CB vt₂ lx cs2 ev fun c => .goto l f c) :=
  Rel_CHECK_CB hc lx ev _ _ h (fun _ _ hr => Rel_goto l f hr)

theorem Rel_SYNTAX_PUSH (hc : Compat vt₁ vt₂ R) (lx : Lexer) {cs1 : Consumer σ₁ H₁}
    {cs2 : Consumer σ₂ H₂} (mode : Nat) (next : Label) (h : R cs1 cs2) :
    Rel R (SYNTAX_PUSH lx cs1 mode fun lx c => .goto next lx c)
      (SYNTAX_PUSH lx cs2 mode fun lx c => .goto next lx c) := by
  unfold SYNTAX_PUSH
  exact Rel_ite (fun _ => Rel_ret _ _ h) (fun _ => Rel_goto _ _ (hc.inc _ _ h))

theorem Rel_open_container (hc : Compat vt₁ vt₂ R) (lx : Lexer) {cs1 : Consumer σ₁ H₁}
    {cs2 : Consumer σ₂ H₂} (ev : Event) (mode : Nat) (next : Label) (h : R cs1 cs2) :
    Rel R (open_container vt₁ lx cs1 ev mode next) (open_container vt₂ lx cs2 ev mode next) := by
  unfold open_container
  exact Rel_CHECK_CB hc lx ev _ _ h (fun _ _ hr => Rel_SYNTAX_PUSH hc lx mode next hr)

theorem Rel_close_here (hc : Compat vt₁ vt₂ R) (lx : Lexer) {cs1 : Consumer σ₁ H₁}
    {cs2 : Consumer σ₂ H₂} (ev : Event) (h : R cs1 cs2) :
    Rel R (close_here vt₁ lx cs1 ev) (close_here vt₂ lx cs2 ev) := by
  unfold close_here
  refine Rel_ite (fun _ => Rel_error lx h) (fun _ => ?_)
  exact Rel_CHECK_CB hc lx ev _ _ h (fun _ _ hr => Rel_goto _ _ (hc.dec _ _ hr))

theorem Rel_close_ahead (hc : Compat vt₁ vt₂ R) (lx : Lexer) {cs1 : Consumer σ₁ H₁}
    {cs2 : Consumer σ₂ H₂} (ev : Event) (h : R cs1 cs2) :
    Rel R (close_ahead vt₁ lx cs1 ev) (close_ahead vt₂ lx cs2 ev) := by
  unfold close_ahead
  refine Rel_ite (fun _ => Rel_error lx h) (fun _ => ?_)
  exact Rel_CHECK_CB hc lx ev _ _ h (fun _ _ hr => Rel_goto _ _ (hc.dec _ _ hr))

theorem Rel_expect (lx : Lexer) {cs1 : Consumer σ₁ H₁} {cs2 : Consumer σ₂ H₂} (c : Nat)
    (k1 : Lexer → Step σ₁ H₁) (k2 : Lexer → Step σ₂ H₂) (h : R cs1 cs2)
    (hk : ∀ lx1, Rel R (k1 lx1) (k2 lx1)) :
    Rel R (expect lx cs1 c k1) (expect lx cs2 c k2) := by
  unfold expect
  exact Rel_ite (fun _ => Rel_error _ h) (fun _ => hk _)

theorem Rel_expect_all {cs1 : Consumer σ₁ H₁} {cs2 : Consumer σ₂ H₂} (word : List Nat)
    (lx : Lexer) (k1 : Lexer → Step σ₁ H₁) (k2 : Lexer → Step σ₂ H₂) (h : R cs1 cs2)
    (hk : ∀ lx1, Rel R (k1 lx1) (k2 lx1)) :
    Rel R (expect_all cs1 word lx k1) (expect_all cs2 word lx k2) := by
  induction word generalizing lx with
  | nil => exact hk lx
  | cons c word ih =>
    unfold expect_all
    exact Rel_expect lx c _ _ h (fun lx1 => ih lx1)

theorem Rel_literal (hc : Compat vt₁ vt₂ R) (lx : Lexer) {cs1 : Consumer σ₁ H₁}
    {cs2 : Consumer σ₂ H₂} (word : List Nat) (ev : Event) (next : Label) (h : R cs1 cs2) :
    Rel R (literal vt₁ lx cs1 word ev next) (literal vt₂ lx cs2 word ev next) := by
  unfold literal
  refine Rel_ite (fun _ => Rel_error lx h) (fun _ => ?_)
  exact Rel_expect_all word lx _ _ h (fun lx1 => Rel_plain hc lx1 ev next _ h)

theorem Rel_zero_case (hc : Compat vt₁ vt₂ R) (lx : Lexer) {cs1 : Consumer σ₁ H₁}
    {cs2 : Consumer σ₂ H₂} (dec digit next : Label) (h : R cs1 cs2) :
    Rel R (zero_case vt₁ lx cs1 dec digit next) (zero_case vt₂ lx cs2 dec digit next) := by
  unfold zero_case
  dsimp only
  refine Rel_ite (fun _ => Rel_goto _ _ h) (fun _ => ?_)
  refine Rel_ite (fun _ => Rel_goto _ _ h) (fun _ => ?_)
  refine Rel_ite (fun _ => Rel_error lx h) (fun _ => ?_)
  exact Rel_plain hc lx _ next _ h

theorem Rel_start_value_minus (hc : Compat vt₁ vt₂ R) (lx : Lexer) {cs1 : Consumer σ₁ H₁}
    {cs2 : Consumer σ₂ H₂} (h : R cs1 cs2) :
    Rel R (start_value_minus vt₁ lx cs1) (start_value_minus vt₂ lx cs2) := by
  unfold start_value_minus
  refine Rel_ite (fun _ => ?_) (fun _ => ?_)
  · dsimp only
    refine Rel_ite (fun _ => Rel_goto _ _ h) (fun _ => ?_)
    refine Rel_ite (fun _ => Rel_goto _ _ h) (fun _ => ?_)
    refine Rel_ite (fun _ => Rel_error lx h) (fun _ => ?_)
    exact Rel_plain hc lx _ _ _ h
  · exact Rel_ite (fun _ => Rel_goto _ _ h) (fun _ => Rel_error lx h)

theorem Rel_start_key_object_minus (hc : Compat vt₁ vt₂ R) (lx : Lexer)
    {cs1 : Consumer σ₁ H₁} {cs2 : Consumer σ₂ H₂} (h : R cs1 cs2) :
    Rel R (start_key_object_minus vt₁ lx cs1) (start_key_object_minus vt₂ lx cs2) := by
  unfold start_key_object_minus
  refine Rel_ite (fun _ => ?_) (fun _ => ?_)
  · dsimp only
    refine Rel_ite (fun _ => Rel_goto _ _ h) (fun _ => ?_)
    refine Rel_ite (fun _ => Rel_goto _ _ h) (fun _ => ?_)
    refine Rel_ite (fun _ => Rel_error lx h) (fun _ => ?_)
    exact Rel_plain hc lx _ _ _ h
  · exact Rel_ite (fun _ => Rel_goto _ _ h) (fun _ => Rel_error lx h)

theorem Rel_finish_number (hc : Compat vt₁ vt₂ R) (lx : Lexer) {cs1 : Consumer σ₁ H₁}
    {cs2 : Consumer σ₂ H₂} (next : Label) (h : R cs1 cs2) :
    Rel R (finish_number vt₁ lx cs1 next) (finish_number vt₂ lx cs2 next) := by
  unfold finish_number
  exact Rel_plain hc _ _ next _ h

theorem Rel_finish_string (hc : Compat vt₁ vt₂ R) (lx : Lexer) {cs1 : Consumer σ₁ H₁}
    {cs2 : Consumer σ₂ H₂} (next : Label) (h : R cs1 cs2) :
    Rel R (finish_string vt₁ lx cs1 next) (finish_string vt₂ lx cs2 next) := by
  unfold finish_string
  exact Rel_plain hc _ _ next _ h

theorem Rel_finish_key (hc : Compat vt₁ vt₂ R) (lx : Lexer) {cs1 : Consumer σ₁ H₁}
    {cs2 : Consumer σ₂ H₂} (h : R cs1 cs2) :
    Rel R (finish_key vt₁ lx cs1) (finish_key vt₂ lx cs2) := by
  unfold finish_key
  exact Rel_plain hc _ _ _ _ h

theorem Rel_exponent_part (lx : Lexer) {cs1 : Consumer σ₁ H₁} {cs2 : Consumer σ₂ H₂}
    (k1 : Lexer → Step σ₁ H₁) (k2 : Lexer → Step σ₂ H₂) (h : R cs1 cs2)
    (hk : ∀ lx1, Rel R (k1 lx1) (k2 lx1)) :
    Rel R (exponent_part lx cs1 k1) (exponent_part lx cs2 k2) := by
  unfold exponent_part
  refine Rel_ite (fun _ => ?_) (fun _ => hk lx)
  dsimp only
  exact Rel_ite (fun _ => Rel_error _ h) (fun _ => hk _)

theorem Rel_string_body (hc : Compat vt₁ vt₂ R) (lx : Lexer) {cs1 : Consumer σ₁ H₁}
    {cs2 : Consumer σ₂ H₂} (self next : Label) (h : R cs1 cs2) :
    Rel R (string_body vt₁ lx cs1 self next) (string_body vt₂ lx cs2 self next) := by
  unfold string_body
  dsimp only
  refine Rel_ite (fun _ => Rel_error _ h) (fun _ => ?_)
  exact Rel_ite (fun _ => Rel_goto _ _ h) (fun _ => Rel_finish_string hc _ next h)

theorem Rel_next_digit_body (hc : Compat vt₁ vt₂ R) (lx : Lexer) {cs1 : Consumer σ₁ H₁}
    {cs2 : Consumer σ₂ H₂} (dec next : Label) (h : R cs1 cs2) :
    Rel R (next_digit_body vt₁ lx cs1 dec next) (next_digit_body vt₂ lx cs2 dec next) := by
  unfold next_digit_body
  dsimp only
  refine Rel_ite (fun _ => Rel_goto _ _ h) (fun _ => ?_)
  exact Rel_exponent_part _ _ _ h (fun lx1 => Rel_finish_number hc lx1 next h)

theorem Rel_decimal_number_body (hc : Compat vt₁ vt₂ R) (lx : Lexer) {cs1 : Consumer σ₁ H₁}
    {cs2 : Consumer σ₂ H₂} (next : Label) (h : R cs1 cs2) :
    Rel R (decimal_number_body vt₁ lx cs1 next) (decimal_number_body vt₂ lx cs2 next) := by
  unfold decimal_number_body
  dsimp only
  refine Rel_ite (fun _ => Rel_error _ h) (fun _ => ?_)
  exact Rel_exponent_part _ _ _ h (fun lx1 => Rel_finish_number hc lx1 next h)

theorem Rel_start_value (hc : Compat vt₁ vt₂ R) (lx : Lexer) {cs1 : Consumer σ₁ H₁}
    {cs2 : Consumer σ₂ H₂} (h : R cs1 cs2) :
    Rel R (start_value vt₁ lx cs1) (start_value vt₂ lx cs2) := by
  unfold start_value
  dsimp only
  refine Rel_ite (fun _ => Rel_error _ h) (fun _ => ?_)
  refine Rel_ite (fun _ => Rel_goto _ _ h) (fun _ => ?_)
  refine Rel_ite (fun _ => Rel_goto _ _ h) (fun _ => ?_)
  refine Rel_ite (fun _ => Rel_open_container hc _ _ _ _ h) (fun _ => ?_)
  refine Rel_ite (fun _ => Rel_open_container hc _ _ _ _ h) (fun _ => ?_)
  refine Rel_ite (fun _ => Rel_close_here hc _ _ h) (fun _ => ?_)
  refine Rel_ite (fun _ => Rel_start_value_minus hc _ h) (fun _ => ?_)
  refine Rel_ite (fun _ => Rel_zero_case hc _ _ _ _ h) (fun _ => ?_)
  refine Rel_ite (fun _ => Rel_goto _ _ h) (fun _ => ?_)
  refine Rel_ite (fun _ => Rel_literal hc _ _ _ _ h) (fun _ => ?_)
  refine Rel_ite (fun _ => Rel_literal hc _ _ _ _ h) (fun _ => ?_)
  exact Rel_ite (fun _ => Rel_literal hc _ _ _ _ h) (fun _ => Rel_error _ h)

theorem Rel_start_key_object (hc : Compat vt₁ vt₂ R) (lx : Lexer) {cs1 : Consumer σ₁ H₁}
    {cs2 : Consumer σ₂ H₂} (h : R cs1 cs2) :
    Rel R (start_key_object vt₁ lx cs1) (start_key_object vt₂ lx cs2) := by
  unfold start_key_object
  dsimp only
  refine Rel_ite (fun _ => Rel_error _ h) (fun _ => ?_)
  refine Rel_ite (fun _ => Rel_goto _ _ h) (fun _ => ?_)
  refine Rel_ite (fun _ => Rel_goto _ _ h) (fun _ => ?_)
  refine Rel_ite (fun _ => Rel_open_container hc _ _ _ _ h) (fun _ => ?_)
  refine Rel_ite (fun _ => Rel_open_container hc _ _ _ _ h) (fun _ => ?_)
  refine Rel_ite (fun _ => Rel_start_key_object_minus hc _ h) (fun _ => ?_)
  refine Rel_ite (fun _ => Rel_zero_case hc _ _ _ _ h) (fun _ => ?_)
  refine Rel_ite (fun _ => Rel_goto _ _ h) (fun _ => ?_)
  refine Rel_ite (fun _ => Rel_literal hc _ _ _ _ h) (fun _ => ?_)
  refine Rel_ite (fun _ => Rel_literal hc _ _ _ _ h) (fun _ => ?_)
  exact Rel_ite (fun _ => Rel_literal hc _ _ _ _ h) (fun _ => Rel_error _ h)

theorem Rel_start_key (hc : Compat vt₁ vt₂ R) (lx : Lexer) {cs1 : Consumer σ₁ H₁}
    {cs2 : Consumer σ₂ H₂} (h : R cs1 cs2) :
    Rel R (start_key vt₁ lx cs1) (start_key vt₂ lx cs2) := by
  unfold start_key
  dsimp only
  refine Rel_ite (fun _ => Rel_error _ h) (fun _ => ?_)
  refine Rel_ite (fun _ => Rel_goto _ _ h) (fun _ => ?_)
  refine Rel_ite (fun _ => Rel_goto _ _ h) (fun _ => ?_)
  exact Rel_ite (fun _ => Rel_close_here hc _ _ h) (fun _ => Rel_error _ h)

theorem Rel_get_end_of_key (hc : Compat vt₁ vt₂ R) (lx : Lexer) {cs1 : Consumer σ₁ H₁}
    {cs2 : Consumer σ₂ H₂} (h : R cs1 cs2) :
    Rel R (get_end_of_key vt₁ lx cs1) (get_end_of_key vt₂ lx cs2) := by
  unfold get_end_of_key
  dsimp only
  exact Rel_ite (fun _ => Rel_goto _ _ h) (fun _ => Rel_finish_key hc _ h)

theorem Rel_look_for_key (hc : Compat vt₁ vt₂ R) (lx : Lexer) {cs1 : Consumer σ₁ H₁}
    {cs2 : Consumer σ₂ H₂} (h : R cs1 cs2) :
    Rel R (look_for_key vt₁ lx cs1) (look_for_key vt₂ lx cs2) := by
  unfold look_for_key
  refine Rel_ite (fun _ => ?_) (fun _ => ?_)
  · exact Rel_ite (fun _ => Rel_error _ h) (fun _ => Rel_goto _ _ h)
  refine Rel_ite (fun _ => Rel_close_ahead hc _ _ h) (fun _ => ?_)
  exact Rel_ite (fun _ => Rel_goto _ _ h) (fun _ => Rel_error _ h)

theorem Rel_look_for_next_object (hc : Compat vt₁ vt₂ R) (lx : Lexer)
    {cs1 : Consumer σ₁ H₁} {cs2 : Consumer σ₂ H₂} (h : R cs1 cs2) :
    Rel R (look_for_next_object vt₁ lx cs1) (look_for_next_object vt₂ lx cs2) := by
  have hend : ∀ lx1 : Lexer, Rel R
      (if stack_depth lx1 = 0 then .ret 0 lx1 cs1 else SAX_ERROR lx1 cs1)
      (if stack_depth lx1 = 0 then .ret 0 lx1 cs2 else SAX_ERROR lx1 cs2) := fun lx1 =>
    Rel_ite (fun _ => Rel_ret _ _ h) (fun _ => Rel_error _ h)
  unfold look_for_next_object
  refine Rel_ite (fun _ => ?_) (fun _ => ?_)
  · exact Rel_ite (fun _ => Rel_error _ h) (fun _ => Rel_goto _ _ h)
  refine Rel_ite (fun _ => Rel_close_ahead hc _ _ h) (fun _ => ?_)
  refine Rel_ite (fun _ => ?_) (fun _ => ?_)
  · dsimp only
    exact Rel_ite (fun _ => hend _) (fun _ => Rel_goto _ _ h)
  · exact Rel_ite (fun _ => hend _) (fun _ => Rel_error _ h)

theorem Rel_determine_next_step (lx : Lexer) {cs1 : Consumer σ₁ H₁} {cs2 : Consumer σ₂ H₂}
    (h : R cs1 cs2) : Rel R (determine_next_step lx cs1) (determine_next_step lx cs2) := by
  unfold determine_next_step
  refine Rel_ite (fun _ => Rel_ret _ _ h) (fun _ => ?_)
  refine Rel_ite (fun _ => Rel_ret _ _ h) (fun _ => ?_)
  dsimp only
  exact Rel_ite (fun _ => Rel_goto _ _ h) (fun _ => Rel_goto _ _ h)

/-- Compatible consumers make the same transition on the same scanner state. -/
theorem step_Rel (hc : Compat vt₁ vt₂ R) (l : Label) (lx : Lexer) {cs1 : Consumer σ₁ H₁}
    {cs2 : Consumer σ₂ H₂} (h : R cs1 cs2) :
    Rel R (step vt₁ l lx cs1) (step vt₂ l lx cs2) := by
  cases l
  case start_key => exact Rel_start_key hc lx h
  case get_end_of_key => exact Rel_get_end_of_key hc lx h
  case start_key_object => exact Rel_start_key_object hc lx h
  case keyed_start_string => exact Rel_string_body hc lx _ _ h
  case look_for_key => exact Rel_look_for_key hc lx h
  case keyed_next_digit => exact Rel_next_digit_body hc lx _ _ h
  case keyed_decimal_number => exact Rel_decimal_number_body hc lx _ h
  case start_value => exact Rel_start_value hc lx h
  case start_string => exact Rel_string_body hc lx _ _ h
  case add_string => exact Rel_goto _ _ h
  case look_for_next_object => exact Rel_look_for_next_object hc lx h
  case next_digit => exact Rel_next_digit_body hc lx _ _ h
  case decimal_number => exact Rel_decimal_number_body hc lx _ h
  case determine_next_step => exact Rel_determine_next_step lx h

/-- Compatible consumers run alike: same return code, same final scanner state. -/
theorem run_Rel (hc : Compat vt₁ vt₂ R) (n : Nat) (l : Label) (lx : Lexer)
    {cs1 : Consumer σ₁ H₁} {cs2 : Consumer σ₂ H₂} (h : R cs1 cs2) :
    RelResult R (run vt₁ n l lx cs1) (run vt₂ n l lx cs2) := by
  induction n generalizing l lx cs1 cs2 with
  | zero => trivial
  | succ n ih =>
    have hs := step_Rel hc l lx h
    unfold run
    cases h1 : step vt₁ l lx cs1 <;> cases h2 : step vt₂ l lx cs2 <;> rw [h1, h2] at hs
    · exact hs
    · exact hs.elim
    · exact hs.elim
    · obtain ⟨rfl, rfl, hr⟩ := hs
      exact ih _ _ hr

theorem ajson_sax_parse_Rel (hc : Compat vt₁ vt₂ R) (mem : List Nat) (ep : Nat) (cb1 : H₁)
    (ctx1 : σ₁) (cb2 : H₂) (ctx2 : σ₂)
    (h : R (init_consumer cb1 ctx1) (init_consumer cb2 ctx2)) :
    RelResult R (ajson_sax_parse vt₁ mem ep cb1 ctx1) (ajson_sax_parse vt₂ mem ep cb2 ctx2) := by
  unfold ajson_sax_parse
  dsimp only
  split
  · exact ⟨rfl, rfl, h⟩
  · exact run_Rel hc _ _ _ h

end TwoConsumers

/-! ## The return code does not depend on a consumer that never aborts -/

theorem delivered_of_zero {σ H : Type} {vt : H → ajson_sax_cb_t σ H} (hz : ReturnsZero vt)
    (cs : Consumer σ H) (ev : Event) : ∃ cs1, Delivered vt cs ev cs1 := by
  cases h : invoke vt cs ev with
  | none => exact ⟨cs, Or.inl ⟨h, rfl⟩⟩
  | some x =>
    obtain ⟨c, s, rc⟩ := x
    obtain rfl := hz cs ev c s rc h
    exact ⟨_, Or.inr ⟨c, s, h, rfl⟩⟩

theorem Compat_of_zero {σ₁ H₁ σ₂ H₂ : Type} {vt₁ : H₁ → ajson_sax_cb_t σ₁ H₁}
    {vt₂ : H₂ → ajson_sax_cb_t σ₂ H₂} (h1 : ReturnsZero vt₁) (h2 : ReturnsZero vt₂) :
    Compat vt₁ vt₂ (fun _ _ => True) where
  cb := fun cs1 cs2 ev _ => by
    obtain ⟨c1, hd1⟩ := delivered_of_zero h1 cs1 ev
    obtain ⟨c2, hd2⟩ := delivered_of_zero h2 cs2 ev
    exact ⟨c1, c2, hd1, hd2, trivial⟩
  inc := fun _ _ _ => trivial
  dec := fun _ _ _ => trivial

theorem Compat_of_complete {σ₁ H₁ σ₂ H₂ : Type} {vt₁ : H₁ → ajson_sax_cb_t σ₁ H₁}
    {vt₂ : H₂ → ajson_sax_cb_t σ₂ H₂} (h1 : Complete vt₁) (h2 : Complete vt₂) :
    Compat vt₁ vt₂ (fun a b => a.trace = b.trace) where
  cb := fun cs1 cs2 ev h => by
    obtain ⟨c1, s1, e1⟩ := h1 cs1 ev
    obtain ⟨c2, s2, e2⟩ := h2 cs2 ev
    refine ⟨_, _, Or.inr ⟨c1, s1, e1, rfl⟩, Or.inr ⟨c2, s2, e2, rfl⟩, ?_⟩
    simp only [after_cb, h]
  inc := fun _ _ h => h
  dec := fun _ _ h => h

theorem ReturnsZero_no_handlers (σ H : Type) : ReturnsZero (fun _ : H => no_handlers σ H) := by
  intro cs ev c s rc h
  cases ev <;> simp [invoke, no_handlers] at h

theorem Complete_quiet_handlers : Complete (fun _ : Unit => quiet_handlers) := by
  intro cs ev
  cases ev <;> exact ⟨_, _, rfl⟩

theorem ReturnsZero_of_complete {σ H : Type} {vt : H → ajson_sax_cb_t σ H} (h : Complete vt) :
    ReturnsZero vt := by
  intro cs ev c s rc hi
  obtain ⟨c1, s1, e1⟩ := h cs ev
  rw [e1] at hi
  simp only [Option.some.injEq, Prod.mk.injEq] at hi
  exact hi.2.2.symm

/-- With a consumer whose callbacks all return 0 the return code is the one that
the parse has with no handler at all. -/
theorem code_eq_no_handlers {σ H : Type} {vt : H → ajson_sax_cb_t σ H} (hz : ReturnsZero vt)
    (mem : List Nat) (ep : Nat) (cb : H) (ctx : σ) :
    code (ajson_sax_parse vt mem ep cb ctx) =
      code (ajson_sax_parse (fun _ : Unit => no_handlers Unit Unit) mem ep () ()) := by
  have h := ajson_sax_parse_Rel (Compat_of_zero hz (ReturnsZero_no_handlers Unit Unit)) mem ep
    cb ctx () () trivial
  revert h
  cases ajson_sax_parse vt mem ep cb ctx <;>
    cases ajson_sax_parse (fun _ : Unit => no_handlers Unit Unit) mem ep () () <;>
    simp [RelResult, code]
  intro h _
  exact h

/-- With a consumer that has every handler, each returning 0, the return code and
the events delivered are those seen by `quiet_handlers`. -/
theorem events_eq_quiet {σ H : Type} {vt : H → ajson_sax_cb_t σ H} (hz : Complete vt)
    (mem : List Nat) (ep : Nat) (cb : H) (ctx : σ) :
    events (ajson_sax_parse vt mem ep cb ctx) =
      events (ajson_sax_parse (fun _ : Unit => quiet_handlers) mem ep () ()) := by
  have h := ajson_sax_parse_Rel (Compat_of_complete hz Complete_quiet_handlers) mem ep
    cb ctx () () rfl
  revert h
  cases ajson_sax_parse vt mem ep cb ctx <;>
    cases ajson_sax_parse (fun _ : Unit => quiet_handlers) mem ep () () <;>
    simp [RelResult, events]
  intro h1 _ h2
  exact ⟨h1, by rw [h2]⟩

/-! ## Following a run symbolically -/

section Follow

variable {σ H : Type}

theorem Ends_goto {vt : H → ajson_sax_cb_t σ H} {l l1 : Label} {lx lx1 : Lexer}
    {cs cs1 : Consumer σ H} {Q : Result σ H → Prop}
    (hs : step vt l lx cs = .goto l1 lx1 cs1) (h : Ends vt l1 lx1 cs1 Q) :
    Ends vt l lx cs Q := by
  obtain ⟨n, r, hr, hq⟩ := h
  refine ⟨n + 1, r, ?_, hq⟩
  unfold run
  rw [hs]
  exact hr

theorem Ends_ret {vt : H → ajson_sax_cb_t σ H} {l : Label} {lx lx1 : Lexer}
    {cs cs1 : Consumer σ H} {Q : Result σ H → Prop} {rc : Int}
    (hs : step vt l lx cs = .ret rc lx1 cs1) (h : Q ⟨rc, lx1, cs1⟩) :
    Ends vt l lx cs Q := by
  refine ⟨1, ⟨rc, lx1, cs1⟩, ?_, h⟩
  unfold run
  rw [hs]

theorem ajson_sax_parse_of_Ends {vt : H → ajson_sax_cb_t σ H} {mem : List Nat} {ep : Nat}
    {cb : H} {ctx : σ} {Q : Result σ H → Prop} (hep : 0 < ep)
    (h : Ends vt .start_value (init_lexer mem ep) (init_consumer cb ctx) Q) :
    ∃ r, ajson_sax_parse vt mem ep cb ctx = some r ∧ Q r := by
  obtain ⟨n, r, hr, hq⟩ := h
  exact ⟨r, ajson_sax_parse_of_run vt mem ep cb ctx n r hep hr, hq⟩

theorem CHECK_CB_none (lx : Lexer) (cs : Consumer Unit Unit) (ev : Event)
    (k : Consumer Unit Unit → Step Unit Unit) : CHECK_CB vt_none lx cs ev k = k cs := by
  have : invoke vt_none cs ev = none := by cases ev <;> rfl
  unfold CHECK_CB
  rw [this]

theorem CHECK_CB_quiet (lx : Lexer) (cs : Consumer Unit Unit) (ev : Event)
    (k : Consumer Unit Unit → Step Unit Unit) :
    CHECK_CB vt_quiet lx cs ev k = k (after_cb cs ev () cs.sax 0) := by
  have : invoke vt_quiet cs ev = some ((), cs.sax, 0) := by cases ev <;> rfl
  unfold CHECK_CB
  rw [this]
  simp

end Follow

theorem start_value_open (lx : Lexer) (cs : Consumer Unit Unit) (hp : lx.p < lx.ep)
    (hc : rd lx.mem lx.p = 91) :
    step vt_none .start_value lx cs =
      if lx.stack.length ≥ 511 then .ret (-1) { next_ch lx with after_comma := false } cs
      else .goto .start_value
        { next_ch lx with after_comma := false, stack := SAX_MODE_ARRAY :: lx.stack }
        (depth_inc cs) := by
  simp [step, start_value, next_ch, hc, isSpace, open_container, CHECK_CB_none, SYNTAX_PUSH,
    stack_depth, AJSON_SAX_MAX_STACK_DEPTH, Nat.not_le.mpr hp]

/-! ## Nested brackets -/

theorem brackets_length (n : Nat) : (brackets n).length = 2 * n := by
  simp [brackets]; omega

theorem rd_brackets_open (n j : Nat) (h : j < n) : rd (brackets n ++ [0]) j = 91 := by
  simp [rd, brackets, List.getD_eq_getElem?_getD, List.getElem?_append, h]

theorem rd_brackets_close (n j : Nat) (h1 : n ≤ j) (h2 : j < 2 * n) :
    rd (brackets n ++ [0]) j = 93 := by
  have h3 : ¬ j < n := by omega
  have h4 : j - n < n := by omega
  simp [rd, brackets, List.getD_eq_getElem?_getD, List.getElem?_append, h3, h4]

theorem brackets_closing (n i : Nat) (lx : Lexer) (cs : Consumer Unit Unit)
    (hm : lx.mem = brackets n ++ [0]) (he : lx.ep = 2 * n) (hin : i + 1 ≤ n)
    (hp : lx.p + i = 2 * n) (hs : lx.stack = List.replicate i SAX_MODE_ARRAY)
    (ha : lx.after_comma = false) :
    Ends vt_none .determine_next_step lx cs (fun r => r.rc = 0) := by
  induction i generalizing lx cs with
  | zero =>
    refine @Ends_ret _ _ _ _ _ lx _ cs _ 0 ?_ rfl
    simp [step, determine_next_step, stack_depth, hs]
  | succ i ih =>
    have hlt : lx.p < lx.ep := by omega
    have hrd : rd lx.mem lx.p = 93 := by rw [hm]; exact rd_brackets_close n lx.p (by omega) (by omega)
    have h1 : step vt_none .determine_next_step lx cs =
        .goto .look_for_next_object { lx with ch := 93 } cs := by
      simp [step, determine_next_step, stack_depth, hs, Nat.not_le.mpr hlt, hrd, CURRENT_MODE,
        List.replicate_succ, SAX_MODE_ARRAY, SAX_MODE_OBJECT]
    have h2 : step vt_none .look_for_next_object { lx with ch := 93 } cs =
        .goto .determine_next_step
          { lx with ch := 93, stack := List.replicate i SAX_MODE_ARRAY, p := lx.p + 1 }
          (depth_dec cs) := by
      simp [step, look_for_next_object, close_ahead, ha, CHECK_CB_none, SYNTAX_POP, hs,
        List.replicate_succ]
    refine Ends_goto h1 (Ends_goto h2 ?_)
    exact ih _ _ hm he (by omega) (by show lx.p + 1 + i = 2 * n; omega) rfl ha

theorem brackets_opening_ok (n k : Nat) (hn : 1 ≤ n) (hn2 : n ≤ 511) (lx : Lexer)
    (cs : Consumer Unit Unit) (hm : lx.mem = brackets n ++ [0]) (he : lx.ep = 2 * n)
    (hp : lx.p + k = n) (hs : lx.stack = List.replicate lx.p SAX_MODE_ARRAY)
    (ha : lx.after_comma = false) :
    Ends vt_none .start_value lx cs (fun r => r.rc = 0) := by
  induction k generalizing lx cs with
  | zero =>
    have hlt : lx.p < lx.ep := by omega
    have hrd : rd lx.mem lx.p = 93 := by rw [hm]; exact rd_brackets_close n lx.p (by omega) (by omega)
    have h1 : step vt_none .start_value lx cs =
        .goto .determine_next_step (SYNTAX_POP (next_ch lx)) (depth_dec cs) := by
      simp [step, start_value, next_ch, hrd, isSpace, close_here, CHECK_CB_none, ha,
        Nat.not_le.mpr hlt]
    refine Ends_goto h1 ?_
    refine brackets_closing n (n - 1) _ _ hm he (by omega) (by show lx.p + 1 + (n - 1) = 2 * n; omega)
      ?_ ha
    show lx.stack.tail = List.replicate (n - 1) SAX_MODE_ARRAY
    rw [hs]
    have : lx.p = (n - 1) + 1 := by omega
    rw [this]
    rfl
  | succ k ih =>
    have hlt : lx.p < lx.ep := by omega
    have hrd : rd lx.mem lx.p = 91 := by rw [hm]; exact rd_brackets_open n lx.p (by omega)
    have h1 := start_value_open lx cs hlt hrd
    rw [if_neg (by rw [hs]; simp; omega)] at h1
    refine Ends_goto h1 ?_
    refine ih _ _ hm he (by show lx.p + 1 + k = n; omega) ?_ rfl
    show SAX_MODE_ARRAY :: lx.stack = List.replicate (lx.p + 1) SAX_MODE_ARRAY
    rw [hs]
    rfl

theorem brackets_opening_full (n k : Nat) (hn : 512 ≤ n) (lx : Lexer)
    (cs : Consumer Unit Unit) (hm : lx.mem = brackets n ++ [0]) (he : lx.ep = 2 * n)
    (hp : lx.p + k = 511) (hs : lx.stack = List.replicate lx.p SAX_MODE_ARRAY) :
    Ends vt_none .start_value lx cs (fun r => r.rc = -1) := by
  have hlt : lx.p < lx.ep := by omega
  have hrd : rd lx.mem lx.p = 91 := by rw [hm]; exact rd_brackets_open n lx.p (by omega)
  have h1 := start_value_open lx cs hlt hrd
  induction k generalizing lx cs with
  | zero =>
    rw [if_pos (by rw [hs]; simp; omega)] at h1
    exact Ends_ret h1 rfl
  | succ k ih =>
    rw [if_neg (by rw [hs]; simp; omega)] at h1
    refine Ends_goto h1 ?_
    have hlt2 : lx.p + 1 < lx.ep := by omega
    have hrd2 : rd lx.mem (lx.p + 1) = 91 := by
      rw [hm]; exact rd_brackets_open n (lx.p + 1) (by omega)
    refine ih _ _ hm he (by show lx.p + 1 + k = 511; omega) ?_ hlt2 hrd2
      (start_value_open _ _ hlt2 hrd2)
    show SAX_MODE_ARRAY :: lx.stack = List.replicate (lx.p + 1) SAX_MODE_ARRAY
    rw [hs]
    rfl

theorem brackets_code_none (n : Nat) (hn : 1 ≤ n) :
    code (parse_doc vt_none (brackets n) () ()) = some (if n ≤ 511 then 0 else -1) := by
  have hlen := brackets_length n
  have key : Ends vt_none .start_value (init_lexer (brackets n ++ [0]) (brackets n).length)
      (init_consumer () ()) (fun r => r.rc = if n ≤ 511 then 0 else -1) := by
    by_cases h : n ≤ 511
    · simp only [h, if_true]
      exact brackets_opening_ok n n hn h _ _ rfl hlen (by simp [init_lexer]) rfl rfl
    · simp only [h, if_false]
      exact brackets_opening_full n 511 (by omega) _ _ rfl hlen (by simp [init_lexer]) rfl
  obtain ⟨r, hr, hq⟩ := ajson_sax_parse_of_Ends (by omega) key
  unfold parse_doc
  rw [hr]
  simp [code, hq]

/-! ## States a parse passes through -/

section Passing

variable {σ H : Type}

theorem Ends_of_reach {vt : H → ajson_sax_cb_t σ H} {k : Nat} {l l1 : Label} {lx lx1 : Lexer}
    {cs cs1 : Consumer σ H} {Q : Result σ H → Prop}
    (hr : reach vt k l lx cs = some (l1, lx1, cs1)) (h : Ends vt l1 lx1 cs1 Q) :
    Ends vt l lx cs Q := by
  induction k generalizing l lx cs with
  | zero =>
    simp only [reach, Option.some.injEq, Prod.mk.injEq] at hr
    obtain ⟨rfl, rfl, rfl⟩ := hr
    exact h
  | succ k ih =>
    unfold reach at hr
    cases hs : step vt l lx cs with
    | ret rc lx2 cs2 => rw [hs] at hr; cases hr
    | goto l2 lx2 cs2 =>
      rw [hs] at hr
      exact Ends_goto hs (ih hr)

/-- A parse that passes through a state from which every run returns -1, returns -1. -/
theorem code_of_Passes {vt : H → ajson_sax_cb_t σ H} {doc : List Nat} {cb : H} {ctx : σ}
    {l : Label} {lx : Lexer} (hp : Passes vt doc cb ctx l lx)
    (h : ∀ cs, Ends vt l lx cs (fun r => r.rc = -1)) :
    code (parse_doc vt doc cb ctx) = some (-1) := by
  by_cases hd : doc.length = 0
  · simp [parse_doc, ajson_sax_parse, init_lexer, hd, code]
  · obtain ⟨k, cs, hk⟩ := hp
    obtain ⟨r, hr, hq⟩ := ajson_sax_parse_of_Ends (Nat.pos_of_ne_zero hd) (Ends_of_reach hk (h cs))
    unfold parse_doc
    rw [hr]
    simp [code, hq]

theorem Ends_error {vt : H → ajson_sax_cb_t σ H} {l : Label} {lx lx1 : Lexer}
    {cs : Consumer σ H} (hs : step vt l lx cs = SAX_ERROR lx1 cs) :
    Ends vt l lx cs (fun r => r.rc = -1) :=
  Ends_ret hs rfl

end Passing

/-! ## Claims C6 and C7: wrong closers and trailing commas -/

theorem scan_to_eq (mem : List Nat) (ep c : Nat) (n p q : Nat) (hpq : p ≤ q) (hq : q ≤ ep)
    (hn : q - p ≤ n) (hno : ∀ i, p ≤ i → i < q → rd mem i ≠ c)
    (hstop : q = ep ∨ rd mem q = c) : scan_to mem ep c n p = q := by
  induction n generalizing p with
  | zero =>
    simp only [scan_to]
    omega
  | succ n ih =>
    unfold scan_to
    by_cases hp : p = q
    · subst hp
      rw [if_neg]
      rintro ⟨h1, h2⟩
      rcases hstop with h | h
      · omega
      · exact h2 h
    · have hlt : p < q := by omega
      rw [if_pos ⟨by omega, hno p (Nat.le_refl _) hlt⟩]
      exact ih (p + 1) (by omega) (by omega) (fun i h1 h2 => hno i (by omega) h2)

theorem key_without_colon_ends {σ H : Type} (vt : H → ajson_sax_cb_t σ H)
    (hz : ReturnsZero vt) (lx : Lexer) (cs : Consumer σ H) (q : Nat) (hk : KeyEndsAt lx q)
    (hn : NoColonAfter lx q) :
    Ends vt .get_end_of_key lx cs (fun r => r.rc = -1) := by
  obtain ⟨hpq, hq, hno, hquote, hesc⟩ := hk
  have hscan : scan_to lx.mem lx.ep 34 (lx.ep - lx.p) lx.p = q :=
    scan_to_eq _ _ _ _ _ _ hpq (by omega) (by omega) (fun i h1 h2 => hno i h2 h1) (Or.inr hquote)
  have hcolon : scan_to (wr (wr lx.mem q 0) q 34) lx.ep 58 (lx.ep - (q + 1)) (q + 1) = lx.ep := by
    refine scan_to_eq _ _ _ _ _ _ (by omega) (Nat.le_refl _) (Nat.le_refl _) (fun i h1 h2 => ?_)
      (Or.inl rfl)
    rw [rd_wr_other _ _ _ _ (by omega), rd_wr_other _ _ _ _ (by omega)]
    exact hn i h2 (by omega)
  obtain ⟨cs1, hd⟩ := delivered_of_zero hz cs
    (.key (slice (wr lx.mem q 0) lx.stringp (q - lx.stringp)))
  have h1 : step vt .get_end_of_key lx cs =
      .goto .start_key_object
        { lx with mem := wr (wr lx.mem q 0) q 34, p := lx.ep + 1 } cs1 := by
    simp only [step, get_end_of_key, hscan, hesc, and_false, if_false, hq, if_true, finish_key]
    rw [CHECK_CB_delivered vt _ cs cs1 _ _ hd]
    simp only [hcolon]
  have h2 : step vt .start_key_object
      { lx with mem := wr (wr lx.mem q 0) q 34, p := lx.ep + 1 } cs1 =
      SAX_ERROR { lx with mem := wr (wr lx.mem q 0) q 34, p := lx.ep + 1 } cs1 := by
    simp [step, start_key_object]
  exact Ends_goto h1 (Ends_error h2)


/-! ## The number scanner and the number shape -/

theorem wr_restore_eq (mem : List Nat) (q : Nat) (h : q < mem.length) :
    wr (wr mem q 0) q (rd mem q) = mem := by
  unfold wr rd
  rw [List.set_set]
  apply List.ext_getElem?
  intro i
  rw [List.getElem?_set]
  split
  · rename_i hi
    subst hi
    simp [h, List.getD_eq_getElem?_getD]
  · rfl

theorem Ends_of_step {σ H : Type} {vt : H → ajson_sax_cb_t σ H} {l : Label} {lx : Lexer}
    {cs : Consumer σ H} {Q : Result σ H → Prop} (h : EndsStep vt (step vt l lx cs) Q) :
    Ends vt l lx cs Q := by
  cases hs : step vt l lx cs with
  | ret rc lx1 cs1 =>
    rw [hs] at h
    exact Ends_ret hs h
  | goto l1 lx1 cs1 =>
    rw [hs] at h
    exact Ends_goto hs h

theorem length_numMem (t : List Nat) : (numMem t).length = t.length + 3 := by
  simp [numMem]

theorem rd_numMem (pre s : List Nat) (i : Nat) :
    rd (numMem (pre ++ s)) (pre.length + 1 + i) = rd (s ++ [93, 0]) i := by
  have h : numMem (pre ++ s) = (91 :: pre) ++ (s ++ [93, 0]) := by simp [numMem]
  rw [h]
  unfold rd
  rw [List.getD_eq_getElem?_getD, List.getD_eq_getElem?_getD,
    List.getElem?_append_right (by simp)]
  congr 2
  simp

theorem rd_numMem_zero (pre s : List Nat) :
    rd (numMem (pre ++ s)) (pre.length + 1) = rd (s ++ [93, 0]) 0 :=
  rd_numMem pre s 0

theorem slice_numMem (pre s : List Nat) (v : Nat) :
    slice (wr (numMem (pre ++ s)) (pre.length + 1) v) 1 pre.length = pre := by
  have h : numMem (pre ++ s) = 91 :: (pre ++ (s ++ [93, 0])) := by simp [numMem]
  rw [h]
  unfold slice wr
  rw [List.set_cons_succ, List.drop_one, List.tail_cons, List.set_take,
    List.take_left' rfl, List.set_eq_of_length_le (Nat.le_refl _)]

theorem rd_cons_zero (c : Nat) (r : List Nat) : rd (c :: r) 0 = c := rfl

theorem rd_nil_append (l : List Nat) : rd ([] ++ l) 0 = rd l 0 := rfl

theorem dig_iff (c : Nat) : dig c = true ↔ isDigit c := by simp [dig]

theorem not_dig_rd_dropWhile (R : List Nat) : ¬ isDigit (rd (R.dropWhile dig) 0) := by
  induction R with
  | nil => simp [rd, isDigit]
  | cons d R ih =>
    by_cases hd : dig d = true
    · simpa [List.dropWhile_cons, hd] using ih
    · simp only [List.dropWhile_cons, hd]
      simpa [rd, dig] using hd

theorem digit_loop_drop (mem : List Nat) (R : List Nat) (q c fuel : Nat)
    (hR : ∀ i, rd mem (q + i) = rd R i) (hc : isDigit c)
    (hf : (R.takeWhile dig).length + 2 ≤ fuel) :
    digit_loop mem fuel c q =
      (rd (R.dropWhile dig) 0, q + (R.takeWhile dig).length + 1) := by
  induction R generalizing q c fuel with
  | nil =>
    obtain ⟨f, rfl⟩ : ∃ f, fuel = f + 2 := ⟨fuel - 2, by simp at hf; omega⟩
    have h0 : rd mem q = 0 := by simpa [rd] using hR 0
    simp only [digit_loop, if_pos hc, h0]
    rw [if_neg (by simp [isDigit])]
    simp [rd]
  | cons d R ih =>
    obtain ⟨f, rfl⟩ : ∃ f, fuel = f + 1 := ⟨fuel - 1, by omega⟩
    have h0 : rd mem q = d := by simpa [rd] using hR 0
    unfold digit_loop
    rw [if_pos hc, h0]
    by_cases hd : dig d = true
    · have := ih (q + 1) d f (fun i => by
        have := hR (i + 1)
        simpa [rd, Nat.add_assoc, Nat.add_comm 1 i] using this) ((dig_iff d).1 hd)
        (by simp [List.takeWhile_cons, hd] at hf; omega)
      rw [this]
      simp [List.takeWhile_cons, List.dropWhile_cons, hd]
      omega
    · obtain ⟨g, rfl⟩ : ∃ g, f = g + 1 := ⟨f - 1, by simp [List.takeWhile_cons, hd] at hf; omega⟩
      have hnd : ¬ isDigit d := fun h => hd ((dig_iff d).2 h)
      simp only [digit_loop, if_neg hnd]
      simp [List.takeWhile_cons, List.dropWhile_cons, hd, rd]

theorem dropWhile_dig_append (s : List Nat) :
    (s ++ [93, 0]).dropWhile dig = s.dropWhile dig ++ [93, 0] := by
  induction s with
  | nil => simp [List.dropWhile_cons, dig, isDigit]
  | cons d s ih =>
    by_cases hd : dig d = true
    · simp [List.dropWhile_cons, hd, ih]
    · simp [List.dropWhile_cons, hd]

theorem takeWhile_dig_append (s : List Nat) :
    (s ++ [93, 0]).takeWhile dig = s.takeWhile dig := by
  induction s with
  | nil => simp [List.takeWhile_cons, dig, isDigit]
  | cons d s ih =>
    by_cases hd : dig d = true
    · simp [List.takeWhile_cons, hd, ih]
    · simp [List.takeWhile_cons, hd]

theorem digits_nondigit (lx : Lexer) (h : ¬ isDigit lx.ch) : digits lx = lx := by
  unfold digits
  cases hf : lx.mem.length + 2 - lx.p with
  | zero => simp [digit_loop]
  | succ f => simp [digit_loop, h]

theorem digits_numLx (t pre s1 : List Nat) (c : Nat) (ht : t = pre ++ c :: s1)
    (hc : isDigit c) :
    digits (numLx t (pre.length + 2) c) =
      numLx t ((pre ++ c :: s1.takeWhile dig).length + 2)
        (rd (s1.dropWhile dig ++ [93, 0]) 0) := by
  have hR : ∀ i, rd (numMem t) (pre.length + 2 + i) = rd (s1 ++ [93, 0]) i := fun i => by
    have := rd_numMem (pre ++ [c]) s1 i
    simp only [List.append_assoc, List.singleton_append, List.length_append,
      List.length_singleton] at this
    rw [ht]
    exact this
  have hlen : (s1.takeWhile dig).length ≤ s1.length := (List.takeWhile_sublist dig).length_le
  have hloop := digit_loop_drop (numMem t) (s1 ++ [93, 0]) (pre.length + 2) c
    ((numMem t).length + 2 - (pre.length + 2)) hR hc (by
      rw [takeWhile_dig_append, length_numMem, ht]
      simp
      omega)
  unfold digits
  simp only [numLx] at hloop ⊢
  rw [hloop, dropWhile_dig_append, takeWhile_dig_append]
  simp
  omega

/-- Reading the next byte and the digits after it: the cursor ends just after the
first byte that is not a digit. -/
theorem scan_digits_numLx (t pre s : List Nat) (ch : Nat) (ht : t = pre ++ s) :
    digits (next_ch (numLx t (pre.length + 1) ch)) =
      numLx t ((pre ++ s.takeWhile dig).length + 2) (rd (s.dropWhile dig ++ [93, 0]) 0) := by
  have hrd : rd (numMem t) (pre.length + 1) = rd (s ++ [93, 0]) 0 := by
    rw [ht]; exact rd_numMem_zero pre s
  have hn : next_ch (numLx t (pre.length + 1) ch) =
      numLx t (pre.length + 2) (rd (s ++ [93, 0]) 0) := by
    simp [next_ch, numLx, hrd]
  rw [hn]
  cases s with
  | nil =>
    rw [digits_nondigit _ (by simp [numLx, rd, isDigit])]
    simp
  | cons c s1 =>
    by_cases hc : dig c = true
    · have := digits_numLx t pre s1 c ht ((dig_iff c).1 hc)
      simp only [List.cons_append, rd_cons_zero, List.takeWhile_cons, hc, if_true,
        List.dropWhile_cons] at this ⊢
      exact this
    · have hnd : ¬ isDigit c := fun h => hc ((dig_iff c).2 h)
      rw [digits_nondigit _ (by simpa [numLx, rd] using hnd)]
      simp [List.takeWhile_cons, List.dropWhile_cons, hc]

theorem finish_number_numLx (t pre s : List Nat) (cs : Consumer Unit Unit) (next : Label)
    (ht : t = pre ++ s) :
    finish_number vt_quiet (numLx t (pre.length + 2) (rd (s ++ [93, 0]) 0)) cs next =
      .goto next (numLx t (pre.length + 1) (rd (s ++ [93, 0]) 0))
        (after_cb cs (.number pre) () cs.sax 0) := by
  have hrd : rd (numMem t) (pre.length + 1) = rd (s ++ [93, 0]) 0 := by
    rw [ht]; exact rd_numMem_zero pre s
  have hlt : pre.length + 1 < (numMem t).length := by
    rw [length_numMem, ht]; simp; omega
  have hsl : slice (wr (numMem t) (pre.length + 1) 0) 1 pre.length = pre := by
    rw [ht]; exact slice_numMem pre s 0
  have hres := wr_restore_eq (numMem t) (pre.length + 1) hlt
  rw [hrd] at hres
  have e1 : pre.length + 2 - 1 = pre.length + 1 := rfl
  have e2 : pre.length + 1 - 1 = pre.length := rfl
  simp only [finish_number, numLx, CHECK_CB_quiet, e1, e2, hsl, hres]

/-- The delimiter after the number decides: the final `]` accepts, another byte of
the alphabet is a syntax error. -/
theorem number_delimiter (t pre s : List Nat) (cs : Consumer Unit Unit) (ht : t = pre ++ s)
    (ha : ∀ c ∈ s, InAlphabet c) :
    Ends vt_quiet .add_string (numLx t (pre.length + 1) (rd (s ++ [93, 0]) 0)) cs
      (fun r => (s = [] → r.rc = 0 ∧ r.cs.trace = cs.trace ++ [(.end_array, 0)]) ∧
        (s ≠ [] → r.rc = -1)) := by
  refine @Ends_goto _ _ _ _ Label.look_for_next_object _ _ _ _ _ rfl ?_
  cases s with
  | nil =>
    have h1 : step vt_quiet .look_for_next_object (numLx t (pre.length + 1) 93) cs =
        .goto .determine_next_step
          { numLx t (pre.length + 1) 93 with stack := [], p := pre.length + 2 }
          (depth_dec (after_cb cs .end_array () cs.sax 0)) := by
      simp [step, look_for_next_object, numLx, close_ahead, CHECK_CB_quiet, SYNTAX_POP]
    have h2 : step vt_quiet .determine_next_step
        { numLx t (pre.length + 1) 93 with stack := [], p := pre.length + 2 }
        (depth_dec (after_cb cs .end_array () cs.sax 0)) =
        .ret 0 { numLx t (pre.length + 1) 93 with stack := [], p := pre.length + 2 }
          (depth_dec (after_cb cs .end_array () cs.sax 0)) := by
      simp [step, determine_next_step, stack_depth]
    exact Ends_goto h1 (Ends_ret h2 ⟨fun _ => ⟨rfl, rfl⟩, fun h => absurd rfl h⟩)
  | cons c s1 =>
    have hc := ha c (List.mem_cons_self _ _)
    have h1 : step vt_quiet .look_for_next_object (numLx t (pre.length + 1) c) cs =
        SAX_ERROR (numLx t (pre.length + 1) c) cs := by
      unfold InAlphabet isDigit at hc
      have h44 : c ≠ 44 := by omega
      have h93 : c ≠ 93 := by omega
      have hsp : ¬ isSpace c := by unfold isSpace; omega
      have h0 : c ≠ 0 := by omega
      simp [step, look_for_next_object, numLx, h44, h93, hsp, h0]
    exact Ends_ret h1 ⟨fun h => (by cases h), fun _ => rfl⟩


theorem Ends_mono {σ H : Type} {vt : H → ajson_sax_cb_t σ H} {l : Label} {lx : Lexer}
    {cs : Consumer σ H} {Q Q1 : Result σ H → Prop} (h : Ends vt l lx cs Q)
    (hq : ∀ r, Q r → Q1 r) : Ends vt l lx cs Q1 := by
  obtain ⟨n, r, hr, hqr⟩ := h
  exact ⟨n, r, hr, hq r hqr⟩

theorem Verdict_error (ok : Bool) (t : List Nat) (tr : List Event) (lx : Lexer)
    (cs : Consumer Unit Unit) (h : ok = false) :
    EndsStep vt_quiet (SAX_ERROR lx cs) (Verdict ok t tr) :=
  ⟨fun h1 => (by rw [h] at h1; cases h1), fun _ => rfl⟩

theorem mem_dropWhile_dig {c : Nat} {s : List Nat} (h : c ∈ s.dropWhile dig) : c ∈ s :=
  (List.dropWhile_sublist dig).subset h

theorem rd_head_dropWhile (s : List Nat) : ¬ isDigit (rd (s.dropWhile dig ++ [93, 0]) 0) := by
  rw [← dropWhile_dig_append]
  exact not_dig_rd_dropWhile _

/-- The tail of a number scan on `[t]`: accepted when nothing of `t` is left. -/
theorem finish_verdict (t pre s : List Nat) (cs : Consumer Unit Unit) (tr : List Event)
    (ht : t = pre ++ s) (ha : ∀ c ∈ s, InAlphabet c) (htr : cs.trace.map Prod.fst = tr) :
    EndsStep vt_quiet
      (finish_number vt_quiet (numLx t (pre.length + 2) (rd (s ++ [93, 0]) 0)) cs .add_string)
      (Verdict s.isEmpty t tr) := by
  rw [finish_number_numLx t pre s cs _ ht]
  refine Ends_mono (number_delimiter t pre s _ ht ha) (fun r hr => ⟨fun hs => ?_, fun hs => ?_⟩)
  · have hnil : s = [] := List.isEmpty_iff.1 hs
    obtain ⟨h1, h2⟩ := hr.1 hnil
    refine ⟨h1, ?_⟩
    rw [h2]
    subst hnil
    simp [after_cb, htr, ht]
  · exact hr.2 (fun hnil => by simp [hnil] at hs)

/-- The test for a first digit, the digit loop and the code after it. -/
theorem digits_then_verdict (t pre s : List Nat) (cs : Consumer Unit Unit) (tr : List Event)
    (f : List Nat → Bool) (k : Lexer → Step Unit Unit) (ht : t = pre ++ s)
    (hk : ∀ pre1 s1, t = pre1 ++ s1 → (∀ c ∈ s1, c ∈ s) →
      ¬ isDigit (rd (s1 ++ [93, 0]) 0) →
      EndsStep vt_quiet (k (numLx t (pre1.length + 2) (rd (s1 ++ [93, 0]) 0)))
        (Verdict (f s1) t tr)) :
    EndsStep vt_quiet
      (if (numLx t (pre.length + 2) (rd (s ++ [93, 0]) 0)).ch < 48 ∨
          (numLx t (pre.length + 2) (rd (s ++ [93, 0]) 0)).ch > 57 then
        SAX_ERROR (numLx t (pre.length + 2) (rd (s ++ [93, 0]) 0)) cs
      else k (digits (numLx t (pre.length + 2) (rd (s ++ [93, 0]) 0))))
      (Verdict (digits_then f s) t tr) := by
  cases s with
  | nil =>
    rw [if_pos (by simp [numLx, rd])]
    exact Verdict_error _ _ _ _ _ rfl
  | cons d r =>
    by_cases hd : dig d = true
    · have hdd := (dig_iff d).1 hd
      rw [if_neg (by unfold isDigit at hdd; simp [numLx, rd]; omega)]
      simp only [List.cons_append, rd_cons_zero]
      rw [digits_numLx t pre r d ht hdd]
      have := hk (pre ++ d :: r.takeWhile dig) (r.dropWhile dig)
        (by rw [ht]; simp [List.takeWhile_append_dropWhile])
        (fun c hc => List.mem_cons_of_mem _ (mem_dropWhile_dig hc)) (rd_head_dropWhile r)
      simpa [digits_then, hd] using this
    · have hnd : ¬ isDigit d := fun h => hd ((dig_iff d).2 h)
      rw [if_pos (by unfold isDigit at hnd; simp [numLx, rd]; omega)]
      exact Verdict_error _ _ _ _ _ (by simp [digits_then, hd])

theorem next_ch_numLx (t pre s : List Nat) (ch : Nat) (ht : t = pre ++ s) :
    next_ch (numLx t (pre.length + 1) ch) = numLx t (pre.length + 2) (rd (s ++ [93, 0]) 0) := by
  have hrd : rd (numMem t) (pre.length + 1) = rd (s ++ [93, 0]) 0 := by
    rw [ht]; exact rd_numMem_zero pre s
  simp [next_ch, numLx, hrd]

/-- The optional exponent and the tail of the number scan on `[t]`. -/
theorem exponent_verdict (t pre s : List Nat) (cs : Consumer Unit Unit) (tr : List Event)
    (ht : t = pre ++ s) (ha : ∀ c ∈ s, InAlphabet c) (htr : cs.trace.map Prod.fst = tr)
    (hnd : ¬ isDigit (rd (s ++ [93, 0]) 0)) :
    EndsStep vt_quiet
      (exponent_part (numLx t (pre.length + 2) (rd (s ++ [93, 0]) 0)) cs
        (fun lx => finish_number vt_quiet lx cs .add_string))
      (Verdict (exp_ok s) t tr) := by
  unfold exponent_part
  cases s with
  | nil =>
    rw [if_neg (by simp [numLx, rd])]
    exact finish_verdict t pre [] cs tr ht ha htr
  | cons e r =>
    by_cases he : e = 101 ∨ e = 69
    · rw [if_pos (by simpa [numLx, rd] using he)]
      have hpre : t = (pre ++ [e]) ++ r := by rw [ht]; simp
      have h1 : next_ch (numLx t (pre.length + 2) (rd (e :: r ++ [93, 0]) 0)) =
          numLx t ((pre ++ [e]).length + 2) (rd (r ++ [93, 0]) 0) := by
        have := next_ch_numLx t (pre ++ [e]) r (rd (e :: r ++ [93, 0]) 0) hpre
        simpa using this
      have hfin : ∀ pre1 s1, t = pre1 ++ s1 → (∀ c ∈ s1, c ∈ skip_sign r) →
          ¬ isDigit (rd (s1 ++ [93, 0]) 0) →
          EndsStep vt_quiet
            (finish_number vt_quiet (numLx t (pre1.length + 2) (rd (s1 ++ [93, 0]) 0)) cs
              .add_string) (Verdict s1.isEmpty t tr) := fun pre1 s1 h1 h2 _ =>
        finish_verdict t pre1 s1 cs tr h1 (fun c hc => ha c (by
          have := h2 c hc
          refine List.mem_cons_of_mem _ ?_
          unfold skip_sign at this
          split at this
          · exact List.mem_cons_of_mem _ this
          · exact List.mem_cons_of_mem _ this
          · exact this)) htr
      have hexp : exp_ok (e :: r) = digits_then List.isEmpty (skip_sign r) := by
        rcases he with rfl | rfl <;> simp [exp_ok]
      rw [hexp]
      dsimp only
      rw [h1]
      by_cases hs : r.head? = some 43 ∨ r.head? = some 45
      · obtain ⟨sg, r1, rfl, hsg⟩ : ∃ sg r1, r = sg :: r1 ∧ (sg = 43 ∨ sg = 45) := by
          cases r with
          | nil => simp at hs
          | cons sg r1 => exact ⟨sg, r1, rfl, by simpa using hs⟩
        have hpre2 : t = (pre ++ [e, sg]) ++ r1 := by rw [ht]; simp
        have h2 : next_ch (numLx t ((pre ++ [e]).length + 2) (rd (sg :: r1 ++ [93, 0]) 0)) =
            numLx t ((pre ++ [e, sg]).length + 2) (rd (r1 ++ [93, 0]) 0) := by
          have := next_ch_numLx t (pre ++ [e, sg]) r1 (rd (sg :: r1 ++ [93, 0]) 0) hpre2
          simpa using this
        have hys : (numLx t ((pre ++ [e]).length + 2) (rd (sg :: r1 ++ [93, 0]) 0)).ch = 43 ∨
            (numLx t ((pre ++ [e]).length + 2) (rd (sg :: r1 ++ [93, 0]) 0)).ch = 45 := by
          simpa [numLx, rd] using hsg
        rw [if_pos hys, h2]
        have hsk : skip_sign (sg :: r1) = r1 := by rcases hsg with rfl | rfl <;> rfl
        rw [hsk] at hfin ⊢
        exact digits_then_verdict t _ r1 cs tr List.isEmpty
          (fun lx => finish_number vt_quiet lx cs .add_string) hpre2 hfin
      · have hsk : skip_sign r = r := by
          unfold skip_sign
          split
          · simp at hs
          · simp at hs
          · rfl
        have hns : ¬ ((numLx t ((pre ++ [e]).length + 2) (rd (r ++ [93, 0]) 0)).ch = 43 ∨
            (numLx t ((pre ++ [e]).length + 2) (rd (r ++ [93, 0]) 0)).ch = 45) := by
          cases r with
          | nil => simp [numLx, rd]
          | cons c r1 => simpa [numLx, rd] using hs
        rw [if_neg hns]
        rw [hsk] at hfin ⊢
        exact digits_then_verdict t _ r cs tr List.isEmpty
          (fun lx => finish_number vt_quiet lx cs .add_string) hpre hfin
    · rw [if_neg (by simpa [numLx, rd] using he)]
      have := finish_verdict t pre (e :: r) cs tr ht ha htr
      have hexp : exp_ok (e :: r) = false := by
        have h1 : e ≠ 101 := fun h => he (Or.inl h)
        have h2 : e ≠ 69 := fun h => he (Or.inr h)
        simp [exp_ok, h1, h2]
      rw [hexp]
      simpa using this

/-- Label `decimal_number` on `[t]`, the cursor standing after the point. -/
theorem decimal_number_verdict (t pre s : List Nat) (ch : Nat) (cs : Consumer Unit Unit)
    (tr : List Event) (ht : t = pre ++ s) (ha : ∀ c ∈ s, InAlphabet c)
    (htr : cs.trace.map Prod.fst = tr) :
    Ends vt_quiet .decimal_number (numLx t (pre.length + 1) ch) cs
      (Verdict (digits_then exp_ok s) t tr) := by
  apply Ends_of_step
  show EndsStep vt_quiet (decimal_number_body vt_quiet _ cs .add_string) _
  unfold decimal_number_body
  dsimp only
  rw [next_ch_numLx t pre s ch ht]
  exact digits_then_verdict t pre s cs tr exp_ok
    (fun lx => exponent_part lx cs fun lx => finish_number vt_quiet lx cs .add_string) ht
    (fun pre1 s1 h1 h2 h3 => exponent_verdict t pre1 s1 cs tr h1 (fun c hc => ha c (h2 c hc))
      htr h3)

theorem frac_ok_of_ne (s : List Nat) (h : rd (s ++ [93, 0]) 0 ≠ 46) : frac_ok s = exp_ok s := by
  cases s with
  | nil => rfl
  | cons c r =>
    have hc : c ≠ 46 := by simpa [rd] using h
    unfold frac_ok
    split
    · rename_i heq
      simp only [List.cons.injEq] at heq
      exact absurd heq.1 hc
    · rfl

/-- The code after the digits of the integer part: a fraction or an exponent. -/
theorem fraction_verdict (t pre s : List Nat) (cs : Consumer Unit Unit) (tr : List Event)
    (ht : t = pre ++ s) (ha : ∀ c ∈ s, InAlphabet c) (htr : cs.trace.map Prod.fst = tr)
    (hnd : ¬ isDigit (rd (s ++ [93, 0]) 0)) :
    EndsStep vt_quiet
      (if (numLx t (pre.length + 2) (rd (s ++ [93, 0]) 0)).ch = 46 then
        .goto .decimal_number (numLx t (pre.length + 2) (rd (s ++ [93, 0]) 0)) cs
      else exponent_part (numLx t (pre.length + 2) (rd (s ++ [93, 0]) 0)) cs
        fun lx => finish_number vt_quiet lx cs .add_string)
      (Verdict (frac_ok s) t tr) := by
  by_cases h46 : rd (s ++ [93, 0]) 0 = 46
  · rw [if_pos (by simpa [numLx] using h46)]
    cases s with
    | nil => simp [rd] at h46
    | cons c r =>
      obtain rfl : c = 46 := by simpa [rd] using h46
      have := decimal_number_verdict t (pre ++ [46]) r (rd (46 :: r ++ [93, 0]) 0) cs tr
        (by rw [ht]; simp) (fun c hc => ha c (List.mem_cons_of_mem _ hc)) htr
      simpa [frac_ok, EndsStep] using this
  · rw [if_neg (by simpa [numLx] using h46), frac_ok_of_ne s h46]
    exact exponent_verdict t pre s cs tr ht ha htr hnd

/-- Label `next_digit` on `[t]`, the cursor standing inside the integer part. -/
theorem next_digit_verdict (t pre s : List Nat) (ch : Nat) (cs : Consumer Unit Unit)
    (tr : List Event) (ht : t = pre ++ s) (ha : ∀ c ∈ s, InAlphabet c)
    (htr : cs.trace.map Prod.fst = tr) :
    Ends vt_quiet .next_digit (numLx t (pre.length + 1) ch) cs
      (Verdict (frac_ok (s.dropWhile dig)) t tr) := by
  apply Ends_of_step
  show EndsStep vt_quiet (next_digit_body vt_quiet _ cs .decimal_number .add_string) _
  unfold next_digit_body
  dsimp only
  rw [scan_digits_numLx t pre s ch ht]
  exact fraction_verdict t _ _ cs tr (by rw [ht]; simp [List.takeWhile_append_dropWhile])
    (fun c hc => ha c (mem_dropWhile_dig hc)) htr (rd_head_dropWhile s)

theorem number_ok_cons_ne (c : Nat) (r : List Nat) (h : c ≠ 45) :
    number_ok (c :: r) = int_ok (c :: r) := by
  unfold number_ok
  split
  · rename_i heq
    simp only [List.cons.injEq] at heq
    exact absurd heq.1 h
  · rfl

theorem int_ok_cons_ne (d : Nat) (r : List Nat) (h : d ≠ 48) :
    int_ok (d :: r) = (decide (49 ≤ d ∧ d ≤ 57) && frac_ok (r.dropWhile dig)) := by
  unfold int_ok
  split
  · rename_i heq
    cases heq
  · rename_i heq
    simp only [List.cons.injEq] at heq
    exact absurd heq.1 h
  · rename_i heq
    simp only [List.cons.injEq] at heq
    obtain ⟨rfl, rfl⟩ := heq
    rfl

theorem frac_ok_nondigit_head (s : List Nat) (h : ¬ isDigit (rd (s ++ [93, 0]) 0)) :
    s.dropWhile dig = s := by
  cases s with
  | nil => rfl
  | cons c r =>
    have hc : dig c = false := by
      have : ¬ isDigit c := by simpa [rd] using h
      simpa [dig] using this
    simp [List.dropWhile_cons, hc]

/-- The code after a leading `0` or `-0` on `[t]`, `pre` being what has been read:
a point, an exponent, a digit (an error) or the end of the number. -/
theorem after_zero_verdict (t pre s : List Nat) (cs : Consumer Unit Unit) (tr : List Event)
    (ht : t = pre ++ s) (ha : ∀ c ∈ s, InAlphabet c) (htr : cs.trace.map Prod.fst = tr)
    (g : Prop) [Decidable g] (hg : g) :
    EndsStep vt_quiet
      (if g ∧ rd (s ++ [93, 0]) 0 = 46 then
        .goto .decimal_number (numLx t (pre.length + 2) 48) cs
      else if g ∧ (rd (s ++ [93, 0]) 0 = 101 ∨ rd (s ++ [93, 0]) 0 = 69) then
        .goto .next_digit (numLx t (pre.length + 1) 48) cs
      else if g ∧ isDigit (rd (s ++ [93, 0]) 0) then SAX_ERROR (numLx t (pre.length + 1) 48) cs
      else CHECK_CB vt_quiet (numLx t (pre.length + 1) 48) cs (.number pre) fun cs =>
        .goto .add_string (numLx t (pre.length + 1) (rd (s ++ [93, 0]) 0)) cs)
      (Verdict (frac_ok s) t tr) := by
  by_cases h46 : rd (s ++ [93, 0]) 0 = 46
  · rw [if_pos ⟨hg, h46⟩]
    cases s with
    | nil => simp [rd] at h46
    | cons c r =>
      obtain rfl : c = 46 := by simpa [rd] using h46
      have := decimal_number_verdict t (pre ++ [46]) r 48 cs tr
        (by rw [ht]; simp) (fun c hc => ha c (List.mem_cons_of_mem _ hc)) htr
      simpa [frac_ok, EndsStep] using this
  · rw [if_neg (fun h => h46 h.2), frac_ok_of_ne s h46]
    by_cases he : rd (s ++ [93, 0]) 0 = 101 ∨ rd (s ++ [93, 0]) 0 = 69
    · rw [if_pos ⟨hg, he⟩]
      have hnd : ¬ isDigit (rd (s ++ [93, 0]) 0) := by
        unfold isDigit; omega
      have := next_digit_verdict t pre s 48 cs tr ht ha htr
      rw [frac_ok_nondigit_head s hnd, frac_ok_of_ne s h46] at this
      exact this
    · rw [if_neg (fun h => he h.2)]
      by_cases hd : isDigit (rd (s ++ [93, 0]) 0)
      · rw [if_pos ⟨hg, hd⟩]
        refine Verdict_error _ _ _ _ _ ?_
        cases s with
        | nil => simp [rd, isDigit] at hd
        | cons c r =>
          have h1 : c ≠ 101 := fun h => he (Or.inl (by simp [rd, h]))
          have h2 : c ≠ 69 := fun h => he (Or.inr (by simp [rd, h]))
          simp [exp_ok, h1, h2]
      · rw [if_neg (fun h => hd h.2), CHECK_CB_quiet]
        refine Ends_mono (number_delimiter t pre s _ ht ha) (fun r hr => ⟨fun hs => ?_, fun hs => ?_⟩)
        · cases s with
          | nil =>
            obtain ⟨e1, e2⟩ := hr.1 rfl
            refine ⟨e1, ?_⟩
            rw [e2]
            simp [after_cb, htr, ht]
          | cons c r =>
            have h1 : c ≠ 101 := fun h => he (Or.inl (by simp [rd, h]))
            have h2 : c ≠ 69 := fun h => he (Or.inr (by simp [rd, h]))
            simp [exp_ok, h1, h2] at hs
        · exact hr.2 (fun hnil => by subst hnil; simp [exp_ok] at hs)

theorem rd_numMem_one (c : Nat) (r : List Nat) : rd (numMem (c :: r)) 1 = c := by
  simp [numMem, rd]

theorem rd_numMem_two (c : Nat) (r : List Nat) :
    rd (numMem (c :: r)) 2 = rd (r ++ [93, 0]) 0 := by
  have := rd_numMem_zero [c] r
  simpa using this

theorem rd_numMem_three (c d : Nat) (r : List Nat) :
    rd (numMem (c :: d :: r)) 3 = rd (r ++ [93, 0]) 0 := by
  have := rd_numMem_zero [c, d] r
  simpa using this

/-- Label `start_value` on `[t]` with the cursor on the first byte of `t`: the
parse ends as the matcher says. -/
theorem start_value_number (t : List Nat) (c : Nat) (r : List Nat) (cs : Consumer Unit Unit)
    (tr : List Event) (ht : t = c :: r) (ha : ∀ x ∈ t, InAlphabet x)
    (htr : cs.trace.map Prod.fst = tr) :
    Ends vt_quiet .start_value { numLx t 1 91 with stringp := 0 } cs
      (Verdict (number_ok t) t tr) := by
  have hc := ha c (by rw [ht]; exact List.mem_cons_self _ _)
  have har : ∀ x ∈ r, InAlphabet x := fun x hx => ha x (by rw [ht]; exact List.mem_cons_of_mem _ hx)
  have h1 : rd (numMem t) 1 = c := by rw [ht]; exact rd_numMem_one c r
  have h2 : rd (numMem t) 2 = rd (r ++ [93, 0]) 0 := by rw [ht]; exact rd_numMem_two c r
  have hlen : t.length = r.length + 1 := by rw [ht]; rfl
  apply Ends_of_step
  show EndsStep vt_quiet (start_value vt_quiet _ cs) _
  unfold InAlphabet isDigit at hc
  by_cases h45 : c = 45
  · subst h45
    cases r with
    | nil =>
      have e : number_ok t = false := by rw [ht]; rfl
      rw [e]
      have h2a : rd (numMem t) 2 = 93 := by rw [h2]; rfl
      have : start_value vt_quiet { numLx t 1 91 with stringp := 0 } cs =
          SAX_ERROR (numLx t 3 93) cs := by
        simp [start_value, next_ch, numLx, h1, h2a, isSpace, start_value_minus]
      rw [this]
      exact Verdict_error _ _ _ _ _ rfl
    | cons d r2 =>
      have hd := ha d (by rw [ht]; simp)
      have har2 : ∀ x ∈ r2, InAlphabet x := fun x hx => har x (List.mem_cons_of_mem _ hx)
      have h2a : rd (numMem t) 2 = d := by rw [h2]; rfl
      have h3 : rd (numMem t) 3 = rd (r2 ++ [93, 0]) 0 := by rw [ht]; exact rd_numMem_three 45 d r2
      have hno : number_ok t = int_ok (d :: r2) := by rw [ht]; rfl
      rw [hno]
      unfold InAlphabet isDigit at hd
      by_cases h48 : d = 48
      · subst h48
        have := after_zero_verdict t [45, 48] r2 cs tr ht har2 htr True trivial
        have e : int_ok (48 :: r2) = frac_ok r2 := rfl
        rw [e]
        simpa [start_value, next_ch, numLx, h1, h2a, h3, isSpace, start_value_minus] using this
      · rw [int_ok_cons_ne d r2 h48]
        by_cases hdd : 49 ≤ d ∧ d ≤ 57
        · have := next_digit_verdict t [45, d] r2 d cs tr ht har2 htr
          have e : start_value vt_quiet { numLx t 1 91 with stringp := 0 } cs =
              .goto .next_digit (numLx t 3 d) cs := by
            simp [start_value, next_ch, numLx, h1, h2a, isSpace, start_value_minus, h48, hdd]
          rw [e]
          simpa [hdd, EndsStep] using this
        · have e : start_value vt_quiet { numLx t 1 91 with stringp := 0 } cs =
              SAX_ERROR (numLx t 3 d) cs := by
            simp [start_value, next_ch, numLx, h1, h2a, isSpace, start_value_minus, h48, hdd]
          rw [e]
          exact Verdict_error _ _ _ _ _ (by simp [hdd])
  · have hno : number_ok t = int_ok t := by rw [ht]; exact number_ok_cons_ne c r h45
    rw [hno]
    by_cases h48 : c = 48
    · subst h48
      have := after_zero_verdict t [48] r cs tr ht har htr (2 < t.length + 2) (by omega)
      have e : int_ok t = frac_ok r := by rw [ht]; rfl
      rw [e]
      simpa [start_value, next_ch, numLx, h1, h2, isSpace, zero_case] using this
    · have e0 : int_ok t = (decide (49 ≤ c ∧ c ≤ 57) && frac_ok (r.dropWhile dig)) := by
        rw [ht]; exact int_ok_cons_ne c r h48
      rw [e0]
      by_cases hdd : 49 ≤ c ∧ c ≤ 57
      · have := next_digit_verdict t [c] r c cs tr ht har htr
        have h34 : c ≠ 34 := by omega
        have h123 : c ≠ 123 := by omega
        have h91 : c ≠ 91 := by omega
        have h93 : c ≠ 93 := by omega
        have hsp : ¬ isSpace c := by unfold isSpace; omega
        have e : start_value vt_quiet { numLx t 1 91 with stringp := 0 } cs =
            .goto .next_digit (numLx t 2 c) cs := by
          simp [start_value, next_ch, numLx, h1, hsp, h34, h123, h91, h93, h45, h48, hdd]
        rw [e]
        simpa [hdd, EndsStep] using this
      · have h34 : c ≠ 34 := by omega
        have h123 : c ≠ 123 := by omega
        have h91 : c ≠ 91 := by omega
        have h93 : c ≠ 93 := by omega
        have h116 : c ≠ 116 := by omega
        have h102 : c ≠ 102 := by omega
        have h110 : c ≠ 110 := by omega
        have hsp : ¬ isSpace c := by unfold isSpace; omega
        have e : start_value vt_quiet { numLx t 1 91 with stringp := 0 } cs =
            SAX_ERROR { numLx t 2 c with stringp := 0 } cs := by
          simp [start_value, next_ch, numLx, h1, hsp, h34, h123, h91, h93, h45, h48, hdd, h116,
            h102, h110]
        rw [e]
        exact Verdict_error _ _ _ _ _ (by simp [hdd])

theorem first_bracket (t : List Nat) :
    step vt_quiet .start_value (init_lexer (numMem t) (t.length + 2)) (init_consumer () ()) =
      .goto .start_value { numLx t 1 91 with stringp := 0 }
        (depth_inc (after_cb (init_consumer () ()) .start_array () (init_consumer () ()).sax 0)) := by
  have h0 : rd (numMem t) 0 = 91 := rfl
  simp [step, start_value, init_lexer, next_ch, h0, isSpace, open_container, CHECK_CB_quiet,
    SYNTAX_PUSH, stack_depth, AJSON_SAX_MAX_STACK_DEPTH, numLx]

/-- The parse of `[t]` by the consumer that logs every event ends as the matcher
says: return code 0 with the events `start_array`, `number t`, `end_array` when
`number_ok t`, return code -1 otherwise. -/
theorem parse_number_verdict (t : List Nat) (hne : t ≠ []) (ha : ∀ x ∈ t, InAlphabet x) :
    ∃ r, parse_doc vt_quiet (91 :: t ++ [93]) () () = some r ∧
      Verdict (number_ok t) t [.start_array] r := by
  obtain ⟨c, r, ht⟩ : ∃ c r, t = c :: r := by
    cases t with
    | nil => exact absurd rfl hne
    | cons c r => exact ⟨c, r, rfl⟩
  have hlen : (91 :: t ++ [93]).length = t.length + 2 := by simp
  unfold parse_doc
  rw [hlen]
  exact ajson_sax_parse_of_Ends (by omega)
    (Ends_goto (first_bracket t) (start_value_number t c r _ _ ht ha rfl))

/-! ## The matcher and the shape of the specification -/

/-- Dropping the digits in front of a list that does not start with a digit. -/
theorem dropWhile_digits_append (ds rest : List Nat) (hds : ∀ c ∈ ds, isDigit c)
    (hr : ∀ c r, rest = c :: r → dig c = false) : (ds ++ rest).dropWhile dig = rest := by
  induction ds with
  | nil =>
    cases rest with
    | nil => rfl
    | cons c r => simp [List.dropWhile_cons, hr c r rfl]
  | cons d ds ih =>
    have hd : dig d = true := (dig_iff d).2 (hds d (List.mem_cons_self _ _))
    simp only [List.cons_append, List.dropWhile_cons, hd, if_true]
    exact ih (fun c hc => hds c (List.mem_cons_of_mem _ hc))

theorem digits_then_intro (f : List Nat → Bool) (ds rest : List Nat) (hne : ds ≠ [])
    (hds : ∀ c ∈ ds, isDigit c) (hr : ∀ c r, rest = c :: r → dig c = false)
    (hf : f rest = true) : digits_then f (ds ++ rest) = true := by
  cases ds with
  | nil => exact absurd rfl hne
  | cons d ds =>
    have hd : dig d = true := (dig_iff d).2 (hds d (List.mem_cons_self _ _))
    simp only [List.cons_append, digits_then, hd, Bool.true_and]
    rw [dropWhile_digits_append ds rest (fun c hc => hds c (List.mem_cons_of_mem _ hc)) hr]
    exact hf

theorem digits_then_elim (f : List Nat → Bool) (s : List Nat) (h : digits_then f s = true) :
    ∃ ds rest, s = ds ++ rest ∧ ds ≠ [] ∧ (∀ c ∈ ds, isDigit c) ∧ f rest = true := by
  cases s with
  | nil => simp [digits_then] at h
  | cons d r =>
    simp only [digits_then, Bool.and_eq_true] at h
    refine ⟨d :: r.takeWhile dig, r.dropWhile dig, by simp [List.takeWhile_append_dropWhile],
      by simp, ?_, h.2⟩
    intro c hc
    rcases List.mem_cons.1 hc with rfl | hc
    · exact (dig_iff _).1 h.1
    · exact (dig_iff _).1 (List.mem_takeWhile_imp hc)

theorem skip_sign_split (r : List Nat) :
    ∃ sg, r = sg ++ skip_sign r ∧ (sg = [] ∨ sg = [43] ∨ sg = [45]) := by
  unfold skip_sign
  split
  · exact ⟨[43], rfl, Or.inr (Or.inl rfl)⟩
  · exact ⟨[45], rfl, Or.inr (Or.inr rfl)⟩
  · exact ⟨[], rfl, Or.inl rfl⟩

theorem skip_sign_digits (ds : List Nat) (hds : ∀ c ∈ ds, isDigit c) : skip_sign ds = ds := by
  unfold skip_sign
  split
  · have := hds 43 (List.mem_cons_self _ _)
    simp [isDigit] at this
  · have := hds 45 (List.mem_cons_self _ _)
    simp [isDigit] at this
  · rfl

theorem IsExpPart_head (x : List Nat) (h : IsExpPart x) (c : Nat) (r : List Nat)
    (hx : x = c :: r) : c = 101 ∨ c = 69 := by
  rcases h with rfl | ⟨e, sg, ds, rfl, he, -⟩
  · cases hx
  · simp only [List.cons.injEq] at hx
    rw [← hx.1]
    exact he

theorem exp_ok_iff (s : List Nat) : exp_ok s = true ↔ IsExpPart s := by
  constructor
  · intro h
    cases s with
    | nil => exact Or.inl rfl
    | cons e r =>
      simp only [exp_ok, Bool.and_eq_true, Bool.or_eq_true, beq_iff_eq] at h
      obtain ⟨ds, rest, hs, hne, hds, hrest⟩ := digits_then_elim _ _ h.2
      obtain ⟨sg, hr, hsg⟩ := skip_sign_split r
      have hnil : rest = [] := List.isEmpty_iff.1 hrest
      subst hnil
      rw [List.append_nil] at hs
      refine Or.inr ⟨e, sg, ds, ?_, h.1, hsg, hne, hds⟩
      rw [← hs, ← hr]
  · rintro (rfl | ⟨e, sg, ds, rfl, he, hsg, hne, hds⟩)
    · rfl
    · have hsk : skip_sign (sg ++ ds) = ds := by
        rcases hsg with rfl | rfl | rfl
        · exact skip_sign_digits ds hds
        · rfl
        · rfl
      have hd : digits_then List.isEmpty (ds ++ []) = true :=
        digits_then_intro _ ds [] hne hds (fun c r h => by cases h) rfl
      rw [List.append_nil] at hd
      simp only [exp_ok, Bool.and_eq_true, Bool.or_eq_true, beq_iff_eq]
      exact ⟨he, by rw [hsk]; exact hd⟩

theorem IsExpPart_nodigit (x : List Nat) (h : IsExpPart x) (c : Nat) (r : List Nat)
    (hx : x = c :: r) : dig c = false := by
  rcases IsExpPart_head x h c r hx with rfl | rfl <;> rfl

theorem frac_ok_iff (s : List Nat) :
    frac_ok s = true ↔ ∃ f x, s = f ++ x ∧ IsFracPart f ∧ IsExpPart x := by
  constructor
  · intro h
    by_cases h46 : ∃ r, s = 46 :: r
    · obtain ⟨r, rfl⟩ := h46
      have h1 : digits_then exp_ok r = true := h
      obtain ⟨ds, rest, hs, hne, hds, hrest⟩ := digits_then_elim _ _ h1
      exact ⟨46 :: ds, rest, by rw [hs]; rfl, Or.inr ⟨ds, rfl, hne, hds⟩, (exp_ok_iff _).1 hrest⟩
    · have h1 : frac_ok s = exp_ok s := by
        unfold frac_ok
        split
        · exact absurd ⟨_, rfl⟩ h46
        · rfl
      rw [h1] at h
      exact ⟨[], s, rfl, Or.inl rfl, (exp_ok_iff _).1 h⟩
  · rintro ⟨f, x, rfl, hf, hx⟩
    rcases hf with rfl | ⟨ds, rfl, hne, hds⟩
    · have h1 : frac_ok ([] ++ x) = exp_ok x := by
        apply frac_ok_of_ne
        cases x with
        | nil => simp [rd]
        | cons c r =>
          rcases IsExpPart_head _ hx c r rfl with rfl | rfl <;> simp [rd]
      rw [h1]
      exact (exp_ok_iff _).2 hx
    · exact digits_then_intro exp_ok ds x hne hds (IsExpPart_nodigit x hx) ((exp_ok_iff _).2 hx)

theorem frac_exp_nodigit (f x : List Nat) (hf : IsFracPart f) (hx : IsExpPart x) (c : Nat)
    (r : List Nat) (h : f ++ x = c :: r) : dig c = false := by
  rcases hf with rfl | ⟨ds, rfl, -, -⟩
  · exact IsExpPart_nodigit x hx c r h
  · simp only [List.cons_append, List.cons.injEq] at h
    rw [← h.1]
    rfl

theorem int_ok_iff (s : List Nat) :
    int_ok s = true ↔ ∃ i f x, s = i ++ f ++ x ∧ IsIntPart i ∧ IsFracPart f ∧ IsExpPart x := by
  constructor
  · intro h
    cases s with
    | nil => simp [int_ok] at h
    | cons d r =>
      by_cases h48 : d = 48
      · subst h48
        have h1 : frac_ok r = true := h
        obtain ⟨f, x, rfl, hf, hx⟩ := (frac_ok_iff _).1 h1
        exact ⟨[48], f, x, rfl, Or.inl rfl, hf, hx⟩
      · rw [int_ok_cons_ne d r h48] at h
        simp only [Bool.and_eq_true, decide_eq_true_eq] at h
        obtain ⟨f, x, hfx, hf, hx⟩ := (frac_ok_iff _).1 h.2
        refine ⟨d :: r.takeWhile dig, f, x, ?_, Or.inr ⟨d, r.takeWhile dig, rfl, h.1, ?_⟩, hf, hx⟩
        · rw [List.append_assoc, ← hfx]
          simp [List.takeWhile_append_dropWhile]
        · intro c hc
          exact (dig_iff _).1 (List.mem_takeWhile_imp hc)
  · rintro ⟨i, f, x, rfl, hi, hf, hx⟩
    have hfx : frac_ok (f ++ x) = true := (frac_ok_iff _).2 ⟨f, x, rfl, hf, hx⟩
    rcases hi with rfl | ⟨d, ds, rfl, hd, hds⟩
    · exact hfx
    · have h48 : d ≠ 48 := by omega
      rw [List.append_assoc, List.cons_append, int_ok_cons_ne d _ h48,
        dropWhile_digits_append ds (f ++ x) hds (frac_exp_nodigit f x hf hx)]
      simp [hd, hfx]

/-- The left-to-right matcher decides the shape of the specification. -/
theorem number_ok_iff (t : List Nat) : number_ok t = true ↔ NumberShape t := by
  constructor
  · intro h
    by_cases h45 : ∃ r, t = 45 :: r
    · obtain ⟨r, rfl⟩ := h45
      have h1 : int_ok r = true := h
      obtain ⟨i, f, x, rfl, hi, hf, hx⟩ := (int_ok_iff _).1 h1
      exact ⟨[45], i, f, x, by simp, Or.inr rfl, hi, hf, hx⟩
    · have h1 : number_ok t = int_ok t := by
        unfold number_ok
        split
        · exact absurd ⟨_, rfl⟩ h45
        · rfl
      rw [h1] at h
      obtain ⟨i, f, x, rfl, hi, hf, hx⟩ := (int_ok_iff _).1 h
      exact ⟨[], i, f, x, by simp, Or.inl rfl, hi, hf, hx⟩
  · rintro ⟨m, i, f, x, rfl, hm, hi, hf, hx⟩
    have hok : int_ok (i ++ f ++ x) = true := (int_ok_iff _).2 ⟨i, f, x, rfl, hi, hf, hx⟩
    rcases hm with rfl | rfl
    · rcases hi with rfl | ⟨d, ds, rfl, hd, hds⟩
      · exact hok
      · have h45 : d ≠ 45 := by omega
        have := number_ok_cons_ne d (ds ++ f ++ x) h45
        simp only [List.nil_append, List.cons_append] at this hok ⊢
        rw [this]
        exact hok
    · have : number_ok ([45] ++ i ++ f ++ x) = int_ok (i ++ f ++ x) := by
        simp [number_ok]
      rw [this]
      exact hok

/-! ## The syntax stack, the depth and the error position -/

section Stack

variable {σ H : Type}

theorem Keeps_refl (lx : Lexer) : Keeps lx lx := ⟨rfl, rfl⟩

theorem LStep_error (vt : H → ajson_sax_cb_t σ H) (lx lx1 : Lexer) (cs : Consumer σ H)
    (h : Keeps lx lx1) : LStep vt lx cs (SAX_ERROR lx1 cs) :=
  LStep.error lx1 h

theorem LStep_CHECK_CB (vt : H → ajson_sax_cb_t σ H) (lx lx1 : Lexer) (cs : Consumer σ H)
    (ev : Event) (k : Consumer σ H → Step σ H)
    (hk : ∀ cs1, Delivered vt cs ev cs1 → LStep vt lx cs (k cs1)) :
    LStep vt lx cs (CHECK_CB vt lx1 cs ev k) :=
  wp_CHECK_CB vt lx1 cs ev k (fun h => hk cs (Or.inl ⟨h, rfl⟩))
    (fun c s rc h hrc => LStep.abort ev c s rc _ h hrc)
    (fun c s h => hk _ (Or.inr ⟨c, s, h, rfl⟩))

theorem LStep_plain (vt : H → ajson_sax_cb_t σ H) (lx lx1 : Lexer) (cs : Consumer σ H)
    (ev : Event) (l : Label) (f : Lexer) (ho : ev.opens = false) (hc : ev.closes = false)
    (h : Keeps lx f) :
    LStep vt lx cs (CHECK_CB vt lx1 cs ev fun cs1 => .goto l f cs1) :=
  LStep_CHECK_CB vt lx lx1 cs ev _ (fun cs1 hd => LStep.scalar ev cs1 l f ho hc hd h)

theorem LStep_open_container (vt : H → ajson_sax_cb_t σ H) (lx lx1 : Lexer)
    (cs : Consumer σ H) (ev : Event) (mode : Nat) (next : Label) (ho : ev.opens = true)
    (h : Keeps lx lx1) : LStep vt lx cs (open_container vt lx1 cs ev mode next) := by
  unfold open_container
  refine LStep_CHECK_CB vt lx lx1 cs ev _ (fun cs1 hd => ?_)
  refine wp_SYNTAX_PUSH lx1 cs1 mode _
    (fun hf => LStep.full ev cs1 lx1 ho hd h (by rw [← h.1]; exact hf))
    (fun hr => LStep.opened ev cs1 next _ mode ho hd (by rw [← h.1]) h.2
      (by rw [← h.1]; exact hr))

theorem LStep_close_here (vt : H → ajson_sax_cb_t σ H) (lx lx1 : Lexer) (cs : Consumer σ H)
    (ev : Event) (hc : ev.closes = true) (h : Keeps lx lx1) :
    LStep vt lx cs (close_here vt lx1 cs ev) := by
  unfold close_here
  refine wp_ite (fun _ => LStep_error vt lx lx1 cs h) (fun _ => ?_)
  refine LStep_CHECK_CB vt lx lx1 cs ev _ (fun cs1 hd => ?_)
  exact LStep.closed ev cs1 (SYNTAX_POP lx1) hc hd (by rw [← h.1]; rfl) h.2

theorem LStep_close_ahead (vt : H → ajson_sax_cb_t σ H) (lx lx1 : Lexer) (cs : Consumer σ H)
    (ev : Event) (hc : ev.closes = true) (h : Keeps lx lx1) :
    LStep vt lx cs (close_ahead vt lx1 cs ev) := by
  unfold close_ahead
  refine wp_ite (fun _ => LStep_error vt lx lx1 cs h) (fun _ => ?_)
  refine LStep_CHECK_CB vt lx lx1 cs ev _ (fun cs1 hd => ?_)
  exact LStep.closed ev cs1 { SYNTAX_POP lx1 with p := lx1.p + 1 } hc hd
    (by rw [← h.1]; rfl) h.2

theorem LStep_expect_all (vt : H → ajson_sax_cb_t σ H) (lx : Lexer) (cs : Consumer σ H)
    (word : List Nat) (lx1 : Lexer) (k : Lexer → Step σ H) (h : Keeps lx lx1)
    (hk : ∀ lx2, Keeps lx lx2 → LStep vt lx cs (k lx2)) :
    LStep vt lx cs (expect_all cs word lx1 k) := by
  induction word generalizing lx1 with
  | nil => exact hk lx1 h
  | cons c word ih =>
    unfold expect_all
    exact wp_expect lx1 cs c _ (fun _ => LStep_error vt lx _ cs h) (fun _ => ih _ h)

theorem LStep_literal (vt : H → ajson_sax_cb_t σ H) (lx lx1 : Lexer) (cs : Consumer σ H)
    (word : List Nat) (ev : Event) (next : Label) (ho : ev.opens = false)
    (hc : ev.closes = false) (h : Keeps lx lx1) :
    LStep vt lx cs (literal vt lx1 cs word ev next) := by
  unfold literal
  refine wp_ite (fun _ => LStep_error vt lx lx1 cs h) (fun _ => ?_)
  exact LStep_expect_all vt lx cs word lx1 _ h
    (fun lx2 h2 => LStep_plain vt lx lx2 cs ev next _ ho hc h2)

theorem LStep_zero_case (vt : H → ajson_sax_cb_t σ H) (lx lx1 : Lexer) (cs : Consumer σ H)
    (dec digit next : Label) (h : Keeps lx lx1) :
    LStep vt lx cs (zero_case vt lx1 cs dec digit next) := by
  unfold zero_case
  dsimp only
  refine wp_ite (fun _ => LStep.jump _ _ h) (fun _ => ?_)
  refine wp_ite (fun _ => LStep.jump _ _ h) (fun _ => ?_)
  refine wp_ite (fun _ => LStep_error vt lx lx1 cs h) (fun _ => ?_)
  exact LStep_plain vt lx lx1 cs _ next _ rfl rfl h

theorem LStep_start_value_minus (vt : H → ajson_sax_cb_t σ H) (lx lx1 : Lexer)
    (cs : Consumer σ H) (h : Keeps lx lx1) :
    LStep vt lx cs (start_value_minus vt lx1 cs) := by
  unfold start_value_minus
  refine wp_ite (fun _ => ?_) (fun _ => ?_)
  · dsimp only
    refine wp_ite (fun _ => LStep.jump _ _ h) (fun _ => ?_)
    refine wp_ite (fun _ => LStep.jump _ _ h) (fun _ => ?_)
    refine wp_ite (fun _ => LStep_error vt lx lx1 cs h) (fun _ => ?_)
    exact LStep_plain vt lx lx1 cs _ _ _ rfl rfl h
  · exact wp_ite (fun _ => LStep.jump _ _ h) (fun _ => LStep_error vt lx lx1 cs h)

theorem LStep_start_key_object_minus (vt : H → ajson_sax_cb_t σ H) (lx lx1 : Lexer)
    (cs : Consumer σ H) (h : Keeps lx lx1) :
    LStep vt lx cs (start_key_object_minus vt lx1 cs) := by
  unfold start_key_object_minus
  refine wp_ite (fun _ => ?_) (fun _ => ?_)
  · dsimp only
    refine wp_ite (fun _ => LStep.jump _ _ h) (fun _ => ?_)
    refine wp_ite (fun _ => LStep.jump _ _ h) (fun _ => ?_)
    refine wp_ite (fun _ => LStep_error vt lx lx1 cs h) (fun _ => ?_)
    exact LStep_plain vt lx lx1 cs _ _ _ rfl rfl h
  · exact wp_ite (fun _ => LStep.jump _ _ h) (fun _ => LStep_error vt lx lx1 cs h)

theorem LStep_finish_number (vt : H → ajson_sax_cb_t σ H) (lx lx1 : Lexer)
    (cs : Consumer σ H) (next : Label) (h : Keeps lx lx1) :
    LStep vt lx cs (finish_number vt lx1 cs next) := by
  unfold finish_number
  exact LStep_plain vt lx _ cs _ next _ rfl rfl h

theorem LStep_finish_string (vt : H → ajson_sax_cb_t σ H) (lx lx1 : Lexer)
    (cs : Consumer σ H) (next : Label) (h : Keeps lx lx1) :
    LStep vt lx cs (finish_string vt lx1 cs next) := by
  unfold finish_string
  exact LStep_plain vt lx _ cs _ next _ rfl rfl h

theorem LStep_finish_key (vt : H → ajson_sax_cb_t σ H) (lx lx1 : Lexer) (cs : Consumer σ H)
    (h : Keeps lx lx1) : LStep vt lx cs (finish_key vt lx1 cs) := by
  unfold finish_key
  exact LStep_plain vt lx _ cs _ _ _ rfl rfl h

theorem LStep_exponent_part (vt : H → ajson_sax_cb_t σ H) (lx lx1 : Lexer)
    (cs : Consumer σ H) (k : Lexer → Step σ H) (h : Keeps lx lx1)
    (hk : ∀ lx2, Keeps lx lx2 → LStep vt lx cs (k lx2)) :
    LStep vt lx cs (exponent_part lx1 cs k) := by
  unfold exponent_part
  refine wp_ite (fun _ => ?_) (fun _ => hk lx1 h)
  dsimp only
  have h2 : Keeps lx (if (next_ch lx1).ch = 43 ∨ (next_ch lx1).ch = 45 then
      next_ch (next_ch lx1) else next_ch lx1) := by
    split
    · exact h
    · exact h
  exact wp_ite (fun _ => LStep_error vt lx _ cs h2) (fun _ => hk _ h2)

theorem LStep_string_body (vt : H → ajson_sax_cb_t σ H) (lx lx1 : Lexer) (cs : Consumer σ H)
    (self next : Label) (h : Keeps lx lx1) :
    LStep vt lx cs (string_body vt lx1 cs self next) := by
  unfold string_body
  dsimp only
  refine wp_ite (fun _ => LStep_error vt lx _ cs h) (fun _ => ?_)
  exact wp_ite (fun _ => LStep.jump _ _ h) (fun _ => LStep_finish_string vt lx _ cs next h)

theorem LStep_next_digit_body (vt : H → ajson_sax_cb_t σ H) (lx lx1 : Lexer)
    (cs : Consumer σ H) (dec next : Label) (h : Keeps lx lx1) :
    LStep vt lx cs (next_digit_body vt lx1 cs dec next) := by
  unfold next_digit_body
  dsimp only
  refine wp_ite (fun _ => LStep.jump _ _ h) (fun _ => ?_)
  exact LStep_exponent_part vt lx _ cs _ h
    (fun lx2 h2 => LStep_finish_number vt lx lx2 cs next h2)

theorem LStep_decimal_number_body (vt : H → ajson_sax_cb_t σ H) (lx lx1 : Lexer)
    (cs : Consumer σ H) (next : Label) (h : Keeps lx lx1) :
    LStep vt lx cs (decimal_number_body vt lx1 cs next) := by
  unfold decimal_number_body
  dsimp only
  refine wp_ite (fun _ => LStep_error vt lx _ cs h) (fun _ => ?_)
  exact LStep_exponent_part vt lx _ cs _ h
    (fun lx2 h2 => LStep_finish_number vt lx lx2 cs next h2)

theorem LStep_start_value (vt : H → ajson_sax_cb_t σ H) (lx : Lexer) (cs : Consumer σ H) :
    LStep vt lx cs (start_value vt lx cs) := by
  have h : Keeps lx lx := Keeps_refl lx
  have hn : Keeps lx (next_ch lx) := ⟨rfl, rfl⟩
  unfold start_value
  dsimp only
  refine wp_ite (fun _ => LStep_error vt lx _ cs h) (fun _ => ?_)
  refine wp_ite (fun _ => LStep.jump _ _ hn) (fun _ => ?_)
  refine wp_ite (fun _ => LStep.jump _ _ hn) (fun _ => ?_)
  refine wp_ite (fun _ => LStep_open_container vt lx _ cs _ _ _ rfl hn) (fun _ => ?_)
  refine wp_ite (fun _ => LStep_open_container vt lx _ cs _ _ _ rfl hn) (fun _ => ?_)
  refine wp_ite (fun _ => LStep_close_here vt lx _ cs _ rfl hn) (fun _ => ?_)
  refine wp_ite (fun _ => LStep_start_value_minus vt lx _ cs hn) (fun _ => ?_)
  refine wp_ite (fun _ => LStep_zero_case vt lx _ cs _ _ _ hn) (fun _ => ?_)
  refine wp_ite (fun _ => LStep.jump _ _ hn) (fun _ => ?_)
  refine wp_ite (fun _ => LStep_literal vt lx _ cs _ _ _ rfl rfl hn) (fun _ => ?_)
  refine wp_ite (fun _ => LStep_literal vt lx _ cs _ _ _ rfl rfl hn) (fun _ => ?_)
  exact wp_ite (fun _ => LStep_literal vt lx _ cs _ _ _ rfl rfl hn)
    (fun _ => LStep_error vt lx _ cs hn)

theorem LStep_start_key_object (vt : H → ajson_sax_cb_t σ H) (lx : Lexer)
    (cs : Consumer σ H) : LStep vt lx cs (start_key_object vt lx cs) := by
  have h : Keeps lx lx := Keeps_refl lx
  have hn : Keeps lx (next_ch lx) := ⟨rfl, rfl⟩
  unfold start_key_object
  dsimp only
  refine wp_ite (fun _ => LStep_error vt lx _ cs h) (fun _ => ?_)
  refine wp_ite (fun _ => LStep.jump _ _ hn) (fun _ => ?_)
  refine wp_ite (fun _ => LStep.jump _ _ hn) (fun _ => ?_)
  refine wp_ite (fun _ => LStep_open_container vt lx _ cs _ _ _ rfl hn) (fun _ => ?_)
  refine wp_ite (fun _ => LStep_open_container vt lx _ cs _ _ _ rfl hn) (fun _ => ?_)
  refine wp_ite (fun _ => LStep_start_key_object_minus vt lx _ cs hn) (fun _ => ?_)
  refine wp_ite (fun _ => LStep_zero_case vt lx _ cs _ _ _ hn) (fun _ => ?_)
  refine wp_ite (fun _ => LStep.jump _ _ hn) (fun _ => ?_)
  refine wp_ite (fun _ => LStep_literal vt lx _ cs _ _ _ rfl rfl hn) (fun _ => ?_)
  refine wp_ite (fun _ => LStep_literal vt lx _ cs _ _ _ rfl rfl hn) (fun _ => ?_)
  exact wp_ite (fun _ => LStep_literal vt lx _ cs _ _ _ rfl rfl hn)
    (fun _ => LStep_error vt lx _ cs hn)

theorem LStep_start_key (vt : H → ajson_sax_cb_t σ H) (lx : Lexer) (cs : Consumer σ H) :
    LStep vt lx cs (start_key vt lx cs) := by
  have h : Keeps lx lx := Keeps_refl lx
  have hn : Keeps lx (next_ch lx) := ⟨rfl, rfl⟩
  unfold start_key
  dsimp only
  refine wp_ite (fun _ => LStep_error vt lx _ cs h) (fun _ => ?_)
  refine wp_ite (fun _ => LStep.jump _ _ hn) (fun _ => ?_)
  refine wp_ite (fun _ => LStep.jump _ _ hn) (fun _ => ?_)
  exact wp_ite (fun _ => LStep_close_here vt lx _ cs _ rfl hn)
    (fun _ => LStep_error vt lx _ cs hn)

theorem LStep_get_end_of_key (vt : H → ajson_sax_cb_t σ H) (lx : Lexer) (cs : Consumer σ H) :
    LStep vt lx cs (get_end_of_key vt lx cs) := by
  have h : Keeps lx lx := Keeps_refl lx
  unfold get_end_of_key
  dsimp only
  refine wp_ite (fun _ => LStep.jump _ _ h) (fun _ => LStep_finish_key vt lx _ cs ?_)
  split
  · exact h
  · exact h

theorem LStep_look_for_key (vt : H → ajson_sax_cb_t σ H) (lx : Lexer) (cs : Consumer σ H) :
    LStep vt lx cs (look_for_key vt lx cs) := by
  have h : Keeps lx lx := Keeps_refl lx
  unfold look_for_key
  refine wp_ite (fun _ => ?_) (fun _ => ?_)
  · exact wp_ite (fun _ => LStep_error vt lx _ cs h) (fun _ => LStep.jump _ _ h)
  refine wp_ite (fun _ => LStep_close_ahead vt lx _ cs _ rfl h) (fun _ => ?_)
  exact wp_ite (fun _ => LStep.jump _ _ h) (fun _ => LStep_error vt lx _ cs h)

theorem LStep_look_for_next_object (vt : H → ajson_sax_cb_t σ H) (lx : Lexer)
    (cs : Consumer σ H) : LStep vt lx cs (look_for_next_object vt lx cs) := by
  have h : Keeps lx lx := Keeps_refl lx
  have hend : ∀ lx1 : Lexer, Keeps lx lx1 → LStep vt lx cs
      (if stack_depth lx1 = 0 then .ret 0 lx1 cs else SAX_ERROR lx1 cs) := fun lx1 h1 =>
    wp_ite (fun _ => LStep.accept _ h1) (fun _ => LStep_error vt lx _ cs h1)
  unfold look_for_next_object
  refine wp_ite (fun _ => ?_) (fun _ => ?_)
  · exact wp_ite (fun _ => LStep_error vt lx _ cs h) (fun _ => LStep.jump _ _ h)
  refine wp_ite (fun _ => LStep_close_ahead vt lx _ cs _ rfl h) (fun _ => ?_)
  refine wp_ite (fun _ => ?_) (fun _ => ?_)
  · dsimp only
    exact wp_ite (fun _ => hend _ h) (fun _ => LStep.jump _ _ h)
  · exact wp_ite (fun _ => hend _ h) (fun _ => LStep_error vt lx _ cs h)

theorem LStep_determine_next_step (vt : H → ajson_sax_cb_t σ H) (lx : Lexer)
    (cs : Consumer σ H) : LStep vt lx cs (determine_next_step lx cs) := by
  have h : Keeps lx lx := Keeps_refl lx
  unfold determine_next_step
  refine wp_ite (fun _ => LStep.accept _ h) (fun _ => ?_)
  refine wp_ite (fun _ => LStep.accept _ h) (fun _ => ?_)
  dsimp only
  exact wp_ite (fun _ => LStep.jump _ _ h) (fun _ => LStep.jump _ _ h)

/-- Every transition handles the syntax stack, the depth and the error position in
one of the eight ways of `LStep`. -/
theorem step_LStep (vt : H → ajson_sax_cb_t σ H) (l : Label) (lx : Lexer)
    (cs : Consumer σ H) : LStep vt lx cs (step vt l lx cs) := by
  cases l
  case start_key => exact LStep_start_key vt lx cs
  case get_end_of_key => exact LStep_get_end_of_key vt lx cs
  case start_key_object => exact LStep_start_key_object vt lx cs
  case keyed_start_string => exact LStep_string_body vt lx lx cs _ _ (Keeps_refl lx)
  case look_for_key => exact LStep_look_for_key vt lx cs
  case keyed_next_digit => exact LStep_next_digit_body vt lx lx cs _ _ (Keeps_refl lx)
  case keyed_decimal_number => exact LStep_decimal_number_body vt lx lx cs _ (Keeps_refl lx)
  case start_value => exact LStep_start_value vt lx cs
  case start_string => exact LStep_string_body vt lx lx cs _ _ (Keeps_refl lx)
  case add_string => exact LStep.jump _ _ (Keeps_refl lx)
  case look_for_next_object => exact LStep_look_for_next_object vt lx cs
  case next_digit => exact LStep_next_digit_body vt lx lx cs _ _ (Keeps_refl lx)
  case decimal_number => exact LStep_decimal_number_body vt lx lx cs _ (Keeps_refl lx)
  case determine_next_step => exact LStep_determine_next_step vt lx cs

end Stack

section Stack2

variable {σ H : Type}

/-- A run that starts with no error position stored and returns a nonzero code
without one has failed in `SYNTAX_PUSH`, on a full syntax stack. -/
theorem run_error_at (vt : H → ajson_sax_cb_t σ H) (n : Nat) (l : Label) (lx : Lexer)
    (cs : Consumer σ H) (r : Result σ H) (h : run vt n l lx cs = some r)
    (hrc : r.rc ≠ 0) (he : r.lx.error_at = none) : r.rc = -1 ∧ 511 ≤ r.lx.stack.length := by
  induction n generalizing l lx cs with
  | zero => simp [run] at h
  | succ n ih =>
    unfold run at h
    have hc := step_LStep vt l lx cs
    cases hs : step vt l lx cs with
    | ret rc lx1 cs1 =>
      rw [hs] at h hc
      obtain rfl := Option.some.inj h
      cases hc with
      | accept _ _ => exact absurd rfl hrc
      | error lx2 _ => simp at he
      | abort ev c s _ lx2 hi _ => simp at he
      | full ev _ _ _ _ hk hf => exact ⟨rfl, by rw [hk.1]; exact hf⟩
    | goto l1 lx1 cs1 =>
      rw [hs] at h
      exact ih l1 lx1 cs1 h

theorem Delivered_depth {vt : H → ajson_sax_cb_t σ H} (hk : KeepsDepth vt)
    {cs cs1 : Consumer σ H} {ev : Event} (hd : Delivered vt cs ev cs1) :
    cs1.sax.current_depth = cs.sax.current_depth := by
  rcases hd with ⟨_, rfl⟩ | ⟨c, s, hi, rfl⟩
  · rfl
  · exact hk cs ev c s 0 hi

theorem step_DepthInv {vt : H → ajson_sax_cb_t σ H} (hk : KeepsDepth vt) {l l1 : Label}
    {lx lx1 : Lexer} {cs cs1 : Consumer σ H} (hi : DepthInv l lx cs)
    (hs : step vt l lx cs = .goto l1 lx1 cs1) : DepthInv l1 lx1 cs1 := by
  rcases hi with hi | ⟨rfl, hnil⟩
  · have hc := step_LStep vt l lx cs
    rw [hs] at hc
    cases hc with
    | jump _ _ h => exact Or.inl (by rw [h.1]; exact hi)
    | scalar ev _ _ _ _ _ hd h => exact Or.inl (by rw [h.1, Delivered_depth hk hd]; exact hi)
    | opened ev cs2 _ _ mode _ hd hst _ _ =>
      refine Or.inl ?_
      show cs2.sax.current_depth + 1 = _
      rw [hst, Delivered_depth hk hd, hi]
      simp
    | closed ev cs2 _ _ hd hst _ =>
      cases hstack : lx.stack with
      | nil => exact Or.inr ⟨rfl, by rw [hst, hstack]; rfl⟩
      | cons m rest =>
        refine Or.inl ?_
        show cs2.sax.current_depth - 1 = _
        rw [hst, Delivered_depth hk hd, hi, hstack]
        simp
  · simp [step, determine_next_step, stack_depth, hnil] at hs

theorem reach_DepthInv {vt : H → ajson_sax_cb_t σ H} (hk : KeepsDepth vt) (k : Nat)
    {l l1 : Label} {lx lx1 : Lexer} {cs cs1 : Consumer σ H} (hi : DepthInv l lx cs)
    (hr : reach vt k l lx cs = some (l1, lx1, cs1)) : DepthInv l1 lx1 cs1 := by
  induction k generalizing l lx cs with
  | zero =>
    simp only [reach, Option.some.injEq, Prod.mk.injEq] at hr
    obtain ⟨rfl, rfl, rfl⟩ := hr
    exact hi
  | succ k ih =>
    unfold reach at hr
    cases hs : step vt l lx cs with
    | ret rc lx2 cs2 => rw [hs] at hr; cases hr
    | goto l2 lx2 cs2 =>
      rw [hs] at hr
      exact ih (step_DepthInv hk hi hs) hr

theorem DepthInv_init (mem : List Nat) (ep : Nat) (cb : H) (ctx : σ) :
    DepthInv .start_value (init_lexer mem ep) (init_consumer cb ctx) :=
  Or.inl rfl

end Stack2

/-! ## Error positions -/

theorem parse_of_Passes {σ H : Type} {vt : H → ajson_sax_cb_t σ H} {doc : List Nat} {cb : H}
    {ctx : σ} {l : Label} {lx : Lexer} {Q : Result σ H → Prop} (hd : doc ≠ [])
    (hp : Passes vt doc cb ctx l lx) (h : ∀ cs, Ends vt l lx cs Q) :
    ∃ r, parse_doc vt doc cb ctx = some r ∧ Q r := by
  obtain ⟨k, cs, hk⟩ := hp
  exact ajson_sax_parse_of_Ends (List.length_pos.2 hd) (Ends_of_reach hk (h cs))

theorem trailing_comma_brace_ends {σ H : Type} (vt : H → ajson_sax_cb_t σ H) (lx : Lexer)
    (cs : Consumer σ H) (hc : lx.ch = 44) (hb : lx.p + 1 < lx.ep)
    (hr : rd lx.mem (lx.p + 1) = 125) :
    Ends vt .look_for_key lx cs (fun r => r.rc = -1 ∧ r.lx.error_at = some (lx.p + 2)) := by
  have h1 : step vt .look_for_key lx cs =
      .goto .start_key { lx with p := lx.p + 1, after_comma := true } cs := by
    have : ¬ lx.ep ≤ lx.p := by omega
    simp [step, look_for_key, hc, this]
  have h2 : step vt .start_key { lx with p := lx.p + 1, after_comma := true } cs =
      SAX_ERROR { lx with p := lx.p + 2, after_comma := true, ch := 125 } cs := by
    have : ¬ lx.ep ≤ lx.p + 1 := by omega
    simp [step, start_key, next_ch, hr, isSpace, close_here, this]
  exact Ends_goto h1 (Ends_ret h2 ⟨rfl, rfl⟩)

theorem brackets_overflow (n k : Nat) (hn : 512 ≤ n) (lx : Lexer)
    (cs : Consumer Unit Unit) (hm : lx.mem = brackets n ++ [0]) (he : lx.ep = 2 * n)
    (hp : lx.p + k = 511) (hs : lx.stack = List.replicate lx.p SAX_MODE_ARRAY)
    (hnone : lx.error_at = none) :
    Ends vt_none .start_value lx cs (fun r => r.rc = -1 ∧ r.lx.error_at = none) := by
  have hlt : lx.p < lx.ep := by omega
  have hrd : rd lx.mem lx.p = 91 := by rw [hm]; exact rd_brackets_open n lx.p (by omega)
  have h1 := start_value_open lx cs hlt hrd
  induction k generalizing lx cs with
  | zero =>
    rw [if_pos (by rw [hs]; simp; omega)] at h1
    exact Ends_ret h1 ⟨rfl, hnone⟩
  | succ k ih =>
    rw [if_neg (by rw [hs]; simp; omega)] at h1
    refine Ends_goto h1 ?_
    have hlt2 : lx.p + 1 < lx.ep := by omega
    have hrd2 : rd lx.mem (lx.p + 1) = 91 := by
      rw [hm]; exact rd_brackets_open n (lx.p + 1) (by omega)
    refine ih _ _ hm he (by show lx.p + 1 + k = 511; omega) ?_ hnone hlt2 hrd2
      (start_value_open _ _ hlt2 hrd2)
    show SAX_MODE_ARRAY :: lx.stack = List.replicate (lx.p + 1) SAX_MODE_ARRAY
    rw [hs]
    rfl

/-- With a consumer whose callbacks all return 0 the return code and the error
position are those of the parse with no handler at all. -/
theorem error_report_eq_no_handlers {σ H : Type} {vt : H → ajson_sax_cb_t σ H}
    (hz : ReturnsZero vt) (mem : List Nat) (ep : Nat) (cb : H) (ctx : σ) :
    error_report (ajson_sax_parse vt mem ep cb ctx) =
      error_report (ajson_sax_parse (fun _ : Unit => no_handlers Unit Unit) mem ep () ()) := by
  have h := ajson_sax_parse_Rel (Compat_of_zero hz (ReturnsZero_no_handlers Unit Unit)) mem ep
    cb ctx () () trivial
  revert h
  cases ajson_sax_parse vt mem ep cb ctx <;>
    cases ajson_sax_parse (fun _ : Unit => no_handlers Unit Unit) mem ep () () <;>
    simp [RelResult, error_report]
  intro h1 h2
  exact ⟨h1, by rw [h2]⟩

theorem brackets_report_none (n : Nat) (hn : 512 ≤ n) :
    error_report (parse_doc vt_none (brackets n) () ()) = some (-1, none) := by
  have hlen := brackets_length n
  obtain ⟨r, hr, hq⟩ := ajson_sax_parse_of_Ends (by omega)
    (brackets_overflow n 511 hn (init_lexer (brackets n ++ [0]) (brackets n).length)
      (init_consumer () ()) rfl hlen (by simp [init_lexer]) rfl rfl)
  unfold parse_doc
  rw [hr]
  simp [error_report, hq.1, hq.2]

theorem ajson_sax_pop_depth {H : Type} (s : ajson_sax_t H) :
    (ajson_sax_pop s).current_depth = s.current_depth := by
  unfold ajson_sax_pop
  split <;> rfl

theorem ajson_sax_try_pop_depth {H : Type} (s : ajson_sax_t H) :
    (ajson_sax_try_pop s).1.current_depth = s.current_depth := by
  unfold ajson_sax_try_pop
  split
  · exact ajson_sax_pop_depth s
  · rfl

theorem ajson_sax_push_depth {H : Type} (s : ajson_sax_t H) (c : Option H) :
    (ajson_sax_push s c).current_depth = s.current_depth := by
  cases c <;> rfl

theorem KeepsDepth_anchor_vt : KeepsDepth anchor_vt := by
  intro cs ev c s rc h
  cases hcb : cs.sax.cb <;> cases ev <;>
    simp only [invoke, anchor_vt, hcb, no_handlers, Option.map_none', Option.map_some',
      Option.some.injEq, Prod.mk.injEq] at h <;>
    first
    | (obtain ⟨_, rfl, _⟩ := h
       first
       | exact ajson_sax_push_depth _ _
       | exact ajson_sax_try_pop_depth _)
    | cases h

/-! ## Literals and bare identifiers -/

theorem rd_of_lt (l : List Nat) (i : Nat) (h : i < l.length) : rd l i = l.get ⟨i, h⟩ := by
  simp [rd, List.getD_eq_getElem?_getD, List.getElem?_eq_getElem h]

theorem rd_mem_of_lt (l : List Nat) (i : Nat) (h : i < l.length) : rd l i ∈ l := by
  rw [rd_of_lt l i h]
  exact List.get_mem l i h

theorem ext_rd (a b : List Nat) (hl : a.length = b.length)
    (h : ∀ i, i < a.length → rd a i = rd b i) : a = b := by
  apply List.ext_get hl
  intro i h1 h2
  have := h i h1
  rw [rd_of_lt a i h1, rd_of_lt b i h2] at this
  exact this

section Literals

variable {σ H : Type}

theorem expect_all_ends (vt : H → ajson_sax_cb_t σ H) (cs : Consumer σ H) (word : List Nat)
    (lx : Lexer) (k : Lexer → Step σ H) (Q : Result σ H → Prop)
    (herr : ∀ lx1 : Lexer, Q ⟨-1, { lx1 with error_at := some lx1.p }, cs⟩)
    (hk : (∀ i, i < word.length → rd lx.mem (lx.p + i) = rd word i) →
      EndsStep vt (k { lx with p := lx.p + word.length }) Q) :
    EndsStep vt (expect_all cs word lx k) Q := by
  induction word generalizing lx with
  | nil => exact hk (fun i hi => absurd hi (Nat.not_lt_zero i))
  | cons c word ih =>
    unfold expect_all expect
    dsimp only
    split
    · exact herr _
    · rename_i hc
      have hc : rd lx.mem lx.p = c := by simpa using hc
      refine ih { lx with p := lx.p + 1 } (fun hm => ?_)
      have := hk (fun i hi => by
        cases i with
        | zero => simpa [rd] using hc
        | succ i =>
          have := hm i (by simpa using hi)
          simpa [rd, Nat.add_assoc, Nat.add_comm 1 i] using this)
      simpa [Nat.add_assoc, Nat.add_comm 1 word.length] using this

theorem ident_delimiter_error (vt : H → ajson_sax_cb_t σ H) (next : Label) (lx : Lexer)
    (cs : Consumer σ H) (hn : next = .add_string ∨ next = .look_for_key)
    (hc : isIdentByte lx.ch) : Ends vt next lx cs (fun r => r.rc = -1) := by
  unfold isIdentByte isLetter isDigit at hc
  have h44 : lx.ch ≠ 44 := by omega
  have h93 : lx.ch ≠ 93 := by omega
  have h125 : lx.ch ≠ 125 := by omega
  have h0 : lx.ch ≠ 0 := by omega
  have hsp : ¬ isSpace lx.ch := by unfold isSpace; omega
  rcases hn with rfl | rfl
  · refine @Ends_goto _ _ _ _ Label.look_for_next_object _ _ _ _ _ rfl ?_
    refine @Ends_error _ _ _ _ _ lx _ ?_
    simp [step, look_for_next_object, h44, h93, h0, hsp]
  · refine @Ends_error _ _ _ _ _ lx _ ?_
    simp [step, look_for_key, h44, h125, hsp]

/-- The code of a literal case on a bare identifier that is not the literal:
the parse returns -1. -/
theorem literal_mismatch (vt : H → ajson_sax_cb_t σ H) (hz : ReturnsZero vt) (lx : Lexer)
    (cs : Consumer σ H) (f : Nat) (word w : List Nat) (ev : Event) (next : Label)
    (hn : next = .add_string ∨ next = .look_for_key) (hp : 1 ≤ lx.p)
    (hlen : lx.p - 1 + w.length ≤ lx.ep)
    (hw : ∀ i, i < w.length → rd lx.mem (lx.p - 1 + i) = rd w i) (hf : rd w 0 = f)
    (hwne : w ≠ [])
    (hid : ∀ c ∈ w, isIdentByte c)
    (hmax : lx.p - 1 + w.length < lx.ep → ¬ isIdentByte (rd lx.mem (lx.p - 1 + w.length)))
    (hW : ∀ c ∈ f :: word, isIdentByte c) (hne : w ≠ f :: word) :
    EndsStep vt (literal vt lx cs word ev next) (fun r => r.rc = -1) := by
  unfold literal
  split
  · exact rfl
  · rename_i hroom
    have hroom : lx.p + word.length ≤ lx.ep := by omega
    refine expect_all_ends vt cs word lx _ _ (fun _ => rfl) (fun hm => ?_)
    -- the bytes at the cursor are those of the literal
    have hall : ∀ i, i < (f :: word).length → rd lx.mem (lx.p - 1 + i) = rd (f :: word) i := by
      intro i hi
      cases i with
      | zero =>
        have := hw 0 (List.length_pos.2 hwne)
        rw [this, hf]
        rfl
      | succ i =>
        have := hm i (by simpa using hi)
        have e : lx.p - 1 + (i + 1) = lx.p + i := by omega
        rw [e, this]
        rfl
    have hlt : (f :: word).length < w.length := by
      rcases Nat.lt_trichotomy w.length (f :: word).length with h | h | h
      · exfalso
        refine hmax (by simp at h ⊢; omega) ?_
        rw [hall _ h]
        exact hW _ (rd_mem_of_lt _ _ h)
      · exfalso
        exact hne (ext_rd _ _ h (fun i hi => by rw [← hw i hi, hall i (by omega)]))
      · exact h
    obtain ⟨cs1, hd⟩ := delivered_of_zero hz cs ev
    rw [CHECK_CB_delivered vt _ cs cs1 _ _ hd]
    refine ident_delimiter_error vt next _ cs1 hn ?_
    show isIdentByte (rd lx.mem (lx.p + word.length))
    have e : lx.p + word.length = lx.p - 1 + (f :: word).length := by simp; omega
    rw [e, hw _ hlt]
    exact hid _ (rd_mem_of_lt _ _ hlt)

end Literals

section Literals2

variable {σ H : Type}

theorem literal_at_word (vt : H → ajson_sax_cb_t σ H) (hz : ReturnsZero vt) (lx : Lexer)
    (ac : Bool) (cs : Consumer σ H) (f : Nat) (word w : List Nat) (ev : Event) (next : Label)
    (hn : next = .add_string ∨ next = .look_for_key) (hw : BareWordAt lx w)
    (hf : rd w 0 = f) (hW : ∀ c ∈ f :: word, isIdentByte c) (hne : w ≠ f :: word) :
    EndsStep vt (literal vt { next_ch lx with after_comma := ac } cs word ev next)
      (fun r => r.rc = -1) := by
  obtain ⟨hlen, hbytes, hlet, hid, hmax⟩ := hw
  have hwne : w ≠ [] := by
    rintro rfl
    simp [isLetter, rd] at hlet
  refine literal_mismatch vt hz _ cs f word w ev next hn ?_ ?_ ?_ hf hwne hid ?_ hW hne
  · show 1 ≤ lx.p + 1
    omega
  · show lx.p + 1 - 1 + w.length ≤ lx.ep
    simpa using hlen
  · intro i hi
    show rd lx.mem (lx.p + 1 - 1 + i) = rd w i
    simpa using hbytes i hi
  · show lx.p + 1 - 1 + w.length < lx.ep → ¬ isIdentByte (rd lx.mem (lx.p + 1 - 1 + w.length))
    simpa using hmax

/-- A bare identifier other than `true`, `false` and `null` in a value position
ends the parse with -1. -/
theorem bare_word_ends (vt : H → ajson_sax_cb_t σ H) (hz : ReturnsZero vt) (l : Label)
    (hl : l = .start_value ∨ l = .start_key_object) (lx : Lexer) (cs : Consumer σ H)
    (w : List Nat) (hw : BareWordAt lx w)
    (hne : w ≠ ascii "true" ∧ w ≠ ascii "false" ∧ w ≠ ascii "null") :
    Ends vt l lx cs (fun r => r.rc = -1) := by
  have hw0 := hw
  obtain ⟨hlen, hbytes, hlet, hid, hmax⟩ := hw
  have hwne : w ≠ [] := by
    rintro rfl
    simp [isLetter, rd] at hlet
  have hpos : 0 < w.length := List.length_pos.2 hwne
  have hc : rd lx.mem lx.p = rd w 0 := by simpa using hbytes 0 hpos
  have hlt : ¬ lx.p ≥ lx.ep := by omega
  have ht : ∀ c ∈ (116 :: [114, 117, 101] : List Nat), isIdentByte c := by decide
  have hfa : ∀ c ∈ (102 :: [97, 108, 115, 101] : List Nat), isIdentByte c := by decide
  have hnu : ∀ c ∈ (110 :: [117, 108, 108] : List Nat), isIdentByte c := by decide
  apply Ends_of_step
  by_cases h116 : rd w 0 = 116
  · have := fun ac next hn => literal_at_word vt hz lx ac cs 116 [114, 117, 101] w (.bool true)
      next hn hw0 h116 ht hne.1
    rcases hl with rfl | rfl
    · have := this false .add_string (Or.inl rfl)
      simpa [step, start_value, hlt, next_ch, hc, h116, isSpace] using this
    · have := this lx.after_comma .look_for_key (Or.inr rfl)
      simpa [step, start_key_object, hlt, next_ch, hc, h116, isSpace] using this
  by_cases h102 : rd w 0 = 102
  · have := fun ac next hn => literal_at_word vt hz lx ac cs 102 [97, 108, 115, 101] w
      (.bool false) next hn hw0 h102 hfa hne.2.1
    rcases hl with rfl | rfl
    · have := this false .add_string (Or.inl rfl)
      simpa [step, start_value, hlt, next_ch, hc, h102, isSpace] using this
    · have := this lx.after_comma .look_for_key (Or.inr rfl)
      simpa [step, start_key_object, hlt, next_ch, hc, h102, isSpace] using this
  by_cases h110 : rd w 0 = 110
  · have := fun ac next hn => literal_at_word vt hz lx ac cs 110 [117, 108, 108] w .null
      next hn hw0 h110 hnu hne.2.2
    rcases hl with rfl | rfl
    · have := this false .add_string (Or.inl rfl)
      simpa [step, start_value, hlt, next_ch, hc, h110, isSpace] using this
    · have := this lx.after_comma .look_for_key (Or.inr rfl)
      simpa [step, start_key_object, hlt, next_ch, hc, h110, isSpace] using this
  · unfold isLetter at hlet
    have h34 : rd w 0 ≠ 34 := by omega
    have h123 : rd w 0 ≠ 123 := by omega
    have h91 : rd w 0 ≠ 91 := by omega
    have h93 : rd w 0 ≠ 93 := by omega
    have h45 : rd w 0 ≠ 45 := by omega
    have h48 : rd w 0 ≠ 48 := by omega
    have hd : ¬ (49 ≤ rd w 0 ∧ rd w 0 ≤ 57) := by omega
    have hsp : ¬ isSpace (rd w 0) := by unfold isSpace; omega
    rcases hl with rfl | rfl
    · have : step vt .start_value lx cs = SAX_ERROR (next_ch lx) cs := by
        simp [step, start_value, hlt, next_ch, hc, h116, h102, h110, h34, h123, h91, h93, h45,
          h48, hd, hsp]
      rw [this]
      exact rfl
    · have : step vt .start_key_object lx cs = SAX_ERROR (next_ch lx) cs := by
        simp [step, start_key_object, hlt, next_ch, hc, h116, h102, h110, h34, h123, h91, h45,
          h48, hd, hsp]
      rw [this]
      exact rfl

end Literals2

/-! ## The scan of a string or key -/

theorem backtrack_loop_eq (mem : List Nat) (o : Nat) (ho : rd mem o ≠ 92) (fuel b : Nat)
    (hob : o ≤ b) (hf : b - o < fuel) :
    backtrack_loop mem fuel b = b - backslashes mem (b + 1) ∧
      backslashes mem (b + 1) ≤ b - o := by
  induction fuel generalizing b with
  | zero => omega
  | succ fuel ih =>
    unfold backtrack_loop
    by_cases hb : rd mem b = 92
    · have hne : b ≠ o := fun h => ho (h ▸ hb)
      obtain ⟨b1, rfl⟩ : ∃ b1, b = b1 + 1 := ⟨b - 1, by omega⟩
      have := ih b1 (by omega) (by omega)
      rw [if_pos hb]
      simp only [Nat.add_sub_cancel]
      have e : backslashes mem (b1 + 1 + 1) = backslashes mem (b1 + 1) + 1 := by
        conv_lhs => unfold backslashes
        rw [if_pos hb]
      rw [e, this.1]
      omega
    · rw [if_neg hb]
      have e : backslashes mem (b + 1) = 0 := by
        unfold backslashes
        rw [if_neg hb]
      rw [e]
      omega

/-- Below an opening quote the parity test of the scanner is the parity of the
backslashes before the quote. -/
theorem escaped_quote_iff (mem : List Nat) (o i : Nat) (ho : rd mem o ≠ 92) (hoi : o < i) :
    escaped_quote mem i ↔ backslashes mem i % 2 = 1 := by
  obtain ⟨b, rfl⟩ : ∃ b, i = b + 1 := ⟨i - 1, by omega⟩
  have h := backtrack_loop_eq mem o ho (b + 1) b (by omega) (by omega)
  unfold escaped_quote
  simp only [Nat.add_sub_cancel]
  rw [h.1]
  constructor
  · rintro ⟨_, h2⟩
    omega
  · intro h2
    refine ⟨?_, by omega⟩
    by_contra hb
    have e : backslashes mem (b + 1) = 0 := by
      unfold backslashes
      rw [if_neg hb]
    omega

theorem first_quote (mem : List Nat) (p q : Nat) (hpq : p ≤ q) (hq : rd mem q = 34) :
    ∃ q1, p ≤ q1 ∧ q1 ≤ q ∧ rd mem q1 = 34 ∧ ∀ i, p ≤ i → i < q1 → rd mem i ≠ 34 := by
  have hex : ∃ i, p ≤ i ∧ rd mem i = 34 := ⟨q, hpq, hq⟩
  classical
  refine ⟨Nat.find hex, (Nat.find_spec hex).1, Nat.find_min' hex ⟨hpq, hq⟩,
    (Nat.find_spec hex).2, fun i h1 h2 h3 => Nat.find_min hex h2 ⟨h1, h3⟩⟩

section Strings

variable {σ H : Type}

theorem reach_trans {vt : H → ajson_sax_cb_t σ H} {k j : Nat} {l l1 l2 : Label}
    {lx lx1 lx2 : Lexer} {cs cs1 cs2 : Consumer σ H}
    (h1 : reach vt k l lx cs = some (l1, lx1, cs1))
    (h2 : reach vt j l1 lx1 cs1 = some (l2, lx2, cs2)) :
    reach vt (k + j) l lx cs = some (l2, lx2, cs2) := by
  induction k generalizing l lx cs with
  | zero =>
    simp only [reach, Option.some.injEq, Prod.mk.injEq] at h1
    obtain ⟨rfl, rfl, rfl⟩ := h1
    simpa using h2
  | succ k ih =>
    rw [Nat.add_right_comm]
    unfold reach at h1 ⊢
    cases hs : step vt l lx cs with
    | ret rc lx3 cs3 => rw [hs] at h1; cases h1
    | goto l3 lx3 cs3 =>
      rw [hs] at h1
      exact ih h1

theorem reach_one {vt : H → ajson_sax_cb_t σ H} {l l1 : Label} {lx lx1 : Lexer}
    {cs cs1 : Consumer σ H} (hs : step vt l lx cs = .goto l1 lx1 cs1) :
    reach vt 1 l lx cs = some (l1, lx1, cs1) := by
  unfold reach
  rw [hs]
  rfl

/-- The scan for the closing quote: jumps back to the same label past every
escaped quote, until the cursor has no quote left before the closing one. -/
theorem quote_loop (vt : H → ajson_sax_cb_t σ H) (self : Label) (cs : Consumer σ H)
    (hesc : ∀ (lx : Lexer) (q1 : Nat), scan_to lx.mem lx.ep 34 (lx.ep - lx.p) lx.p = q1 →
      q1 < lx.ep → escaped_quote lx.mem q1 →
      step vt self lx cs = .goto self { lx with p := q1 + 1 } cs)
    (lx : Lexer) (o q : Nat) (hq : ClosingQuote lx.mem o lx.ep q) (hp1 : o < lx.p)
    (hp2 : lx.p ≤ q) :
    ∃ k p1, o < p1 ∧ p1 ≤ q ∧ (∀ i, p1 ≤ i → i < q → rd lx.mem i ≠ 34) ∧
      reach vt k self lx cs = some (self, { lx with p := p1 }, cs) := by
  obtain ⟨ho, hoq, hqe, hun, hfirst⟩ := hq
  generalize hd : q - lx.p = d
  induction d using Nat.strong_induction_on generalizing lx with
  | _ d ih =>
    obtain ⟨q1, h1, h2, h3, h4⟩ := first_quote lx.mem lx.p q hp2 hun.1
    by_cases hq1 : q1 = q
    · subst hq1
      exact ⟨0, lx.p, hp1, hp2, h4, rfl⟩
    · have hlt : q1 < q := by omega
      have hscan : scan_to lx.mem lx.ep 34 (lx.ep - lx.p) lx.p = q1 :=
        scan_to_eq _ _ _ _ _ _ h1 (by omega) (by omega) h4 (Or.inr h3)
      have hodd : backslashes lx.mem q1 % 2 = 1 := by
        have := hfirst q1 hlt (by omega)
        unfold Unescaped at this
        have : ¬ backslashes lx.mem q1 % 2 = 0 := fun h => this ⟨h3, h⟩
        omega
      have he : escaped_quote lx.mem q1 :=
        (escaped_quote_iff lx.mem o q1 (by rw [ho]; decide) (by omega)).2 hodd
      have hs := hesc lx q1 hscan (by omega) he
      obtain ⟨k, p1, a1, a2, a3, a4⟩ := ih (q - (q1 + 1)) (by omega) { lx with p := q1 + 1 }
        (by show o < q1 + 1; omega) (by show q1 + 1 ≤ q; omega) ho hqe hun hfirst rfl
      exact ⟨1 + k, p1, a1, a2, a3, reach_trans (reach_one hs) a4⟩

theorem slice_wr_end (mem : List Nat) (s q v : Nat) (h : s ≤ q) :
    slice (wr mem q v) s (q - s) = slice mem s (q - s) := by
  unfold slice wr
  rw [List.drop_set]
  split
  · omega
  · rw [List.set_take, List.set_eq_of_length_le (by simp [List.length_take])]

theorem wr_quote_restore (mem : List Nat) (q : Nat) (h : rd mem q = 34) :
    wr (wr mem q 0) q 34 = mem := by
  have hlt : q < mem.length := by
    by_contra hge
    rw [rd_beyond mem q (by omega)] at h
    omega
  have := wr_restore_eq mem q hlt
  rwa [h] at this

/-- Labels `start_string` and `keyed_start_string` on a string with a closing
quote: the event carries the raw bytes between the quotes, and the scanner goes on
after the closing quote with the buffer restored. -/
theorem string_body_emits (vt : H → ajson_sax_cb_t σ H) (self next : Label)
    (hstep : ∀ (lx : Lexer) (cs : Consumer σ H),
      step vt self lx cs = string_body vt lx cs self next)
    (lx : Lexer) (cs : Consumer σ H) (o q : Nat) (hq : ClosingQuote lx.mem o lx.ep q)
    (hsp : lx.stringp = o + 1) (hp : lx.p = o + 1) :
    Emits vt self lx cs (.string (slice lx.mem (o + 1) (q - (o + 1)))) next
      { lx with p := q + 1, ch := rd lx.mem (q + 1) } := by
  obtain ⟨k, p1, a1, a2, a3, a4⟩ := quote_loop vt self cs
    (fun lx1 q1 hscan hlt he => by
      rw [hstep]
      unfold string_body
      simp only [hscan]
      rw [if_neg (by omega), if_pos he])
    lx o q hq (by omega) (by rw [hp]; exact hq.2.1)
  obtain ⟨ho, hoq, hqe, hun, hfirst⟩ := hq
  have hscan : scan_to lx.mem lx.ep 34 (lx.ep - p1) p1 = q :=
    scan_to_eq _ _ _ _ _ _ a2 (by omega) (by omega) a3 (Or.inr hun.1)
  have hne : ¬ escaped_quote lx.mem q := by
    rw [escaped_quote_iff lx.mem o q (by rw [ho]; decide) hoq]
    have := hun.2
    omega
  refine ⟨k, self, { lx with p := p1 }, { lx with p := q, mem := wr lx.mem q 0 }, a4, ?_⟩
  rw [hstep]
  unfold string_body finish_string
  simp only [hscan]
  rw [if_neg (by omega), if_neg hne]
  simp only [hsp, slice_wr_end _ _ _ _ (Nat.le_of_lt_succ (Nat.succ_lt_succ hoq)),
    wr_quote_restore _ _ hun.1]

end Strings

section Strings2

variable {σ H : Type}

theorem Emits_goto {vt : H → ajson_sax_cb_t σ H} {l l1 l2 : Label} {lx lx1 lx2 : Lexer}
    {cs : Consumer σ H} {ev : Event} (hs : step vt l lx cs = .goto l1 lx1 cs)
    (h : Emits vt l1 lx1 cs ev l2 lx2) : Emits vt l lx cs ev l2 lx2 := by
  obtain ⟨k, l3, lx3, lxa, hr, hstep⟩ := h
  exact ⟨1 + k, l3, lx3, lxa, reach_trans (reach_one hs) hr, hstep⟩

/-- A string value in an array or at the root. -/
theorem start_value_string (vt : H → ajson_sax_cb_t σ H) (lx : Lexer) (cs : Consumer σ H)
    (q : Nat) (hp : lx.p < lx.ep) (hq : ClosingQuote lx.mem lx.p lx.ep q) :
    Emits vt .start_value lx cs (.string (slice lx.mem (lx.p + 1) (q - (lx.p + 1))))
      .add_string
      { lx with p := q + 1, ch := rd lx.mem (q + 1), stringp := lx.p + 1,
                after_comma := false } := by
  have h1 : step vt .start_value lx cs =
      .goto .start_string { next_ch lx with after_comma := false, stringp := lx.p + 1 } cs := by
    simp [step, start_value, next_ch, hq.1, Nat.not_le.mpr hp]
  exact Emits_goto h1 (string_body_emits vt .start_string .add_string (fun _ _ => rfl)
    { next_ch lx with after_comma := false, stringp := lx.p + 1 } cs lx.p q hq rfl rfl)

/-- A string value of an object member. -/
theorem start_key_object_string (vt : H → ajson_sax_cb_t σ H) (lx : Lexer)
    (cs : Consumer σ H) (q : Nat) (hp : lx.p < lx.ep)
    (hq : ClosingQuote lx.mem lx.p lx.ep q) :
    Emits vt .start_key_object lx cs (.string (slice lx.mem (lx.p + 1) (q - (lx.p + 1))))
      .look_for_key
      { lx with p := q + 1, ch := rd lx.mem (q + 1), stringp := lx.p + 1 } := by
  have h1 : step vt .start_key_object lx cs =
      .goto .keyed_start_string { next_ch lx with stringp := lx.p + 1 } cs := by
    simp [step, start_key_object, next_ch, hq.1, Nat.not_le.mpr hp]
  exact Emits_goto h1 (string_body_emits vt .keyed_start_string .look_for_key
    (fun _ _ => rfl) { next_ch lx with stringp := lx.p + 1 } cs lx.p q hq rfl rfl)

/-- A key: after the key event the scanner skips to the byte after the next `:`. -/
theorem start_key_key (vt : H → ajson_sax_cb_t σ H) (lx : Lexer) (cs : Consumer σ H)
    (q : Nat) (hp : lx.p < lx.ep) (hq : ClosingQuote lx.mem lx.p lx.ep q) :
    Emits vt .start_key lx cs (.key (slice lx.mem (lx.p + 1) (q - (lx.p + 1))))
      .start_key_object
      { lx with p := scan_to lx.mem lx.ep 58 (lx.ep - (q + 1)) (q + 1) + 1, ch := 34,
                stringp := lx.p + 1, after_comma := false } := by
  have h1 : step vt .start_key lx cs =
      .goto .get_end_of_key
        { next_ch lx with after_comma := false, stringp := lx.p + 1 } cs := by
    simp [step, start_key, next_ch, hq.1, Nat.not_le.mpr hp]
  refine Emits_goto h1 ?_
  obtain ⟨k, p1, a1, a2, a3, a4⟩ := quote_loop vt .get_end_of_key cs
    (fun lx1 q1 hscan hlt he => by
      simp only [step, get_end_of_key, hscan]
      rw [if_pos ⟨hlt, he⟩])
    { next_ch lx with after_comma := false, stringp := lx.p + 1 } lx.p q hq
    (by show lx.p < lx.p + 1; omega) (by show lx.p + 1 ≤ q; exact hq.2.1)
  obtain ⟨ho, hoq, hqe, hun, hfirst⟩ := hq
  have hscan : scan_to lx.mem lx.ep 34 (lx.ep - p1) p1 = q :=
    scan_to_eq _ _ _ _ _ _ a2 (by omega) (by omega) a3 (Or.inr hun.1)
  have hne : ¬ escaped_quote lx.mem q := by
    rw [escaped_quote_iff lx.mem lx.p q (by rw [ho]; decide) hoq]
    have := hun.2
    omega
  refine ⟨k, .get_end_of_key, _,
    { lx with mem := wr lx.mem q 0, p := q, ch := 34, stringp := lx.p + 1,
              after_comma := false }, a4, ?_⟩
  have hsl := slice_wr_end lx.mem (lx.p + 1) q 0 hoq
  simp only [step, get_end_of_key, next_ch, hscan, hne, and_false, if_false, hqe, if_true,
    finish_key, hsl, wr_quote_restore _ _ hun.1, ho]

end Strings2

/-! ## The scan of a number, in any context -/

theorem At_cons {mem : List Nat} {s c : Nat} {R : List Nat} (h : At mem s (c :: R)) :
    rd mem s = c ∧ At mem (s + 1) R := by
  refine ⟨by simpa [rd] using h 0 (by simp), fun k hk => ?_⟩
  have := h (k + 1) (by simpa using hk)
  simpa [rd, Nat.add_assoc, Nat.add_comm 1 k] using this

theorem rd_append_left (A B : List Nat) (k : Nat) (h : k < A.length) :
    rd (A ++ B) k = rd A k := by
  simp [rd, List.getD_eq_getElem?_getD, List.getElem?_append_left h]

theorem rd_append_right (A B : List Nat) (k : Nat) : rd (A ++ B) (A.length + k) = rd B k := by
  simp [rd, List.getD_eq_getElem?_getD, List.getElem?_append_right]

theorem At_append {mem : List Nat} {s : Nat} {A B : List Nat} (h : At mem s (A ++ B)) :
    At mem s A ∧ At mem (s + A.length) B := by
  refine ⟨fun k hk => ?_, fun k hk => ?_⟩
  · rw [h k (by simp; omega), rd_append_left A B k hk]
  · rw [Nat.add_assoc, h (A.length + k) (by simp; omega), rd_append_right]

theorem At_head {mem : List Nat} {s : Nat} {R : List Nat} (h : At mem s R) (hne : R ≠ []) :
    rd mem s = rd R 0 := by
  simpa using h 0 (List.length_pos.2 hne)

theorem digit_loop_run (mem : List Nat) (ds : List Nat) (b q c fuel : Nat)
    (hat : At mem q (ds ++ [b])) (hds : ∀ x ∈ ds, isDigit x) (hb : ¬ isDigit b)
    (hc : isDigit c) (hf : ds.length + 2 ≤ fuel) :
    digit_loop mem fuel c q = (b, q + ds.length + 1) := by
  induction ds generalizing q c fuel with
  | nil =>
    obtain ⟨f, rfl⟩ : ∃ f, fuel = f + 2 := ⟨fuel - 2, by simp at hf; omega⟩
    have h0 : rd mem q = b := (At_cons hat).1
    simp only [digit_loop, if_pos hc, h0, if_neg hb]
    rfl
  | cons d ds ih =>
    obtain ⟨f, rfl⟩ : ∃ f, fuel = f + 1 := ⟨fuel - 1, by omega⟩
    obtain ⟨h0, hat1⟩ := At_cons hat
    unfold digit_loop
    rw [if_pos hc, h0, ih (q + 1) d f hat1 (fun x hx => hds x (List.mem_cons_of_mem _ hx))
      (hds d (List.mem_cons_self _ _)) (by simp at hf ⊢; omega)]
    simp
    omega

theorem isDigit_ne_zero {c : Nat} (h : isDigit c) : c ≠ 0 := by
  unfold isDigit at h
  omega

/-- The digit loop over a run of digits `ds` that stands under the cursor and is
followed by the byte `b`. -/
theorem digits_run (lx : Lexer) (a p c : Nat) (ds : List Nat) (b : Nat)
    (hat : At lx.mem p (ds ++ [b])) (hds : ∀ x ∈ ds, isDigit x) (hb : ¬ isDigit b)
    (hc : isDigit c) (hp : p ≤ lx.mem.length) :
    digits (tokLx lx a p c) = tokLx lx a (p + ds.length + 1) b := by
  have hfuel : ds.length + 2 ≤ lx.mem.length + 2 - p := by
    cases hds' : ds with
    | nil => simp; omega
    | cons d r =>
      have hlast : p + (ds.length - 1) < lx.mem.length := by
        apply rd_ne_zero
        rw [(At_append hat).1 (ds.length - 1) (by rw [hds']; simp)]
        exact isDigit_ne_zero (hds _ (rd_mem_of_lt _ _ (by rw [hds']; simp)))
      rw [hds'] at hlast
      simp at hlast ⊢
      omega
  have := digit_loop_run lx.mem ds b p c (lx.mem.length + 2 - p) hat hds hb hc hfuel
  unfold digits tokLx
  simp only [this]

/-- The statement `ch = *p++` and the digit loop over a run of digits `ds`,
possibly empty, followed by the byte `b`. -/
theorem next_digits_run (lx : Lexer) (a p c : Nat) (ds : List Nat) (b : Nat)
    (hat : At lx.mem p (ds ++ [b])) (hds : ∀ x ∈ ds, isDigit x) (hb : ¬ isDigit b) :
    digits (next_ch (tokLx lx a p c)) = tokLx lx a (p + ds.length + 1) b := by
  cases ds with
  | nil =>
    have h0 : rd lx.mem p = b := (At_cons hat).1
    have e : next_ch (tokLx lx a p c) = tokLx lx a (p + 1) b := by
      simp [next_ch, tokLx, h0]
    rw [e, digits_nondigit _ hb]
    rfl
  | cons d r =>
    obtain ⟨h0, hat1⟩ := At_cons hat
    have hd := hds d (List.mem_cons_self _ _)
    have e : next_ch (tokLx lx a p c) = tokLx lx a (p + 1) d := by
      simp [next_ch, tokLx, h0]
    have hlt : p < lx.mem.length := rd_ne_zero (by rw [h0]; exact isDigit_ne_zero hd)
    rw [e, digits_run lx a (p + 1) d r b hat1 (fun x hx => hds x (List.mem_cons_of_mem _ hx)) hb
      hd (by omega)]
    simp
    congr 1
    omega

theorem wr_restore (mem : List Nat) (q : Nat) : wr (wr mem q 0) q (rd mem q) = mem := by
  by_cases h : q < mem.length
  · exact wr_restore_eq mem q h
  · unfold wr
    rw [List.set_eq_of_length_le (by simp; omega), List.set_eq_of_length_le (by omega)]

theorem slice_of_At (mem : List Nat) (a : Nat) (t : List Nat) (hat : At mem a t)
    (hnz : ∀ c ∈ t, c ≠ 0) : slice mem a t.length = t := by
  unfold slice
  apply ext_rd
  · rw [List.length_take, List.length_drop]
    cases ht : t with
    | nil => simp
    | cons c r =>
      have hlast : a + (t.length - 1) < mem.length := by
        apply rd_ne_zero
        rw [hat (t.length - 1) (by rw [ht]; simp)]
        exact hnz _ (rd_mem_of_lt _ _ (by rw [ht]; simp))
      rw [ht] at hlast
      simp at hlast ⊢
      omega
  · intro k hk
    have hk2 : k < t.length := by
      rw [List.length_take] at hk
      omega
    rw [← hat k hk2]
    simp [rd, List.getD_eq_getElem?_getD, List.getElem?_take, hk2]

section Numbers

variable {σ H : Type}

/-- The tail of a number scan on the token `t` that starts at offset `a` and is
followed by the byte `d`. -/
theorem finish_number_tok (vt : H → ajson_sax_cb_t σ H) (lx : Lexer) (cs : Consumer σ H)
    (next : Label) (a : Nat) (t : List Nat) (d : Nat) (hat : At lx.mem a (t ++ [d]))
    (hnz : ∀ c ∈ t, c ≠ 0) :
    finish_number vt (tokLx lx a (a + t.length + 1) d) cs next =
      CHECK_CB vt { tokLx lx a (a + t.length) d with mem := wr lx.mem (a + t.length) 0 } cs
        (.number t) (fun cs1 => .goto next (tokLx lx a (a + t.length) d) cs1) := by
  have hd : rd lx.mem (a + t.length) = d := by
    have := (At_append hat).2 0 (by simp)
    simpa [rd] using this
  have hsl : slice (wr lx.mem (a + t.length) 0) a (a + t.length - a) = t := by
    rw [slice_wr_end _ _ _ _ (by omega)]
    simpa using slice_of_At lx.mem a t (At_append hat).1 hnz
  have hres := wr_restore lx.mem (a + t.length)
  rw [hd] at hres
  unfold finish_number tokLx
  simp only [Nat.add_sub_cancel, hsl, hres]

end Numbers

section Numbers2

variable {σ H : Type}

theorem Emits_now {vt : H → ajson_sax_cb_t σ H} {l l1 : Label} {lx lxa lx1 : Lexer}
    {cs : Consumer σ H} {ev : Event}
    (hs : step vt l lx cs = CHECK_CB vt lxa cs ev (fun cs1 => .goto l1 lx1 cs1)) :
    Emits vt l lx cs ev l1 lx1 :=
  ⟨0, l, lx, lxa, rfl, hs⟩

/-- The optional exponent `x` of a number, followed by the byte `d`. -/
theorem exponent_part_tok (lx : Lexer) (cs : Consumer σ H) (k : Lexer → Step σ H)
    (a e0 : Nat) (x : List Nat) (d : Nat) (hat : At lx.mem e0 (x ++ [d])) (hx : IsExpPart x)
    (hd : ¬ isDigit d) (hx0 : x = [] → d ≠ 101 ∧ d ≠ 69) :
    exponent_part (tokLx lx a (e0 + 1) (rd (x ++ [d]) 0)) cs k =
      k (tokLx lx a (e0 + x.length + 1) d) := by
  rcases hx with rfl | ⟨e, sg, ds, rfl, he, hsg, hne, hds⟩
  · obtain ⟨h1, h2⟩ := hx0 rfl
    unfold exponent_part
    rw [if_neg (by simp [tokLx, rd, h1, h2])]
    rfl
  · obtain ⟨h0, hat1⟩ := At_cons hat
    obtain ⟨d0, ds1, rfl⟩ : ∃ d0 ds1, ds = d0 :: ds1 := by
      cases ds with
      | nil => exact absurd rfl hne
      | cons d0 ds1 => exact ⟨d0, ds1, rfl⟩
    have hd0 : isDigit d0 := hds d0 (List.mem_cons_self _ _)
    have hd0' := hd0
    unfold isDigit at hd0'
    unfold exponent_part
    rw [if_pos (by simpa [tokLx, rd] using he)]
    have hn1 : next_ch (tokLx lx a (e0 + 1) (rd (e :: (sg ++ d0 :: ds1) ++ [d]) 0)) =
        tokLx lx a (e0 + 2) (rd (sg ++ d0 :: ds1 ++ [d]) 0) := by
      have := At_head hat1 (by simp)
      simp only [List.append_assoc] at this
      simp [next_ch, tokLx, this]
    dsimp only
    rw [hn1]
    rcases hsg with rfl | rfl | rfl
    · -- no sign
      have hch : (tokLx lx a (e0 + 2) (rd ([] ++ d0 :: ds1 ++ [d]) 0)).ch = d0 := rfl
      have hns : ¬ ((tokLx lx a (e0 + 2) (rd ([] ++ d0 :: ds1 ++ [d]) 0)).ch = 43 ∨
          (tokLx lx a (e0 + 2) (rd ([] ++ d0 :: ds1 ++ [d]) 0)).ch = 45) := by
        rw [hch]; omega
      have hdg : ¬ ((tokLx lx a (e0 + 2) (rd ([] ++ d0 :: ds1 ++ [d]) 0)).ch < 48 ∨
          (tokLx lx a (e0 + 2) (rd ([] ++ d0 :: ds1 ++ [d]) 0)).ch > 57) := by
        rw [hch]; omega
      rw [if_neg hns, if_neg hdg]
      have := next_digits_run lx a (e0 + 1) (rd (e :: ([] ++ d0 :: ds1) ++ [d]) 0)
        (d0 :: ds1) d (by simpa using hat1) hds hd
      rw [hn1] at this
      rw [this]
      have e1 : e0 + 1 + (d0 :: ds1).length + 1 = e0 + (e :: ([] ++ d0 :: ds1)).length + 1 := by
        simp; omega
      rw [e1]
    · -- a plus sign
      obtain ⟨hs0, hat2⟩ := At_cons (show At lx.mem (e0 + 1) (43 :: (d0 :: ds1 ++ [d])) by
        simpa using hat1)
      have hch : (tokLx lx a (e0 + 2) (rd ([43] ++ d0 :: ds1 ++ [d]) 0)).ch = 43 := rfl
      have hys : (tokLx lx a (e0 + 2) (rd ([43] ++ d0 :: ds1 ++ [d]) 0)).ch = 43 ∨
          (tokLx lx a (e0 + 2) (rd ([43] ++ d0 :: ds1 ++ [d]) 0)).ch = 45 := Or.inl hch
      rw [if_pos hys]
      have hn2 : next_ch (tokLx lx a (e0 + 2) (rd ([43] ++ d0 :: ds1 ++ [d]) 0)) =
          tokLx lx a (e0 + 3) d0 := by
        have := (At_cons hat2).1
        simp [next_ch, tokLx, this]
      have hdg : ¬ ((tokLx lx a (e0 + 3) d0).ch < 48 ∨ (tokLx lx a (e0 + 3) d0).ch > 57) := by
        show ¬ (d0 < 48 ∨ d0 > 57)
        omega
      rw [hn2, if_neg hdg]
      have := next_digits_run lx a (e0 + 2) (rd ([43] ++ d0 :: ds1 ++ [d]) 0)
        (d0 :: ds1) d hat2 hds hd
      rw [hn2] at this
      rw [this]
      have e1 : e0 + 2 + (d0 :: ds1).length + 1 = e0 + (e :: ([43] ++ d0 :: ds1)).length + 1 := by
        simp; omega
      rw [e1]
    · -- a minus sign
      obtain ⟨hs0, hat2⟩ := At_cons (show At lx.mem (e0 + 1) (45 :: (d0 :: ds1 ++ [d])) by
        simpa using hat1)
      have hch : (tokLx lx a (e0 + 2) (rd ([45] ++ d0 :: ds1 ++ [d]) 0)).ch = 45 := rfl
      have hys : (tokLx lx a (e0 + 2) (rd ([45] ++ d0 :: ds1 ++ [d]) 0)).ch = 43 ∨
          (tokLx lx a (e0 + 2) (rd ([45] ++ d0 :: ds1 ++ [d]) 0)).ch = 45 := Or.inr hch
      rw [if_pos hys]
      have hn2 : next_ch (tokLx lx a (e0 + 2) (rd ([45] ++ d0 :: ds1 ++ [d]) 0)) =
          tokLx lx a (e0 + 3) d0 := by
        have := (At_cons hat2).1
        simp [next_ch, tokLx, this]
      have hdg : ¬ ((tokLx lx a (e0 + 3) d0).ch < 48 ∨ (tokLx lx a (e0 + 3) d0).ch > 57) := by
        show ¬ (d0 < 48 ∨ d0 > 57)
        omega
      rw [hn2, if_neg hdg]
      have := next_digits_run lx a (e0 + 2) (rd ([45] ++ d0 :: ds1 ++ [d]) 0)
        (d0 :: ds1) d hat2 hds hd
      rw [hn2] at this
      rw [this]
      have e1 : e0 + 2 + (d0 :: ds1).length + 1 = e0 + (e :: ([45] ++ d0 :: ds1)).length + 1 := by
        simp; omega
      rw [e1]

theorem IsExpPart_head_nodigit (x : List Nat) (d : Nat) (hx : IsExpPart x) (hd : ¬ isDigit d) :
    ¬ isDigit (rd (x ++ [d]) 0) := by
  rcases hx with rfl | ⟨e, sg, ds, rfl, he, _⟩
  · simpa [rd] using hd
  · rcases he with rfl | rfl <;> simp [rd, isDigit]

/-- The exponent and the tail of the scan: the code shared by the number labels
once the digits before the exponent have been read. -/
theorem exponent_finish_tok (vt : H → ajson_sax_cb_t σ H) (lx : Lexer) (cs : Consumer σ H)
    (a e0 : Nat) (t x : List Nat) (d : Nat) (hat : At lx.mem a (t ++ [d]))
    (hnz : ∀ c ∈ t, c ≠ 0) (hx : At lx.mem e0 (x ++ [d])) (hlen : e0 + x.length = a + t.length)
    (hxs : IsExpPart x) (hd : ¬ isDigit d) (hx0 : x = [] → d ≠ 101 ∧ d ≠ 69) :
    exponent_part (tokLx lx a (e0 + 1) (rd (x ++ [d]) 0)) cs
        (fun lx1 => finish_number vt lx1 cs .add_string) =
      CHECK_CB vt { tokLx lx a (a + t.length) d with mem := wr lx.mem (a + t.length) 0 } cs
        (.number t) (fun cs1 => .goto .add_string (tokLx lx a (a + t.length) d) cs1) := by
  rw [exponent_part_tok lx cs _ a e0 x d hx hxs hd hx0, hlen]
  exact finish_number_tok vt lx cs .add_string a t d hat hnz

/-- Label `decimal_number` with the cursor on the digits `fs` of the fraction. -/
theorem decimal_number_emits (vt : H → ajson_sax_cb_t σ H) (lx : Lexer) (cs : Consumer σ H)
    (a s1 c : Nat) (t fs x : List Nat) (d : Nat) (hat : At lx.mem a (t ++ [d]))
    (hnz : ∀ c ∈ t, c ≠ 0) (hs : At lx.mem s1 (fs ++ (x ++ [d])))
    (hlen : s1 + fs.length + x.length = a + t.length) (hne : fs ≠ [])
    (hfs : ∀ c ∈ fs, isDigit c) (hxs : IsExpPart x) (hd : ¬ isDigit d)
    (hx0 : x = [] → d ≠ 101 ∧ d ≠ 69) :
    Emits vt .decimal_number (tokLx lx a s1 c) cs (.number t) .add_string
      (tokLx lx a (a + t.length) d) := by
  apply Emits_now
  show decimal_number_body vt (tokLx lx a s1 c) cs .add_string = _
  obtain ⟨hs1, hs2⟩ := At_append hs
  obtain ⟨f0, fs1, rfl⟩ : ∃ f0 fs1, fs = f0 :: fs1 := by
    cases fs with
    | nil => exact absurd rfl hne
    | cons f0 fs1 => exact ⟨f0, fs1, rfl⟩
  have hf0 := hfs f0 (List.mem_cons_self _ _)
  unfold isDigit at hf0
  have hn : next_ch (tokLx lx a s1 c) = tokLx lx a (s1 + 1) f0 := by
    simp [next_ch, tokLx, (At_cons hs1).1]
  have hrun := next_digits_run lx a s1 c (f0 :: fs1) (rd (x ++ [d]) 0)
    (by
      intro k hk
      rw [hs k (by simp at hk ⊢; omega)]
      by_cases hk2 : k < (f0 :: fs1).length
      · rw [rd_append_left _ _ k hk2, rd_append_left _ _ k hk2]
      · have : k = (f0 :: fs1).length := by simp at hk hk2 ⊢; omega
        subst this
        rw [← Nat.add_zero (f0 :: fs1).length, rd_append_right, rd_append_right]
        rfl)
    hfs (IsExpPart_head_nodigit x d hxs hd)
  unfold decimal_number_body
  dsimp only
  rw [hn] at hrun ⊢
  have hch : (tokLx lx a (s1 + 1) f0).ch = f0 := rfl
  rw [if_neg (by rw [hch]; omega), hrun]
  exact exponent_finish_tok vt lx cs a (s1 + (f0 :: fs1).length) t x d hat hnz hs2
    (by rw [← hlen]) hxs hd hx0

end Numbers2

section Numbers3

variable {σ H : Type}

theorem frac_exp_head (f x : List Nat) (d : Nat) (hf : IsFracPart f) (hx : IsExpPart x)
    (hd : ¬ isDigit d) : ¬ isDigit (rd (f ++ (x ++ [d])) 0) := by
  rcases hf with rfl | ⟨fs, rfl, _, _⟩
  · exact IsExpPart_head_nodigit x d hx hd
  · simp [rd, isDigit]

theorem exp_head_ne_point (x : List Nat) (d : Nat) (hx : IsExpPart x) (hd : x = [] → d ≠ 46) :
    rd (x ++ [d]) 0 ≠ 46 := by
  rcases hx with rfl | ⟨e, sg, ds, rfl, he, _⟩
  · simpa [rd] using hd rfl
  · rcases he with rfl | rfl <;> simp [rd]

theorem At_run {mem : List Nat} {s : Nat} {A B : List Nat} (h : At mem s (A ++ B))
    (hB : B ≠ []) : At mem s (A ++ [rd B 0]) := by
  intro k hk
  rw [h k (by
    have := List.length_pos.2 hB
    simp at hk ⊢; omega)]
  by_cases hk2 : k < A.length
  · rw [rd_append_left _ _ k hk2, rd_append_left _ _ k hk2]
  · have : k = A.length := by simp at hk; omega
    subst this
    rw [← Nat.add_zero A.length, rd_append_right, rd_append_right]
    rfl

/-- Label `next_digit` with the cursor on the rest `ds` of the integer digits,
followed by the fraction `f`, the exponent `x` and the byte `d`. -/
theorem next_digit_emits (vt : H → ajson_sax_cb_t σ H) (lx : Lexer) (cs : Consumer σ H)
    (a s c : Nat) (t ds f x : List Nat) (d : Nat) (hat : At lx.mem a (t ++ [d]))
    (hnz : ∀ c ∈ t, c ≠ 0) (hs : At lx.mem s (ds ++ (f ++ (x ++ [d]))))
    (hlen : s + ds.length + f.length + x.length = a + t.length)
    (hds : ∀ c ∈ ds, isDigit c) (hf : IsFracPart f) (hxs : IsExpPart x) (hd : ¬ isDigit d)
    (hx0 : x = [] → d ≠ 101 ∧ d ≠ 69) (hf0 : x = [] → f = [] → d ≠ 46) :
    Emits vt .next_digit (tokLx lx a s c) cs (.number t) .add_string
      (tokLx lx a (a + t.length) d) := by
  have hrun := next_digits_run lx a s c ds (rd (f ++ (x ++ [d])) 0) (At_run hs (by simp))
    hds (frac_exp_head f x d hf hxs hd)
  obtain ⟨_, hs2⟩ := At_append hs
  rcases hf with rfl | ⟨fs, rfl, hne, hfs⟩
  · apply Emits_now
    show next_digit_body vt (tokLx lx a s c) cs .decimal_number .add_string = _
    unfold next_digit_body
    dsimp only
    rw [hrun]
    have hch : (tokLx lx a (s + ds.length + 1) (rd ([] ++ (x ++ [d])) 0)).ch ≠ 46 :=
      exp_head_ne_point x d hxs (fun h => hf0 h rfl)
    rw [if_neg hch]
    exact exponent_finish_tok vt lx cs a (s + ds.length) t x d hat hnz hs2
      (by simpa using hlen) hxs hd hx0
  · have h1 : step vt .next_digit (tokLx lx a s c) cs =
        .goto .decimal_number (tokLx lx a (s + ds.length + 1) 46) cs := by
      show next_digit_body vt (tokLx lx a s c) cs .decimal_number .add_string = _
      unfold next_digit_body
      dsimp only
      rw [hrun]
      have hch : (tokLx lx a (s + ds.length + 1) (rd (46 :: fs ++ (x ++ [d])) 0)).ch = 46 := rfl
      rw [if_pos hch]
      rfl
    refine Emits_goto h1 ?_
    exact decimal_number_emits vt lx cs a (s + ds.length + 1) 46 t fs x d hat hnz
      (At_cons hs2).2 (by simp at hlen; omega) hne hfs hxs hd hx0

theorem shape_ne_zero (m i f x : List Nat) (hm : m = [] ∨ m = [45]) (hi : IsIntPart i)
    (hf : IsFracPart f) (hx : IsExpPart x) : ∀ c ∈ m ++ i ++ f ++ x, c ≠ 0 := by
  intro c hc
  simp only [List.mem_append] at hc
  have hdig : ∀ {l : List Nat}, (∀ y ∈ l, isDigit y) → c ∈ l → c ≠ 0 := fun h hc =>
    isDigit_ne_zero (h c hc)
  rcases hc with ((hc | hc) | hc) | hc
  · rcases hm with rfl | rfl
    · cases hc
    · simp at hc; omega
  · rcases hi with rfl | ⟨d1, ds, rfl, h1, hds⟩
    · simp at hc; omega
    · rcases List.mem_cons.1 hc with rfl | hc
      · omega
      · exact hdig hds hc
  · rcases hf with rfl | ⟨fs, rfl, _, hfs⟩
    · cases hc
    · rcases List.mem_cons.1 hc with rfl | hc
      · omega
      · exact hdig hfs hc
  · rcases hx with rfl | ⟨e, sg, ds, rfl, he, hsg, _, hds⟩
    · cases hc
    · rcases List.mem_cons.1 hc with rfl | hc
      · omega
      · rcases List.mem_append.1 hc with hc | hc
        · rcases hsg with rfl | rfl | rfl
          · cases hc
          · simp at hc; omega
          · simp at hc; omega
        · exact hdig hds hc

end Numbers3

section Numbers4

variable {σ H : Type}

/-- A number in an array or at the root: the text `m ++ i ++ f ++ x` of the number
shape stands under the cursor, inside the buffer, followed by a byte `d` that does
not continue it.  The scanner runs the `on_number` callback, and no other, with
the slice of the number itself, and goes on at the byte `d` with the buffer
restored. -/
theorem number_emits (vt : H → ajson_sax_cb_t σ H) (lx : Lexer) (cs : Consumer σ H)
    (m i f x : List Nat) (d : Nat) (hat : At lx.mem lx.p ((m ++ i ++ f ++ x) ++ [d]))
    (hin : lx.p + (m ++ i ++ f ++ x).length ≤ lx.ep) (hm : m = [] ∨ m = [45])
    (hi : IsIntPart i) (hf : IsFracPart f) (hx : IsExpPart x) (hd : ¬ isDigit d)
    (hx0 : x = [] → d ≠ 101 ∧ d ≠ 69) (hf0 : x = [] → f = [] → d ≠ 46) :
    Emits vt .start_value lx cs (.number (m ++ i ++ f ++ x)) .add_string
      (tokLx lx lx.p (lx.p + (m ++ i ++ f ++ x).length) d) := by
  have hnz := shape_ne_zero m i f x hm hi hf hx
  have hat' : At lx.mem lx.p (m ++ (i ++ (f ++ (x ++ [d])))) := by simpa using hat
  have hipos : 0 < i.length := by
    rcases hi with rfl | ⟨d1, ds, rfl, _⟩ <;> simp
  have hlt : ¬ lx.p ≥ lx.ep := by
    simp at hin
    omega
  have hfx : f ≠ [] ∨ x ≠ [] → 2 ≤ f.length + x.length := by
    rintro (h | h)
    · rcases hf with rfl | ⟨fs, rfl, hne, _⟩
      · exact absurd rfl h
      · have := List.length_pos.2 hne
        simp; omega
    · rcases hx with rfl | ⟨e, sg, ds, rfl, _, _, hne, _⟩
      · exact absurd rfl h
      · have := List.length_pos.2 hne
        simp; omega
  rcases hm with rfl | rfl
  · -- no minus sign
    have hat1 : At lx.mem lx.p (i ++ (f ++ (x ++ [d]))) := by simpa using hat'
    rcases hi with rfl | ⟨d1, ds, rfl, hd1, hds⟩
    · -- the integer part is 0
      obtain ⟨h48, hat2⟩ := At_cons (show At lx.mem lx.p (48 :: (f ++ (x ++ [d]))) from hat1)
      have hla : rd lx.mem (lx.p + 1) = rd (f ++ (x ++ [d])) 0 := At_head hat2 (by simp)
      have hstep : step vt .start_value lx cs =
          zero_case vt (tokLx lx lx.p (lx.p + 1) 48) cs .decimal_number .next_digit
            .add_string := by
        simp [step, start_value, next_ch, h48, hlt, isSpace, tokLx]
      rcases hf with rfl | ⟨fs, rfl, hne, hfs⟩
      · rcases hx with rfl | ⟨e, sg, ds, rfl, he, hsg, hne, hds⟩
        · -- the number is 0
          obtain ⟨h1, h2⟩ := hx0 rfl
          have h3 := hf0 rfl rfl
          have hla' : rd lx.mem (lx.p + 1) = d := by simpa [rd] using hla
          apply Emits_now
          rw [hstep]
          unfold zero_case
          simp only [tokLx, hla', h1, h2, h3, hd, and_false, or_self, if_false]
          rfl
        · -- 0 and an exponent
          have hg : lx.p + 1 < lx.ep := by
            have := hfx (Or.inr (by simp))
            simp at hin this
            omega
          have hla' : rd lx.mem (lx.p + 1) = e := by simpa [rd] using hla
          have he46 : e ≠ 46 := by rcases he with rfl | rfl <;> decide
          have h1 : step vt .start_value lx cs =
              .goto .next_digit (tokLx lx lx.p (lx.p + 1) 48) cs := by
            rw [hstep]
            unfold zero_case
            simp only [tokLx, hla', he46, and_false, if_false, hg, he, and_self, if_true]
          refine Emits_goto h1 ?_
          exact next_digit_emits vt lx cs lx.p (lx.p + 1) 48 _ [] [] _ d hat hnz
            (by simpa using hat2) (by simp; omega) (fun c hc => by cases hc) (Or.inl rfl)
            (Or.inr ⟨e, sg, ds, rfl, he, hsg, hne, hds⟩) hd hx0 hf0
      · -- 0 and a fraction
        have hg : lx.p + 1 < lx.ep := by
          have := hfx (Or.inl (by simp))
          simp at hin this
          omega
        have hla' : rd lx.mem (lx.p + 1) = 46 := by simpa [rd] using hla
        have h1 : step vt .start_value lx cs =
            .goto .decimal_number (tokLx lx lx.p (lx.p + 2) 48) cs := by
          rw [hstep]
          unfold zero_case
          simp only [tokLx, hla', hg, and_self, if_true]
        refine Emits_goto h1 ?_
        exact decimal_number_emits vt lx cs lx.p (lx.p + 2) 48 _ fs x d hat hnz
          (by
            have := (At_cons (show At lx.mem (lx.p + 1) (46 :: (fs ++ (x ++ [d]))) by
              simpa using hat2)).2
            simpa using this)
          (by simp; omega) hne hfs hx hd hx0
    · -- the integer part starts with 1 to 9
      obtain ⟨hc, hat2⟩ := At_cons (show At lx.mem lx.p (d1 :: (ds ++ (f ++ (x ++ [d])))) by
        simpa using hat1)
      have h34 : d1 ≠ 34 := by omega
      have h123 : d1 ≠ 123 := by omega
      have h91 : d1 ≠ 91 := by omega
      have h93 : d1 ≠ 93 := by omega
      have h45 : d1 ≠ 45 := by omega
      have h48 : d1 ≠ 48 := by omega
      have hsp : ¬ isSpace d1 := by unfold isSpace; omega
      have h1 : step vt .start_value lx cs =
          .goto .next_digit (tokLx lx lx.p (lx.p + 1) d1) cs := by
        simp [step, start_value, next_ch, hc, hlt, hsp, h34, h123, h91, h93, h45, h48, hd1,
          tokLx]
      refine Emits_goto h1 ?_
      exact next_digit_emits vt lx cs lx.p (lx.p + 1) d1 _ ds f x d hat hnz hat2
        (by simp; omega) hds hf hx hd hx0 hf0
  · -- a minus sign
    obtain ⟨h45, hat1⟩ := At_cons (show At lx.mem lx.p (45 :: (i ++ (f ++ (x ++ [d])))) by
      simpa using hat')
    rcases hi with rfl | ⟨d1, ds, rfl, hd1, hds⟩
    · obtain ⟨h48, hat2⟩ := At_cons (show At lx.mem (lx.p + 1) (48 :: (f ++ (x ++ [d]))) from
        hat1)
      have hla : rd lx.mem (lx.p + 2) = rd (f ++ (x ++ [d])) 0 := At_head hat2 (by simp)
      have hstep : step vt .start_value lx cs =
          start_value_minus vt (tokLx lx lx.p (lx.p + 2) 48) cs := by
        simp [step, start_value, next_ch, h45, h48, hlt, isSpace, tokLx]
      rcases hf with rfl | ⟨fs, rfl, hne, hfs⟩
      · rcases hx with rfl | ⟨e, sg, ds, rfl, he, hsg, hne, hds⟩
        · obtain ⟨h1, h2⟩ := hx0 rfl
          have h3 := hf0 rfl rfl
          have hla' : rd lx.mem (lx.p + 2) = d := by simpa [rd] using hla
          apply Emits_now
          rw [hstep]
          unfold start_value_minus
          simp only [tokLx, hla', h1, h2, h3, hd, or_self, if_false, if_true]
          rfl
        · have hla' : rd lx.mem (lx.p + 2) = e := by simpa [rd] using hla
          have he46 : e ≠ 46 := by rcases he with rfl | rfl <;> decide
          have h1 : step vt .start_value lx cs =
              .goto .next_digit (tokLx lx lx.p (lx.p + 2) 48) cs := by
            rw [hstep]
            unfold start_value_minus
            simp only [tokLx, hla', he46, if_false, he, if_true]
          refine Emits_goto h1 ?_
          exact next_digit_emits vt lx cs lx.p (lx.p + 2) 48 _ [] [] _ d hat hnz
            (by simpa using hat2) (by simp; omega) (fun c hc => by cases hc) (Or.inl rfl)
            (Or.inr ⟨e, sg, ds, rfl, he, hsg, hne, hds⟩) hd hx0 hf0
      · have hla' : rd lx.mem (lx.p + 2) = 46 := by simpa [rd] using hla
        have h1 : step vt .start_value lx cs =
            .goto .decimal_number (tokLx lx lx.p (lx.p + 3) 48) cs := by
          rw [hstep]
          unfold start_value_minus
          simp only [tokLx, hla', if_true]
        refine Emits_goto h1 ?_
        exact decimal_number_emits vt lx cs lx.p (lx.p + 3) 48 _ fs x d hat hnz
          (by
            have := (At_cons (show At lx.mem (lx.p + 2) (46 :: (fs ++ (x ++ [d]))) by
              simpa using hat2)).2
            simpa using this)
          (by simp; omega) hne hfs hx hd hx0
    · obtain ⟨hc, hat2⟩ := At_cons
        (show At lx.mem (lx.p + 1) (d1 :: (ds ++ (f ++ (x ++ [d])))) by simpa using hat1)
      have h48 : d1 ≠ 48 := by omega
      have h1 : step vt .start_value lx cs =
          .goto .next_digit (tokLx lx lx.p (lx.p + 2) d1) cs := by
        simp [step, start_value, next_ch, h45, hc, hlt, isSpace, start_value_minus, h48, hd1,
          tokLx]
      refine Emits_goto h1 ?_
      exact next_digit_emits vt lx cs lx.p (lx.p + 2) d1 _ ds f x d hat hnz hat2
        (by simp; omega) hds hf hx hd hx0 hf0

end Numbers4

/-! ## Bytes that cannot continue a number -/

section Numbers5

variable {σ H : Type}

end Numbers5

/-! ## Scalars at the root -/

section Root

variable {σ H : Type}

/-- After a value at the root: whitespace up to the end of the buffer, where a NUL
stands, is accepted. -/
theorem root_trailing (vt : H → ajson_sax_cb_t σ H) (ws : List Nat) (lx : Lexer)
    (cs : Consumer σ H) (hstack : lx.stack = []) (hat : At lx.mem lx.p (ws ++ [0]))
    (hws : ∀ c ∈ ws, isSpace c) (hch : lx.ch = rd lx.mem lx.p)
    (hep : lx.p + ws.length = lx.ep) :
    Ends vt .look_for_next_object lx cs (fun r => r.rc = 0 ∧ r.cs = cs) := by
  induction ws generalizing lx with
  | nil =>
    have h0 : lx.ch = 0 := by rw [hch]; exact (At_cons hat).1
    have hs : step vt .look_for_next_object lx cs = .ret 0 lx cs := by
      simp [step, look_for_next_object, h0, isSpace, stack_depth, hstack]
    exact Ends_ret hs ⟨rfl, rfl⟩
  | cons c r ih =>
    obtain ⟨hc, hat1⟩ := At_cons (show At lx.mem lx.p (c :: (r ++ [0])) from hat)
    have hc' : lx.ch = c := by rw [hch, hc]
    have hsp : isSpace lx.ch := by rw [hc']; exact hws c (List.mem_cons_self _ _)
    have h44 : lx.ch ≠ 44 := by unfold isSpace at hsp; omega
    have h93 : lx.ch ≠ 93 := by unfold isSpace at hsp; omega
    by_cases hend : lx.p + 1 ≥ lx.ep
    · have hs : step vt .look_for_next_object lx cs = .ret 0 { lx with p := lx.p + 1 } cs := by
        simp [step, look_for_next_object, h44, h93, hsp, hend, stack_depth, hstack]
      exact Ends_ret hs ⟨rfl, rfl⟩
    · have hs : step vt .look_for_next_object lx cs =
          .goto .look_for_next_object { lx with p := lx.p + 1, ch := rd lx.mem (lx.p + 1) }
            cs := by
        simp [step, look_for_next_object, h44, h93, hsp, hend]
      refine Ends_goto hs (ih _ hstack hat1 (fun x hx => hws x (List.mem_cons_of_mem _ hx))
        rfl ?_)
      show lx.p + 1 + r.length = lx.ep
      simp at hep
      omega

theorem reach_of_Emits_quiet {l l1 : Label} {lx lx1 : Lexer} {cs : Consumer Unit Unit}
    {ev : Event} (h : Emits vt_quiet l lx cs ev l1 lx1) :
    ∃ k, reach vt_quiet k l lx cs = some (l1, lx1, after_cb cs ev () cs.sax 0) := by
  obtain ⟨k, l2, lx2, lxa, hr, hs⟩ := h
  rw [CHECK_CB_quiet] at hs
  exact ⟨k + 1, reach_trans hr (reach_one hs)⟩

/-- A value event at the root followed by whitespace only: the parse returns 0
and the event is the only one. -/
theorem root_scalar_events (doc : List Nat) (ev : Event) (lx1 : Lexer) (ws : List Nat)
    (hdoc : doc ≠ [])
    (hem : Emits vt_quiet .start_value (init_lexer (doc ++ [0]) doc.length)
      (init_consumer () ()) ev .add_string lx1)
    (hstack : lx1.stack = []) (hat : At lx1.mem lx1.p (ws ++ [0]))
    (hws : ∀ c ∈ ws, isSpace c) (hch : lx1.ch = rd lx1.mem lx1.p)
    (hep : lx1.p + ws.length = lx1.ep) :
    events (parse_doc vt_quiet doc () ()) = some (0, [ev]) := by
  obtain ⟨k, hr⟩ := reach_of_Emits_quiet hem
  have hends := Ends_of_reach hr
    (@Ends_goto _ _ _ _ Label.look_for_next_object _ _ _ _ _ rfl
      (root_trailing vt_quiet ws lx1 _ hstack hat hws hch hep))
  obtain ⟨r, h, hq⟩ := ajson_sax_parse_of_Ends (List.length_pos.2 hdoc) hends
  unfold parse_doc
  rw [h]
  simp [events, hq.1, hq.2, after_cb, init_consumer]

theorem At_append_self (A B : List Nat) : At (A ++ B) A.length B := by
  intro k _
  exact rd_append_right A B k

theorem At_self (A : List Nat) : At A 0 A := by
  intro k _
  simp

theorem space_head (ws : List Nat) (hws : ∀ c ∈ ws, isSpace c) :
    rd (ws ++ [0]) 0 = 0 ∨ isSpace (rd (ws ++ [0]) 0) := by
  cases ws with
  | nil => exact Or.inl rfl
  | cons c r => exact Or.inr (hws c (List.mem_cons_self _ _))

theorem root_number_events (t ws : List Nat) (ht : NumberShape t)
    (hws : ∀ c ∈ ws, isSpace c) :
    events (parse_doc vt_quiet (t ++ ws) () ()) = some (0, [.number t]) := by
  obtain ⟨m, i, f, x, rfl, hm, hi, hf, hx⟩ := ht
  have hd : ∀ v, rd (ws ++ [0]) 0 = v → ¬ isSpace v → v ≠ 0 → False := by
    intro v hv h1 h2
    rcases space_head ws hws with h | h
    · exact h2 (hv ▸ h)
    · exact h1 (hv ▸ h)
  have hipos : 0 < i.length := by
    rcases hi with rfl | ⟨d1, ds, rfl, _⟩ <;> simp
  have hmem : At ((m ++ i ++ f ++ x ++ ws) ++ [0]) 0
      ((m ++ i ++ f ++ x) ++ [rd (ws ++ [0]) 0]) := by
    have h1 : At (m ++ i ++ f ++ x ++ (ws ++ [0])) 0 (m ++ i ++ f ++ x ++ (ws ++ [0])) :=
      At_self _
    have h2 := At_run h1 (by simp)
    simpa using h2
  have hem := number_emits vt_quiet
    (init_lexer ((m ++ i ++ f ++ x ++ ws) ++ [0]) (m ++ i ++ f ++ x ++ ws).length)
    (init_consumer () ()) m i f x (rd (ws ++ [0]) 0) hmem
    (by simp [init_lexer]) hm hi hf hx
    (fun h => hd _ rfl (by unfold isSpace; unfold isDigit at h; omega)
      (by unfold isDigit at h; omega))
    (fun _ => ⟨fun h => hd _ rfl (by unfold isSpace; omega) (by omega),
      fun h => hd _ rfl (by unfold isSpace; omega) (by omega)⟩)
    (fun _ _ h => hd _ rfl (by unfold isSpace; omega) (by omega))
  have hne : m ++ i ++ f ++ x ++ ws ≠ [] := by
    apply List.length_pos.1
    simp only [List.length_append]
    omega
  refine root_scalar_events _ _ _ ws hne hem rfl ?_ hws ?_ ?_
  · show At ((m ++ i ++ f ++ x ++ ws) ++ [0]) (0 + (m ++ i ++ f ++ x).length) (ws ++ [0])
    have := At_append_self (m ++ i ++ f ++ x) (ws ++ [0])
    simpa using this
  · show rd (ws ++ [0]) 0 = rd ((m ++ i ++ f ++ x ++ ws) ++ [0]) (0 + (m ++ i ++ f ++ x).length)
    have := At_append_self (m ++ i ++ f ++ x) (ws ++ [0]) 0 (by simp)
    simpa using this.symm
  · show 0 + (m ++ i ++ f ++ x).length + ws.length = (m ++ i ++ f ++ x ++ ws).length
    simp only [List.length_append]
    omega

end Root

section Root2

theorem slice_between_quotes (s rest : List Nat) :
    slice (34 :: s ++ rest) 1 s.length = s := by
  simp [slice]

theorem root_string_events (s ws : List Nat) (hws : ∀ c ∈ ws, isSpace c)
    (hq : ClosingQuote ((34 :: s ++ 34 :: ws) ++ [0]) 0 (34 :: s ++ 34 :: ws).length
      (s.length + 1)) :
    events (parse_doc vt_quiet (34 :: s ++ 34 :: ws) () ()) = some (0, [.string s]) := by
  have hem := start_value_string vt_quiet
    (init_lexer ((34 :: s ++ 34 :: ws) ++ [0]) (34 :: s ++ 34 :: ws).length)
    (init_consumer () ()) (s.length + 1) (by simp [init_lexer]) hq
  have hsl : slice ((34 :: s ++ 34 :: ws) ++ [0]) 1 s.length = s := by
    have := slice_between_quotes s (34 :: ws ++ [0])
    simpa using this
  have e : (init_lexer ((34 :: s ++ 34 :: ws) ++ [0]) (34 :: s ++ 34 :: ws).length).p = 0 := rfl
  simp only [e, Nat.zero_add, Nat.add_sub_cancel] at hem
  have hm : (init_lexer ((34 :: s ++ 34 :: ws) ++ [0]) (34 :: s ++ 34 :: ws).length).mem =
      (34 :: s ++ 34 :: ws) ++ [0] := rfl
  rw [hm, hsl] at hem
  refine root_scalar_events _ _ _ ws (by simp) hem rfl ?_ hws rfl ?_
  · show At ((34 :: s ++ 34 :: ws) ++ [0]) (s.length + 1 + 1) (ws ++ [0])
    have := At_append_self (34 :: s ++ [34]) (ws ++ [0])
    simpa using this
  · show s.length + 1 + 1 + ws.length = (34 :: s ++ 34 :: ws).length
    simp
    omega

theorem root_literal_events (ws : List Nat) (hws : ∀ c ∈ ws, isSpace c) :
    events (parse_doc vt_quiet (ascii "true" ++ ws) () ()) = some (0, [.bool true]) ∧
    events (parse_doc vt_quiet (ascii "false" ++ ws) () ()) = some (0, [.bool false]) ∧
    events (parse_doc vt_quiet (ascii "null" ++ ws) () ()) = some (0, [.null]) := by
  have ht : ascii "true" = [116, 114, 117, 101] := by decide
  have hf : ascii "false" = [102, 97, 108, 115, 101] := by decide
  have hn : ascii "null" = [110, 117, 108, 108] := by decide
  rw [ht, hf, hn]
  refine ⟨?_, ?_, ?_⟩
  · refine root_scalar_events _ _
      { init_lexer (([116, 114, 117, 101] ++ ws) ++ [0]) ([116, 114, 117, 101] ++ ws).length with
        p := 4, ch := rd (ws ++ [0]) 0, after_comma := false, }
      ws (by simp) ?_ rfl ?_ hws ?_ ?_
    · refine @Emits_now _ _ _ _ _ _
        { init_lexer (([116, 114, 117, 101] ++ ws) ++ [0]) ([116, 114, 117, 101] ++ ws).length
          with p := 4, ch := 116, after_comma := false } _ _ _ ?_
      simp [step, start_value, literal, expect_all, expect, next_ch, init_lexer, rd, isSpace,
        SAX_ERROR]
    · show At (([116, 114, 117, 101] ++ ws) ++ [0]) 4 (ws ++ [0])
      have := At_append_self [116, 114, 117, 101] (ws ++ [0])
      simpa using this
    · show rd (ws ++ [0]) 0 = rd (([116, 114, 117, 101] ++ ws) ++ [0]) 4
      simp [rd]
    · show 4 + ws.length = ([116, 114, 117, 101] ++ ws).length
      simp
      omega
  · refine root_scalar_events _ _
      { init_lexer (([102, 97, 108, 115, 101] ++ ws) ++ [0])
          ([102, 97, 108, 115, 101] ++ ws).length with
        p := 5, ch := rd (ws ++ [0]) 0, after_comma := false, }
      ws (by simp) ?_ rfl ?_ hws ?_ ?_
    · refine @Emits_now _ _ _ _ _ _
        { init_lexer (([102, 97, 108, 115, 101] ++ ws) ++ [0])
            ([102, 97, 108, 115, 101] ++ ws).length
          with p := 5, ch := 102, after_comma := false } _ _ _ ?_
      simp [step, start_value, literal, expect_all, expect, next_ch, init_lexer, rd, isSpace,
        SAX_ERROR]
    · show At (([102, 97, 108, 115, 101] ++ ws) ++ [0]) 5 (ws ++ [0])
      have := At_append_self [102, 97, 108, 115, 101] (ws ++ [0])
      simpa using this
    · show rd (ws ++ [0]) 0 = rd (([102, 97, 108, 115, 101] ++ ws) ++ [0]) 5
      simp [rd]
    · show 5 + ws.length = ([102, 97, 108, 115, 101] ++ ws).length
      simp
      omega
  · refine root_scalar_events _ _
      { init_lexer (([110, 117, 108, 108] ++ ws) ++ [0]) ([110, 117, 108, 108] ++ ws).length with
        p := 4, ch := rd (ws ++ [0]) 0, after_comma := false, }
      ws (by simp) ?_ rfl ?_ hws ?_ ?_
    · refine @Emits_now _ _ _ _ _ _
        { init_lexer (([110, 117, 108, 108] ++ ws) ++ [0]) ([110, 117, 108, 108] ++ ws).length
          with p := 4, ch := 110, after_comma := false } _ _ _ ?_
      simp [step, start_value, literal, expect_all, expect, next_ch, init_lexer, rd, isSpace,
        SAX_ERROR]
    · show At (([110, 117, 108, 108] ++ ws) ++ [0]) 4 (ws ++ [0])
      have := At_append_self [110, 117, 108, 108] (ws ++ [0])
      simpa using this
    · show rd (ws ++ [0]) 0 = rd (([110, 117, 108, 108] ++ ws) ++ [0]) 4
      simp [rd]
    · show 4 + ws.length = ([110, 117, 108, 108] ++ ws).length
      simp
      omega

end Root2

theorem rd_wr (mem : List Nat) (q v i : Nat) :
    rd (wr mem q v) i = if i = q ∧ q < mem.length then v else rd mem i := by
  by_cases h : i = q
  · subst h
    by_cases hq : i < mem.length
    · rw [rd_wr_same _ _ _ hq, if_pos ⟨rfl, hq⟩]
    · rw [if_neg (fun h => hq h.2), rd_beyond _ _ (by rw [wr_length]; omega),
        rd_beyond _ _ (by omega)]
  · rw [rd_wr_other _ _ _ _ (Ne.symm h), if_neg (fun h1 => h h1.1)]

theorem Ins_wr_high {a n : Nat} {mem mem1 : List Nat} (h : Ins a n mem mem1) (q v : Nat)
    (hq : a ≤ q) : Ins a n (wr mem q v) (wr mem1 (q + n) v) := by
  refine ⟨by rw [wr_length, wr_length, h.len], by rw [wr_length]; exact h.fits, ?_, ?_, ?_⟩
  · intro i hi
    rw [rd_wr, rd_wr, if_neg (by omega), if_neg (by omega)]
    exact h.low i hi
  · intro i hi
    rw [rd_wr, rd_wr, h.high i hi, h.len]
    by_cases hc : i = q ∧ q < mem.length
    · rw [if_pos hc, if_pos ⟨by omega, by omega⟩]
    · rw [if_neg hc, if_neg (fun h1 => hc ⟨by omega, by omega⟩)]
  · intro i h1 h2
    rw [rd_wr, if_neg (by omega)]
    exact h.gap i h1 h2

theorem Ins_wr_low {a n : Nat} {mem mem1 : List Nat} (h : Ins a n mem mem1) (q v : Nat)
    (hq : q < a) : Ins a n (wr mem q v) (wr mem1 q v) := by
  have hf := h.fits
  refine ⟨by rw [wr_length, wr_length, h.len], by rw [wr_length]; exact h.fits, ?_, ?_, ?_⟩
  · intro i hi
    rw [rd_wr, rd_wr, h.low i hi, h.len]
    by_cases hc : i = q
    · rw [if_pos ⟨hc, by omega⟩, if_pos ⟨hc, by omega⟩]
    · rw [if_neg (fun h1 => hc h1.1), if_neg (fun h1 => hc h1.1)]
  · intro i hi
    rw [rd_wr, rd_wr, if_neg (by omega), if_neg (by omega)]
    exact h.high i hi
  · intro i h1 h2
    rw [rd_wr, if_neg (by omega)]
    exact h.gap i h1 h2

theorem rd_slice (mem : List Nat) (s len i : Nat) :
    rd (slice mem s len) i = if i < len then rd mem (s + i) else 0 := by
  unfold slice rd
  by_cases h : i < len
  · rw [if_pos h]
    simp [List.getD_eq_getElem?_getD, List.getElem?_take, h]
  · rw [if_neg h]
    simp [List.getD_eq_getElem?_getD, List.getElem?_take, h]

theorem length_slice (mem : List Nat) (s len : Nat) :
    (slice mem s len).length = min len (mem.length - s) := by
  simp [slice]

theorem slice_high {a n : Nat} {mem mem1 : List Nat} (h : Ins a n mem mem1) (s len : Nat)
    (hs : a ≤ s) : slice mem1 (s + n) len = slice mem s len := by
  apply ext_rd
  · rw [length_slice, length_slice, h.len]
    omega
  · intro i _
    rw [rd_slice, rd_slice]
    split
    · rw [← h.high (s + i) (by omega)]
      congr 1
      omega
    · rfl

theorem slice_low {a n : Nat} {mem mem1 : List Nat} (h : Ins a n mem mem1) (s len : Nat)
    (hs : len = 0 ∨ s + len ≤ a) : slice mem1 s len = slice mem s len := by
  have hf := h.fits
  apply ext_rd
  · rw [length_slice, length_slice, h.len]
    omega
  · intro i hi
    rw [rd_slice, rd_slice]
    split
    · exact h.low _ (by omega)
    · rfl

theorem slice_wr_above (mem : List Nat) (s len q v : Nat) (h : len = 0 ∨ s + len ≤ q) :
    slice (wr mem q v) s len = slice mem s len := by
  apply ext_rd
  · rw [length_slice, length_slice, wr_length]
  · intro i hi
    rw [rd_slice, rd_slice]
    split
    · rw [rd_wr, if_neg (by omega)]
    · rfl

/-! ### The scans on the two memories -/

theorem scan_to_spec (mem : List Nat) (ep c p : Nat) (hp : p ≤ ep) :
    p ≤ scan_to mem ep c (ep - p) p ∧ scan_to mem ep c (ep - p) p ≤ ep ∧
      (∀ i, p ≤ i → i < scan_to mem ep c (ep - p) p → rd mem i ≠ c) ∧
      (scan_to mem ep c (ep - p) p = ep ∨ rd mem (scan_to mem ep c (ep - p) p) = c) := by
  generalize hf : ep - p = f
  induction f generalizing p with
  | zero =>
    have : p = ep := by omega
    subst this
    exact ⟨Nat.le_refl _, Nat.le_refl _, fun i h1 h2 => by
      have : scan_to mem p c 0 p = p := rfl
      omega, Or.inl rfl⟩
  | succ f ih =>
    unfold scan_to
    by_cases hc : p < ep ∧ rd mem p ≠ c
    · rw [if_pos hc]
      obtain ⟨h1, h2, h3, h4⟩ := ih (p + 1) (by omega) (by omega)
      refine ⟨by omega, h2, fun i hi1 hi2 => ?_, h4⟩
      by_cases hi : i = p
      · subst hi
        exact hc.2
      · exact h3 i (by omega) hi2
    · rw [if_neg hc]
      refine ⟨Nat.le_refl _, hp, fun i h1 h2 => by omega, ?_⟩
      by_cases h : p < ep
      · right
        by_contra hne
        exact hc ⟨h, hne⟩
      · left
        omega

theorem scan_to_past (mem : List Nat) (ep c p f : Nat) (hp : ep ≤ p) :
    scan_to mem ep c f p = p := by
  cases f with
  | zero => rfl
  | succ f =>
    unfold scan_to
    rw [if_neg (by omega)]

/-- The scan for `c` from a cursor past the inserted bytes. -/
theorem scan_to_shift {a n : Nat} {mem mem1 : List Nat} (h : Ins a n mem mem1) (ep c p : Nat)
    (hp : a ≤ p) :
    scan_to mem1 (ep + n) c (ep + n - (p + n)) (p + n) = scan_to mem ep c (ep - p) p + n := by
  by_cases hpe : p ≤ ep
  · obtain ⟨h1, h2, h3, h4⟩ := scan_to_spec mem ep c p hpe
    apply scan_to_eq
    · omega
    · omega
    · omega
    · intro i hi1 hi2
      obtain ⟨j, rfl⟩ : ∃ j, i = j + n := ⟨i - n, by omega⟩
      rw [h.high j (by omega)]
      exact h3 j (by omega) (by omega)
    · rcases h4 with h4 | h4
      · left
        omega
      · right
        rw [h.high _ (by omega)]
        exact h4
  · rw [scan_to_past _ _ _ _ _ (by omega), scan_to_past _ _ _ _ _ (by omega)]

/-- The scan for `c` that stops before the inserted bytes. -/
theorem scan_to_low {a n : Nat} {mem mem1 : List Nat} (h : Ins a n mem mem1) (ep c p : Nat)
    (hq : scan_to mem ep c (ep - p) p < a) (hae : a ≤ ep) :
    scan_to mem1 (ep + n) c (ep + n - p) p = scan_to mem ep c (ep - p) p := by
  have hpq := scan_to_ge mem ep c (ep - p) p
  obtain ⟨h1, h2, h3, h4⟩ := scan_to_spec mem ep c p (by omega)
  apply scan_to_eq
  · omega
  · omega
  · omega
  · intro i hi1 hi2
    rw [h.low i (by omega)]
    exact h3 i hi1 hi2
  · rcases h4 with h4 | h4
    · omega
    · right
      rw [h.low _ hq]
      exact h4

/-- The scan for a byte `c` that is no whitespace, over the inserted bytes. -/
theorem scan_to_cross {a n : Nat} {mem mem1 : List Nat} (h : Ins a n mem mem1) (ep c p : Nat)
    (hc : ¬ isSpace c) (hp : p ≤ a) (hq : a ≤ scan_to mem ep c (ep - p) p) (hae : a ≤ ep) :
    scan_to mem1 (ep + n) c (ep + n - p) p = scan_to mem ep c (ep - p) p + n := by
  obtain ⟨h1, h2, h3, h4⟩ := scan_to_spec mem ep c p (by omega)
  apply scan_to_eq
  · omega
  · omega
  · omega
  · intro i hi1 hi2
    by_cases hia : i < a
    · rw [h.low i hia]
      exact h3 i hi1 (by omega)
    · by_cases hin : i < a + n
      · intro he
        exact hc (he ▸ h.gap i (by omega) hin)
      · obtain ⟨j, rfl⟩ : ∃ j, i = j + n := ⟨i - n, by omega⟩
        rw [h.high j (by omega)]
        exact h3 j (by omega) (by omega)
  · rcases h4 with h4 | h4
    · left
      omega
    · right
      rw [h.high _ hq]
      exact h4

theorem digit_loop_shift {a n : Nat} {mem mem1 : List Nat} (h : Ins a n mem mem1)
    (f c q : Nat) (hq : a ≤ q) :
    digit_loop mem1 f c (q + n) = ((digit_loop mem f c q).1, (digit_loop mem f c q).2 + n) := by
  induction f generalizing c q with
  | zero => rfl
  | succ f ih =>
    unfold digit_loop
    by_cases hc : isDigit c
    · rw [if_pos hc, if_pos hc, h.high q hq]
      have := ih (rd mem q) (q + 1) (by omega)
      rw [show q + n + 1 = q + 1 + n by omega]
      exact this
    · rw [if_neg hc, if_neg hc]

theorem digit_loop_stops (mem : List Nat) (f c q : Nat) (hq : 1 ≤ q) (hc : c = rd mem (q - 1))
    (hf : mem.length + 2 ≤ f + q) : ¬ isDigit (digit_loop mem f c q).1 := by
  induction f generalizing c q with
  | zero =>
    simp only [digit_loop]
    rw [hc, rd_beyond _ _ (by omega)]
    decide
  | succ f ih =>
    unfold digit_loop
    by_cases hd : isDigit c
    · rw [if_pos hd]
      exact ih (rd mem q) (q + 1) (by omega) (by simp) (by omega)
    · rw [if_neg hd]
      exact hd

theorem digits_stops (lx : Lexer) (h : Fresh lx) : ¬ isDigit (digits lx).ch := by
  by_cases hp : lx.p ≤ lx.mem.length + 2
  · exact digit_loop_stops lx.mem _ lx.ch lx.p h.1 h.2 (by omega)
  · have : lx.mem.length + 2 - lx.p = 0 := by omega
    unfold digits
    rw [this]
    simp only [digit_loop]
    rw [h.2, rd_beyond _ _ (by omega)]
    decide

theorem backslashes_shift {a n : Nat} {mem mem1 : List Nat} (h : Ins a n mem mem1) (o q : Nat)
    (ho : a ≤ o) (hne : rd mem o ≠ 92) (hq : o < q) :
    backslashes mem1 (q + n) = backslashes mem q := by
  induction q with
  | zero => omega
  | succ q ih =>
    rw [show q + 1 + n = (q + n) + 1 by omega]
    unfold backslashes
    rw [h.high q (by omega)]
    by_cases hb : rd mem q = 92
    · rw [if_pos hb, if_pos hb]
      have : o < q := by
        by_contra hlt
        have : o = q := by omega
        exact hne (this ▸ hb)
      rw [ih this]
    · rw [if_neg hb, if_neg hb]

theorem escaped_quote_shift {a n : Nat} {mem mem1 : List Nat} (h : Ins a n mem mem1)
    (o q : Nat) (ho : a ≤ o) (hne : rd mem o ≠ 92) (hq : o < q) :
    escaped_quote mem1 (q + n) ↔ escaped_quote mem q := by
  rw [escaped_quote_iff mem o q hne hq,
    escaped_quote_iff mem1 (o + n) (q + n) (by rw [h.high o ho]; exact hne) (by omega),
    backslashes_shift h o q ho hne hq]

theorem backtrack_loop_low (mem mem1 : List Nat) (f b : Nat)
    (h : ∀ i, i ≤ b → rd mem1 i = rd mem i) :
    backtrack_loop mem1 f b = backtrack_loop mem f b := by
  induction f generalizing b with
  | zero => rfl
  | succ f ih =>
    unfold backtrack_loop
    rw [h b (Nat.le_refl _), ih (b - 1) (fun i hi => h i (by omega))]

theorem escaped_quote_low {a n : Nat} {mem mem1 : List Nat} (h : Ins a n mem mem1) (q : Nat)
    (hq : q < a) : escaped_quote mem1 q ↔ escaped_quote mem q := by
  unfold escaped_quote
  rw [h.low (q - 1) (by omega),
    backtrack_loop_low mem mem1 q (q - 1) (fun i hi => h.low i (by omega))]

/-! ### Rules for two transitions that go the same way -/

section SimRules

variable {σ H : Type} {R : Prop} {G : Label → Lexer → Prop}
  {Q : Label → Lexer → Lexer → Prop}

theorem Sim_ite {c c1 : Prop} [Decidable c] [Decidable c1] {s t s1 t1 : Step σ H}
    (hc : c1 ↔ c) (hs : c → Sim R G Q s1 s) (ht : ¬ c → Sim R G Q t1 t) :
    Sim R G Q (if c1 then s1 else t1) (if c then s else t) := by
  by_cases h : c
  · rw [if_pos h, if_pos (hc.2 h)]
    exact hs h
  · rw [if_neg h, if_neg (fun h1 => h (hc.1 h1))]
    exact ht h

theorem Sim_ret (rc : Int) (lx lx1 : Lexer) (cs : Consumer σ H) :
    Sim R G Q (.ret rc lx1 cs) (.ret rc lx cs) :=
  fun _ => ⟨lx1, rfl⟩

theorem Sim_error (lx lx1 : Lexer) (cs : Consumer σ H) :
    Sim R G Q (SAX_ERROR lx1 cs) (SAX_ERROR lx cs) :=
  fun _ => ⟨_, rfl⟩

theorem Sim_goto (l : Label) (lx lx1 : Lexer) (cs : Consumer σ H) (h : G l lx → Q l lx lx1) :
    Sim R G Q (.goto l lx1 cs) (.goto l lx cs) :=
  fun hg => ⟨lx1, rfl, h hg⟩

theorem Sim_CHECK_CB (vt : H → ajson_sax_cb_t σ H) (lx lx1 : Lexer) (cs : Consumer σ H)
    (ev ev1 : Event) (k k1 : Consumer σ H → Step σ H) (hev : ev1 = ev)
    (hk : ∀ c, Sim R G Q (k1 c) (k c)) :
    Sim R G Q (CHECK_CB vt lx1 cs ev1 k1) (CHECK_CB vt lx cs ev k) := by
  subst hev
  unfold CHECK_CB
  cases invoke vt cs ev1 with
  | none => exact hk cs
  | some r =>
    obtain ⟨c, s, rc⟩ := r
    dsimp only
    by_cases hrc : rc ≠ 0
    · rw [if_pos hrc, if_pos hrc]
      exact Sim_ret _ _ _ _
    · rw [if_neg hrc, if_neg hrc]
      exact hk _

theorem Sim_SYNTAX_PUSH (lx lx1 : Lexer) (cs : Consumer σ H) (mode : Nat) (next : Label)
    (hst : lx1.stack = lx.stack)
    (hq : G next { lx with stack := mode :: lx.stack } →
      Q next { lx with stack := mode :: lx.stack } { lx1 with stack := mode :: lx1.stack }) :
    Sim R G Q (SYNTAX_PUSH lx1 cs mode fun x c => .goto next x c)
      (SYNTAX_PUSH lx cs mode fun x c => .goto next x c) := by
  unfold SYNTAX_PUSH
  refine Sim_ite (by unfold stack_depth; rw [hst]) (fun _ => Sim_ret _ _ _ _) (fun _ => ?_)
  exact Sim_goto _ _ _ _ hq

theorem Sim_open_container (vt : H → ajson_sax_cb_t σ H) (lx lx1 : Lexer) (cs : Consumer σ H)
    (ev : Event) (mode : Nat) (next : Label) (hst : lx1.stack = lx.stack)
    (hq : G next { lx with stack := mode :: lx.stack } →
      Q next { lx with stack := mode :: lx.stack } { lx1 with stack := mode :: lx1.stack }) :
    Sim R G Q (open_container vt lx1 cs ev mode next) (open_container vt lx cs ev mode next) := by
  unfold open_container
  exact Sim_CHECK_CB vt lx lx1 cs ev ev _ _ rfl (fun c => Sim_SYNTAX_PUSH lx lx1 c mode next hst hq)

theorem Sim_close_here (vt : H → ajson_sax_cb_t σ H) (lx lx1 : Lexer) (cs : Consumer σ H)
    (ev : Event) (hac : lx1.after_comma = lx.after_comma)
    (hq : G .determine_next_step (SYNTAX_POP lx) →
      Q .determine_next_step (SYNTAX_POP lx) (SYNTAX_POP lx1)) :
    Sim R G Q (close_here vt lx1 cs ev) (close_here vt lx cs ev) := by
  unfold close_here
  refine Sim_ite (by rw [hac]) (fun _ => Sim_error _ _ _) (fun _ => ?_)
  exact Sim_CHECK_CB vt lx lx1 cs ev ev _ _ rfl (fun c => Sim_goto _ _ _ _ hq)

theorem Sim_close_ahead (vt : H → ajson_sax_cb_t σ H) (lx lx1 : Lexer) (cs : Consumer σ H)
    (ev : Event) (hac : lx1.after_comma = lx.after_comma)
    (hq : G .determine_next_step { SYNTAX_POP lx with p := lx.p + 1 } →
      Q .determine_next_step { SYNTAX_POP lx with p := lx.p + 1 }
        { SYNTAX_POP lx1 with p := lx1.p + 1 }) :
    Sim R G Q (close_ahead vt lx1 cs ev) (close_ahead vt lx cs ev) := by
  unfold close_ahead
  refine Sim_ite (by rw [hac]) (fun _ => Sim_error _ _ _) (fun _ => ?_)
  exact Sim_CHECK_CB vt lx lx1 cs ev ev _ _ rfl (fun c => Sim_goto _ _ _ _ hq)

end SimRules

/-! ### Past the inserted bytes: the same transitions, moved forward -/

section Post

variable {σ H : Type} {a n : Nat}

theorem digit_loop_ge (mem : List Nat) (f c q : Nat) : q ≤ (digit_loop mem f c q).2 := by
  induction f generalizing c q with
  | zero => exact Nat.le_refl _
  | succ f ih =>
    unfold digit_loop
    split
    · exact Nat.le_trans (Nat.le_succ q) (ih _ _)
    · exact Nat.le_refl _

theorem Tok_shifted {lx lx1 : Lexer} (h : Tok a n lx lx1) (l : Label) (hl : AfterTok l) :
    Shifted a n l lx lx1 := by
  have h1 := h.lo
  have h2 := h.hi
  refine ⟨h.ins, h.ep, h.p, by omega, h.after_comma, h.stack, ?_⟩
  cases l <;> first
    | exact h.ch
    | exact ⟨h.stringp, h.lo, h.hi⟩
    | exact hl.elim

theorem Tok_next_ch {lx lx1 : Lexer} (h : Tok a n lx lx1) : Tok a n (next_ch lx) (next_ch lx1) := by
  have h1 := h.lo
  have h2 := h.hi
  refine ⟨h.ins, h.ep, ?_, ?_, h.stringp, h.after_comma, h.stack, h.lo, ?_⟩
  · show lx1.p + 1 = lx.p + 1 + n
    rw [h.p]
    omega
  · show rd lx1.mem lx1.p = rd lx.mem lx.p
    rw [h.p]
    exact h.ins.high _ (by omega)
  · show lx.stringp < lx.p + 1
    omega

theorem Tok_digits {lx lx1 : Lexer} (h : Tok a n lx lx1) : Tok a n (digits lx) (digits lx1) := by
  have h1 := h.lo
  have h2 := h.hi
  have hf : lx1.mem.length + 2 - lx1.p = lx.mem.length + 2 - lx.p := by
    rw [h.ins.len, h.p]
    omega
  have e := digit_loop_shift h.ins (lx.mem.length + 2 - lx.p) lx.ch lx.p (by omega)
  have hge := digit_loop_ge lx.mem (lx.mem.length + 2 - lx.p) lx.ch lx.p
  unfold digits
  dsimp only
  rw [hf, h.p, h.ch, e]
  exact ⟨h.ins, h.ep, rfl, rfl, h.stringp, h.after_comma, h.stack, h.lo, by dsimp only; omega⟩

theorem post_exponent_part {R : Prop} {G : Label → Lexer → Prop}
    {Q : Label → Lexer → Lexer → Prop} (lx lx1 : Lexer) (cs : Consumer σ H)
    (k k1 : Lexer → Step σ H) (h : Tok a n lx lx1)
    (hk : ∀ y y1, Tok a n y y1 → Sim R G Q (k1 y1) (k y)) :
    Sim R G Q (exponent_part lx1 cs k1) (exponent_part lx cs k) := by
  unfold exponent_part
  refine Sim_ite (by rw [h.ch]) (fun _ => ?_) (fun _ => hk _ _ h)
  dsimp only
  have h1 := Tok_next_ch h
  have h2 : Tok a n (if (next_ch lx).ch = 43 ∨ (next_ch lx).ch = 45 then next_ch (next_ch lx)
      else next_ch lx)
      (if (next_ch lx1).ch = 43 ∨ (next_ch lx1).ch = 45 then next_ch (next_ch lx1)
        else next_ch lx1) := by
    rw [h1.ch]
    split
    · exact Tok_next_ch h1
    · exact h1
  refine Sim_ite (by rw [h2.ch]) (fun _ => Sim_error _ _ _) (fun _ => ?_)
  exact hk _ _ (Tok_digits h2)

theorem post_finish_number (vt : H → ajson_sax_cb_t σ H) (lx lx1 : Lexer) (cs : Consumer σ H)
    (next : Label) (h : Tok a n lx lx1) (hn : next = .add_string ∨ next = .look_for_key) :
    Sim True AnyJump (Shifted a n) (finish_number vt lx1 cs next)
      (finish_number vt lx cs next) := by
  have h1 := h.lo
  have h2 := h.hi
  have hp : lx1.p - 1 = lx.p - 1 + n := by rw [h.p]; omega
  have hi0 := Ins_wr_high h.ins (lx.p - 1) 0 (by omega)
  unfold finish_number
  dsimp only
  rw [hp, h.stringp, h.ch]
  refine Sim_CHECK_CB vt _ _ cs _ _ _ _ ?_ (fun c => Sim_goto _ _ _ _ (fun _ => ?_))
  · rw [show lx.p - 1 + n - (lx.stringp + n) = lx.p - 1 - lx.stringp by omega,
      slice_high hi0 _ _ h.lo]
  · refine ⟨Ins_wr_high hi0 _ _ (by omega), h.ep, rfl, by dsimp only; omega, h.after_comma,
      h.stack, ?_⟩
    rcases hn with rfl | rfl <;> rfl

theorem post_next_digit_body (vt : H → ajson_sax_cb_t σ H) (lx lx1 : Lexer)
    (cs : Consumer σ H) (l dec next : Label) (h : Shifted a n l lx lx1)
    (hl : l = .next_digit ∨ l = .keyed_next_digit)
    (hd : dec = .decimal_number ∨ dec = .keyed_decimal_number)
    (hn : next = .add_string ∨ next = .look_for_key) :
    Sim True AnyJump (Shifted a n) (next_digit_body vt lx1 cs dec next)
      (next_digit_body vt lx cs dec next) := by
  obtain ⟨hi, he, hp, ha, hac, hst, hat⟩ := h
  have hsp : lx1.stringp = lx.stringp + n ∧ a ≤ lx.stringp ∧ lx.stringp < lx.p := by
    rcases hl with rfl | rfl <;> exact hat
  have ht : Tok a n (next_ch lx) (next_ch lx1) :=
    ⟨hi, he, by show lx1.p + 1 = lx.p + 1 + n; omega,
      by show rd lx1.mem lx1.p = rd lx.mem lx.p; rw [hp]; exact hi.high _ ha,
      hsp.1, hac, hst, hsp.2.1, by show lx.stringp < lx.p + 1; omega⟩
  have hd2 := Tok_digits ht
  unfold next_digit_body
  dsimp only
  refine Sim_ite (by rw [hd2.ch]) (fun _ => Sim_goto _ _ _ _ (fun _ => ?_)) (fun _ => ?_)
  · exact Tok_shifted hd2 _ (by rcases hd with rfl | rfl <;> trivial)
  · exact post_exponent_part _ _ cs _ _ hd2 (fun y y1 hy => post_finish_number vt y y1 cs next hy hn)

theorem post_decimal_number_body (vt : H → ajson_sax_cb_t σ H) (lx lx1 : Lexer)
    (cs : Consumer σ H) (l next : Label) (h : Shifted a n l lx lx1)
    (hl : l = .decimal_number ∨ l = .keyed_decimal_number)
    (hn : next = .add_string ∨ next = .look_for_key) :
    Sim True AnyJump (Shifted a n) (decimal_number_body vt lx1 cs next)
      (decimal_number_body vt lx cs next) := by
  obtain ⟨hi, he, hp, ha, hac, hst, hat⟩ := h
  have hsp : lx1.stringp = lx.stringp + n ∧ a ≤ lx.stringp ∧ lx.stringp < lx.p := by
    rcases hl with rfl | rfl <;> exact hat
  have ht : Tok a n (next_ch lx) (next_ch lx1) :=
    ⟨hi, he, by show lx1.p + 1 = lx.p + 1 + n; omega,
      by show rd lx1.mem lx1.p = rd lx.mem lx.p; rw [hp]; exact hi.high _ ha,
      hsp.1, hac, hst, hsp.2.1, by show lx.stringp < lx.p + 1; omega⟩
  unfold decimal_number_body
  dsimp only
  refine Sim_ite (by rw [ht.ch]) (fun _ => Sim_error _ _ _) (fun _ => ?_)
  exact post_exponent_part _ _ cs _ _ (Tok_digits ht)
    (fun y y1 hy => post_finish_number vt y y1 cs next hy hn)

theorem post_finish_string (vt : H → ajson_sax_cb_t σ H) (lx lx1 : Lexer) (cs : Consumer σ H)
    (next : Label) (hi : Ins a n lx.mem lx1.mem) (he : lx1.ep = lx.ep + n)
    (hp : lx1.p = lx.p + n) (hsp : lx1.stringp = lx.stringp + n) (hlo : a ≤ lx.stringp)
    (hle : lx.stringp ≤ lx.p) (hac : lx1.after_comma = lx.after_comma)
    (hst : lx1.stack = lx.stack) (hn : next = .add_string ∨ next = .look_for_key) :
    Sim True AnyJump (Shifted a n) (finish_string vt lx1 cs next)
      (finish_string vt lx cs next) := by
  have hi0 := Ins_wr_high hi lx.p 0 (by omega)
  have hi1 := Ins_wr_high hi0 lx.p 34 (by omega)
  unfold finish_string
  dsimp only
  rw [hp, hsp]
  refine Sim_CHECK_CB vt _ _ cs _ _ _ _ ?_ (fun c => Sim_goto _ _ _ _ (fun _ => ?_))
  · rw [show lx.p + n - (lx.stringp + n) = lx.p - lx.stringp by omega, slice_high hi0 _ _ hlo]
  · have hch : rd (wr (wr lx1.mem (lx.p + n) 0) (lx.p + n) 34) (lx.p + n + 1) =
        rd (wr (wr lx.mem lx.p 0) lx.p 34) (lx.p + 1) := by
      rw [show lx.p + n + 1 = lx.p + 1 + n by omega]
      exact hi1.high _ (by omega)
    refine ⟨hi1, he, by dsimp only; omega, by dsimp only; omega, hac, hst, ?_⟩
    rcases hn with rfl | rfl <;> exact hch

theorem post_string_body (vt : H → ajson_sax_cb_t σ H) (lx lx1 : Lexer) (cs : Consumer σ H)
    (self next : Label) (h : Shifted a n self lx lx1)
    (hl : self = .start_string ∨ self = .keyed_start_string)
    (hn : next = .add_string ∨ next = .look_for_key) :
    Sim True AnyJump (Shifted a n) (string_body vt lx1 cs self next)
      (string_body vt lx cs self next) := by
  obtain ⟨hi, he, hp, ha, hac, hst, hat⟩ := h
  have hsp : lx1.stringp = lx.stringp + n ∧ a < lx.stringp ∧ lx.stringp ≤ lx.p ∧
      rd lx.mem (lx.stringp - 1) = 34 := by
    rcases hl with rfl | rfl <;> exact hat
  have hq := scan_to_ge lx.mem lx.ep 34 (lx.ep - lx.p) lx.p
  have hs : scan_to lx1.mem lx1.ep 34 (lx1.ep - lx1.p) lx1.p =
      scan_to lx.mem lx.ep 34 (lx.ep - lx.p) lx.p + n := by
    rw [he, hp]
    exact scan_to_shift hi _ _ _ ha
  unfold string_body
  dsimp only
  rw [hs, he]
  refine Sim_ite (by omega) (fun _ => Sim_error _ _ _) (fun _ => ?_)
  refine Sim_ite (escaped_quote_shift hi (lx.stringp - 1) _ (by omega) (by rw [hsp.2.2.2]; decide)
    (by omega)) (fun _ => Sim_goto _ _ _ _ (fun _ => ?_)) (fun _ => ?_)
  · refine ⟨hi, rfl, by dsimp only; omega, by dsimp only; omega, hac, hst, ?_⟩
    rcases hl with rfl | rfl <;> exact ⟨hsp.1, hsp.2.1, by dsimp only; omega, hsp.2.2.2⟩
  · exact post_finish_string vt _ _ cs next hi rfl rfl hsp.1 (by dsimp only; omega)
      (by dsimp only; omega) hac hst hn

theorem post_get_end_of_key (vt : H → ajson_sax_cb_t σ H) (lx lx1 : Lexer) (cs : Consumer σ H)
    (h : Shifted a n .get_end_of_key lx lx1) :
    Sim True AnyJump (Shifted a n) (get_end_of_key vt lx1 cs) (get_end_of_key vt lx cs) := by
  obtain ⟨hi, he, hp, ha, hac, hst, hat⟩ := h
  have hsp : lx1.stringp = lx.stringp + n ∧ a < lx.stringp ∧ lx.stringp ≤ lx.p ∧
      rd lx.mem (lx.stringp - 1) = 34 := hat
  have hq := scan_to_ge lx.mem lx.ep 34 (lx.ep - lx.p) lx.p
  have hs : scan_to lx1.mem lx1.ep 34 (lx1.ep - lx1.p) lx1.p =
      scan_to lx.mem lx.ep 34 (lx.ep - lx.p) lx.p + n := by
    rw [he, hp]
    exact scan_to_shift hi _ _ _ ha
  unfold get_end_of_key
  dsimp only
  rw [hs, he]
  generalize scan_to lx.mem lx.ep 34 (lx.ep - lx.p) lx.p = q at hq
  refine Sim_ite ?_ (fun _ => Sim_goto _ _ _ _ (fun _ => ?_)) (fun _ => ?_)
  · rw [escaped_quote_shift hi (lx.stringp - 1) q (by omega) (by rw [hsp.2.2.2]; decide)
      (by omega)]
    constructor
    · exact fun h => ⟨by omega, h.2⟩
    · exact fun h => ⟨by omega, h.2⟩
  · exact ⟨hi, rfl, by dsimp only; omega, by dsimp only; omega, hac, hst, hsp.1, hsp.2.1,
      by dsimp only; omega, hsp.2.2.2⟩
  · have hi0 : Ins a n (if q < lx.ep then wr lx.mem q 0 else lx.mem)
        (if q + n < lx.ep + n then wr lx1.mem (q + n) 0 else lx1.mem) := by
      by_cases hlt : q < lx.ep
      · rw [if_pos hlt, if_pos (by omega)]
        exact Ins_wr_high hi q 0 (by omega)
      · rw [if_neg hlt, if_neg (by omega)]
        exact hi
    have e1 : (if q + n < lx.ep + n then
          { lx1 with ep := lx.ep + n, p := q + n, mem := wr lx1.mem (q + n) 0 }
        else { lx1 with ep := lx.ep + n, p := q + n }) =
        { lx1 with ep := lx.ep + n, p := q + n,
                   mem := if q + n < lx.ep + n then wr lx1.mem (q + n) 0 else lx1.mem } := by
      split <;> rfl
    have e2 : (if q < lx.ep then { lx with p := q, mem := wr lx.mem q 0 }
        else { lx with p := q }) =
        { lx with p := q, mem := if q < lx.ep then wr lx.mem q 0 else lx.mem } := by
      split <;> rfl
    rw [e1, e2]
    generalize (if q < lx.ep then wr lx.mem q 0 else lx.mem) = m at hi0
    generalize (if q + n < lx.ep + n then wr lx1.mem (q + n) 0 else lx1.mem) = m1 at hi0
    have hi1 := Ins_wr_high hi0 q 34 (by omega)
    unfold finish_key
    dsimp only
    rw [hsp.1]
    refine Sim_CHECK_CB vt _ _ cs _ _ _ _ ?_ (fun c => Sim_goto _ _ _ _ (fun _ => ?_))
    · rw [show q + n - (lx.stringp + n) = q - lx.stringp by omega, slice_high hi0 _ _ (by omega)]
    · have hc := scan_to_shift hi1 lx.ep 58 (q + 1) (by omega)
      rw [show q + 1 + n = q + n + 1 by omega] at hc
      rw [hc]
      exact ⟨hi1, rfl, by dsimp only; omega, by
        dsimp only
        have := scan_to_ge (wr m q 34) lx.ep 58 (lx.ep - (q + 1)) (q + 1)
        omega, hac, hst, trivial⟩

end Post

section Post2

variable {σ H : Type} {a n : Nat}

theorem Shifted_base {l : Label} {lx lx1 : Lexer} (h : Shifted a n l lx lx1) :
    Shifted a n .start_value lx lx1 :=
  ⟨h.1, h.2.1, h.2.2.1, h.2.2.2.1, h.2.2.2.2.1, h.2.2.2.2.2.1, trivial⟩

theorem Shifted_rd {l : Label} {lx lx1 : Lexer} (h : Shifted a n l lx lx1) :
    rd lx1.mem lx1.p = rd lx.mem lx.p := by
  rw [h.2.2.1]
  exact h.1.high _ h.2.2.2.1

theorem Shifted_step {l : Label} {lx lx1 : Lexer} (h : Shifted a n l lx lx1) :
    Shifted a n .start_value { lx with p := lx.p + 1 } { lx1 with p := lx1.p + 1 } := by
  obtain ⟨hi, he, hp, ha, hac, hst, -⟩ := h
  exact ⟨hi, he, by dsimp only; omega, by dsimp only; omega, hac, hst, trivial⟩

theorem post_expect_all {R : Prop} {G : Label → Lexer → Prop}
    {Q : Label → Lexer → Lexer → Prop} (cs : Consumer σ H) (word : List Nat) (lx lx1 : Lexer)
    (k k1 : Lexer → Step σ H) (h : Shifted a n .start_value lx lx1)
    (hk : ∀ y y1, Shifted a n .start_value y y1 → Sim R G Q (k1 y1) (k y)) :
    Sim R G Q (expect_all cs word lx1 k1) (expect_all cs word lx k) := by
  induction word generalizing lx lx1 with
  | nil => exact hk _ _ h
  | cons c word ih =>
    unfold expect_all expect
    dsimp only
    rw [Shifted_rd h]
    exact Sim_ite Iff.rfl (fun _ => Sim_error _ _ _) (fun _ => ih _ _ (Shifted_step h))

theorem post_literal (vt : H → ajson_sax_cb_t σ H) (lx lx1 : Lexer) (cs : Consumer σ H)
    (word : List Nat) (ev : Event) (next : Label) (h : Shifted a n .start_value lx lx1)
    (hn : next = .add_string ∨ next = .look_for_key) :
    Sim True AnyJump (Shifted a n) (literal vt lx1 cs word ev next)
      (literal vt lx cs word ev next) := by
  have he := h.2.1
  have hp := h.2.2.1
  unfold literal
  refine Sim_ite (by omega) (fun _ => Sim_error _ _ _) (fun _ => ?_)
  refine post_expect_all cs word lx lx1 _ _ h (fun y y1 hy => ?_)
  refine Sim_CHECK_CB vt _ _ cs _ _ _ _ rfl (fun c => Sim_goto _ _ _ _ (fun _ => ?_))
  obtain ⟨hi, he, hp, ha, hac, hst, -⟩ := hy
  refine ⟨hi, he, hp, ha, hac, hst, ?_⟩
  have : rd y1.mem y1.p = rd y.mem y.p := by rw [hp]; exact hi.high _ ha
  rcases hn with rfl | rfl <;> exact this

theorem post_zero_case (vt : H → ajson_sax_cb_t σ H) (lx lx1 : Lexer) (cs : Consumer σ H)
    (dec digit next : Label) (h : Tok a n lx lx1)
    (hd : dec = .decimal_number ∨ dec = .keyed_decimal_number)
    (hg : digit = .next_digit ∨ digit = .keyed_next_digit)
    (hn : next = .add_string ∨ next = .look_for_key) :
    Sim True AnyJump (Shifted a n) (zero_case vt lx1 cs dec digit next)
      (zero_case vt lx cs dec digit next) := by
  have h1 := h.lo
  have h2 := h.hi
  have he := h.ep
  have hp := h.p
  have hr : rd lx1.mem lx1.p = rd lx.mem lx.p := by rw [hp]; exact h.ins.high _ (by omega)
  have hlt : lx1.p < lx1.ep ↔ lx.p < lx.ep := by omega
  unfold zero_case
  dsimp only
  rw [hr]
  refine Sim_ite (and_congr hlt Iff.rfl) (fun _ => Sim_goto _ _ _ _ (fun _ => ?_)) (fun _ => ?_)
  · have : Tok a n { lx with p := lx.p + 1 } { lx1 with p := lx1.p + 1 } :=
      ⟨h.ins, h.ep, by dsimp only; omega, h.ch, h.stringp, h.after_comma, h.stack, h.lo,
        by dsimp only; omega⟩
    exact Tok_shifted this _ (by rcases hd with rfl | rfl <;> trivial)
  refine Sim_ite (and_congr hlt Iff.rfl) (fun _ => Sim_goto _ _ _ _ (fun _ => ?_)) (fun _ => ?_)
  · exact Tok_shifted h _ (by rcases hg with rfl | rfl <;> trivial)
  refine Sim_ite (and_congr hlt Iff.rfl) (fun _ => Sim_error _ _ _) (fun _ => ?_)
  refine Sim_CHECK_CB vt _ _ cs _ _ _ _ rfl (fun c => Sim_goto _ _ _ _ (fun _ => ?_))
  refine ⟨h.ins, h.ep, h.p, by dsimp only; omega, h.after_comma, h.stack, ?_⟩
  rcases hn with rfl | rfl <;> rfl

theorem post_start_value_minus (vt : H → ajson_sax_cb_t σ H) (lx lx1 : Lexer)
    (cs : Consumer σ H) (h : Tok a n lx lx1) :
    Sim True AnyJump (Shifted a n) (start_value_minus vt lx1 cs) (start_value_minus vt lx cs) := by
  have h1 := h.lo
  have h2 := h.hi
  have hp := h.p
  have hr : rd lx1.mem lx1.p = rd lx.mem lx.p := by rw [hp]; exact h.ins.high _ (by omega)
  unfold start_value_minus
  dsimp only
  rw [hr]
  refine Sim_ite (by rw [h.ch]) (fun _ => ?_) (fun _ => ?_)
  · refine Sim_ite Iff.rfl (fun _ => Sim_goto _ _ _ _ (fun _ => ?_)) (fun _ => ?_)
    · have : Tok a n { lx with p := lx.p + 1 } { lx1 with p := lx1.p + 1 } :=
        ⟨h.ins, h.ep, by dsimp only; omega, h.ch, h.stringp, h.after_comma, h.stack, h.lo,
          by dsimp only; omega⟩
      exact Tok_shifted this _ (by trivial)
    refine Sim_ite Iff.rfl (fun _ => Sim_goto _ _ _ _ (fun _ => Tok_shifted h _ (by trivial)))
      (fun _ => ?_)
    refine Sim_ite Iff.rfl (fun _ => Sim_error _ _ _) (fun _ => ?_)
    refine Sim_CHECK_CB vt _ _ cs _ _ _ _ rfl (fun c => Sim_goto _ _ _ _ (fun _ => ?_))
    exact ⟨h.ins, h.ep, h.p, by dsimp only; omega, h.after_comma, h.stack, rfl⟩
  · exact Sim_ite (by rw [h.ch]) (fun _ => Sim_goto _ _ _ _ (fun _ => Tok_shifted h _ (by trivial)))
      (fun _ => Sim_error _ _ _)

theorem post_start_key_object_minus (vt : H → ajson_sax_cb_t σ H) (lx lx1 : Lexer)
    (cs : Consumer σ H) (h : Tok a n lx lx1) :
    Sim True AnyJump (Shifted a n) (start_key_object_minus vt lx1 cs)
      (start_key_object_minus vt lx cs) := by
  have h1 := h.lo
  have h2 := h.hi
  have hp := h.p
  have hr : rd lx1.mem lx1.p = rd lx.mem lx.p := by rw [hp]; exact h.ins.high _ (by omega)
  unfold start_key_object_minus
  dsimp only
  rw [hr]
  refine Sim_ite (by rw [h.ch]) (fun _ => ?_) (fun _ => ?_)
  · refine Sim_ite Iff.rfl (fun _ => Sim_goto _ _ _ _ (fun _ => ?_)) (fun _ => ?_)
    · have : Tok a n { lx with p := lx.p + 1 } { lx1 with p := lx1.p + 1 } :=
        ⟨h.ins, h.ep, by dsimp only; omega, h.ch, h.stringp, h.after_comma, h.stack, h.lo,
          by dsimp only; omega⟩
      exact Tok_shifted this _ (by trivial)
    refine Sim_ite Iff.rfl (fun _ => Sim_goto _ _ _ _ (fun _ => Tok_shifted h _ (by trivial)))
      (fun _ => ?_)
    refine Sim_ite Iff.rfl (fun _ => Sim_error _ _ _) (fun _ => ?_)
    refine Sim_CHECK_CB vt _ _ cs _ _ _ _ rfl (fun c => Sim_goto _ _ _ _ (fun _ => ?_))
    exact Tok_shifted h _ (by trivial)
  · exact Sim_ite (by rw [h.ch]) (fun _ => Sim_goto _ _ _ _ (fun _ => Tok_shifted h _ (by trivial)))
      (fun _ => Sim_error _ _ _)

/-- The scanner states after the dispatch byte of a value that starts a number:
`stringp = p - 1` has been set. -/
theorem Tok_value {l : Label} {lx lx1 : Lexer} (h : Shifted a n l lx lx1) (b b1 : Bool)
    (hb : b1 = b) :
    Tok a n { next_ch lx with after_comma := b, stringp := (next_ch lx).p - 1 }
      { next_ch lx1 with after_comma := b1, stringp := (next_ch lx1).p - 1 } := by
  obtain ⟨hi, he, hp, ha, hac, hst, -⟩ := h
  refine ⟨hi, he, ?_, ?_, ?_, hb, hst, ?_, ?_⟩
  · show lx1.p + 1 = lx.p + 1 + n
    omega
  · show rd lx1.mem lx1.p = rd lx.mem lx.p
    rw [hp]
    exact hi.high _ ha
  · show lx1.p + 1 - 1 = lx.p + 1 - 1 + n
    omega
  · show a ≤ lx.p + 1 - 1
    omega
  · show lx.p + 1 - 1 < lx.p + 1
    omega

theorem Shifted_next {l : Label} {lx lx1 : Lexer} (h : Shifted a n l lx lx1) (b b1 : Bool)
    (hb : b1 = b) :
    Shifted a n .start_value { next_ch lx with after_comma := b }
      { next_ch lx1 with after_comma := b1 } := by
  obtain ⟨hi, he, hp, ha, hac, hst, -⟩ := h
  exact ⟨hi, he, by show lx1.p + 1 = lx.p + 1 + n; omega, by show a ≤ lx.p + 1; omega, hb, hst,
    trivial⟩

theorem post_start_value (vt : H → ajson_sax_cb_t σ H) (lx lx1 : Lexer) (cs : Consumer σ H)
    (h : Shifted a n .start_value lx lx1) :
    Sim True AnyJump (Shifted a n) (start_value vt lx1 cs) (start_value vt lx cs) := by
  have hch : (next_ch lx1).ch = (next_ch lx).ch := Shifted_rd h
  have hn := Shifted_next h
  have ht := Tok_value h
  obtain ⟨hi, he, hp, ha, hac, hst, -⟩ := h
  unfold start_value
  dsimp only
  refine Sim_ite (by omega) (fun _ => Sim_error _ _ _) (fun _ => ?_)
  refine Sim_ite (by rw [hch]) (fun h34 => Sim_goto _ _ _ _ (fun _ => ?_)) (fun _ => ?_)
  · refine ⟨hi, he, by show lx1.p + 1 = lx.p + 1 + n; omega, by show a ≤ lx.p + 1; omega, rfl,
      hst, ?_, ?_, Nat.le_refl _, ?_⟩
    · show lx1.p + 1 = lx.p + 1 + n
      omega
    · show a < lx.p + 1
      omega
    · show rd lx.mem (lx.p + 1 - 1) = 34
      exact h34
  refine Sim_ite (by rw [hch]) (fun _ => Sim_goto _ _ _ _ (fun _ => ?_)) (fun _ => ?_)
  · exact ⟨hi, he, by show lx1.p + 1 = lx.p + 1 + n; omega, by show a ≤ lx.p + 1; omega, hac,
      hst, trivial⟩
  refine Sim_ite (by rw [hch]) (fun _ => ?_) (fun _ => ?_)
  · exact Sim_open_container vt _ _ cs _ _ _ hst (fun _ =>
      ⟨hi, he, by show lx1.p + 1 = lx.p + 1 + n; omega, by show a ≤ lx.p + 1; omega, rfl,
        by show _ :: lx1.stack = _ :: lx.stack; rw [hst], trivial⟩)
  refine Sim_ite (by rw [hch]) (fun _ => ?_) (fun _ => ?_)
  · exact Sim_open_container vt _ _ cs _ _ _ hst (fun _ =>
      ⟨hi, he, by show lx1.p + 1 = lx.p + 1 + n; omega, by show a ≤ lx.p + 1; omega, rfl,
        by show _ :: lx1.stack = _ :: lx.stack; rw [hst], trivial⟩)
  refine Sim_ite (by rw [hch]) (fun _ => ?_) (fun _ => ?_)
  · exact Sim_close_here vt _ _ cs _ hac (fun _ =>
      ⟨hi, he, by show lx1.p + 1 = lx.p + 1 + n; omega, by show a ≤ lx.p + 1; omega, hac,
        by show lx1.stack.tail = lx.stack.tail; rw [hst], trivial⟩)
  refine Sim_ite (by rw [hch]) (fun _ => ?_) (fun _ => ?_)
  · exact post_start_value_minus vt _ _ cs (Tok_next_ch (ht false false rfl))
  refine Sim_ite (by rw [hch]) (fun _ => ?_) (fun _ => ?_)
  · exact post_zero_case vt _ _ cs _ _ _ (ht false false rfl) (Or.inl rfl) (Or.inl rfl)
      (Or.inl rfl)
  refine Sim_ite (by rw [hch]) (fun _ => Sim_goto _ _ _ _ (fun _ => ?_)) (fun _ => ?_)
  · exact Tok_shifted (ht false false rfl) _ (by trivial)
  refine Sim_ite (by rw [hch]) (fun _ => ?_) (fun _ => ?_)
  · exact post_literal vt _ _ cs _ _ _ (hn false false rfl) (Or.inl rfl)
  refine Sim_ite (by rw [hch]) (fun _ => ?_) (fun _ => ?_)
  · exact post_literal vt _ _ cs _ _ _ (hn false false rfl) (Or.inl rfl)
  refine Sim_ite (by rw [hch]) (fun _ => ?_) (fun _ => Sim_error _ _ _)
  exact post_literal vt _ _ cs _ _ _ (hn false false rfl) (Or.inl rfl)

theorem post_start_key_object (vt : H → ajson_sax_cb_t σ H) (lx lx1 : Lexer)
    (cs : Consumer σ H) (h : Shifted a n .start_key_object lx lx1) :
    Sim True AnyJump (Shifted a n) (start_key_object vt lx1 cs) (start_key_object vt lx cs) := by
  have hch : (next_ch lx1).ch = (next_ch lx).ch := Shifted_rd h
  have hn := Shifted_next h
  have ht := Tok_value h
  obtain ⟨hi, he, hp, ha, hac, hst, -⟩ := h
  unfold start_key_object
  dsimp only
  refine Sim_ite (by omega) (fun _ => Sim_error _ _ _) (fun _ => ?_)
  refine Sim_ite (by rw [hch]) (fun h34 => Sim_goto _ _ _ _ (fun _ => ?_)) (fun _ => ?_)
  · refine ⟨hi, he, by show lx1.p + 1 = lx.p + 1 + n; omega, by show a ≤ lx.p + 1; omega, hac,
      hst, ?_, ?_, Nat.le_refl _, ?_⟩
    · show lx1.p + 1 = lx.p + 1 + n
      omega
    · show a < lx.p + 1
      omega
    · show rd lx.mem (lx.p + 1 - 1) = 34
      exact h34
  refine Sim_ite (by rw [hch]) (fun _ => Sim_goto _ _ _ _ (fun _ => ?_)) (fun _ => ?_)
  · exact ⟨hi, he, by show lx1.p + 1 = lx.p + 1 + n; omega, by show a ≤ lx.p + 1; omega, hac,
      hst, trivial⟩
  refine Sim_ite (by rw [hch]) (fun _ => ?_) (fun _ => ?_)
  · exact Sim_open_container vt _ _ cs _ _ _ hst (fun _ =>
      ⟨hi, he, by show lx1.p + 1 = lx.p + 1 + n; omega, by show a ≤ lx.p + 1; omega, hac,
        by show _ :: lx1.stack = _ :: lx.stack; rw [hst], trivial⟩)
  refine Sim_ite (by rw [hch]) (fun _ => ?_) (fun _ => ?_)
  · exact Sim_open_container vt _ _ cs _ _ _ hst (fun _ =>
      ⟨hi, he, by show lx1.p + 1 = lx.p + 1 + n; omega, by show a ≤ lx.p + 1; omega, hac,
        by show _ :: lx1.stack = _ :: lx.stack; rw [hst], trivial⟩)
  refine Sim_ite (by rw [hch]) (fun _ => ?_) (fun _ => ?_)
  · exact post_start_key_object_minus vt _ _ cs (Tok_next_ch (ht _ _ hac))
  refine Sim_ite (by rw [hch]) (fun _ => ?_) (fun _ => ?_)
  · exact post_zero_case vt _ _ cs _ _ _ (ht _ _ hac) (Or.inr rfl) (Or.inr rfl) (Or.inr rfl)
  refine Sim_ite (by rw [hch]) (fun _ => Sim_goto _ _ _ _ (fun _ => ?_)) (fun _ => ?_)
  · exact Tok_shifted (ht _ _ hac) _ (by trivial)
  refine Sim_ite (by rw [hch]) (fun _ => ?_) (fun _ => ?_)
  · exact post_literal vt _ _ cs _ _ _ (hn _ _ hac) (Or.inr rfl)
  refine Sim_ite (by rw [hch]) (fun _ => ?_) (fun _ => ?_)
  · exact post_literal vt _ _ cs _ _ _ (hn _ _ hac) (Or.inr rfl)
  refine Sim_ite (by rw [hch]) (fun _ => ?_) (fun _ => Sim_error _ _ _)
  exact post_literal vt _ _ cs _ _ _ (hn _ _ hac) (Or.inr rfl)

theorem post_start_key (vt : H → ajson_sax_cb_t σ H) (lx lx1 : Lexer) (cs : Consumer σ H)
    (h : Shifted a n .start_key lx lx1) :
    Sim True AnyJump (Shifted a n) (start_key vt lx1 cs) (start_key vt lx cs) := by
  have hch : (next_ch lx1).ch = (next_ch lx).ch := Shifted_rd h
  obtain ⟨hi, he, hp, ha, hac, hst, -⟩ := h
  unfold start_key
  dsimp only
  refine Sim_ite (by omega) (fun _ => Sim_error _ _ _) (fun _ => ?_)
  refine Sim_ite (by rw [hch]) (fun h34 => Sim_goto _ _ _ _ (fun _ => ?_)) (fun _ => ?_)
  · refine ⟨hi, he, by show lx1.p + 1 = lx.p + 1 + n; omega, by show a ≤ lx.p + 1; omega, rfl,
      hst, ?_, ?_, Nat.le_refl _, ?_⟩
    · show lx1.p + 1 = lx.p + 1 + n
      omega
    · show a < lx.p + 1
      omega
    · show rd lx.mem (lx.p + 1 - 1) = 34
      exact h34
  refine Sim_ite (by rw [hch]) (fun _ => Sim_goto _ _ _ _ (fun _ => ?_)) (fun _ => ?_)
  · exact ⟨hi, he, by show lx1.p + 1 = lx.p + 1 + n; omega, by show a ≤ lx.p + 1; omega, hac,
      hst, trivial⟩
  refine Sim_ite (by rw [hch]) (fun _ => ?_) (fun _ => Sim_error _ _ _)
  exact Sim_close_here vt _ _ cs _ hac (fun _ =>
    ⟨hi, he, by show lx1.p + 1 = lx.p + 1 + n; omega, by show a ≤ lx.p + 1; omega, hac,
      by show lx1.stack.tail = lx.stack.tail; rw [hst], trivial⟩)

theorem post_look_for_key (vt : H → ajson_sax_cb_t σ H) (lx lx1 : Lexer) (cs : Consumer σ H)
    (h : Shifted a n .look_for_key lx lx1) :
    Sim True AnyJump (Shifted a n) (look_for_key vt lx1 cs) (look_for_key vt lx cs) := by
  obtain ⟨hi, he, hp, ha, hac, hst, hch⟩ := h
  have hch : lx1.ch = lx.ch := hch
  unfold look_for_key
  rw [hch]
  refine Sim_ite Iff.rfl (fun _ => ?_) (fun _ => ?_)
  · refine Sim_ite (by omega) (fun _ => Sim_error _ _ _) (fun _ => Sim_goto _ _ _ _ (fun _ => ?_))
    exact ⟨hi, he, by dsimp only; omega, by dsimp only; omega, rfl, hst, trivial⟩
  refine Sim_ite Iff.rfl (fun _ => ?_) (fun _ => ?_)
  · exact Sim_close_ahead vt _ _ cs _ hac (fun _ =>
      ⟨hi, he, by show lx1.p + 1 = lx.p + 1 + n; omega, by show a ≤ lx.p + 1; omega, hac,
        by show lx1.stack.tail = lx.stack.tail; rw [hst], trivial⟩)
  refine Sim_ite Iff.rfl (fun _ => Sim_goto _ _ _ _ (fun _ => ?_)) (fun _ => Sim_error _ _ _)
  refine ⟨hi, he, by dsimp only; omega, by dsimp only; omega, hac, hst, ?_⟩
  show rd lx1.mem (lx1.p + 1) = rd lx.mem (lx.p + 1)
  rw [show lx1.p + 1 = lx.p + 1 + n by omega]
  exact hi.high _ (by omega)

theorem post_look_for_next_object (vt : H → ajson_sax_cb_t σ H) (lx lx1 : Lexer)
    (cs : Consumer σ H) (h : Shifted a n .look_for_next_object lx lx1) :
    Sim True AnyJump (Shifted a n) (look_for_next_object vt lx1 cs)
      (look_for_next_object vt lx cs) := by
  obtain ⟨hi, he, hp, ha, hac, hst, hch⟩ := h
  have hch : lx1.ch = lx.ch := hch
  have hend : ∀ y y1 : Lexer, y1.stack = y.stack → Sim True AnyJump (Shifted a n)
      (if stack_depth y1 = 0 then .ret 0 y1 cs else SAX_ERROR y1 cs)
      (if stack_depth y = 0 then .ret 0 y cs else SAX_ERROR y cs) := fun y y1 hy =>
    Sim_ite (by unfold stack_depth; rw [hy]) (fun _ => Sim_ret _ _ _ _) (fun _ => Sim_error _ _ _)
  unfold look_for_next_object
  rw [hch]
  refine Sim_ite Iff.rfl (fun _ => ?_) (fun _ => ?_)
  · refine Sim_ite (by omega) (fun _ => Sim_error _ _ _) (fun _ => Sim_goto _ _ _ _ (fun _ => ?_))
    exact ⟨hi, he, by dsimp only; omega, by dsimp only; omega, rfl, hst, trivial⟩
  refine Sim_ite Iff.rfl (fun _ => ?_) (fun _ => ?_)
  · exact Sim_close_ahead vt _ _ cs _ hac (fun _ =>
      ⟨hi, he, by show lx1.p + 1 = lx.p + 1 + n; omega, by show a ≤ lx.p + 1; omega, hac,
        by show lx1.stack.tail = lx.stack.tail; rw [hst], trivial⟩)
  refine Sim_ite Iff.rfl (fun _ => ?_) (fun _ => ?_)
  · dsimp only
    refine Sim_ite (by omega) (fun _ => hend _ _ hst) (fun _ => Sim_goto _ _ _ _ (fun _ => ?_))
    refine ⟨hi, he, by dsimp only; omega, by dsimp only; omega, hac, hst, ?_⟩
    show rd lx1.mem (lx1.p + 1) = rd lx.mem (lx.p + 1)
    rw [show lx1.p + 1 = lx.p + 1 + n by omega]
    exact hi.high _ (by omega)
  · exact Sim_ite Iff.rfl (fun _ => hend _ _ hst) (fun _ => Sim_error _ _ _)

theorem post_determine_next_step (lx lx1 : Lexer) (cs : Consumer σ H)
    (h : Shifted a n .determine_next_step lx lx1) :
    Sim True AnyJump (Shifted a n) (determine_next_step lx1 cs) (determine_next_step lx cs) := by
  have hr := Shifted_rd h
  obtain ⟨hi, he, hp, ha, hac, hst, -⟩ := h
  unfold determine_next_step
  refine Sim_ite (by unfold stack_depth; rw [hst]) (fun _ => Sim_ret _ _ _ _) (fun _ => ?_)
  refine Sim_ite (by omega) (fun _ => Sim_ret _ _ _ _) (fun _ => ?_)
  dsimp only
  refine Sim_ite (by unfold CURRENT_MODE; rw [hst]) (fun _ => Sim_goto _ _ _ _ (fun _ => ?_))
    (fun _ => Sim_goto _ _ _ _ (fun _ => ?_))
  · exact ⟨hi, he, hp, ha, hac, hst, hr⟩
  · exact ⟨hi, he, hp, ha, hac, hst, hr⟩

/-- Past the inserted bytes the two scanners make the same transition. -/
theorem step_post (vt : H → ajson_sax_cb_t σ H) (l : Label) (lx lx1 : Lexer)
    (cs : Consumer σ H) (h : Shifted a n l lx lx1) :
    Sim True AnyJump (Shifted a n) (step vt l lx1 cs) (step vt l lx cs) := by
  cases l
  case start_key => exact post_start_key vt lx lx1 cs h
  case get_end_of_key => exact post_get_end_of_key vt lx lx1 cs h
  case start_key_object => exact post_start_key_object vt lx lx1 cs h
  case keyed_start_string => exact post_string_body vt lx lx1 cs _ _ h (Or.inr rfl) (Or.inr rfl)
  case look_for_key => exact post_look_for_key vt lx lx1 cs h
  case keyed_next_digit =>
    exact post_next_digit_body vt lx lx1 cs _ _ _ h (Or.inr rfl) (Or.inr rfl) (Or.inr rfl)
  case keyed_decimal_number =>
    exact post_decimal_number_body vt lx lx1 cs _ _ h (Or.inr rfl) (Or.inr rfl)
  case start_value => exact post_start_value vt lx lx1 cs h
  case start_string => exact post_string_body vt lx lx1 cs _ _ h (Or.inl rfl) (Or.inl rfl)
  case add_string =>
    exact Sim_goto _ _ _ _ (fun _ => ⟨h.1, h.2.1, h.2.2.1, h.2.2.2.1, h.2.2.2.2.1,
      h.2.2.2.2.2.1, h.2.2.2.2.2.2⟩)
  case look_for_next_object => exact post_look_for_next_object vt lx lx1 cs h
  case next_digit =>
    exact post_next_digit_body vt lx lx1 cs _ _ _ h (Or.inl rfl) (Or.inl rfl) (Or.inl rfl)
  case decimal_number =>
    exact post_decimal_number_body vt lx lx1 cs _ _ h (Or.inl rfl) (Or.inl rfl)
  case determine_next_step => exact post_determine_next_step lx lx1 cs h

/-- Past the inserted bytes the two scanners run alike: the same return code and
the same consumer state. -/
theorem run_post (vt : H → ajson_sax_cb_t σ H) (f : Nat) (l : Label) (lx lx1 : Lexer)
    (cs : Consumer σ H) (r : Result σ H) (h : Shifted a n l lx lx1)
    (hr : run vt f l lx cs = some r) :
    ∃ r1, run vt f l lx1 cs = some r1 ∧ r1.rc = r.rc ∧ r1.cs = r.cs := by
  induction f generalizing l lx lx1 cs with
  | zero => simp [run] at hr
  | succ f ih =>
    have hs := step_post vt l lx lx1 cs h
    unfold run at hr ⊢
    cases h1 : step vt l lx cs with
    | ret rc lx2 cs2 =>
      rw [h1] at hr hs
      obtain ⟨lx3, h3⟩ := hs trivial
      rw [h3]
      simp only [Option.some.injEq] at hr
      subst hr
      exact ⟨_, rfl, rfl, rfl⟩
    | goto l2 lx2 cs2 =>
      rw [h1] at hr hs
      obtain ⟨lx3, h3, hq⟩ := hs trivial
      rw [h3]
      exact ih _ _ _ _ hq hr

end Post2

/-! ### The cursor never moves back -/

section Adv

variable {σ H : Type}

theorem OnGoto_mono {Q Q1 : Label → Lexer → Prop} (h : ∀ l lx, Q l lx → Q1 l lx)
    {s : Step σ H} (hs : OnGoto Q s) : OnGoto Q1 s := by
  cases s with
  | ret _ _ _ => trivial
  | goto l lx cs => exact h l lx hs

theorem digits_lt (lx : Lexer) (hf : Fresh lx) (hd : isDigit lx.ch) : lx.p < (digits lx).p := by
  have hlt : lx.p - 1 < lx.mem.length := rd_ne_zero (by rw [← hf.2]; exact isDigit_ne_zero hd)
  have h1 := hf.1
  obtain ⟨f, hfu⟩ : ∃ f, lx.mem.length + 2 - lx.p = f + 1 := ⟨lx.mem.length + 1 - lx.p, by omega⟩
  unfold digits
  dsimp only
  rw [hfu]
  unfold digit_loop
  rw [if_pos hd]
  have := digit_loop_ge lx.mem f (rd lx.mem lx.p) (lx.p + 1)
  omega

/-- The optional exponent: either there is none, or the cursor ends at least two
bytes further. -/
theorem adv_exponent_part {Q : Label → Lexer → Prop} (lx : Lexer) (cs : Consumer σ H)
    (k : Lexer → Step σ H)
    (hk0 : ¬ (lx.ch = 101 ∨ lx.ch = 69) → OnGoto Q (k lx))
    (hk1 : ∀ y, Scanned lx y → lx.p + 2 ≤ y.p → OnGoto Q (k y)) :
    OnGoto Q (exponent_part lx cs k) := by
  unfold exponent_part
  refine wp_ite (fun _ => ?_) (fun h => hk0 h)
  dsimp only
  have h1 := Scanned_next_ch lx
  have h2 : Scanned lx (if (next_ch lx).ch = 43 ∨ (next_ch lx).ch = 45 then next_ch (next_ch lx)
      else next_ch lx) ∧ lx.p + 1 ≤ (if (next_ch lx).ch = 43 ∨ (next_ch lx).ch = 45 then
        next_ch (next_ch lx) else next_ch lx).p := by
    split
    · exact ⟨Scanned_trans h1 (Scanned_next_ch _), by show lx.p + 1 ≤ lx.p + 1 + 1; omega⟩
    · exact ⟨h1, Nat.le_refl _⟩
  refine wp_ite (fun _ => trivial) (fun hd => ?_)
  have hd : isDigit (if (next_ch lx).ch = 43 ∨ (next_ch lx).ch = 45 then next_ch (next_ch lx)
      else next_ch lx).ch := by
    unfold isDigit
    omega
  have h3 := digits_lt _ h2.1.1 hd
  exact hk1 _ (Scanned_trans h2.1 (Scanned_digits h2.1.1)) (by omega)

theorem adv_finish_number {Q : Label → Lexer → Prop} (vt : H → ajson_sax_cb_t σ H)
    (lx : Lexer) (cs : Consumer σ H) (next : Label) (hf : Fresh lx)
    (h : Q next { lx with p := lx.p - 1, mem := lx.mem }) :
    OnGoto Q (finish_number vt lx cs next) := by
  apply OnGoto_finish_number
  have e : wr (wr lx.mem (lx.p - 1) 0) (lx.p - 1) lx.ch = lx.mem := by
    rw [hf.2]
    exact wr_restore _ _
  rw [e]
  exact h

theorem adv_next_digit_body (vt : H → ajson_sax_cb_t σ H) (lx : Lexer) (cs : Consumer σ H)
    (l dec next : Label) (hl : l = .next_digit ∨ l = .keyed_next_digit) :
    OnGoto (Advances l lx) (next_digit_body vt lx cs dec next) := by
  have hs := Scanned_trans (Scanned_next_ch lx) (Scanned_digits (Fresh_next_ch lx))
  have hp : lx.p + 1 ≤ (digits (next_ch lx)).p := (digits_spec _ (Fresh_next_ch lx)).2.1
  unfold next_digit_body
  dsimp only
  refine wp_ite (fun _ => Or.inl (by omega)) (fun h46 => ?_)
  refine adv_exponent_part _ cs _ (fun he => ?_) (fun y hy hyp => ?_)
  · refine adv_finish_number vt _ cs next hs.1 ?_
    by_cases hlt : lx.p + 1 < (digits (next_ch lx)).p
    · exact Or.inl (by dsimp only; omega)
    · have hpe : (digits (next_ch lx)).p = lx.p + 1 := by omega
      refine Or.inr ⟨by dsimp only; omega, ?_⟩
      have hch : (digits (next_ch lx)).ch = rd lx.mem lx.p := by
        rw [hs.1.2, hpe, hs.2.2.1]
        rfl
      have hnd := digits_stops _ (Fresh_next_ch lx)
      rw [hch] at hnd h46 he
      have : Delim (rd lx.mem lx.p) := ⟨hnd, h46, fun h => he (Or.inl h), fun h => he (Or.inr h)⟩
      rcases hl with rfl | rfl <;> exact this
  · refine adv_finish_number vt _ cs next hy.1 (Or.inl ?_)
    dsimp only
    omega

theorem adv_decimal_number_body (vt : H → ajson_sax_cb_t σ H) (lx : Lexer)
    (cs : Consumer σ H) (next : Label) :
    OnGoto (fun _ lx1 => lx.p < lx1.p) (decimal_number_body vt lx cs next) := by
  have h1 := Scanned_next_ch lx
  unfold decimal_number_body
  dsimp only
  refine wp_ite (fun _ => trivial) (fun hd => ?_)
  have hd : isDigit (next_ch lx).ch := by
    unfold isDigit
    omega
  have hlt := digits_lt _ h1.1 hd
  have hs := Scanned_trans h1 (Scanned_digits h1.1)
  have hp1 : (next_ch lx).p = lx.p + 1 := rfl
  refine adv_exponent_part _ cs _ (fun _ => ?_) (fun y hy hyp => ?_)
  · refine adv_finish_number vt _ cs next hs.1 ?_
    dsimp only
    omega
  · refine adv_finish_number vt _ cs next hy.1 ?_
    dsimp only
    omega

theorem adv_string_body (vt : H → ajson_sax_cb_t σ H) (lx : Lexer) (cs : Consumer σ H)
    (self next : Label) :
    OnGoto (fun _ lx1 => scan_to lx.mem lx.ep 34 (lx.ep - lx.p) lx.p < lx1.p)
      (string_body vt lx cs self next) := by
  unfold string_body
  dsimp only
  refine wp_ite (fun _ => trivial) (fun _ => ?_)
  refine wp_ite (fun _ => Nat.lt_succ_self _) (fun _ => ?_)
  apply OnGoto_finish_string
  exact Nat.lt_succ_self _

theorem adv_get_end_of_key (vt : H → ajson_sax_cb_t σ H) (lx : Lexer) (cs : Consumer σ H) :
    OnGoto (fun _ lx1 => scan_to lx.mem lx.ep 34 (lx.ep - lx.p) lx.p < lx1.p)
      (get_end_of_key vt lx cs) := by
  unfold get_end_of_key
  dsimp only
  refine wp_ite (fun _ => Nat.lt_succ_self _) (fun _ => ?_)
  apply OnGoto_finish_key
  dsimp only
  split
  · have := scan_to_ge (wr (wr lx.mem (scan_to lx.mem lx.ep 34 (lx.ep - lx.p) lx.p) 0)
      (scan_to lx.mem lx.ep 34 (lx.ep - lx.p) lx.p) 34) lx.ep 58
      (lx.ep - (scan_to lx.mem lx.ep 34 (lx.ep - lx.p) lx.p + 1))
      (scan_to lx.mem lx.ep 34 (lx.ep - lx.p) lx.p + 1)
    dsimp only
    omega
  · have := scan_to_ge (wr lx.mem (scan_to lx.mem lx.ep 34 (lx.ep - lx.p) lx.p) 34) lx.ep 58
      (lx.ep - (scan_to lx.mem lx.ep 34 (lx.ep - lx.p) lx.p + 1))
      (scan_to lx.mem lx.ep 34 (lx.ep - lx.p) lx.p + 1)
    dsimp only
    omega

theorem adv_start_value_minus (vt : H → ajson_sax_cb_t σ H) (lx : Lexer) (cs : Consumer σ H) :
    OnGoto (fun _ lx1 => lx.p ≤ lx1.p) (start_value_minus vt lx cs) := by
  unfold start_value_minus
  refine wp_ite (fun _ => ?_) (fun _ => wp_ite (fun _ => Nat.le_refl _) (fun _ => trivial))
  dsimp only
  refine wp_ite (fun _ => Nat.le_succ _) (fun _ => ?_)
  refine wp_ite (fun _ => Nat.le_refl _) (fun _ => ?_)
  refine wp_ite (fun _ => trivial) (fun _ => ?_)
  exact OnGoto_CHECK_CB vt _ cs _ _ (fun _ => Nat.le_refl _)

theorem adv_start_key_object_minus (vt : H → ajson_sax_cb_t σ H) (lx : Lexer)
    (cs : Consumer σ H) :
    OnGoto (fun _ lx1 => lx.p ≤ lx1.p) (start_key_object_minus vt lx cs) := by
  unfold start_key_object_minus
  refine wp_ite (fun _ => ?_) (fun _ => wp_ite (fun _ => Nat.le_refl _) (fun _ => trivial))
  dsimp only
  refine wp_ite (fun _ => Nat.le_succ _) (fun _ => ?_)
  refine wp_ite (fun _ => Nat.le_refl _) (fun _ => ?_)
  refine wp_ite (fun _ => trivial) (fun _ => ?_)
  exact OnGoto_CHECK_CB vt _ cs _ _ (fun _ => Nat.le_refl _)

theorem adv_start_value (vt : H → ajson_sax_cb_t σ H) (lx : Lexer) (cs : Consumer σ H) :
    OnGoto (fun _ lx1 => lx.p < lx1.p) (start_value vt lx cs) := by
  have h1 : lx.p < (next_ch lx).p := Nat.lt_succ_self _
  unfold start_value
  dsimp only
  refine wp_ite (fun _ => trivial) (fun _ => ?_)
  refine wp_ite (fun _ => h1) (fun _ => ?_)
  refine wp_ite (fun _ => h1) (fun _ => ?_)
  refine wp_ite (fun _ => OnGoto_open_container vt _ cs _ _ _ h1) (fun _ => ?_)
  refine wp_ite (fun _ => OnGoto_open_container vt _ cs _ _ _ h1) (fun _ => ?_)
  refine wp_ite (fun _ => OnGoto_close_here vt _ cs _ h1) (fun _ => ?_)
  refine wp_ite (fun _ => ?_) (fun _ => ?_)
  · refine OnGoto_mono (fun l y hy => ?_) (adv_start_value_minus vt _ cs)
    have : lx.p + 1 + 1 ≤ y.p := hy
    omega
  refine wp_ite (fun _ => ?_) (fun _ => ?_)
  · exact OnGoto_zero_case vt _ cs _ _ _ (fun _ => Nat.lt_succ_of_lt h1) (fun _ => h1) h1
  refine wp_ite (fun _ => h1) (fun _ => ?_)
  have hlit : ∀ word ev, OnGoto (fun _ lx1 => lx.p < lx1.p)
      (literal vt { next_ch lx with after_comma := false } cs word ev .add_string) :=
    fun word ev => OnGoto_literal vt _ cs word ev _ (fun _ => by
      show lx.p < lx.p + 1 + word.length
      omega)
  refine wp_ite (fun _ => hlit _ _) (fun _ => ?_)
  refine wp_ite (fun _ => hlit _ _) (fun _ => ?_)
  exact wp_ite (fun _ => hlit _ _) (fun _ => trivial)

theorem adv_start_key_object (vt : H → ajson_sax_cb_t σ H) (lx : Lexer) (cs : Consumer σ H) :
    OnGoto (fun _ lx1 => lx.p < lx1.p) (start_key_object vt lx cs) := by
  have h1 : lx.p < (next_ch lx).p := Nat.lt_succ_self _
  unfold start_key_object
  dsimp only
  refine wp_ite (fun _ => trivial) (fun _ => ?_)
  refine wp_ite (fun _ => h1) (fun _ => ?_)
  refine wp_ite (fun _ => h1) (fun _ => ?_)
  refine wp_ite (fun _ => OnGoto_open_container vt _ cs _ _ _ h1) (fun _ => ?_)
  refine wp_ite (fun _ => OnGoto_open_container vt _ cs _ _ _ h1) (fun _ => ?_)
  refine wp_ite (fun _ => ?_) (fun _ => ?_)
  · refine OnGoto_mono (fun l y hy => ?_) (adv_start_key_object_minus vt _ cs)
    have : lx.p + 1 + 1 ≤ y.p := hy
    omega
  refine wp_ite (fun _ => ?_) (fun _ => ?_)
  · exact OnGoto_zero_case vt _ cs _ _ _ (fun _ => Nat.lt_succ_of_lt h1) (fun _ => h1) h1
  refine wp_ite (fun _ => h1) (fun _ => ?_)
  have hlit : ∀ word ev, OnGoto (fun _ lx1 => lx.p < lx1.p)
      (literal vt (next_ch lx) cs word ev .look_for_key) :=
    fun word ev => OnGoto_literal vt _ cs word ev _ (fun _ => by
      show lx.p < lx.p + 1 + word.length
      omega)
  refine wp_ite (fun _ => hlit _ _) (fun _ => ?_)
  refine wp_ite (fun _ => hlit _ _) (fun _ => ?_)
  exact wp_ite (fun _ => hlit _ _) (fun _ => trivial)

theorem adv_start_key (vt : H → ajson_sax_cb_t σ H) (lx : Lexer) (cs : Consumer σ H) :
    OnGoto (fun _ lx1 => lx.p < lx1.p) (start_key vt lx cs) := by
  have h1 : lx.p < (next_ch lx).p := Nat.lt_succ_self _
  unfold start_key
  dsimp only
  refine wp_ite (fun _ => trivial) (fun _ => ?_)
  refine wp_ite (fun _ => h1) (fun _ => ?_)
  refine wp_ite (fun _ => h1) (fun _ => ?_)
  exact wp_ite (fun _ => OnGoto_close_here vt _ cs _ h1) (fun _ => trivial)

theorem adv_look_for_key (vt : H → ajson_sax_cb_t σ H) (lx : Lexer) (cs : Consumer σ H) :
    OnGoto (fun _ lx1 => lx.p < lx1.p) (look_for_key vt lx cs) := by
  unfold look_for_key
  refine wp_ite (fun _ => wp_ite (fun _ => trivial) (fun _ => Nat.lt_succ_self _)) (fun _ => ?_)
  refine wp_ite (fun _ => OnGoto_close_ahead vt _ cs _ (Nat.lt_succ_self _)) (fun _ => ?_)
  exact wp_ite (fun _ => Nat.lt_succ_self _) (fun _ => trivial)

theorem adv_look_for_next_object (vt : H → ajson_sax_cb_t σ H) (lx : Lexer)
    (cs : Consumer σ H) :
    OnGoto (fun _ lx1 => lx.p < lx1.p) (look_for_next_object vt lx cs) := by
  unfold look_for_next_object
  refine wp_ite (fun _ => wp_ite (fun _ => trivial) (fun _ => Nat.lt_succ_self _)) (fun _ => ?_)
  refine wp_ite (fun _ => OnGoto_close_ahead vt _ cs _ (Nat.lt_succ_self _)) (fun _ => ?_)
  refine wp_ite (fun _ => ?_) (fun _ => ?_)
  · dsimp only
    exact wp_ite (fun _ => wp_ite (fun _ => trivial) (fun _ => trivial))
      (fun _ => Nat.lt_succ_self _)
  · exact wp_ite (fun _ => wp_ite (fun _ => trivial) (fun _ => trivial)) (fun _ => trivial)

/-- Every jump advances the cursor, or leaves it in place from a state that can
stay. -/
theorem step_advances (vt : H → ajson_sax_cb_t σ H) (l : Label) (lx : Lexer)
    (cs : Consumer σ H) : OnGoto (Advances l lx) (step vt l lx cs) := by
  have hq := scan_to_ge lx.mem lx.ep 34 (lx.ep - lx.p) lx.p
  cases l
  case start_key => exact OnGoto_mono (fun _ _ h => Or.inl h) (adv_start_key vt lx cs)
  case get_end_of_key =>
    exact OnGoto_mono (fun _ _ h => Or.inl (Nat.lt_of_le_of_lt hq h)) (adv_get_end_of_key vt lx cs)
  case start_key_object =>
    exact OnGoto_mono (fun _ _ h => Or.inl h) (adv_start_key_object vt lx cs)
  case keyed_start_string =>
    exact OnGoto_mono (fun _ _ h => Or.inl (Nat.lt_of_le_of_lt hq h))
      (adv_string_body vt lx cs _ _)
  case look_for_key => exact OnGoto_mono (fun _ _ h => Or.inl h) (adv_look_for_key vt lx cs)
  case keyed_next_digit => exact adv_next_digit_body vt lx cs _ _ _ (Or.inr rfl)
  case keyed_decimal_number =>
    exact OnGoto_mono (fun _ _ h => Or.inl h)
      (adv_decimal_number_body vt lx cs _)
  case start_value => exact OnGoto_mono (fun _ _ h => Or.inl h) (adv_start_value vt lx cs)
  case start_string =>
    exact OnGoto_mono (fun _ _ h => Or.inl (Nat.lt_of_le_of_lt hq h))
      (adv_string_body vt lx cs _ _)
  case add_string => exact Or.inr ⟨rfl, trivial⟩
  case look_for_next_object =>
    exact OnGoto_mono (fun _ _ h => Or.inl h) (adv_look_for_next_object vt lx cs)
  case next_digit => exact adv_next_digit_body vt lx cs _ _ _ (Or.inl rfl)
  case decimal_number =>
    exact OnGoto_mono (fun _ _ h => Or.inl h) (adv_decimal_number_body vt lx cs _)
  case determine_next_step =>
    unfold step determine_next_step
    refine wp_ite (fun _ => trivial) (fun _ => ?_)
    refine wp_ite (fun _ => trivial) (fun _ => ?_)
    dsimp only
    exact wp_ite (fun _ => Or.inr ⟨rfl, trivial⟩) (fun _ => Or.inr ⟨rfl, trivial⟩)

theorem reach_p_mono (vt : H → ajson_sax_cb_t σ H) (k : Nat) (l l1 : Label) (lx lx1 : Lexer)
    (cs cs1 : Consumer σ H) (h : reach vt k l lx cs = some (l1, lx1, cs1)) : lx.p ≤ lx1.p := by
  induction k generalizing l lx cs with
  | zero =>
    simp only [reach, Option.some.injEq, Prod.mk.injEq] at h
    rw [h.2.1]
  | succ k ih =>
    have ha := step_advances vt l lx cs
    unfold reach at h
    cases hs : step vt l lx cs with
    | ret rc lx2 cs2 =>
      rw [hs] at h
      simp at h
    | goto l2 lx2 cs2 =>
      rw [hs] at h ha
      have := ih _ _ _ h
      have h2 : lx.p ≤ lx2.p := by
        rcases ha with h3 | h3
        · exact Nat.le_of_lt h3
        · exact Nat.le_of_eq h3.1.symm
      omega

end Adv

/-! ### Before the inserted bytes: the same transitions on the same bytes -/

section Pre

variable {σ H : Type} {a n : Nat}

theorem Sim_vac {G : Label → Lexer → Prop} {Q : Label → Lexer → Lexer → Prop}
    {s s1 : Step σ H} (h : OnGoto (fun l lx => ¬ G l lx) s) : Sim False G Q s1 s := by
  cases s with
  | ret _ _ _ => exact fun hf => hf.elim
  | goto l lx cs => exact fun hg => absurd hg h

theorem not_PreOk {l : Label} {lx : Lexer} (h : a < lx.p) : ¬ PreOk a l lx := by
  unfold PreOk
  omega

theorem Low_ch {lx lx1 : Lexer} (h : Low a n lx lx1) (hp : lx.p ≤ a) : lx1.ch = lx.ch := by
  have h1 := h.fresh.1
  rw [h.fresh.2, h.fresh1.2, h.p]
  exact h.ins.low _ (by omega)

theorem Low_space {lx lx1 : Lexer} (h : Low a n lx lx1) (hn : 0 < n) (hp : ¬ lx.p ≤ a) :
    isSpace lx1.ch := by
  have h1 := h.le
  rw [h.fresh1.2, h.p]
  exact h.ins.gap _ (by omega) (by omega)

theorem Low_next_ch {lx lx1 : Lexer} (h : Low a n lx lx1) (hp : lx.p ≤ a) :
    Low a n (next_ch lx) (next_ch lx1) :=
  ⟨h.ins, h.ep, h.hae, by show lx1.p + 1 = lx.p + 1; rw [h.p], by show lx.p + 1 ≤ a + 1; omega,
    Fresh_next_ch _, Fresh_next_ch _, h.stringp, h.after_comma, h.stack⟩

theorem digit_loop_nondigit (mem : List Nat) (f c q : Nat) (h : ¬ isDigit c) :
    digit_loop mem f c q = (c, q) := by
  cases f with
  | zero => rfl
  | succ f => rw [digit_loop, if_neg h]

theorem low_nondigit {mem mem1 : List Nat} (hi : Ins a n mem mem1) (hn : 0 < n)
    (c c1 q : Nat) (hc : c = rd mem q) (hc1 : c1 = rd mem1 q) (hnd : ¬ isDigit c)
    (hqa : q ≤ a) : ¬ isDigit c1 := by
  by_cases hlt : q < a
  · rw [hc1, hi.low _ hlt, ← hc]
    exact hnd
  · have := hi.gap q (by omega) (by omega)
    rw [← hc1] at this
    unfold isSpace at this
    unfold isDigit
    omega

theorem digit_loop_low {mem mem1 : List Nat} (hi : Ins a n mem mem1) (hn : 0 < n)
    (f f1 c c1 q : Nat) (hq : 1 ≤ q) (hc : c = rd mem (q - 1)) (hc1 : c1 = rd mem1 (q - 1))
    (hf : f ≤ f1) (hs : ¬ isDigit (digit_loop mem f c q).1)
    (hle : (digit_loop mem f c q).2 ≤ a + 1) :
    (digit_loop mem1 f1 c1 q).2 = (digit_loop mem f c q).2 := by
  induction f generalizing f1 c c1 q with
  | zero =>
    simp only [digit_loop] at hs hle
    rw [digit_loop_nondigit mem1 f1 c1 q (low_nondigit hi hn c c1 (q - 1) hc hc1 hs (by omega))]
    rfl
  | succ f ih =>
    by_cases hd : isDigit c
    · have e : digit_loop mem (f + 1) c q = digit_loop mem f (rd mem q) (q + 1) := by
        rw [digit_loop, if_pos hd]
      rw [e] at hs hle ⊢
      have hge := digit_loop_ge mem f (rd mem q) (q + 1)
      have hqa : q - 1 < a := by omega
      have hcc : c1 = c := by rw [hc1, hi.low _ hqa, ← hc]
      obtain ⟨g, rfl⟩ : ∃ g, f1 = g + 1 := ⟨f1 - 1, by omega⟩
      have e1 : digit_loop mem1 (g + 1) c1 q = digit_loop mem1 g (rd mem1 q) (q + 1) := by
        rw [digit_loop, if_pos (hcc ▸ hd)]
      rw [e1]
      exact ih g (rd mem q) (rd mem1 q) (q + 1) (by omega) (by simp) (by simp) (by omega) hs hle
    · rw [digit_loop_nondigit mem _ c q hd] at hle ⊢
      rw [digit_loop_nondigit mem1 f1 c1 q
        (low_nondigit hi hn c c1 (q - 1) hc hc1 hd (by simp only at hle; omega))]

theorem Low_digits {lx lx1 : Lexer} (h : Low a n lx lx1) (hn : 0 < n)
    (hd : (digits lx).p ≤ a + 1) : Low a n (digits lx) (digits lx1) := by
  have hs := digits_stops lx h.fresh
  have hp : (digits lx1).p = (digits lx).p := by
    unfold digits at hs hd ⊢
    dsimp only at hs hd ⊢
    rw [h.p]
    exact digit_loop_low h.ins hn _ _ _ _ _ h.fresh.1 h.fresh.2 (by rw [← h.p]; exact h.fresh1.2)
      (by rw [h.ins.len]; omega) hs hd
  exact ⟨h.ins, h.ep, h.hae, hp, hd, (digits_spec _ h.fresh).1, (digits_spec _ h.fresh1).1,
    h.stringp, h.after_comma, h.stack⟩

theorem pre_finish_number (vt : H → ajson_sax_cb_t σ H) (lx lx1 : Lexer) (cs : Consumer σ H)
    (next : Label) (h : Low a n lx lx1) (hn : next = .add_string ∨ next = .look_for_key) :
    Sim False (PreOk a) (Prefixed a n) (finish_number vt lx1 cs next)
      (finish_number vt lx cs next) := by
  have h1 := h.le
  have h2 := h.fresh.1
  have e : wr (wr lx.mem (lx.p - 1) 0) (lx.p - 1) lx.ch = lx.mem := by
    rw [h.fresh.2]
    exact wr_restore _ _
  have e1 : wr (wr lx1.mem (lx.p - 1) 0) (lx.p - 1) lx1.ch = lx1.mem := by
    rw [h.fresh1.2, h.p]
    exact wr_restore _ _
  unfold finish_number
  dsimp only
  rw [h.p, h.stringp, e, e1]
  refine Sim_CHECK_CB vt _ _ cs _ _ _ _ ?_ (fun c => Sim_goto _ _ _ _ (fun _ => ?_))
  · rw [slice_wr_above _ _ _ _ _ (by omega), slice_wr_above _ _ _ _ _ (by omega),
      slice_low h.ins _ _ (by omega)]
  · refine ⟨h.ins, h.ep, h.hae, rfl, by dsimp only; omega, h.after_comma, h.stack, rfl, ?_⟩
    have hc : lx.ch = rd lx.mem (lx.p - 1) := h.fresh.2
    have hc1 : lx1.ch = rd lx1.mem (lx.p - 1) := by rw [h.fresh1.2, h.p]
    rcases hn with rfl | rfl <;> exact Or.inl ⟨hc, hc1⟩

theorem vac_finish_number (vt : H → ajson_sax_cb_t σ H) (lx : Lexer) (cs : Consumer σ H)
    (next : Label) (hf : Fresh lx) (hp : a + 1 < lx.p) :
    OnGoto (fun l z => ¬ PreOk a l z) (finish_number vt lx cs next) :=
  adv_finish_number vt lx cs next hf (not_PreOk (by dsimp only; omega))

/-- The digit test, the digit loop and the rest `k` of a scan, on the two
memories. -/
theorem pre_digits_tail {G : Label → Lexer → Prop} {Q : Label → Lexer → Lexer → Prop}
    (hn : 0 < n) (lx lx1 : Lexer) (cs : Consumer σ H) (k k1 : Lexer → Step σ H)
    (h : Low a n lx lx1)
    (hk : ∀ y y1, Low a n y y1 → Sim False G Q (k1 y1) (k y))
    (hv : ∀ y, Fresh y → a + 1 < y.p → OnGoto (fun l z => ¬ G l z) (k y)) :
    Sim False G Q (if lx1.ch < 48 ∨ lx1.ch > 57 then SAX_ERROR lx1 cs else k1 (digits lx1))
      (if lx.ch < 48 ∨ lx.ch > 57 then SAX_ERROR lx cs else k (digits lx)) := by
  have hfd := (digits_spec _ h.fresh).1
  by_cases h2 : lx.p ≤ a
  · refine Sim_ite (by rw [Low_ch h h2]) (fun _ => Sim_error _ _ _) (fun _ => ?_)
    by_cases h3 : (digits lx).p ≤ a + 1
    · exact hk _ _ (Low_digits h hn h3)
    · exact Sim_vac (hv _ hfd (by omega))
  · refine wp_ite (fun _ => fun hf => hf.elim) (fun hd => ?_)
    have hd : isDigit lx.ch := by
      unfold isDigit
      omega
    have := digits_lt lx h.fresh hd
    exact Sim_vac (hv _ hfd (by omega))

theorem pre_exponent_part {G : Label → Lexer → Prop} {Q : Label → Lexer → Lexer → Prop}
    (hn : 0 < n) (lx lx1 : Lexer) (cs : Consumer σ H) (k k1 : Lexer → Step σ H)
    (h : Low a n lx lx1)
    (hk : ∀ y y1, Low a n y y1 → Sim False G Q (k1 y1) (k y))
    (hv : ∀ y, Fresh y → a + 1 < y.p → OnGoto (fun l z => ¬ G l z) (k y)) :
    Sim False G Q (exponent_part lx1 cs k1) (exponent_part lx cs k) := by
  have hle := h.le
  by_cases he : lx.ch = 101 ∨ lx.ch = 69
  · by_cases h1 : lx.p < a
    · have hch := Low_ch h (Nat.le_of_lt h1)
      have hl1 := Low_next_ch h (Nat.le_of_lt h1)
      have hch1 : (next_ch lx1).ch = (next_ch lx).ch :=
        Low_ch hl1 (by show lx.p + 1 ≤ a; omega)
      unfold exponent_part
      rw [if_pos he, if_pos (by rw [hch]; exact he)]
      dsimp only
      rw [hch1]
      by_cases hs : (next_ch lx).ch = 43 ∨ (next_ch lx).ch = 45
      · rw [if_pos hs, if_pos hs]
        exact pre_digits_tail hn _ _ cs k k1 (Low_next_ch hl1 (by show lx.p + 1 ≤ a; omega)) hk hv
      · rw [if_neg hs, if_neg hs]
        exact pre_digits_tail hn _ _ cs k k1 hl1 hk hv
    · exact Sim_vac (adv_exponent_part lx cs k (fun hne => absurd he hne)
        (fun y hy hyp => hv y hy.1 (by omega)))
  · have he1 : ¬ (lx1.ch = 101 ∨ lx1.ch = 69) := by
      by_cases h0 : lx.p ≤ a
      · rw [Low_ch h h0]
        exact he
      · have := Low_space h hn h0
        unfold isSpace at this
        omega
    unfold exponent_part
    rw [if_neg he, if_neg he1]
    exact hk _ _ h

theorem vac_exponent_finish (vt : H → ajson_sax_cb_t σ H) (lx : Lexer) (cs : Consumer σ H)
    (next : Label) (hf : Fresh lx) (hp : a + 1 < lx.p) :
    OnGoto (fun l z => ¬ PreOk a l z)
      (exponent_part lx cs fun y => finish_number vt y cs next) :=
  adv_exponent_part lx cs _ (fun _ => vac_finish_number vt lx cs next hf hp)
    (fun y hy hyp => vac_finish_number vt y cs next hy.1 (by omega))

theorem pre_exponent_finish (vt : H → ajson_sax_cb_t σ H) (hn : 0 < n) (lx lx1 : Lexer)
    (cs : Consumer σ H) (next : Label) (h : Low a n lx lx1)
    (hx : next = .add_string ∨ next = .look_for_key) :
    Sim False (PreOk a) (Prefixed a n)
      (exponent_part lx1 cs fun y => finish_number vt y cs next)
      (exponent_part lx cs fun y => finish_number vt y cs next) :=
  pre_exponent_part hn lx lx1 cs _ _ h (fun y y1 hy => pre_finish_number vt y y1 cs next hy hx)
    (fun y hy hyp => vac_finish_number vt y cs next hy hyp)

theorem Low_of_Prefixed {l : Label} {lx lx1 : Lexer} (h : Prefixed a n l lx lx1) :
    Low a n (next_ch lx) (next_ch lx1) := by
  obtain ⟨hi, he, hae, hp, ha, hac, hst, hsp, -⟩ := h
  exact ⟨hi, he, hae, by show lx1.p + 1 = lx.p + 1; rw [hp], by show lx.p + 1 ≤ a + 1; omega,
    Fresh_next_ch _, Fresh_next_ch _, hsp, hac, hst⟩

theorem Prefixed_of_Low {lx lx1 : Lexer} (h : Low a n lx lx1) (hp : lx.p ≤ a) (l : Label)
    (hl : PrefixedAt l lx lx1) : Prefixed a n l lx lx1 :=
  ⟨h.ins, h.ep, h.hae, h.p, hp, h.after_comma, h.stack, h.stringp, hl⟩

theorem pre_next_digit_body (vt : H → ajson_sax_cb_t σ H) (hn : 0 < n) (lx lx1 : Lexer)
    (cs : Consumer σ H) (l dec next : Label) (h : Prefixed a n l lx lx1)
    (hd : dec = .decimal_number ∨ dec = .keyed_decimal_number)
    (hx : next = .add_string ∨ next = .look_for_key) :
    Sim False (PreOk a) (Prefixed a n) (next_digit_body vt lx1 cs dec next)
      (next_digit_body vt lx cs dec next) := by
  have hl0 := Low_of_Prefixed h
  have hfd := (digits_spec _ hl0.fresh).1
  unfold next_digit_body
  dsimp only
  by_cases h3 : (digits (next_ch lx)).p ≤ a + 1
  · have hl := Low_digits hl0 hn h3
    by_cases h4 : (digits (next_ch lx)).p ≤ a
    · refine Sim_ite (by rw [Low_ch hl h4]) (fun _ => Sim_goto _ _ _ _ (fun _ => ?_)) (fun _ => ?_)
      · exact Prefixed_of_Low hl h4 _ (by rcases hd with rfl | rfl <;> trivial)
      · exact pre_exponent_finish vt hn _ _ cs next hl hx
    · have hsp := Low_space hl hn h4
      rw [if_neg (by unfold isSpace at hsp; omega)]
      refine wp_ite (fun _ => fun hok => absurd hok (not_PreOk (by omega))) (fun _ => ?_)
      exact pre_exponent_finish vt hn _ _ cs next hl hx
  · refine wp_ite (fun _ => fun hok => absurd hok (not_PreOk (by omega))) (fun _ => ?_)
    exact Sim_vac (vac_exponent_finish vt _ cs next hfd (by omega))

theorem pre_decimal_number_body (vt : H → ajson_sax_cb_t σ H) (hn : 0 < n) (lx lx1 : Lexer)
    (cs : Consumer σ H) (l next : Label) (h : Prefixed a n l lx lx1)
    (hx : next = .add_string ∨ next = .look_for_key) :
    Sim False (PreOk a) (Prefixed a n) (decimal_number_body vt lx1 cs next)
      (decimal_number_body vt lx cs next) := by
  have hl0 := Low_of_Prefixed h
  unfold decimal_number_body
  dsimp only
  exact pre_digits_tail hn _ _ cs
    (fun y => exponent_part y cs fun z => finish_number vt z cs next)
    (fun y => exponent_part y cs fun z => finish_number vt z cs next) hl0
    (fun y y1 hy => pre_exponent_finish vt hn y y1 cs next hy hx)
    (fun y hy hyp => vac_exponent_finish vt y cs next hy hyp)

end Pre

section Pre2

variable {σ H : Type} {a n : Nat}

theorem Prefixed_base {l : Label} {lx lx1 : Lexer} (h : Prefixed a n l lx lx1) :
    Prefixed a n .start_value lx lx1 :=
  ⟨h.1, h.2.1, h.2.2.1, h.2.2.2.1, h.2.2.2.2.1, h.2.2.2.2.2.1, h.2.2.2.2.2.2.1,
    h.2.2.2.2.2.2.2.1, trivial⟩

theorem pre_finish_string (vt : H → ajson_sax_cb_t σ H) (lx lx1 : Lexer) (cs : Consumer σ H)
    (next : Label) (h : Prefixed a n .start_value lx lx1) (hq : lx.p < a)
    (hx : next = .add_string ∨ next = .look_for_key) :
    Sim False (PreOk a) (Prefixed a n) (finish_string vt lx1 cs next)
      (finish_string vt lx cs next) := by
  obtain ⟨hi, he, hae, hp, ha, hac, hst, hsp, -⟩ := h
  have hi0 := Ins_wr_low hi lx.p 0 hq
  have hi1 := Ins_wr_low hi0 lx.p 34 hq
  unfold finish_string
  dsimp only
  rw [hp, hsp]
  refine Sim_CHECK_CB vt _ _ cs _ _ _ _ ?_ (fun c => Sim_goto _ _ _ _ (fun _ => ?_))
  · rw [slice_low hi0 _ _ (by omega)]
  · refine ⟨hi1, he, hae, rfl, by dsimp only; omega, hac, hst, rfl, ?_⟩
    rcases hx with rfl | rfl <;> exact Or.inl ⟨rfl, rfl⟩

theorem pre_string_body (vt : H → ajson_sax_cb_t σ H) (lx lx1 : Lexer) (cs : Consumer σ H)
    (self next : Label) (h : Prefixed a n self lx lx1)
    (hl : self = .start_string ∨ self = .keyed_start_string)
    (hx : next = .add_string ∨ next = .look_for_key) :
    Sim False (PreOk a) (Prefixed a n) (string_body vt lx1 cs self next)
      (string_body vt lx cs self next) := by
  by_cases hq : scan_to lx.mem lx.ep 34 (lx.ep - lx.p) lx.p < a
  · obtain ⟨hi, he, hae, hp, ha, hac, hst, hsp, -⟩ := h
    have hs : scan_to lx1.mem lx1.ep 34 (lx1.ep - lx1.p) lx1.p =
        scan_to lx.mem lx.ep 34 (lx.ep - lx.p) lx.p := by
      rw [he, hp]
      exact scan_to_low hi _ _ _ hq (Nat.le_of_lt hae)
    unfold string_body
    dsimp only
    rw [hs]
    refine Sim_ite (by omega) (fun _ => Sim_error _ _ _) (fun _ => ?_)
    refine Sim_ite (escaped_quote_low hi _ hq) (fun _ => Sim_goto _ _ _ _ (fun _ => ?_))
      (fun _ => ?_)
    · refine ⟨hi, he, hae, rfl, by dsimp only; omega, hac, hst, hsp, ?_⟩
      rcases hl with rfl | rfl <;> trivial
    · exact pre_finish_string vt _ _ cs next ⟨hi, he, hae, rfl, by dsimp only; omega, hac, hst,
        hsp, trivial⟩ hq hx
  · exact Sim_vac (OnGoto_mono (fun _ z hz => not_PreOk (by omega)) (adv_string_body vt lx cs _ _))

theorem pre_get_end_of_key (vt : H → ajson_sax_cb_t σ H) (lx lx1 : Lexer) (cs : Consumer σ H)
    (h : Prefixed a n .get_end_of_key lx lx1) :
    Sim False (PreOk a) (Prefixed a n) (get_end_of_key vt lx1 cs) (get_end_of_key vt lx cs) := by
  by_cases hq : scan_to lx.mem lx.ep 34 (lx.ep - lx.p) lx.p < a
  · obtain ⟨hi, he, hae, hp, ha, hac, hst, hsp, -⟩ := h
    have hs : scan_to lx1.mem lx1.ep 34 (lx1.ep - lx1.p) lx1.p =
        scan_to lx.mem lx.ep 34 (lx.ep - lx.p) lx.p := by
      rw [he, hp]
      exact scan_to_low hi _ _ _ hq (Nat.le_of_lt hae)
    unfold get_end_of_key
    dsimp only
    rw [hs]
    generalize scan_to lx.mem lx.ep 34 (lx.ep - lx.p) lx.p = q at hq
    refine Sim_ite ?_ (fun _ => Sim_goto _ _ _ _ (fun _ => ?_)) (fun _ => ?_)
    · rw [escaped_quote_low hi _ hq]
      constructor
      · exact fun h => ⟨by omega, h.2⟩
      · exact fun h => ⟨by omega, h.2⟩
    · exact ⟨hi, he, hae, rfl, by dsimp only; omega, hac, hst, hsp, trivial⟩
    · rw [if_pos (by omega), if_pos (by omega)]
      have hi0 := Ins_wr_low hi q 0 hq
      have hi1 := Ins_wr_low hi0 q 34 hq
      unfold finish_key
      dsimp only
      rw [hsp]
      refine Sim_CHECK_CB vt _ _ cs _ _ _ _ ?_ (fun c => ?_)
      · rw [slice_low hi0 _ _ (by omega)]
      · by_cases hc : scan_to (wr (wr lx.mem q 0) q 34) lx.ep 58 (lx.ep - (q + 1)) (q + 1) < a
        · have hs2 := scan_to_low hi1 lx.ep 58 (q + 1) hc (Nat.le_of_lt hae)
          rw [he, hs2]
          exact Sim_goto _ _ _ _ (fun _ => ⟨hi1, rfl, hae, rfl, by dsimp only; omega, hac, hst,
            rfl, trivial⟩)
        · exact Sim_goto _ _ _ _ (fun hok => absurd hok (not_PreOk (by dsimp only; omega)))
  · exact Sim_vac (OnGoto_mono (fun _ z hz => not_PreOk (by omega)) (adv_get_end_of_key vt lx cs))

theorem pre_expect_all {R : Prop} {G : Label → Lexer → Prop}
    {Q : Label → Lexer → Lexer → Prop} (cs : Consumer σ H) (word : List Nat) (lx lx1 : Lexer)
    (k k1 : Lexer → Step σ H) (h : Prefixed a n .start_value lx lx1)
    (hlen : lx.p + word.length ≤ a)
    (hk : ∀ y y1, Prefixed a n .start_value y y1 → Sim R G Q (k1 y1) (k y)) :
    Sim R G Q (expect_all cs word lx1 k1) (expect_all cs word lx k) := by
  induction word generalizing lx lx1 with
  | nil => exact hk _ _ h
  | cons c word ih =>
    obtain ⟨hi, he, hae, hp, ha, hac, hst, hsp, -⟩ := h
    simp only [List.length_cons] at hlen
    have hr : rd lx1.mem lx1.p = rd lx.mem lx.p := by rw [hp]; exact hi.low _ (by omega)
    unfold expect_all expect
    dsimp only
    rw [hr]
    refine Sim_ite Iff.rfl (fun _ => Sim_error _ _ _) (fun _ => ?_)
    exact ih _ _ ⟨hi, he, hae, by dsimp only; omega, by dsimp only; omega, hac, hst, hsp, trivial⟩
      (by dsimp only; omega)

theorem pre_literal (vt : H → ajson_sax_cb_t σ H) (lx lx1 : Lexer) (cs : Consumer σ H)
    (word : List Nat) (ev : Event) (next : Label) (h : Prefixed a n .start_value lx lx1)
    (hx : next = .add_string ∨ next = .look_for_key) :
    Sim False (PreOk a) (Prefixed a n) (literal vt lx1 cs word ev next)
      (literal vt lx cs word ev next) := by
  by_cases hlen : lx.p + word.length ≤ a
  · have he := h.2.1
    have hae := h.2.2.1
    have hp := h.2.2.2.1
    unfold literal
    refine Sim_ite (by omega) (fun _ => Sim_error _ _ _) (fun _ => ?_)
    refine pre_expect_all cs word lx lx1 _ _ h hlen (fun y y1 hy => ?_)
    refine Sim_CHECK_CB vt _ _ cs _ _ _ _ rfl (fun c => Sim_goto _ _ _ _ (fun _ => ?_))
    obtain ⟨hi, he, hae, hp, ha, hac, hst, hsp, -⟩ := hy
    refine ⟨hi, he, hae, hp, ha, hac, hst, hsp, ?_⟩
    rcases hx with rfl | rfl <;> exact Or.inl ⟨rfl, rfl⟩
  · exact Sim_vac (OnGoto_literal vt lx cs word ev next (fun _ => not_PreOk (by dsimp only; omega)))

/-- The lookahead after a zero, on the two memories: the test of the byte under
the cursor for `.`, `e`, `E` and a digit, and the callback for the number `num`. -/
theorem pre_lookahead (vt : H → ajson_sax_cb_t σ H) (hn : 0 < n) (lx lx1 : Lexer)
    (cs : Consumer σ H) (dec digit next : Label) (num : List Nat) (ch ch1 : Nat)
    (h : Prefixed a n .start_value lx lx1)
    (hd : dec = .decimal_number ∨ dec = .keyed_decimal_number)
    (hg : digit = .next_digit ∨ digit = .keyed_next_digit)
    (hch : PrefixedAt next { lx with ch := ch } { lx1 with ch := ch1 }) :
    Sim False (PreOk a) (Prefixed a n)
      (if rd lx1.mem lx1.p = 46 then .goto dec { lx1 with p := lx1.p + 1 } cs
       else if rd lx1.mem lx1.p = 101 ∨ rd lx1.mem lx1.p = 69 then .goto digit lx1 cs
       else if isDigit (rd lx1.mem lx1.p) then SAX_ERROR lx1 cs
       else CHECK_CB vt lx1 cs (.number num) fun c => .goto next { lx1 with ch := ch1 } c)
      (if rd lx.mem lx.p = 46 then .goto dec { lx with p := lx.p + 1 } cs
       else if rd lx.mem lx.p = 101 ∨ rd lx.mem lx.p = 69 then .goto digit lx cs
       else if isDigit (rd lx.mem lx.p) then SAX_ERROR lx cs
       else CHECK_CB vt lx cs (.number num) fun c => .goto next { lx with ch := ch } c) := by
  obtain ⟨hi, he, hae, hp, ha, hac, hst, hsp, -⟩ := h
  have hlast : Sim False (PreOk a) (Prefixed a n)
      (CHECK_CB vt lx1 cs (.number num) fun c => .goto next { lx1 with ch := ch1 } c)
      (CHECK_CB vt lx cs (.number num) fun c => .goto next { lx with ch := ch } c) :=
    Sim_CHECK_CB vt _ _ cs _ _ _ _ rfl (fun c => Sim_goto _ _ _ _ (fun _ =>
      ⟨hi, he, hae, hp, ha, hac, hst, hsp, hch⟩))
  by_cases hlt : lx.p < a
  · have hr : rd lx1.mem lx1.p = rd lx.mem lx.p := by rw [hp]; exact hi.low _ hlt
    rw [hr]
    refine Sim_ite Iff.rfl (fun _ => Sim_goto _ _ _ _ (fun _ => ?_)) (fun _ => ?_)
    · exact ⟨hi, he, hae, by dsimp only; omega, by dsimp only; omega, hac, hst, hsp, by
        rcases hd with rfl | rfl <;> trivial⟩
    refine Sim_ite Iff.rfl (fun _ => Sim_goto _ _ _ _ (fun _ => ?_)) (fun _ => ?_)
    · exact ⟨hi, he, hae, hp, ha, hac, hst, hsp, by rcases hg with rfl | rfl <;> trivial⟩
    refine Sim_ite Iff.rfl (fun _ => Sim_error _ _ _) (fun _ => ?_)
    exact hlast
  · have hsp1 := hi.gap lx.p (by omega) (by omega)
    rw [← hp] at hsp1
    unfold isSpace at hsp1
    rw [if_neg (by omega), if_neg (by omega), if_neg (by unfold isDigit; omega)]
    refine wp_ite (fun _ => fun hok => absurd hok (not_PreOk (by dsimp only; omega)))
      (fun h46 => ?_)
    refine wp_ite (fun hee => fun hok => ?_) (fun _ => ?_)
    · exfalso
      rcases hok with hok | ⟨hpa, hok⟩
      · omega
      · rw [← hpa] at hok
        rcases hok with hok | ⟨-, hok⟩
        · rcases hg with rfl | rfl <;> exact hok
        · unfold Delim at hok
          omega
    refine wp_ite (fun _ => fun hf => hf.elim) (fun _ => ?_)
    exact hlast

end Pre2

section Pre3

variable {σ H : Type} {a n : Nat}

theorem pre_zero_case (vt : H → ajson_sax_cb_t σ H) (hn : 0 < n) (lx lx1 : Lexer)
    (cs : Consumer σ H) (dec digit next : Label) (h : Prefixed a n .start_value lx lx1)
    (hd : dec = .decimal_number ∨ dec = .keyed_decimal_number)
    (hg : digit = .next_digit ∨ digit = .keyed_next_digit)
    (hx : next = .add_string ∨ next = .look_for_key) :
    Sim False (PreOk a) (Prefixed a n) (zero_case vt lx1 cs dec digit next)
      (zero_case vt lx cs dec digit next) := by
  have he := h.2.1
  have hae := h.2.2.1
  have hp := h.2.2.2.1
  have ha := h.2.2.2.2.1
  have hlt : lx.p < lx.ep := by omega
  have hlt1 : lx1.p < lx1.ep := by omega
  unfold zero_case
  simp only [hlt, hlt1, true_and]
  exact pre_lookahead vt hn lx lx1 cs dec digit next [48] _ _ h hd hg
    (by rcases hx with rfl | rfl <;> exact Or.inl ⟨rfl, rfl⟩)

theorem pre_start_value_minus (vt : H → ajson_sax_cb_t σ H) (hn : 0 < n) (lx lx1 : Lexer)
    (cs : Consumer σ H) (h : Low a n lx lx1) :
    Sim False (PreOk a) (Prefixed a n) (start_value_minus vt lx1 cs)
      (start_value_minus vt lx cs) := by
  by_cases h0 : lx.p ≤ a
  · have hch := Low_ch h h0
    have hb := Prefixed_of_Low h h0 .start_value trivial
    unfold start_value_minus
    dsimp only
    refine Sim_ite (by rw [hch]) (fun _ => ?_) (fun _ => ?_)
    · exact pre_lookahead vt hn lx lx1 cs _ _ _ [45, 48] _ _ hb (Or.inl rfl) (Or.inl rfl)
        (Or.inl ⟨rfl, rfl⟩)
    · exact Sim_ite (by rw [hch])
        (fun _ => Sim_goto _ _ _ _ (fun _ => Prefixed_of_Low h h0 _ trivial))
        (fun _ => Sim_error _ _ _)
  · exact Sim_vac (OnGoto_mono (fun _ z hz => not_PreOk (by omega))
      (adv_start_value_minus vt lx cs))

theorem pre_start_key_object_minus (vt : H → ajson_sax_cb_t σ H) (hn : 0 < n)
    (lx lx1 : Lexer) (cs : Consumer σ H) (h : Low a n lx lx1) :
    Sim False (PreOk a) (Prefixed a n) (start_key_object_minus vt lx1 cs)
      (start_key_object_minus vt lx cs) := by
  by_cases h0 : lx.p ≤ a
  · have hch := Low_ch h h0
    have hb := Prefixed_of_Low h h0 .start_value trivial
    unfold start_key_object_minus
    dsimp only
    refine Sim_ite (by rw [hch]) (fun h48 => ?_) (fun _ => ?_)
    · exact pre_lookahead vt hn lx lx1 cs _ _ _ [45, 48] lx.ch lx1.ch hb (Or.inr rfl)
        (Or.inr rfl) (Or.inr ⟨h48, by rw [hch]; exact h48⟩)
    · exact Sim_ite (by rw [hch])
        (fun _ => Sim_goto _ _ _ _ (fun _ => Prefixed_of_Low h h0 _ trivial))
        (fun _ => Sim_error _ _ _)
  · exact Sim_vac (OnGoto_mono (fun _ z hz => not_PreOk (by omega))
      (adv_start_key_object_minus vt lx cs))

/-- The scanner states after the dispatch byte, before the inserted bytes. -/
theorem Prefixed_next {l : Label} {lx lx1 : Lexer} (h : Prefixed a n l lx lx1) (hp : lx.p < a)
    (b b1 : Bool) (hb : b1 = b) (s s1 : Nat) (hs : s1 = s) (st st1 : List Nat) (hst : st1 = st)
    (l1 : Label) (hl : ∀ x y, PrefixedAt l1 x y) :
    Prefixed a n l1 { next_ch lx with after_comma := b, stringp := s, stack := st }
      { next_ch lx1 with after_comma := b1, stringp := s1, stack := st1 } := by
  obtain ⟨hi, he, hae, hpp, ha, hac, -, hsp, -⟩ := h
  exact ⟨hi, he, hae, by show lx1.p + 1 = lx.p + 1; rw [hpp], by show lx.p + 1 ≤ a; omega, hb,
    hst, hs, hl _ _⟩

theorem pre_start_value (vt : H → ajson_sax_cb_t σ H) (hn : 0 < n) (lx lx1 : Lexer)
    (cs : Consumer σ H) (h : Prefixed a n .start_value lx lx1) :
    Sim False (PreOk a) (Prefixed a n) (start_value vt lx1 cs) (start_value vt lx cs) := by
  by_cases hp : lx.p < a
  · have hx := Prefixed_next h hp
    obtain ⟨hi, he, hae, hpp, ha, hac, hst, hsp, -⟩ := h
    have hch : (next_ch lx1).ch = (next_ch lx).ch := by
      show rd lx1.mem lx1.p = rd lx.mem lx.p
      rw [hpp]
      exact hi.low _ hp
    have hp1 : (next_ch lx1).p = (next_ch lx).p := by
      show lx1.p + 1 = lx.p + 1
      rw [hpp]
    unfold start_value
    dsimp only
    refine Sim_ite (by omega) (fun _ => Sim_error _ _ _) (fun _ => ?_)
    refine Sim_ite (by rw [hch]) (fun _ => Sim_goto _ _ _ _ (fun _ => ?_)) (fun _ => ?_)
    · exact hx _ _ rfl _ _ hp1 _ _ hst _ (fun _ _ => trivial)
    refine Sim_ite (by rw [hch]) (fun _ => Sim_goto _ _ _ _ (fun _ => ?_)) (fun _ => ?_)
    · exact hx _ _ hac _ _ hsp _ _ hst _ (fun _ _ => trivial)
    refine Sim_ite (by rw [hch]) (fun _ => ?_) (fun _ => ?_)
    · exact Sim_open_container vt _ _ cs _ _ _ hst (fun _ =>
        hx _ _ rfl _ _ hsp _ _ (by show _ :: lx1.stack = _ :: lx.stack; rw [hst]) _
          (fun _ _ => trivial))
    refine Sim_ite (by rw [hch]) (fun _ => ?_) (fun _ => ?_)
    · exact Sim_open_container vt _ _ cs _ _ _ hst (fun _ =>
        hx _ _ rfl _ _ hsp _ _ (by show _ :: lx1.stack = _ :: lx.stack; rw [hst]) _
          (fun _ _ => trivial))
    refine Sim_ite (by rw [hch]) (fun _ => ?_) (fun _ => ?_)
    · exact Sim_close_here vt _ _ cs _ hac (fun _ =>
        hx _ _ hac _ _ hsp _ _ (by show lx1.stack.tail = lx.stack.tail; rw [hst]) _
        (fun _ _ => trivial))
    refine Sim_ite (by rw [hch]) (fun _ => ?_) (fun _ => ?_)
    · exact pre_start_value_minus vt hn _ _ cs
        (Low_of_Prefixed (hx false false rfl _ _ (by rw [hp1]) _ _ hst .start_value
          (fun _ _ => trivial)))
    refine Sim_ite (by rw [hch]) (fun _ => ?_) (fun _ => ?_)
    · exact pre_zero_case vt hn _ _ cs _ _ _
        (hx false false rfl _ _ (by rw [hp1]) _ _ hst .start_value (fun _ _ => trivial))
        (Or.inl rfl) (Or.inl rfl) (Or.inl rfl)
    refine Sim_ite (by rw [hch]) (fun _ => Sim_goto _ _ _ _ (fun _ => ?_)) (fun _ => ?_)
    · exact hx false false rfl _ _ (by rw [hp1]) _ _ hst _ (fun _ _ => trivial)
    have hlit : ∀ word ev, Sim False (PreOk a) (Prefixed a n)
        (literal vt { next_ch lx1 with after_comma := false } cs word ev .add_string)
        (literal vt { next_ch lx with after_comma := false } cs word ev .add_string) :=
      fun word ev => pre_literal vt _ _ cs word ev _
        (hx false false rfl _ _ hsp _ _ hst .start_value (fun _ _ => trivial)) (Or.inl rfl)
    refine Sim_ite (by rw [hch]) (fun _ => hlit _ _) (fun _ => ?_)
    refine Sim_ite (by rw [hch]) (fun _ => hlit _ _) (fun _ => ?_)
    exact Sim_ite (by rw [hch]) (fun _ => hlit _ _) (fun _ => Sim_error _ _ _)
  · have ha := h.2.2.2.2.1
    exact Sim_vac (OnGoto_mono (fun _ z hz => not_PreOk (by omega)) (adv_start_value vt lx cs))

theorem pre_start_key_object (vt : H → ajson_sax_cb_t σ H) (hn : 0 < n) (lx lx1 : Lexer)
    (cs : Consumer σ H) (h : Prefixed a n .start_key_object lx lx1) :
    Sim False (PreOk a) (Prefixed a n) (start_key_object vt lx1 cs)
      (start_key_object vt lx cs) := by
  by_cases hp : lx.p < a
  · have hx := Prefixed_next h hp
    obtain ⟨hi, he, hae, hpp, ha, hac, hst, hsp, -⟩ := h
    have hch : (next_ch lx1).ch = (next_ch lx).ch := by
      show rd lx1.mem lx1.p = rd lx.mem lx.p
      rw [hpp]
      exact hi.low _ hp
    have hp1 : (next_ch lx1).p = (next_ch lx).p := by
      show lx1.p + 1 = lx.p + 1
      rw [hpp]
    unfold start_key_object
    dsimp only
    refine Sim_ite (by omega) (fun _ => Sim_error _ _ _) (fun _ => ?_)
    refine Sim_ite (by rw [hch]) (fun _ => Sim_goto _ _ _ _ (fun _ => ?_)) (fun _ => ?_)
    · exact hx _ _ hac _ _ hp1 _ _ hst _ (fun _ _ => trivial)
    refine Sim_ite (by rw [hch]) (fun _ => Sim_goto _ _ _ _ (fun _ => ?_)) (fun _ => ?_)
    · exact hx _ _ hac _ _ hsp _ _ hst _ (fun _ _ => trivial)
    refine Sim_ite (by rw [hch]) (fun _ => ?_) (fun _ => ?_)
    · exact Sim_open_container vt _ _ cs _ _ _ hst (fun _ =>
        hx _ _ hac _ _ hsp _ _ (by show _ :: lx1.stack = _ :: lx.stack; rw [hst]) _
          (fun _ _ => trivial))
    refine Sim_ite (by rw [hch]) (fun _ => ?_) (fun _ => ?_)
    · exact Sim_open_container vt _ _ cs _ _ _ hst (fun _ =>
        hx _ _ hac _ _ hsp _ _ (by show _ :: lx1.stack = _ :: lx.stack; rw [hst]) _
          (fun _ _ => trivial))
    refine Sim_ite (by rw [hch]) (fun _ => ?_) (fun _ => ?_)
    · exact pre_start_key_object_minus vt hn _ _ cs
        (Low_of_Prefixed (hx _ _ hac _ _ (by rw [hp1]) _ _ hst .start_value
          (fun _ _ => trivial)))
    refine Sim_ite (by rw [hch]) (fun _ => ?_) (fun _ => ?_)
    · exact pre_zero_case vt hn _ _ cs _ _ _
        (hx _ _ hac _ _ (by rw [hp1]) _ _ hst .start_value (fun _ _ => trivial))
        (Or.inr rfl) (Or.inr rfl) (Or.inr rfl)
    refine Sim_ite (by rw [hch]) (fun _ => Sim_goto _ _ _ _ (fun _ => ?_)) (fun _ => ?_)
    · exact hx _ _ hac _ _ (by rw [hp1]) _ _ hst _ (fun _ _ => trivial)
    have hlit : ∀ word ev, Sim False (PreOk a) (Prefixed a n)
        (literal vt (next_ch lx1) cs word ev .look_for_key)
        (literal vt (next_ch lx) cs word ev .look_for_key) :=
      fun word ev => pre_literal vt _ _ cs word ev _
        (hx _ _ hac _ _ hsp _ _ hst .start_value (fun _ _ => trivial)) (Or.inr rfl)
    refine Sim_ite (by rw [hch]) (fun _ => hlit _ _) (fun _ => ?_)
    refine Sim_ite (by rw [hch]) (fun _ => hlit _ _) (fun _ => ?_)
    exact Sim_ite (by rw [hch]) (fun _ => hlit _ _) (fun _ => Sim_error _ _ _)
  · have ha := h.2.2.2.2.1
    exact Sim_vac (OnGoto_mono (fun _ z hz => not_PreOk (by omega))
      (adv_start_key_object vt lx cs))

theorem pre_start_key (vt : H → ajson_sax_cb_t σ H) (lx lx1 : Lexer)
    (cs : Consumer σ H) (h : Prefixed a n .start_key lx lx1) :
    Sim False (PreOk a) (Prefixed a n) (start_key vt lx1 cs) (start_key vt lx cs) := by
  by_cases hp : lx.p < a
  · have hx := Prefixed_next h hp
    obtain ⟨hi, he, hae, hpp, ha, hac, hst, hsp, -⟩ := h
    have hch : (next_ch lx1).ch = (next_ch lx).ch := by
      show rd lx1.mem lx1.p = rd lx.mem lx.p
      rw [hpp]
      exact hi.low _ hp
    have hp1 : (next_ch lx1).p = (next_ch lx).p := by
      show lx1.p + 1 = lx.p + 1
      rw [hpp]
    unfold start_key
    dsimp only
    refine Sim_ite (by omega) (fun _ => Sim_error _ _ _) (fun _ => ?_)
    refine Sim_ite (by rw [hch]) (fun _ => Sim_goto _ _ _ _ (fun _ => ?_)) (fun _ => ?_)
    · exact hx _ _ rfl _ _ hp1 _ _ hst _ (fun _ _ => trivial)
    refine Sim_ite (by rw [hch]) (fun _ => Sim_goto _ _ _ _ (fun _ => ?_)) (fun _ => ?_)
    · exact hx _ _ hac _ _ hsp _ _ hst _ (fun _ _ => trivial)
    refine Sim_ite (by rw [hch]) (fun _ => ?_) (fun _ => Sim_error _ _ _)
    exact Sim_close_here vt _ _ cs _ hac (fun _ =>
      hx _ _ hac _ _ hsp _ _ (by show lx1.stack.tail = lx.stack.tail; rw [hst]) _
        (fun _ _ => trivial))
  · have ha := h.2.2.2.2.1
    exact Sim_vac (OnGoto_mono (fun _ z hz => not_PreOk (by omega)) (adv_start_key vt lx cs))

theorem Prefixed_ch {lx lx1 : Lexer}
    (hi : Ins a n lx.mem lx1.mem) (hpp : lx1.p = lx.p) (hp : lx.p < a)
    (hat : (lx.ch = rd lx.mem lx.p ∧ lx1.ch = rd lx1.mem lx1.p) ∨ (lx.ch = 48 ∧ lx1.ch = 48)) :
    lx1.ch = lx.ch := by
  rcases hat with ⟨h1, h2⟩ | ⟨h1, h2⟩
  · rw [h1, h2, hpp]
    exact hi.low _ hp
  · rw [h1, h2]

theorem pre_look_for_key (vt : H → ajson_sax_cb_t σ H) (lx lx1 : Lexer) (cs : Consumer σ H)
    (h : Prefixed a n .look_for_key lx lx1) :
    Sim False (PreOk a) (Prefixed a n) (look_for_key vt lx1 cs) (look_for_key vt lx cs) := by
  obtain ⟨hi, he, hae, hpp, ha, hac, hst, hsp, hat⟩ := h
  by_cases hp : lx.p < a
  · have hch := Prefixed_ch hi hpp hp hat
    unfold look_for_key
    refine Sim_ite (by rw [hch]) (fun _ => ?_) (fun _ => ?_)
    · refine Sim_ite (by omega) (fun _ => Sim_error _ _ _)
        (fun _ => Sim_goto _ _ _ _ (fun _ => ?_))
      exact ⟨hi, he, hae, by dsimp only; omega, by dsimp only; omega, rfl, hst, hsp, trivial⟩
    refine Sim_ite (by rw [hch]) (fun _ => ?_) (fun _ => ?_)
    · exact Sim_close_ahead vt _ _ cs _ hac (fun _ =>
        ⟨hi, he, hae, by show lx1.p + 1 = lx.p + 1; omega, by show lx.p + 1 ≤ a; omega, hac,
          by show lx1.stack.tail = lx.stack.tail; rw [hst], hsp, trivial⟩)
    refine Sim_ite (by rw [hch]) (fun _ => Sim_goto _ _ _ _ (fun _ => ?_))
      (fun _ => Sim_error _ _ _)
    exact ⟨hi, he, hae, by dsimp only; omega, by dsimp only; omega, hac, hst, hsp,
      Or.inl ⟨rfl, rfl⟩⟩
  · exact Sim_vac (OnGoto_mono (fun _ z hz => not_PreOk (by omega)) (adv_look_for_key vt lx cs))

theorem pre_look_for_next_object (vt : H → ajson_sax_cb_t σ H) (lx lx1 : Lexer)
    (cs : Consumer σ H) (h : Prefixed a n .look_for_next_object lx lx1) :
    Sim False (PreOk a) (Prefixed a n) (look_for_next_object vt lx1 cs)
      (look_for_next_object vt lx cs) := by
  obtain ⟨hi, he, hae, hpp, ha, hac, hst, hsp, hat⟩ := h
  by_cases hp : lx.p < a
  · have hch := Prefixed_ch hi hpp hp hat
    have hend : ∀ y y1 : Lexer, y1.stack = y.stack → Sim False (PreOk a) (Prefixed a n)
        (if stack_depth y1 = 0 then .ret 0 y1 cs else SAX_ERROR y1 cs)
        (if stack_depth y = 0 then .ret 0 y cs else SAX_ERROR y cs) := fun y y1 hy =>
      Sim_ite (by unfold stack_depth; rw [hy]) (fun _ => Sim_ret _ _ _ _)
        (fun _ => Sim_error _ _ _)
    unfold look_for_next_object
    refine Sim_ite (by rw [hch]) (fun _ => ?_) (fun _ => ?_)
    · refine Sim_ite (by omega) (fun _ => Sim_error _ _ _)
        (fun _ => Sim_goto _ _ _ _ (fun _ => ?_))
      exact ⟨hi, he, hae, by dsimp only; omega, by dsimp only; omega, rfl, hst, hsp, trivial⟩
    refine Sim_ite (by rw [hch]) (fun _ => ?_) (fun _ => ?_)
    · exact Sim_close_ahead vt _ _ cs _ hac (fun _ =>
        ⟨hi, he, hae, by show lx1.p + 1 = lx.p + 1; omega, by show lx.p + 1 ≤ a; omega, hac,
          by show lx1.stack.tail = lx.stack.tail; rw [hst], hsp, trivial⟩)
    refine Sim_ite (by rw [hch]) (fun _ => ?_) (fun _ => ?_)
    · dsimp only
      refine Sim_ite (by omega) (fun _ => hend _ _ hst) (fun _ => Sim_goto _ _ _ _ (fun _ => ?_))
      exact ⟨hi, he, hae, by dsimp only; omega, by dsimp only; omega, hac, hst, hsp,
        Or.inl ⟨rfl, rfl⟩⟩
    · exact Sim_ite (by rw [hch]) (fun _ => hend _ _ hst) (fun _ => Sim_error _ _ _)
  · exact Sim_vac (OnGoto_mono (fun _ z hz => not_PreOk (by omega))
      (adv_look_for_next_object vt lx cs))

theorem pre_determine_next_step (lx lx1 : Lexer) (cs : Consumer σ H)
    (h : Prefixed a n .determine_next_step lx lx1) :
    Sim False (PreOk a) (Prefixed a n) (determine_next_step lx1 cs)
      (determine_next_step lx cs) := by
  obtain ⟨hi, he, hae, hpp, ha, hac, hst, hsp, -⟩ := h
  unfold determine_next_step
  refine Sim_ite (by unfold stack_depth; rw [hst]) (fun _ => Sim_ret _ _ _ _) (fun _ => ?_)
  refine Sim_ite (by omega) (fun _ => Sim_ret _ _ _ _) (fun _ => ?_)
  dsimp only
  refine Sim_ite (by unfold CURRENT_MODE; rw [hst]) (fun _ => Sim_goto _ _ _ _ (fun _ => ?_))
    (fun _ => Sim_goto _ _ _ _ (fun _ => ?_))
  · exact ⟨hi, he, hae, hpp, ha, hac, hst, hsp, Or.inl ⟨rfl, rfl⟩⟩
  · exact ⟨hi, he, hae, hpp, ha, hac, hst, hsp, Or.inl ⟨rfl, rfl⟩⟩

/-- Before the inserted bytes the scanner on the memory with the inserted bytes
follows every jump of the other that stays before them. -/
theorem step_pre (vt : H → ajson_sax_cb_t σ H) (hn : 0 < n) (l : Label) (lx lx1 : Lexer)
    (cs : Consumer σ H) (h : Prefixed a n l lx lx1) :
    Sim False (PreOk a) (Prefixed a n) (step vt l lx1 cs) (step vt l lx cs) := by
  cases l
  case start_key => exact pre_start_key vt lx lx1 cs h
  case get_end_of_key => exact pre_get_end_of_key vt lx lx1 cs h
  case start_key_object => exact pre_start_key_object vt hn lx lx1 cs h
  case keyed_start_string => exact pre_string_body vt lx lx1 cs _ _ h (Or.inr rfl) (Or.inr rfl)
  case look_for_key => exact pre_look_for_key vt lx lx1 cs h
  case keyed_next_digit =>
    exact pre_next_digit_body vt hn lx lx1 cs _ _ _ h (Or.inr rfl) (Or.inr rfl)
  case keyed_decimal_number => exact pre_decimal_number_body vt hn lx lx1 cs _ _ h (Or.inr rfl)
  case start_value => exact pre_start_value vt hn lx lx1 cs h
  case start_string => exact pre_string_body vt lx lx1 cs _ _ h (Or.inl rfl) (Or.inl rfl)
  case add_string =>
    exact Sim_goto _ _ _ _ (fun _ => ⟨h.1, h.2.1, h.2.2.1, h.2.2.2.1, h.2.2.2.2.1,
      h.2.2.2.2.2.1, h.2.2.2.2.2.2.1, h.2.2.2.2.2.2.2.1, h.2.2.2.2.2.2.2.2⟩)
  case look_for_next_object => exact pre_look_for_next_object vt lx lx1 cs h
  case next_digit => exact pre_next_digit_body vt hn lx lx1 cs _ _ _ h (Or.inl rfl) (Or.inl rfl)
  case decimal_number => exact pre_decimal_number_body vt hn lx lx1 cs _ _ h (Or.inl rfl)
  case determine_next_step => exact pre_determine_next_step lx lx1 cs h

theorem PreOk_le {l : Label} {lx : Lexer} (h : PreOk a l lx) : lx.p ≤ a := by
  unfold PreOk at h
  omega

/-- A state from which the parse reaches a state between two tokens at offset `a`
can itself still be left for one. -/
theorem PreOk_back (vt : H → ajson_sax_cb_t σ H) (k : Nat) (l lb : Label) (lx lxb : Lexer)
    (cs csb : Consumer σ H) (hr : reach vt k l lx cs = some (lb, lxb, csb))
    (hok : PreOk a lb lxb) : PreOk a l lx := by
  cases k with
  | zero =>
    simp only [reach, Option.some.injEq, Prod.mk.injEq] at hr
    obtain ⟨rfl, rfl, -⟩ := hr
    exact hok
  | succ k =>
    have hadv := step_advances vt l lx cs
    unfold reach at hr
    cases hs : step vt l lx cs with
    | ret rc lx2 cs2 =>
      rw [hs] at hr
      simp at hr
    | goto l2 lx2 cs2 =>
      rw [hs] at hr hadv
      have h1 := reach_p_mono vt k _ _ _ _ _ _ hr
      have h2 := PreOk_le hok
      rcases hadv with h3 | ⟨h3, h4⟩
      · exact Or.inl (by omega)
      · by_cases hlt : lx.p < a
        · exact Or.inl hlt
        · refine Or.inr ⟨by omega, ?_⟩
          have hpa : lx.p = a := by omega
          cases l <;> first
            | exact Or.inl trivial
            | exact Or.inr ⟨Or.inl rfl, hpa ▸ h4⟩
            | exact Or.inr ⟨Or.inr rfl, hpa ▸ h4⟩
            | exact h4.elim

/-- Up to a state between two tokens at offset `a`, the parse of the text with the
inserted bytes passes through the same labels with the same consumer states. -/
theorem reach_pre (vt : H → ajson_sax_cb_t σ H) (hn : 0 < n) (k : Nat) (l lb : Label)
    (lx lx1 lxb : Lexer) (cs csb : Consumer σ H)
    (hr : reach vt k l lx cs = some (lb, lxb, csb)) (hok : PreOk a lb lxb)
    (h : Prefixed a n l lx lx1) :
    ∃ lxb1, reach vt k l lx1 cs = some (lb, lxb1, csb) ∧ Prefixed a n lb lxb lxb1 := by
  induction k generalizing l lx lx1 cs with
  | zero =>
    simp only [reach, Option.some.injEq, Prod.mk.injEq] at hr
    obtain ⟨rfl, rfl, rfl⟩ := hr
    exact ⟨lx1, rfl, h⟩
  | succ k ih =>
    have hs := step_pre vt hn l lx lx1 cs h
    unfold reach at hr ⊢
    cases h1 : step vt l lx cs with
    | ret rc lx2 cs2 =>
      rw [h1] at hr
      simp at hr
    | goto l2 lx2 cs2 =>
      rw [h1] at hr hs
      obtain ⟨lx3, h3, hq⟩ := hs (PreOk_back vt k _ _ _ _ _ _ hr hok)
      rw [h3]
      exact ih _ _ _ _ hr hq

end Pre3

/-! ### Over the inserted bytes -/

section Skip

variable {σ H : Type} {a n : Nat}

theorem space_ne {c : Nat} (h : isSpace c) :
    c ≠ 34 ∧ c ≠ 44 ∧ c ≠ 125 ∧ c ≠ 93 ∧ c ≠ 58 ∧ c ≠ 0 := by
  unfold isSpace at h
  omega

theorem start_space (vt : H → ajson_sax_cb_t σ H) (l : Label) (lx : Lexer) (cs : Consumer σ H)
    (hl : l = .start_value ∨ l = .start_key ∨ l = .start_key_object) (hp : lx.p < lx.ep)
    (hs : isSpace (rd lx.mem lx.p)) : step vt l lx cs = .goto l (next_ch lx) cs := by
  have h34 := (space_ne hs).1
  have hc : (next_ch lx).ch = rd lx.mem lx.p := rfl
  rcases hl with rfl | rfl | rfl
  · unfold step start_value
    dsimp only
    rw [if_neg (by omega), if_neg (by rw [hc]; exact h34), if_pos (by rw [hc]; exact hs)]
  · unfold step start_key
    dsimp only
    rw [if_neg (by omega), if_neg (by rw [hc]; exact h34), if_pos (by rw [hc]; exact hs)]
  · unfold step start_key_object
    dsimp only
    rw [if_neg (by omega), if_neg (by rw [hc]; exact h34), if_pos (by rw [hc]; exact hs)]

theorem look_space (vt : H → ajson_sax_cb_t σ H) (l : Label) (lx : Lexer) (cs : Consumer σ H)
    (hl : l = .look_for_key ∨ l = .look_for_next_object) (hp : lx.p + 1 < lx.ep)
    (hs : isSpace lx.ch) :
    step vt l lx cs = .goto l { lx with p := lx.p + 1, ch := rd lx.mem (lx.p + 1) } cs := by
  have h := space_ne hs
  rcases hl with rfl | rfl
  · unfold step look_for_key
    rw [if_neg h.2.1, if_neg h.2.2.1, if_pos hs]
  · unfold step look_for_next_object
    rw [if_neg h.2.1, if_neg h.2.2.2.1, if_pos hs]
    dsimp only
    rw [if_neg (by omega)]

/-- From a state about to read a token at the first inserted byte, the scanner
skips the inserted bytes. -/
theorem skip_start (vt : H → ajson_sax_cb_t σ H) (l : Label) (cs : Consumer σ H)
    (hl : l = .start_value ∨ l = .start_key ∨ l = .start_key_object) (d : Nat)
    (lx lx1 : Lexer) (hi : Ins a n lx.mem lx1.mem) (he : lx1.ep = lx.ep + n) (hae : a < lx.ep)
    (hp : lx.p = a) (hd : d ≤ n) (hp1 : lx1.p + d = a + n)
    (hac : lx1.after_comma = lx.after_comma) (hst : lx1.stack = lx.stack) :
    ∃ lx2, reach vt d l lx1 cs = some (l, lx2, cs) ∧ Shifted a n l lx lx2 := by
  induction d generalizing lx1 with
  | zero =>
    refine ⟨lx1, rfl, hi, he, by omega, by omega, hac, hst, ?_⟩
    rcases hl with rfl | rfl | rfl <;> trivial
  | succ d ih =>
    have hs := start_space vt l lx1 cs hl (by omega) (hi.gap _ (by omega) (by omega))
    obtain ⟨lx2, h2, h3⟩ := ih (next_ch lx1) hi he (by omega)
      (by show lx1.p + 1 + d = a + n; omega) hac hst
    refine ⟨lx2, ?_, h3⟩
    unfold reach
    rw [hs]
    exact h2

/-- From a delimiter test at the first inserted byte, the scanner skips the
inserted bytes. -/
theorem skip_look (vt : H → ajson_sax_cb_t σ H) (l : Label) (cs : Consumer σ H)
    (hl : l = .look_for_key ∨ l = .look_for_next_object) (d : Nat)
    (lx lx1 : Lexer) (hi : Ins a n lx.mem lx1.mem) (he : lx1.ep = lx.ep + n) (hae : a < lx.ep)
    (hp : lx.p = a) (hd : d ≤ n) (hp1 : lx1.p + d = a + n)
    (hac : lx1.after_comma = lx.after_comma) (hst : lx1.stack = lx.stack)
    (hc : lx.ch = rd lx.mem lx.p) (hc1 : lx1.ch = rd lx1.mem lx1.p) :
    ∃ lx2, reach vt d l lx1 cs = some (l, lx2, cs) ∧ Shifted a n l lx lx2 := by
  induction d generalizing lx1 with
  | zero =>
    refine ⟨lx1, rfl, hi, he, by omega, by omega, hac, hst, ?_⟩
    have : lx1.ch = lx.ch := by
      rw [hc, hc1, show lx1.p = lx.p + n by omega]
      exact hi.high _ (by omega)
    rcases hl with rfl | rfl <;> exact this
  | succ d ih =>
    have hs := look_space vt l lx1 cs hl (by omega)
      (by rw [hc1]; exact hi.gap _ (by omega) (by omega))
    obtain ⟨lx2, h2, h3⟩ := ih { lx1 with p := lx1.p + 1, ch := rd lx1.mem (lx1.p + 1) } hi he
      (by omega) (by show lx1.p + 1 + d = a + n; omega) hac hst rfl
    refine ⟨lx2, ?_, h3⟩
    unfold reach
    rw [hs]
    exact h2

theorem look_stale (vt : H → ajson_sax_cb_t σ H) (l : Label) (lx : Lexer) (cs : Consumer σ H)
    (hl : l = .look_for_key ∨ l = .look_for_next_object) (hc : lx.ch = 48) :
    step vt l lx cs = SAX_ERROR lx cs := by
  rcases hl with rfl | rfl
  · unfold step look_for_key
    rw [if_neg (by omega), if_neg (by omega), if_neg (by unfold isSpace; omega)]
  · unfold step look_for_next_object
    rw [if_neg (by omega), if_neg (by omega), if_neg (by unfold isSpace; omega),
      if_neg (by omega)]

theorem Ends_post (vt : H → ajson_sax_cb_t σ H) (l : Label) (lx lx1 : Lexer)
    (cs : Consumer σ H) (f : Nat) (r : Result σ H) (h : Shifted a n l lx lx1)
    (hr : run vt f l lx cs = some r) :
    Ends vt l lx1 cs (fun r1 => r1.rc = r.rc ∧ r1.cs = r.cs) := by
  obtain ⟨r1, h1, h2⟩ := run_post vt f l lx lx1 cs r h hr
  exact ⟨f, r1, h1, h2⟩

theorem run_look (vt : H → ajson_sax_cb_t σ H) (l : Label) (lx lx1 : Lexer)
    (cs : Consumer σ H) (hl : l = .look_for_key ∨ l = .look_for_next_object)
    (h : Prefixed a n l lx lx1) (hp : lx.p = a) (f : Nat) (r : Result σ H)
    (hr : run vt f l lx cs = some r) :
    Ends vt l lx1 cs (fun r1 => r1.rc = r.rc ∧ r1.cs = r.cs) := by
  obtain ⟨hi, he, hae, hpp, ha, hac, hst, hsp, hat⟩ := h
  have hat : (lx.ch = rd lx.mem lx.p ∧ lx1.ch = rd lx1.mem lx1.p) ∨ (lx.ch = 48 ∧ lx1.ch = 48) := by
    rcases hl with rfl | rfl <;> exact hat
  rcases hat with ⟨hc, hc1⟩ | ⟨hc, hc1⟩
  · obtain ⟨lx2, h2, h3⟩ := skip_look vt l cs hl n lx lx1 hi he hae hp (Nat.le_refl _)
      (by omega) hac hst hc hc1
    exact Ends_of_reach h2 (Ends_post vt l lx lx2 cs f r h3 hr)
  · cases f with
    | zero => simp [run] at hr
    | succ f =>
      unfold run at hr
      rw [look_stale vt l lx cs hl hc] at hr
      simp only [SAX_ERROR, Option.some.injEq] at hr
      subst hr
      exact Ends_ret (look_stale vt l lx1 cs hl hc1) ⟨rfl, rfl⟩

/-- From a state between two tokens at the place of the insertion, the two parses
end alike. -/
theorem run_boundary (vt : H → ajson_sax_cb_t σ H) (hn : 0 < n) (l : Label) (lx lx1 : Lexer)
    (cs : Consumer σ H) (hd : Dispatch l) (h : Prefixed a n l lx lx1) (hp : lx.p = a)
    (f : Nat) (r : Result σ H) (hr : run vt f l lx cs = some r) :
    Ends vt l lx1 cs (fun r1 => r1.rc = r.rc ∧ r1.cs = r.cs) := by
  have hstart : l = .start_value ∨ l = .start_key ∨ l = .start_key_object →
      Ends vt l lx1 cs (fun r1 => r1.rc = r.rc ∧ r1.cs = r.cs) := by
    intro hl
    obtain ⟨hi, he, hae, hpp, ha, hac, hst, hsp, hat⟩ := h
    obtain ⟨lx2, h2, h3⟩ := skip_start vt l cs hl n lx lx1 hi he hae hp (Nat.le_refl _)
      (by omega) hac hst
    exact Ends_of_reach h2 (Ends_post vt l lx lx2 cs f r h3 hr)
  have hnext : ∀ (l2 : Label) (lx2 lx3 : Lexer) (cs2 : Consumer σ H),
      step vt l lx cs = .goto l2 lx2 cs2 → step vt l lx1 cs = .goto l2 lx3 cs2 →
      (l2 = .look_for_key ∨ l2 = .look_for_next_object) → Prefixed a n l2 lx2 lx3 →
      lx2.p = a → Ends vt l lx1 cs (fun r1 => r1.rc = r.rc ∧ r1.cs = r.cs) := by
    intro l2 lx2 lx3 cs2 hs hs1 hl2 hq hp2
    cases f with
    | zero => simp [run] at hr
    | succ f =>
      unfold run at hr
      rw [hs] at hr
      exact Ends_goto hs1 (run_look vt l2 lx2 lx3 cs2 hl2 hq hp2 f r hr)
  cases l
  case start_value => exact hstart (Or.inl rfl)
  case start_key => exact hstart (Or.inr (Or.inl rfl))
  case start_key_object => exact hstart (Or.inr (Or.inr rfl))
  case look_for_key => exact run_look vt _ lx lx1 cs (Or.inl rfl) h hp f r hr
  case look_for_next_object => exact run_look vt _ lx lx1 cs (Or.inr rfl) h hp f r hr
  case add_string =>
    exact hnext _ lx lx1 cs rfl rfl (Or.inr rfl) ⟨h.1, h.2.1, h.2.2.1, h.2.2.2.1, h.2.2.2.2.1,
      h.2.2.2.2.2.1, h.2.2.2.2.2.2.1, h.2.2.2.2.2.2.2.1, h.2.2.2.2.2.2.2.2⟩ hp
  case determine_next_step =>
    obtain ⟨hi, he, hae, hpp, ha, hac, hst, hsp, -⟩ := h
    by_cases h0 : stack_depth lx = 0
    · have hs : step vt .determine_next_step lx cs = .ret 0 lx cs := by
        unfold step determine_next_step
        rw [if_pos h0]
      have hs1 : step vt .determine_next_step lx1 cs = .ret 0 lx1 cs := by
        unfold step determine_next_step
        rw [if_pos (by unfold stack_depth at h0 ⊢; rw [hst]; exact h0)]
      cases f with
      | zero => simp [run] at hr
      | succ f =>
        unfold run at hr
        rw [hs] at hr
        simp only [Option.some.injEq] at hr
        subst hr
        exact Ends_ret hs1 ⟨rfl, rfl⟩
    · have h01 : ¬ stack_depth lx1 = 0 := by
        unfold stack_depth at h0 ⊢
        rw [hst]
        exact h0
      have hm : CURRENT_MODE { lx1 with ch := rd lx1.mem lx1.p } =
          CURRENT_MODE { lx with ch := rd lx.mem lx.p } := by
        unfold CURRENT_MODE
        dsimp only
        rw [hst]
      by_cases hmode : CURRENT_MODE { lx with ch := rd lx.mem lx.p } = SAX_MODE_OBJECT
      · refine hnext .look_for_key { lx with ch := rd lx.mem lx.p }
          { lx1 with ch := rd lx1.mem lx1.p } cs ?_ ?_ (Or.inl rfl)
          ⟨hi, he, hae, hpp, ha, hac, hst, hsp, Or.inl ⟨rfl, rfl⟩⟩ hp
        · unfold step determine_next_step
          rw [if_neg h0, if_neg (by omega)]
          dsimp only
          rw [if_pos hmode]
        · unfold step determine_next_step
          rw [if_neg h01, if_neg (by omega)]
          dsimp only
          rw [if_pos (by rw [hm]; exact hmode)]
      · refine hnext .look_for_next_object { lx with ch := rd lx.mem lx.p }
          { lx1 with ch := rd lx1.mem lx1.p } cs ?_ ?_ (Or.inr rfl)
          ⟨hi, he, hae, hpp, ha, hac, hst, hsp, Or.inl ⟨rfl, rfl⟩⟩ hp
        · unfold step determine_next_step
          rw [if_neg h0, if_neg (by omega)]
          dsimp only
          rw [if_neg hmode]
        · unfold step determine_next_step
          rw [if_neg h01, if_neg (by omega)]
          dsimp only
          rw [if_neg (by rw [hm]; exact hmode)]
  all_goals exact hd.elim

/-- The scan of a key whose colon lies past the place of the insertion: the two
scanners make the same transition. -/
theorem cross_key (vt : H → ajson_sax_cb_t σ H) (lx lx1 : Lexer) (cs : Consumer σ H)
    (h : Prefixed a n .get_end_of_key lx lx1) (hg : KeyGap lx a) :
    Sim True AnyJump (Shifted a n) (get_end_of_key vt lx1 cs) (get_end_of_key vt lx cs) := by
  obtain ⟨hi, he, hae, hp, ha, hac, hst, hsp, -⟩ := h
  obtain ⟨hqe, hesc, hq, hcol⟩ := hg
  have hs : scan_to lx1.mem lx1.ep 34 (lx1.ep - lx1.p) lx1.p =
      scan_to lx.mem lx.ep 34 (lx.ep - lx.p) lx.p := by
    rw [he, hp]
    exact scan_to_low hi _ _ _ hq (Nat.le_of_lt hae)
  have hpq := scan_to_ge lx.mem lx.ep 34 (lx.ep - lx.p) lx.p
  have h34 : rd lx.mem (scan_to lx.mem lx.ep 34 (lx.ep - lx.p) lx.p) = 34 := by
    rcases (scan_to_spec lx.mem lx.ep 34 lx.p (by omega)).2.2.2 with h | h
    · omega
    · exact h
  unfold get_end_of_key
  dsimp only
  rw [hs]
  generalize scan_to lx.mem lx.ep 34 (lx.ep - lx.p) lx.p = q at hqe hesc hq hcol h34 hpq
  have hnd : ¬ (q < lx.ep ∧ escaped_quote lx.mem q) := fun h => hesc h.2
  have hnd1 : ¬ (q < lx1.ep ∧ escaped_quote lx1.mem q) :=
    fun h => hesc ((escaped_quote_low hi q hq).1 h.2)
  have hqe1 : q < lx1.ep := by omega
  rw [if_neg hnd1, if_neg hnd, if_pos hqe1, if_pos hqe]
  have hi0 := Ins_wr_low hi q 0 hq
  have hi1 := Ins_wr_low hi0 q 34 hq
  have e : wr (wr lx.mem q 0) q 34 = lx.mem := wr_quote_restore _ _ h34
  unfold finish_key
  dsimp only
  rw [hsp]
  refine Sim_CHECK_CB vt _ _ cs _ _ _ _ ?_ (fun c => ?_)
  · rw [slice_low hi0 _ _ (by omega)]
  · have hc := scan_to_cross hi1 lx.ep 58 (q + 1) (by unfold isSpace; omega) (by omega)
      (by rw [e]; exact hcol) (Nat.le_of_lt hae)
    rw [he, hc]
    refine Sim_goto _ _ _ _ (fun _ => ⟨hi1, rfl, by dsimp only; omega, ?_, hac, hst, trivial⟩)
    dsimp only
    rw [e]
    omega

theorem Ins_insert (u ws v : List Nat) (hws : ∀ c ∈ ws, isSpace c) :
    Ins u.length ws.length ((u ++ v) ++ [0]) ((u ++ ws ++ v) ++ [0]) := by
  have e1 : (u ++ v) ++ [0] = u ++ (v ++ [0]) := by simp
  have e2 : (u ++ ws ++ v) ++ [0] = u ++ (ws ++ (v ++ [0])) := by simp
  rw [e1, e2]
  refine ⟨by simp; omega, by simp, ?_, ?_, ?_⟩
  · intro i hi
    rw [rd_append_left _ _ _ hi, rd_append_left _ _ _ hi]
  · intro i hi
    obtain ⟨j, rfl⟩ : ∃ j, i = u.length + j := ⟨i - u.length, by omega⟩
    rw [rd_append_right, Nat.add_assoc, rd_append_right, Nat.add_comm j, rd_append_right]
  · intro i h1 h2
    obtain ⟨j, rfl⟩ : ∃ j, i = u.length + j := ⟨i - u.length, by omega⟩
    rw [rd_append_right, rd_append_left _ _ _ (by omega)]
    exact hws _ (rd_mem_of_lt _ _ (by omega))

theorem run_of_reach (vt : H → ajson_sax_cb_t σ H) (k : Nat) (l l1 : Label) (lx lx1 : Lexer)
    (cs cs1 : Consumer σ H) (f : Nat) (r : Result σ H)
    (hk : reach vt k l lx cs = some (l1, lx1, cs1)) (hr : run vt f l lx cs = some r) :
    ∃ g, run vt g l1 lx1 cs1 = some r := by
  induction k generalizing l lx cs f with
  | zero =>
    simp only [reach, Option.some.injEq, Prod.mk.injEq] at hk
    obtain ⟨rfl, rfl, rfl⟩ := hk
    exact ⟨f, hr⟩
  | succ k ih =>
    cases f with
    | zero => simp [run] at hr
    | succ f =>
      unfold reach at hk
      unfold run at hr
      cases hs : step vt l lx cs with
      | ret rc lx2 cs2 =>
        rw [hs] at hk
        simp at hk
      | goto l2 lx2 cs2 =>
        rw [hs] at hk hr
        exact ih _ _ _ _ hk hr

/-- Whitespace inserted at a place between two tokens changes neither the return
code nor the callbacks invoked. -/
theorem insert_outcome (vt : H → ajson_sax_cb_t σ H) (u ws v : List Nat) (cb : H) (ctx : σ)
    (hws : ∀ c ∈ ws, isSpace c) (hv : v ≠ [])
    (hb : TokenBoundary vt (u ++ v) cb ctx u.length) :
    outcome (parse_doc vt (u ++ ws ++ v) cb ctx) = outcome (parse_doc vt (u ++ v) cb ctx) := by
  by_cases hn : ws = []
  · subst hn
    simp
  have hn : 0 < ws.length := List.length_pos.2 hn
  have hvl : 0 < v.length := List.length_pos.2 hv
  obtain ⟨l, lx, ⟨k, cs, hk⟩, hl⟩ := hb
  have hinit : Prefixed u.length ws.length .start_value
      (init_lexer ((u ++ v) ++ [0]) (u ++ v).length)
      (init_lexer ((u ++ ws ++ v) ++ [0]) (u ++ ws ++ v).length) :=
    ⟨Ins_insert u ws v hws, by
      show (u ++ ws ++ v).length = (u ++ v).length + ws.length
      simp only [List.length_append]
      omega, by
      show u.length < (u ++ v).length
      simp only [List.length_append]
      omega, rfl, Nat.zero_le _, rfl, rfl, rfl, trivial⟩
  have hok : PreOk u.length l lx := by
    rcases hl with ⟨hd, hp⟩ | ⟨-, hg⟩
    · exact Or.inr ⟨hp, Or.inl hd⟩
    · have := scan_to_ge lx.mem lx.ep 34 (lx.ep - lx.p) lx.p
      have := hg.2.2.1
      exact Or.inl (by omega)
  obtain ⟨lx1, hk1, hq⟩ := reach_pre vt hn k _ _ _ _ _ _ _ hk hok hinit
  obtain ⟨r, hr⟩ := ajson_sax_parse_total vt ((u ++ v) ++ [0]) (u ++ v).length cb ctx
  have hr0 := hr
  unfold ajson_sax_parse at hr0
  dsimp only at hr0
  rw [if_neg (by
    show ¬ (0 ≥ (u ++ v).length)
    simp only [List.length_append]
    omega)] at hr0
  obtain ⟨g, hg⟩ := run_of_reach vt k _ _ _ _ _ _ _ r hk hr0
  have hends : Ends vt l lx1 cs (fun r1 => r1.rc = r.rc ∧ r1.cs = r.cs) := by
    rcases hl with ⟨hd, hp⟩ | ⟨rfl, hgap⟩
    · exact run_boundary vt hn l lx lx1 cs hd hq hp g r hg
    · have hs := cross_key vt lx lx1 cs hq hgap
      cases g with
      | zero => simp [run] at hg
      | succ g =>
        unfold run at hg
        change Sim True AnyJump _ (step vt .get_end_of_key lx1 cs)
          (step vt .get_end_of_key lx cs) at hs
        cases h1 : step vt .get_end_of_key lx cs with
        | ret rc lx2 cs2 =>
          rw [h1] at hg hs
          obtain ⟨lx3, h3⟩ := hs trivial
          simp only [Option.some.injEq] at hg
          subst hg
          exact Ends_ret h3 ⟨rfl, rfl⟩
        | goto l2 lx2 cs2 =>
          rw [h1] at hg hs
          obtain ⟨lx3, h3, hq3⟩ := hs trivial
          exact Ends_goto h3 (Ends_post vt l2 lx2 lx3 cs2 g r hq3 hg)
  obtain ⟨r1, hr1, hrc, hcs⟩ := ajson_sax_parse_of_Ends
    (by simp only [List.length_append]; omega : 0 < (u ++ ws ++ v).length)
    (Ends_of_reach hk1 hends)
  unfold parse_doc
  rw [hr, hr1]
  simp [outcome, hrc, hcs]

end Skip

/-! ## The string utilities -/

section StringUtils

theorem hex_value_of_digit {c : Nat} (h : IsHexDigit c) : hex_value c = some (hexval c) := by
  unfold IsHexDigit at h
  unfold hex_value hexval
  rcases h with h | h | h
  · rw [if_pos h, if_pos h.2]
  · rw [if_neg (by omega), if_pos h, if_neg (by omega), if_pos h.2]
    congr 1
    omega
  · rw [if_neg (by omega), if_neg (by omega), if_pos h, if_neg (by omega), if_neg (by omega)]
    congr 1
    omega

theorem hex_value_none {c : Nat} (h : ¬ IsHexDigit c) : hex_value c = none := by
  unfold IsHexDigit at h
  unfold hex_value
  rw [if_neg (by omega), if_neg (by omega), if_neg (by omega)]

theorem hexval_lt {c : Nat} (h : IsHexDigit c) : hexval c < 16 := by
  unfold IsHexDigit at h
  unfold hexval
  split_ifs <;> omega

theorem hex4_of_digits {mem : List Nat} {s c0 c1 c2 c3 : Nat} (hat : At mem s [c0, c1, c2, c3])
    (h0 : IsHexDigit c0) (h1 : IsHexDigit c1) (h2 : IsHexDigit c2) (h3 : IsHexDigit c3) :
    hex4 mem s = some (code_point c0 c1 c2 c3) := by
  have e0 : rd mem s = c0 := by simpa [rd] using hat 0 (by simp)
  have e1 : rd mem (s + 1) = c1 := by simpa [rd] using hat 1 (by simp)
  have e2 : rd mem (s + 2) = c2 := by simpa [rd] using hat 2 (by simp)
  have e3 : rd mem (s + 3) = c3 := by simpa [rd] using hat 3 (by simp)
  unfold hex4
  rw [e0, e1, e2, e3, hex_value_of_digit h0, hex_value_of_digit h1, hex_value_of_digit h2,
    hex_value_of_digit h3]
  simp only [Nat.shiftLeft_eq, code_point]
  congr 1
  omega

theorem hex4_none {mem : List Nat} {s : Nat}
    (h : ¬ IsHexDigit (rd mem s) ∨ ¬ IsHexDigit (rd mem (s + 1)) ∨ ¬ IsHexDigit (rd mem (s + 2)) ∨
      ¬ IsHexDigit (rd mem (s + 3))) : hex4 mem s = none := by
  unfold hex4
  by_cases h0 : IsHexDigit (rd mem s)
  · rw [hex_value_of_digit h0]
    by_cases h1 : IsHexDigit (rd mem (s + 1))
    · rw [hex_value_of_digit h1]
      by_cases h2 : IsHexDigit (rd mem (s + 2))
      · rw [hex_value_of_digit h2]
        have h3 : ¬ IsHexDigit (rd mem (s + 3)) := by tauto
        rw [hex_value_none h3]
      · rw [hex_value_none h2]
    · rw [hex_value_none h1]
  · rw [hex_value_none h0]

theorem code_point_lt {c0 c1 c2 c3 : Nat} (h0 : IsHexDigit c0) (h1 : IsHexDigit c1)
    (h2 : IsHexDigit c2) (h3 : IsHexDigit c3) : code_point c0 c1 c2 c3 < 0x10000 := by
  have := hexval_lt h0
  have := hexval_lt h1
  have := hexval_lt h2
  have := hexval_lt h3
  unfold code_point
  omega

theorem utf8_store_bmp {cp : Nat} (h : cp < 0x10000) : utf8_store cp = utf8_bmp cp := by
  unfold utf8_store utf8_bmp
  by_cases h1 : cp < 0x80
  · rw [if_pos h1, if_pos h1]
  · rw [if_neg h1, if_neg h1]
    by_cases h2 : cp < 0x800
    · rw [if_pos h2, if_pos h2, Nat.lor_comm, Nat.lor_comm (cp &&& 0x3F)]
    · rw [if_neg h2, if_neg h2, if_pos h, Nat.lor_comm, Nat.lor_comm (cp >>> 6 &&& 0x3F),
        Nat.lor_comm (cp &&& 0x3F)]

theorem utf8_store_four {cp : Nat} (h1 : 0x10000 ≤ cp) (h2 : cp < 0x110000) :
    utf8_store cp = utf8_four cp := by
  unfold utf8_store utf8_four
  rw [if_neg (by omega), if_neg (by omega), if_neg (by omega), if_pos h2, Nat.lor_comm,
    Nat.lor_comm (cp >>> 12 &&& 0x3F), Nat.lor_comm (cp >>> 6 &&& 0x3F),
    Nat.lor_comm (cp &&& 0x3F)]

end StringUtils

section Decoder

theorem decode_step_plain (mem : List Nat) (p : Nat) (out : List Nat) (h : rd mem p ≠ 92) :
    decode_step mem p out = (p + 1, out ++ [rd mem p]) := by
  unfold decode_step
  simp only [if_pos h]

/-- The iteration of the decoder at `\u`: the work is left to `unicode_to_utf8`. -/
theorem decode_step_unicode (mem : List Nat) (p : Nat) (out : List Nat) (h0 : rd mem p = 92)
    (h1 : rd mem (p + 1) = 117) :
    decode_step mem p out =
      match unicode_to_utf8 mem (p + 2) with
      | none =>
        (p + 6, out ++ [rd mem p, rd mem (p + 1), rd mem (p + 2), rd mem (p + 3),
          rd mem (p + 4), rd mem (p + 5)])
      | some (bytes, p1) => (p1, out ++ bytes) := by
  unfold decode_step decode_escape
  simp [h0, h1]

theorem At_shift {mem : List Nat} {s : Nat} {A : List Nat} (n : Nat) (h : At mem s A) :
    At mem (s + n) (A.drop n) := by
  intro k hk
  rw [List.length_drop] at hk
  rw [Nat.add_assoc, h (n + k) (by omega)]
  simp [rd, List.getD_eq_getElem?_getD]

/-- A `\uXXXX` escape of a code point that is not a high surrogate: the bytes of
its UTF-8 layout are stored and the cursor moves past the four digits. -/
theorem unicode_to_utf8_bmp {mem : List Nat} {s c0 c1 c2 c3 : Nat}
    (hat : At mem s [c0, c1, c2, c3])
    (h0 : IsHexDigit c0) (h1 : IsHexDigit c1) (h2 : IsHexDigit c2) (h3 : IsHexDigit c3)
    (hs : ¬ (0xD800 ≤ code_point c0 c1 c2 c3 ∧ code_point c0 c1 c2 c3 ≤ 0xDBFF)) :
    unicode_to_utf8 mem s = some (utf8_bmp (code_point c0 c1 c2 c3), s + 4) := by
  unfold unicode_to_utf8
  rw [hex4_of_digits hat h0 h1 h2 h3]
  simp only [if_neg hs, utf8_store_bmp (code_point_lt h0 h1 h2 h3)]

theorem pair_bounds {h l : Nat} (h1 : 0xD800 ≤ h) (h2 : h ≤ 0xDBFF) (l1 : 0xDC00 ≤ l)
    (l2 : l ≤ 0xDFFF) :
    0x10000 ≤ ((h - 0xD800) <<< 10) + (l - 0xDC00) + 0x10000 ∧
      ((h - 0xD800) <<< 10) + (l - 0xDC00) + 0x10000 < 0x110000 := by
  rw [Nat.shiftLeft_eq]
  omega

/-- A surrogate pair: the bytes of the four-byte encoding of the combined code
point are stored and the cursor moves past the second escape. -/
theorem unicode_to_utf8_pair {mem : List Nat} {s a0 a1 a2 a3 b0 b1 b2 b3 : Nat}
    (hat : At mem s [a0, a1, a2, a3, 92, 117, b0, b1, b2, b3])
    (ha0 : IsHexDigit a0) (ha1 : IsHexDigit a1) (ha2 : IsHexDigit a2) (ha3 : IsHexDigit a3)
    (hb0 : IsHexDigit b0) (hb1 : IsHexDigit b1) (hb2 : IsHexDigit b2) (hb3 : IsHexDigit b3)
    (hh : 0xD800 ≤ code_point a0 a1 a2 a3 ∧ code_point a0 a1 a2 a3 ≤ 0xDBFF)
    (hl : 0xDC00 ≤ code_point b0 b1 b2 b3 ∧ code_point b0 b1 b2 b3 ≤ 0xDFFF) :
    unicode_to_utf8 mem s =
      some (utf8_four (((code_point a0 a1 a2 a3 - 0xD800) <<< 10) +
        (code_point b0 b1 b2 b3 - 0xDC00) + 0x10000), s + 10) := by
  have hA : At mem s [a0, a1, a2, a3] := (@At_append mem s [a0, a1, a2, a3] _ hat).1
  have hB : At mem (s + 4 + 2) [b0, b1, b2, b3] := by
    have := At_shift 6 hat
    simpa using this
  have e4 : rd mem (s + 4) = 92 := by simpa [rd] using hat 4 (by simp)
  have e5 : rd mem (s + 4 + 1) = 117 := by simpa [rd] using hat 5 (by simp)
  have hb := pair_bounds hh.1 hh.2 hl.1 hl.2
  unfold unicode_to_utf8
  rw [hex4_of_digits hA ha0 ha1 ha2 ha3]
  simp only [if_pos hh, e4, e5, ne_eq, not_true_eq_false, or_self, if_false]
  rw [hex4_of_digits hB hb0 hb1 hb2 hb3]
  simp only
  rw [if_neg (by omega), utf8_store_four hb.1 hb.2]

theorem hex4_of_HexAt {mem : List Nat} {s : Nat} (h : HexAt mem s) :
    hex4 mem s = some (code_at mem s) := by
  have hat : At mem s [rd mem s, rd mem (s + 1), rd mem (s + 2), rd mem (s + 3)] := by
    intro k hk
    simp only [List.length_cons, List.length_nil] at hk
    have : k = 0 ∨ k = 1 ∨ k = 2 ∨ k = 3 := by omega
    rcases this with rfl | rfl | rfl | rfl <;> simp [rd]
  exact hex4_of_digits hat h.1 h.2.1 h.2.2.1 h.2.2.2

theorem hex4_of_not_HexAt {mem : List Nat} {s : Nat} (h : ¬ HexAt mem s) :
    hex4 mem s = none := by
  apply hex4_none
  unfold HexAt at h
  tauto

/-- A malformed escape makes `unicode_to_utf8` return -1. -/
theorem unicode_to_utf8_of_malformed {mem : List Nat} {p : Nat} (h : Malformed mem p) :
    unicode_to_utf8 mem (p + 2) = none := by
  obtain ⟨_, _, h⟩ := h
  unfold unicode_to_utf8
  rcases h with h | ⟨h1, hs, h⟩
  · rw [hex4_of_not_HexAt h]
  · rw [hex4_of_HexAt h1]
    simp only [if_pos hs]
    by_cases hq : rd mem (p + 2 + 4) ≠ 92 ∨ rd mem (p + 2 + 4 + 1) ≠ 117
    · rw [if_pos hq]
    · rw [if_neg hq]
      have hq1 : rd mem (p + 6) = 92 := by
        have := not_or.1 hq
        exact not_not.1 this.1
      have hq2 : rd mem (p + 7) = 117 := by
        have := not_or.1 hq
        exact not_not.1 this.2
      by_cases h2 : HexAt mem (p + 2 + 4 + 2)
      · rw [hex4_of_HexAt h2]
        simp only
        rw [if_pos]
        have h3 : HexAt mem (p + 8) := h2
        have e : code_at mem (p + 2 + 4 + 2) = code_at mem (p + 8) := rfl
        rw [e]
        by_contra hc
        exact h ⟨hq1, hq2, h3, by omega, by omega⟩
      · rw [hex4_of_not_HexAt h2]

end Decoder

section Loops

theorem slice_zero (mem : List Nat) (q : Nat) : slice mem q 0 = [] := by
  simp [slice]

theorem slice_succ (mem : List Nat) (q n : Nat) (h : q < mem.length) :
    slice mem q (n + 1) = rd mem q :: slice mem (q + 1) n := by
  unfold slice rd
  rw [List.drop_eq_getElem_cons h, List.take_succ_cons, List.getD_eq_getElem _ _ h]

theorem slice_append_self (A B : List Nat) : slice (A ++ B) 0 A.length = A := by
  simp [slice]

theorem At_append_mid (A R B : List Nat) : At (A ++ (R ++ B)) A.length R := by
  intro k hk
  rw [rd_append_right, rd_append_left _ _ _ hk]

/-! ### The encoder -/

/-- The `switch` of `_ajson_encode` is the escape map of the specification. -/
theorem encode_byte_eq (c : Nat) : encode_byte c = escape_map c := by
  unfold encode_byte escape_map
  by_cases h : c < 0x20
  · have e : sprintf_u04X c = ascii "\\u00" ++ [hex_upper (c / 16), hex_upper (c % 16)] := by
      unfold sprintf_u04X
      have e1 : c / 4096 % 16 = 0 := by omega
      have e2 : c / 256 % 16 = 0 := by omega
      have e3 : c / 16 % 16 = c / 16 := by omega
      rw [e1, e2, e3]
      rfl
    simp only [if_pos h, e]
    rfl
  · simp only [if_neg h]
    rfl

theorem encode_byte_plain {c : Nat} (h : ¬ needs_escape c) : encode_byte c = [c] := by
  unfold needs_escape at h
  unfold encode_byte
  iterate 9 rw [if_neg (by omega)]

theorem hex_upper_pos (v : Nat) : hex_upper v ≠ 0 := by
  unfold hex_upper
  split_ifs <;> omega

/-- The encoder writes no NUL before its final one. -/
theorem encode_byte_no_nul (c : Nat) : 0 ∉ encode_byte c := by
  unfold encode_byte
  split_ifs with h1 h2 h3 h4 h5 h6 h7 h8 h9
  · decide
  · decide
  · decide
  · decide
  · decide
  · decide
  · decide
  · decide
  · have a := hex_upper_pos (c / 4096 % 16)
    have b := hex_upper_pos (c / 256 % 16)
    have d := hex_upper_pos (c / 16 % 16)
    have e := hex_upper_pos (c % 16)
    simp only [sprintf_u04X, List.mem_cons, List.mem_singleton, List.not_mem_nil]
    rintro (h | h | h | h | h | h | h)
    · omega
    · omega
    · exact a h.symm
    · exact b h.symm
    · exact d h.symm
    · exact e h.symm
    · exact h
  · simp only [List.mem_singleton]
    omega

theorem encode_loop_eq (mem : List Nat) (n p : Nat) (out : List Nat)
    (h : p + n ≤ mem.length) :
    encode_loop mem n p out = out ++ (slice mem p n).flatMap encode_byte := by
  induction n generalizing p out with
  | zero => simp [encode_loop, slice_zero]
  | succ n ih =>
    rw [encode_loop, ih (p + 1) _ (by omega), slice_succ _ _ _ (by omega)]
    simp

/-- The scan of `ajson_encode`: where it stops, and that no byte before needs an
escape. -/
theorem first_escape_spec (mem : List Nat) (n p : Nat) :
    (first_escape mem n p = none ∧ ∀ i, p ≤ i → i < p + n → ¬ needs_escape (rd mem i)) ∨
    ∃ q, first_escape mem n p = some q ∧ p ≤ q ∧ q < p + n ∧ needs_escape (rd mem q) ∧
      ∀ i, p ≤ i → i < q → ¬ needs_escape (rd mem i) := by
  induction n generalizing p with
  | zero => exact Or.inl ⟨rfl, fun i h1 h2 => by omega⟩
  | succ n ih =>
    unfold first_escape
    by_cases h : needs_escape (rd mem p)
    · rw [if_pos h]
      exact Or.inr ⟨p, rfl, Nat.le_refl _, by omega, h, fun i h1 h2 => by omega⟩
    · rw [if_neg h]
      rcases ih (p + 1) with ⟨e, hall⟩ | ⟨q, e, h1, h2, h3, hall⟩
      · refine Or.inl ⟨e, fun i h1 h2 => ?_⟩
        by_cases hi : i = p
        · rw [hi]; exact h
        · exact hall i (by omega) (by omega)
      · refine Or.inr ⟨q, e, by omega, by omega, h3, fun i h1 h2 => ?_⟩
        by_cases hi : i = p
        · rw [hi]; exact h
        · exact hall i (by omega) h2

theorem flatMap_plain (mem : List Nat) (p n : Nat) (h : p + n ≤ mem.length)
    (hall : ∀ i, p ≤ i → i < p + n → ¬ needs_escape (rd mem i)) :
    (slice mem p n).flatMap encode_byte = slice mem p n := by
  induction n generalizing p with
  | zero => simp [slice_zero]
  | succ n ih =>
    rw [slice_succ _ _ _ (by omega), List.flatMap_cons,
      encode_byte_plain (hall p (Nat.le_refl _) (by omega)),
      ih (p + 1) (by omega) (fun i h1 h2 => hall i (by omega) (by omega))]
    rfl

theorem slice_split (mem : List Nat) (q n : Nat) (h : q ≤ n) :
    slice mem 0 n = slice mem 0 q ++ slice mem q (n - q) := by
  unfold slice
  simp only [List.drop_zero]
  rw [← List.take_append_drop q (mem.take n), List.take_take, Nat.min_eq_left h,
    List.drop_take]

/-- The bytes returned by `ajson_encode` are the escapes of the bytes of the
slice, in order. -/
theorem ajson_encode_bytes (mem : List Nat) (n : Nat) (h : n ≤ mem.length) :
    (ajson_encode mem n).bytes = (slice mem 0 n).flatMap encode_byte := by
  unfold ajson_encode
  rcases first_escape_spec mem n 0 with ⟨e, hall⟩ | ⟨q, e, h1, h2, h3, hall⟩
  · rw [e]
    exact (flatMap_plain mem 0 n (by omega) hall).symm
  · rw [e]
    simp only [_ajson_encode]
    rw [encode_loop_eq _ _ _ _ (by omega), slice_split mem q n (by omega), List.flatMap_append,
      flatMap_plain mem 0 q (by omega) (fun i h1 h2 => hall i h1 (by omega))]

theorem ajson_encode_same (mem : List Nat) (n : Nat) :
    (ajson_encode mem n).same = true ↔ ∀ i, i < n → ¬ needs_escape (rd mem i) := by
  unfold ajson_encode
  rcases first_escape_spec mem n 0 with ⟨e, hall⟩ | ⟨q, e, h1, h2, h3, hall⟩
  · rw [e]
    simp only [true_iff]
    exact fun i hi => hall i (Nat.zero_le _) (by omega)
  · rw [e]
    simp only [Bool.false_eq_true, false_iff, not_forall]
    exact ⟨q, by omega, not_not.2 h3⟩

end Loops

section DecodeLoop

theorem unicode_to_utf8_cursor {mem : List Nat} {s p1 : Nat} {b : List Nat}
    (h : unicode_to_utf8 mem s = some (b, p1)) : p1 = s + 4 ∨ p1 = s + 10 := by
  unfold unicode_to_utf8 at h
  cases h4 : hex4 mem s with
  | none => rw [h4] at h; cases h
  | some ch =>
    rw [h4] at h
    simp only at h
    split_ifs at h with h1 h2
    · cases h5 : hex4 mem (s + 4 + 2) with
      | none => rw [h5] at h; cases h
      | some ch2 =>
        rw [h5] at h
        simp only at h
        split_ifs at h
        simp only [Option.some.injEq, Prod.mk.injEq] at h
        exact Or.inr (by omega)
    · simp only [Option.some.injEq, Prod.mk.injEq] at h
      exact Or.inl h.2.symm

theorem decode_escape_advances (mem : List Nat) (p : Nat) (out : List Nat) :
    1 ≤ p → p < (decode_escape mem p out).1 := by
  intro hp
  unfold decode_escape
  dsimp only
  repeat' split
  all_goals try (dsimp only; omega)
  rename_i hu
  have := unicode_to_utf8_cursor hu
  dsimp only
  omega

/-- Every iteration of the decoder moves the cursor forward. -/
theorem decode_step_advances (mem : List Nat) (p : Nat) (out : List Nat) :
    p < (decode_step mem p out).1 := by
  unfold decode_step
  dsimp only
  split
  · dsimp only; omega
  · have := decode_escape_advances mem (p + 1) out (by omega)
    omega

theorem decode_loop_done (mem : List Nat) (ep n p : Nat) (out : List Nat) (h : ep ≤ p) :
    decode_loop mem ep n p out = some out := by
  cases n <;> simp [decode_loop, Nat.not_lt.2 h]

theorem decode_loop_succ (mem : List Nat) (ep n p : Nat) (out : List Nat) (h : p < ep) :
    decode_loop mem ep (n + 1) p out =
      decode_loop mem ep n (decode_step mem p out).1 (decode_step mem p out).2 := by
  rw [decode_loop, if_pos h]

/-- The loop of the decoder comes to its end within `ep - p` iterations. -/
theorem decode_loop_total (mem : List Nat) (ep n p : Nat) (out : List Nat) (h : ep ≤ p + n) :
    ∃ r, decode_loop mem ep n p out = some r := by
  induction n generalizing p out with
  | zero => exact ⟨out, decode_loop_done _ _ _ _ _ (by omega)⟩
  | succ n ih =>
    by_cases hp : p < ep
    · rw [decode_loop_succ _ _ _ _ _ hp]
      exact ih _ _ (by have := decode_step_advances mem p out; omega)
    · exact ⟨out, decode_loop_done _ _ _ _ _ (by omega)⟩

/-- More iterations than needed change nothing. -/
theorem decode_loop_mono (mem : List Nat) (ep n m p : Nat) (out r : List Nat)
    (h : decode_loop mem ep n p out = some r) (hm : n ≤ m) :
    decode_loop mem ep m p out = some r := by
  induction n generalizing m p out with
  | zero =>
    unfold decode_loop at h
    by_cases hp : p < ep
    · rw [if_pos hp] at h; cases h
    · rw [if_neg hp] at h
      rw [decode_loop_done _ _ _ _ _ (by omega)]
      exact h
  | succ n ih =>
    obtain ⟨m, rfl⟩ : ∃ k, m = k + 1 := ⟨m - 1, by omega⟩
    by_cases hp : p < ep
    · rw [decode_loop_succ _ _ _ _ _ hp] at h ⊢
      exact ih _ _ _ h (by omega)
    · rw [decode_loop_done _ _ _ _ _ (by omega)] at h ⊢
      exact h

theorem decode_loop_fuel (mem : List Nat) (ep n m p : Nat) (out : List Nat)
    (hn : ep ≤ p + n) (hm : ep ≤ p + m) :
    decode_loop mem ep n p out = decode_loop mem ep m p out := by
  obtain ⟨r, hr⟩ := decode_loop_total mem ep n p out hn
  obtain ⟨r1, hr1⟩ := decode_loop_total mem ep m p out hm
  rw [hr, hr1]
  by_cases h : n ≤ m
  · rw [decode_loop_mono _ _ _ _ _ _ _ hr h] at hr1
    exact hr1
  · rw [decode_loop_mono _ _ _ _ _ _ _ hr1 (by omega)] at hr
    exact hr.symm

/-- The scan of `ajson_decode`: where it stops, and that no byte before is a
backslash. -/
theorem first_backslash_spec (mem : List Nat) (n p : Nat) :
    (first_backslash mem n p = none ∧ ∀ i, p ≤ i → i < p + n → rd mem i ≠ 92) ∨
    ∃ q, first_backslash mem n p = some q ∧ p ≤ q ∧ q < p + n ∧ rd mem q = 92 ∧
      ∀ i, p ≤ i → i < q → rd mem i ≠ 92 := by
  induction n generalizing p with
  | zero => exact Or.inl ⟨rfl, fun i h1 h2 => by omega⟩
  | succ n ih =>
    unfold first_backslash
    by_cases h : rd mem p = 92
    · rw [if_pos h]
      exact Or.inr ⟨p, rfl, Nat.le_refl _, by omega, h, fun i h1 h2 => by omega⟩
    · rw [if_neg h]
      rcases ih (p + 1) with ⟨e, hall⟩ | ⟨q, e, h1, h2, h3, hall⟩
      · refine Or.inl ⟨e, fun i h1 h2 => ?_⟩
        by_cases hi : i = p
        · rw [hi]; exact h
        · exact hall i (by omega) (by omega)
      · refine Or.inr ⟨q, e, by omega, by omega, h3, fun i h1 h2 => ?_⟩
        by_cases hi : i = p
        · rw [hi]; exact h
        · exact hall i (by omega) h2

/-- Over bytes that are no backslash the loop of the decoder copies: it comes to
the cursor `q` with the bytes passed appended. -/
theorem decode_loop_copy (mem : List Nat) (ep n p q : Nat) (out : List Nat) (hq : q ≤ ep)
    (hlen : ep ≤ mem.length) (hpq : p ≤ q) (hn : ep ≤ p + n)
    (hall : ∀ i, p ≤ i → i < q → rd mem i ≠ 92) :
    decode_loop mem ep n p out = decode_loop mem ep (ep - q) q (out ++ slice mem p (q - p)) := by
  induction n generalizing p out with
  | zero =>
    have e : q = p := by omega
    subst e
    simp [slice_zero]
    exact decode_loop_fuel _ _ _ _ _ _ (by omega) (by omega)
  | succ n ih =>
    by_cases e : q = p
    · subst e
      simp [slice_zero]
      exact decode_loop_fuel _ _ _ _ _ _ (by omega) (by omega)
    · rw [decode_loop_succ _ _ _ _ _ (by omega),
        decode_step_plain _ _ _ (hall p (Nat.le_refl _) (by omega)),
        ih (p + 1) _ (by omega) (by omega) (fun i h1 h2 => hall i (by omega) h2)]
      have e2 : q - p = (q - (p + 1)) + 1 := by omega
      rw [e2, slice_succ _ _ _ (by omega)]
      simp

/-- What `ajson_decode2` returns is what the loop of the decoder gives from the
start of the slice: the scan for the first backslash and the `memcpy` of the
bytes before it are a shortcut. -/
theorem ajson_decode2_eq_loop (mem : List Nat) (n : Nat) (h : n ≤ mem.length) :
    (ajson_decode2 mem n).map (fun r => (r.1.bytes, r.2)) =
      (decode_loop mem n n 0 []).map (fun o => (o, o.length)) := by
  unfold ajson_decode2
  rcases first_backslash_spec mem n 0 with ⟨e, hall⟩ | ⟨q, e, h1, h2, h3, hall⟩
  · rw [e, decode_loop_copy mem n n 0 n [] (Nat.le_refl _) h (Nat.zero_le _) (by omega)
      (fun i h1 h2 => hall i h1 (by omega)), decode_loop_done _ _ _ _ _ (Nat.le_refl _)]
    simp [slice, h]
  · rw [e, decode_loop_copy mem n n 0 q [] (by omega) h (Nat.zero_le _) (by omega) hall]
    simp only [_ajson_decode, Option.map_map, Nat.sub_zero, List.nil_append]
    rfl

/-- The decoder returns: `ajson_decode2` is total. -/
theorem ajson_decode2_total (mem : List Nat) (n : Nat) : ∃ r, ajson_decode2 mem n = some r := by
  unfold ajson_decode2
  rcases first_backslash_spec mem n 0 with ⟨e, _⟩ | ⟨q, e, h1, h2, _, _⟩
  · rw [e]; exact ⟨_, rfl⟩
  · rw [e]
    obtain ⟨r, hr⟩ := decode_loop_total mem n (n - q) q (slice mem 0 q) (by omega)
    exact ⟨_, by simp only [_ajson_decode, hr]; rfl⟩

end DecodeLoop

section RoundTrip

theorem isHexDigit_hex_upper {v : Nat} (h : v < 16) : IsHexDigit (hex_upper v) := by
  unfold hex_upper IsHexDigit
  split_ifs <;> omega

theorem hexval_hex_upper {v : Nat} (h : v < 16) : hexval (hex_upper v) = v := by
  unfold hex_upper hexval
  split_ifs <;> omega

theorem At_two {mem : List Nat} {p b0 b1 : Nat} (hat : At mem p [b0, b1]) :
    rd mem p = b0 ∧ rd mem (p + 1) = b1 :=
  ⟨by simpa [rd] using hat 0 (by simp), by simpa [rd] using hat 1 (by simp)⟩

theorem decode_step_short {mem : List Nat} {p e v : Nat} (out : List Nat)
    (hat : At mem p [92, e])
    (he : (e = 34 ∧ v = 34) ∨ (e = 92 ∧ v = 92) ∨ (e = 47 ∧ v = 47) ∨ (e = 98 ∧ v = 8) ∨
      (e = 102 ∧ v = 12) ∨ (e = 110 ∧ v = 10) ∨ (e = 114 ∧ v = 13) ∨ (e = 116 ∧ v = 9)) :
    decode_step mem p out = (p + 2, out ++ [v]) := by
  obtain ⟨e0, e1⟩ := At_two hat
  unfold decode_step decode_escape
  rcases he with h | h | h | h | h | h | h | h <;>
    (obtain ⟨he, hv⟩ := h; subst he hv; simp [e0, e1])

/-- The iteration of the decoder on the `\u00XX` that the encoder prints. -/
theorem decode_step_sprintf {mem : List Nat} {p c : Nat} (out : List Nat) (hc : c < 0x80)
    (hat : At mem p (sprintf_u04X c)) : decode_step mem p out = (p + 6, out ++ [c]) := by
  unfold sprintf_u04X at hat
  have e0 : rd mem p = 92 := by simpa [rd] using hat 0 (by simp)
  have e1 : rd mem (p + 1) = 117 := by simpa [rd] using hat 1 (by simp)
  have hd : At mem (p + 2) [hex_upper (c / 4096 % 16), hex_upper (c / 256 % 16),
      hex_upper (c / 16 % 16), hex_upper (c % 16)] := by
    have := At_shift 2 hat
    simpa using this
  have h0 : c / 4096 % 16 < 16 := Nat.mod_lt _ (by decide)
  have h1 : c / 256 % 16 < 16 := Nat.mod_lt _ (by decide)
  have h2 : c / 16 % 16 < 16 := Nat.mod_lt _ (by decide)
  have h3 : c % 16 < 16 := Nat.mod_lt _ (by decide)
  have hcp : code_point (hex_upper (c / 4096 % 16)) (hex_upper (c / 256 % 16))
      (hex_upper (c / 16 % 16)) (hex_upper (c % 16)) = c := by
    unfold code_point
    rw [hexval_hex_upper h0, hexval_hex_upper h1, hexval_hex_upper h2, hexval_hex_upper h3]
    omega
  have hu := unicode_to_utf8_bmp hd (isHexDigit_hex_upper h0) (isHexDigit_hex_upper h1)
    (isHexDigit_hex_upper h2) (isHexDigit_hex_upper h3) (by rw [hcp]; omega)
  rw [hcp] at hu
  rw [decode_step_unicode _ _ _ e0 e1, hu]
  simp only [utf8_bmp, if_pos hc]

/-- The iteration of the decoder on what the encoder writes for the byte `c`: it
passes those bytes and writes `c`. -/
theorem decode_step_encoded {mem : List Nat} {p : Nat} (c : Nat) (out : List Nat)
    (hat : At mem p (encode_byte c)) :
    decode_step mem p out = (p + (encode_byte c).length, out ++ [c]) := by
  by_cases h1 : c = 34
  · subst h1; exact @decode_step_short mem p 34 34 out hat (by decide)
  by_cases h2 : c = 92
  · subst h2; exact @decode_step_short mem p 92 92 out hat (by decide)
  by_cases h3 : c = 47
  · subst h3; exact @decode_step_short mem p 47 47 out hat (by decide)
  by_cases h4 : c = 8
  · subst h4; exact @decode_step_short mem p 98 8 out hat (by decide)
  by_cases h5 : c = 12
  · subst h5; exact @decode_step_short mem p 102 12 out hat (by decide)
  by_cases h6 : c = 10
  · subst h6; exact @decode_step_short mem p 110 10 out hat (by decide)
  by_cases h7 : c = 13
  · subst h7; exact @decode_step_short mem p 114 13 out hat (by decide)
  by_cases h8 : c = 9
  · subst h8; exact @decode_step_short mem p 116 9 out hat (by decide)
  by_cases h9 : c < 0x20
  · have e : encode_byte c = sprintf_u04X c := by
      unfold encode_byte
      rw [if_neg h1, if_neg h2, if_neg h3, if_neg h4, if_neg h5, if_neg h6, if_neg h7,
        if_neg h8, if_pos h9]
    rw [e] at hat ⊢
    exact decode_step_sprintf out (by omega) hat
  · have e : encode_byte c = [c] := by
      unfold encode_byte
      rw [if_neg h1, if_neg h2, if_neg h3, if_neg h4, if_neg h5, if_neg h6, if_neg h7,
        if_neg h8, if_neg h9]
    rw [e] at hat ⊢
    have e0 : rd mem p = c := by simpa [rd] using hat 0 (by simp)
    rw [decode_step_plain _ _ _ (by rw [e0]; exact h2), e0]
    rfl

theorem encode_byte_length_pos (c : Nat) : 1 ≤ (encode_byte c).length := by
  unfold encode_byte sprintf_u04X
  split_ifs <;> simp

/-- The loop of the decoder over the escapes of the bytes `r`: it writes `r`. -/
theorem decode_loop_encoded (mem : List Nat) (r : List Nat) (ep n p : Nat) (out : List Nat)
    (hat : At mem p (r.flatMap encode_byte))
    (hep : ep = p + (r.flatMap encode_byte).length) (hn : ep ≤ p + n) :
    decode_loop mem ep n p out = some (out ++ r) := by
  induction r generalizing n p out with
  | nil =>
    rw [decode_loop_done _ _ _ _ _ (by simp at hep; omega)]
    simp
  | cons c r ih =>
    rw [List.flatMap_cons] at hat hep
    rw [List.length_append] at hep
    obtain ⟨h1, h2⟩ := At_append hat
    have hpos := encode_byte_length_pos c
    obtain ⟨n, rfl⟩ : ∃ k, n = k + 1 := ⟨n - 1, by omega⟩
    rw [decode_loop_succ _ _ _ _ _ (by omega), decode_step_encoded c out h1]
    simp only
    rw [ih n _ _ h2 (by omega) (by omega)]
    simp

/-- Decoding what the encoder wrote for the bytes `raw` gives `raw`, whatever
stands in memory after it. -/
theorem decode_encoded (raw rest : List Nat) :
    decode_loop (raw.flatMap encode_byte ++ rest) (raw.flatMap encode_byte).length
      (raw.flatMap encode_byte).length 0 [] = some raw := by
  have hat : At (raw.flatMap encode_byte ++ rest) 0 (raw.flatMap encode_byte) := by
    have := At_append_mid [] (raw.flatMap encode_byte) rest
    simpa using this
  have := decode_loop_encoded (raw.flatMap encode_byte ++ rest) raw
    (raw.flatMap encode_byte).length (raw.flatMap encode_byte).length 0 [] hat
    (Nat.zero_add _).symm (by omega)
  simpa using this

end RoundTrip

section DecodeFacts

theorem first_backslash_head (mem : List Nat) (n : Nat) (h : rd mem 0 = 92) :
    first_backslash mem (n + 1) 0 = some 0 := by
  rw [first_backslash, if_pos h]

/-- The decoder on a slice that starts with a backslash and that one iteration
passes. -/
theorem ajson_decode2_one (mem : List Nat) (n : Nat) (out : List Nat) (q : Nat)
    (h : rd mem 0 = 92) (hn : 0 < n) (hstep : decode_step mem 0 [] = (q, out)) (hq : n ≤ q) :
    ajson_decode2 mem n = some (⟨false, out⟩, out.length) := by
  obtain ⟨n, rfl⟩ : ∃ k, n = k + 1 := ⟨n - 1, by omega⟩
  unfold ajson_decode2
  rw [first_backslash_head mem n h]
  simp only [_ajson_decode, Nat.sub_zero, slice_zero]
  rw [decode_loop_succ _ _ _ _ _ (by omega), hstep, decode_loop_done _ _ _ _ _ hq]
  rfl

theorem utf8_store_length (ch : Nat) : (utf8_store ch).length ≤ 4 := by
  unfold utf8_store
  split_ifs <;> simp

theorem unicode_to_utf8_length {mem : List Nat} {s p1 : Nat} {b : List Nat}
    (h : unicode_to_utf8 mem s = some (b, p1)) : b.length ≤ 4 := by
  unfold unicode_to_utf8 at h
  cases h4 : hex4 mem s with
  | none => rw [h4] at h; cases h
  | some ch =>
    rw [h4] at h
    simp only at h
    split_ifs at h with h1 h2
    · cases h5 : hex4 mem (s + 4 + 2) with
      | none => rw [h5] at h; cases h
      | some ch2 =>
        rw [h5] at h
        simp only at h
        split_ifs at h
        simp only [Option.some.injEq, Prod.mk.injEq] at h
        rw [← h.1]
        exact utf8_store_length _
    · simp only [Option.some.injEq, Prod.mk.injEq] at h
      rw [← h.1]
      exact utf8_store_length _

/-- What the `switch` of the decoder writes: one byte at most, or, after `\u`, six
bytes at most while the cursor moves by five at least. -/
theorem decode_escape_growth (mem : List Nat) (p : Nat) (out : List Nat) :
    (decode_escape mem p out).2.length ≤ out.length + 1 ∨
      (rd mem p = 117 ∧ (decode_escape mem p out).2.length ≤ out.length + 6 ∧
        p + 5 ≤ (decode_escape mem p out).1) := by
  by_cases hu : rd mem p = 117
  · right
    refine ⟨hu, ?_⟩
    unfold decode_escape
    simp only [hu, Nat.reduceEqDiff, if_false, if_true]
    cases h : unicode_to_utf8 mem (p + 1) with
    | none =>
      simp only [List.length_append, List.length_cons, List.length_nil]
      omega
    | some r =>
      obtain ⟨b, p1⟩ := r
      have h1 := unicode_to_utf8_length h
      have h2 := unicode_to_utf8_cursor h
      simp only [List.length_append]
      omega
  · left
    unfold decode_escape
    dsimp only
    repeat' split
    all_goals simp

/-- What one iteration of the decoder writes: one byte at most, or, at a `\u`,
six bytes at most while the cursor moves by six at least. -/
theorem decode_step_growth (mem : List Nat) (p : Nat) (out : List Nat) :
    (decode_step mem p out).2.length ≤ out.length + 1 ∨
      (rd mem p = 92 ∧ rd mem (p + 1) = 117 ∧
        (decode_step mem p out).2.length ≤ out.length + 6 ∧
        p + 6 ≤ (decode_step mem p out).1) := by
  unfold decode_step
  dsimp only
  split
  · left; simp
  · rename_i h
    rcases decode_escape_growth mem (p + 1) out with h1 | ⟨h1, h2, h3⟩
    · exact Or.inl h1
    · exact Or.inr ⟨not_not.1 h, h1, h2, by omega⟩

/-- When every `\u` of the slice has six bytes of the slice from its backslash
on, the loop of the decoder writes no more bytes than the slice has. -/
theorem decode_loop_length (mem : List Nat) (ep n p : Nat) (out r : List Nat)
    (hu : ∀ i, i < ep → rd mem i = 92 → rd mem (i + 1) = 117 → i + 6 ≤ ep)
    (hinv : out.length ≤ min p ep) (h : decode_loop mem ep n p out = some r) :
    r.length ≤ ep := by
  induction n generalizing p out with
  | zero =>
    unfold decode_loop at h
    split_ifs at h
    simp only [Option.some.injEq] at h
    rw [← h]
    omega
  | succ n ih =>
    by_cases hp : p < ep
    · rw [decode_loop_succ _ _ _ _ _ hp] at h
      have hadv := decode_step_advances mem p out
      refine ih _ _ ?_ h
      rcases decode_step_growth mem p out with h1 | ⟨h1, h2, h3, h4⟩
      · omega
      · have := hu p hp h1 h2
        omega
    · rw [decode_loop_done _ _ _ _ _ (by omega)] at h
      simp only [Option.some.injEq] at h
      rw [← h]
      omega

/-- The bound of the specification on the decoded length holds when no `\u` of
the slice is cut short by its end. -/
theorem ajson_decode2_length (mem : List Nat) (n : Nat) (hn : n ≤ mem.length)
    (hu : ∀ i, i < n → rd mem i = 92 → rd mem (i + 1) = 117 → i + 6 ≤ n)
    (r : Returned × Nat) (h : ajson_decode2 mem n = some r) : r.2 ≤ n := by
  have e := ajson_decode2_eq_loop mem n hn
  rw [h] at e
  cases hl : decode_loop mem n n 0 [] with
  | none => rw [hl] at e; cases e
  | some o =>
    rw [hl] at e
    simp only [Option.map_some', Option.some.injEq, Prod.mk.injEq] at e
    rw [e.2]
    exact decode_loop_length mem n n 0 [] o hu (by simp) hl

end DecodeFacts

/-! ## The buffer is restored -/

section Buffer

variable {σ H : Type}

theorem SameBuf_refl (lx : Lexer) : SameBuf lx lx := ⟨rfl, fun _ _ => rfl⟩

theorem SameBuf_trans {a b c : Lexer} (h1 : SameBuf a b) (h2 : SameBuf b c) : SameBuf a c :=
  ⟨h2.1.trans h1.1, fun i hi => (h2.2 i (by rw [h1.1]; exact hi)).trans (h1.2 i hi)⟩

theorem Buf_error (lx lx1 : Lexer) (cs : Consumer σ H) (h : SameBuf lx lx1) :
    KeepsBuf lx (SAX_ERROR lx1 cs) := h

/-- A callback of a consumer whose callbacks all return 0 lets the scanner go on. -/
theorem Buf_CHECK_CB {vt : H → ajson_sax_cb_t σ H} (hz : ReturnsZero vt) (lx lx1 : Lexer)
    (cs : Consumer σ H) (ev : Event) (k : Consumer σ H → Step σ H)
    (hk : ∀ cs1, KeepsBuf lx (k cs1)) : KeepsBuf lx (CHECK_CB vt lx1 cs ev k) :=
  wp_CHECK_CB vt lx1 cs ev k (fun _ => hk cs)
    (fun c s rc h hrc => absurd (hz cs ev c s rc h) hrc)
    (fun _ _ _ => hk _)

theorem Buf_plain {vt : H → ajson_sax_cb_t σ H} (hz : ReturnsZero vt) (lx lx1 : Lexer)
    (cs : Consumer σ H) (ev : Event) (l : Label) (f : Lexer) (h : SameBuf lx f) :
    KeepsBuf lx (CHECK_CB vt lx1 cs ev fun cs1 => .goto l f cs1) :=
  Buf_CHECK_CB hz lx lx1 cs ev _ (fun _ => h)

theorem Buf_open_container {vt : H → ajson_sax_cb_t σ H} (hz : ReturnsZero vt)
    (lx lx1 : Lexer) (cs : Consumer σ H) (ev : Event) (mode : Nat) (next : Label)
    (h : SameBuf lx lx1) : KeepsBuf lx (open_container vt lx1 cs ev mode next) := by
  unfold open_container
  refine Buf_CHECK_CB hz lx lx1 cs ev _ (fun cs1 => ?_)
  exact wp_SYNTAX_PUSH lx1 cs1 mode _ (fun _ => h) (fun _ => h)

theorem Buf_close_here {vt : H → ajson_sax_cb_t σ H} (hz : ReturnsZero vt) (lx lx1 : Lexer)
    (cs : Consumer σ H) (ev : Event) (h : SameBuf lx lx1) :
    KeepsBuf lx (close_here vt lx1 cs ev) := by
  unfold close_here
  refine wp_ite (fun _ => Buf_error lx lx1 cs h) (fun _ => ?_)
  exact Buf_CHECK_CB hz lx lx1 cs ev _ (fun _ => h)

theorem Buf_close_ahead {vt : H → ajson_sax_cb_t σ H} (hz : ReturnsZero vt) (lx lx1 : Lexer)
    (cs : Consumer σ H) (ev : Event) (h : SameBuf lx lx1) :
    KeepsBuf lx (close_ahead vt lx1 cs ev) := by
  unfold close_ahead
  refine wp_ite (fun _ => Buf_error lx lx1 cs h) (fun _ => ?_)
  exact Buf_CHECK_CB hz lx lx1 cs ev _ (fun _ => h)

theorem Buf_expect_all (lx : Lexer) (cs : Consumer σ H) (word : List Nat) (lx1 : Lexer)
    (k : Lexer → Step σ H) (h : SameBuf lx lx1)
    (hk : ∀ lx2, SameBuf lx lx2 → KeepsBuf lx (k lx2)) :
    KeepsBuf lx (expect_all cs word lx1 k) := by
  induction word generalizing lx1 with
  | nil => exact hk lx1 h
  | cons c word ih =>
    unfold expect_all
    exact wp_expect lx1 cs c _ (fun _ => Buf_error lx _ cs h) (fun _ => ih _ h)

theorem Buf_literal {vt : H → ajson_sax_cb_t σ H} (hz : ReturnsZero vt) (lx lx1 : Lexer)
    (cs : Consumer σ H) (word : List Nat) (ev : Event) (next : Label) (h : SameBuf lx lx1) :
    KeepsBuf lx (literal vt lx1 cs word ev next) := by
  unfold literal
  refine wp_ite (fun _ => Buf_error lx lx1 cs h) (fun _ => ?_)
  exact Buf_expect_all lx cs word lx1 _ h (fun lx2 h2 => Buf_plain hz lx lx2 cs ev next _ h2)

theorem Buf_zero_case {vt : H → ajson_sax_cb_t σ H} (hz : ReturnsZero vt) (lx lx1 : Lexer)
    (cs : Consumer σ H) (dec digit next : Label) (h : SameBuf lx lx1) :
    KeepsBuf lx (zero_case vt lx1 cs dec digit next) := by
  unfold zero_case
  dsimp only
  refine wp_ite (fun _ => h) (fun _ => ?_)
  refine wp_ite (fun _ => h) (fun _ => ?_)
  refine wp_ite (fun _ => Buf_error lx lx1 cs h) (fun _ => ?_)
  exact Buf_plain hz lx lx1 cs _ next _ h

theorem Buf_start_value_minus {vt : H → ajson_sax_cb_t σ H} (hz : ReturnsZero vt)
    (lx lx1 : Lexer) (cs : Consumer σ H) (h : SameBuf lx lx1) :
    KeepsBuf lx (start_value_minus vt lx1 cs) := by
  unfold start_value_minus
  refine wp_ite (fun _ => ?_) (fun _ => ?_)
  · dsimp only
    refine wp_ite (fun _ => h) (fun _ => ?_)
    refine wp_ite (fun _ => h) (fun _ => ?_)
    refine wp_ite (fun _ => Buf_error lx lx1 cs h) (fun _ => ?_)
    exact Buf_plain hz lx lx1 cs _ _ _ h
  · exact wp_ite (fun _ => h) (fun _ => Buf_error lx lx1 cs h)

theorem Buf_start_key_object_minus {vt : H → ajson_sax_cb_t σ H} (hz : ReturnsZero vt)
    (lx lx1 : Lexer) (cs : Consumer σ H) (h : SameBuf lx lx1) :
    KeepsBuf lx (start_key_object_minus vt lx1 cs) := by
  unfold start_key_object_minus
  refine wp_ite (fun _ => ?_) (fun _ => ?_)
  · dsimp only
    refine wp_ite (fun _ => h) (fun _ => ?_)
    refine wp_ite (fun _ => h) (fun _ => ?_)
    refine wp_ite (fun _ => Buf_error lx lx1 cs h) (fun _ => ?_)
    exact Buf_plain hz lx lx1 cs _ _ _ h
  · exact wp_ite (fun _ => h) (fun _ => Buf_error lx lx1 cs h)

/-- The NUL written over the delimiter of a number is replaced by the delimiter:
`ch` is the byte that `ch = *p++` has just read there. -/
theorem Buf_finish_number {vt : H → ajson_sax_cb_t σ H} (hz : ReturnsZero vt)
    (lx lx1 : Lexer) (cs : Consumer σ H) (next : Label) (h : SameBuf lx lx1)
    (hf : Fresh lx1) : KeepsBuf lx (finish_number vt lx1 cs next) := by
  unfold finish_number
  refine Buf_plain hz lx _ cs _ next _ ⟨h.1, fun i hi => ?_⟩
  dsimp only
  rw [hf.2, rd_restore]
  exact h.2 i hi

/-- The NUL written over the closing quote of a string is replaced by a quote. -/
theorem Buf_finish_string {vt : H → ajson_sax_cb_t σ H} (hz : ReturnsZero vt)
    (lx lx1 : Lexer) (cs : Consumer σ H) (next : Label) (h : SameBuf lx lx1)
    (hq : rd lx1.mem lx1.p = 34) : KeepsBuf lx (finish_string vt lx1 cs next) := by
  unfold finish_string
  refine Buf_plain hz lx _ cs _ next _ ⟨h.1, fun i hi => ?_⟩
  dsimp only
  rw [← hq, rd_restore]
  exact h.2 i hi

theorem Buf_exponent_part (lx lx1 : Lexer) (cs : Consumer σ H) (k : Lexer → Step σ H)
    (h : SameBuf lx lx1) (hf : Fresh lx1)
    (hk : ∀ lx2, SameBuf lx lx2 → Fresh lx2 → KeepsBuf lx (k lx2)) :
    KeepsBuf lx (exponent_part lx1 cs k) := by
  unfold exponent_part
  refine wp_ite (fun _ => ?_) (fun _ => hk lx1 h hf)
  dsimp only
  have h1 := Scanned_next_ch lx1
  have h2 : Scanned lx1 (if (next_ch lx1).ch = 43 ∨ (next_ch lx1).ch = 45 then
      next_ch (next_ch lx1) else next_ch lx1) := by
    split
    · exact Scanned_trans h1 (Scanned_next_ch (next_ch lx1))
    · exact h1
  have hb : ∀ lx2, Scanned lx1 lx2 → SameBuf lx lx2 := fun lx2 hs =>
    ⟨hs.2.2.2.1.trans h.1, fun i hi => by rw [hs.2.2.1]; exact h.2 i hi⟩
  refine wp_ite (fun _ => Buf_error lx _ cs (hb _ h2)) (fun _ => ?_)
  have h3 := Scanned_trans h2 (Scanned_digits h2.1)
  exact hk _ (hb _ h3) h3.1

theorem Buf_string_body {vt : H → ajson_sax_cb_t σ H} (hz : ReturnsZero vt) (lx : Lexer)
    (cs : Consumer σ H) (self next : Label) :
    KeepsBuf lx (string_body vt lx cs self next) := by
  have h := SameBuf_refl lx
  unfold string_body
  dsimp only
  refine wp_ite (fun _ => Buf_error lx _ cs h) (fun hlt => ?_)
  refine wp_ite (fun _ => h) (fun _ => Buf_finish_string hz lx _ cs next h ?_)
  dsimp only at hlt ⊢
  by_cases hp : lx.p ≤ lx.ep
  · rcases (scan_to_spec lx.mem lx.ep 34 lx.p hp).2.2.2 with e | e
    · omega
    · exact e
  · rw [scan_to_past _ _ _ _ _ (by omega)] at hlt
    omega

theorem Buf_next_digit_body {vt : H → ajson_sax_cb_t σ H} (hz : ReturnsZero vt) (lx : Lexer)
    (cs : Consumer σ H) (dec next : Label) :
    KeepsBuf lx (next_digit_body vt lx cs dec next) := by
  have h := SameBuf_refl lx
  have hs := Scanned_trans (Scanned_next_ch lx) (Scanned_digits (Fresh_next_ch lx))
  have hb : SameBuf lx (digits (next_ch lx)) := ⟨rfl, fun _ _ => rfl⟩
  unfold next_digit_body
  dsimp only
  refine wp_ite (fun _ => hb) (fun _ => ?_)
  exact Buf_exponent_part lx _ cs _ hb hs.1
    (fun lx2 h2 hf2 => Buf_finish_number hz lx lx2 cs next h2 hf2)

theorem Buf_decimal_number_body {vt : H → ajson_sax_cb_t σ H} (hz : ReturnsZero vt)
    (lx : Lexer) (cs : Consumer σ H) (next : Label) :
    KeepsBuf lx (decimal_number_body vt lx cs next) := by
  have hs := Scanned_trans (Scanned_next_ch lx) (Scanned_digits (Fresh_next_ch lx))
  have hb : SameBuf lx (digits (next_ch lx)) := ⟨rfl, fun _ _ => rfl⟩
  have hn : SameBuf lx (next_ch lx) := ⟨rfl, fun _ _ => rfl⟩
  unfold decimal_number_body
  dsimp only
  refine wp_ite (fun _ => Buf_error lx _ cs hn) (fun _ => ?_)
  exact Buf_exponent_part lx _ cs _ hb hs.1
    (fun lx2 h2 hf2 => Buf_finish_number hz lx lx2 cs next h2 hf2)

theorem Buf_start_value {vt : H → ajson_sax_cb_t σ H} (hz : ReturnsZero vt) (lx : Lexer)
    (cs : Consumer σ H) : KeepsBuf lx (start_value vt lx cs) := by
  have h : SameBuf lx lx := SameBuf_refl lx
  have hn : SameBuf lx (next_ch lx) := ⟨rfl, fun _ _ => rfl⟩
  unfold start_value
  dsimp only
  refine wp_ite (fun _ => Buf_error lx _ cs h) (fun _ => ?_)
  refine wp_ite (fun _ => hn) (fun _ => ?_)
  refine wp_ite (fun _ => hn) (fun _ => ?_)
  refine wp_ite (fun _ => Buf_open_container hz lx _ cs _ _ _ hn) (fun _ => ?_)
  refine wp_ite (fun _ => Buf_open_container hz lx _ cs _ _ _ hn) (fun _ => ?_)
  refine wp_ite (fun _ => Buf_close_here hz lx _ cs _ hn) (fun _ => ?_)
  refine wp_ite (fun _ => Buf_start_value_minus hz lx _ cs hn) (fun _ => ?_)
  refine wp_ite (fun _ => Buf_zero_case hz lx _ cs _ _ _ hn) (fun _ => ?_)
  refine wp_ite (fun _ => hn) (fun _ => ?_)
  refine wp_ite (fun _ => Buf_literal hz lx _ cs _ _ _ hn) (fun _ => ?_)
  refine wp_ite (fun _ => Buf_literal hz lx _ cs _ _ _ hn) (fun _ => ?_)
  exact wp_ite (fun _ => Buf_literal hz lx _ cs _ _ _ hn) (fun _ => Buf_error lx _ cs hn)

theorem Buf_start_key_object {vt : H → ajson_sax_cb_t σ H} (hz : ReturnsZero vt) (lx : Lexer)
    (cs : Consumer σ H) : KeepsBuf lx (start_key_object vt lx cs) := by
  have h : SameBuf lx lx := SameBuf_refl lx
  have hn : SameBuf lx (next_ch lx) := ⟨rfl, fun _ _ => rfl⟩
  unfold start_key_object
  dsimp only
  refine wp_ite (fun _ => Buf_error lx _ cs h) (fun _ => ?_)
  refine wp_ite (fun _ => hn) (fun _ => ?_)
  refine wp_ite (fun _ => hn) (fun _ => ?_)
  refine wp_ite (fun _ => Buf_open_container hz lx _ cs _ _ _ hn) (fun _ => ?_)
  refine wp_ite (fun _ => Buf_open_container hz lx _ cs _ _ _ hn) (fun _ => ?_)
  refine wp_ite (fun _ => Buf_start_key_object_minus hz lx _ cs hn) (fun _ => ?_)
  refine wp_ite (fun _ => Buf_zero_case hz lx _ cs _ _ _ hn) (fun _ => ?_)
  refine wp_ite (fun _ => hn) (fun _ => ?_)
  refine wp_ite (fun _ => Buf_literal hz lx _ cs _ _ _ hn) (fun _ => ?_)
  refine wp_ite (fun _ => Buf_literal hz lx _ cs _ _ _ hn) (fun _ => ?_)
  exact wp_ite (fun _ => Buf_literal hz lx _ cs _ _ _ hn) (fun _ => Buf_error lx _ cs hn)

theorem Buf_start_key {vt : H → ajson_sax_cb_t σ H} (hz : ReturnsZero vt) (lx : Lexer)
    (cs : Consumer σ H) : KeepsBuf lx (start_key vt lx cs) := by
  have h : SameBuf lx lx := SameBuf_refl lx
  have hn : SameBuf lx (next_ch lx) := ⟨rfl, fun _ _ => rfl⟩
  unfold start_key
  dsimp only
  refine wp_ite (fun _ => Buf_error lx _ cs h) (fun _ => ?_)
  refine wp_ite (fun _ => hn) (fun _ => ?_)
  refine wp_ite (fun _ => hn) (fun _ => ?_)
  exact wp_ite (fun _ => Buf_close_here hz lx _ cs _ hn) (fun _ => Buf_error lx _ cs hn)

/-- The key: the NUL written over its closing quote is replaced by a quote; when
the key runs to the end of the buffer no NUL is written and the quote is stored
at `buf_end`, outside the buffer. -/
theorem Buf_get_end_of_key {vt : H → ajson_sax_cb_t σ H} (hz : ReturnsZero vt) (lx : Lexer)
    (cs : Consumer σ H) : KeepsBuf lx (get_end_of_key vt lx cs) := by
  have h : SameBuf lx lx := SameBuf_refl lx
  unfold get_end_of_key
  dsimp only
  refine wp_ite (fun _ => h) (fun _ => ?_)
  unfold finish_key
  refine Buf_plain hz lx _ cs _ _ _ ⟨?_, fun i hi => ?_⟩
  · split <;> rfl
  · dsimp only
    by_cases hlt : scan_to lx.mem lx.ep 34 (lx.ep - lx.p) lx.p < lx.ep
    · simp only [if_pos hlt]
      have hq : rd lx.mem (scan_to lx.mem lx.ep 34 (lx.ep - lx.p) lx.p) = 34 := by
        by_cases hp : lx.p ≤ lx.ep
        · rcases (scan_to_spec lx.mem lx.ep 34 lx.p hp).2.2.2 with e | e
          · omega
          · exact e
        · rw [scan_to_past _ _ _ _ _ (by omega)] at hlt
          omega
      have hr := rd_restore lx.mem (scan_to lx.mem lx.ep 34 (lx.ep - lx.p) lx.p) i
      rw [hq] at hr
      exact hr
    · simp only [if_neg hlt]
      exact rd_wr_other _ _ _ _ (by omega)

theorem Buf_look_for_key {vt : H → ajson_sax_cb_t σ H} (hz : ReturnsZero vt) (lx : Lexer)
    (cs : Consumer σ H) : KeepsBuf lx (look_for_key vt lx cs) := by
  have h : SameBuf lx lx := SameBuf_refl lx
  unfold look_for_key
  refine wp_ite (fun _ => ?_) (fun _ => ?_)
  · exact wp_ite (fun _ => Buf_error lx _ cs h) (fun _ => h)
  refine wp_ite (fun _ => Buf_close_ahead hz lx _ cs _ h) (fun _ => ?_)
  exact wp_ite (fun _ => h) (fun _ => Buf_error lx _ cs h)

theorem Buf_look_for_next_object {vt : H → ajson_sax_cb_t σ H} (hz : ReturnsZero vt)
    (lx : Lexer) (cs : Consumer σ H) : KeepsBuf lx (look_for_next_object vt lx cs) := by
  have h : SameBuf lx lx := SameBuf_refl lx
  have hend : ∀ lx1 : Lexer, SameBuf lx lx1 → KeepsBuf lx
      (if stack_depth lx1 = 0 then (.ret 0 lx1 cs : Step σ H) else SAX_ERROR lx1 cs) :=
    fun lx1 h1 => wp_ite (fun _ => h1) (fun _ => Buf_error lx _ cs h1)
  unfold look_for_next_object
  refine wp_ite (fun _ => ?_) (fun _ => ?_)
  · exact wp_ite (fun _ => Buf_error lx _ cs h) (fun _ => h)
  refine wp_ite (fun _ => Buf_close_ahead hz lx _ cs _ h) (fun _ => ?_)
  refine wp_ite (fun _ => ?_) (fun _ => ?_)
  · dsimp only
    exact wp_ite (fun _ => hend _ h) (fun _ => h)
  · exact wp_ite (fun _ => hend _ h) (fun _ => Buf_error lx _ cs h)

theorem Buf_determine_next_step (lx : Lexer) (cs : Consumer σ H) :
    KeepsBuf lx (determine_next_step lx cs) := by
  have h : SameBuf lx lx := SameBuf_refl lx
  unfold determine_next_step
  refine wp_ite (fun _ => h) (fun _ => ?_)
  refine wp_ite (fun _ => h) (fun _ => ?_)
  dsimp only
  exact wp_ite (fun _ => h) (fun _ => h)

/-- With a consumer whose callbacks all return 0, every transition ends with the
buffer as it was. -/
theorem step_KeepsBuf {vt : H → ajson_sax_cb_t σ H} (hz : ReturnsZero vt) (l : Label)
    (lx : Lexer) (cs : Consumer σ H) : KeepsBuf lx (step vt l lx cs) := by
  cases l
  case start_key => exact Buf_start_key hz lx cs
  case get_end_of_key => exact Buf_get_end_of_key hz lx cs
  case start_key_object => exact Buf_start_key_object hz lx cs
  case keyed_start_string => exact Buf_string_body hz lx cs _ _
  case look_for_key => exact Buf_look_for_key hz lx cs
  case keyed_next_digit => exact Buf_next_digit_body hz lx cs _ _
  case keyed_decimal_number => exact Buf_decimal_number_body hz lx cs _
  case start_value => exact Buf_start_value hz lx cs
  case start_string => exact Buf_string_body hz lx cs _ _
  case add_string => exact SameBuf_refl lx
  case look_for_next_object => exact Buf_look_for_next_object hz lx cs
  case next_digit => exact Buf_next_digit_body hz lx cs _ _
  case decimal_number => exact Buf_decimal_number_body hz lx cs _
  case determine_next_step => exact Buf_determine_next_step lx cs

theorem run_SameBuf {vt : H → ajson_sax_cb_t σ H} (hz : ReturnsZero vt) (n : Nat) (l : Label)
    (lx : Lexer) (cs : Consumer σ H) (r : Result σ H) (h : run vt n l lx cs = some r) :
    SameBuf lx r.lx := by
  induction n generalizing l lx cs with
  | zero => simp [run] at h
  | succ n ih =>
    have hs := step_KeepsBuf hz l lx cs
    unfold run at h
    cases hstep : step vt l lx cs with
    | ret rc lx1 cs1 =>
      rw [hstep] at h hs
      simp only [Option.some.injEq] at h
      rw [← h]
      exact hs
    | goto l1 lx1 cs1 =>
      rw [hstep] at h hs
      exact SameBuf_trans hs (ih _ _ _ h)

/-- With a consumer whose callbacks all return 0, `ajson_sax_parse` returns with
every byte of the buffer as it was. -/
theorem ajson_sax_parse_SameBuf {vt : H → ajson_sax_cb_t σ H} (hz : ReturnsZero vt)
    (mem : List Nat) (ep : Nat) (cb : H) (ctx : σ) (r : Result σ H)
    (h : ajson_sax_parse vt mem ep cb ctx = some r) :
    ∀ i, i < ep → rd r.lx.mem i = rd mem i := by
  unfold ajson_sax_parse at h
  dsimp only at h
  split at h
  · simp only [Option.some.injEq] at h
    rw [← h]
    exact fun _ _ => rfl
  · exact (run_SameBuf hz _ _ _ _ r h).2

end Buffer

/-! ## Return codes and absent handlers -/

section ReturnCodes

variable {σ H : Type}

/-- With a consumer whose callbacks all return 0, a run returns 0 or -1. -/
theorem run_rc_of_zero {vt : H → ajson_sax_cb_t σ H} (hz : ReturnsZero vt) (n : Nat)
    (l : Label) (lx : Lexer) (cs : Consumer σ H) (r : Result σ H)
    (h : run vt n l lx cs = some r) : r.rc = 0 ∨ r.rc = -1 := by
  induction n generalizing l lx cs with
  | zero => simp [run] at h
  | succ n ih =>
    have hc := step_CStep vt l lx cs
    unfold run at h
    cases hs : step vt l lx cs with
    | ret rc lx1 cs1 =>
      rw [hs] at h hc
      simp only [Option.some.injEq] at h
      rw [← h]
      cases hc with
      | quiet_ret _ _ h1 => exact h1
      | abort ev c s _ _ hi hrc => exact absurd (hz cs ev c s rc hi) hrc
      | cb_full ev cs1 _ hd => exact Or.inr rfl
    | goto l1 lx1 cs1 =>
      rw [hs] at h
      exact ih _ _ _ h

theorem ajson_sax_parse_rc_of_zero {vt : H → ajson_sax_cb_t σ H} (hz : ReturnsZero vt)
    (mem : List Nat) (ep : Nat) (cb : H) (ctx : σ) (r : Result σ H)
    (h : ajson_sax_parse vt mem ep cb ctx = some r) : r.rc = 0 ∨ r.rc = -1 := by
  unfold ajson_sax_parse at h
  dsimp only at h
  split at h
  · simp only [Option.some.injEq] at h
    rw [← h]
    exact Or.inr rfl
  · exact run_rc_of_zero hz _ _ _ _ r h

/-- A parse whose active handler set has no handler goes like a parse with a
consumer whose callbacks all return 0. -/
theorem Compat_absent {σ₀ H₀ : Type} {vt₀ : H₀ → ajson_sax_cb_t σ₀ H₀} {cb₀ : H₀}
    (h0 : vt₀ cb₀ = no_handlers σ₀ H₀) {vt : H → ajson_sax_cb_t σ H} (hz : ReturnsZero vt) :
    Compat vt₀ vt (fun a _ => a.sax.cb = cb₀) where
  cb := fun cs1 cs2 ev h => by
    have hn : invoke vt₀ cs1 ev = none := by
      cases ev <;> simp [invoke, h, h0, no_handlers]
    obtain ⟨c2, hd2⟩ := delivered_of_zero hz cs2 ev
    exact ⟨cs1, c2, Or.inl ⟨hn, rfl⟩, hd2, h⟩
  inc := fun _ _ h => h
  dec := fun _ _ h => h

end ReturnCodes

/-! ## Delegation -/

section Delegation

variable {σ H : Type}

theorem closes_of_opens {ev : Event} (h : ev.opens = true) : ev.closes = false := by
  cases ev <;> first | rfl | cases h

theorem Delegated_delivered {vt : H → ajson_sax_cb_t σ H} {sub : H} (hr : Resigns vt sub)
    {top : List (H × Int)} {d : Nat} {lx : Lexer} {cs cs1 : Consumer σ H} {ev : Event}
    (h : Delegated sub top d lx cs) (hd : Delivered vt cs ev cs1)
    (hev : ev.closes = false ∨ d < lx.stack.length) : cs1.sax = cs.sax := by
  rcases hd with ⟨_, rfl⟩ | ⟨c, s, hi, rfl⟩
  · rfl
  · show s = cs.sax
    cases hc : ev.closes with
    | false => exact hr.keeps cs ev c s 0 h.cb hc hi
    | true =>
      have hlt : d < lx.stack.length := by
        rcases hev with h1 | h1
        · rw [hc] at h1; cases h1
        · exact h1
      rw [hr.pops cs ev c s 0 h.cb hc hi]
      unfold ajson_sax_try_pop
      rw [if_neg (by rw [h.depth, h.anchor]; omega)]

/-- Inside the container the delegate stays the active set, jump after jump. -/
theorem step_Delegated {vt : H → ajson_sax_cb_t σ H} {sub : H} (hr : Resigns vt sub)
    {top : List (H × Int)} {d : Nat} {l l1 : Label} {lx lx1 : Lexer} {cs cs1 : Consumer σ H}
    (h : Delegated sub top d lx cs) (hs : step vt l lx cs = .goto l1 lx1 cs1)
    (hd : d ≤ lx1.stack.length) : Delegated sub top d lx1 cs1 := by
  have hl := step_LStep vt l lx cs
  rw [hs] at hl
  cases hl with
  | jump _ _ hk => exact ⟨h.cb, h.top, h.anchor, by rw [h.depth, hk.1], hd, h.pos⟩
  | scalar ev cs2 _ _ ho hc hdel hk =>
    have e := Delegated_delivered hr h hdel (Or.inl hc)
    exact ⟨by rw [e]; exact h.cb, by rw [e]; exact h.top, by rw [e]; exact h.anchor,
      by rw [e, h.depth, hk.1], hd, h.pos⟩
  | opened ev cs2 _ _ mode ho hdel hst he hroom =>
    have e := Delegated_delivered hr h hdel (Or.inl (closes_of_opens ho))
    refine ⟨by show cs2.sax.cb = sub; rw [e]; exact h.cb,
      by show cs2.sax.top = top; rw [e]; exact h.top,
      by show cs2.sax.anchor_depth = _; rw [e]; exact h.anchor, ?_, hd, h.pos⟩
    show cs2.sax.current_depth + 1 = _
    rw [e, h.depth, hst]
    simp
  | closed ev cs2 _ hc hdel hst he =>
    have hlen : lx1.stack.length = lx.stack.length - 1 := by rw [hst]; simp
    have hpos := h.pos
    have e := Delegated_delivered hr h hdel (Or.inr (by omega))
    refine ⟨by show cs2.sax.cb = sub; rw [e]; exact h.cb,
      by show cs2.sax.top = top; rw [e]; exact h.top,
      by show cs2.sax.anchor_depth = _; rw [e]; exact h.anchor, ?_, hd, h.pos⟩
    show cs2.sax.current_depth - 1 = _
    rw [e, h.depth, hlen]
    have := h.deep
    omega

theorem reach_within_Delegated {vt : H → ajson_sax_cb_t σ H} {sub : H} (hr : Resigns vt sub)
    {top : List (H × Int)} {d : Nat} (j : Nat) {l l1 : Label} {lx lx1 : Lexer}
    {cs cs1 : Consumer σ H} (h : Delegated sub top d lx cs)
    (hj : reach_within vt d j l lx cs = some (l1, lx1, cs1)) : Delegated sub top d lx1 cs1 := by
  induction j generalizing l lx cs with
  | zero =>
    unfold reach_within at hj
    split at hj
    · simp only [Option.some.injEq, Prod.mk.injEq] at hj
      obtain ⟨_, rfl, rfl⟩ := hj
      exact h
    · cases hj
  | succ j ih =>
    unfold reach_within at hj
    split at hj
    · cases hs : step vt l lx cs with
      | ret rc lx2 cs2 => rw [hs] at hj; cases hj
      | goto l2 lx2 cs2 =>
        rw [hs] at hj
        have hd : d ≤ lx2.stack.length := by
          cases j with
          | zero =>
            unfold reach_within at hj
            split at hj
            · assumption
            · cases hj
          | succ j =>
            unfold reach_within at hj
            split at hj
            · assumption
            · cases hj
        exact ih (step_Delegated hr h hs hd) hj
    · cases hj

/-- The transition that closes the container: the end event is offered to the
delegate, and when the delegate has the handler the handle is left as it was
before the push. -/
theorem step_resigns {vt : H → ajson_sax_cb_t σ H} {sub : H} (hr : Resigns vt sub)
    {cb0 : H} {a0 : Int} {top0 : List (H × Int)} {d : Nat} {l l1 : Label} {lx lx1 : Lexer}
    {cs cs1 : Consumer σ H} (h : Delegated sub ((cb0, a0) :: top0) d lx cs)
    (hs : step vt l lx cs = .goto l1 lx1 cs1) (hd : lx1.stack.length < d) :
    ∃ ev cs2, ev.closes = true ∧ Delivered vt cs ev cs2 ∧ cs1 = depth_dec cs2 ∧
      (invoke vt cs ev ≠ none →
        cs1.sax = { cb := cb0, top := top0, current_depth := (d : Int) - 1,
                    anchor_depth := a0 }) := by
  have hl := step_LStep vt l lx cs
  rw [hs] at hl
  have hdeep := h.deep
  cases hl with
  | jump _ _ hk => rw [hk.1] at hd; omega
  | scalar ev cs2 _ _ ho hc hdel hk => rw [hk.1] at hd; omega
  | opened ev cs2 _ _ mode ho hdel hst he hroom => rw [hst] at hd; simp at hd; omega
  | closed ev cs2 _ hc hdel hst he =>
    refine ⟨ev, cs2, hc, hdel, rfl, fun hne => ?_⟩
    have hlen : lx.stack.length = d := by
      rw [hst] at hd
      simp at hd
      omega
    rcases hdel with ⟨hn, _⟩ | ⟨c, s, hi, rfl⟩
    · exact absurd hn hne
    · have hs2 := hr.pops cs ev c s 0 h.cb hc hi
      show ({ s with current_depth := s.current_depth - 1 } : ajson_sax_t H) = _
      rw [hs2]
      unfold ajson_sax_try_pop
      rw [if_pos (by rw [h.depth, h.anchor, hlen])]
      unfold ajson_sax_pop
      rw [h.top]
      simp only [h.depth, hlen]

end Delegation

section Tokens

variable {σ H : Type}

/-- With a consumer whose callbacks all return 0 the statement
`if (sax.cb.on_X) CHECK_CB(...)` goes on with the consumer state it leaves. -/
theorem CHECK_CB_deliver {vt : H → ajson_sax_cb_t σ H} (hz : ReturnsZero vt) (lx : Lexer)
    (cs : Consumer σ H) (ev : Event) (k : Consumer σ H → Step σ H) :
    CHECK_CB vt lx cs ev k = k (deliver vt cs ev) := by
  unfold CHECK_CB deliver
  cases h : invoke vt cs ev with
  | none => rfl
  | some x =>
    obtain ⟨c, s, rc⟩ := x
    have := hz cs ev c s rc h
    subst this
    simp

theorem tok_open_value {vt : H → ajson_sax_cb_t σ H} (hz : ReturnsZero vt) (lx : Lexer)
    (p ch sp : Nat) (ac : Bool) (st : List Nat) (cs : Consumer σ H) (hp : p < lx.ep)
    (hc : rd lx.mem p = 123) (hroom : st.length < 511) :
    step vt .start_value (moved lx p ch sp ac st) cs =
      .goto .start_key (moved lx (p + 1) 123 sp false (SAX_MODE_OBJECT :: st))
        (depth_inc (deliver vt cs .start_object)) := by
  have hge : ¬ p ≥ lx.ep := by omega
  have hfull : ¬ st.length ≥ 511 := by omega
  simp [step, start_value, next_ch, moved, hc, hge, isSpace, open_container,
    CHECK_CB_deliver hz, SYNTAX_PUSH, stack_depth, AJSON_SAX_MAX_STACK_DEPTH, hfull]

theorem tok_open_member {vt : H → ajson_sax_cb_t σ H} (hz : ReturnsZero vt) (lx : Lexer)
    (p ch sp : Nat) (ac : Bool) (st : List Nat) (cs : Consumer σ H) (hp : p < lx.ep)
    (hc : rd lx.mem p = 123) (hroom : st.length < 511) :
    step vt .start_key_object (moved lx p ch sp ac st) cs =
      .goto .start_key (moved lx (p + 1) 123 sp ac (SAX_MODE_OBJECT :: st))
        (depth_inc (deliver vt cs .start_object)) := by
  have hge : ¬ p ≥ lx.ep := by omega
  have hfull : ¬ st.length ≥ 511 := by omega
  simp [step, start_key_object, next_ch, moved, hc, hge, isSpace, open_container,
    CHECK_CB_deliver hz, SYNTAX_PUSH, stack_depth, AJSON_SAX_MAX_STACK_DEPTH, hfull]

theorem tok_space (vt : H → ajson_sax_cb_t σ H) (l : Label) (lx : Lexer)
    (p ch sp : Nat) (ac : Bool) (st : List Nat) (cs : Consumer σ H)
    (hl : l = .start_value ∨ l = .start_key ∨ l = .start_key_object) (hp : p < lx.ep)
    (hs : isSpace (rd lx.mem p)) :
    step vt l (moved lx p ch sp ac st) cs = .goto l (moved lx (p + 1) (rd lx.mem p) sp ac st) cs :=
  start_space vt l (moved lx p ch sp ac st) cs hl hp hs

theorem tok_key_open (vt : H → ajson_sax_cb_t σ H) (lx : Lexer)
    (p ch sp : Nat) (ac : Bool) (st : List Nat) (cs : Consumer σ H) (hp : p < lx.ep)
    (hc : rd lx.mem p = 34) :
    step vt .start_key (moved lx p ch sp ac st) cs =
      .goto .get_end_of_key (moved lx (p + 1) 34 (p + 1) false st) cs := by
  have hge : ¬ p ≥ lx.ep := by omega
  simp [step, start_key, next_ch, moved, hc, hge]

/-- The key `K` under the cursor, its closing quote followed by the colon. -/
theorem tok_key {vt : H → ajson_sax_cb_t σ H} (hz : ReturnsZero vt) (lx : Lexer)
    (p ch : Nat) (st : List Nat) (cs : Consumer σ H) (K : List Nat)
    (hat : At lx.mem p (K ++ [34, 58])) (hK : ∀ c ∈ K, c ≠ 34 ∧ c ≠ 0)
    (hb : rd lx.mem (p + K.length - 1) ≠ 92) (hq : p + K.length + 1 < lx.ep) :
    step vt .get_end_of_key (moved lx p ch p false st) cs =
      .goto .start_key_object (moved lx (p + K.length + 2) ch p false st)
        (deliver vt cs (.key K)) := by
  obtain ⟨hatK, hat2⟩ := At_append hat
  have h34 : rd lx.mem (p + K.length) = 34 := (At_cons hat2).1
  have h58 : rd lx.mem (p + K.length + 1) = 58 := (At_cons (At_cons hat2).2).1
  have hscan : scan_to lx.mem lx.ep 34 (lx.ep - p) p = p + K.length := by
    apply scan_to_eq _ _ _ _ _ _ (by omega) (by omega) (by omega) _ (Or.inr h34)
    intro i h1 h2
    have := hatK (i - p) (by omega)
    rw [show p + (i - p) = i by omega] at this
    rw [this]
    exact (hK _ (rd_mem_of_lt _ _ (by omega))).1
  have hscan2 : scan_to lx.mem lx.ep 58 (lx.ep - (p + K.length + 1)) (p + K.length + 1) =
      p + K.length + 1 :=
    scan_to_eq _ _ _ _ _ _ (Nat.le_refl _) (by omega) (by omega) (fun i h1 h2 => by omega)
      (Or.inr h58)
  have hesc : ¬ escaped_quote lx.mem (p + K.length) := by
    unfold escaped_quote
    exact fun h => hb h.1
  have hsl : slice (wr lx.mem (p + K.length) 0) p (p + K.length - p) = K := by
    rw [slice_wr_end _ _ _ _ (by omega)]
    simpa using slice_of_At lx.mem p K hatK (fun c hc => (hK c hc).2)
  have hres := wr_quote_restore lx.mem (p + K.length) h34
  have hlt : p + K.length < lx.ep := by omega
  show get_end_of_key vt (moved lx p ch p false st) cs = _
  unfold get_end_of_key
  simp only [moved, hscan, hesc, and_false, if_false, hlt, if_true]
  unfold finish_key
  rw [CHECK_CB_deliver hz]
  simp only [hsl, hres, hscan2]

theorem tok_close {vt : H → ajson_sax_cb_t σ H} (hz : ReturnsZero vt) (lx : Lexer)
    (p sp : Nat) (st : List Nat) (cs : Consumer σ H) :
    step vt .look_for_key (moved lx p 125 sp false st) cs =
      .goto .determine_next_step (moved lx (p + 1) 125 sp false st.tail)
        (depth_dec (deliver vt cs .end_object)) := by
  simp [step, look_for_key, moved, close_ahead, CHECK_CB_deliver hz, SYNTAX_POP]

theorem tok_next (vt : H → ajson_sax_cb_t σ H) (lx : Lexer)
    (p ch sp : Nat) (ac : Bool) (st : List Nat) (cs : Consumer σ H) (hp : p < lx.ep) :
    step vt .determine_next_step (moved lx p ch sp ac (SAX_MODE_OBJECT :: st)) cs =
      .goto .look_for_key (moved lx p (rd lx.mem p) sp ac (SAX_MODE_OBJECT :: st)) cs := by
  have hge : ¬ p ≥ lx.ep := by omega
  simp [step, determine_next_step, moved, stack_depth, hge, CURRENT_MODE]

theorem tok_comma (vt : H → ajson_sax_cb_t σ H) (lx : Lexer)
    (p sp : Nat) (ac : Bool) (st : List Nat) (cs : Consumer σ H) (hp : p < lx.ep) :
    step vt .look_for_key (moved lx p 44 sp ac st) cs =
      .goto .start_key (moved lx (p + 1) 44 sp true st) cs := by
  have hge : ¬ p ≥ lx.ep := by omega
  simp [step, look_for_key, moved, hge]

theorem tok_end (vt : H → ajson_sax_cb_t σ H) (lx : Lexer)
    (p ch sp : Nat) (ac : Bool) (cs : Consumer σ H) :
    step vt .determine_next_step (moved lx p ch sp ac []) cs =
      .ret 0 (moved lx p ch sp ac []) cs := by
  simp [step, determine_next_step, moved, stack_depth]

/-- An unsigned integer under the cursor of `start_key_object`, followed by a byte
that ends it. -/
theorem tok_int {vt : H → ajson_sax_cb_t σ H} (hz : ReturnsZero vt) (lx : Lexer)
    (p ch sp : Nat) (st : List Nat) (cs : Consumer σ H) (N : List Nat) (d : Nat)
    (hat : At lx.mem p (N ++ [d])) (hN : IsIntPart N) (hp : p < lx.ep)
    (hd : ¬ isDigit d ∧ d ≠ 46 ∧ d ≠ 101 ∧ d ≠ 69) :
    ∃ k, reach vt k .start_key_object (moved lx p ch sp false st) cs =
      some (.look_for_key, moved lx (p + N.length) d p false st, deliver vt cs (.number N)) := by
  have hge : ¬ p ≥ lx.ep := by omega
  rcases hN with rfl | ⟨d1, ds, rfl, hd1, hds⟩
  · obtain ⟨h48, hat2⟩ := At_cons hat
    have hla : rd lx.mem (p + 1) = d := (At_cons hat2).1
    refine ⟨1, reach_one ?_⟩
    simp [step, start_key_object, next_ch, moved, h48, hge, isSpace, zero_case, hla, hd.1,
      hd.2.1, hd.2.2.1, hd.2.2.2, CHECK_CB_deliver hz]
  · obtain ⟨hc, hat2⟩ := At_cons hat
    have hsp : ¬ isSpace d1 := by unfold isSpace; omega
    have h1 : step vt .start_key_object (moved lx p ch sp false st) cs =
        .goto .keyed_next_digit (tokLx (moved lx p ch sp false st) p (p + 1) d1) cs := by
      have h34 : d1 ≠ 34 := by omega
      have h123 : d1 ≠ 123 := by omega
      have h91 : d1 ≠ 91 := by omega
      have h45 : d1 ≠ 45 := by omega
      have h48 : d1 ≠ 48 := by omega
      simp [step, start_key_object, next_ch, moved, hc, hge, hsp, h34, h123, h91, h45, h48, hd1,
        tokLx]
    have hrun := next_digits_run (moved lx p ch sp false st) p (p + 1) d1 ds d hat2 hds hd.1
    have hnz : ∀ c ∈ d1 :: ds, c ≠ 0 := by
      intro c hc
      rcases List.mem_cons.1 hc with rfl | h
      · omega
      · exact isDigit_ne_zero (hds c h)
    have hfin := finish_number_tok vt (moved lx p ch sp false st) cs .look_for_key p (d1 :: ds) d
      hat hnz
    have h2 : step vt .keyed_next_digit (tokLx (moved lx p ch sp false st) p (p + 1) d1) cs =
        .goto .look_for_key (moved lx (p + (d1 :: ds).length) d p false st)
          (deliver vt cs (.number (d1 :: ds))) := by
      show next_digit_body vt _ cs .keyed_decimal_number .look_for_key = _
      unfold next_digit_body
      dsimp only
      rw [hrun]
      have e1 : (tokLx (moved lx p ch sp false st) p (p + 1 + ds.length + 1) d).ch = d := rfl
      rw [if_neg (by rw [e1]; exact hd.2.1)]
      unfold exponent_part
      rw [if_neg (by rw [e1]; exact fun h => h.elim hd.2.2.1 hd.2.2.2)]
      have e2 : p + 1 + ds.length + 1 = p + (d1 :: ds).length + 1 := by simp; omega
      rw [e2]
      show finish_number vt _ cs _ = _
      rw [hfin, CHECK_CB_deliver hz]
      rfl
    exact ⟨2, reach_trans (reach_one h1) (reach_one h2)⟩

end Tokens

section Member

variable {σ H : Type}

theorem reach_step {vt : H → ajson_sax_cb_t σ H} {k : Nat} {l l1 l2 : Label}
    {lx lx1 lx2 : Lexer} {cs cs1 cs2 : Consumer σ H}
    (h1 : reach vt k l lx cs = some (l1, lx1, cs1))
    (h2 : step vt l1 lx1 cs1 = .goto l2 lx2 cs2) :
    reach vt (k + 1) l lx cs = some (l2, lx2, cs2) :=
  reach_trans h1 (reach_one h2)

/-- The member `"K": {"v": N}` of an object, from the quote that opens its key to
the byte after the brace that closes its value: the events are the key `K`, the
start of an object, the key `v`, the number `N` and the end of the object. -/
theorem member_run {vt : H → ajson_sax_cb_t σ H} (hz : ReturnsZero vt) (lx : Lexer)
    (p ch sp : Nat) (ac : Bool) (st : List Nat) (cs : Consumer σ H) (K N : List Nat)
    (hat : At lx.mem p (34 :: (K ++ (34 :: 58 :: 32 :: 123 :: 34 :: 118 :: 34 :: 58 :: 32 ::
      (N ++ [125])))))
    (hK : ∀ c ∈ K, c ≠ 34 ∧ c ≠ 0 ∧ c ≠ 92) (hne : K ≠ []) (hN : IsIntPart N)
    (hep : p + K.length + N.length + 11 ≤ lx.ep) (hroom : st.length < 511) :
    ∃ k, reach vt k .start_key (moved lx p ch sp ac st) cs =
      some (.determine_next_step,
        moved lx (p + K.length + N.length + 11) 125 (p + K.length + 10) false st,
        depth_dec (deliver vt (deliver vt (deliver vt (depth_inc (deliver vt
          (deliver vt cs (.key K)) .start_object)) (.key [118])) (.number N)) .end_object)) := by
  obtain ⟨h0, hat1⟩ := At_cons hat
  obtain ⟨hatK, hat2⟩ := At_append hat1
  have hKpos : 0 < K.length := List.length_pos.2 hne
  -- the bytes after the key
  have r : ∀ j, j < 9 → rd lx.mem (p + 1 + K.length + j) =
      rd [34, 58, 32, 123, 34, 118, 34, 58, 32] j := by
    intro j hj
    have := hat2 j (by simp; omega)
    rw [this]
    have e : (34 :: 58 :: 32 :: 123 :: 34 :: 118 :: 34 :: 58 :: 32 :: (N ++ [125])) =
        [34, 58, 32, 123, 34, 118, 34, 58, 32] ++ (N ++ [125]) := rfl
    rw [e, rd_append_left _ _ _ (by simpa using hj)]
  have hatN : At lx.mem (p + 1 + K.length + 9) (N ++ [125]) := by
    have e : (34 :: 58 :: 32 :: 123 :: 34 :: 118 :: 34 :: 58 :: 32 :: (N ++ [125])) =
        [34, 58, 32, 123, 34, 118, 34, 58, 32] ++ (N ++ [125]) := rfl
    rw [e] at hat2
    exact (At_append hat2).2
  have hNpos : 0 < N.length := by
    rcases hN with rfl | ⟨d1, ds, rfl, _⟩ <;> simp
  -- the key `K`
  have s1 := tok_key_open vt lx p ch sp ac st cs (by omega) h0
  have hatK2 : At lx.mem (p + 1) (K ++ [34, 58]) := by
    intro j hj
    simp only [List.length_append, List.length_cons, List.length_nil] at hj
    by_cases hjK : j < K.length
    · rw [hatK j hjK, rd_append_left _ _ _ hjK]
    · have hj2 : j = K.length + (j - K.length) := by omega
      rw [hj2, rd_append_right, ← Nat.add_assoc, r _ (by omega)]
      have : j - K.length = 0 ∨ j - K.length = 1 := by omega
      rcases this with e | e <;> rw [e] <;> rfl
  have hbK : rd lx.mem (p + 1 + K.length - 1) ≠ 92 := by
    have := hatK (K.length - 1) (by omega)
    rw [show p + 1 + K.length - 1 = p + 1 + (K.length - 1) by omega, this]
    exact (hK _ (rd_mem_of_lt _ _ (by omega))).2.2
  have s2 := tok_key hz lx (p + 1) 34 st cs K hatK2 (fun c hc => ⟨(hK c hc).1, (hK c hc).2.1⟩)
    hbK (by omega)
  have s3 := tok_space vt .start_key_object lx (p + 1 + K.length + 2) 34 (p + 1) false st
    (deliver vt cs (.key K)) (Or.inr (Or.inr rfl)) (by omega)
    (by rw [r 2 (by omega)]; decide)
  rw [r 2 (by omega)] at s3
  have s4 := tok_open_member hz lx (p + 1 + K.length + 2 + 1) (rd [34, 58, 32, 123, 34, 118, 34,
    58, 32] 2) (p + 1) false st (deliver vt cs (.key K)) (by omega)
    (by rw [show p + 1 + K.length + 2 + 1 = p + 1 + K.length + 3 by omega, r 3 (by omega)]; rfl)
    hroom
  -- the key `v`
  have s5 := tok_key_open vt lx (p + 1 + K.length + 2 + 1 + 1) 123 (p + 1) false
    (SAX_MODE_OBJECT :: st) (depth_inc (deliver vt (deliver vt cs (.key K)) .start_object))
    (by omega) (by rw [show p + 1 + K.length + 2 + 1 + 1 = p + 1 + K.length + 4 by omega,
      r 4 (by omega)]; rfl)
  have hatv : At lx.mem (p + 1 + K.length + 2 + 1 + 1 + 1) ([118] ++ [34, 58]) := by
    intro j hj
    simp only [List.length_append, List.length_cons, List.length_nil] at hj
    rw [show p + 1 + K.length + 2 + 1 + 1 + 1 + j = p + 1 + K.length + (5 + j) by omega,
      r _ (by omega)]
    have : j = 0 ∨ j = 1 ∨ j = 2 := by omega
    rcases this with e | e | e <;> rw [e] <;> rfl
  have s6 := tok_key hz lx (p + 1 + K.length + 2 + 1 + 1 + 1) 34 (SAX_MODE_OBJECT :: st)
    (depth_inc (deliver vt (deliver vt cs (.key K)) .start_object)) [118] hatv
    (by decide) (by
      rw [show p + 1 + K.length + 2 + 1 + 1 + 1 + [118].length - 1 = p + 1 + K.length + 5 by
        simp, r 5 (by omega)]
      decide) (by simp; omega)
  have s7 := tok_space vt .start_key_object lx (p + 1 + K.length + 2 + 1 + 1 + 1 + [118].length + 2)
    34 (p + 1 + K.length + 2 + 1 + 1 + 1) false (SAX_MODE_OBJECT :: st)
    (deliver vt (depth_inc (deliver vt (deliver vt cs (.key K)) .start_object)) (.key [118]))
    (Or.inr (Or.inr rfl)) (by simp; omega)
    (by rw [show p + 1 + K.length + 2 + 1 + 1 + 1 + [118].length + 2 = p + 1 + K.length + 8 by
      simp, r 8 (by omega)]; decide)
  -- the number
  obtain ⟨k8, s8⟩ := tok_int hz lx (p + 1 + K.length + 2 + 1 + 1 + 1 + [118].length + 2 + 1)
    (rd lx.mem (p + 1 + K.length + 2 + 1 + 1 + 1 + [118].length + 2))
    (p + 1 + K.length + 2 + 1 + 1 + 1) (SAX_MODE_OBJECT :: st)
    (deliver vt (depth_inc (deliver vt (deliver vt cs (.key K)) .start_object)) (.key [118]))
    N 125 (by
      rw [show p + 1 + K.length + 2 + 1 + 1 + 1 + [118].length + 2 + 1 = p + 1 + K.length + 9 by
        simp]
      exact hatN) hN (by simp; omega) (by decide)
  have s9 := tok_close hz lx (p + 1 + K.length + 2 + 1 + 1 + 1 + [118].length + 2 + 1 + N.length)
    (p + 1 + K.length + 2 + 1 + 1 + 1 + [118].length + 2 + 1) (SAX_MODE_OBJECT :: st)
    (deliver vt (deliver vt (depth_inc (deliver vt (deliver vt cs (.key K)) .start_object))
      (.key [118])) (.number N))
  have e1 : p + 1 + K.length + 2 + 1 + 1 + 1 + [118].length + 2 + 1 + N.length + 1 =
      p + K.length + N.length + 11 := by simp; omega
  have e2 : p + 1 + K.length + 2 + 1 + 1 + 1 + [118].length + 2 + 1 = p + K.length + 10 := by
    simp; omega
  refine ⟨_, reach_step (reach_trans (reach_step (reach_step (reach_step (reach_step (reach_step
    (reach_step (reach_one s1) s2) s3) s4) s5) s6) s7) s8) ?_⟩
  rw [s9, ← e1, ← e2]
  rfl

end Member

section UnifiedDoc

variable {σ H : Type}

theorem unified_doc_bytes (x y : List Nat) :
    unified_doc x y ++ [0] =
      [123] ++ ((34 :: (ascii "special" ++ (34 :: 58 :: 32 :: 123 :: 34 :: 118 :: 34 :: 58 ::
        32 :: (x ++ [125])))) ++ ([44, 32] ++ ((34 :: (ascii "normal" ++ (34 :: 58 :: 32 ::
        123 :: 34 :: 118 :: 34 :: 58 :: 32 :: (y ++ [125])))) ++ [125, 0]))) := by
  have e1 : ascii "\x7b\"special\": \x7b\"v\": " =
      [123, 34] ++ ascii "special" ++ [34, 58, 32, 123, 34, 118, 34, 58, 32] := by decide
  have e2 : ascii "\x7d, \"normal\": \x7b\"v\": " =
      [125, 44, 32, 34] ++ ascii "normal" ++ [34, 58, 32, 123, 34, 118, 34, 58, 32] := by decide
  have e3 : ascii "\x7d\x7d" = [125, 125] := by decide
  unfold unified_doc
  rw [e1, e2, e3]
  simp

theorem unified_doc_length (x y : List Nat) :
    (unified_doc x y).length = 39 + x.length + y.length := by
  have e1 : (ascii "\x7b\"special\": \x7b\"v\": ").length = 18 := by decide
  have e2 : (ascii "\x7d, \"normal\": \x7b\"v\": ").length = 19 := by decide
  have e3 : (ascii "\x7d\x7d").length = 2 := by decide
  unfold unified_doc
  simp only [List.length_append, e1, e2, e3]
  omega

/-- The parse of the document `{"special": {"v": x}, "normal": {"v": y}}` with a
consumer whose callbacks all return 0: it returns 0, and the consumer has been
offered the start of the root object, the events of the two members and nothing
else (the end of the root object is offered last). -/
theorem unified_doc_run {vt : H → ajson_sax_cb_t σ H} (hz : ReturnsZero vt) (x y : List Nat)
    (hx : IsIntPart x) (hy : IsIntPart y) (cb : H) (ctx : σ) :
    ∃ r, parse_doc vt (unified_doc x y) cb ctx = some r ∧ r.rc = 0 ∧
      r.cs = depth_dec (deliver vt (after_member vt (after_member vt
        (depth_inc (deliver vt (init_consumer cb ctx) .start_object))
        (ascii "special") x) (ascii "normal") y) .end_object) := by
  have hlen := unified_doc_length x y
  have hxpos : 0 < x.length := by
    rcases hx with rfl | ⟨d1, ds, rfl, _⟩ <;> simp
  have hypos : 0 < y.length := by
    rcases hy with rfl | ⟨d1, ds, rfl, _⟩ <;> simp
  have hs7 : (ascii "special").length = 7 := by decide
  have hn6 : (ascii "normal").length = 6 := by decide
  -- the scanner state at the start
  generalize hlx : init_lexer (unified_doc x y ++ [0]) (unified_doc x y).length = lx
  have hmem : lx.mem = unified_doc x y ++ [0] := by rw [← hlx]; rfl
  have hepv : lx.ep = 39 + x.length + y.length := by rw [← hlx]; exact hlen
  have hinit : lx = moved lx 0 0 0 false [] := by rw [← hlx]; rfl
  -- the bytes
  have hb := unified_doc_bytes x y
  have hat0 : rd lx.mem 0 = 123 := by rw [hmem, hb]; rfl
  have hat1 : At lx.mem 1 (34 :: (ascii "special" ++ (34 :: 58 :: 32 :: 123 :: 34 :: 118 ::
      34 :: 58 :: 32 :: (x ++ [125])))) := by
    rw [hmem, hb]
    exact At_append_mid [123] _ _
  have hat2 : At lx.mem (19 + x.length) ([44, 32] ++ ((34 :: (ascii "normal" ++ (34 :: 58 ::
      32 :: 123 :: 34 :: 118 :: 34 :: 58 :: 32 :: (y ++ [125])))) ++ [125, 0])) := by
    rw [hmem, hb, ← List.append_assoc [123]]
    have := At_append_mid ([123] ++ (34 :: (ascii "special" ++ (34 :: 58 :: 32 :: 123 :: 34 ::
      118 :: 34 :: 58 :: 32 :: (x ++ [125]))))) ([44, 32] ++ ((34 :: (ascii "normal" ++
      (34 :: 58 :: 32 :: 123 :: 34 :: 118 :: 34 :: 58 :: 32 :: (y ++ [125])))) ++ [125, 0])) []
    simp only [List.append_nil] at this
    have e : ([123] ++ (34 :: (ascii "special" ++ (34 :: 58 :: 32 :: 123 :: 34 ::
      118 :: 34 :: 58 :: 32 :: (x ++ [125]))))).length = 19 + x.length := by
      simp [hs7]
      omega
    rw [e] at this
    exact this
  obtain ⟨hcomma, hat3⟩ := At_cons hat2
  obtain ⟨hspace, hat4⟩ := At_cons hat3
  obtain ⟨hatm2, hat5⟩ := @At_append lx.mem (19 + x.length + 1 + 1)
    (34 :: (ascii "normal" ++ (34 :: 58 :: 32 :: 123 :: 34 :: 118 :: 34 :: 58 :: 32 ::
      (y ++ [125])))) [125, 0] hat4
  have hclose : rd lx.mem (38 + x.length + y.length) = 125 := by
    have := (At_cons hat5).1
    rw [← this]
    congr 1
    simp [hn6]
    omega
  have hK1 : ∀ c ∈ ascii "special", c ≠ 34 ∧ c ≠ 0 ∧ c ≠ 92 := by decide
  have hK2 : ∀ c ∈ ascii "normal", c ≠ 34 ∧ c ≠ 0 ∧ c ≠ 92 := by decide
  -- the run
  have s1 := tok_open_value hz lx 0 0 0 false [] (init_consumer cb ctx) (by omega) hat0
    (by simp)
  obtain ⟨k2, s2⟩ := member_run hz lx (0 + 1) 123 0 false [SAX_MODE_OBJECT]
    (depth_inc (deliver vt (init_consumer cb ctx) .start_object)) (ascii "special") x hat1 hK1
    (by decide) hx (by rw [hs7]; omega) (by simp)
  have s3 := tok_next vt lx (0 + 1 + (ascii "special").length + x.length + 11) 125
    (0 + 1 + (ascii "special").length + 10) false []
    (after_member vt (depth_inc (deliver vt (init_consumer cb ctx) .start_object))
      (ascii "special") x) (by rw [hs7]; omega)
  have e3 : 0 + 1 + (ascii "special").length + x.length + 11 = 19 + x.length := by
    rw [hs7]; omega
  rw [e3, hcomma] at s3
  rw [e3] at s2
  have s4 := tok_comma vt lx (19 + x.length) (0 + 1 + (ascii "special").length + 10) false
    [SAX_MODE_OBJECT]
    (after_member vt (depth_inc (deliver vt (init_consumer cb ctx) .start_object))
      (ascii "special") x) (by omega)
  have s5 := tok_space vt .start_key lx (19 + x.length + 1) 44
    (0 + 1 + (ascii "special").length + 10) true [SAX_MODE_OBJECT]
    (after_member vt (depth_inc (deliver vt (init_consumer cb ctx) .start_object))
      (ascii "special") x) (Or.inr (Or.inl rfl)) (by omega) (by rw [hspace]; decide)
  obtain ⟨k6, s6⟩ := member_run hz lx (19 + x.length + 1 + 1) (rd lx.mem (19 + x.length + 1))
    (0 + 1 + (ascii "special").length + 10) true [SAX_MODE_OBJECT]
    (after_member vt (depth_inc (deliver vt (init_consumer cb ctx) .start_object))
      (ascii "special") x) (ascii "normal") y hatm2 hK2 (by decide) hy (by rw [hn6]; omega)
    (by simp)
  have e6 : 19 + x.length + 1 + 1 + (ascii "normal").length + y.length + 11 =
      38 + x.length + y.length := by
    rw [hn6]; omega
  rw [e6] at s6
  have s7 := tok_next vt lx (38 + x.length + y.length) 125
    (19 + x.length + 1 + 1 + (ascii "normal").length + 10) false []
    (after_member vt (after_member vt (depth_inc (deliver vt (init_consumer cb ctx)
      .start_object)) (ascii "special") x) (ascii "normal") y) (by omega)
  rw [hclose] at s7
  have s8 := tok_close hz lx (38 + x.length + y.length)
    (19 + x.length + 1 + 1 + (ascii "normal").length + 10) [SAX_MODE_OBJECT]
    (after_member vt (after_member vt (depth_inc (deliver vt (init_consumer cb ctx)
      .start_object)) (ascii "special") x) (ascii "normal") y)
  have s9 := tok_end vt lx (38 + x.length + y.length + 1) 125
    (19 + x.length + 1 + 1 + (ascii "normal").length + 10) false
    (depth_dec (deliver vt (after_member vt (after_member vt (depth_inc (deliver vt
      (init_consumer cb ctx) .start_object)) (ascii "special") x) (ascii "normal") y)
      .end_object))
  have hreach := reach_step (reach_step (reach_trans (reach_step (reach_step (reach_step
    (reach_trans (reach_one s1) s2) s3) s4) s5) s6) s7) s8
  rw [← hinit] at hreach
  have hends := Ends_of_reach hreach (@Ends_ret σ H vt _ _ _ _ _
    (fun r => r.rc = 0 ∧ r.cs = depth_dec (deliver vt (after_member vt (after_member vt
      (depth_inc (deliver vt (init_consumer cb ctx) .start_object))
      (ascii "special") x) (ascii "normal") y) .end_object)) _ s9 ⟨rfl, rfl⟩)
  rw [← hlx] at hends
  exact ajson_sax_parse_of_Ends (by omega) hends

end UnifiedDoc

section UnifiedHandlers

theorem ReturnsZero_unified_vt (f : List Nat → Int) : ReturnsZero (unified_vt f) := by
  intro cs ev c s rc h
  cases hcb : cs.sax.cb <;> cases ev <;>
    simp [invoke, unified_vt, no_handlers, hcb] at h <;> exact h.2.2.symm

theorem KeepsDepth_unified_vt (f : List Nat → Int) : KeepsDepth (unified_vt f) := by
  intro cs ev c s rc h
  cases hcb : cs.sax.cb <;> cases ev <;>
    simp only [invoke, unified_vt, hcb, no_handlers, Option.map_none', Option.map_some',
      Option.some.injEq, Prod.mk.injEq] at h <;>
    first
    | (obtain ⟨_, rfl, _⟩ := h
       first
       | rfl
       | exact ajson_sax_try_pop_depth _
       | (split
          · exact ajson_sax_push_depth _ _
          · rfl))
    | cases h

theorem Resigns_unified_vt (f : List Nat → Int) :
    Resigns (unified_vt f) .u_user_handlers where
  keeps := fun cs ev c s rc hcb hev h => by
    cases ev <;> simp [invoke, unified_vt, no_handlers, hcb] at h <;>
      first | exact h.2.1.symm | cases hev
  pops := fun cs ev c s rc hcb hev h => by
    cases ev <;> simp [invoke, unified_vt, no_handlers, hcb] at h <;>
      first | exact h.2.1.symm | cases hev

/-- A text without a NUL byte is its own C string. -/
theorem c_string_eq (s : List Nat) (h : ∀ c ∈ s, c ≠ 0) : c_string s = s := by
  unfold c_string
  exact List.takeWhile_eq_self_iff.2 (fun c hc => by simpa using h c hc)

theorem c_string_int (x : List Nat) (hx : IsIntPart x) : c_string x = x := by
  apply c_string_eq
  rcases hx with rfl | ⟨d, ds, rfl, hd, hds⟩
  · decide
  · intro c hc
    rcases List.mem_cons.1 hc with rfl | hc
    · omega
    · have := hds c hc
      unfold isDigit at this
      omega

/-- The test `sax_stack_unified_logic` for any two unsigned integers: the number
of the member `special` goes to `u_user_handlers`, that of the member `normal` to
`u_root_handlers`, whatever the function `atoi` makes of them. -/
theorem unified_doc_routes (f : List Nat → Int) (x y : List Nat) (hx : IsIntPart x)
    (hy : IsIntPart y) :
    (parse_doc (unified_vt f) (unified_doc x y) .u_root_handlers ⟨[], 0, 0⟩).map
      (fun r => (r.rc, r.cs.trace.map Prod.fst, r.cs.ctx.user_num, r.cs.ctx.root_num,
        r.cs.sax.cb)) =
      some (0, [.start_object, .key (ascii "special"), .start_object, .number x, .end_object,
        .key (ascii "normal"), .start_object, .key (ascii "v"), .number y], f x, f y,
        .u_root_handlers) := by
  obtain ⟨r, hr, hrc, hcs⟩ := unified_doc_run (ReturnsZero_unified_vt f) x y hx hy
    .u_root_handlers ⟨[], 0, 0⟩
  have hne1 : ([] : List Nat) ≠ ascii "special" := by decide
  have hne2 : ascii "normal" ≠ ascii "special" := by decide
  have hv : ascii "v" = [118] := by decide
  have hc1 : c_string (ascii "special") = ascii "special" := by decide
  have hc2 : c_string (ascii "normal") = ascii "normal" := by decide
  have hc3 : c_string [118] = [118] := by decide
  have hne3 : ([118] : List Nat) ≠ ascii "special" := by decide
  rw [hr]
  simp only [Option.map_some', hrc, hcs]
  simp [after_member, deliver, invoke, unified_vt, no_handlers, after_cb, depth_inc, depth_dec,
    init_consumer, ajson_sax_push, ajson_sax_try_pop, ajson_sax_pop, hne1, hne2, hv, hc1, hc2,
    hc3, hne3, c_string_int x hx, c_string_int y hy]

/-- On a text of digits whose value fits `int`, `(int) strtol(s, NULL, 10)` is that
value. -/
theorem atoi_in_range (x : List Nat) (hx : IsIntPart x) (hr : atoi_digits x 0 < 2147483648) :
    atoi x = (atoi_digits x 0 : Int) := by
  have hd : x.dropWhile (fun c => decide (c = 32 ∨ (9 ≤ c ∧ c ≤ 13))) = x := by
    rcases hx with rfl | ⟨d, ds, rfl, hd, hds⟩
    · decide
    · rw [List.dropWhile_cons_of_neg]
      simp
      omega
  have hv : strtol_value x = (atoi_digits x 0 : Int) := by
    unfold strtol_value
    rw [hd]
    rcases hx with rfl | ⟨d, ds, rfl, hd, hds⟩
    · rfl
    · split
      · rename_i h
        simp only [List.cons.injEq] at h
        omega
      · rename_i h
        simp only [List.cons.injEq] at h
        omega
      · rfl
  unfold atoi strtol to_int
  rw [hv, if_neg (by omega), if_neg (by omega)]
  omega

end UnifiedHandlers

/-- The iteration of the decoder on a backslash followed by a byte that the
`switch` does not list: both bytes are passed and nothing is written. -/
theorem decode_step_unlisted {mem : List Nat} {p e : Nat} (out : List Nat)
    (h0 : rd mem p = 92) (h1 : rd mem (p + 1) = e)
    (he : e ≠ 34 ∧ e ≠ 92 ∧ e ≠ 47 ∧ e ≠ 98 ∧ e ≠ 102 ∧ e ≠ 110 ∧ e ≠ 114 ∧ e ≠ 116 ∧ e ≠ 117) :
    decode_step mem p out = (p + 2, out) := by
  obtain ⟨a1, a2, a3, a4, a5, a6, a7, a8, a9⟩ := he
  unfold decode_step
  dsimp only
  rw [if_neg (by rw [h0]; simp)]
  unfold decode_escape
  dsimp only
  rw [h1, if_neg a1, if_neg a2, if_neg a3, if_neg a4, if_neg a5, if_neg a6, if_neg a7,
    if_neg a8, if_neg a9]

/-- The scan for the first backslash over a text without one, up to a backslash. -/
theorem first_backslash_at (pre tail : List Nat) (n : Nat) (h : ∀ c ∈ pre, c ≠ 92)
    (hn : pre.length < n) :
    first_backslash (pre ++ 92 :: tail) n 0 = some pre.length := by
  rcases first_backslash_spec (pre ++ 92 :: tail) n 0 with ⟨_, hall⟩ | ⟨q, e, _, _, h3, hall⟩
  · exfalso
    refine hall pre.length (Nat.zero_le _) (by omega) ?_
    exact rd_append_right pre (92 :: tail) 0
  · rw [e]
    congr 1
    by_contra hne
    by_cases hlt : q < pre.length
    · rw [rd_append_left _ _ _ hlt] at h3
      exact h _ (rd_mem_of_lt _ _ hlt) h3
    · refine hall pre.length (Nat.zero_le _) (by omega) ?_
      exact rd_append_right pre (92 :: tail) 0

/-- The decoder on a text with one backslash, which a byte outside the `switch`
follows: what stands before and what stands after is copied. -/
theorem decode_unlisted (pre post rest : List Nat) (e : Nat)
    (he : e ≠ 34 ∧ e ≠ 92 ∧ e ≠ 47 ∧ e ≠ 98 ∧ e ≠ 102 ∧ e ≠ 110 ∧ e ≠ 114 ∧ e ≠ 116 ∧ e ≠ 117)
    (hpost : ∀ c ∈ post, c ≠ 92) :
    _ajson_decode (pre ++ 92 :: e :: (post ++ rest)) pre.length
      (pre.length + 2 + post.length) = some (pre ++ post) := by
  have hlen : (pre ++ 92 :: e :: (post ++ rest)).length =
      pre.length + 2 + post.length + rest.length := by
    simp
    omega
  have h0 : rd (pre ++ 92 :: e :: (post ++ rest)) pre.length = 92 := by
    exact rd_append_right pre _ 0
  have h1 : rd (pre ++ 92 :: e :: (post ++ rest)) (pre.length + 1) = e := by
    exact rd_append_right pre _ 1
  have hpost1 : ∀ i, pre.length + 2 ≤ i → i < pre.length + 2 + post.length →
      rd (pre ++ 92 :: e :: (post ++ rest)) i ≠ 92 := by
    intro i h2 h3
    obtain ⟨j, rfl⟩ : ∃ j, i = pre.length + (j + 2) := ⟨i - pre.length - 2, by omega⟩
    rw [rd_append_right]
    show rd (post ++ rest) j ≠ 92
    rw [rd_append_left _ _ _ (by omega)]
    exact hpost _ (rd_mem_of_lt _ _ (by omega))
  have hsl : slice (pre ++ 92 :: e :: (post ++ rest)) (pre.length + 2) post.length = post := by
    have e2 : pre ++ 92 :: e :: (post ++ rest) = (pre ++ [92, e]) ++ (post ++ rest) := by simp
    rw [e2]
    unfold slice
    rw [List.drop_append_eq_append_drop]
    simp
  unfold _ajson_decode
  obtain ⟨n, hn⟩ : ∃ n, pre.length + 2 + post.length - pre.length = n + 1 :=
    ⟨post.length + 1, by omega⟩
  rw [hn, decode_loop_succ _ _ _ _ _ (by omega), decode_step_unlisted _ h0 h1 he]
  dsimp only
  rw [decode_loop_copy _ _ n (pre.length + 2) (pre.length + 2 + post.length) _ (Nat.le_refl _)
    (by omega) (by omega) (by omega) hpost1, decode_loop_done _ _ _ _ _ (Nat.le_refl _)]
  have e3 : pre.length + 2 + post.length - (pre.length + 2) = post.length := by omega
  rw [e3, hsl, slice_append_self]

section Total

variable {σ H : Type}

/-- Along the jumps from a state that is sane, the states stay sane and the bound
of the cursor stays what it is. -/
theorem reach_Sane (vt : H → ajson_sax_cb_t σ H) (k : Nat) (l l1 : Label) (lx lx1 : Lexer)
    (cs cs1 : Consumer σ H) (hs : Sane l lx)
    (h : reach vt k l lx cs = some (l1, lx1, cs1)) :
    Sane l1 lx1 ∧ span lx1 = span lx ∧ weight l1 lx1 + k ≤ weight l lx := by
  induction k generalizing l lx cs with
  | zero =>
    simp only [reach, Option.some.injEq, Prod.mk.injEq] at h
    obtain ⟨rfl, rfl, _⟩ := h
    exact ⟨hs, rfl, Nat.le_refl _⟩
  | succ k ih =>
    have hf := step_falls vt l lx cs hs
    unfold reach at h
    cases hstep : step vt l lx cs with
    | ret rc lx2 cs2 =>
      rw [hstep] at h
      simp at h
    | goto l2 lx2 cs2 =>
      rw [hstep] at h hf
      obtain ⟨a, b, c⟩ := ih _ _ _ hf.1 h
      exact ⟨a, by rw [b, hf.2.1], by have := hf.2.2; omega⟩

end Total

/-! ## The UTF-8 filter -/

section Utf8

set_option maxRecDepth 100000 in
/-- On a byte, the bit masks of the filter test the ranges of the lead bytes and
of the continuation bytes. -/
theorem masks_iff : ∀ c, c < 256 →
    (c &&& 0xE0 = 0xC0 ↔ IsLead2 c) ∧ (c &&& 0xF0 = 0xE0 ↔ IsLead3 c) ∧
    (c &&& 0xF8 = 0xF0 ↔ IsLead4 c) ∧ (c &&& 0xC0 = 0x80 ↔ IsContinuation c) := by
  unfold IsLead2 IsLead3 IsLead4 IsContinuation
  decide

theorem slice_eq_cons (mem : List Nat) (len i : Nat) (hlen : len ≤ mem.length) (hi : i < len) :
    slice mem i (len - i) = rd mem i :: slice mem (i + 1) (len - (i + 1)) := by
  have e : len - i = (len - (i + 1)) + 1 := by omega
  rw [e, slice_succ _ _ _ (by omega)]

theorem slice_eq_nil (mem : List Nat) (len i : Nat) (hi : len ≤ i) : slice mem i (len - i) = [] := by
  have e : len - i = 0 := by omega
  rw [e, slice_zero]

/-- What follows the index `i` in the range continues a lead byte at `i` with `k`
continuation bytes. -/
theorem continuedBy_slice (mem : List Nat) (len i k : Nat) (hlen : len ≤ mem.length)
    (hi : i < len) :
    ContinuedBy (slice mem (i + 1) (len - (i + 1))) k ↔
      i + k < len ∧ ∀ j, j < k → IsContinuation (rd mem (i + 1 + j)) := by
  unfold ContinuedBy
  rw [length_slice]
  constructor
  · rintro ⟨h1, h2⟩
    refine ⟨by omega, fun j hj => ?_⟩
    have := h2 j hj
    rw [rd_slice, if_pos (by omega)] at this
    exact this
  · rintro ⟨h1, h2⟩
    refine ⟨by omega, fun j hj => ?_⟩
    rw [rd_slice, if_pos (by omega)]
    exact h2 j hj

/-- One iteration of the filter: a complete sequence stands at the index and is
kept whole, or the byte at the index is dropped alone. -/
theorem copy_valid_step_spec (mem : List Nat) (len i : Nat) (hlen : len ≤ mem.length)
    (hi : i < len) (hb : ∀ j, j < len → rd mem j < 256) :
    (∃ u, IsSequence u ∧ i + u.length ≤ len ∧
      slice mem i (len - i) = u ++ slice mem (i + u.length) (len - (i + u.length)) ∧
      copy_valid_step mem len i = (i + u.length, u)) ∨
    (DroppedAlone (rd mem i) (slice mem (i + 1) (len - (i + 1))) ∧
      copy_valid_step mem len i = (i + 1, [])) := by
  obtain ⟨m2, m3, m4, mc⟩ := masks_iff (rd mem i) (hb i hi)
  have hs := slice_eq_cons mem len i hlen hi
  have c1 := continuedBy_slice mem len i 1 hlen hi
  have c2 := continuedBy_slice mem len i 2 hlen hi
  have c3 := continuedBy_slice mem len i 3 hlen hi
  unfold copy_valid_step
  dsimp only
  by_cases h1 : rd mem i < 0x80
  · left
    refine ⟨[rd mem i], Or.inl ⟨_, rfl, h1⟩, by simp; omega, hs, by rw [if_pos h1]; rfl⟩
  rw [if_neg h1]
  by_cases h2 : rd mem i &&& 0xE0 = 0xC0 ∧ i + 1 < len
  · rw [if_pos h2]
    have k2 := (masks_iff _ (hb (i + 1) h2.2)).2.2.2
    by_cases g : rd mem (i + 1) &&& 0xC0 = 0x80
    · rw [if_pos g]
      left
      refine ⟨[rd mem i, rd mem (i + 1)], Or.inr (Or.inl ⟨_, _, rfl, m2.1 h2.1, k2.1 g⟩),
        by simp; omega, ?_, rfl⟩
      rw [hs, slice_eq_cons mem len (i + 1) hlen h2.2]
      rfl
    · rw [if_neg g]
      right
      refine ⟨Or.inl ⟨m2.1 h2.1, fun hc => g (k2.2 ?_)⟩, rfl⟩
      exact (c1.1 hc).2 0 (by omega)
  rw [if_neg h2]
  by_cases h3 : rd mem i &&& 0xF0 = 0xE0 ∧ i + 2 < len
  · rw [if_pos h3]
    have k2 := (masks_iff _ (hb (i + 1) (by omega))).2.2.2
    have k3 := (masks_iff _ (hb (i + 2) h3.2)).2.2.2
    by_cases g : rd mem (i + 1) &&& 0xC0 = 0x80 ∧ rd mem (i + 2) &&& 0xC0 = 0x80
    · rw [if_pos g]
      left
      refine ⟨[rd mem i, rd mem (i + 1), rd mem (i + 2)],
        Or.inr (Or.inr (Or.inl ⟨_, _, _, rfl, m3.1 h3.1, k2.1 g.1, k3.1 g.2⟩)),
        by simp; omega, ?_, rfl⟩
      rw [hs, slice_eq_cons mem len (i + 1) hlen (by omega),
        slice_eq_cons mem len (i + 2) hlen h3.2]
      rfl
    · rw [if_neg g]
      right
      refine ⟨Or.inr (Or.inl ⟨m3.1 h3.1, fun hc => g ⟨k2.2 ?_, k3.2 ?_⟩⟩), rfl⟩
      · exact (c2.1 hc).2 0 (by omega)
      · exact (c2.1 hc).2 1 (by omega)
  rw [if_neg h3]
  by_cases h4 : rd mem i &&& 0xF8 = 0xF0 ∧ i + 3 < len
  · rw [if_pos h4]
    have k2 := (masks_iff _ (hb (i + 1) (by omega))).2.2.2
    have k3 := (masks_iff _ (hb (i + 2) (by omega))).2.2.2
    have k4 := (masks_iff _ (hb (i + 3) h4.2)).2.2.2
    by_cases g : rd mem (i + 1) &&& 0xC0 = 0x80 ∧ rd mem (i + 2) &&& 0xC0 = 0x80 ∧
        rd mem (i + 3) &&& 0xC0 = 0x80
    · rw [if_pos g]
      left
      refine ⟨[rd mem i, rd mem (i + 1), rd mem (i + 2), rd mem (i + 3)],
        Or.inr (Or.inr (Or.inr ⟨_, _, _, _, rfl, m4.1 h4.1, k2.1 g.1, k3.1 g.2.1, k4.1 g.2.2⟩)),
        by simp; omega, ?_, rfl⟩
      rw [hs, slice_eq_cons mem len (i + 1) hlen (by omega),
        slice_eq_cons mem len (i + 2) hlen (by omega), slice_eq_cons mem len (i + 3) hlen h4.2]
      rfl
    · rw [if_neg g]
      right
      refine ⟨Or.inr (Or.inr (Or.inl ⟨m4.1 h4.1, fun hc => g ⟨k2.2 ?_, k3.2 ?_, k4.2 ?_⟩⟩)), rfl⟩
      · exact (c3.1 hc).2 0 (by omega)
      · exact (c3.1 hc).2 1 (by omega)
      · exact (c3.1 hc).2 2 (by omega)
  rw [if_neg h4]
  right
  refine ⟨?_, rfl⟩
  by_cases l2 : IsLead2 (rd mem i)
  · exact Or.inl ⟨l2, fun hc => h2 ⟨m2.2 l2, by have := (c1.1 hc).1; omega⟩⟩
  by_cases l3 : IsLead3 (rd mem i)
  · exact Or.inr (Or.inl ⟨l3, fun hc => h3 ⟨m3.2 l3, by have := (c2.1 hc).1; omega⟩⟩)
  by_cases l4 : IsLead4 (rd mem i)
  · exact Or.inr (Or.inr (Or.inl ⟨l4, fun hc => h4 ⟨m4.2 l4, by have := (c3.1 hc).1; omega⟩⟩))
  right; right; right
  unfold IsLead2 at l2
  unfold IsLead3 at l3
  unfold IsLead4 at l4
  unfold IsContinuation
  omega

end Utf8

section Utf8Loop

theorem IsSequence_length {u : List Nat} (h : IsSequence u) : 1 ≤ u.length ∧ u.length ≤ 4 := by
  rcases h with ⟨_, rfl, _⟩ | ⟨_, _, rfl, _⟩ | ⟨_, _, _, rfl, _⟩ | ⟨_, _, _, _, rfl, _⟩ <;> simp

/-- The loop of `ajson_copy_valid_utf8` comes to its end and stores what is left
of the rest of the range when its sequences are kept and the other bytes are
dropped. -/
theorem copy_valid_loop_sifted (mem : List Nat) (len : Nat) (hlen : len ≤ mem.length)
    (hb : ∀ j, j < len → rd mem j < 256) (n i : Nat) (out : List Nat) (hi : i ≤ len)
    (hn : len ≤ i + n) :
    ∃ y, copy_valid_loop mem len n i out = some (out ++ y) ∧ Sifted (slice mem i (len - i)) y := by
  induction n generalizing i out with
  | zero =>
    refine ⟨[], ?_, ?_⟩
    · have hle : len ≤ i := by omega
      simp [copy_valid_loop, Nat.not_lt.2 hle]
    · rw [slice_eq_nil _ _ _ (by omega)]
      exact Sifted.done
  | succ n ih =>
    by_cases h : i < len
    · unfold copy_valid_loop
      rw [if_pos h]
      rcases copy_valid_step_spec mem len i hlen h hb with ⟨u, hu, hle, hs, e⟩ | ⟨hd, e⟩
      · have hl := IsSequence_length hu
        obtain ⟨y, hy, hsy⟩ := ih (i + u.length) (out ++ u) hle (by omega)
        refine ⟨u ++ y, ?_, ?_⟩
        · rw [e]
          dsimp only
          rw [hy, List.append_assoc]
        · rw [hs]
          exact Sifted.keep _ _ _ hu hsy
      · obtain ⟨y, hy, hsy⟩ := ih (i + 1) (out ++ []) (by omega) (by omega)
        refine ⟨y, ?_, ?_⟩
        · rw [e]
          dsimp only
          rw [hy, List.append_nil]
        · rw [slice_eq_cons mem len i hlen h]
          exact Sifted.drop _ _ _ hd hsy
    · refine ⟨[], ?_, ?_⟩
      · unfold copy_valid_loop
        rw [if_neg h, List.append_nil]
      · rw [slice_eq_nil _ _ _ (by omega)]
        exact Sifted.done

/-- The append variant runs the loop of the copy variant: the same index, and the
bytes stored appended to the buffer. -/
theorem append_valid_step_eq (mem : List Nat) (len i : Nat) (bh : List Nat) :
    append_valid_step mem len i bh =
      ((copy_valid_step mem len i).1, bh ++ (copy_valid_step mem len i).2) := by
  unfold append_valid_step copy_valid_step aml_buffer_appendc
  dsimp only
  split_ifs <;> simp

theorem append_valid_loop_eq (mem : List Nat) (len n i : Nat) (bh out : List Nat) :
    append_valid_loop mem len n i (bh ++ out) =
      (copy_valid_loop mem len n i out).map (fun y => bh ++ y) := by
  induction n generalizing i out with
  | zero =>
    unfold append_valid_loop copy_valid_loop
    split_ifs <;> rfl
  | succ n ih =>
    unfold append_valid_loop copy_valid_loop
    split_ifs
    · rw [append_valid_step_eq]
      dsimp only
      rw [List.append_assoc, ih]
    · rfl

end Utf8Loop

section Utf8Strip

theorem store_length (mem : List Nat) (o : Nat) (u : List Nat) :
    (store mem o u).length = mem.length := by
  induction u generalizing mem o with
  | nil => rfl
  | cons c u ih => rw [store, ih, wr_length]

theorem rd_store (mem : List Nat) (o : Nat) (u : List Nat) (j : Nat)
    (h : o + u.length ≤ mem.length) :
    rd (store mem o u) j = if o ≤ j ∧ j < o + u.length then rd u (j - o) else rd mem j := by
  induction u generalizing mem o with
  | nil =>
    rw [store, if_neg (by simp)]
  | cons c u ih =>
    simp only [List.length_cons] at h
    rw [store, ih _ _ (by rw [wr_length]; omega), rd_wr]
    simp only [List.length_cons]
    by_cases h1 : o + 1 ≤ j ∧ j < o + 1 + u.length
    · rw [if_pos h1, if_pos (by omega)]
      obtain ⟨k, rfl⟩ : ∃ k, j = o + 1 + k := ⟨j - (o + 1), by omega⟩
      have e1 : o + 1 + k - (o + 1) = k := by omega
      have e2 : o + 1 + k - o = k + 1 := by omega
      rw [e1, e2]
      rfl
    · rw [if_neg h1]
      by_cases h2 : j = o
      · subst h2
        rw [if_pos ⟨rfl, by omega⟩, if_pos (by omega), Nat.sub_self]
        rfl
      · rw [if_neg (fun hc => h2 hc.1), if_neg (by omega)]

/-- The in-place variant runs the iteration of the copy variant and stores its
bytes from `out_i` on. -/
theorem strip_step_eq (mem : List Nat) (len i o : Nat) :
    strip_step mem len i o =
      (store mem o (copy_valid_step mem len i).2, (copy_valid_step mem len i).1,
        o + (copy_valid_step mem len i).2.length) := by
  unfold strip_step copy_valid_step
  dsimp only
  split_ifs <;> rfl

/-- An iteration reads the range from its index on only. -/
theorem copy_valid_step_congr (m mem : List Nat) (len i : Nat)
    (h : ∀ j, i ≤ j → rd m j = rd mem j) :
    copy_valid_step m len i = copy_valid_step mem len i := by
  unfold copy_valid_step
  rw [h i (Nat.le_refl _), h (i + 1) (by omega), h (i + 2) (by omega), h (i + 3) (by omega)]

/-- An iteration moves the index forward, inside the range, by the number of
bytes it stores at least. -/
theorem copy_valid_step_bounds (mem : List Nat) (len i : Nat) (hi : i < len) :
    i + 1 ≤ (copy_valid_step mem len i).1 ∧ (copy_valid_step mem len i).1 ≤ len ∧
      i + (copy_valid_step mem len i).2.length ≤ (copy_valid_step mem len i).1 := by
  unfold copy_valid_step
  dsimp only
  split_ifs <;> simp <;> omega

/-- The in-place loop and the copy loop, side by side: the in-place loop returns
the number of bytes that the copy loop stores and leaves these bytes at the start
of the range. -/
theorem strip_loop_eq (mem : List Nat) (len : Nat) (hlen : len ≤ mem.length) (n : Nat)
    (m : List Nat) (i o : Nat) (out : List Nat) (hm : m.length = mem.length)
    (hhi : ∀ j, i ≤ j → rd m j = rd mem j) (ho : o = out.length) (hoi : o ≤ i)
    (hlo : ∀ j, j < o → rd m j = rd out j) (hi : i ≤ len) (hn : len ≤ i + n) :
    ∃ y m1, copy_valid_loop mem len n i out = some y ∧
      strip_loop len n m i o = some (m1, y.length) ∧ m1.length = mem.length ∧
      y.length ≤ len ∧ ∀ j, j < y.length → rd m1 j = rd y j := by
  induction n generalizing m i o out with
  | zero =>
    have hle : ¬ i < len := by omega
    refine ⟨out, m, ?_, ?_, hm, by omega, fun j hj => hlo j (by omega)⟩
    · simp [copy_valid_loop, hle]
    · simp [strip_loop, hle, ho]
  | succ n ih =>
    by_cases h : i < len
    · have hb := copy_valid_step_bounds mem len i h
      unfold copy_valid_loop strip_loop
      rw [if_pos h, if_pos h, strip_step_eq, copy_valid_step_congr m mem len i hhi]
      dsimp only
      refine ih _ _ _ _ (by rw [store_length, hm]) (fun j hj => ?_)
        (by rw [List.length_append, ho]) (by omega) (fun j hj => ?_) hb.2.1 (by omega)
      · rw [rd_store _ _ _ _ (by omega), if_neg (by omega)]
        exact hhi j (by omega)
      · rw [rd_store _ _ _ _ (by omega)]
        by_cases hj2 : j < o
        · rw [if_neg (by omega), hlo j hj2, rd_append_left _ _ _ (by omega)]
        · rw [if_pos (by omega)]
          obtain ⟨k, rfl⟩ : ∃ k, j = out.length + k := ⟨j - o, by omega⟩
          rw [rd_append_right, ho]
          congr 1
          omega
    · refine ⟨out, m, ?_, ?_, hm, by omega, fun j hj => hlo j (by omega)⟩
      · unfold copy_valid_loop
        rw [if_neg h]
      · unfold strip_loop
        rw [if_neg h, ho]

end Utf8Strip

section Utf8Spec

theorem ContinuedBy_cons (c2 : Nat) (r : List Nat) (k : Nat) :
    ContinuedBy (c2 :: r) (k + 1) ↔ IsContinuation c2 ∧ ContinuedBy r k := by
  unfold ContinuedBy
  constructor
  · rintro ⟨h1, h2⟩
    refine ⟨h2 0 (by omega), by simpa using h1, fun j hj => ?_⟩
    exact h2 (j + 1) (by omega)
  · rintro ⟨h0, h1, h2⟩
    refine ⟨by simpa using h1, fun j hj => ?_⟩
    cases j with
    | zero => exact h0
    | succ j => exact h2 j (by omega)

theorem ContinuedBy_zero (r : List Nat) : ContinuedBy r 0 :=
  ⟨Nat.zero_le _, fun j hj => by omega⟩

/-- A byte that starts a complete sequence is not one that is dropped alone. -/
theorem not_dropped_of_sequence {u r : List Nat} {c : Nat} {t : List Nat} (hu : IsSequence u)
    (e : u ++ r = c :: t) : ¬ DroppedAlone c t := by
  unfold DroppedAlone IsLead2 IsLead3 IsLead4 IsContinuation
  rcases hu with ⟨a, rfl, h⟩ | ⟨a, a2, rfl, h, h2⟩ | ⟨a, a2, a3, rfl, h, h2, h3⟩ |
    ⟨a, a2, a3, a4, rfl, h, h2, h3, h4⟩
  · simp only [List.singleton_append, List.cons.injEq] at e
    obtain ⟨rfl, rfl⟩ := e
    omega
  · simp only [List.cons_append, List.nil_append, List.cons.injEq] at e
    obtain ⟨rfl, rfl⟩ := e
    unfold IsLead2 at h
    have hc : ContinuedBy (a2 :: r) 1 := (ContinuedBy_cons _ _ _).2 ⟨h2, ContinuedBy_zero _⟩
    rintro (⟨_, h5⟩ | ⟨_, _⟩ | ⟨_, _⟩ | _ | _)
    · exact h5 hc
    all_goals omega
  · simp only [List.cons_append, List.nil_append, List.cons.injEq] at e
    obtain ⟨rfl, rfl⟩ := e
    unfold IsLead3 at h
    have hc : ContinuedBy (a2 :: a3 :: r) 2 :=
      (ContinuedBy_cons _ _ _).2 ⟨h2, (ContinuedBy_cons _ _ _).2 ⟨h3, ContinuedBy_zero _⟩⟩
    rintro (⟨_, _⟩ | ⟨_, h5⟩ | ⟨_, _⟩ | _ | _)
    · omega
    · exact h5 hc
    all_goals omega
  · simp only [List.cons_append, List.nil_append, List.cons.injEq] at e
    obtain ⟨rfl, rfl⟩ := e
    unfold IsLead4 at h
    have hc : ContinuedBy (a2 :: a3 :: a4 :: r) 3 :=
      (ContinuedBy_cons _ _ _).2 ⟨h2, (ContinuedBy_cons _ _ _).2
        ⟨h3, (ContinuedBy_cons _ _ _).2 ⟨h4, ContinuedBy_zero _⟩⟩⟩
    rintro (⟨_, _⟩ | ⟨_, _⟩ | ⟨_, h5⟩ | _ | _)
    · omega
    · omega
    · exact h5 hc
    all_goals omega

/-- The complete sequence at the head of a range is determined by the range. -/
theorem sequence_unique {u v r t : List Nat} (hu : IsSequence u) (hv : IsSequence v)
    (e : u ++ r = v ++ t) : u = v ∧ r = t := by
  unfold IsSequence IsLead2 IsLead3 IsLead4 at hu hv
  rcases hu with ⟨a, rfl, h⟩ | ⟨a, a2, rfl, h, _⟩ | ⟨a, a2, a3, rfl, h, _⟩ |
    ⟨a, a2, a3, a4, rfl, h, _⟩ <;>
  rcases hv with ⟨b, rfl, g⟩ | ⟨b, b2, rfl, g, _⟩ | ⟨b, b2, b3, rfl, g, _⟩ |
    ⟨b, b2, b3, b4, rfl, g, _⟩ <;>
  simp only [List.cons_append, List.nil_append, List.cons.injEq] at e <;>
  first
    | (obtain ⟨rfl, rfl⟩ := e; exact ⟨rfl, rfl⟩)
    | (obtain ⟨rfl, rfl, rfl⟩ := e; exact ⟨rfl, rfl⟩)
    | (obtain ⟨rfl, rfl, rfl, rfl⟩ := e; exact ⟨rfl, rfl⟩)
    | (obtain ⟨rfl, rfl, rfl, rfl, rfl⟩ := e; exact ⟨rfl, rfl⟩)
    | (exfalso; have := e.1; omega)

/-- What is left of a range is determined by the range. -/
theorem Sifted_unique {x y z : List Nat} (h1 : Sifted x y) (h2 : Sifted x z) : y = z := by
  induction h1 generalizing z with
  | done =>
    generalize hx : ([] : List Nat) = x at h2
    cases h2 with
    | done => rfl
    | keep u r o hu h =>
      have := IsSequence_length hu
      have hl := congrArg List.length hx
      rw [List.length_append, List.length_nil] at hl
      omega
    | drop c r o hd h => cases hx
  | keep u r o hu h ih =>
    generalize hx : u ++ r = x at h2
    cases h2 with
    | done =>
      have := IsSequence_length hu
      have hl := congrArg List.length hx
      rw [List.length_append, List.length_nil] at hl
      omega
    | keep v t o1 hv h3 =>
      obtain ⟨rfl, rfl⟩ := sequence_unique hu hv hx
      rw [ih h3]
    | drop c t o1 hd h3 => exact absurd hd (not_dropped_of_sequence hu hx)
  | drop c r o hd h ih =>
    generalize hx : c :: r = x at h2
    cases h2 with
    | done => cases hx
    | keep v t o1 hv h3 => exact absurd hd (not_dropped_of_sequence hv hx.symm)
    | drop c1 t o1 hd1 h3 =>
      cases hx
      exact ih h3

/-- What is left of a range is a concatenation of complete sequences. -/
theorem Sifted_wellFormed {x y : List Nat} (h : Sifted x y) : WellFormed y := by
  induction h with
  | done => exact ⟨[], rfl, fun u hu => by cases hu⟩
  | keep u r o hu _ ih =>
    obtain ⟨us, e, hall⟩ := ih
    refine ⟨u :: us, by rw [e]; rfl, fun v hv => ?_⟩
    rcases List.mem_cons.1 hv with rfl | hv
    · exact hu
    · exact hall v hv
  | drop c r o _ _ ih => exact ih

/-- A concatenation of complete sequences is left as it is. -/
theorem Sifted_of_wellFormed {x : List Nat} (h : WellFormed x) : Sifted x x := by
  obtain ⟨us, rfl, hall⟩ := h
  induction us with
  | nil => exact Sifted.done
  | cons u us ih =>
    rw [List.flatten_cons]
    exact Sifted.keep _ _ _ (hall u (List.mem_cons_self _ _))
      (ih (fun v hv => hall v (List.mem_cons_of_mem _ hv)))

/-- The bytes of a complete sequence are bytes. -/
theorem WellFormed_bytes {x : List Nat} (h : WellFormed x) : ∀ c ∈ x, c < 256 := by
  obtain ⟨us, rfl, hall⟩ := h
  intro c hc
  obtain ⟨u, hu, hcu⟩ := List.mem_flatten.1 hc
  have hs := hall u hu
  unfold IsSequence IsLead2 IsLead3 IsLead4 IsContinuation at hs
  rcases hs with ⟨a, rfl, h⟩ | ⟨a, a2, rfl, h⟩ | ⟨a, a2, a3, rfl, h⟩ | ⟨a, a2, a3, a4, rfl, h⟩ <;>
  simp only [List.mem_cons, List.mem_singleton, List.not_mem_nil, or_false] at hcu <;>
  omega

/-- What is left of a range is made of bytes of the range. -/
theorem Sifted_subset {x y : List Nat} (h : Sifted x y) : ∀ c ∈ y, c ∈ x := by
  induction h with
  | done => exact fun c hc => hc
  | keep u r o _ _ ih =>
    intro c hc
    rcases List.mem_append.1 hc with h1 | h1
    · exact List.mem_append_left _ h1
    · exact List.mem_append_right _ (ih c h1)
  | drop c r o _ _ ih => exact fun d hd => List.mem_cons_of_mem _ (ih d hd)

end Utf8Spec

section Utf8Sinks

/-- The three variants of the filter on one range: the in-place variant returns
the number of bytes that the copy variant stores and leaves these bytes at the
start of the range, and the append variant appends them. -/
theorem filter_variants (mem : List Nat) (len : Nat) (hlen : len ≤ mem.length)
    (bh : List Nat) :
    ∃ y m, ajson_copy_valid_utf8 mem len = some y ∧
      ajson_strip_invalid_utf8_inplace mem len = some (m, y.length) ∧ m.length = mem.length ∧
      y.length ≤ len ∧ slice m 0 y.length = y ∧
      ajson_buffer_append_valid_utf8 bh mem len = some (bh ++ y) := by
  obtain ⟨y, m, hc, hs, hm, hle, hrd⟩ := strip_loop_eq mem len hlen len mem 0 0 [] rfl
    (fun _ _ => rfl) rfl (Nat.le_refl _) (fun j hj => by omega) (Nat.zero_le _) (by omega)
  refine ⟨y, m, hc, hs, hm, hle, ?_, ?_⟩
  · refine ext_rd _ _ (by rw [length_slice]; omega) (fun j hj => ?_)
    rw [length_slice] at hj
    rw [rd_slice, if_pos (by omega), Nat.zero_add]
    exact hrd j (by omega)
  · have := append_valid_loop_eq mem len len 0 bh []
    rw [List.append_nil] at this
    unfold ajson_buffer_append_valid_utf8
    rw [this, hc]
    rfl

/-- What the copy variant stores is what is left of the range. -/
theorem copy_valid_sifted (mem : List Nat) (len : Nat) (hlen : len ≤ mem.length)
    (hb : ∀ j, j < len → rd mem j < 256) (y : List Nat)
    (h : ajson_copy_valid_utf8 mem len = some y) : Sifted (slice mem 0 len) y := by
  obtain ⟨z, hz, hs⟩ := copy_valid_loop_sifted mem len hlen hb len 0 [] (Nat.zero_le _) (by omega)
  unfold ajson_copy_valid_utf8 at h
  rw [hz, List.nil_append] at h
  cases h
  exact hs

theorem bytes_append (x rest : List Nat) (hb : ∀ c ∈ x, c < 256) :
    ∀ j, j < x.length → rd (x ++ rest) j < 256 := by
  intro j hj
  rw [rd_append_left _ _ _ hj]
  exact hb _ (rd_mem_of_lt _ _ hj)

/-- The filter on a range of bytes, with its three sinks. -/
theorem filter_outcome (x rest bh : List Nat) (hb : ∀ c ∈ x, c < 256) :
    ∃ y m, Sifted x y ∧ ajson_copy_valid_utf8 (x ++ rest) x.length = some y ∧
      ajson_strip_invalid_utf8_inplace (x ++ rest) x.length = some (m, y.length) ∧
      m.length = (x ++ rest).length ∧ slice m 0 y.length = y ∧
      ajson_buffer_append_valid_utf8 bh (x ++ rest) x.length = some (bh ++ y) := by
  obtain ⟨y, m, hc, hs, hm, _, hsl, ha⟩ := filter_variants (x ++ rest) x.length (by simp) bh
  have := copy_valid_sifted (x ++ rest) x.length (by simp) (bytes_append x rest hb) y hc
  rw [slice_append_self] at this
  exact ⟨y, m, this, hc, hs, hm, hsl, ha⟩

theorem slice_append_take (m : List Nat) (k : Nat) : m = slice m 0 k ++ m.drop k := by
  simp [slice]

end Utf8Sinks

/-! ## Bytes after the root container -/

section KeptPass

variable {σ H : Type}

theorem Kept_same {l l1 : Label} {lx lx1 : Lexer} (he : lx1.ep = lx.ep) (hm : lx1.mem = lx.mem)
    (hl : l1 ≠ .determine_next_step) (hs : lx.stack.length ≤ lx1.stack.length) :
    Kept l lx l1 lx1 :=
  ⟨he, Or.inl hm, fun h => absurd h hl, fun _ => hs⟩

theorem Kept_close {l : Label} {lx lx1 : Lexer} (he : lx1.ep = lx.ep) (hm : lx1.mem = lx.mem)
    (hc : Closes l lx) (hp : lx1.p = lx.p + 1) : Kept l lx .determine_next_step lx1 :=
  ⟨he, Or.inl hm, fun _ => ⟨hc, hp⟩, fun h => absurd rfl h⟩

theorem kept_finish_number (vt : H → ajson_sax_cb_t σ H) (l : Label) (lx0 lx : Lexer)
    (cs : Consumer σ H) (next : Label) (hn : next ≠ .determine_next_step)
    (hs : Scanned lx0 lx) : OnGoto (Kept l lx0) (finish_number vt lx cs next) := by
  apply OnGoto_finish_number
  have e : wr (wr lx.mem (lx.p - 1) 0) (lx.p - 1) lx.ch = lx.mem := by
    rw [hs.1.2]
    exact wr_restore _ _
  rw [e]
  exact Kept_same hs.2.2.2.1 hs.2.2.1 hn (by rw [hs.2.2.2.2.2.2.1])

theorem kept_exponent_finish (vt : H → ajson_sax_cb_t σ H) (l : Label) (lx0 lx : Lexer)
    (cs : Consumer σ H) (next : Label) (hn : next ≠ .determine_next_step)
    (hs : Scanned lx0 lx) :
    OnGoto (Kept l lx0) (exponent_part lx cs fun y => finish_number vt y cs next) :=
  OnGoto_exponent_part lx cs _ hs.1
    (fun y hy => kept_finish_number vt l lx0 y cs next hn (Scanned_trans hs hy))

theorem kept_next_digit_body (vt : H → ajson_sax_cb_t σ H) (l : Label) (lx : Lexer)
    (cs : Consumer σ H) (dec next : Label) (hd : dec ≠ .determine_next_step)
    (hn : next ≠ .determine_next_step) :
    OnGoto (Kept l lx) (next_digit_body vt lx cs dec next) := by
  have hs := Scanned_trans (Scanned_next_ch lx) (Scanned_digits (Fresh_next_ch lx))
  unfold next_digit_body
  dsimp only
  refine wp_ite (fun _ => ?_) (fun _ => kept_exponent_finish vt l lx _ cs next hn hs)
  exact Kept_same hs.2.2.2.1 hs.2.2.1 hd (by rw [hs.2.2.2.2.2.2.1])

theorem kept_decimal_number_body (vt : H → ajson_sax_cb_t σ H) (l : Label) (lx : Lexer)
    (cs : Consumer σ H) (next : Label) (hn : next ≠ .determine_next_step) :
    OnGoto (Kept l lx) (decimal_number_body vt lx cs next) := by
  have h1 := Scanned_next_ch lx
  unfold decimal_number_body
  dsimp only
  refine wp_ite (fun _ => trivial) (fun _ => ?_)
  exact kept_exponent_finish vt l lx _ cs next hn (Scanned_trans h1 (Scanned_digits h1.1))

theorem kept_string_body (vt : H → ajson_sax_cb_t σ H) (l : Label) (lx : Lexer)
    (cs : Consumer σ H) (self next : Label) (hs : self ≠ .determine_next_step)
    (hn : next ≠ .determine_next_step) :
    OnGoto (Kept l lx) (string_body vt lx cs self next) := by
  unfold string_body
  dsimp only
  refine wp_ite (fun _ => trivial) (fun hlt => ?_)
  refine wp_ite (fun _ => Kept_same rfl rfl hs (Nat.le_refl _)) (fun _ => ?_)
  apply OnGoto_finish_string
  have hq : rd lx.mem (scan_to lx.mem lx.ep 34 (lx.ep - lx.p) lx.p) = 34 := by
    by_cases hp : lx.p ≤ lx.ep
    · rcases (scan_to_spec lx.mem lx.ep 34 lx.p hp).2.2.2 with e | e
      · omega
      · exact e
    · rw [scan_to_past _ _ _ _ _ (by omega)] at hlt
      omega
  dsimp only
  rw [wr_quote_restore _ _ hq]
  exact Kept_same rfl rfl hn (Nat.le_refl _)

theorem kept_get_end_of_key (vt : H → ajson_sax_cb_t σ H) (lx : Lexer) (cs : Consumer σ H) :
    OnGoto (Kept .get_end_of_key lx) (get_end_of_key vt lx cs) := by
  unfold get_end_of_key
  dsimp only
  refine wp_ite (fun _ => Kept_same rfl rfl (by decide) (Nat.le_refl _)) (fun _ => ?_)
  apply OnGoto_finish_key
  by_cases hlt : scan_to lx.mem lx.ep 34 (lx.ep - lx.p) lx.p < lx.ep
  · simp only [if_pos hlt]
    have hq : rd lx.mem (scan_to lx.mem lx.ep 34 (lx.ep - lx.p) lx.p) = 34 := by
      by_cases hp : lx.p ≤ lx.ep
      · rcases (scan_to_spec lx.mem lx.ep 34 lx.p hp).2.2.2 with e | e
        · omega
        · exact e
      · rw [scan_to_past _ _ _ _ _ (by omega)] at hlt
        omega
    rw [wr_quote_restore _ _ hq]
    exact Kept_same rfl rfl (by decide) (Nat.le_refl _)
  · simp only [if_neg hlt]
    refine ⟨rfl, Or.inr ⟨rfl, ?_⟩, fun h => Label.noConfusion h, fun _ => Nat.le_refl _⟩
    have := scan_to_ge (wr lx.mem (scan_to lx.mem lx.ep 34 (lx.ep - lx.p) lx.p) 34) lx.ep 58
      (lx.ep - (scan_to lx.mem lx.ep 34 (lx.ep - lx.p) lx.p + 1))
      (scan_to lx.mem lx.ep 34 (lx.ep - lx.p) lx.p + 1)
    dsimp only
    omega

theorem kept_literal (vt : H → ajson_sax_cb_t σ H) (l : Label) (lx0 lx : Lexer)
    (cs : Consumer σ H) (word : List Nat) (ev : Event) (next : Label)
    (hn : next ≠ .determine_next_step) (he : lx.ep = lx0.ep) (hm : lx.mem = lx0.mem)
    (hs : lx0.stack.length ≤ lx.stack.length) :
    OnGoto (Kept l lx0) (literal vt lx cs word ev next) :=
  OnGoto_literal vt lx cs word ev next (fun _ => Kept_same he hm hn hs)

theorem kept_zero_case (vt : H → ajson_sax_cb_t σ H) (l : Label) (lx0 lx : Lexer)
    (cs : Consumer σ H) (dec digit next : Label) (hd : dec ≠ .determine_next_step)
    (hg : digit ≠ .determine_next_step) (hn : next ≠ .determine_next_step)
    (he : lx.ep = lx0.ep) (hm : lx.mem = lx0.mem) (hs : lx0.stack.length ≤ lx.stack.length) :
    OnGoto (Kept l lx0) (zero_case vt lx cs dec digit next) :=
  OnGoto_zero_case vt lx cs dec digit next (fun _ => Kept_same he hm hd hs)
    (fun _ => Kept_same he hm hg hs) (Kept_same he hm hn hs)

theorem kept_start_value_minus (vt : H → ajson_sax_cb_t σ H) (l : Label) (lx0 lx : Lexer)
    (cs : Consumer σ H) (he : lx.ep = lx0.ep) (hm : lx.mem = lx0.mem)
    (hs : lx0.stack.length ≤ lx.stack.length) :
    OnGoto (Kept l lx0) (start_value_minus vt lx cs) := by
  unfold start_value_minus
  refine wp_ite (fun _ => ?_)
    (fun _ => wp_ite (fun _ => Kept_same he hm (by decide) hs) (fun _ => trivial))
  dsimp only
  refine wp_ite (fun _ => Kept_same he hm (by decide) hs) (fun _ => ?_)
  refine wp_ite (fun _ => Kept_same he hm (by decide) hs) (fun _ => ?_)
  refine wp_ite (fun _ => trivial) (fun _ => ?_)
  exact OnGoto_CHECK_CB vt _ cs _ _ (fun _ => Kept_same he hm (by decide) hs)

theorem kept_start_key_object_minus (vt : H → ajson_sax_cb_t σ H) (l : Label) (lx0 lx : Lexer)
    (cs : Consumer σ H) (he : lx.ep = lx0.ep) (hm : lx.mem = lx0.mem)
    (hs : lx0.stack.length ≤ lx.stack.length) :
    OnGoto (Kept l lx0) (start_key_object_minus vt lx cs) := by
  unfold start_key_object_minus
  refine wp_ite (fun _ => ?_)
    (fun _ => wp_ite (fun _ => Kept_same he hm (by decide) hs) (fun _ => trivial))
  dsimp only
  refine wp_ite (fun _ => Kept_same he hm (by decide) hs) (fun _ => ?_)
  refine wp_ite (fun _ => Kept_same he hm (by decide) hs) (fun _ => ?_)
  refine wp_ite (fun _ => trivial) (fun _ => ?_)
  exact OnGoto_CHECK_CB vt _ cs _ _ (fun _ => Kept_same he hm (by decide) hs)

theorem kept_start_value (vt : H → ajson_sax_cb_t σ H) (lx : Lexer) (cs : Consumer σ H) :
    OnGoto (Kept .start_value lx) (start_value vt lx cs) := by
  unfold start_value
  refine wp_ite (fun _ => trivial) (fun hp => ?_)
  have hc : Closes .start_value lx := Or.inl ⟨Or.inr rfl, by omega⟩
  dsimp only
  refine wp_ite (fun _ => Kept_same rfl rfl (by decide) (Nat.le_refl _)) (fun _ => ?_)
  refine wp_ite (fun _ => Kept_same rfl rfl (by decide) (Nat.le_refl _)) (fun _ => ?_)
  refine wp_ite (fun _ => OnGoto_open_container vt _ cs _ _ _
    (Kept_same rfl rfl (by decide) (by simp [next_ch]))) (fun _ => ?_)
  refine wp_ite (fun _ => OnGoto_open_container vt _ cs _ _ _
    (Kept_same rfl rfl (by decide) (by simp [next_ch]))) (fun _ => ?_)
  refine wp_ite (fun _ => OnGoto_close_here vt _ cs _ (Kept_close rfl rfl hc rfl)) (fun _ => ?_)
  refine wp_ite (fun _ => kept_start_value_minus vt _ lx _ cs rfl rfl (Nat.le_refl _))
    (fun _ => ?_)
  refine wp_ite (fun _ => kept_zero_case vt _ lx _ cs _ _ _ (by decide) (by decide) (by decide)
    rfl rfl (Nat.le_refl _)) (fun _ => ?_)
  refine wp_ite (fun _ => Kept_same rfl rfl (by decide) (Nat.le_refl _)) (fun _ => ?_)
  refine wp_ite (fun _ => kept_literal vt _ lx _ cs _ _ _ (by decide) rfl rfl (Nat.le_refl _))
    (fun _ => ?_)
  refine wp_ite (fun _ => kept_literal vt _ lx _ cs _ _ _ (by decide) rfl rfl (Nat.le_refl _))
    (fun _ => ?_)
  exact wp_ite (fun _ => kept_literal vt _ lx _ cs _ _ _ (by decide) rfl rfl (Nat.le_refl _))
    (fun _ => trivial)

theorem kept_start_key_object (vt : H → ajson_sax_cb_t σ H) (lx : Lexer) (cs : Consumer σ H) :
    OnGoto (Kept .start_key_object lx) (start_key_object vt lx cs) := by
  unfold start_key_object
  refine wp_ite (fun _ => trivial) (fun hp => ?_)
  dsimp only
  refine wp_ite (fun _ => Kept_same rfl rfl (by decide) (Nat.le_refl _)) (fun _ => ?_)
  refine wp_ite (fun _ => Kept_same rfl rfl (by decide) (Nat.le_refl _)) (fun _ => ?_)
  refine wp_ite (fun _ => OnGoto_open_container vt _ cs _ _ _
    (Kept_same rfl rfl (by decide) (by simp [next_ch]))) (fun _ => ?_)
  refine wp_ite (fun _ => OnGoto_open_container vt _ cs _ _ _
    (Kept_same rfl rfl (by decide) (by simp [next_ch]))) (fun _ => ?_)
  refine wp_ite (fun _ => kept_start_key_object_minus vt _ lx _ cs rfl rfl (Nat.le_refl _))
    (fun _ => ?_)
  refine wp_ite (fun _ => kept_zero_case vt _ lx _ cs _ _ _ (by decide) (by decide) (by decide)
    rfl rfl (Nat.le_refl _)) (fun _ => ?_)
  refine wp_ite (fun _ => Kept_same rfl rfl (by decide) (Nat.le_refl _)) (fun _ => ?_)
  refine wp_ite (fun _ => kept_literal vt _ lx _ cs _ _ _ (by decide) rfl rfl (Nat.le_refl _))
    (fun _ => ?_)
  refine wp_ite (fun _ => kept_literal vt _ lx _ cs _ _ _ (by decide) rfl rfl (Nat.le_refl _))
    (fun _ => ?_)
  exact wp_ite (fun _ => kept_literal vt _ lx _ cs _ _ _ (by decide) rfl rfl (Nat.le_refl _))
    (fun _ => trivial)

theorem kept_start_key (vt : H → ajson_sax_cb_t σ H) (lx : Lexer) (cs : Consumer σ H) :
    OnGoto (Kept .start_key lx) (start_key vt lx cs) := by
  unfold start_key
  refine wp_ite (fun _ => trivial) (fun hp => ?_)
  have hc : Closes .start_key lx := Or.inl ⟨Or.inl rfl, by omega⟩
  dsimp only
  refine wp_ite (fun _ => Kept_same rfl rfl (by decide) (Nat.le_refl _)) (fun _ => ?_)
  refine wp_ite (fun _ => Kept_same rfl rfl (by decide) (Nat.le_refl _)) (fun _ => ?_)
  exact wp_ite (fun _ => OnGoto_close_here vt _ cs _ (Kept_close rfl rfl hc rfl)) (fun _ => trivial)

theorem kept_look_for_key (vt : H → ajson_sax_cb_t σ H) (lx : Lexer) (cs : Consumer σ H) :
    OnGoto (Kept .look_for_key lx) (look_for_key vt lx cs) := by
  unfold look_for_key
  refine wp_ite (fun _ => ?_) (fun _ => ?_)
  · exact wp_ite (fun _ => trivial) (fun _ => Kept_same rfl rfl (by decide) (Nat.le_refl _))
  refine wp_ite (fun h => OnGoto_close_ahead vt _ cs _
    (Kept_close rfl rfl (Or.inr (Or.inl ⟨rfl, h⟩)) rfl)) (fun _ => ?_)
  exact wp_ite (fun _ => Kept_same rfl rfl (by decide) (Nat.le_refl _)) (fun _ => trivial)

theorem kept_look_for_next_object (vt : H → ajson_sax_cb_t σ H) (lx : Lexer)
    (cs : Consumer σ H) :
    OnGoto (Kept .look_for_next_object lx) (look_for_next_object vt lx cs) := by
  unfold look_for_next_object
  refine wp_ite (fun _ => ?_) (fun _ => ?_)
  · exact wp_ite (fun _ => trivial) (fun _ => Kept_same rfl rfl (by decide) (Nat.le_refl _))
  refine wp_ite (fun h => OnGoto_close_ahead vt _ cs _
    (Kept_close rfl rfl (Or.inr (Or.inr ⟨rfl, h⟩)) rfl)) (fun _ => ?_)
  refine wp_ite (fun _ => ?_) (fun _ => ?_)
  · dsimp only
    exact wp_ite (fun _ => wp_ite (fun _ => trivial) (fun _ => trivial))
      (fun _ => Kept_same rfl rfl (by decide) (Nat.le_refl _))
  · exact wp_ite (fun _ => wp_ite (fun _ => trivial) (fun _ => trivial)) (fun _ => trivial)

theorem kept_determine_next_step (lx : Lexer) (cs : Consumer σ H) :
    OnGoto (Kept .determine_next_step lx) (determine_next_step lx cs : Step σ H) := by
  unfold determine_next_step
  refine wp_ite (fun _ => trivial) (fun _ => ?_)
  refine wp_ite (fun _ => trivial) (fun _ => ?_)
  dsimp only
  exact wp_ite (fun _ => Kept_same rfl rfl (by decide) (Nat.le_refl _))
    (fun _ => Kept_same rfl rfl (by decide) (Nat.le_refl _))

/-- Every jump keeps the end of the buffer and the memory (but for the quote
stored at `buf_end` by the scan of a key without a closing quote), and only a
closer makes the syntax stack shrink. -/
theorem step_Kept (vt : H → ajson_sax_cb_t σ H) (l : Label) (lx : Lexer) (cs : Consumer σ H) :
    OnGoto (Kept l lx) (step vt l lx cs) := by
  cases l
  case start_key => exact kept_start_key vt lx cs
  case get_end_of_key => exact kept_get_end_of_key vt lx cs
  case start_key_object => exact kept_start_key_object vt lx cs
  case keyed_start_string => exact kept_string_body vt _ lx cs _ _ (by decide) (by decide)
  case look_for_key => exact kept_look_for_key vt lx cs
  case keyed_next_digit => exact kept_next_digit_body vt _ lx cs _ _ (by decide) (by decide)
  case keyed_decimal_number => exact kept_decimal_number_body vt _ lx cs _ (by decide)
  case start_value => exact kept_start_value vt lx cs
  case start_string => exact kept_string_body vt _ lx cs _ _ (by decide) (by decide)
  case add_string => exact Kept_same rfl rfl (by decide) (Nat.le_refl _)
  case look_for_next_object => exact kept_look_for_next_object vt lx cs
  case next_digit => exact kept_next_digit_body vt _ lx cs _ _ (by decide) (by decide)
  case decimal_number => exact kept_decimal_number_body vt _ lx cs _ (by decide)
  case determine_next_step => exact kept_determine_next_step lx cs

end KeptPass

section PastTheEnd

variable {σ H : Type}

/-- Past the end of the buffer, with a container open and NUL bytes from the end
of the buffer on, no closer is read: a jump leads to a state of the same kind. -/
theorem step_PastEnd (vt : H → ajson_sax_cb_t σ H) {a : Nat} {M : List Nat}
    (hz : ∀ i, a ≤ i → rd M i = 0) {l l1 : Label} {lx lx1 : Lexer} {cs cs1 : Consumer σ H}
    (hd : PastEnd a M l lx) (hs : step vt l lx cs = .goto l1 lx1 cs1) :
    PastEnd a M l1 lx1 := by
  obtain ⟨hep, hp, hsane, hst, hm⟩ := hd
  have hk := step_Kept vt l lx cs
  have hf := step_falls vt l lx cs hsane
  have ha := step_advances vt l lx cs
  rw [hs] at hk hf ha
  obtain ⟨ke, km, kc, ks⟩ := hk
  have hp1 : lx.p ≤ lx1.p := by
    rcases ha with h | h
    · exact Nat.le_of_lt h
    · exact Nat.le_of_eq h.1.symm
  have hmem : lx.mem = M := by
    rcases hm with h | rfl
    · exact h
    · exfalso
      have hle : lx.ep ≤ lx.p := hep ▸ hp
      simp [step, start_key_object, SAX_ERROR, if_pos hle] at hs
  refine ⟨ke.trans hep, Nat.le_trans hp hp1, hf.1, ?_, ?_⟩
  · by_cases hl : l1 = .determine_next_step
    · exfalso
      rcases (kc hl).1 with ⟨_, h⟩ | ⟨rfl, h⟩ | ⟨rfl, h⟩
      · omega
      · have h0 : lx.ch = rd lx.mem lx.p ∨ lx.ch = 48 := by
          by_cases he : lx.ch = rd lx.mem lx.p
          · exact Or.inl he
          · exact Or.inr (hsane he)
        rw [hmem, hz _ hp] at h0
        omega
      · have h0 : lx.ch = rd lx.mem lx.p ∨ lx.ch = 48 := by
          by_cases he : lx.ch = rd lx.mem lx.p
          · exact Or.inl he
          · exact Or.inr (hsane he)
        rw [hmem, hz _ hp] at h0
        omega
    · have := ks hl
      intro hnil
      rw [hnil] at this
      exact hst (List.length_eq_zero.1 (Nat.le_zero.1 this))
  · rcases km with h | ⟨h, _⟩
    · exact Or.inl (h.trans hmem)
    · exact Or.inr h

/-- A run from a state past the end of the buffer does not return 0 with every
container closed. -/
theorem run_PastEnd (vt : H → ajson_sax_cb_t σ H) {a : Nat} {M : List Nat}
    (hz : ∀ i, a ≤ i → rd M i = 0) (n : Nat) {l : Label} {lx : Lexer} {cs : Consumer σ H}
    {r : Result σ H} (hd : PastEnd a M l lx) (h : run vt n l lx cs = some r) (hrc : r.rc = 0) :
    r.lx.stack ≠ [] := by
  induction n generalizing l lx cs with
  | zero => simp [run] at h
  | succ n ih =>
    unfold run at h
    have hc := step_LStep vt l lx cs
    cases hs : step vt l lx cs with
    | ret rc lx1 cs1 =>
      rw [hs] at h hc
      obtain rfl := Option.some.inj h
      cases hc with
      | accept _ hk =>
        show lx1.stack ≠ []
        rw [hk.1]
        exact hd.2.2.2.1
      | error lx2 _ => simp at hrc
      | abort ev c s _ lx2 hi hne => exact absurd hrc hne
      | full ev _ _ _ _ hk hf => simp at hrc
    | goto l1 lx1 cs1 =>
      rw [hs] at h
      exact ih (step_PastEnd vt hz hd hs) h

end PastTheEnd

/-! ### A buffer that goes on after the document: the same transitions -/

section Ext1

variable {σ H : Type} {a : Nat}

theorem not_Within {l : Label} {lx : Lexer} (h : a ≤ lx.p) (hl : l ≠ .determine_next_step) :
    ¬ Within a l lx := by
  unfold Within
  intro hw
  rcases hw with hw | hw
  · omega
  · exact hl hw

theorem OnGoto_both {P P1 : Label → Lexer → Prop} {s : Step σ H} (h : OnGoto P s)
    (h1 : OnGoto P1 s) : OnGoto (fun l lx => P l lx ∧ P1 l lx) s := by
  cases s with
  | ret _ _ _ => trivial
  | goto l lx cs => exact ⟨h, h1⟩

theorem Agree_wr {mem mem1 : List Nat} (h : Agree a mem mem1) (q v : Nat) :
    Agree a (wr mem q v) (wr mem1 q v) := by
  have hf := h.fits
  have hl := h.len
  refine ⟨by rw [wr_length, wr_length]; exact h.len, by rw [wr_length]; exact h.fits, ?_⟩
  intro i hi
  rw [rd_wr, rd_wr, h.low i hi]
  by_cases hc : i = q
  · rw [if_pos ⟨hc, by omega⟩, if_pos ⟨hc, by omega⟩]
  · rw [if_neg (fun h1 => hc h1.1), if_neg (fun h1 => hc h1.1)]

theorem slice_agree {mem mem1 : List Nat} (h : Agree a mem mem1) (s len : Nat)
    (hs : len = 0 ∨ s + len ≤ a) : slice mem1 s len = slice mem s len := by
  have hf := h.fits
  have hl := h.len
  apply ext_rd
  · rw [length_slice, length_slice]
    omega
  · intro i hi
    rw [rd_slice, rd_slice]
    split
    · exact h.low _ (by omega)
    · rfl

theorem scan_to_agree {mem mem1 : List Nat} (h : Agree a mem mem1) (ep1 c p : Nat)
    (hq : scan_to mem a c (a - p) p < a) (hae : a ≤ ep1) :
    scan_to mem1 ep1 c (ep1 - p) p = scan_to mem a c (a - p) p := by
  have hpq := scan_to_ge mem a c (a - p) p
  obtain ⟨h1, h2, h3, h4⟩ := scan_to_spec mem a c p (by omega)
  apply scan_to_eq
  · omega
  · omega
  · omega
  · intro i hi1 hi2
    rw [h.low i (by omega)]
    exact h3 i hi1 hi2
  · rcases h4 with h4 | h4
    · omega
    · right
      rw [h.low _ hq]
      exact h4

theorem escaped_quote_agree {mem mem1 : List Nat} (h : Agree a mem mem1) (q : Nat)
    (hq : q < a) : escaped_quote mem1 q ↔ escaped_quote mem q := by
  unfold escaped_quote
  rw [h.low (q - 1) (by omega),
    backtrack_loop_low mem mem1 q (q - 1) (fun i hi => h.low i (by omega))]

theorem ExtLow_ch {lx lx1 : Lexer} (h : ExtLow a lx lx1) : lx1.ch = lx.ch := by
  have h1 := h.fresh.1
  have h2 := h.le
  rw [h.fresh.2, h.fresh1.2, h.p]
  exact h.agree.low _ (by omega)

theorem ExtLow_next_ch {lx lx1 : Lexer} (h : ExtLow a lx lx1) (hp : lx.p < a) :
    ExtLow a (next_ch lx) (next_ch lx1) :=
  ⟨h.agree, h.ep, h.ep1, by show lx1.p + 1 = lx.p + 1; rw [h.p], by show lx.p + 1 ≤ a; omega,
    Fresh_next_ch _, Fresh_next_ch _, h.stringp, h.after_comma, h.stack⟩

theorem digit_loop_agree {mem mem1 : List Nat} (hi : Agree a mem mem1)
    (f f1 c q : Nat) (hq : 1 ≤ q) (hf : f ≤ f1) (hs : ¬ isDigit (digit_loop mem f c q).1)
    (hle : (digit_loop mem f c q).2 ≤ a) :
    (digit_loop mem1 f1 c q).2 = (digit_loop mem f c q).2 := by
  induction f generalizing f1 c q with
  | zero =>
    simp only [digit_loop] at hs hle
    rw [digit_loop_nondigit mem1 f1 c q hs]
    rfl
  | succ f ih =>
    by_cases hd : isDigit c
    · have e : digit_loop mem (f + 1) c q = digit_loop mem f (rd mem q) (q + 1) := by
        rw [digit_loop, if_pos hd]
      rw [e] at hs hle ⊢
      have hge := digit_loop_ge mem f (rd mem q) (q + 1)
      obtain ⟨g, rfl⟩ : ∃ g, f1 = g + 1 := ⟨f1 - 1, by omega⟩
      have e1 : digit_loop mem1 (g + 1) c q = digit_loop mem1 g (rd mem1 q) (q + 1) := by
        rw [digit_loop, if_pos hd]
      rw [e1, hi.low q (by omega)]
      exact ih g (rd mem q) (q + 1) (by omega) (by omega) hs hle
    · rw [digit_loop_nondigit mem _ c q hd, digit_loop_nondigit mem1 f1 c q hd]

theorem ExtLow_digits {lx lx1 : Lexer} (h : ExtLow a lx lx1) (hd : (digits lx).p ≤ a) :
    ExtLow a (digits lx) (digits lx1) := by
  have hs := digits_stops lx h.fresh
  have hl := h.agree.len
  have hp : (digits lx1).p = (digits lx).p := by
    unfold digits at hs hd ⊢
    dsimp only at hs hd ⊢
    rw [h.p, ExtLow_ch h]
    exact digit_loop_agree h.agree _ _ _ _ h.fresh.1 (by omega) hs hd
  exact ⟨h.agree, h.ep, h.ep1, hp, hd, (digits_spec _ h.fresh).1, (digits_spec _ h.fresh1).1,
    h.stringp, h.after_comma, h.stack⟩

theorem ext_finish_number (vt : H → ajson_sax_cb_t σ H) (lx lx1 : Lexer) (cs : Consumer σ H)
    (next : Label) (h : ExtLow a lx lx1) :
    Sim False (Within a) (Ext a) (finish_number vt lx1 cs next)
      (finish_number vt lx cs next) := by
  have h1 := h.le
  have h2 := h.fresh.1
  have hch := ExtLow_ch h
  have e : wr (wr lx.mem (lx.p - 1) 0) (lx.p - 1) lx.ch = lx.mem := by
    rw [h.fresh.2]
    exact wr_restore _ _
  have e1 : wr (wr lx1.mem (lx.p - 1) 0) (lx.p - 1) lx1.ch = lx1.mem := by
    rw [h.fresh1.2, h.p]
    exact wr_restore _ _
  unfold finish_number
  dsimp only
  rw [h.p, h.stringp, e, e1]
  refine Sim_CHECK_CB vt _ _ cs _ _ _ _ ?_ (fun c => Sim_goto _ _ _ _ (fun _ => ?_))
  · rw [slice_wr_above _ _ _ _ _ (by omega), slice_wr_above _ _ _ _ _ (by omega),
      slice_agree h.agree _ _ (by omega)]
  · refine ⟨h.agree, h.ep, h.ep1, rfl, h.after_comma, h.stack, rfl, ?_⟩
    cases next <;> trivial

theorem gone_finish_number (vt : H → ajson_sax_cb_t σ H) (lx : Lexer) (cs : Consumer σ H)
    (next : Label) (hn : next ≠ .determine_next_step) (hf : Fresh lx) (hp : a < lx.p) :
    OnGoto (fun l z => ¬ Within a l z) (finish_number vt lx cs next) :=
  adv_finish_number vt lx cs next hf (not_Within (by dsimp only; omega) hn)

/-- The digit test, the digit loop and the rest `k` of a scan, on the two
buffers. -/
theorem ext_digits_tail {G : Label → Lexer → Prop} {Q : Label → Lexer → Lexer → Prop}
    (lx lx1 : Lexer) (cs : Consumer σ H) (k k1 : Lexer → Step σ H)
    (h : ExtLow a lx lx1)
    (hk : ∀ y y1, ExtLow a y y1 → Sim False G Q (k1 y1) (k y))
    (hv : ∀ y, Fresh y → a < y.p → OnGoto (fun l z => ¬ G l z) (k y)) :
    Sim False G Q (if lx1.ch < 48 ∨ lx1.ch > 57 then SAX_ERROR lx1 cs else k1 (digits lx1))
      (if lx.ch < 48 ∨ lx.ch > 57 then SAX_ERROR lx cs else k (digits lx)) := by
  have hfd := (digits_spec _ h.fresh).1
  refine Sim_ite (by rw [ExtLow_ch h]) (fun _ => Sim_error _ _ _) (fun _ => ?_)
  by_cases h3 : (digits lx).p ≤ a
  · exact hk _ _ (ExtLow_digits h h3)
  · exact Sim_vac (hv _ hfd (by omega))

theorem ext_exponent_part {G : Label → Lexer → Prop} {Q : Label → Lexer → Lexer → Prop}
    (lx lx1 : Lexer) (cs : Consumer σ H) (k k1 : Lexer → Step σ H)
    (h : ExtLow a lx lx1)
    (hk : ∀ y y1, ExtLow a y y1 → Sim False G Q (k1 y1) (k y))
    (hv : ∀ y, Fresh y → a < y.p → OnGoto (fun l z => ¬ G l z) (k y)) :
    Sim False G Q (exponent_part lx1 cs k1) (exponent_part lx cs k) := by
  have hle := h.le
  have hch := ExtLow_ch h
  by_cases he : lx.ch = 101 ∨ lx.ch = 69
  · by_cases h1 : lx.p + 1 < a
    · have hl1 := ExtLow_next_ch h (by omega)
      have hch1 : (next_ch lx1).ch = (next_ch lx).ch := ExtLow_ch hl1
      unfold exponent_part
      rw [if_pos he, if_pos (by rw [hch]; exact he)]
      dsimp only
      rw [hch1]
      by_cases hs : (next_ch lx).ch = 43 ∨ (next_ch lx).ch = 45
      · rw [if_pos hs, if_pos hs]
        exact ext_digits_tail _ _ cs k k1 (ExtLow_next_ch hl1 (by show lx.p + 1 < a; omega)) hk hv
      · rw [if_neg hs, if_neg hs]
        exact ext_digits_tail _ _ cs k k1 hl1 hk hv
    · exact Sim_vac (adv_exponent_part lx cs k (fun hne => absurd he hne)
        (fun y hy hyp => hv y hy.1 (by omega)))
  · unfold exponent_part
    rw [if_neg he, if_neg (by rw [hch]; exact he)]
    exact hk _ _ h

theorem gone_exponent_finish (vt : H → ajson_sax_cb_t σ H) (lx : Lexer) (cs : Consumer σ H)
    (next : Label) (hn : next ≠ .determine_next_step) (hf : Fresh lx) (hp : a < lx.p) :
    OnGoto (fun l z => ¬ Within a l z)
      (exponent_part lx cs fun y => finish_number vt y cs next) :=
  adv_exponent_part lx cs _ (fun _ => gone_finish_number vt lx cs next hn hf hp)
    (fun y hy hyp => gone_finish_number vt y cs next hn hy.1 (by omega))

theorem ext_exponent_finish (vt : H → ajson_sax_cb_t σ H) (lx lx1 : Lexer)
    (cs : Consumer σ H) (next : Label) (hn : next ≠ .determine_next_step)
    (h : ExtLow a lx lx1) :
    Sim False (Within a) (Ext a)
      (exponent_part lx1 cs fun y => finish_number vt y cs next)
      (exponent_part lx cs fun y => finish_number vt y cs next) :=
  ext_exponent_part lx lx1 cs _ _ h (fun y y1 hy => ext_finish_number vt y y1 cs next hy)
    (fun y hy hyp => gone_finish_number vt y cs next hn hy hyp)

theorem ExtLow_of_Ext {l : Label} {lx lx1 : Lexer} (h : Ext a l lx lx1) (hp : lx.p < a) :
    ExtLow a (next_ch lx) (next_ch lx1) := by
  obtain ⟨hi, he, he1, hpp, hac, hst, hsp, -⟩ := h
  exact ⟨hi, he, he1, by show lx1.p + 1 = lx.p + 1; rw [hpp], by show lx.p + 1 ≤ a; omega,
    Fresh_next_ch _, Fresh_next_ch _, hsp, hac, hst⟩

theorem Ext_of_ExtLow {lx lx1 : Lexer} (h : ExtLow a lx lx1) (l : Label) :
    Ext a l lx lx1 :=
  ⟨h.agree, h.ep, h.ep1, h.p, h.after_comma, h.stack, h.stringp, by
    cases l <;> first | trivial | exact ExtLow_ch h⟩

theorem ext_next_digit_body (vt : H → ajson_sax_cb_t σ H) (lx lx1 : Lexer)
    (cs : Consumer σ H) (l dec next : Label) (h : Ext a l lx lx1) (hp : lx.p < a)
    (hd : dec ≠ .determine_next_step) (hn : next ≠ .determine_next_step) :
    Sim False (Within a) (Ext a) (next_digit_body vt lx1 cs dec next)
      (next_digit_body vt lx cs dec next) := by
  have hl0 := ExtLow_of_Ext h hp
  have hfd := (digits_spec _ hl0.fresh).1
  unfold next_digit_body
  dsimp only
  by_cases h3 : (digits (next_ch lx)).p ≤ a
  · have hl := ExtLow_digits hl0 h3
    refine Sim_ite (by rw [ExtLow_ch hl]) (fun _ => Sim_goto _ _ _ _ (fun _ => ?_)) (fun _ => ?_)
    · exact Ext_of_ExtLow hl _
    · exact ext_exponent_finish vt _ _ cs next hn hl
  · refine wp_ite (fun _ => fun hok => absurd hok (not_Within (by omega) hd)) (fun _ => ?_)
    exact Sim_vac (gone_exponent_finish vt _ cs next hn hfd (by omega))

theorem ext_decimal_number_body (vt : H → ajson_sax_cb_t σ H) (lx lx1 : Lexer)
    (cs : Consumer σ H) (l next : Label) (h : Ext a l lx lx1) (hp : lx.p < a)
    (hn : next ≠ .determine_next_step) :
    Sim False (Within a) (Ext a) (decimal_number_body vt lx1 cs next)
      (decimal_number_body vt lx cs next) := by
  have hl0 := ExtLow_of_Ext h hp
  unfold decimal_number_body
  dsimp only
  exact ext_digits_tail _ _ cs
    (fun y => exponent_part y cs fun z => finish_number vt z cs next)
    (fun y => exponent_part y cs fun z => finish_number vt z cs next) hl0
    (fun y y1 hy => ext_exponent_finish vt y y1 cs next hn hy)
    (fun y hy hyp => gone_exponent_finish vt y cs next hn hy hyp)

end Ext1

section Ext2

variable {σ H : Type} {a : Nat}

theorem Ext_base {l : Label} {lx lx1 : Lexer} (h : Ext a l lx lx1) :
    Ext a .start_value lx lx1 :=
  ⟨h.1, h.2.1, h.2.2.1, h.2.2.2.1, h.2.2.2.2.1, h.2.2.2.2.2.1, h.2.2.2.2.2.2.1, trivial⟩

theorem ext_finish_string (vt : H → ajson_sax_cb_t σ H) (lx lx1 : Lexer) (cs : Consumer σ H)
    (next : Label) (h : Ext a .start_value lx lx1) (hq : lx.p < a) :
    Sim False (Within a) (Ext a) (finish_string vt lx1 cs next)
      (finish_string vt lx cs next) := by
  obtain ⟨hi, he, he1, hp, hac, hst, hsp, -⟩ := h
  have hi0 := Agree_wr hi lx.p 0
  have hi1 := Agree_wr hi0 lx.p 34
  unfold finish_string
  dsimp only
  rw [hp, hsp]
  refine Sim_CHECK_CB vt _ _ cs _ _ _ _ ?_ (fun c => Sim_goto _ _ _ _ (fun hw => ?_))
  · rw [slice_agree hi0 _ _ (by omega)]
  · refine ⟨hi1, he, he1, rfl, hac, hst, rfl, ?_⟩
    have hlt : lx.p + 1 < a ∨ next = .determine_next_step := hw
    cases next <;> first
      | trivial
      | exact hi1.low _ (by rcases hlt with h | h; exact h; exact Label.noConfusion h)

theorem ext_string_body (vt : H → ajson_sax_cb_t σ H) (lx lx1 : Lexer) (cs : Consumer σ H)
    (self next : Label) (h : Ext a self lx lx1)
    (hl : self = .start_string ∨ self = .keyed_start_string)
    (hx : next ≠ .determine_next_step) :
    Sim False (Within a) (Ext a) (string_body vt lx1 cs self next)
      (string_body vt lx cs self next) := by
  by_cases hq : scan_to lx.mem lx.ep 34 (lx.ep - lx.p) lx.p < a
  · obtain ⟨hi, he, he1, hp, hac, hst, hsp, -⟩ := h
    have hs : scan_to lx1.mem lx1.ep 34 (lx1.ep - lx1.p) lx1.p =
        scan_to lx.mem lx.ep 34 (lx.ep - lx.p) lx.p := by
      rw [he, hp]
      rw [he] at hq
      exact scan_to_agree hi _ _ _ hq he1
    unfold string_body
    dsimp only
    rw [hs]
    refine Sim_ite (by omega) (fun _ => Sim_error _ _ _) (fun _ => ?_)
    refine Sim_ite (escaped_quote_agree hi _ hq) (fun _ => Sim_goto _ _ _ _ (fun _ => ?_))
      (fun _ => ?_)
    · refine ⟨hi, he, he1, rfl, hac, hst, hsp, ?_⟩
      rcases hl with rfl | rfl <;> trivial
    · exact ext_finish_string vt _ _ cs next ⟨hi, he, he1, rfl, hac, hst, hsp, trivial⟩ hq
  · refine Sim_vac (OnGoto_mono (fun l z hz => not_Within ?_ ?_)
      (OnGoto_both (adv_string_body vt lx cs self next)
        (kept_string_body vt self lx cs self next (by rcases hl with rfl | rfl <;> decide) hx)))
    · have := hz.1
      omega
    · intro hd
      have hc : Closes self lx := (hz.2.2.2.1 hd).1
      unfold Closes at hc
      rcases hl with rfl | rfl <;> simp at hc

theorem ext_get_end_of_key (vt : H → ajson_sax_cb_t σ H) (lx lx1 : Lexer) (cs : Consumer σ H)
    (h : Ext a .get_end_of_key lx lx1) :
    Sim False (Within a) (Ext a) (get_end_of_key vt lx1 cs) (get_end_of_key vt lx cs) := by
  by_cases hq : scan_to lx.mem lx.ep 34 (lx.ep - lx.p) lx.p < a
  · obtain ⟨hi, he, he1, hp, hac, hst, hsp, -⟩ := h
    have hs : scan_to lx1.mem lx1.ep 34 (lx1.ep - lx1.p) lx1.p =
        scan_to lx.mem lx.ep 34 (lx.ep - lx.p) lx.p := by
      rw [he, hp]
      rw [he] at hq
      exact scan_to_agree hi _ _ _ hq he1
    unfold get_end_of_key
    dsimp only
    rw [hs]
    generalize scan_to lx.mem lx.ep 34 (lx.ep - lx.p) lx.p = q at hq
    refine Sim_ite ?_ (fun _ => Sim_goto _ _ _ _ (fun _ => ?_)) (fun _ => ?_)
    · rw [escaped_quote_agree hi _ hq]
      constructor
      · exact fun h => ⟨by omega, h.2⟩
      · exact fun h => ⟨by omega, h.2⟩
    · exact ⟨hi, he, he1, rfl, hac, hst, hsp, trivial⟩
    · rw [if_pos (by omega), if_pos (by omega)]
      have hi0 := Agree_wr hi q 0
      have hi1 := Agree_wr hi0 q 34
      unfold finish_key
      dsimp only
      rw [hsp]
      refine Sim_CHECK_CB vt _ _ cs _ _ _ _ ?_ (fun c => ?_)
      · rw [slice_agree hi0 _ _ (by omega)]
      · by_cases hc : scan_to (wr (wr lx.mem q 0) q 34) lx.ep 58 (lx.ep - (q + 1)) (q + 1) < a
        · rw [he] at hc
          have hs2 := scan_to_agree hi1 lx1.ep 58 (q + 1) hc he1
          rw [he, hs2]
          exact Sim_goto _ _ _ _ (fun _ => ⟨hi1, rfl, he1, rfl, hac, hst, rfl, trivial⟩)
        · exact Sim_goto _ _ _ _ (fun hok => absurd hok
            (not_Within (by dsimp only; omega) (by decide)))
  · refine Sim_vac (OnGoto_mono (fun l z hz => not_Within ?_ ?_)
      (OnGoto_both (adv_get_end_of_key vt lx cs) (kept_get_end_of_key vt lx cs)))
    · have := hz.1
      omega
    · intro hd
      have hc : Closes .get_end_of_key lx := (hz.2.2.2.1 hd).1
      unfold Closes at hc
      simp at hc

theorem ext_expect_all {R : Prop} {G : Label → Lexer → Prop}
    {Q : Label → Lexer → Lexer → Prop} (cs : Consumer σ H) (word : List Nat) (lx lx1 : Lexer)
    (k k1 : Lexer → Step σ H) (h : Ext a .start_value lx lx1)
    (hlen : lx.p + word.length ≤ a)
    (hk : ∀ y y1, Ext a .start_value y y1 → y.p = lx.p + word.length →
      Sim R G Q (k1 y1) (k y)) :
    Sim R G Q (expect_all cs word lx1 k1) (expect_all cs word lx k) := by
  induction word generalizing lx lx1 with
  | nil => exact hk _ _ h rfl
  | cons c word ih =>
    obtain ⟨hi, he, he1, hp, hac, hst, hsp, -⟩ := h
    simp only [List.length_cons] at hlen
    have hr : rd lx1.mem lx1.p = rd lx.mem lx.p := by rw [hp]; exact hi.low _ (by omega)
    unfold expect_all expect
    dsimp only
    rw [hr]
    refine Sim_ite Iff.rfl (fun _ => Sim_error _ _ _) (fun _ => ?_)
    refine ih _ _ ⟨hi, he, he1, by dsimp only; omega, hac, hst, hsp, trivial⟩
      (by dsimp only; omega) (fun y y1 hy hyp => hk y y1 hy ?_)
    rw [hyp, List.length_cons]
    dsimp only
    omega

theorem ext_literal (vt : H → ajson_sax_cb_t σ H) (lx lx1 : Lexer) (cs : Consumer σ H)
    (word : List Nat) (ev : Event) (next : Label) (h : Ext a .start_value lx lx1)
    (hx : next ≠ .determine_next_step) :
    Sim False (Within a) (Ext a) (literal vt lx1 cs word ev next)
      (literal vt lx cs word ev next) := by
  by_cases hlen : lx.p + word.length < a
  · have he := h.2.1
    have he1 := h.2.2.1
    have hp := h.2.2.2.1
    unfold literal
    refine Sim_ite (by omega) (fun _ => Sim_error _ _ _) (fun _ => ?_)
    refine ext_expect_all cs word lx lx1 _ _ h (Nat.le_of_lt hlen) (fun y y1 hy hyp => ?_)
    refine Sim_CHECK_CB vt _ _ cs _ _ _ _ rfl (fun c => Sim_goto _ _ _ _ (fun _ => ?_))
    obtain ⟨hi, he, he1, hp, hac, hst, hsp, -⟩ := hy
    refine ⟨hi, he, he1, hp, hac, hst, hsp, ?_⟩
    have hr : rd y1.mem y1.p = rd y.mem y.p := by rw [hp]; exact hi.low _ (by omega)
    cases next <;> trivial
  · exact Sim_vac (OnGoto_literal vt lx cs word ev next
      (fun _ => not_Within (by dsimp only; omega) hx))

/-- The lookahead after a zero, on the two buffers: the test of the byte under
the cursor for `.`, `e`, `E` and a digit, and the callback for the number `num`. -/
theorem ext_lookahead (vt : H → ajson_sax_cb_t σ H) (lx lx1 : Lexer)
    (cs : Consumer σ H) (dec digit next : Label) (num : List Nat) (ch ch1 : Nat)
    (h : Ext a .start_value lx lx1) (hlt : lx.p < a)
    (hd : dec = .decimal_number ∨ dec = .keyed_decimal_number)
    (hg : digit = .next_digit ∨ digit = .keyed_next_digit)
    (hch : ch1 = ch) :
    Sim False (Within a) (Ext a)
      (if rd lx1.mem lx1.p = 46 then .goto dec { lx1 with p := lx1.p + 1 } cs
       else if rd lx1.mem lx1.p = 101 ∨ rd lx1.mem lx1.p = 69 then .goto digit lx1 cs
       else if isDigit (rd lx1.mem lx1.p) then SAX_ERROR lx1 cs
       else CHECK_CB vt lx1 cs (.number num) fun c => .goto next { lx1 with ch := ch1 } c)
      (if rd lx.mem lx.p = 46 then .goto dec { lx with p := lx.p + 1 } cs
       else if rd lx.mem lx.p = 101 ∨ rd lx.mem lx.p = 69 then .goto digit lx cs
       else if isDigit (rd lx.mem lx.p) then SAX_ERROR lx cs
       else CHECK_CB vt lx cs (.number num) fun c => .goto next { lx with ch := ch } c) := by
  obtain ⟨hi, he, he1, hp, hac, hst, hsp, -⟩ := h
  have hr : rd lx1.mem lx1.p = rd lx.mem lx.p := by rw [hp]; exact hi.low _ hlt
  rw [hr]
  refine Sim_ite Iff.rfl (fun _ => Sim_goto _ _ _ _ (fun _ => ?_)) (fun _ => ?_)
  · exact ⟨hi, he, he1, by dsimp only; omega, hac, hst, hsp, by
      rcases hd with rfl | rfl <;> trivial⟩
  refine Sim_ite Iff.rfl (fun _ => Sim_goto _ _ _ _ (fun _ => ?_)) (fun _ => ?_)
  · exact ⟨hi, he, he1, hp, hac, hst, hsp, by rcases hg with rfl | rfl <;> trivial⟩
  refine Sim_ite Iff.rfl (fun _ => Sim_error _ _ _) (fun _ => ?_)
  refine Sim_CHECK_CB vt _ _ cs _ _ _ _ rfl (fun c => Sim_goto _ _ _ _ (fun _ => ?_))
  refine ⟨hi, he, he1, hp, hac, hst, hsp, ?_⟩
  cases next <;> trivial

end Ext2

section Ext3

variable {σ H : Type} {a : Nat}

theorem ext_zero_case (vt : H → ajson_sax_cb_t σ H) (lx lx1 : Lexer)
    (cs : Consumer σ H) (dec digit next : Label) (h : Ext a .start_value lx lx1)
    (hd : dec = .decimal_number ∨ dec = .keyed_decimal_number)
    (hg : digit = .next_digit ∨ digit = .keyed_next_digit)
    (hx : next ≠ .determine_next_step) :
    Sim False (Within a) (Ext a) (zero_case vt lx1 cs dec digit next)
      (zero_case vt lx cs dec digit next) := by
  have he := h.2.1
  have he1 := h.2.2.1
  have hp := h.2.2.2.1
  by_cases hlt : lx.p < a
  · have hlt0 : lx.p < lx.ep := by omega
    have hlt1 : lx1.p < lx1.ep := by omega
    have hr : rd lx1.mem lx1.p = rd lx.mem lx.p := by rw [hp]; exact h.1.low _ hlt
    unfold zero_case
    simp only [hlt0, hlt1, true_and]
    exact ext_lookahead vt lx lx1 cs dec digit next [48] _ _ h hlt hd hg hr
  · exact Sim_vac (OnGoto_zero_case vt lx cs dec digit next (fun h1 => absurd h1 (by omega))
      (fun h1 => absurd h1 (by omega)) (not_Within (by dsimp only; omega) hx))

theorem not_Closes_add_string (lx : Lexer) : ¬ Closes .add_string lx := by
  unfold Closes
  simp

theorem ext_start_value_minus (vt : H → ajson_sax_cb_t σ H) (lx lx1 : Lexer)
    (cs : Consumer σ H) (h : Ext a .start_value lx lx1) :
    Sim False (Within a) (Ext a) (start_value_minus vt (next_ch lx1) cs)
      (start_value_minus vt (next_ch lx) cs) := by
  by_cases h0 : lx.p + 1 < a
  · have hl := ExtLow_of_Ext h (by omega)
    have hch := ExtLow_ch hl
    have hb := Ext_of_ExtLow hl .start_value
    have hr : rd (next_ch lx1).mem (next_ch lx1).p = rd (next_ch lx).mem (next_ch lx).p := by
      rw [hl.p]
      exact hl.agree.low _ h0
    unfold start_value_minus
    dsimp only
    refine Sim_ite (by rw [hch]) (fun _ => ?_) (fun _ => ?_)
    · exact ext_lookahead vt _ _ cs _ _ _ [45, 48] _ _ hb h0 (Or.inl rfl) (Or.inl rfl) hr
    · exact Sim_ite (by rw [hch])
        (fun _ => Sim_goto _ _ _ _ (fun _ => Ext_of_ExtLow hl _))
        (fun _ => Sim_error _ _ _)
  · refine Sim_vac (OnGoto_mono (fun l z hz => not_Within ?_ ?_)
      (OnGoto_both (adv_start_value_minus vt (next_ch lx) cs)
        (kept_start_value_minus vt .add_string (next_ch lx) (next_ch lx) cs rfl rfl
          (Nat.le_refl _))))
    · have h1 : lx.p + 1 ≤ z.p := hz.1
      omega
    · exact fun hd => not_Closes_add_string _ ((hz.2.2.2.1 hd).1)

theorem ext_start_key_object_minus (vt : H → ajson_sax_cb_t σ H) (lx lx1 : Lexer)
    (cs : Consumer σ H) (h : Ext a .start_value lx lx1) :
    Sim False (Within a) (Ext a) (start_key_object_minus vt (next_ch lx1) cs)
      (start_key_object_minus vt (next_ch lx) cs) := by
  by_cases h0 : lx.p + 1 < a
  · have hl := ExtLow_of_Ext h (by omega)
    have hch := ExtLow_ch hl
    have hb := Ext_of_ExtLow hl .start_value
    unfold start_key_object_minus
    dsimp only
    refine Sim_ite (by rw [hch]) (fun _ => ?_) (fun _ => ?_)
    · exact ext_lookahead vt _ _ cs _ _ _ [45, 48] _ _ hb h0 (Or.inr rfl) (Or.inr rfl) hch
    · exact Sim_ite (by rw [hch])
        (fun _ => Sim_goto _ _ _ _ (fun _ => Ext_of_ExtLow hl _))
        (fun _ => Sim_error _ _ _)
  · refine Sim_vac (OnGoto_mono (fun l z hz => not_Within ?_ ?_)
      (OnGoto_both (adv_start_key_object_minus vt (next_ch lx) cs)
        (kept_start_key_object_minus vt .add_string (next_ch lx) (next_ch lx) cs rfl rfl
          (Nat.le_refl _))))
    · have h1 : lx.p + 1 ≤ z.p := hz.1
      omega
    · exact fun hd => not_Closes_add_string _ ((hz.2.2.2.1 hd).1)

/-- The scanner states after the dispatch byte, before the end of the document. -/
theorem Ext_next {l : Label} {lx lx1 : Lexer} (h : Ext a l lx lx1)
    (b b1 : Bool) (hb : b1 = b) (s s1 : Nat) (hs : s1 = s) (st st1 : List Nat) (hst : st1 = st)
    (l1 : Label) (hl : ∀ x y, ExtAt l1 x y) :
    Ext a l1 { next_ch lx with after_comma := b, stringp := s, stack := st }
      { next_ch lx1 with after_comma := b1, stringp := s1, stack := st1 } := by
  obtain ⟨hi, he, he1, hpp, hac, -, hsp, -⟩ := h
  exact ⟨hi, he, he1, by show lx1.p + 1 = lx.p + 1; rw [hpp], hb, hst, hs, hl _ _⟩

theorem ext_start_value (vt : H → ajson_sax_cb_t σ H) (lx lx1 : Lexer)
    (cs : Consumer σ H) (h : Ext a .start_value lx lx1) (hp : lx.p < a) :
    Sim False (Within a) (Ext a) (start_value vt lx1 cs) (start_value vt lx cs) := by
  have hx := Ext_next h
  obtain ⟨hi, he, he1, hpp, hac, hst, hsp, -⟩ := h
  have hch : (next_ch lx1).ch = (next_ch lx).ch := by
    show rd lx1.mem lx1.p = rd lx.mem lx.p
    rw [hpp]
    exact hi.low _ hp
  have hp1 : (next_ch lx1).p = (next_ch lx).p := by
    show lx1.p + 1 = lx.p + 1
    rw [hpp]
  unfold start_value
  dsimp only
  refine Sim_ite (by omega) (fun _ => Sim_error _ _ _) (fun _ => ?_)
  refine Sim_ite (by rw [hch]) (fun _ => Sim_goto _ _ _ _ (fun _ => ?_)) (fun _ => ?_)
  · exact hx _ _ rfl _ _ hp1 _ _ hst _ (fun _ _ => trivial)
  refine Sim_ite (by rw [hch]) (fun _ => Sim_goto _ _ _ _ (fun _ => ?_)) (fun _ => ?_)
  · exact hx _ _ hac _ _ hsp _ _ hst _ (fun _ _ => trivial)
  refine Sim_ite (by rw [hch]) (fun _ => ?_) (fun _ => ?_)
  · exact Sim_open_container vt _ _ cs _ _ _ hst (fun _ =>
      hx _ _ rfl _ _ hsp _ _ (by show _ :: lx1.stack = _ :: lx.stack; rw [hst]) _
        (fun _ _ => trivial))
  refine Sim_ite (by rw [hch]) (fun _ => ?_) (fun _ => ?_)
  · exact Sim_open_container vt _ _ cs _ _ _ hst (fun _ =>
      hx _ _ rfl _ _ hsp _ _ (by show _ :: lx1.stack = _ :: lx.stack; rw [hst]) _
        (fun _ _ => trivial))
  refine Sim_ite (by rw [hch]) (fun _ => ?_) (fun _ => ?_)
  · exact Sim_close_here vt _ _ cs _ hac (fun _ =>
      hx _ _ hac _ _ hsp _ _ (by show lx1.stack.tail = lx.stack.tail; rw [hst]) _
      (fun _ _ => trivial))
  refine Sim_ite (by rw [hch]) (fun _ => ?_) (fun _ => ?_)
  · exact ext_start_value_minus vt _ _ cs
      (hx false false rfl _ _ (by rw [hp1]) _ _ hst .start_value (fun _ _ => trivial))
  refine Sim_ite (by rw [hch]) (fun _ => ?_) (fun _ => ?_)
  · exact ext_zero_case vt _ _ cs _ _ _
      (hx false false rfl _ _ (by rw [hp1]) _ _ hst .start_value (fun _ _ => trivial))
      (Or.inl rfl) (Or.inl rfl) (by decide)
  refine Sim_ite (by rw [hch]) (fun _ => Sim_goto _ _ _ _ (fun _ => ?_)) (fun _ => ?_)
  · exact hx false false rfl _ _ (by rw [hp1]) _ _ hst _ (fun _ _ => trivial)
  have hlit : ∀ word ev, Sim False (Within a) (Ext a)
      (literal vt { next_ch lx1 with after_comma := false } cs word ev .add_string)
      (literal vt { next_ch lx with after_comma := false } cs word ev .add_string) :=
    fun word ev => ext_literal vt _ _ cs word ev _
      (hx false false rfl _ _ hsp _ _ hst .start_value (fun _ _ => trivial)) (by decide)
  refine Sim_ite (by rw [hch]) (fun _ => hlit _ _) (fun _ => ?_)
  refine Sim_ite (by rw [hch]) (fun _ => hlit _ _) (fun _ => ?_)
  exact Sim_ite (by rw [hch]) (fun _ => hlit _ _) (fun _ => Sim_error _ _ _)

theorem ext_start_key_object (vt : H → ajson_sax_cb_t σ H) (lx lx1 : Lexer)
    (cs : Consumer σ H) (h : Ext a .start_key_object lx lx1) (hp : lx.p < a) :
    Sim False (Within a) (Ext a) (start_key_object vt lx1 cs)
      (start_key_object vt lx cs) := by
  have hx := Ext_next h
  obtain ⟨hi, he, he1, hpp, hac, hst, hsp, -⟩ := h
  have hch : (next_ch lx1).ch = (next_ch lx).ch := by
    show rd lx1.mem lx1.p = rd lx.mem lx.p
    rw [hpp]
    exact hi.low _ hp
  have hp1 : (next_ch lx1).p = (next_ch lx).p := by
    show lx1.p + 1 = lx.p + 1
    rw [hpp]
  unfold start_key_object
  dsimp only
  refine Sim_ite (by omega) (fun _ => Sim_error _ _ _) (fun _ => ?_)
  refine Sim_ite (by rw [hch]) (fun _ => Sim_goto _ _ _ _ (fun _ => ?_)) (fun _ => ?_)
  · exact hx _ _ hac _ _ hp1 _ _ hst _ (fun _ _ => trivial)
  refine Sim_ite (by rw [hch]) (fun _ => Sim_goto _ _ _ _ (fun _ => ?_)) (fun _ => ?_)
  · exact hx _ _ hac _ _ hsp _ _ hst _ (fun _ _ => trivial)
  refine Sim_ite (by rw [hch]) (fun _ => ?_) (fun _ => ?_)
  · exact Sim_open_container vt _ _ cs _ _ _ hst (fun _ =>
      hx _ _ hac _ _ hsp _ _ (by show _ :: lx1.stack = _ :: lx.stack; rw [hst]) _
        (fun _ _ => trivial))
  refine Sim_ite (by rw [hch]) (fun _ => ?_) (fun _ => ?_)
  · exact Sim_open_container vt _ _ cs _ _ _ hst (fun _ =>
      hx _ _ hac _ _ hsp _ _ (by show _ :: lx1.stack = _ :: lx.stack; rw [hst]) _
        (fun _ _ => trivial))
  refine Sim_ite (by rw [hch]) (fun _ => ?_) (fun _ => ?_)
  · exact ext_start_key_object_minus vt _ _ cs
      (hx _ _ hac _ _ (by rw [hp1]) _ _ hst .start_value (fun _ _ => trivial))
  refine Sim_ite (by rw [hch]) (fun _ => ?_) (fun _ => ?_)
  · exact ext_zero_case vt _ _ cs _ _ _
      (hx _ _ hac _ _ (by rw [hp1]) _ _ hst .start_value (fun _ _ => trivial))
      (Or.inr rfl) (Or.inr rfl) (by decide)
  refine Sim_ite (by rw [hch]) (fun _ => Sim_goto _ _ _ _ (fun _ => ?_)) (fun _ => ?_)
  · exact hx _ _ hac _ _ (by rw [hp1]) _ _ hst _ (fun _ _ => trivial)
  have hlit : ∀ word ev, Sim False (Within a) (Ext a)
      (literal vt (next_ch lx1) cs word ev .look_for_key)
      (literal vt (next_ch lx) cs word ev .look_for_key) :=
    fun word ev => ext_literal vt _ _ cs word ev _
      (hx _ _ hac _ _ hsp _ _ hst .start_value (fun _ _ => trivial)) (by decide)
  refine Sim_ite (by rw [hch]) (fun _ => hlit _ _) (fun _ => ?_)
  refine Sim_ite (by rw [hch]) (fun _ => hlit _ _) (fun _ => ?_)
  exact Sim_ite (by rw [hch]) (fun _ => hlit _ _) (fun _ => Sim_error _ _ _)

theorem ext_start_key (vt : H → ajson_sax_cb_t σ H) (lx lx1 : Lexer)
    (cs : Consumer σ H) (h : Ext a .start_key lx lx1) (hp : lx.p < a) :
    Sim False (Within a) (Ext a) (start_key vt lx1 cs) (start_key vt lx cs) := by
  have hx := Ext_next h
  obtain ⟨hi, he, he1, hpp, hac, hst, hsp, -⟩ := h
  have hch : (next_ch lx1).ch = (next_ch lx).ch := by
    show rd lx1.mem lx1.p = rd lx.mem lx.p
    rw [hpp]
    exact hi.low _ hp
  have hp1 : (next_ch lx1).p = (next_ch lx).p := by
    show lx1.p + 1 = lx.p + 1
    rw [hpp]
  unfold start_key
  dsimp only
  refine Sim_ite (by omega) (fun _ => Sim_error _ _ _) (fun _ => ?_)
  refine Sim_ite (by rw [hch]) (fun _ => Sim_goto _ _ _ _ (fun _ => ?_)) (fun _ => ?_)
  · exact hx _ _ rfl _ _ hp1 _ _ hst _ (fun _ _ => trivial)
  refine Sim_ite (by rw [hch]) (fun _ => Sim_goto _ _ _ _ (fun _ => ?_)) (fun _ => ?_)
  · exact hx _ _ hac _ _ hsp _ _ hst _ (fun _ _ => trivial)
  refine Sim_ite (by rw [hch]) (fun _ => ?_) (fun _ => Sim_error _ _ _)
  exact Sim_close_here vt _ _ cs _ hac (fun _ =>
    hx _ _ hac _ _ hsp _ _ (by show lx1.stack.tail = lx.stack.tail; rw [hst]) _
      (fun _ _ => trivial))

theorem ext_look_for_key (vt : H → ajson_sax_cb_t σ H) (lx lx1 : Lexer) (cs : Consumer σ H)
    (h : Ext a .look_for_key lx lx1) (hp : lx.p < a) :
    Sim False (Within a) (Ext a) (look_for_key vt lx1 cs) (look_for_key vt lx cs) := by
  obtain ⟨hi, he, he1, hpp, hac, hst, hsp, hch⟩ := h
  have hch : lx1.ch = lx.ch := hch
  unfold look_for_key
  refine Sim_ite (by rw [hch]) (fun _ => ?_) (fun _ => ?_)
  · refine Sim_ite (by omega) (fun _ => Sim_error _ _ _)
      (fun _ => Sim_goto _ _ _ _ (fun _ => ?_))
    exact ⟨hi, he, he1, by dsimp only; omega, rfl, hst, hsp, trivial⟩
  refine Sim_ite (by rw [hch]) (fun _ => ?_) (fun _ => ?_)
  · exact Sim_close_ahead vt _ _ cs _ hac (fun _ =>
      ⟨hi, he, he1, by show lx1.p + 1 = lx.p + 1; omega, hac,
        by show lx1.stack.tail = lx.stack.tail; rw [hst], hsp, trivial⟩)
  refine Sim_ite (by rw [hch]) (fun _ => Sim_goto _ _ _ _ (fun hw => ?_))
    (fun _ => Sim_error _ _ _)
  have hlt : lx.p + 1 < a := by
    rcases hw with h | h
    · exact h
    · exact Label.noConfusion h
  refine ⟨hi, he, he1, by dsimp only; omega, hac, hst, hsp, ?_⟩
  show rd lx1.mem (lx1.p + 1) = rd lx.mem (lx.p + 1)
  rw [hpp]
  exact hi.low _ hlt

theorem ext_look_for_next_object (vt : H → ajson_sax_cb_t σ H) (lx lx1 : Lexer)
    (cs : Consumer σ H) (h : Ext a .look_for_next_object lx lx1) (hp : lx.p < a) :
    Sim False (Within a) (Ext a) (look_for_next_object vt lx1 cs)
      (look_for_next_object vt lx cs) := by
  obtain ⟨hi, he, he1, hpp, hac, hst, hsp, hch⟩ := h
  have hch : lx1.ch = lx.ch := hch
  unfold look_for_next_object
  refine Sim_ite (by rw [hch]) (fun _ => ?_) (fun _ => ?_)
  · refine Sim_ite (by omega) (fun _ => Sim_error _ _ _)
      (fun _ => Sim_goto _ _ _ _ (fun _ => ?_))
    exact ⟨hi, he, he1, by dsimp only; omega, rfl, hst, hsp, trivial⟩
  refine Sim_ite (by rw [hch]) (fun _ => ?_) (fun _ => ?_)
  · exact Sim_close_ahead vt _ _ cs _ hac (fun _ =>
      ⟨hi, he, he1, by show lx1.p + 1 = lx.p + 1; omega, hac,
        by show lx1.stack.tail = lx.stack.tail; rw [hst], hsp, trivial⟩)
  refine Sim_ite (by rw [hch]) (fun _ => ?_) (fun _ => ?_)
  · dsimp only
    by_cases hlt : lx.p + 1 < a
    · refine Sim_ite (by omega) (fun hge => absurd hge (by omega))
        (fun _ => Sim_goto _ _ _ _ (fun _ => ?_))
      refine ⟨hi, he, he1, by dsimp only; omega, hac, hst, hsp, ?_⟩
      show rd lx1.mem (lx1.p + 1) = rd lx.mem (lx.p + 1)
      rw [hpp]
      exact hi.low _ hlt
    · exact Sim_vac (wp_ite (fun _ => wp_ite (fun _ => trivial) (fun _ => trivial))
        (fun hge => absurd hge (by omega)))
  · exact Sim_vac (wp_ite (fun _ => wp_ite (fun _ => trivial) (fun _ => trivial))
      (fun _ => trivial))

theorem ext_determine_next_step (lx lx1 : Lexer) (cs : Consumer σ H)
    (h : Ext a .determine_next_step lx lx1) (hp : lx.p < a) :
    Sim False (Within a) (Ext a) (determine_next_step lx1 cs)
      (determine_next_step lx cs) := by
  obtain ⟨hi, he, he1, hpp, hac, hst, hsp, -⟩ := h
  have hr : rd lx1.mem lx1.p = rd lx.mem lx.p := by rw [hpp]; exact hi.low _ hp
  unfold determine_next_step
  refine Sim_ite (by unfold stack_depth; rw [hst]) (fun _ => Sim_ret _ _ _ _) (fun _ => ?_)
  refine Sim_ite (by omega) (fun _ => Sim_ret _ _ _ _) (fun _ => ?_)
  dsimp only
  refine Sim_ite (by unfold CURRENT_MODE; rw [hst]) (fun _ => Sim_goto _ _ _ _ (fun _ => ?_))
    (fun _ => Sim_goto _ _ _ _ (fun _ => ?_))
  · exact ⟨hi, he, he1, hpp, hac, hst, hsp, hr⟩
  · exact ⟨hi, he, he1, hpp, hac, hst, hsp, hr⟩

/-- Before the end of the document the scanner on the longer buffer follows every
jump of the other that stays before the end or closes a container. -/
theorem step_ext (vt : H → ajson_sax_cb_t σ H) (l : Label) (lx lx1 : Lexer)
    (cs : Consumer σ H) (h : Ext a l lx lx1) (hp : lx.p < a) :
    Sim False (Within a) (Ext a) (step vt l lx1 cs) (step vt l lx cs) := by
  cases l
  case start_key => exact ext_start_key vt lx lx1 cs h hp
  case get_end_of_key => exact ext_get_end_of_key vt lx lx1 cs h
  case start_key_object => exact ext_start_key_object vt lx lx1 cs h hp
  case keyed_start_string =>
    exact ext_string_body vt lx lx1 cs _ _ h (Or.inr rfl) (by decide)
  case look_for_key => exact ext_look_for_key vt lx lx1 cs h hp
  case keyed_next_digit =>
    exact ext_next_digit_body vt lx lx1 cs _ _ _ h hp (by decide) (by decide)
  case keyed_decimal_number =>
    exact ext_decimal_number_body vt lx lx1 cs _ _ h hp (by decide)
  case start_value => exact ext_start_value vt lx lx1 cs h hp
  case start_string => exact ext_string_body vt lx lx1 cs _ _ h (Or.inl rfl) (by decide)
  case add_string =>
    exact Sim_goto _ _ _ _ (fun _ => ⟨h.1, h.2.1, h.2.2.1, h.2.2.2.1, h.2.2.2.2.1,
      h.2.2.2.2.2.1, h.2.2.2.2.2.2.1, h.2.2.2.2.2.2.2⟩)
  case look_for_next_object => exact ext_look_for_next_object vt lx lx1 cs h hp
  case next_digit =>
    exact ext_next_digit_body vt lx lx1 cs _ _ _ h hp (by decide) (by decide)
  case decimal_number => exact ext_decimal_number_body vt lx lx1 cs _ _ h hp (by decide)
  case determine_next_step => exact ext_determine_next_step lx lx1 cs h hp

end Ext3

section Ext4

variable {σ H : Type} {a : Nat}

theorem opens_container (vt : H → ajson_sax_cb_t σ H) (w : Nat) (lx : Lexer)
    (cs : Consumer σ H) (ev : Event) (mode : Nat) (next : Label) :
    Opens w (open_container vt lx cs ev mode next) := by
  have hpush : ∀ c : Consumer σ H,
      Opens w (SYNTAX_PUSH lx c mode fun x y => .goto next x y) := fun c =>
    wp_SYNTAX_PUSH lx c mode _ (fun _ => by show (-1 : Int) ≠ 0; decide)
      (fun _ => Or.inl (List.cons_ne_nil _ _))
  unfold open_container
  exact wp_CHECK_CB vt lx cs ev _ (fun _ => hpush _) (fun _ _ _ _ hrc => hrc)
    (fun _ _ _ => hpush _)

theorem step_opening (vt : H → ajson_sax_cb_t σ H) (w : Nat) (l : Label) (lx : Lexer)
    (cs : Consumer σ H) (h : Opening w l lx) : Opens w (step vt l lx cs) := by
  obtain ⟨rfl, hst, hpw, hwe, hsp, hc⟩ := h
  by_cases hp : lx.p < w
  · rw [start_space vt .start_value lx cs (Or.inl rfl) (by omega) (hsp _ (Nat.le_refl _) hp)]
    exact Or.inr ⟨rfl, hst, hp, hwe, fun i hi hiw => hsp i (by
      have : lx.p + 1 ≤ i := hi
      omega) hiw, hc⟩
  · have hpe : lx.p = w := by omega
    have hge : ¬ lx.p ≥ lx.ep := by omega
    rw [← hpe] at hc
    rcases hc with hc | hc
    · have e : step vt .start_value lx cs =
          open_container vt { next_ch lx with after_comma := false } cs .start_object
            SAX_MODE_OBJECT .start_key := by
        simp [step, start_value, next_ch, hc, hge, isSpace]
      rw [e]
      exact opens_container vt w _ cs _ _ _
    · have e : step vt .start_value lx cs =
          open_container vt { next_ch lx with after_comma := false } cs .start_array
            SAX_MODE_ARRAY .start_value := by
        simp [step, start_value, next_ch, hc, hge, isSpace]
      rw [e]
      exact opens_container vt w _ cs _ _ _

theorem step_root_closed (vt : H → ajson_sax_cb_t σ H) (lx : Lexer) (cs : Consumer σ H)
    (h : lx.stack = []) : step vt .determine_next_step lx cs = .ret 0 lx cs := by
  simp [step, determine_next_step, stack_depth, h]

/-- From a state inside the root container, or before it, the scanner on the
longer buffer returns what the scanner on the document returns, when that is 0
with every container closed; the cursor ends inside the document. -/
theorem run_ext (vt : H → ajson_sax_cb_t σ H) {w : Nat} {M : List Nat}
    (hz : ∀ i, a ≤ i → rd M i = 0) (hw : w < a) (n : Nat) {l : Label} {lx lx1 : Lexer}
    {cs : Consumer σ H} {r : Result σ H} (h : Ext a l lx lx1) (hm : lx.mem = M)
    (hsane : Sane l lx)
    (hinv : lx.stack ≠ [] ∨ (l = .determine_next_step ∧ lx.p ≤ a) ∨ Opening w l lx)
    (hrun : run vt n l lx cs = some r) (hrc : r.rc = 0) (hst : r.lx.stack = []) :
    ∃ r1, run vt n l lx1 cs = some r1 ∧ r1.rc = 0 ∧ r1.cs = r.cs ∧ r1.lx.p = r.lx.p ∧
      r.lx.p ≤ a := by
  induction n generalizing l lx lx1 cs with
  | zero => simp [run] at hrun
  | succ n ih =>
    have hrun0 := hrun
    have hep : lx.ep = a := h.2.1
    by_cases hroot : l = .determine_next_step ∧ lx.stack = []
    · obtain ⟨rfl, hnil⟩ := hroot
      have hple : lx.p ≤ a := by
        rcases hinv with hi | hi | hi
        · exact absurd hnil hi
        · exact hi.2
        · exact absurd hi.1 (by decide)
      unfold run at hrun ⊢
      rw [step_root_closed vt lx cs hnil] at hrun
      rw [step_root_closed vt lx1 cs (h.2.2.2.2.2.1.trans hnil)]
      obtain rfl := Option.some.inj hrun
      exact ⟨_, rfl, rfl, rfl, h.2.2.2.1, hple⟩
    have hopen : lx.stack ≠ [] ∨ Opening w l lx := by
      rcases hinv with hi | hi | hi
      · exact Or.inl hi
      · exact Or.inl (fun hnil => hroot ⟨hi.1, hnil⟩)
      · exact Or.inr hi
    have hlt : lx.p < a := by
      rcases hopen with hi | hi
      · by_contra hge
        exact run_PastEnd vt hz (n + 1) ⟨hep, by omega, hsane, hi, Or.inl hm⟩ hrun0 hrc hst
      · have := hi.2.2.1
        omega
    have hsim := step_ext vt l lx lx1 cs h hlt
    have hk := step_Kept vt l lx cs
    have hf := step_falls vt l lx cs hsane
    have hc := step_LStep vt l lx cs
    have ho : Opening w l lx → Opens w (step vt l lx cs) := step_opening vt w l lx cs
    unfold run at hrun ⊢
    cases hs : step vt l lx cs with
    | ret rc lx2 cs2 =>
      rw [hs] at hrun hc ho
      obtain rfl := Option.some.inj hrun
      exfalso
      rcases hopen with hi | hi
      · cases hc with
        | accept _ hkeep => exact hi (hkeep.1.symm.trans hst)
        | error lx3 _ => simp at hrc
        | abort ev c s _ lx3 hinv hne => exact hne hrc
        | full ev _ _ _ _ hkeep hfull => simp at hrc
      · exact ho hi hrc
    | goto l2 lx2 cs2 =>
      rw [hs] at hrun hsim hk hf ho
      obtain ⟨ke, km, kc, ks⟩ := hk
      have htri : lx2.stack ≠ [] ∨ l2 = .determine_next_step ∨ Opening w l2 lx2 := by
        rcases hopen with hi | hi
        · by_cases hl : l2 = .determine_next_step
          · exact Or.inr (Or.inl hl)
          · refine Or.inl (fun hnil => hi ?_)
            have := ks hl
            rw [hnil] at this
            exact List.length_eq_zero.1 (Nat.le_zero.1 this)
        · rcases ho hi with h2 | h2
          · exact Or.inl h2
          · exact Or.inr (Or.inr h2)
      have hwithin : Within a l2 lx2 := by
        by_cases hl : l2 = .determine_next_step
        · exact Or.inr hl
        · refine Or.inl ?_
          by_contra hge
          have hne : lx2.stack ≠ [] := by
            rcases htri with h2 | h2 | h2
            · exact h2
            · exact absurd h2 hl
            · have := h2.2.2.1
              omega
          refine run_PastEnd vt hz n ⟨ke.trans hep, by omega, hf.1, hne, ?_⟩ hrun hrc hst
          rcases km with h2 | h2
          · exact Or.inl (h2.trans hm)
          · exact Or.inr h2.1
      have hm2 : lx2.mem = M := by
        rcases km with h2 | h2
        · exact h2.trans hm
        · exfalso
          rcases hwithin with h3 | h3
          · omega
          · rw [h2.1] at h3
            exact Label.noConfusion h3
      have hinv2 : lx2.stack ≠ [] ∨ (l2 = .determine_next_step ∧ lx2.p ≤ a) ∨
          Opening w l2 lx2 := by
        rcases htri with h2 | h2 | h2
        · exact Or.inl h2
        · refine Or.inr (Or.inl ⟨h2, ?_⟩)
          have := (kc h2).2
          omega
        · exact Or.inr (Or.inr h2)
      obtain ⟨lx3, hs1, hext⟩ := hsim hwithin
      rw [hs1]
      exact ih hext hm2 hf.1 hinv2 hrun

end Ext4

section Ext5

variable {σ H : Type}

theorem Agree_doc (d g : List Nat) : Agree d.length (d ++ [0]) (d ++ g ++ [0]) := by
  refine ⟨by simp, by simp, fun i hi => ?_⟩
  rw [rd_append_left d [0] i hi, rd_append_left (d ++ g) [0] i (by simp; omega),
    rd_append_left d g i hi]

theorem rd_doc_end (d : List Nat) (i : Nat) (hi : d.length ≤ i) : rd (d ++ [0]) i = 0 := by
  by_cases h : i = d.length
  · rw [h]
    exact rd_append_right d [0] 0
  · exact rd_beyond _ _ (by simp; omega)

/-- A document whose root is a container, accepted with every container closed,
followed by any bytes: the parse returns 0 with the same consumer state, and the
cursor stops at the same place, inside the document. -/
theorem root_container_tail (vt : H → ajson_sax_cb_t σ H) (ws rest g : List Nat) (c : Nat)
    (cb : H) (ctx : σ) (r : Result σ H) (hws : ∀ b ∈ ws, isSpace b) (hc : c = 123 ∨ c = 91)
    (hr : parse_doc vt (ws ++ c :: rest) cb ctx = some r) (hrc : r.rc = 0)
    (hst : r.lx.stack = []) :
    ∃ r1, parse_doc vt (ws ++ c :: rest ++ g) cb ctx = some r1 ∧ r1.rc = 0 ∧ r1.cs = r.cs ∧
      r1.lx.p = r.lx.p ∧ r.lx.p ≤ (ws ++ c :: rest).length := by
  have hlen : ws.length < (ws ++ c :: rest).length := by simp
  generalize hd : ws ++ c :: rest = d at hr hlen ⊢
  have hpos : ¬ (init_lexer (d ++ [0]) d.length).p ≥ (init_lexer (d ++ [0]) d.length).ep := by
    simp only [init_lexer]
    omega
  unfold parse_doc ajson_sax_parse at hr
  dsimp only at hr
  rw [if_neg hpos] at hr
  have hopen : Opening ws.length .start_value (init_lexer (d ++ [0]) d.length) := by
    refine ⟨rfl, rfl, Nat.zero_le _, hlen, fun i _ hi => ?_, ?_⟩
    · show isSpace (rd (d ++ [0]) i)
      rw [rd_append_left d [0] i (by omega), ← hd, rd_append_left ws _ i hi]
      exact hws _ (rd_mem_of_lt ws i hi)
    · show rd (d ++ [0]) ws.length = 123 ∨ rd (d ++ [0]) ws.length = 91
      rw [rd_append_left d [0] _ hlen, ← hd]
      have := rd_append_right ws (c :: rest) 0
      rw [Nat.add_zero] at this
      rw [this]
      exact hc
  have hext : Ext d.length .start_value (init_lexer (d ++ [0]) d.length)
      (init_lexer (d ++ g ++ [0]) (d ++ g).length) :=
    ⟨Agree_doc d g, rfl, by simp [init_lexer], rfl, rfl, rfl, rfl, trivial⟩
  obtain ⟨r1, h1, h2⟩ := run_ext vt (rd_doc_end d) hlen _ hext rfl trivial
    (Or.inr (Or.inr hopen)) hr hrc hst
  refine ⟨r1, ?_, h2⟩
  unfold parse_doc
  exact ajson_sax_parse_of_run vt _ _ cb ctx _ r1 (by simp; omega) h1

end Ext5

/-! ### Documents built only from objects and arrays -/

section Nesting

variable {σ H : Type}

theorem deliver_trace {vt : H → ajson_sax_cb_t σ H} (hc : Complete vt) (cs : Consumer σ H)
    (ev : Event) : (deliver vt cs ev).trace = cs.trace ++ [(ev, 0)] := by
  obtain ⟨c, s, h⟩ := hc cs ev
  unfold deliver
  rw [h]
  rfl

theorem Tally_refl (cs : Consumer σ H) : Tally cs cs 0 0 0 0 0 :=
  ⟨[], by simp, rfl, rfl, rfl, rfl, rfl, rfl⟩

theorem count_events_append (f : Event → Bool) (t u : List (Event × Int)) :
    count_events f (t ++ u) = count_events f t + count_events f u := by
  unfold count_events
  exact List.countP_append _ _ _

theorem Tally_trans {cs cs1 cs2 : Consumer σ H} {so eo sa ea k so1 eo1 sa1 ea1 k1 : Nat}
    (h : Tally cs cs1 so eo sa ea k) (h1 : Tally cs1 cs2 so1 eo1 sa1 ea1 k1) :
    Tally cs cs2 (so + so1) (eo + eo1) (sa + sa1) (ea + ea1) (k + k1) := by
  obtain ⟨t, ht, hl, c1, c2, c3, c4, c5⟩ := h
  obtain ⟨u, hu, hl1, d1, d2, d3, d4, d5⟩ := h1
  refine ⟨t ++ u, by rw [hu, ht, List.append_assoc], by rw [List.length_append]; omega, ?_, ?_,
    ?_, ?_, ?_⟩ <;> rw [count_events_append] <;> omega

theorem Tally_eq {cs cs1 : Consumer σ H} {so eo sa ea k so1 eo1 sa1 ea1 k1 : Nat}
    (h : Tally cs cs1 so eo sa ea k) (h1 : so = so1) (h2 : eo = eo1) (h3 : sa = sa1)
    (h4 : ea = ea1) (h5 : k = k1) : Tally cs cs1 so1 eo1 sa1 ea1 k1 := by
  subst h1 h2 h3 h4 h5
  exact h

theorem Tally_start_object {vt : H → ajson_sax_cb_t σ H} (hc : Complete vt)
    (cs : Consumer σ H) : Tally cs (depth_inc (deliver vt cs .start_object)) 1 0 0 0 0 :=
  ⟨[(.start_object, 0)], deliver_trace hc cs _, rfl, rfl, rfl, rfl, rfl, rfl⟩

theorem Tally_end_object {vt : H → ajson_sax_cb_t σ H} (hc : Complete vt)
    (cs : Consumer σ H) : Tally cs (depth_dec (deliver vt cs .end_object)) 0 1 0 0 0 :=
  ⟨[(.end_object, 0)], deliver_trace hc cs _, rfl, rfl, rfl, rfl, rfl, rfl⟩

theorem Tally_start_array {vt : H → ajson_sax_cb_t σ H} (hc : Complete vt)
    (cs : Consumer σ H) : Tally cs (depth_inc (deliver vt cs .start_array)) 0 0 1 0 0 :=
  ⟨[(.start_array, 0)], deliver_trace hc cs _, rfl, rfl, rfl, rfl, rfl, rfl⟩

theorem Tally_end_array {vt : H → ajson_sax_cb_t σ H} (hc : Complete vt)
    (cs : Consumer σ H) : Tally cs (depth_dec (deliver vt cs .end_array)) 0 0 0 1 0 :=
  ⟨[(.end_array, 0)], deliver_trace hc cs _, rfl, rfl, rfl, rfl, rfl, rfl⟩

theorem Tally_key {vt : H → ajson_sax_cb_t σ H} (hc : Complete vt) (cs : Consumer σ H)
    (K : List Nat) : Tally cs (deliver vt cs (.key K)) 0 0 0 0 1 :=
  ⟨[(.key K, 0)], deliver_trace hc cs _, rfl, rfl, rfl, rfl, rfl, rfl⟩

/-- Whitespace before a value or a key is skipped. -/
theorem skip_blank (vt : H → ajson_sax_cb_t σ H) (l : Label) (lx : Lexer) (w : List Nat)
    (p ch sp : Nat) (ac : Bool) (st : List Nat) (cs : Consumer σ H)
    (hl : l = .start_value ∨ l = .start_key ∨ l = .start_key_object) (hw : Blank w)
    (hat : At lx.mem p w) (hp : p + w.length ≤ lx.ep) :
    ∃ ch1, reach vt w.length l (moved lx p ch sp ac st) cs =
      some (l, moved lx (p + w.length) ch1 sp ac st, cs) := by
  induction w generalizing p ch with
  | nil => exact ⟨ch, rfl⟩
  | cons c w ih =>
    obtain ⟨hc, hat1⟩ := At_cons hat
    simp only [List.length_cons] at hp ⊢
    have s1 := tok_space vt l lx p ch sp ac st cs hl (by omega)
      (by rw [hc]; exact hw c (List.mem_cons_self _ _))
    obtain ⟨ch1, s2⟩ := ih (p + 1) (rd lx.mem p) (fun x hx => hw x (List.mem_cons_of_mem _ hx))
      hat1 (by omega)
    refine ⟨ch1, ?_⟩
    have := reach_trans (reach_one s1) s2
    rw [show p + (w.length + 1) = p + 1 + w.length by omega, Nat.add_comm w.length 1]
    exact this

theorem tok_gap_key (vt : H → ajson_sax_cb_t σ H) (lx : Lexer) (p ch sp : Nat) (ac : Bool)
    (st : List Nat) (cs : Consumer σ H) (hs : isSpace ch) :
    step vt .look_for_key (moved lx p ch sp ac st) cs =
      .goto .look_for_key (moved lx (p + 1) (rd lx.mem (p + 1)) sp ac st) cs := by
  have h := space_ne hs
  simp [step, look_for_key, moved, h.2.1, h.2.2.1, hs]

theorem tok_gap_array (vt : H → ajson_sax_cb_t σ H) (lx : Lexer) (p ch sp : Nat) (ac : Bool)
    (st : List Nat) (cs : Consumer σ H) (hs : isSpace ch) (hp : p + 1 < lx.ep) :
    step vt .look_for_next_object (moved lx p ch sp ac st) cs =
      .goto .look_for_next_object (moved lx (p + 1) (rd lx.mem (p + 1)) sp ac st) cs := by
  have h := space_ne hs
  have hge : ¬ lx.ep ≤ p + 1 := by omega
  simp [step, look_for_next_object, moved, h.2.1, h.2.2.2.1, hs, hge]

/-- Whitespace after a value is skipped. -/
theorem skip_gap (vt : H → ajson_sax_cb_t σ H) (l : Label) (lx : Lexer) (w : List Nat)
    (p sp : Nat) (ac : Bool) (st : List Nat) (cs : Consumer σ H)
    (hl : l = .look_for_key ∨ l = .look_for_next_object) (hw : Blank w)
    (hat : At lx.mem p w) (hp : p + w.length < lx.ep) :
    reach vt w.length l (moved lx p (rd lx.mem p) sp ac st) cs =
      some (l, moved lx (p + w.length) (rd lx.mem (p + w.length)) sp ac st, cs) := by
  induction w generalizing p with
  | nil => rfl
  | cons c w ih =>
    obtain ⟨hc, hat1⟩ := At_cons hat
    simp only [List.length_cons] at hp ⊢
    have hsp : isSpace (rd lx.mem p) := by rw [hc]; exact hw c (List.mem_cons_self _ _)
    have s1 : step vt l (moved lx p (rd lx.mem p) sp ac st) cs =
        .goto l (moved lx (p + 1) (rd lx.mem (p + 1)) sp ac st) cs := by
      rcases hl with rfl | rfl
      · exact tok_gap_key vt lx p _ sp ac st cs hsp
      · exact tok_gap_array vt lx p _ sp ac st cs hsp (by omega)
    have s2 := ih (p + 1) (fun x hx => hw x (List.mem_cons_of_mem _ hx)) hat1 (by omega)
    have := reach_trans (reach_one s1) s2
    rw [show p + (w.length + 1) = p + 1 + w.length by omega, Nat.add_comm w.length 1]
    exact this

theorem tok_open_array {vt : H → ajson_sax_cb_t σ H} (hz : ReturnsZero vt) (lx : Lexer)
    (p ch sp : Nat) (ac : Bool) (st : List Nat) (cs : Consumer σ H) (hp : p < lx.ep)
    (hc : rd lx.mem p = 91) (hroom : st.length < 511) :
    step vt .start_value (moved lx p ch sp ac st) cs =
      .goto .start_value (moved lx (p + 1) 91 sp false (SAX_MODE_ARRAY :: st))
        (depth_inc (deliver vt cs .start_array)) := by
  have hge : ¬ p ≥ lx.ep := by omega
  have hfull : ¬ st.length ≥ 511 := by omega
  simp [step, start_value, next_ch, moved, hc, hge, isSpace, open_container,
    CHECK_CB_deliver hz, SYNTAX_PUSH, stack_depth, AJSON_SAX_MAX_STACK_DEPTH, hfull]

theorem tok_open_array_member {vt : H → ajson_sax_cb_t σ H} (hz : ReturnsZero vt)
    (lx : Lexer) (p ch sp : Nat) (ac : Bool) (st : List Nat) (cs : Consumer σ H)
    (hp : p < lx.ep) (hc : rd lx.mem p = 91) (hroom : st.length < 511) :
    step vt .start_key_object (moved lx p ch sp ac st) cs =
      .goto .start_value (moved lx (p + 1) 91 sp ac (SAX_MODE_ARRAY :: st))
        (depth_inc (deliver vt cs .start_array)) := by
  have hge : ¬ p ≥ lx.ep := by omega
  have hfull : ¬ st.length ≥ 511 := by omega
  simp [step, start_key_object, next_ch, moved, hc, hge, isSpace, open_container,
    CHECK_CB_deliver hz, SYNTAX_PUSH, stack_depth, AJSON_SAX_MAX_STACK_DEPTH, hfull]

theorem tok_shut_object {vt : H → ajson_sax_cb_t σ H} (hz : ReturnsZero vt) (lx : Lexer)
    (p ch sp : Nat) (st : List Nat) (cs : Consumer σ H) (hp : p < lx.ep)
    (hc : rd lx.mem p = 125) :
    step vt .start_key (moved lx p ch sp false st) cs =
      .goto .determine_next_step (moved lx (p + 1) 125 sp false st.tail)
        (depth_dec (deliver vt cs .end_object)) := by
  have hge : ¬ p ≥ lx.ep := by omega
  simp [step, start_key, next_ch, moved, hc, hge, isSpace, close_here, CHECK_CB_deliver hz,
    SYNTAX_POP]

theorem tok_shut_array {vt : H → ajson_sax_cb_t σ H} (hz : ReturnsZero vt) (lx : Lexer)
    (p ch sp : Nat) (st : List Nat) (cs : Consumer σ H) (hp : p < lx.ep)
    (hc : rd lx.mem p = 93) :
    step vt .start_value (moved lx p ch sp false st) cs =
      .goto .determine_next_step (moved lx (p + 1) 93 sp false st.tail)
        (depth_dec (deliver vt cs .end_array)) := by
  have hge : ¬ p ≥ lx.ep := by omega
  simp [step, start_value, next_ch, moved, hc, hge, isSpace, close_here, CHECK_CB_deliver hz,
    SYNTAX_POP]

theorem tok_close_array {vt : H → ajson_sax_cb_t σ H} (hz : ReturnsZero vt) (lx : Lexer)
    (p sp : Nat) (st : List Nat) (cs : Consumer σ H) :
    step vt .look_for_next_object (moved lx p 93 sp false st) cs =
      .goto .determine_next_step (moved lx (p + 1) 93 sp false st.tail)
        (depth_dec (deliver vt cs .end_array)) := by
  simp [step, look_for_next_object, moved, close_ahead, CHECK_CB_deliver hz, SYNTAX_POP]

theorem tok_next_array (vt : H → ajson_sax_cb_t σ H) (lx : Lexer)
    (p ch sp : Nat) (ac : Bool) (st : List Nat) (cs : Consumer σ H) (hp : p < lx.ep) :
    step vt .determine_next_step (moved lx p ch sp ac (SAX_MODE_ARRAY :: st)) cs =
      .goto .look_for_next_object (moved lx p (rd lx.mem p) sp ac (SAX_MODE_ARRAY :: st)) cs := by
  have hge : ¬ p ≥ lx.ep := by omega
  simp [step, determine_next_step, moved, stack_depth, hge, CURRENT_MODE, SAX_MODE_ARRAY,
    SAX_MODE_OBJECT]

theorem tok_comma_array (vt : H → ajson_sax_cb_t σ H) (lx : Lexer)
    (p sp : Nat) (ac : Bool) (st : List Nat) (cs : Consumer σ H) (hp : p < lx.ep) :
    step vt .look_for_next_object (moved lx p 44 sp ac st) cs =
      .goto .start_value (moved lx (p + 1) 44 sp true st) cs := by
  have hge : ¬ p ≥ lx.ep := by omega
  simp [step, look_for_next_object, moved, hge]

/-- The key `K` under the cursor, its closing quote followed by whitespace and
the colon. -/
theorem tok_key_blank {vt : H → ajson_sax_cb_t σ H} (hz : ReturnsZero vt) (lx : Lexer)
    (p ch : Nat) (st : List Nat) (cs : Consumer σ H) (K w : List Nat)
    (hatK : At lx.mem p K) (h34 : rd lx.mem (p + K.length) = 34)
    (hatw : At lx.mem (p + K.length + 1) w) (h58 : rd lx.mem (p + K.length + 1 + w.length) = 58)
    (hK : PlainKey K) (hw : Blank w) (ho : rd lx.mem (p - 1) = 34)
    (hq : p + K.length + 1 + w.length < lx.ep) :
    step vt .get_end_of_key (moved lx p ch p false st) cs =
      .goto .start_key_object (moved lx (p + K.length + 1 + w.length + 1) ch p false st)
        (deliver vt cs (.key K)) := by
  have hscan : scan_to lx.mem lx.ep 34 (lx.ep - p) p = p + K.length := by
    apply scan_to_eq _ _ _ _ _ _ (by omega) (by omega) (by omega) _ (Or.inr h34)
    intro i h1 h2
    have := hatK (i - p) (by omega)
    rw [show p + (i - p) = i by omega] at this
    rw [this]
    exact (hK _ (rd_mem_of_lt _ _ (by omega))).2.1
  have hscan2 : scan_to lx.mem lx.ep 58 (lx.ep - (p + K.length + 1)) (p + K.length + 1) =
      p + K.length + 1 + w.length := by
    apply scan_to_eq _ _ _ _ _ _ (by omega) (by omega) (by omega) _ (Or.inr h58)
    intro i h1 h2
    have := hatw (i - (p + K.length + 1)) (by omega)
    rw [show p + K.length + 1 + (i - (p + K.length + 1)) = i by omega] at this
    rw [this]
    exact (space_ne (hw _ (rd_mem_of_lt _ _ (by omega)))).2.2.2.2.1
  have hesc : ¬ escaped_quote lx.mem (p + K.length) := by
    unfold escaped_quote
    intro h
    by_cases hk : K.length = 0
    · rw [hk, Nat.add_zero, ho] at h
      omega
    · have := hatK (K.length - 1) (by omega)
      rw [show p + (K.length - 1) = p + K.length - 1 by omega] at this
      rw [this] at h
      exact (hK _ (rd_mem_of_lt _ _ (by omega))).2.2 h.1
  have hsl : slice (wr lx.mem (p + K.length) 0) p (p + K.length - p) = K := by
    rw [slice_wr_end _ _ _ _ (by omega)]
    simpa using slice_of_At lx.mem p K hatK (fun c hc => by
      have := (hK c hc).1
      omega)
  have hres := wr_quote_restore lx.mem (p + K.length) h34
  have hlt : p + K.length < lx.ep := by omega
  show get_end_of_key vt (moved lx p ch p false st) cs = _
  unfold get_end_of_key
  simp only [moved, hscan, hesc, and_false, if_false, hlt, if_true]
  unfold finish_key
  rw [CHECK_CB_deliver hz]
  simp only [hsl, hres, hscan2]

theorem scans_of_nested {vt : H → ajson_sax_cb_t σ H} (hc : Complete vt) {ph : Phrase}
    {t : List Nat} {d o a m : Nat} (h : Nested ph t d o a m) : Scans vt ph t d o a m := by
  have hz := ReturnsZero_of_complete hc
  induction h with
  | empty_object w hw =>
    intro lx p ch sp ac st cs l hl hat hep hst
    obtain ⟨h123, hat1⟩ := At_cons hat
    obtain ⟨hatw, hat2⟩ := At_append hat1
    have h125 : rd lx.mem (p + 1 + w.length) = 125 := (At_cons hat2).1
    have hlen : (123 :: (w ++ [125])).length = w.length + 2 := by simp
    rw [hlen] at hep ⊢
    have s1 : step vt l (moved lx p ch sp ac st) cs =
        .goto .start_key (moved lx (p + 1) 123 sp false (SAX_MODE_OBJECT :: st))
          (depth_inc (deliver vt cs .start_object)) := by
      rcases hl with rfl | ⟨rfl, rfl⟩
      · exact tok_open_value hz lx p ch sp ac st cs (by omega) h123 (by omega)
      · exact tok_open_member hz lx p ch sp false st cs (by omega) h123 (by omega)
    obtain ⟨ch1, s2⟩ := skip_blank vt .start_key lx w (p + 1) 123 sp false
      (SAX_MODE_OBJECT :: st) (depth_inc (deliver vt cs .start_object)) (Or.inr (Or.inl rfl))
      hw hatw (by omega)
    have s3 := tok_shut_object hz lx (p + 1 + w.length) ch1 sp (SAX_MODE_OBJECT :: st)
      (depth_inc (deliver vt cs .start_object)) (by omega) h125
    have hr := reach_step (reach_trans (reach_one s1) s2) s3
    rw [show p + 1 + w.length + 1 = p + (w.length + 2) by omega] at hr
    exact ⟨_, _, _, _, hr, Tally_eq (Tally_trans (Tally_start_object hc cs)
      (Tally_end_object hc _)) rfl rfl rfl rfl rfl⟩
  | object b d o a m _ ih =>
    intro lx p ch sp ac st cs l hl hat hep hst
    obtain ⟨h123, hat1⟩ := At_cons hat
    obtain ⟨hatb, hat2⟩ := At_append hat1
    have h125 : rd lx.mem (p + 1 + b.length) = 125 := (At_cons hat2).1
    have hlen : (123 :: (b ++ [125])).length = b.length + 2 := by simp
    rw [hlen] at hep ⊢
    have s1 : step vt l (moved lx p ch sp ac st) cs =
        .goto .start_key (moved lx (p + 1) 123 sp false (SAX_MODE_OBJECT :: st))
          (depth_inc (deliver vt cs .start_object)) := by
      rcases hl with rfl | ⟨rfl, rfl⟩
      · exact tok_open_value hz lx p ch sp ac st cs (by omega) h123 (by omega)
      · exact tok_open_member hz lx p ch sp false st cs (by omega) h123 (by omega)
    obtain ⟨k2, sp1, cs2, s2, t2⟩ := ih lx (p + 1) 123 sp false st
      (depth_inc (deliver vt cs .start_object)) hatb (by omega) (by omega)
    rw [h125] at s2
    have s3 := tok_close hz lx (p + 1 + b.length) sp1 (SAX_MODE_OBJECT :: st) cs2
    have hr := reach_step (reach_trans (reach_one s1) s2) s3
    rw [show p + 1 + b.length + 1 = p + (b.length + 2) by omega] at hr
    exact ⟨_, _, _, _, hr, Tally_eq (Tally_trans (Tally_trans (Tally_start_object hc cs)
      t2) (Tally_end_object hc _)) (by omega) (by omega) (by omega) (by omega) (by omega)⟩
  | empty_array w hw =>
    intro lx p ch sp ac st cs l hl hat hep hst
    obtain ⟨h91, hat1⟩ := At_cons hat
    obtain ⟨hatw, hat2⟩ := At_append hat1
    have h93 : rd lx.mem (p + 1 + w.length) = 93 := (At_cons hat2).1
    have hlen : (91 :: (w ++ [93])).length = w.length + 2 := by simp
    rw [hlen] at hep ⊢
    have s1 : step vt l (moved lx p ch sp ac st) cs =
        .goto .start_value (moved lx (p + 1) 91 sp false (SAX_MODE_ARRAY :: st))
          (depth_inc (deliver vt cs .start_array)) := by
      rcases hl with rfl | ⟨rfl, rfl⟩
      · exact tok_open_array hz lx p ch sp ac st cs (by omega) h91 (by omega)
      · exact tok_open_array_member hz lx p ch sp false st cs (by omega) h91 (by omega)
    obtain ⟨ch1, s2⟩ := skip_blank vt .start_value lx w (p + 1) 91 sp false
      (SAX_MODE_ARRAY :: st) (depth_inc (deliver vt cs .start_array)) (Or.inl rfl)
      hw hatw (by omega)
    have s3 := tok_shut_array hz lx (p + 1 + w.length) ch1 sp (SAX_MODE_ARRAY :: st)
      (depth_inc (deliver vt cs .start_array)) (by omega) h93
    have hr := reach_step (reach_trans (reach_one s1) s2) s3
    rw [show p + 1 + w.length + 1 = p + (w.length + 2) by omega] at hr
    exact ⟨_, _, _, _, hr, Tally_eq (Tally_trans (Tally_start_array hc cs)
      (Tally_end_array hc _)) rfl rfl rfl rfl rfl⟩
  | array b d o a m _ ih =>
    intro lx p ch sp ac st cs l hl hat hep hst
    obtain ⟨h91, hat1⟩ := At_cons hat
    obtain ⟨hatb, hat2⟩ := At_append hat1
    have h93 : rd lx.mem (p + 1 + b.length) = 93 := (At_cons hat2).1
    have hlen : (91 :: (b ++ [93])).length = b.length + 2 := by simp
    rw [hlen] at hep ⊢
    have s1 : step vt l (moved lx p ch sp ac st) cs =
        .goto .start_value (moved lx (p + 1) 91 sp false (SAX_MODE_ARRAY :: st))
          (depth_inc (deliver vt cs .start_array)) := by
      rcases hl with rfl | ⟨rfl, rfl⟩
      · exact tok_open_array hz lx p ch sp ac st cs (by omega) h91 (by omega)
      · exact tok_open_array_member hz lx p ch sp false st cs (by omega) h91 (by omega)
    obtain ⟨k2, sp1, cs2, s2, t2⟩ := ih lx (p + 1) 91 sp false st
      (depth_inc (deliver vt cs .start_array)) hatb (by omega) (by omega)
    rw [h93] at s2
    have s3 := tok_close_array hz lx (p + 1 + b.length) sp1 (SAX_MODE_ARRAY :: st) cs2
    have hr := reach_step (reach_trans (reach_one s1) s2) s3
    rw [show p + 1 + b.length + 1 = p + (b.length + 2) by omega] at hr
    exact ⟨_, _, _, _, hr, Tally_eq (Tally_trans (Tally_trans (Tally_start_array hc cs)
      t2) (Tally_end_array hc _)) (by omega) (by omega) (by omega) (by omega) (by omega)⟩
  | member w1 K w2 w3 v w4 d o a m h1 hK h2 h3 _ h4 ih =>
    intro lx p ch sp ac st cs hat hep hst
    obtain ⟨hatw1, hatA⟩ := At_append hat
    obtain ⟨h34a, hatB⟩ := At_cons hatA
    obtain ⟨hatK, hatC⟩ := At_append hatB
    obtain ⟨h34b, hatD⟩ := At_cons hatC
    obtain ⟨hatw2, hatE⟩ := At_append hatD
    obtain ⟨h58, hatF⟩ := At_cons hatE
    obtain ⟨hatw3, hatG⟩ := At_append hatF
    obtain ⟨hatv, hatw4⟩ := At_append hatG
    have hlen : (w1 ++ (34 :: (K ++ (34 :: (w2 ++ (58 :: (w3 ++ (v ++ w4)))))))).length =
        w1.length + 1 + K.length + 1 + w2.length + 1 + w3.length + v.length + w4.length := by
      simp
      omega
    rw [hlen] at hep ⊢
    obtain ⟨ch1, s1⟩ := skip_blank vt .start_key lx w1 p ch sp ac (SAX_MODE_OBJECT :: st) cs
      (Or.inr (Or.inl rfl)) h1 hatw1 (by omega)
    have s2 := tok_key_open vt lx (p + w1.length) ch1 sp ac (SAX_MODE_OBJECT :: st) cs
      (by omega) h34a
    have s3 := tok_key_blank hz lx (p + w1.length + 1) 34 (SAX_MODE_OBJECT :: st) cs K w2
      hatK h34b hatw2 h58 hK h2 (by rw [Nat.add_sub_cancel]; exact h34a) (by omega)
    obtain ⟨ch2, s4⟩ := skip_blank vt .start_key_object lx w3
      (p + w1.length + 1 + K.length + 1 + w2.length + 1) 34 (p + w1.length + 1) false
      (SAX_MODE_OBJECT :: st) (deliver vt cs (.key K)) (Or.inr (Or.inr rfl)) h3 hatw3 (by omega)
    obtain ⟨k5, ch3, sp3, cs5, s5, t5⟩ := ih lx
      (p + w1.length + 1 + K.length + 1 + w2.length + 1 + w3.length) ch2 (p + w1.length + 1)
      false (SAX_MODE_OBJECT :: st) (deliver vt cs (.key K)) .start_key_object
      (Or.inr ⟨rfl, rfl⟩) hatv (by omega) (by simp only [List.length_cons]; omega)
    have s6 := tok_next vt lx
      (p + w1.length + 1 + K.length + 1 + w2.length + 1 + w3.length + v.length) ch3 sp3 false
      st cs5 (by omega)
    have s7 := skip_gap vt .look_for_key lx w4
      (p + w1.length + 1 + K.length + 1 + w2.length + 1 + w3.length + v.length) sp3 false
      (SAX_MODE_OBJECT :: st) cs5 (Or.inl rfl) h4 hatw4 (by omega)
    have hr := reach_trans (reach_step (reach_trans (reach_trans (reach_step (reach_step s1 s2) s3)
      s4) s5) s6) s7
    rw [show p + w1.length + 1 + K.length + 1 + w2.length + 1 + w3.length + v.length +
        w4.length = p + (w1.length + 1 + K.length + 1 + w2.length + 1 + w3.length + v.length +
        w4.length) by omega] at hr
    exact ⟨_, _, _, hr, Tally_eq (Tally_trans (Tally_key hc cs K) t5) (by omega)
      (by omega) (by omega) (by omega) (by omega)⟩
  | one_member b d o a m _ ih => exact ih
  | more_members b r d o a m d1 o1 a1 m1 _ _ ih ihr =>
    intro lx p ch sp ac st cs hat hep hst
    obtain ⟨hatb, hatX⟩ := At_append hat
    obtain ⟨h44, hatr⟩ := At_cons hatX
    have hlen : (b ++ (44 :: r)).length = b.length + 1 + r.length := by
      simp
      omega
    rw [hlen] at hep ⊢
    obtain ⟨k1, sp1, cs1, s1, t1⟩ := ih lx p ch sp ac st cs hatb (by omega) (by omega)
    rw [h44] at s1
    have s2 := tok_comma vt lx (p + b.length) sp1 false (SAX_MODE_OBJECT :: st) cs1 (by omega)
    obtain ⟨k3, sp3, cs3, s3, t3⟩ := ihr lx (p + b.length + 1) 44 sp1 true st cs1 hatr
      (by omega) (by omega)
    have hr := reach_trans (reach_step s1 s2) s3
    rw [show p + b.length + 1 + r.length = p + (b.length + 1 + r.length) by omega] at hr
    exact ⟨_, _, _, hr, Tally_trans t1 t3⟩
  | element w1 v w2 d o a m h1 _ h2 ih =>
    intro lx p ch sp ac st cs hat hep hst
    obtain ⟨hatw1, hatA⟩ := At_append hat
    obtain ⟨hatv, hatw2⟩ := At_append hatA
    have hlen : (w1 ++ (v ++ w2)).length = w1.length + v.length + w2.length := by
      simp
      omega
    rw [hlen] at hep ⊢
    obtain ⟨ch1, s1⟩ := skip_blank vt .start_value lx w1 p ch sp ac (SAX_MODE_ARRAY :: st) cs
      (Or.inl rfl) h1 hatw1 (by omega)
    obtain ⟨k2, ch2, sp2, cs2, s2, t2⟩ := ih lx (p + w1.length) ch1 sp ac
      (SAX_MODE_ARRAY :: st) cs .start_value (Or.inl rfl) hatv (by omega)
      (by simp only [List.length_cons]; omega)
    have s3 := tok_next_array vt lx (p + w1.length + v.length) ch2 sp2 false st cs2 (by omega)
    have s4 := skip_gap vt .look_for_next_object lx w2 (p + w1.length + v.length) sp2 false
      (SAX_MODE_ARRAY :: st) cs2 (Or.inr rfl) h2 hatw2 (by omega)
    have hr := reach_trans (reach_step (reach_trans s1 s2) s3) s4
    rw [show p + w1.length + v.length + w2.length = p + (w1.length + v.length + w2.length) by omega] at hr
    exact ⟨_, _, _, hr, t2⟩
  | one_element b d o a m _ ih => exact ih
  | more_elements b r d o a m d1 o1 a1 m1 _ _ ih ihr =>
    intro lx p ch sp ac st cs hat hep hst
    obtain ⟨hatb, hatX⟩ := At_append hat
    obtain ⟨h44, hatr⟩ := At_cons hatX
    have hlen : (b ++ (44 :: r)).length = b.length + 1 + r.length := by
      simp
      omega
    rw [hlen] at hep ⊢
    obtain ⟨k1, sp1, cs1, s1, t1⟩ := ih lx p ch sp ac st cs hatb (by omega) (by omega)
    rw [h44] at s1
    have s2 := tok_comma_array vt lx (p + b.length) sp1 false (SAX_MODE_ARRAY :: st) cs1
      (by omega)
    obtain ⟨k3, sp3, cs3, s3, t3⟩ := ihr lx (p + b.length + 1) 44 sp1 true st cs1 hatr
      (by omega) (by omega)
    have hr := reach_trans (reach_step s1 s2) s3
    rw [show p + b.length + 1 + r.length = p + (b.length + 1 + r.length) by omega] at hr
    exact ⟨_, _, _, hr, Tally_trans t1 t3⟩

end Nesting

section NestedDoc

variable {σ H : Type}

/-- A document whose root is a value of the grammar of nested containers, at most
511 deep, after leading whitespace: the parse returns 0, and the callbacks logged
are the starts and ends of its objects and arrays and one key for each member. -/
theorem nested_doc_run {vt : H → ajson_sax_cb_t σ H} (hc : Complete vt) (w0 v w1 : List Nat)
    (d o a m : Nat) (cb : H) (ctx : σ) (h0 : Blank w0) (hv : Nested .value v d o a m)
    (hd : d ≤ 511) :
    ∃ r, parse_doc vt (w0 ++ (v ++ w1)) cb ctx = some r ∧ r.rc = 0 ∧
      Tally (init_consumer cb ctx) r.cs o o a a m := by
  have hpos : 0 < v.length := by
    cases hv <;> simp
  generalize hlx : init_lexer (w0 ++ (v ++ w1) ++ [0]) (w0 ++ (v ++ w1)).length = lx
  have hmem : lx.mem = w0 ++ (v ++ (w1 ++ [0])) := by
    rw [← hlx]
    simp [init_lexer]
  have hepv : lx.ep = w0.length + v.length + w1.length := by
    rw [← hlx]
    simp [init_lexer]
    omega
  have hinit : lx = moved lx 0 0 0 false [] := by rw [← hlx]; rfl
  have hat0 : At lx.mem 0 w0 := by
    rw [hmem]
    exact At_append_mid [] w0 _
  have hatv : At lx.mem (0 + w0.length) v := by
    rw [hmem, Nat.zero_add]
    exact At_append_mid w0 v _
  obtain ⟨ch1, s1⟩ := skip_blank vt .start_value lx w0 0 0 0 false [] (init_consumer cb ctx)
    (Or.inl rfl) h0 hat0 (by omega)
  obtain ⟨k2, ch2, sp2, cs2, s2, t2⟩ := scans_of_nested hc hv lx (0 + w0.length) ch1 0 false []
    (init_consumer cb ctx) .start_value (Or.inl rfl) hatv (by omega) (by simpa using hd)
  have s3 := tok_end vt lx (0 + w0.length + v.length) ch2 sp2 false cs2
  have hreach := reach_trans s1 s2
  rw [← hinit] at hreach
  have hends := Ends_of_reach hreach (@Ends_ret σ H vt _ _ _ _ _
    (fun r => r.rc = 0 ∧ Tally (init_consumer cb ctx) r.cs o o a a m) _ s3 ⟨rfl, t2⟩)
  rw [← hlx] at hends
  exact ajson_sax_parse_of_Ends (by simp; omega) hends

end NestedDoc


/-! ### The bytes between a key and its colon -/

section KeyGapScan

variable {σ H : Type}

/-- The closing quote of a key stands at `q` and the next colon at `c`: the key
event is delivered and the cursor goes right after that colon, whatever bytes
stand between the quote and the colon. -/
theorem key_gap_skipped (vt : H → ajson_sax_cb_t σ H) (hz : ReturnsZero vt)
    (lx : Lexer) (cs : Consumer σ H) (q c : Nat) (hk : KeyEndsAt lx q) (hqc : q < c)
    (hc : c < lx.ep) (h58 : rd lx.mem c = 58) (hno : ∀ i, i < c → q < i → rd lx.mem i ≠ 58) :
    step vt .get_end_of_key lx cs =
      .goto .start_key_object { lx with p := c + 1 }
        (deliver vt cs (.key (slice (wr lx.mem q 0) lx.stringp (q - lx.stringp)))) := by
  obtain ⟨hpq, hq, hnq, hquote, hesc⟩ := hk
  have hscan : scan_to lx.mem lx.ep 34 (lx.ep - lx.p) lx.p = q :=
    scan_to_eq _ _ _ _ _ _ hpq (by omega) (by omega) (fun i h1 h2 => hnq i h2 h1) (Or.inr hquote)
  have hres := wr_quote_restore lx.mem q hquote
  have hcolon : scan_to lx.mem lx.ep 58 (lx.ep - (q + 1)) (q + 1) = c :=
    scan_to_eq _ _ _ _ _ _ (by omega) (by omega) (by omega) (fun i h1 h2 => hno i h2 (by omega))
      (Or.inr h58)
  simp only [step, get_end_of_key, hscan, hesc, and_false, if_false, hq, if_true, finish_key]
  rw [CHECK_CB_deliver hz]
  simp only [hres, hcolon]

end KeyGapScan

/-! ### The callbacks of the literal cases -/

section LiteralEvents

variable {σ H : Type}

theorem wp_expect_all {P : Step σ H → Prop} (cs : Consumer σ H) (word : List Nat)
    (lx : Lexer) (k : Lexer → Step σ H) (herr : ∀ lx1 : Lexer, P (SAX_ERROR lx1 cs))
    (hk : (∀ i, i < word.length → rd lx.mem (lx.p + i) = rd word i) →
      P (k { lx with p := lx.p + word.length })) :
    P (expect_all cs word lx k) := by
  induction word generalizing lx with
  | nil => exact hk (fun i hi => absurd hi (Nat.not_lt_zero i))
  | cons c word ih =>
    unfold expect_all
    refine wp_expect lx cs c _ (fun _ => herr _) (fun hc => ?_)
    refine ih { lx with p := lx.p + 1 } (fun hm => ?_)
    have := hk (fun i hi => by
      cases i with
      | zero => simpa [rd] using hc
      | succ i =>
        have := hm i (by simpa using hi)
        simpa [rd, Nat.add_assoc, Nat.add_comm 1 i] using this)
    simpa [Nat.add_assoc, Nat.add_comm 1 word.length] using this

theorem Logs_quiet {cs : Consumer σ H} {E : Event → Prop} {s : Step σ H}
    (h : s.consumer.trace = cs.trace) : Logs cs E s := by
  intro ev rc he
  rw [h] at he
  have := congrArg List.length he
  simp at this

theorem Logs_CHECK_CB (vt : H → ajson_sax_cb_t σ H) (lx : Lexer) (cs : Consumer σ H)
    (E : Event → Prop) (ev : Event) (k : Consumer σ H → Step σ H)
    (hk : ∀ cs1, (k cs1).consumer.trace = cs1.trace) (hE : E ev) :
    Logs cs E (CHECK_CB vt lx cs ev k) := by
  have hlast : ∀ (c : σ) (s : ajson_sax_t H) (rc : Int) (t : Step σ H),
      t.consumer.trace = (after_cb cs ev c s rc).trace → Logs cs E t := by
    intro c s rc t ht ev1 rc1 he
    rw [ht] at he
    have := List.append_cancel_left he
    simp only [List.cons.injEq, Prod.mk.injEq, and_true] at this
    rw [← this.1]
    exact hE
  exact wp_CHECK_CB vt lx cs ev k (fun _ => Logs_quiet (hk cs))
    (fun c s rc _ _ => hlast c s rc _ rfl) (fun c s _ => hlast c s 0 _ (hk _))

theorem Logs_open_container (vt : H → ajson_sax_cb_t σ H) (lx : Lexer) (cs : Consumer σ H)
    (E : Event → Prop) (ev : Event) (mode : Nat) (next : Label) (hE : E ev) :
    Logs cs E (open_container vt lx cs ev mode next) := by
  unfold open_container
  refine Logs_CHECK_CB vt lx cs E ev _ (fun cs1 => ?_) hE
  exact @wp_SYNTAX_PUSH σ H (fun s => s.consumer.trace = cs1.trace) lx cs1 mode _
    (fun _ => rfl) (fun _ => rfl)

theorem Logs_close_here (vt : H → ajson_sax_cb_t σ H) (lx : Lexer) (cs : Consumer σ H)
    (E : Event → Prop) (ev : Event) (hE : E ev) : Logs cs E (close_here vt lx cs ev) := by
  unfold close_here
  refine wp_ite (fun _ => Logs_quiet rfl) (fun _ => ?_)
  exact Logs_CHECK_CB vt lx cs E ev _ (fun _ => rfl) hE

theorem Logs_zero_case (vt : H → ajson_sax_cb_t σ H) (lx : Lexer) (cs : Consumer σ H)
    (E : Event → Prop) (dec digit next : Label) (hE : E (.number [48])) :
    Logs cs E (zero_case vt lx cs dec digit next) := by
  unfold zero_case
  dsimp only
  refine wp_ite (fun _ => Logs_quiet rfl) (fun _ => ?_)
  refine wp_ite (fun _ => Logs_quiet rfl) (fun _ => ?_)
  refine wp_ite (fun _ => Logs_quiet rfl) (fun _ => ?_)
  exact Logs_CHECK_CB vt lx cs E _ _ (fun _ => rfl) hE

theorem Logs_start_value_minus (vt : H → ajson_sax_cb_t σ H) (lx : Lexer)
    (cs : Consumer σ H) (E : Event → Prop) (hE : E (.number [45, 48])) :
    Logs cs E (start_value_minus vt lx cs) := by
  unfold start_value_minus
  refine wp_ite (fun _ => ?_) (fun _ => ?_)
  · dsimp only
    refine wp_ite (fun _ => Logs_quiet rfl) (fun _ => ?_)
    refine wp_ite (fun _ => Logs_quiet rfl) (fun _ => ?_)
    refine wp_ite (fun _ => Logs_quiet rfl) (fun _ => ?_)
    exact Logs_CHECK_CB vt lx cs E _ _ (fun _ => rfl) hE
  · exact wp_ite (fun _ => Logs_quiet rfl) (fun _ => Logs_quiet rfl)

theorem Logs_start_key_object_minus (vt : H → ajson_sax_cb_t σ H) (lx : Lexer)
    (cs : Consumer σ H) (E : Event → Prop) (hE : E (.number [45, 48])) :
    Logs cs E (start_key_object_minus vt lx cs) := by
  unfold start_key_object_minus
  refine wp_ite (fun _ => ?_) (fun _ => ?_)
  · dsimp only
    refine wp_ite (fun _ => Logs_quiet rfl) (fun _ => ?_)
    refine wp_ite (fun _ => Logs_quiet rfl) (fun _ => ?_)
    refine wp_ite (fun _ => Logs_quiet rfl) (fun _ => ?_)
    exact Logs_CHECK_CB vt lx cs E _ _ (fun _ => rfl) hE
  · exact wp_ite (fun _ => Logs_quiet rfl) (fun _ => Logs_quiet rfl)

theorem Logs_literal (vt : H → ajson_sax_cb_t σ H) (lx : Lexer) (cs : Consumer σ H)
    (E : Event → Prop) (word : List Nat) (ev : Event) (next : Label)
    (hE : lx.p + word.length ≤ lx.ep →
      (∀ i, i < word.length → rd lx.mem (lx.p + i) = rd word i) → E ev) :
    Logs cs E (literal vt lx cs word ev next) := by
  unfold literal
  refine wp_ite (fun _ => Logs_quiet rfl) (fun hroom => ?_)
  refine wp_expect_all cs word lx _ (fun _ => Logs_quiet rfl) (fun hm => ?_)
  exact Logs_CHECK_CB vt _ cs E ev _ (fun _ => rfl) (hE (by omega) hm)

/-- The bytes of a literal at the cursor, the first one read by `ch = *p++` and the
others checked one by one. -/
theorem WordAt_of_checks (lx : Lexer) (f : Nat) (word : List Nat)
    (hf : rd lx.mem lx.p = f) (hroom : lx.p + 1 + word.length ≤ lx.ep)
    (hm : ∀ i, i < word.length → rd lx.mem (lx.p + 1 + i) = rd word i) :
    WordAt lx (f :: word) := by
  refine ⟨by simp; omega, fun i hi => ?_⟩
  cases i with
  | zero => simpa [rd] using hf
  | succ i =>
    have := hm i (by simpa using hi)
    simpa [rd, Nat.add_assoc, Nat.add_comm 1 i] using this

/-- At a value position the callback of a literal is invoked only when the bytes
at the cursor are those of the literal, wholly inside the buffer. -/
theorem literal_event_at_text (vt : H → ajson_sax_cb_t σ H) (l : Label)
    (hl : l = .start_value ∨ l = .start_key_object) (lx : Lexer) (cs : Consumer σ H) :
    Logs cs (fun ev => ∀ word, literal_text ev = some word → WordAt lx word)
      (step vt l lx cs) := by
  have hno : ∀ ev, literal_text ev = none →
      ∀ word, literal_text ev = some word → WordAt lx word := by
    intro ev h word hw
    rw [h] at hw
    cases hw
  have hlit : ∀ (ac : Bool) (f : Nat) (word : List Nat) (ev : Event) (next : Label),
      (next_ch lx).ch = f → literal_text ev = some (f :: word) →
      Logs cs (fun ev => ∀ word, literal_text ev = some word → WordAt lx word)
        (literal vt { next_ch lx with after_comma := ac } cs word ev next) := by
    intro ac f word ev next hf ht
    refine Logs_literal vt _ cs _ word ev next (fun hroom hm w hw => ?_)
    rw [ht] at hw
    obtain rfl := Option.some.inj hw
    exact WordAt_of_checks lx f word hf (by simpa [next_ch, Nat.add_assoc] using hroom)
      (fun i hi => by simpa [next_ch] using hm i hi)
  rcases hl with rfl | rfl
  · show Logs cs _ (start_value vt lx cs)
    unfold start_value
    dsimp only
    refine wp_ite (fun _ => Logs_quiet rfl) (fun _ => ?_)
    refine wp_ite (fun _ => Logs_quiet rfl) (fun _ => ?_)
    refine wp_ite (fun _ => Logs_quiet rfl) (fun _ => ?_)
    refine wp_ite (fun _ => Logs_open_container vt _ cs _ _ _ _ (hno _ rfl)) (fun _ => ?_)
    refine wp_ite (fun _ => Logs_open_container vt _ cs _ _ _ _ (hno _ rfl)) (fun _ => ?_)
    refine wp_ite (fun _ => Logs_close_here vt _ cs _ _ (hno _ rfl)) (fun _ => ?_)
    refine wp_ite (fun _ => Logs_start_value_minus vt _ cs _ (hno _ rfl)) (fun _ => ?_)
    refine wp_ite (fun _ => Logs_zero_case vt _ cs _ _ _ _ (hno _ rfl)) (fun _ => ?_)
    refine wp_ite (fun _ => Logs_quiet rfl) (fun _ => ?_)
    refine wp_ite (fun h => hlit false _ _ _ _ h rfl) (fun _ => ?_)
    refine wp_ite (fun h => hlit false _ _ _ _ h rfl) (fun _ => ?_)
    exact wp_ite (fun h => hlit false _ _ _ _ h rfl) (fun _ => Logs_quiet rfl)
  · show Logs cs _ (start_key_object vt lx cs)
    unfold start_key_object
    dsimp only
    refine wp_ite (fun _ => Logs_quiet rfl) (fun _ => ?_)
    refine wp_ite (fun _ => Logs_quiet rfl) (fun _ => ?_)
    refine wp_ite (fun _ => Logs_quiet rfl) (fun _ => ?_)
    refine wp_ite (fun _ => Logs_open_container vt _ cs _ _ _ _ (hno _ rfl)) (fun _ => ?_)
    refine wp_ite (fun _ => Logs_open_container vt _ cs _ _ _ _ (hno _ rfl)) (fun _ => ?_)
    refine wp_ite (fun _ => Logs_start_key_object_minus vt _ cs _ (hno _ rfl)) (fun _ => ?_)
    refine wp_ite (fun _ => Logs_zero_case vt _ cs _ _ _ _ (hno _ rfl)) (fun _ => ?_)
    refine wp_ite (fun _ => Logs_quiet rfl) (fun _ => ?_)
    refine wp_ite (fun h => hlit lx.after_comma _ _ _ _ h rfl) (fun _ => ?_)
    refine wp_ite (fun h => hlit lx.after_comma _ _ _ _ h rfl) (fun _ => ?_)
    exact wp_ite (fun h => hlit lx.after_comma _ _ _ _ h rfl) (fun _ => Logs_quiet rfl)

end LiteralEvents

section LiteralAccepted

variable {σ H : Type}

/-- At a value position whose cursor stands on the bytes of a literal, wholly
inside the buffer, the callback of the literal is invoked and the parse goes on
right after the literal, whatever byte follows it. -/
theorem literal_accepted {vt : H → ajson_sax_cb_t σ H} (hz : ReturnsZero vt) (l : Label)
    (hl : l = .start_value ∨ l = .start_key_object) (lx : Lexer) (cs : Consumer σ H)
    (ev : Event) (word : List Nat) (ht : literal_text ev = some word) (hw : WordAt lx word) :
    ∃ lx1, step vt l lx cs = .goto (after_scalar l) lx1 (deliver vt cs ev) ∧
      lx1.p = lx.p + word.length ∧ lx1.ch = rd lx.mem (lx.p + word.length) ∧
      lx1.mem = lx.mem ∧ lx1.ep = lx.ep ∧ lx1.stack = lx.stack := by
  obtain ⟨hroom, hb⟩ := hw
  have hsp : ∀ c : Nat, c = 116 ∨ c = 102 ∨ c = 110 → ¬ isSpace c := by
    intro c hc
    unfold isSpace
    omega
  cases ev with
  | bool b =>
    cases b with
    | true =>
      obtain rfl : [116, 114, 117, 101] = word := Option.some.inj ht
      have h0 : rd lx.mem lx.p = 116 := by simpa [rd] using hb 0 (by simp)
      have h1 : rd lx.mem (lx.p + 1) = 114 := by simpa [rd] using hb 1 (by simp)
      have h2 : rd lx.mem (lx.p + 1 + 1) = 117 := by simpa [rd] using hb 2 (by simp)
      have h3 : rd lx.mem (lx.p + 1 + 1 + 1) = 101 := by simpa [rd] using hb 3 (by simp)
      have hge : ¬ lx.p ≥ lx.ep := by simp at hroom; omega
      have hgt : ¬ lx.p + 1 + 3 > lx.ep := by simp at hroom; omega
      rcases hl with rfl | rfl
      · refine ⟨{ lx with p := lx.p + 1 + 1 + 1 + 1, ch := rd lx.mem (lx.p + 1 + 1 + 1 + 1), after_comma := false },
          ?_, rfl, rfl, rfl, rfl, rfl⟩
        simp [step, start_value, next_ch, hge, h0, isSpace, literal, hgt, expect_all, expect,
          h1, h2, h3, CHECK_CB_deliver hz, after_scalar]
      · refine ⟨{ lx with p := lx.p + 1 + 1 + 1 + 1, ch := rd lx.mem (lx.p + 1 + 1 + 1 + 1) },
          ?_, rfl, rfl, rfl, rfl, rfl⟩
        simp [step, start_key_object, next_ch, hge, h0, isSpace, literal, hgt, expect_all,
          expect, h1, h2, h3, CHECK_CB_deliver hz, after_scalar]
    | false =>
      obtain rfl : [102, 97, 108, 115, 101] = word := Option.some.inj ht
      have h0 : rd lx.mem lx.p = 102 := by simpa [rd] using hb 0 (by simp)
      have h1 : rd lx.mem (lx.p + 1) = 97 := by simpa [rd] using hb 1 (by simp)
      have h2 : rd lx.mem (lx.p + 1 + 1) = 108 := by simpa [rd] using hb 2 (by simp)
      have h3 : rd lx.mem (lx.p + 1 + 1 + 1) = 115 := by simpa [rd] using hb 3 (by simp)
      have h4 : rd lx.mem (lx.p + 1 + 1 + 1 + 1) = 101 := by simpa [rd] using hb 4 (by simp)
      have hge : ¬ lx.p ≥ lx.ep := by simp at hroom; omega
      have hgt : ¬ lx.p + 1 + 4 > lx.ep := by simp at hroom; omega
      rcases hl with rfl | rfl
      · refine ⟨{ lx with p := lx.p + 1 + 1 + 1 + 1 + 1, ch := rd lx.mem (lx.p + 1 + 1 + 1 + 1 + 1), after_comma := false },
          ?_, rfl, rfl, rfl, rfl, rfl⟩
        simp [step, start_value, next_ch, hge, h0, isSpace, literal, hgt, expect_all, expect,
          h1, h2, h3, h4, CHECK_CB_deliver hz, after_scalar]
      · refine ⟨{ lx with p := lx.p + 1 + 1 + 1 + 1 + 1, ch := rd lx.mem (lx.p + 1 + 1 + 1 + 1 + 1) },
          ?_, rfl, rfl, rfl, rfl, rfl⟩
        simp [step, start_key_object, next_ch, hge, h0, isSpace, literal, hgt, expect_all,
          expect, h1, h2, h3, h4, CHECK_CB_deliver hz, after_scalar]
  | null =>
    obtain rfl : [110, 117, 108, 108] = word := Option.some.inj ht
    have h0 : rd lx.mem lx.p = 110 := by simpa [rd] using hb 0 (by simp)
    have h1 : rd lx.mem (lx.p + 1) = 117 := by simpa [rd] using hb 1 (by simp)
    have h2 : rd lx.mem (lx.p + 1 + 1) = 108 := by simpa [rd] using hb 2 (by simp)
    have h3 : rd lx.mem (lx.p + 1 + 1 + 1) = 108 := by simpa [rd] using hb 3 (by simp)
    have hge : ¬ lx.p ≥ lx.ep := by simp at hroom; omega
    have hgt : ¬ lx.p + 1 + 3 > lx.ep := by simp at hroom; omega
    rcases hl with rfl | rfl
    · refine ⟨{ lx with p := lx.p + 1 + 1 + 1 + 1, ch := rd lx.mem (lx.p + 1 + 1 + 1 + 1), after_comma := false },
        ?_, rfl, rfl, rfl, rfl, rfl⟩
      simp [step, start_value, next_ch, hge, h0, isSpace, literal, hgt, expect_all, expect,
        h1, h2, h3, CHECK_CB_deliver hz, after_scalar]
    · refine ⟨{ lx with p := lx.p + 1 + 1 + 1 + 1, ch := rd lx.mem (lx.p + 1 + 1 + 1 + 1) },
        ?_, rfl, rfl, rfl, rfl, rfl⟩
      simp [step, start_key_object, next_ch, hge, h0, isSpace, literal, hgt, expect_all,
        expect, h1, h2, h3, CHECK_CB_deliver hz, after_scalar]
  | _ => cases ht

end LiteralAccepted

/-! ### The two sides of the state machine -/

section Sides

variable {σ H : Type}

theorem Turn_CHECK_CB (vt : H → ajson_sax_cb_t σ H) (l : Label) (lx lx1 : Lexer)
    (cs : Consumer σ H) (ev : Event) (k : Consumer σ H → Step σ H)
    (hk : ∀ cs1, Delivered vt cs ev cs1 → Turn vt l lx cs (k cs1)) :
    Turn vt l lx cs (CHECK_CB vt lx1 cs ev k) :=
  wp_CHECK_CB vt lx1 cs ev k (fun h => hk cs (Or.inl ⟨h, rfl⟩))
    (fun _ _ _ _ _ => Turn.ret _ _ _) (fun c s h => hk _ (Or.inr ⟨c, s, h, rfl⟩))

theorem Turn_plain (vt : H → ajson_sax_cb_t σ H) (l : Label) (lx lx1 : Lexer)
    (cs : Consumer σ H) (ev : Event) (next : Label) (f : Lexer) (ho : ev.opens = false)
    (hc : ev.closes = false) (h : f.stack = lx.stack) (hl : Follows l lx next) :
    Turn vt l lx cs (CHECK_CB vt lx1 cs ev fun cs1 => .goto next f cs1) :=
  Turn_CHECK_CB vt l lx lx1 cs ev _ (fun cs1 hd => Turn.scalar ev cs1 next f ho hc hd h hl)

theorem Turn_open_container (vt : H → ajson_sax_cb_t σ H) (l : Label) (lx lx1 : Lexer)
    (cs : Consumer σ H) (ev : Event) (mode : Nat) (next : Label) (hm : Opener ev mode next)
    (h : lx1.stack = lx.stack) : Turn vt l lx cs (open_container vt lx1 cs ev mode next) := by
  unfold open_container
  refine Turn_CHECK_CB vt l lx lx1 cs ev _ (fun cs1 hd => ?_)
  exact wp_SYNTAX_PUSH lx1 cs1 mode _ (fun _ => Turn.ret _ _ _)
    (fun _ => Turn.opened ev cs1 next _ mode hm hd (by rw [← h]))

theorem Turn_close_here (vt : H → ajson_sax_cb_t σ H) (l : Label) (lx lx1 : Lexer)
    (cs : Consumer σ H) (ev : Event) (hm : Closer l ev) (h : lx1.stack = lx.stack) :
    Turn vt l lx cs (close_here vt lx1 cs ev) := by
  unfold close_here
  refine wp_ite (fun _ => Turn.ret _ _ _) (fun _ => ?_)
  refine Turn_CHECK_CB vt l lx lx1 cs ev _ (fun cs1 hd => ?_)
  exact Turn.closed ev cs1 (SYNTAX_POP lx1) hm hd (by rw [← h]; rfl)

theorem Turn_close_ahead (vt : H → ajson_sax_cb_t σ H) (l : Label) (lx lx1 : Lexer)
    (cs : Consumer σ H) (ev : Event) (hm : Closer l ev) (h : lx1.stack = lx.stack) :
    Turn vt l lx cs (close_ahead vt lx1 cs ev) := by
  unfold close_ahead
  refine wp_ite (fun _ => Turn.ret _ _ _) (fun _ => ?_)
  refine Turn_CHECK_CB vt l lx lx1 cs ev _ (fun cs1 hd => ?_)
  exact Turn.closed ev cs1 { SYNTAX_POP lx1 with p := lx1.p + 1 } hm hd (by rw [← h]; rfl)

theorem Turn_literal (vt : H → ajson_sax_cb_t σ H) (l : Label) (lx lx1 : Lexer)
    (cs : Consumer σ H) (word : List Nat) (ev : Event) (next : Label) (ho : ev.opens = false)
    (hc : ev.closes = false) (h : lx1.stack = lx.stack) (hl : Follows l lx next) :
    Turn vt l lx cs (literal vt lx1 cs word ev next) := by
  unfold literal
  refine wp_ite (fun _ => Turn.ret _ _ _) (fun _ => ?_)
  refine wp_expect_all cs word lx1 _ (fun _ => Turn.ret _ _ _) (fun _ => ?_)
  exact Turn_plain vt l lx _ cs ev next _ ho hc h hl

theorem Turn_zero_case (vt : H → ajson_sax_cb_t σ H) (l : Label) (lx lx1 : Lexer)
    (cs : Consumer σ H) (dec digit next : Label) (h : lx1.stack = lx.stack)
    (hd : Follows l lx dec) (hg : Follows l lx digit) (hn : Follows l lx next) :
    Turn vt l lx cs (zero_case vt lx1 cs dec digit next) := by
  unfold zero_case
  dsimp only
  refine wp_ite (fun _ => Turn.jump _ _ h hd) (fun _ => ?_)
  refine wp_ite (fun _ => Turn.jump _ _ h hg) (fun _ => ?_)
  refine wp_ite (fun _ => Turn.ret _ _ _) (fun _ => ?_)
  exact Turn_plain vt l lx lx1 cs _ next _ rfl rfl h hn

theorem Turn_start_value_minus (vt : H → ajson_sax_cb_t σ H) (l : Label) (lx lx1 : Lexer)
    (cs : Consumer σ H) (h : lx1.stack = lx.stack) (hl : l.valued = true) :
    Turn vt l lx cs (start_value_minus vt lx1 cs) := by
  have hf : ∀ next : Label, next.valued = true → Follows l lx next :=
    fun next hn => Or.inr (Or.inl ⟨hl, hn⟩)
  unfold start_value_minus
  refine wp_ite (fun _ => ?_) (fun _ => ?_)
  · dsimp only
    refine wp_ite (fun _ => Turn.jump _ _ h (hf _ rfl)) (fun _ => ?_)
    refine wp_ite (fun _ => Turn.jump _ _ h (hf _ rfl)) (fun _ => ?_)
    refine wp_ite (fun _ => Turn.ret _ _ _) (fun _ => ?_)
    exact Turn_plain vt l lx lx1 cs _ _ _ rfl rfl h (hf _ rfl)
  · exact wp_ite (fun _ => Turn.jump _ _ h (hf _ rfl)) (fun _ => Turn.ret _ _ _)

theorem Turn_start_key_object_minus (vt : H → ajson_sax_cb_t σ H) (l : Label)
    (lx lx1 : Lexer) (cs : Consumer σ H) (h : lx1.stack = lx.stack) (hl : l.keyed = true) :
    Turn vt l lx cs (start_key_object_minus vt lx1 cs) := by
  have hf : ∀ next : Label, next.keyed = true → Follows l lx next :=
    fun next hn => Or.inl ⟨hl, hn⟩
  unfold start_key_object_minus
  refine wp_ite (fun _ => ?_) (fun _ => ?_)
  · dsimp only
    refine wp_ite (fun _ => Turn.jump _ _ h (hf _ rfl)) (fun _ => ?_)
    refine wp_ite (fun _ => Turn.jump _ _ h (hf _ rfl)) (fun _ => ?_)
    refine wp_ite (fun _ => Turn.ret _ _ _) (fun _ => ?_)
    exact Turn_plain vt l lx lx1 cs _ _ _ rfl rfl h (hf _ rfl)
  · exact wp_ite (fun _ => Turn.jump _ _ h (hf _ rfl)) (fun _ => Turn.ret _ _ _)

theorem Turn_finish_number (vt : H → ajson_sax_cb_t σ H) (l : Label) (lx lx1 : Lexer)
    (cs : Consumer σ H) (next : Label) (h : lx1.stack = lx.stack) (hl : Follows l lx next) :
    Turn vt l lx cs (finish_number vt lx1 cs next) := by
  unfold finish_number
  exact Turn_plain vt l lx _ cs _ next _ rfl rfl h hl

theorem Turn_finish_string (vt : H → ajson_sax_cb_t σ H) (l : Label) (lx lx1 : Lexer)
    (cs : Consumer σ H) (next : Label) (h : lx1.stack = lx.stack) (hl : Follows l lx next) :
    Turn vt l lx cs (finish_string vt lx1 cs next) := by
  unfold finish_string
  exact Turn_plain vt l lx _ cs _ next _ rfl rfl h hl

theorem Turn_finish_key (vt : H → ajson_sax_cb_t σ H) (l : Label) (lx lx1 : Lexer)
    (cs : Consumer σ H) (h : lx1.stack = lx.stack) (hl : Follows l lx .start_key_object) :
    Turn vt l lx cs (finish_key vt lx1 cs) := by
  unfold finish_key
  exact Turn_plain vt l lx _ cs _ _ _ rfl rfl h hl

theorem Turn_exponent_part (vt : H → ajson_sax_cb_t σ H) (l : Label) (lx lx1 : Lexer)
    (cs : Consumer σ H) (k : Lexer → Step σ H) (h : lx1.stack = lx.stack)
    (hk : ∀ lx2, lx2.stack = lx.stack → Turn vt l lx cs (k lx2)) :
    Turn vt l lx cs (exponent_part lx1 cs k) := by
  unfold exponent_part
  refine wp_ite (fun _ => ?_) (fun _ => hk lx1 h)
  dsimp only
  have h2 : (if (next_ch lx1).ch = 43 ∨ (next_ch lx1).ch = 45 then
      next_ch (next_ch lx1) else next_ch lx1).stack = lx.stack := by
    split
    · exact h
    · exact h
  exact wp_ite (fun _ => Turn.ret _ _ _) (fun _ => hk _ h2)

theorem Turn_string_body (vt : H → ajson_sax_cb_t σ H) (l : Label) (lx lx1 : Lexer)
    (cs : Consumer σ H) (self next : Label) (h : lx1.stack = lx.stack)
    (hs : Follows l lx self) (hn : Follows l lx next) :
    Turn vt l lx cs (string_body vt lx1 cs self next) := by
  unfold string_body
  dsimp only
  refine wp_ite (fun _ => Turn.ret _ _ _) (fun _ => ?_)
  exact wp_ite (fun _ => Turn.jump _ _ h hs) (fun _ => Turn_finish_string vt l lx _ cs next h hn)

theorem Turn_next_digit_body (vt : H → ajson_sax_cb_t σ H) (l : Label) (lx lx1 : Lexer)
    (cs : Consumer σ H) (dec next : Label) (h : lx1.stack = lx.stack)
    (hd : Follows l lx dec) (hn : Follows l lx next) :
    Turn vt l lx cs (next_digit_body vt lx1 cs dec next) := by
  unfold next_digit_body
  dsimp only
  refine wp_ite (fun _ => Turn.jump _ _ h hd) (fun _ => ?_)
  exact Turn_exponent_part vt l lx _ cs _ h
    (fun lx2 h2 => Turn_finish_number vt l lx lx2 cs next h2 hn)

theorem Turn_decimal_number_body (vt : H → ajson_sax_cb_t σ H) (l : Label) (lx lx1 : Lexer)
    (cs : Consumer σ H) (next : Label) (h : lx1.stack = lx.stack) (hn : Follows l lx next) :
    Turn vt l lx cs (decimal_number_body vt lx1 cs next) := by
  unfold decimal_number_body
  dsimp only
  refine wp_ite (fun _ => Turn.ret _ _ _) (fun _ => ?_)
  exact Turn_exponent_part vt l lx _ cs _ h
    (fun lx2 h2 => Turn_finish_number vt l lx lx2 cs next h2 hn)

theorem Turn_start_value (vt : H → ajson_sax_cb_t σ H) (lx : Lexer) (cs : Consumer σ H) :
    Turn vt .start_value lx cs (start_value vt lx cs) := by
  have hn : (next_ch lx).stack = lx.stack := rfl
  have hf : ∀ next : Label, next.valued = true → Follows .start_value lx next :=
    fun next h => Or.inr (Or.inl ⟨rfl, h⟩)
  unfold start_value
  dsimp only
  refine wp_ite (fun _ => Turn.ret _ _ _) (fun _ => ?_)
  refine wp_ite (fun _ => Turn.jump _ _ hn (hf _ rfl)) (fun _ => ?_)
  refine wp_ite (fun _ => Turn.jump _ _ hn (hf _ rfl)) (fun _ => ?_)
  refine wp_ite (fun _ => Turn_open_container vt _ lx _ cs _ _ _ (Or.inl ⟨rfl, rfl, rfl⟩) hn)
    (fun _ => ?_)
  refine wp_ite (fun _ => Turn_open_container vt _ lx _ cs _ _ _ (Or.inr ⟨rfl, rfl, rfl⟩) hn)
    (fun _ => ?_)
  refine wp_ite (fun _ => Turn_close_here vt _ lx _ cs _ (Or.inr ⟨rfl, rfl⟩) hn) (fun _ => ?_)
  refine wp_ite (fun _ => Turn_start_value_minus vt _ lx _ cs hn rfl) (fun _ => ?_)
  refine wp_ite (fun _ => Turn_zero_case vt _ lx _ cs _ _ _ hn (hf _ rfl) (hf _ rfl) (hf _ rfl))
    (fun _ => ?_)
  refine wp_ite (fun _ => Turn.jump _ _ hn (hf _ rfl)) (fun _ => ?_)
  refine wp_ite (fun _ => Turn_literal vt _ lx _ cs _ _ _ rfl rfl hn (hf _ rfl)) (fun _ => ?_)
  refine wp_ite (fun _ => Turn_literal vt _ lx _ cs _ _ _ rfl rfl hn (hf _ rfl)) (fun _ => ?_)
  exact wp_ite (fun _ => Turn_literal vt _ lx _ cs _ _ _ rfl rfl hn (hf _ rfl))
    (fun _ => Turn.ret _ _ _)

theorem Turn_start_key_object (vt : H → ajson_sax_cb_t σ H) (lx : Lexer)
    (cs : Consumer σ H) : Turn vt .start_key_object lx cs (start_key_object vt lx cs) := by
  have hn : (next_ch lx).stack = lx.stack := rfl
  have hf : ∀ next : Label, next.keyed = true → Follows .start_key_object lx next :=
    fun next h => Or.inl ⟨rfl, h⟩
  unfold start_key_object
  dsimp only
  refine wp_ite (fun _ => Turn.ret _ _ _) (fun _ => ?_)
  refine wp_ite (fun _ => Turn.jump _ _ hn (hf _ rfl)) (fun _ => ?_)
  refine wp_ite (fun _ => Turn.jump _ _ hn (hf _ rfl)) (fun _ => ?_)
  refine wp_ite (fun _ => Turn_open_container vt _ lx _ cs _ _ _ (Or.inl ⟨rfl, rfl, rfl⟩) hn)
    (fun _ => ?_)
  refine wp_ite (fun _ => Turn_open_container vt _ lx _ cs _ _ _ (Or.inr ⟨rfl, rfl, rfl⟩) hn)
    (fun _ => ?_)
  refine wp_ite (fun _ => Turn_start_key_object_minus vt _ lx _ cs hn rfl) (fun _ => ?_)
  refine wp_ite (fun _ => Turn_zero_case vt _ lx _ cs _ _ _ hn (hf _ rfl) (hf _ rfl) (hf _ rfl))
    (fun _ => ?_)
  refine wp_ite (fun _ => Turn.jump _ _ hn (hf _ rfl)) (fun _ => ?_)
  refine wp_ite (fun _ => Turn_literal vt _ lx _ cs _ _ _ rfl rfl hn (hf _ rfl)) (fun _ => ?_)
  refine wp_ite (fun _ => Turn_literal vt _ lx _ cs _ _ _ rfl rfl hn (hf _ rfl)) (fun _ => ?_)
  exact wp_ite (fun _ => Turn_literal vt _ lx _ cs _ _ _ rfl rfl hn (hf _ rfl))
    (fun _ => Turn.ret _ _ _)

theorem Turn_start_key (vt : H → ajson_sax_cb_t σ H) (lx : Lexer) (cs : Consumer σ H) :
    Turn vt .start_key lx cs (start_key vt lx cs) := by
  have hn : (next_ch lx).stack = lx.stack := rfl
  have hf : ∀ next : Label, next.keyed = true → Follows .start_key lx next :=
    fun next h => Or.inl ⟨rfl, h⟩
  unfold start_key
  dsimp only
  refine wp_ite (fun _ => Turn.ret _ _ _) (fun _ => ?_)
  refine wp_ite (fun _ => Turn.jump _ _ hn (hf _ rfl)) (fun _ => ?_)
  refine wp_ite (fun _ => Turn.jump _ _ hn (hf _ rfl)) (fun _ => ?_)
  exact wp_ite (fun _ => Turn_close_here vt _ lx _ cs _ (Or.inl ⟨rfl, rfl⟩) hn)
    (fun _ => Turn.ret _ _ _)

theorem Turn_get_end_of_key (vt : H → ajson_sax_cb_t σ H) (lx : Lexer) (cs : Consumer σ H) :
    Turn vt .get_end_of_key lx cs (get_end_of_key vt lx cs) := by
  have hf : ∀ next : Label, next.keyed = true → Follows .get_end_of_key lx next :=
    fun next h => Or.inl ⟨rfl, h⟩
  unfold get_end_of_key
  dsimp only
  refine wp_ite (fun _ => Turn.jump _ _ rfl (hf _ rfl))
    (fun _ => Turn_finish_key vt _ lx _ cs ?_ (hf _ rfl))
  split
  · rfl
  · rfl

theorem Turn_look_for_key (vt : H → ajson_sax_cb_t σ H) (lx : Lexer) (cs : Consumer σ H) :
    Turn vt .look_for_key lx cs (look_for_key vt lx cs) := by
  have hf : ∀ next : Label, next.keyed = true → Follows .look_for_key lx next :=
    fun next h => Or.inl ⟨rfl, h⟩
  unfold look_for_key
  refine wp_ite (fun _ => ?_) (fun _ => ?_)
  · exact wp_ite (fun _ => Turn.ret _ _ _) (fun _ => Turn.jump _ _ rfl (hf _ rfl))
  refine wp_ite (fun _ => Turn_close_ahead vt _ lx _ cs _ (Or.inl ⟨rfl, rfl⟩) rfl) (fun _ => ?_)
  exact wp_ite (fun _ => Turn.jump _ _ rfl (hf _ rfl)) (fun _ => Turn.ret _ _ _)

theorem Turn_look_for_next_object (vt : H → ajson_sax_cb_t σ H) (lx : Lexer)
    (cs : Consumer σ H) :
    Turn vt .look_for_next_object lx cs (look_for_next_object vt lx cs) := by
  have hf : ∀ next : Label, next.valued = true → Follows .look_for_next_object lx next :=
    fun next h => Or.inr (Or.inl ⟨rfl, h⟩)
  have hend : ∀ lx1 : Lexer, Turn vt .look_for_next_object lx cs
      (if stack_depth lx1 = 0 then .ret 0 lx1 cs else SAX_ERROR lx1 cs) := fun lx1 =>
    wp_ite (fun _ => Turn.ret _ _ _) (fun _ => Turn.ret _ _ _)
  unfold look_for_next_object
  refine wp_ite (fun _ => ?_) (fun _ => ?_)
  · exact wp_ite (fun _ => Turn.ret _ _ _) (fun _ => Turn.jump _ _ rfl (hf _ rfl))
  refine wp_ite (fun _ => Turn_close_ahead vt _ lx _ cs _ (Or.inr ⟨rfl, rfl⟩) rfl) (fun _ => ?_)
  refine wp_ite (fun _ => ?_) (fun _ => ?_)
  · dsimp only
    exact wp_ite (fun _ => hend _) (fun _ => Turn.jump _ _ rfl (hf _ rfl))
  · exact wp_ite (fun _ => hend _) (fun _ => Turn.ret _ _ _)

theorem Turn_determine_next_step (vt : H → ajson_sax_cb_t σ H) (lx : Lexer)
    (cs : Consumer σ H) :
    Turn vt .determine_next_step lx cs (determine_next_step lx cs) := by
  unfold determine_next_step
  refine wp_ite (fun _ => Turn.ret _ _ _) (fun hne => ?_)
  have hst : lx.stack ≠ [] := by
    intro h
    exact hne (by simp [stack_depth, h])
  refine wp_ite (fun _ => Turn.ret _ _ _) (fun _ => ?_)
  dsimp only
  exact wp_ite (fun h => Turn.jump _ _ rfl (Or.inr (Or.inr ⟨rfl, hst, Or.inl ⟨h, rfl⟩⟩)))
    (fun h => Turn.jump _ _ rfl (Or.inr (Or.inr ⟨rfl, hst, Or.inr ⟨h, rfl⟩⟩)))

/-- Every transition is one of the turns of `Turn`. -/
theorem step_Turn (vt : H → ajson_sax_cb_t σ H) (l : Label) (lx : Lexer)
    (cs : Consumer σ H) : Turn vt l lx cs (step vt l lx cs) := by
  cases l
  case start_key => exact Turn_start_key vt lx cs
  case get_end_of_key => exact Turn_get_end_of_key vt lx cs
  case start_key_object => exact Turn_start_key_object vt lx cs
  case keyed_start_string =>
    exact Turn_string_body vt _ lx lx cs _ _ rfl (Or.inl ⟨rfl, rfl⟩) (Or.inl ⟨rfl, rfl⟩)
  case look_for_key => exact Turn_look_for_key vt lx cs
  case keyed_next_digit =>
    exact Turn_next_digit_body vt _ lx lx cs _ _ rfl (Or.inl ⟨rfl, rfl⟩) (Or.inl ⟨rfl, rfl⟩)
  case keyed_decimal_number =>
    exact Turn_decimal_number_body vt _ lx lx cs _ rfl (Or.inl ⟨rfl, rfl⟩)
  case start_value => exact Turn_start_value vt lx cs
  case start_string =>
    exact Turn_string_body vt _ lx lx cs _ _ rfl (Or.inr (Or.inl ⟨rfl, rfl⟩))
      (Or.inr (Or.inl ⟨rfl, rfl⟩))
  case add_string => exact Turn.jump _ _ rfl (Or.inr (Or.inl ⟨rfl, rfl⟩))
  case look_for_next_object => exact Turn_look_for_next_object vt lx cs
  case next_digit =>
    exact Turn_next_digit_body vt _ lx lx cs _ _ rfl (Or.inr (Or.inl ⟨rfl, rfl⟩))
      (Or.inr (Or.inl ⟨rfl, rfl⟩))
  case decimal_number =>
    exact Turn_decimal_number_body vt _ lx lx cs _ rfl (Or.inr (Or.inl ⟨rfl, rfl⟩))
  case determine_next_step => exact Turn_determine_next_step vt lx cs

theorem Sided_init (mem : List Nat) (ep : Nat) : Sided .start_value (init_lexer mem ep) :=
  ⟨fun m hm => by simp [init_lexer] at hm, fun h => absurd h (by decide), fun _ => Or.inl rfl⟩

/-- The label tells the innermost open container, jump after jump. -/
theorem step_Sided {vt : H → ajson_sax_cb_t σ H} {l l1 : Label} {lx lx1 : Lexer}
    {cs cs1 : Consumer σ H} (hi : Sided l lx) (hs : step vt l lx cs = .goto l1 lx1 cs1) :
    Sided l1 lx1 := by
  obtain ⟨hall, hkey, hval⟩ := hi
  have hsame : ∀ l1 lx1, lx1.stack = lx.stack → Follows l lx l1 → Sided l1 lx1 := by
    intro l1 lx1 hst hf
    rw [Sided, hst]
    refine ⟨hall, fun hk1 => ?_, fun hv1 => ?_⟩
    · rcases hf with ⟨hk, _⟩ | ⟨_, hv⟩ | ⟨_, hne, ⟨hm, _⟩ | ⟨_, rfl⟩⟩
      · exact hkey hk
      · cases l1 <;> simp [Label.keyed, Label.valued] at hk1 hv
      · cases hst2 : lx.stack with
        | nil => exact absurd hst2 hne
        | cons m rest =>
          simp only [CURRENT_MODE, hst2, List.headD_cons] at hm
          exact ⟨rest, by rw [hm]⟩
      · cases hk1
    · rcases hf with ⟨_, hk⟩ | ⟨hv, _⟩ | ⟨_, hne, ⟨_, rfl⟩ | ⟨hm, _⟩⟩
      · cases l1 <;> simp [Label.keyed, Label.valued] at hv1 hk
      · exact hval hv
      · cases hv1
      · cases hst2 : lx.stack with
        | nil => exact absurd hst2 hne
        | cons m rest =>
          simp only [CURRENT_MODE, hst2, List.headD_cons] at hm
          rcases hall m (by rw [hst2]; simp) with h1 | h1
          · exact absurd h1 hm
          · exact Or.inr ⟨rest, by rw [h1]⟩
  have ht := step_Turn vt l lx cs
  rw [hs] at ht
  cases ht with
  | jump _ _ hst hl => exact hsame _ _ hst hl
  | scalar ev _ _ _ _ _ _ hst hl => exact hsame _ _ hst hl
  | opened ev _ _ _ mode hm _ hst =>
    rw [Sided, hst]
    rcases hm with ⟨_, rfl, rfl⟩ | ⟨_, rfl, rfl⟩
    · refine ⟨fun m hm => ?_, fun _ => ⟨_, rfl⟩, fun h => absurd h (by decide)⟩
      rcases List.mem_cons.1 hm with rfl | hm
      · exact Or.inl rfl
      · exact hall m hm
    · refine ⟨fun m hm => ?_, fun h => absurd h (by decide), fun _ => Or.inr ⟨_, rfl⟩⟩
      rcases List.mem_cons.1 hm with rfl | hm
      · exact Or.inr rfl
      · exact hall m hm
  | closed ev _ _ _ _ hst =>
    rw [Sided, hst]
    exact ⟨fun m hm => hall m (List.mem_of_mem_tail hm), fun h => absurd h (by decide),
      fun h => absurd h (by decide)⟩

end Sides

/-! ### The anchor depth between two transitions -/

section Anchor

variable {σ H : Type}

theorem Framed_push {vt : H → ajson_sax_cb_t σ H} {stack : List Nat} (m0 : Nat)
    {top : List (H × Int)} {cb : H} {a : Int} (h : Framed vt stack cb a top) :
    Framed vt (m0 :: stack) cb a top := by
  induction top generalizing cb a with
  | nil => exact h
  | cons f rest ih =>
    obtain ⟨c1, a1⟩ := f
    obtain ⟨hlt, ⟨pre, m, suf, hst, ha, hr⟩, hrest⟩ := h
    exact ⟨hlt, ⟨m0 :: pre, m, suf, by rw [hst]; rfl, ha, hr⟩, ih hrest⟩

theorem Framed_tail {vt : H → ajson_sax_cb_t σ H} {stack : List Nat}
    {top : List (H × Int)} {cb : H} {a : Int} (h : Framed vt stack cb a top)
    (hlt : a < (stack.length : Int)) : Framed vt stack.tail cb a top := by
  induction top generalizing cb a with
  | nil => exact h
  | cons f rest ih =>
    obtain ⟨c1, a1⟩ := f
    obtain ⟨h1, ⟨pre, m, suf, hst, ha, hr⟩, hrest⟩ := h
    refine ⟨h1, ?_, ih hrest (by omega)⟩
    cases pre with
    | nil =>
      rw [hst] at hlt
      simp at hlt
      omega
    | cons x pre => exact ⟨pre, m, suf, by rw [hst]; rfl, ha, hr⟩

theorem Framed_nonneg {vt : H → ajson_sax_cb_t σ H} {stack : List Nat}
    {top : List (H × Int)} {cb : H} {a : Int} (h : Framed vt stack cb a top) : 0 ≤ a := by
  induction top generalizing cb a with
  | nil =>
    have : a = 0 := h
    omega
  | cons f rest ih =>
    obtain ⟨c1, a1⟩ := f
    obtain ⟨h1, _, hrest⟩ := h
    have := ih hrest
    omega

theorem ajson_sax_try_pop_depth1 (sax : ajson_sax_t H) :
    (ajson_sax_try_pop sax).1.current_depth = sax.current_depth := by
  unfold ajson_sax_try_pop ajson_sax_pop
  split
  · dsimp only
    split <;> rfl
  · rfl

theorem KeepsDepth_of_Orderly {vt : H → ajson_sax_cb_t σ H} (ho : Orderly vt) :
    KeepsDepth vt := by
  intro cs ev c s rc h
  by_cases h1 : ev.opens = true
  · rcases ho.starts cs ev c s rc h1 h with rfl | ⟨sub, rfl, _⟩
    · rfl
    · rfl
  · by_cases h2 : ev.closes = true
    · rcases ho.ends cs ev c s rc h2 h with rfl | rfl | rfl
      · rfl
      · exact ajson_sax_try_pop_depth1 _
      · exact ajson_sax_pop_depth _
    · rw [ho.plain cs ev c s rc (by simpa using h1) (by simpa using h2) h]

theorem Anchored_init (vt : H → ajson_sax_cb_t σ H) (mem : List Nat) (ep : Nat) (cb : H)
    (ctx : σ) : Anchored vt .start_value (init_lexer mem ep) (init_consumer cb ctx) :=
  Or.inl ⟨rfl, Int.le_refl _, rfl⟩

/-- What `ajson_sax_pop` leaves of a handle that stands over its saved frames. -/
theorem Framed_pop {vt : H → ajson_sax_cb_t σ H} {stack : List Nat} {sax : ajson_sax_t H}
    (h : Framed vt stack sax.cb sax.anchor_depth sax.top) :
    Framed vt stack (ajson_sax_pop sax).cb (ajson_sax_pop sax).anchor_depth
      (ajson_sax_pop sax).top ∧
    (ajson_sax_pop sax).anchor_depth ≤ sax.anchor_depth ∧
    (ajson_sax_pop sax).current_depth = sax.current_depth ∧
    (sax.top ≠ [] → (ajson_sax_pop sax).anchor_depth < sax.anchor_depth) := by
  unfold ajson_sax_pop
  cases htop : sax.top with
  | nil =>
    dsimp only
    exact ⟨h, Int.le_refl _, rfl, fun hne => absurd rfl hne⟩
  | cons f rest =>
    obtain ⟨c1, a1⟩ := f
    rw [htop] at h
    obtain ⟨h1, _, hrest⟩ := h
    dsimp only
    exact ⟨hrest, by omega, rfl, fun _ => h1⟩

theorem end_event_closer {l : Label} {lx : Lexer} {ev : Event} {m : Nat} {rest : List Nat}
    (hs : Sided l lx) (hm : Closer l ev) (hst : lx.stack = m :: rest) : end_event m = ev := by
  obtain ⟨_, hkey, hval⟩ := hs
  unfold end_event
  rcases hm with ⟨rfl, hk⟩ | ⟨rfl, hv⟩
  · obtain ⟨r, hr⟩ := hkey hk
    rw [hst] at hr
    rw [if_pos (List.cons.inj hr).1]
  · rcases hval hv with hr | ⟨r, hr⟩
    · rw [hst] at hr
      cases hr
    · rw [hst] at hr
      rw [if_neg]
      rw [(List.cons.inj hr).1]
      decide

theorem step_Anchored {vt : H → ajson_sax_cb_t σ H} (ho : Orderly vt) {l l1 : Label}
    {lx lx1 : Lexer} {cs cs1 : Consumer σ H} (hsd : Sided l lx) (hi : Anchored vt l lx cs)
    (hs : step vt l lx cs = .goto l1 lx1 cs1) : Anchored vt l1 lx1 cs1 := by
  have hk := KeepsDepth_of_Orderly ho
  rcases hi with ⟨hd, ha, hfr⟩ | ⟨rfl, hnil, _⟩
  · have hc := step_Turn vt l lx cs
    rw [hs] at hc
    cases hc with
    | jump _ _ h _ => exact Or.inl ⟨by rw [h]; exact hd, ha, by rw [h]; exact hfr⟩
    | scalar ev _ _ _ hop hcl hdel h _ =>
      have e : cs1.sax = cs.sax := by
        rcases hdel with ⟨_, rfl⟩ | ⟨c, s, hinv, rfl⟩
        · rfl
        · exact ho.plain cs ev c s 0 hop hcl hinv
      exact Or.inl ⟨by rw [h, e]; exact hd, by rw [e]; exact ha, by rw [h, e]; exact hfr⟩
    | opened ev cs2 _ _ mode hm hdel hst =>
      have hop : ev.opens = true := by
        rcases hm with ⟨rfl, _⟩ | ⟨rfl, _⟩ <;> rfl
      have hcl : end_event mode = ev.closer := by
        rcases hm with ⟨rfl, rfl, _⟩ | ⟨rfl, rfl, _⟩ <;> rfl
      have hcases : cs2.sax = cs.sax ∨
          ∃ sub, cs2.sax = ajson_sax_push cs.sax (some sub) ∧ ResignsAt vt sub ev.closer := by
        rcases hdel with ⟨_, rfl⟩ | ⟨c, s, hinv, rfl⟩
        · exact Or.inl rfl
        · exact ho.starts cs ev c s 0 hop hinv
      have hlen : ((lx1.stack.length : Nat) : Int) = (lx.stack.length : Int) + 1 := by
        rw [hst]
        simp
      refine Or.inl ?_
      show cs2.sax.current_depth + 1 = _ ∧ cs2.sax.anchor_depth ≤ cs2.sax.current_depth + 1 ∧
        Framed vt lx1.stack cs2.sax.cb cs2.sax.anchor_depth cs2.sax.top
      rw [hst] at hlen ⊢
      rcases hcases with e | ⟨sub, e, hsub⟩
      · rw [e, hlen, hd]
        exact ⟨rfl, by omega, Framed_push mode hfr⟩
      · rw [e, hlen]
        refine ⟨?_, ?_, ?_⟩
        · show cs.sax.current_depth + 1 = _
          rw [hd]
        · show cs.sax.current_depth + 1 ≤ cs.sax.current_depth + 1
          exact Int.le_refl _
        · show cs.sax.anchor_depth < cs.sax.current_depth + 1 ∧ _
          refine ⟨by omega, ⟨[], mode, lx.stack, rfl, ?_, ?_⟩, Framed_push mode hfr⟩
          · show cs.sax.current_depth + 1 = _
            rw [hd]
          · rw [hcl]
            exact hsub
    | closed ev cs2 _ hm hdel hst =>
      have hcl : ev.closes = true := by
        rcases hm with ⟨rfl, _⟩ | ⟨rfl, _⟩ <;> rfl
      have hdep : cs2.sax.current_depth = cs.sax.current_depth := Delivered_depth hk hdel
      cases hstack : lx.stack with
      | nil =>
        refine Or.inr ⟨rfl, by rw [hst, hstack]; rfl, ?_⟩
        show cs2.sax.current_depth - 1 = -1
        rw [hdep, hd, hstack]
        rfl
      | cons m rest =>
        have hlen : (lx.stack.length : Int) = (lx.stack.tail.length : Int) + 1 := by
          rw [hstack]
          simp
        have hev := end_event_closer hsd hm hstack
        refine Or.inl ?_
        show cs2.sax.current_depth - 1 = _ ∧ cs2.sax.anchor_depth ≤ cs2.sax.current_depth - 1 ∧
          Framed vt lx1.stack cs2.sax.cb cs2.sax.anchor_depth cs2.sax.top
        rw [hdep, hst]
        have hpop := Framed_pop hfr
        by_cases heq : cs.sax.current_depth = cs.sax.anchor_depth
        · -- the container of the active set closes
          have hpos : 0 < cs.sax.anchor_depth := by
            rw [← heq, hd, hstack]
            simp
          cases htop : cs.sax.top with
          | nil =>
            rw [htop] at hfr
            have : cs.sax.anchor_depth = 0 := hfr
            omega
          | cons f frames =>
            obtain ⟨c1, a1⟩ := f
            have hfr2 := hfr
            rw [htop] at hfr2
            obtain ⟨hlt, ⟨pre, m1, suf, hpre, hasuf, hres⟩, hrest⟩ := hfr2
            have hm1 : m1 = m := by
              have hl := congrArg List.length hpre
              rw [hstack] at hl hpre
              simp at hl
              have : pre = [] := by
                cases pre with
                | nil => rfl
                | cons x pre =>
                  rw [hstack] at hd
                  simp at hd hl
                  omega
              rw [this] at hpre
              exact ((List.cons.inj hpre).1).symm
            rw [hm1, hev] at hres
            obtain ⟨c, rc, hinv⟩ := hres cs rfl heq
            have e : cs2.sax = (ajson_sax_try_pop cs.sax).1 := by
              rcases hdel with ⟨hnone, _⟩ | ⟨c', s', hinv', rfl⟩
              · rw [hnone] at hinv
                cases hinv
              · rw [hinv'] at hinv
                simp only [Option.some.injEq, Prod.mk.injEq] at hinv
                exact hinv.2.1
            have e2 : (ajson_sax_try_pop cs.sax).1 = ajson_sax_pop cs.sax := by
              unfold ajson_sax_try_pop
              rw [if_pos heq]
            rw [e, e2]
            have hlt2 := hpop.2.2.2 (by rw [htop]; simp)
            exact ⟨by omega, by omega, Framed_tail hpop.1 (by omega)⟩
        · -- a container nested in that of the active set closes
          have e : cs2.sax = cs.sax ∨ cs2.sax = ajson_sax_pop cs.sax := by
            rcases hdel with ⟨_, rfl⟩ | ⟨c, s, hinv, rfl⟩
            · exact Or.inl rfl
            · rcases ho.ends cs ev c s 0 hcl hinv with h1 | h1 | h1
              · exact Or.inl h1
              · refine Or.inl ?_
                show s = cs.sax
                rw [h1]
                unfold ajson_sax_try_pop
                rw [if_neg heq]
              · exact Or.inr h1
          rcases e with e | e
          · rw [e]
            exact ⟨by omega, by omega, Framed_tail hfr (by omega)⟩
          · rw [e]
            have := hpop.2.1
            exact ⟨by omega, by omega, Framed_tail hpop.1 (by omega)⟩
  · simp [step, determine_next_step, stack_depth, hnil] at hs

theorem reach_Anchored {vt : H → ajson_sax_cb_t σ H} (ho : Orderly vt) (k : Nat)
    {l l1 : Label} {lx lx1 : Lexer} {cs cs1 : Consumer σ H} (hsd : Sided l lx)
    (hi : Anchored vt l lx cs) (hr : reach vt k l lx cs = some (l1, lx1, cs1)) :
    Sided l1 lx1 ∧ Anchored vt l1 lx1 cs1 := by
  induction k generalizing l lx cs with
  | zero =>
    simp only [reach, Option.some.injEq, Prod.mk.injEq] at hr
    obtain ⟨rfl, rfl, rfl⟩ := hr
    exact ⟨hsd, hi⟩
  | succ k ih =>
    unfold reach at hr
    cases hs : step vt l lx cs with
    | ret rc lx2 cs2 => rw [hs] at hr; cases hr
    | goto l2 lx2 cs2 =>
      rw [hs] at hr
      exact ih (step_Sided hsd hs) (step_Anchored ho hsd hi hs) hr

theorem Orderly_anchor_vt : Orderly anchor_vt where
  plain := fun cs ev c s rc h1 h2 h => by
    cases hcb : cs.sax.cb <;> cases ev <;> simp [invoke, anchor_vt, no_handlers, hcb] at h <;>
      first | exact absurd h1 (by decide) | exact absurd h2 (by decide)
  starts := fun cs ev c s rc h1 h => by
    cases hcb : cs.sax.cb <;> cases ev <;> simp [invoke, anchor_vt, no_handlers, hcb] at h <;>
      first
      | exact absurd h1 (by decide)
      | exact Or.inr ⟨.anchor_h, h.2.1.symm, fun cs1 hc1 _ =>
          ⟨_, 0, by simp only [invoke]; rw [hc1]; rfl⟩⟩
  ends := fun cs ev c s rc h1 h => by
    cases hcb : cs.sax.cb <;> cases ev <;> simp [invoke, anchor_vt, no_handlers, hcb] at h <;>
      first | exact absurd h1 (by decide) | exact Or.inr (Or.inl h.2.1.symm)

theorem Orderly_unified_vt (f : List Nat → Int) : Orderly (unified_vt f) where
  plain := fun cs ev c s rc h1 h2 h => by
    cases hcb : cs.sax.cb <;> cases ev <;>
      simp [invoke, unified_vt, no_handlers, hcb] at h <;>
      first
      | (simp [Event.opens] at h1; done)
      | (simp [Event.closes] at h2; done)
      | exact h.2.1.symm
  starts := fun cs ev c s rc h1 h => by
    cases hcb : cs.sax.cb <;> cases ev <;>
      simp [invoke, unified_vt, no_handlers, hcb] at h <;>
      first
      | (simp [Event.opens] at h1; done)
      | (obtain ⟨_, h2, _⟩ := h
         by_cases hk : cs.ctx.current_key = ascii "special"
         · rw [if_pos hk] at h2
           exact Or.inr ⟨.u_user_handlers, h2.symm, fun cs1 hc1 _ =>
             ⟨_, 0, by simp only [invoke]; rw [hc1]; rfl⟩⟩
         · rw [if_neg hk] at h2
           exact Or.inl h2.symm)
  ends := fun cs ev c s rc h1 h => by
    cases hcb : cs.sax.cb <;> cases ev <;>
      simp [invoke, unified_vt, no_handlers, hcb] at h <;>
      first
      | (simp [Event.closes] at h1; done)
      | exact Or.inr (Or.inl h.2.1.symm)

end Anchor

/-! ### Delegates that defer to `ajson_sax_try_pop` -/

section Deferring

variable {σ H : Type}

theorem Defers_of_Resigns {vt : H → ajson_sax_cb_t σ H} {sub : H} (hr : Resigns vt sub) :
    Defers vt sub :=
  ⟨hr.keeps, fun cs ev c s rc hcb hev h => Or.inr (hr.pops cs ev c s rc hcb hev h)⟩

theorem Deferred_delivered {vt : H → ajson_sax_cb_t σ H} {sub : H} (hq : Defers vt sub)
    {top : List (H × Int)} {d : Nat} {lx : Lexer} {cs cs1 : Consumer σ H} {ev : Event}
    (h : Delegated sub top d lx cs) (hd : Delivered vt cs ev cs1)
    (hev : ev.closes = false ∨ d < lx.stack.length) : cs1.sax = cs.sax := by
  rcases hd with ⟨_, rfl⟩ | ⟨c, s, hi, rfl⟩
  · rfl
  · show s = cs.sax
    cases hc : ev.closes with
    | false => exact hq.keeps cs ev c s 0 h.cb hc hi
    | true =>
      have hlt : d < lx.stack.length := by
        rcases hev with h1 | h1
        · rw [hc] at h1; cases h1
        · exact h1
      rcases hq.ends cs ev c s 0 h.cb hc hi with h1 | h1
      · exact h1
      · rw [h1]
        unfold ajson_sax_try_pop
        rw [if_neg (by rw [h.depth, h.anchor]; omega)]

/-- Inside the container the delegate stays the active set, jump after jump. -/
theorem step_Deferred {vt : H → ajson_sax_cb_t σ H} {sub : H} (hq : Defers vt sub)
    {top : List (H × Int)} {d : Nat} {l l1 : Label} {lx lx1 : Lexer} {cs cs1 : Consumer σ H}
    (h : Delegated sub top d lx cs) (hs : step vt l lx cs = .goto l1 lx1 cs1)
    (hd : d ≤ lx1.stack.length) : Delegated sub top d lx1 cs1 := by
  have hl := step_LStep vt l lx cs
  rw [hs] at hl
  cases hl with
  | jump _ _ hk => exact ⟨h.cb, h.top, h.anchor, by rw [h.depth, hk.1], hd, h.pos⟩
  | scalar ev cs2 _ _ ho hc hdel hk =>
    have e := Deferred_delivered hq h hdel (Or.inl hc)
    exact ⟨by rw [e]; exact h.cb, by rw [e]; exact h.top, by rw [e]; exact h.anchor,
      by rw [e, h.depth, hk.1], hd, h.pos⟩
  | opened ev cs2 _ _ mode ho hdel hst he hroom =>
    have e := Deferred_delivered hq h hdel (Or.inl (closes_of_opens ho))
    refine ⟨by show cs2.sax.cb = sub; rw [e]; exact h.cb,
      by show cs2.sax.top = top; rw [e]; exact h.top,
      by show cs2.sax.anchor_depth = _; rw [e]; exact h.anchor, ?_, hd, h.pos⟩
    show cs2.sax.current_depth + 1 = _
    rw [e, h.depth, hst]
    simp
  | closed ev cs2 _ hc hdel hst he =>
    have hlen : lx1.stack.length = lx.stack.length - 1 := by rw [hst]; simp
    have hpos := h.pos
    have e := Deferred_delivered hq h hdel (Or.inr (by omega))
    refine ⟨by show cs2.sax.cb = sub; rw [e]; exact h.cb,
      by show cs2.sax.top = top; rw [e]; exact h.top,
      by show cs2.sax.anchor_depth = _; rw [e]; exact h.anchor, ?_, hd, h.pos⟩
    show cs2.sax.current_depth - 1 = _
    rw [e, h.depth, hlen]
    have := h.deep
    omega

/-- A run inside a container visits states whose syntax stack is as deep as the
container at least; its first jump included. -/
theorem reach_within_succ {vt : H → ajson_sax_cb_t σ H} {d j : Nat} {l : Label} {lx : Lexer}
    {cs : Consumer σ H} {x : Label × Lexer × Consumer σ H}
    (hj : reach_within vt d (j + 1) l lx cs = some x) :
    d ≤ lx.stack.length ∧ ∃ l2 lx2 cs2, step vt l lx cs = .goto l2 lx2 cs2 ∧
      d ≤ lx2.stack.length ∧ reach_within vt d j l2 lx2 cs2 = some x := by
  unfold reach_within at hj
  split at hj
  · rename_i hd
    refine ⟨hd, ?_⟩
    cases hs : step vt l lx cs with
    | ret rc lx2 cs2 => rw [hs] at hj; cases hj
    | goto l2 lx2 cs2 =>
      rw [hs] at hj
      refine ⟨l2, lx2, cs2, rfl, ?_, hj⟩
      cases j with
      | zero =>
        unfold reach_within at hj
        split at hj
        · assumption
        · cases hj
      | succ j =>
        unfold reach_within at hj
        split at hj
        · assumption
        · cases hj
  · cases hj

theorem pop_count_goto {vt : H → ajson_sax_cb_t σ H} {l l2 : Label} {lx lx2 : Lexer}
    {cs cs2 : Consumer σ H} (hs : step vt l lx cs = .goto l2 lx2 cs2) (n : Nat) :
    pop_count vt (n + 1) l lx cs =
      (if cs2.sax.top.length < cs.sax.top.length then 1 else 0) + pop_count vt n l2 lx2 cs2 := by
  conv_lhs => unfold pop_count
  rw [hs]

theorem reach_within_Deferred {vt : H → ajson_sax_cb_t σ H} {sub : H} (hq : Defers vt sub)
    {top : List (H × Int)} {d : Nat} (j : Nat) {l l1 : Label} {lx lx1 : Lexer}
    {cs cs1 : Consumer σ H} (h : Delegated sub top d lx cs)
    (hj : reach_within vt d j l lx cs = some (l1, lx1, cs1)) :
    Delegated sub top d lx1 cs1 ∧ pop_count vt j l lx cs = 0 ∧
      reach vt j l lx cs = some (l1, lx1, cs1) := by
  induction j generalizing l lx cs with
  | zero =>
    unfold reach_within at hj
    split at hj
    · simp only [Option.some.injEq, Prod.mk.injEq] at hj
      obtain ⟨rfl, rfl, rfl⟩ := hj
      exact ⟨h, rfl, rfl⟩
    · cases hj
  | succ j ih =>
    obtain ⟨_, l2, lx2, cs2, hs, hd, hrest⟩ := reach_within_succ hj
    have h2 := step_Deferred hq h hs hd
    obtain ⟨h3, hp, hr⟩ := ih h2 hrest
    refine ⟨h3, ?_, ?_⟩
    · rw [pop_count_goto hs j, hp, h2.top, h.top, if_neg (Nat.lt_irrefl _)]
    · unfold reach
      rw [hs]
      exact hr

theorem pop_count_succ {vt : H → ajson_sax_cb_t σ H} (j : Nat) {l l1 : Label}
    {lx lx1 : Lexer} {cs cs1 : Consumer σ H} (hr : reach vt j l lx cs = some (l1, lx1, cs1)) :
    pop_count vt (j + 1) l lx cs = pop_count vt j l lx cs + pop_count vt 1 l1 lx1 cs1 := by
  induction j generalizing l lx cs with
  | zero =>
    simp only [reach, Option.some.injEq, Prod.mk.injEq] at hr
    obtain ⟨rfl, rfl, rfl⟩ := hr
    simp [pop_count]
  | succ j ih =>
    unfold reach at hr
    cases hs : step vt l lx cs with
    | ret rc lx2 cs2 => rw [hs] at hr; cases hr
    | goto l2 lx2 cs2 =>
      rw [hs] at hr
      rw [pop_count_goto hs (j + 1), pop_count_goto hs j, ih hr]
      omega

/-- The callback that a transition invokes for an end event is invoked on the
consumer state the transition starts from, and `current_depth` is decremented after
it has returned 0. -/
theorem end_event_logged (vt : H → ajson_sax_cb_t σ H) (l : Label) (lx : Lexer)
    (cs : Consumer σ H) (ev : Event) (rc : Int) (hc : ev.closes = true)
    (hlog : (step vt l lx cs).consumer.trace = cs.trace ++ [(ev, rc)]) :
    ∃ c s, invoke vt cs ev = some (c, s, rc) ∧
      (step vt l lx cs).consumer =
        if rc = 0 then depth_dec (after_cb cs ev c s rc) else after_cb cs ev c s rc := by
  have hno : ∀ t : List (Event × Int), t ≠ t ++ [(ev, rc)] := by
    intro t h
    have := congrArg List.length h
    simp at this
  have hsame : ∀ (ev1 : Event) (c : σ) (s : ajson_sax_t H) (rc1 : Int),
      cs.trace ++ [(ev1, rc1)] = cs.trace ++ [(ev, rc)] → ev1 = ev ∧ rc1 = rc := by
    intro ev1 c s rc1 h
    have := List.append_cancel_left h
    simpa using this
  have hl := step_LStep vt l lx cs
  cases hs : step vt l lx cs with
  | ret rc1 lx1 cs1 =>
    rw [hs] at hl hlog
    cases hl with
    | accept _ _ => exact absurd hlog (hno _)
    | error _ _ => exact absurd hlog (hno _)
    | abort ev1 c s _ _ hi hrc =>
      obtain ⟨rfl, rfl⟩ := hsame ev1 c s _ hlog
      exact ⟨c, s, hi, by rw [if_neg hrc]; rfl⟩
    | full ev1 cs2 _ ho hd _ _ =>
      rcases hd with ⟨_, rfl⟩ | ⟨c, s, hi, rfl⟩
      · exact absurd hlog (hno _)
      · obtain ⟨rfl, _⟩ := hsame ev1 c s _ hlog
        rw [closes_of_opens ho] at hc
        cases hc
  | goto l1 lx1 cs1 =>
    rw [hs] at hl hlog
    cases hl with
    | jump _ _ _ => exact absurd hlog (hno _)
    | scalar ev1 _ _ _ ho hc1 hd _ =>
      rcases hd with ⟨_, rfl⟩ | ⟨c, s, hi, rfl⟩
      · exact absurd hlog (hno _)
      · obtain ⟨rfl, _⟩ := hsame ev1 c s _ hlog
        rw [hc1] at hc
        cases hc
    | opened ev1 cs2 _ _ mode ho hd _ _ _ =>
      rcases hd with ⟨_, rfl⟩ | ⟨c, s, hi, rfl⟩
      · exact absurd hlog (hno _)
      · obtain ⟨rfl, _⟩ := hsame ev1 c s _ hlog
        rw [closes_of_opens ho] at hc
        cases hc
    | closed ev1 cs2 _ _ hd _ _ =>
      rcases hd with ⟨_, rfl⟩ | ⟨c, s, hi, rfl⟩
      · exact absurd hlog (hno _)
      · obtain ⟨rfl, rfl⟩ := hsame ev1 c s _ hlog
        exact ⟨c, s, hi, by rw [if_pos rfl]; rfl⟩

/-- The transition that closes the container of a delegate: the end event is
offered to the delegate in the state in which `current_depth == anchor_depth`, and
when its callback calls `ajson_sax_try_pop` the handle is left as it was before the
push. -/
theorem step_leaves {vt : H → ajson_sax_cb_t σ H} {sub : H}
    {cb0 : H} {a0 : Int} {top0 : List (H × Int)} {d : Nat} {l l1 : Label} {lx lx1 : Lexer}
    {cs cs1 : Consumer σ H} (h : Delegated sub ((cb0, a0) :: top0) d lx cs)
    (hs : step vt l lx cs = .goto l1 lx1 cs1) (hd : lx1.stack.length < d) :
    ∃ ev cs2, ev.closes = true ∧ Delivered vt cs ev cs2 ∧ cs1 = depth_dec cs2 ∧
      lx.stack.length = d ∧
      (cs2.sax = (ajson_sax_try_pop cs.sax).1 →
        cs1.sax = { cb := cb0, top := top0, current_depth := (d : Int) - 1,
                    anchor_depth := a0 } ∧ pop_count vt 1 l lx cs = 1) := by
  have hl := step_LStep vt l lx cs
  rw [hs] at hl
  have hdeep := h.deep
  cases hl with
  | jump _ _ hk => rw [hk.1] at hd; omega
  | scalar ev cs2 _ _ ho hc hdel hk => rw [hk.1] at hd; omega
  | opened ev cs2 _ _ mode ho hdel hst he hroom => rw [hst] at hd; simp at hd; omega
  | closed ev cs2 _ hc hdel hst he =>
    have hlen : lx.stack.length = d := by
      rw [hst] at hd
      simp at hd
      omega
    refine ⟨ev, cs2, hc, hdel, rfl, hlen, fun hpop => ?_⟩
    have e2 : (ajson_sax_try_pop cs.sax).1 =
        { cb := cb0, top := top0, current_depth := (d : Int), anchor_depth := a0 } := by
      unfold ajson_sax_try_pop
      rw [if_pos (by rw [h.depth, h.anchor, hlen])]
      unfold ajson_sax_pop
      rw [h.top]
      simp only [h.depth, hlen]
    constructor
    · show ({ cs2.sax with current_depth := cs2.sax.current_depth - 1 } : ajson_sax_t H) = _
      rw [hpop, e2]
    · rw [pop_count_goto hs 0]
      show (if cs2.sax.top.length < cs.sax.top.length then 1 else 0) + pop_count vt 0 _ _ _ = 1
      rw [hpop, e2, h.top]
      simp [pop_count]

theorem Defers_anchor_vt : Defers anchor_vt .anchor_h where
  keeps := fun cs ev c s rc hcb hev h => by
    cases ev with
    | end_object => cases hev
    | _ => simp [invoke, anchor_vt, no_handlers, hcb] at h
  ends := fun cs ev c s rc hcb hev h => by
    cases ev with
    | end_object =>
      simp [invoke, anchor_vt, no_handlers, hcb] at h
      exact Or.inr h.2.1.symm
    | _ => simp [invoke, anchor_vt, no_handlers, hcb] at h

end Deferring

/-! ## The claims -/

/-- C1 (fails on the code): the well-formed document `{"a":[1,-0],"b":-0}` is not
accepted.  The events of `-0` as an array element are delivered and the parse goes
on, but after `-0` as a member value the return code is -1 and no `end_object`
follows: `start_key_object` jumps to `look_for_key` without `ch = *p`. -/
theorem C1_member_minus_zero_breaks_traversal :
    events (parse_doc vt_quiet (ascii "\x7b\"a\":[1,-0],\"b\":-0\x7d") () ()) =
      some (-1, [.start_object, .key (ascii "a"), .start_array, .number (ascii "1"),
        .number (ascii "-0"), .end_array, .key (ascii "b"), .number (ascii "-0")]) := by
  decide

/-- C2: a nonzero callback code ends the parse.  On every buffer and for every
consumer `ajson_sax_parse` returns, and if any logged callback returned a nonzero
code then that callback is the last one logged and its code is the return code.
With the handlers of the test `sax_abort_code` the document
`{"ok": 1, "abort": 0, "ignored": 1}` returns 42 after the two key events `ok`
(code 0) and `abort` (code 42). -/
theorem C2_abort_code_returned_at_once :
    (∀ (σ H : Type) (vt : H → ajson_sax_cb_t σ H) (mem : List Nat) (ep : Nat) (cb : H)
        (ctx : σ),
      ∃ r, ajson_sax_parse vt mem ep cb ctx = some r ∧
        ∀ (i : Nat) (hi : i < r.cs.trace.length), (r.cs.trace.get ⟨i, hi⟩).2 ≠ 0 →
          r.rc = (r.cs.trace.get ⟨i, hi⟩).2 ∧ i + 1 = r.cs.trace.length) ∧
    outcome (parse_doc (fun _ : Unit => abort_h)
        (ascii "\x7b\"ok\": 1, \"abort\": 0, \"ignored\": 1\x7d") () ()) =
      some (42, [(.key (ascii "ok"), 0), (.key (ascii "abort"), 42)]) := by
  refine ⟨fun σ H vt mem ep cb ctx => ?_, by decide⟩
  obtain ⟨r, hr⟩ := ajson_sax_parse_total vt mem ep cb ctx
  refine ⟨r, hr, fun i hi hne => ?_⟩
  have hlast : AbortLast r.rc r.cs.trace := by
    unfold ajson_sax_parse at hr
    dsimp only at hr
    split at hr
    · obtain rfl := Option.some.inj hr
      exact Or.inl (fun e he => by simp [init_consumer] at he)
    · exact run_AbortLast vt _ _ _ _ r (fun e he => by simp [init_consumer] at he) hr
  exact AbortLast_get r.rc r.cs.trace hlast i hi hne

/-- C3 (fails on the code): the truncated input `[[]`, which ends while the outer
array is still open, is accepted with return code 0; so is `{"a":{}`.  After a
closer `determine_next_step` returns 0 as soon as `p >= ep`, whatever the stack
depth.  The truncated inputs of the test are rejected. -/
theorem C3_truncated_after_closer_accepted :
    code (parse_doc vt_none (ascii "[[]") () ()) = some 0 ∧
    code (parse_doc vt_none (ascii "\x7b\"a\":\x7b\x7d") () ()) = some 0 ∧
    ∀ t ∈ ["\x7b", "\x7b\"a\"", "\x7b\"a\":", "\x7b\"a\":1", "[", "[1", "[1,", "\"unclosed",
        "tru", "fals", "nul"],
      code (parse_doc vt_none (ascii t) () ()) = some (-1) := by
  decide

/-- C4 (fails on the code): with a consumer that never aborts the input `[[]`
returns 0 after two `start_array` events and one `end_array` event, and the input
`]` returns 0 after an `end_array` event with no `start_array` event at all. -/
theorem C4_accepted_with_unbalanced_events :
    events (parse_doc vt_quiet (ascii "[[]") () ()) =
      some (0, [.start_array, .start_array, .end_array]) ∧
    events (parse_doc vt_quiet (ascii "]") () ()) = some (0, [.end_array]) := by
  decide

/-- C5: the nesting limit is exact.  For every `n ≥ 1` and every consumer whose
callbacks all return 0, the input of `n` bytes `[` followed by `n` bytes `]`
returns 0 when `n ≤ 511` and -1 when `n ≥ 512`. -/
theorem C5_nesting_limit_exact {σ H : Type} (vt : H → ajson_sax_cb_t σ H)
    (hz : ReturnsZero vt) (n : Nat) (hn : 1 ≤ n) (cb : H) (ctx : σ) :
    code (parse_doc vt (brackets n) cb ctx) = some (if n ≤ 511 then 0 else -1) := by
  have h := brackets_code_none n hn
  unfold parse_doc at h ⊢
  rw [code_eq_no_handlers hz]
  exact h

theorem C5_witness :
    code (parse_doc vt_quiet (brackets 511) () ()) = some 0 ∧
    code (parse_doc vt_quiet (brackets 512) () ()) = some (-1) :=
  ⟨C5_nesting_limit_exact vt_quiet (ReturnsZero_of_complete Complete_quiet_handlers) 511
      (by decide) () (),
   C5_nesting_limit_exact vt_quiet (ReturnsZero_of_complete Complete_quiet_handlers) 512
      (by decide) () ()⟩

/-- C8 (fails on the code): the bytes between a key and its colon are not checked.
Whenever the scanner, with a consumer whose callbacks all return 0, stands in a
key whose closing quote is at offset `q` and the next colon of the buffer is at
offset `c`, the key event is delivered and the parse goes on with the value right
after that colon, whatever the bytes between `q` and `c` are.  So
`{"missing_colon" 1, "b": 2}`, in which no colon follows the key `missing_colon`,
returns 0 with the events of an object whose only member is `"missing_colon": 2`,
and `{"a"x:1}` returns 0 with the events of `{"a":1}`; a stray byte in any other
gap between two tokens of an object (`{"a":1 x}`, `{x"a":1}`, `{"a":x1}`) gives
-1, and so does `{"missing_colon" 1}`, which holds no colon at all. -/
theorem C8_bytes_before_colon_skipped {σ H : Type} (vt : H → ajson_sax_cb_t σ H)
    (hz : ReturnsZero vt) (lx : Lexer) (cs : Consumer σ H) (q c : Nat) (hk : KeyEndsAt lx q)
    (hqc : q < c) (hc : c < lx.ep) (h58 : rd lx.mem c = 58)
    (hno : ∀ i, i < c → q < i → rd lx.mem i ≠ 58) :
    step vt .get_end_of_key lx cs =
      .goto .start_key_object { lx with p := c + 1 }
        (deliver vt cs (.key (slice (wr lx.mem q 0) lx.stringp (q - lx.stringp)))) ∧
    events (parse_doc vt_quiet (ascii "\x7b\"missing_colon\" 1, \"b\": 2\x7d") () ()) =
      some (0, [.start_object, .key (ascii "missing_colon"), .number (ascii "2"),
        .end_object]) ∧
    events (parse_doc vt_quiet (ascii "\x7b\"a\"x:1\x7d") () ()) =
      some (0, [.start_object, .key (ascii "a"), .number (ascii "1"), .end_object]) ∧
    code (parse_doc vt_quiet (ascii "\x7b\"a\":1 x\x7d") () ()) = some (-1) ∧
    code (parse_doc vt_quiet (ascii "\x7bx\"a\":1\x7d") () ()) = some (-1) ∧
    code (parse_doc vt_quiet (ascii "\x7b\"a\":x1\x7d") () ()) = some (-1) ∧
    code (parse_doc vt_quiet (ascii "\x7b\"missing_colon\" 1\x7d") () ()) = some (-1) :=
  ⟨key_gap_skipped vt hz lx cs q c hk hqc hc h58 hno, by decide, by decide, by decide,
    by decide, by decide, by decide⟩

theorem C8_witness :
    reach vt_quiet 3 .start_value
        (init_lexer (ascii "\x7b\"missing_colon\" 1, \"b\": 2\x7d" ++ [0]) 27)
        (init_consumer () ()) =
      some (.start_key_object,
        { init_lexer (ascii "\x7b\"missing_colon\" 1, \"b\": 2\x7d" ++ [0]) 27 with
          p := 24, ch := 34, stringp := 2, stack := [SAX_MODE_OBJECT] },
        deliver vt_quiet (depth_inc (deliver vt_quiet (init_consumer () ()) .start_object))
          (.key (ascii "missing_colon"))) ∧
    step vt_quiet .get_end_of_key
        { init_lexer (ascii "\x7b\"missing_colon\" 1, \"b\": 2\x7d" ++ [0]) 27 with
          p := 2, ch := 34, stringp := 2, stack := [SAX_MODE_OBJECT] }
        (depth_inc (deliver vt_quiet (init_consumer () ()) .start_object)) =
      .goto .start_key_object
        { init_lexer (ascii "\x7b\"missing_colon\" 1, \"b\": 2\x7d" ++ [0]) 27 with
          p := 24, ch := 34, stringp := 2, stack := [SAX_MODE_OBJECT] }
        (deliver vt_quiet (depth_inc (deliver vt_quiet (init_consumer () ()) .start_object))
          (.key (ascii "missing_colon"))) :=
  ⟨rfl,
   (C8_bytes_before_colon_skipped vt_quiet (ReturnsZero_of_complete Complete_quiet_handlers)
      { init_lexer (ascii "\x7b\"missing_colon\" 1, \"b\": 2\x7d" ++ [0]) 27 with
        p := 2, ch := 34, stringp := 2, stack := [SAX_MODE_OBJECT] }
      (depth_inc (deliver vt_quiet (init_consumer () ()) .start_object)) 15 23
      (by unfold KeyEndsAt escaped_quote; decide) (by decide) (by decide) (by decide)
      (by decide)).1⟩

/-- C9: the number scanner recognises exactly the stated shape.  For every
non-empty text `t` over the bytes `0-9 + - . e E` and every consumer whose
callbacks all return 0, the parse of the array `[t]` returns 0 if and only if `t`
has the shape `-? (0 | [1-9][0-9]*) ( \. [0-9]+ )? ( [eE] [+-]? [0-9]+ )?`, and
returns -1 otherwise; when `t` has the shape a consumer with every handler is
given exactly the events `start_array`, one number event whose slice is `t`, and
`end_array`.  The document `[ -0, 0, 1.25e+2 ]` delivers the slices `-0`, `0` and
`1.25e+2`. -/
theorem C9_number_shape_exact {σ H : Type} (vt : H → ajson_sax_cb_t σ H)
    (hz : ReturnsZero vt) (t : List Nat) (hne : t ≠ []) (ha : ∀ c ∈ t, InAlphabet c) (cb : H)
    (ctx : σ) :
    (code (parse_doc vt (91 :: t ++ [93]) cb ctx) = some 0 ↔ NumberShape t) ∧
    (¬ NumberShape t → code (parse_doc vt (91 :: t ++ [93]) cb ctx) = some (-1)) ∧
    (Complete vt → NumberShape t →
      events (parse_doc vt (91 :: t ++ [93]) cb ctx) =
        some (0, [.start_array, .number t, .end_array])) ∧
    events (parse_doc vt_quiet (ascii "[ -0, 0, 1.25e+2 ]") () ()) =
      some (0, [.start_array, .number (ascii "-0"), .number (ascii "0"),
        .number (ascii "1.25e+2"), .end_array]) := by
  obtain ⟨r, hr, hv⟩ := parse_number_verdict t hne ha
  have hr1 : ajson_sax_parse (fun _ : Unit => quiet_handlers) ((91 :: t ++ [93]) ++ [0])
      (91 :: t ++ [93]).length () () = some r := hr
  have hq := code_eq_no_handlers (ReturnsZero_of_complete Complete_quiet_handlers)
    ((91 :: t ++ [93]) ++ [0]) (91 :: t ++ [93]).length () ()
  have hcode : code (parse_doc vt (91 :: t ++ [93]) cb ctx) = some r.rc := by
    unfold parse_doc
    rw [code_eq_no_handlers hz, ← hq, hr1]
    rfl
  by_cases hs : NumberShape t
  · obtain ⟨h0, htr⟩ := hv.1 ((number_ok_iff t).2 hs)
    refine ⟨⟨fun _ => hs, fun _ => by rw [hcode, h0]⟩, fun h => absurd hs h, fun hc _ => ?_,
      by decide⟩
    unfold parse_doc
    rw [events_eq_quiet hc, hr1]
    simp [events, h0, htr]
  · have hok : number_ok t = false := by
      cases h : number_ok t
      · rfl
      · exact absurd ((number_ok_iff t).1 h) hs
    have h1 := hv.2 hok
    refine ⟨⟨fun h => ?_, fun h => absurd h hs⟩, fun _ => by rw [hcode, h1],
      fun _ h => absurd h hs, by decide⟩
    rw [hcode, h1] at h
    simp at h

theorem C9_witness :
    NumberShape (ascii "1.25e+2") ∧
    events (parse_doc vt_quiet (91 :: ascii "1.25e+2" ++ [93]) () ()) =
      some (0, [.start_array, .number (ascii "1.25e+2"), .end_array]) ∧
    ¬ NumberShape (ascii "-01") ∧
    code (parse_doc vt_quiet (91 :: ascii "-01" ++ [93]) () ()) = some (-1) :=
  have h1 := C9_number_shape_exact vt_quiet (ReturnsZero_of_complete Complete_quiet_handlers)
    (ascii "1.25e+2") (by decide) (by unfold InAlphabet; decide) () ()
  have h2 := C9_number_shape_exact vt_quiet (ReturnsZero_of_complete Complete_quiet_handlers)
    (ascii "-01") (by decide) (by unfold InAlphabet; decide) () ()
  have s1 : NumberShape (ascii "1.25e+2") := h1.1.1 (by decide)
  have s2 : ¬ NumberShape (ascii "-01") := fun h => absurd (h2.1.2 h) (by decide)
  ⟨s1, h1.2.2.1 Complete_quiet_handlers s1, s2, h2.2.1 s2⟩

/-- C10 (fails on the code): as an object member value `-0` is rejected.  The
input `{"k":-0}` returns -1 after the events `start_object`, `key k` and
`number -0`; the inputs `{"k":-0.5}` and `{"k":-0e1}` return 0 with the number
slices `-0.5` and `-0e1`, and `{"k":-01}` returns -1. -/
theorem C10_member_minus_zero_rejected :
    events (parse_doc vt_quiet (ascii "\x7b\"k\":-0\x7d") () ()) =
      some (-1, [.start_object, .key (ascii "k"), .number (ascii "-0")]) ∧
    events (parse_doc vt_quiet (ascii "\x7b\"k\":-0.5\x7d") () ()) =
      some (0, [.start_object, .key (ascii "k"), .number (ascii "-0.5"), .end_object]) ∧
    events (parse_doc vt_quiet (ascii "\x7b\"k\":-0e1\x7d") () ()) =
      some (0, [.start_object, .key (ascii "k"), .number (ascii "-0e1"), .end_object]) ∧
    events (parse_doc vt_quiet (ascii "\x7b\"k\":-01\x7d") () ()) =
      some (-1, [.start_object, .key (ascii "k")]) := by
  decide

/-- C16 (fails on the code): the position reported for a trailing comma in an
object is not that of the `}`.  Whenever the parse of a document comes to a `,`
after a member that is followed directly by `}`, at offset `p + 1`,
`ajson_sax_parse` returns -1 and the position stored is `p + 2`, one past the `}`:
`start_key` has read the `}` with `ch = *p++` before `SAX_ERROR` stores `p`. -/
theorem C16_trailing_comma_position_one_past {σ H : Type} (vt : H → ajson_sax_cb_t σ H)
    (doc : List Nat) (hd : doc ≠ []) (cb : H) (ctx : σ) (lx : Lexer)
    (hp : Passes vt doc cb ctx .look_for_key lx) (hc : lx.ch = 44) (hb : lx.p + 1 < lx.ep)
    (hr : rd lx.mem (lx.p + 1) = 125) :
    error_report (parse_doc vt doc cb ctx) = some (-1, some (lx.p + 2)) := by
  obtain ⟨r, h, hq⟩ := parse_of_Passes hd hp
    (fun cs => trailing_comma_brace_ends vt lx cs hc hb hr)
  rw [h]
  simp [error_report, hq.1, hq.2]

theorem C16_witness :
    rd (ascii "\x7b\"a\":1,\x7d") 7 = 125 ∧
    error_report (parse_doc vt_quiet (ascii "\x7b\"a\":1,\x7d") () ()) = some (-1, some 8) :=
  ⟨by decide,
   C16_trailing_comma_position_one_past vt_quiet (ascii "\x7b\"a\":1,\x7d") (by decide) () ()
    _ ⟨5, _, rfl⟩ rfl (by decide) (by decide)⟩

/-- C17 (fails on the code): a nesting failure reports no position.  For every
`n ≥ 512` and every consumer whose callbacks all return 0, the input of `n` bytes
`[` followed by `n` bytes `]` returns -1 and nothing is stored through
`error_at`: the failing `SYNTAX_PUSH` returns without `SAX_ERROR`.  It is the only
such failure: on every buffer and for every consumer a nonzero return code
without a stored position is -1 and leaves the syntax stack full. -/
theorem C17_nesting_failure_stores_no_position {σ H : Type} (vt : H → ajson_sax_cb_t σ H)
    (hz : ReturnsZero vt) (n : Nat) (hn : 512 ≤ n) (cb : H) (ctx : σ) :
    error_report (parse_doc vt (brackets n) cb ctx) = some (-1, none) ∧
    ∀ (mem : List Nat) (ep : Nat) (r : Result σ H),
      ajson_sax_parse vt mem ep cb ctx = some r → r.rc ≠ 0 → r.lx.error_at = none →
        r.rc = -1 ∧ 511 ≤ r.lx.stack.length := by
  refine ⟨?_, fun mem ep r hr hrc he => ?_⟩
  · have h := brackets_report_none n hn
    unfold parse_doc at h ⊢
    rw [error_report_eq_no_handlers hz]
    exact h
  · unfold ajson_sax_parse at hr
    dsimp only at hr
    split at hr
    · obtain rfl := Option.some.inj hr
      simp at he
    · exact run_error_at vt _ _ _ _ r hr hrc he

theorem C17_witness :
    error_report (parse_doc vt_quiet (brackets 512) () ()) = some (-1, none) :=
  (C17_nesting_failure_stores_no_position vt_quiet
    (ReturnsZero_of_complete Complete_quiet_handlers) 512 (by decide) () ()).1

/-- C18: pop undoes push.  `ajson_sax_push` with a handler set saves the active
set and the anchor depth as the new top frame, installs the new set and sets the
anchor depth to `current_depth + 1`; `ajson_sax_pop` after a push, with a set or
with NULL, gives back the handle as it was (active set, anchor depth, stack top,
current depth); and a pop with no saved frame changes nothing. -/
theorem C18_pop_undoes_push {H : Type} (sax : ajson_sax_t H) (c : H) :
    ajson_sax_push sax (some c) =
      { cb := c, top := (sax.cb, sax.anchor_depth) :: sax.top,
        current_depth := sax.current_depth, anchor_depth := sax.current_depth + 1 } ∧
    ajson_sax_pop (ajson_sax_push sax (some c)) = sax ∧
    ajson_sax_pop (ajson_sax_push sax none) = sax ∧
    ajson_sax_pop { sax with top := [] } = { sax with top := [] } :=
  ⟨rfl, rfl, rfl, rfl⟩

/-- C19: `ajson_sax_try_pop` returns true if and only if
`current_depth == anchor_depth`; when it returns false the handle is unchanged,
and when it returns true the handle is the one `ajson_sax_pop` leaves. -/
theorem C19_try_pop_at_anchor_only {H : Type} (sax : ajson_sax_t H) :
    ((ajson_sax_try_pop sax).2 = true ↔ sax.current_depth = sax.anchor_depth) ∧
    ((ajson_sax_try_pop sax).2 = false → (ajson_sax_try_pop sax).1 = sax) ∧
    ((ajson_sax_try_pop sax).2 = true → (ajson_sax_try_pop sax).1 = ajson_sax_pop sax) := by
  unfold ajson_sax_try_pop
  by_cases h : sax.current_depth = sax.anchor_depth <;> simp [h]

theorem C19_witness :
    (ajson_sax_try_pop
        ({ cb := (), top := [((), 0)], current_depth := 5, anchor_depth := 2 } :
          ajson_sax_t Unit)).2 = false ∧
    (ajson_sax_try_pop
        ({ cb := (), top := [((), 0)], current_depth := 5, anchor_depth := 2 } :
          ajson_sax_t Unit)).1.top = [((), 0)] ∧
    (ajson_sax_try_pop
        ({ cb := (), top := [((), 0)], current_depth := 2, anchor_depth := 2 } :
          ajson_sax_t Unit)).2 = true ∧
    (ajson_sax_try_pop
        ({ cb := (), top := [((), 0)], current_depth := 2, anchor_depth := 2 } :
          ajson_sax_t Unit)).1.top = [] :=
  have h5 := C19_try_pop_at_anchor_only
    ({ cb := (), top := [((), 0)], current_depth := 5, anchor_depth := 2 } : ajson_sax_t Unit)
  have h2 := C19_try_pop_at_anchor_only
    ({ cb := (), top := [((), 0)], current_depth := 2, anchor_depth := 2 } : ajson_sax_t Unit)
  have f5 : (ajson_sax_try_pop
      ({ cb := (), top := [((), 0)], current_depth := 5, anchor_depth := 2 } :
        ajson_sax_t Unit)).2 = false := by decide
  have t2 : (ajson_sax_try_pop
      ({ cb := (), top := [((), 0)], current_depth := 2, anchor_depth := 2 } :
        ajson_sax_t Unit)).2 = true := h2.1.2 rfl
  ⟨f5, by rw [h5.2.1 f5], t2, by rw [h2.2.2 t2]; rfl⟩

/-- C20: anchor correctness.  Let no callback write `current_depth`, and let `sub`
be a handler set that pushes nothing and gives the handle back only through
`ajson_sax_try_pop` (its callbacks for start, scalar and key events leave the
handle alone, its end callbacks leave it alone or call `ajson_sax_try_pop`).  Let
the parse of a document come to a state whose transition opens a container `C`
while the start callback pushes `sub` (`ajson_sax_push`, followed by the
`current_depth++` of the parser), and let it go on, `C` staying open, to a state
`cs`.  Then `sub` is the active set in `cs`, its anchor depth is the depth of `C`,
`current_depth` is the depth of the syntax stack, and no frame has been popped
since `C` was opened.  Every end callback that the next transition invokes is
invoked on the handle of `cs`, before `current_depth` is decremented: when the
container that closes is `C` (the syntax stack is as deep as `C`) the callback sees
`current_depth == anchor_depth` and `ajson_sax_try_pop` succeeds; when it is a
container nested inside `C` the callback sees `current_depth > anchor_depth`,
`ajson_sax_try_pop` fails and the handle is left alone.  The transition that closes
`C` is such a transition, and when its end callback calls `ajson_sax_try_pop` the
handle is afterwards what it was before the push, which is the one pop since `C`
was opened.  With the handlers of the test `sax_anchor_correctness` the document
`{"a": { "b": {} }}` returns 0 with a pop count of 1. -/
theorem C20_anchor_correctness {σ H : Type} (vt : H → ajson_sax_cb_t σ H)
    (hk : KeepsDepth vt) (sub : H) (hq : Defers vt sub) (doc : List Nat) (cb : H) (ctx : σ)
    (k : Nat) (l0 : Label) (lx0 : Lexer) (cs0 : Consumer σ H)
    (h0 : reach vt k .start_value (init_lexer (doc ++ [0]) doc.length) (init_consumer cb ctx) =
      some (l0, lx0, cs0))
    (l1 : Label) (lx1 : Lexer) (cs1 : Consumer σ H)
    (hopen : step vt l0 lx0 cs0 = .goto l1 lx1 cs1)
    (hC : lx1.stack.length = lx0.stack.length + 1)
    (hpush : cs1.sax =
      { ajson_sax_push cs0.sax (some sub) with current_depth := cs0.sax.current_depth + 1 })
    (j : Nat) (l : Label) (lx : Lexer) (cs : Consumer σ H)
    (hj : reach_within vt lx1.stack.length j l1 lx1 cs1 = some (l, lx, cs)) :
    (cs.sax.cb = sub ∧ cs.sax.anchor_depth = (lx1.stack.length : Int) ∧
      cs.sax.current_depth = (lx.stack.length : Int) ∧ lx1.stack.length ≤ lx.stack.length ∧
      pop_count vt j l1 lx1 cs1 = 0) ∧
    (∀ (ev : Event) (rc : Int), ev.closes = true →
      (step vt l lx cs).consumer.trace = cs.trace ++ [(ev, rc)] →
      ∃ c s, invoke vt cs ev = some (c, s, rc) ∧
        (step vt l lx cs).consumer =
          (if rc = 0 then depth_dec (after_cb cs ev c s rc) else after_cb cs ev c s rc) ∧
        (lx.stack.length = lx1.stack.length →
          cs.sax.current_depth = cs.sax.anchor_depth ∧ (ajson_sax_try_pop cs.sax).2 = true) ∧
        (lx1.stack.length < lx.stack.length →
          cs.sax.anchor_depth < cs.sax.current_depth ∧
            (ajson_sax_try_pop cs.sax).2 = false ∧ s = cs.sax)) ∧
    (∀ (l2 : Label) (lx2 : Lexer) (cs2 : Consumer σ H),
      step vt l lx cs = .goto l2 lx2 cs2 → lx2.stack.length < lx1.stack.length →
      ∃ ev cs3, ev.closes = true ∧ Delivered vt cs ev cs3 ∧ cs2 = depth_dec cs3 ∧
        lx.stack.length = lx1.stack.length ∧
        (cs3.sax = (ajson_sax_try_pop cs.sax).1 →
          cs2.sax = cs0.sax ∧ pop_count vt (j + 1) l1 lx1 cs1 = 1)) ∧
    (parse_doc anchor_vt (ascii "\x7b\"a\": \x7b \"b\": \x7b\x7d \x7d\x7d") .anchor_root 0).map
      (fun r => (r.rc, r.cs.ctx)) = some (0, 1) := by
  have i0 := reach_DepthInv hk k (DepthInv_init _ _ cb ctx) h0
  have d0 : cs0.sax.current_depth = (lx0.stack.length : Int) := by
    rcases i0 with h | ⟨rfl, hnil⟩
    · exact h
    · simp [step, determine_next_step, stack_depth, hnil] at hopen
  have hbase : Delegated sub ((cs0.sax.cb, cs0.sax.anchor_depth) :: cs0.sax.top)
      lx1.stack.length lx1 cs1 :=
    ⟨by rw [hpush]; rfl, by rw [hpush]; rfl,
      by rw [hpush, hC]; show cs0.sax.current_depth + 1 = _; rw [d0]; simp,
      by rw [hpush, hC]; show cs0.sax.current_depth + 1 = _; rw [d0]; simp,
      Nat.le_refl _, by omega⟩
  obtain ⟨hin, hpc, hreach⟩ := reach_within_Deferred hq j hbase hj
  have hdeep := hin.deep
  have hdepth := hin.depth
  have hanchor := hin.anchor
  refine ⟨⟨hin.cb, hanchor, hdepth, hdeep, hpc⟩, ?_, ?_, by decide⟩
  · intro ev rc hc hlog
    obtain ⟨c, s, hinv, hcons⟩ := end_event_logged vt l lx cs ev rc hc hlog
    refine ⟨c, s, hinv, hcons, fun he => ?_, fun hlt => ?_⟩
    · have heq : cs.sax.current_depth = cs.sax.anchor_depth := by rw [hdepth, hanchor, he]
      exact ⟨heq, by unfold ajson_sax_try_pop; rw [if_pos heq]⟩
    · have hne : ¬ cs.sax.current_depth = cs.sax.anchor_depth := by
        rw [hdepth, hanchor]
        omega
      refine ⟨by rw [hdepth, hanchor]; omega,
        by unfold ajson_sax_try_pop; rw [if_neg hne], ?_⟩
      rcases hq.ends cs ev c s rc hin.cb hc hinv with h1 | h1
      · exact h1
      · rw [h1]
        unfold ajson_sax_try_pop
        rw [if_neg hne]
  · intro l2 lx2 cs2 hs hlt
    obtain ⟨ev, cs3, hc, hd, he, hlen, hpop⟩ := step_leaves hin hs hlt
    refine ⟨ev, cs3, hc, hd, he, hlen, fun hp => ?_⟩
    obtain ⟨hsax, hone⟩ := hpop hp
    refine ⟨?_, by rw [pop_count_succ j hreach, hpc, hone]⟩
    have e : ((lx0.stack.length + 1 : Nat) : Int) - 1 = cs0.sax.current_depth := by
      rw [d0]
      simp
    rw [hsax, hC, e]

theorem C20_witness :
    (∃ lx cs, reach anchor_vt 15 .start_value
        (init_lexer (ascii "\x7b\"a\": \x7b \"b\": \x7b\x7d \x7d\x7d" ++ [0]) 18)
        (init_consumer .anchor_root 0) = some (.look_for_key, lx, cs) ∧
      lx.ch = 125 ∧ lx.stack.length = 1 ∧ cs.sax.cb = .anchor_h ∧
      ∃ c s, invoke anchor_vt cs .end_object = some (c, s, 0) ∧
        cs.sax.current_depth = cs.sax.anchor_depth ∧ (ajson_sax_try_pop cs.sax).2 = true) ∧
    (∃ lx cs, reach anchor_vt 10 .start_value
        (init_lexer (ascii "\x7b\"a\": \x7b \"b\": \x7b\x7d \x7d\x7d" ++ [0]) 18)
        (init_consumer .anchor_root 0) = some (.start_key, lx, cs) ∧
      rd lx.mem lx.p = 125 ∧ lx.stack.length = 3 ∧ cs.sax.cb = .anchor_h ∧
      ∃ c s, invoke anchor_vt cs .end_object = some (c, s, 0) ∧
        cs.sax.anchor_depth < cs.sax.current_depth ∧
        (ajson_sax_try_pop cs.sax).2 = false ∧ s = cs.sax) ∧
    (∃ l1 lx1 cs1, step anchor_vt .start_value
        (init_lexer (ascii "\x7b\"a\": \x7b \"b\": \x7b\x7d \x7d\x7d" ++ [0]) 18)
        (init_consumer .anchor_root 0) = .goto l1 lx1 cs1 ∧
      pop_count anchor_vt 14 l1 lx1 cs1 = 0 ∧ pop_count anchor_vt 15 l1 lx1 cs1 = 1) := by
  have T := fun j l lx cs hj =>
    C20_anchor_correctness anchor_vt KeepsDepth_anchor_vt .anchor_h Defers_anchor_vt
      (ascii "\x7b\"a\": \x7b \"b\": \x7b\x7d \x7d\x7d") .anchor_root 0 0 _ _ _ rfl _ _ _ rfl
      rfl rfl j l lx cs hj
  refine ⟨⟨_, _, rfl, rfl, rfl, (T 14 _ _ _ rfl).1.1, ?_⟩,
    ⟨_, _, rfl, rfl, rfl, (T 9 _ _ _ rfl).1.1, ?_⟩,
    ⟨_, _, _, rfl, (T 14 _ _ _ rfl).1.2.2.2.2, ?_⟩⟩
  · obtain ⟨c, s, hinv, -, hat, -⟩ := (T 14 _ _ _ rfl).2.1 .end_object 0 rfl rfl
    exact ⟨c, s, hinv, hat rfl⟩
  · obtain ⟨c, s, hinv, -, -, hin⟩ := (T 9 _ _ _ rfl).2.1 .end_object 0 rfl rfl
    exact ⟨c, s, hinv, hin (by decide)⟩
  · obtain ⟨ev, cs3, -, -, he, -, himp⟩ := (T 14 _ _ _ rfl).2.2.1 _ _ _ rfl (by decide)
    refine (himp ?_).2
    have h1 : cs3.sax = { (depth_dec cs3).sax with
        current_depth := (depth_dec cs3).sax.current_depth + 1 } := by
      show cs3.sax = { cs3.sax with current_depth := cs3.sax.current_depth - 1 + 1 }
      rw [Int.sub_add_cancel]
    rw [h1, ← he]
    decide

/-- C11 (as stated, fails): in `[truex]` the token in the value position is the
identifier `truex`, whose bytes are not exactly `true`, and yet it is taken as the
literal `true`: the bytes `true` at the cursor match, the callback for `true` is
invoked and the parse goes on at the byte `x`, where it fails with -1.  The same
holds of `nullx` at the root and of `falsey` as a member value. -/
theorem C11_counterexample_longer_identifier_taken_as_literal :
    (∃ lx cs, reach vt_quiet 1 .start_value (init_lexer (ascii "[truex]" ++ [0]) 7)
        (init_consumer () ()) = some (.start_value, lx, cs) ∧
      BareWordAt lx (ascii "truex") ∧
      step vt_quiet .start_value lx cs =
        .goto .add_string { lx with p := 5, ch := 120, after_comma := false }
          (deliver vt_quiet cs (.bool true))) ∧
    events (parse_doc vt_quiet (ascii "[truex]") () ()) =
      some (-1, [.start_array, .bool true]) ∧
    events (parse_doc vt_quiet (ascii "nullx") () ()) = some (-1, [.null]) ∧
    events (parse_doc vt_quiet (ascii "\x7b\"a\": falsey\x7d") () ()) =
      some (-1, [.start_object, .key (ascii "a"), .bool false]) :=
  ⟨⟨_, _, rfl, by unfold BareWordAt; decide, rfl⟩, by decide, by decide, by decide⟩

/-- C11 (as amended): literals are matched case-sensitively and exactly against
the bytes at the cursor.  Whenever the parse of a document, with a consumer whose
callbacks all return 0, comes to a value position (`start_value` at the root or in
an array, `start_key_object` after a member's colon): the callback of a literal is
invoked there only when the bytes at the cursor are exactly `true`, `false` or
`null`, lying wholly inside the buffer; when they are, the callback is invoked and
the parse goes on right after the literal, whatever byte follows; and a bare
identifier there that is not exactly `true`, `false` or `null`, be it `True`,
`NULL` or `truex`, makes `ajson_sax_parse` return -1. -/
theorem C11_literal_matched_on_exact_bytes {σ H : Type} (vt : H → ajson_sax_cb_t σ H)
    (hz : ReturnsZero vt) (doc : List Nat) (cb : H) (ctx : σ) (l : Label) (lx : Lexer)
    (hp : Passes vt doc cb ctx l lx) (hl : l = .start_value ∨ l = .start_key_object) :
    (∀ (cs : Consumer σ H) (ev : Event) (word : List Nat) (rc : Int),
      literal_text ev = some word →
      (step vt l lx cs).consumer.trace = cs.trace ++ [(ev, rc)] → WordAt lx word) ∧
    (∀ (cs : Consumer σ H) (ev : Event) (word : List Nat),
      literal_text ev = some word → WordAt lx word →
      ∃ lx1, step vt l lx cs = .goto (after_scalar l) lx1 (deliver vt cs ev) ∧
        lx1.p = lx.p + word.length ∧ lx1.ch = rd lx.mem (lx.p + word.length) ∧
        lx1.mem = lx.mem ∧ lx1.ep = lx.ep ∧ lx1.stack = lx.stack) ∧
    (∀ w : List Nat, BareWordAt lx w →
      w ≠ ascii "true" ∧ w ≠ ascii "false" ∧ w ≠ ascii "null" →
      code (parse_doc vt doc cb ctx) = some (-1)) :=
  ⟨fun cs ev word rc ht hlog => literal_event_at_text vt l hl lx cs ev rc hlog word ht,
   fun cs ev word ht hw => literal_accepted hz l hl lx cs ev word ht hw,
   fun w hw hne => code_of_Passes hp (fun cs => bare_word_ends vt hz l hl lx cs w hw hne)⟩

theorem C11_witness :
    code (parse_doc vt_quiet (ascii "\x7b\"a\": True\x7d") () ()) = some (-1) ∧
    code (parse_doc vt_quiet (ascii "\x7b\"a\": NULL\x7d") () ()) = some (-1) ∧
    code (parse_doc vt_quiet (ascii "[truth]") () ()) = some (-1) ∧
    code (parse_doc vt_quiet (ascii "nul") () ()) = some (-1) ∧
    code (parse_doc vt_quiet (ascii "[truex]") () ()) = some (-1) ∧
    (∃ lx1, step vt_quiet .start_value
        { init_lexer (ascii "[true]" ++ [0]) 6 with
          p := 1, ch := 91, stack := [SAX_MODE_ARRAY] }
        (depth_inc (deliver vt_quiet (init_consumer () ()) .start_array)) =
      .goto (after_scalar .start_value) lx1
        (deliver vt_quiet (depth_inc (deliver vt_quiet (init_consumer () ()) .start_array))
          (.bool true)) ∧
      lx1.p = 1 + (ascii "true").length ∧ lx1.ch = rd (ascii "[true]" ++ [0]) (1 + 4) ∧
      lx1.mem = ascii "[true]" ++ [0] ∧ lx1.ep = 6 ∧ lx1.stack = [SAX_MODE_ARRAY]) :=
  have q := ReturnsZero_of_complete Complete_quiet_handlers
  ⟨(C11_literal_matched_on_exact_bytes vt_quiet q (ascii "\x7b\"a\": True\x7d") () () _ _
      ⟨4, _, rfl⟩ (Or.inr rfl)).2.2
      (ascii "True") (by unfold BareWordAt; decide) (by decide),
   (C11_literal_matched_on_exact_bytes vt_quiet q (ascii "\x7b\"a\": NULL\x7d") () () _ _
      ⟨4, _, rfl⟩ (Or.inr rfl)).2.2
      (ascii "NULL") (by unfold BareWordAt; decide) (by decide),
   (C11_literal_matched_on_exact_bytes vt_quiet q (ascii "[truth]") () () _ _
      ⟨1, _, rfl⟩ (Or.inl rfl)).2.2
      (ascii "truth") (by unfold BareWordAt; decide) (by decide),
   (C11_literal_matched_on_exact_bytes vt_quiet q (ascii "nul") () () _ _
      ⟨0, _, rfl⟩ (Or.inl rfl)).2.2
      (ascii "nul") (by unfold BareWordAt; decide) (by decide),
   (C11_literal_matched_on_exact_bytes vt_quiet q (ascii "[truex]") () () _ _
      ⟨1, _, rfl⟩ (Or.inl rfl)).2.2
      (ascii "truex") (by unfold BareWordAt; decide) (by decide),
   (C11_literal_matched_on_exact_bytes vt_quiet q (ascii "[true]") () () .start_value
      { init_lexer (ascii "[true]" ++ [0]) 6 with p := 1, ch := 91, stack := [SAX_MODE_ARRAY] }
      ⟨1, _, rfl⟩ (Or.inl rfl)).2.1 _ (.bool true) (ascii "true") rfl (by decide)⟩

/-- C12: string and key scanning.  Let a quote stand under the cursor and let `q`
be the first later quote inside the buffer that is preceded by an even number
(possibly zero) of consecutive backslashes.  Then a string value (at
`start_value`, in an array or at the root, and at `start_key_object`, after a
member's colon) and a key (at `start_key`) end at `q`: the scanner runs the
`on_string` / `on_key` callback, and no other, with the slice of the raw bytes
between the two quotes, and goes on after the closing quote with the buffer
restored (for a key, after the next `:`).  In the documents of the tests the key
`\u00E9` is delivered as its six bytes, the value `line\nbreak` as its eleven
bytes and `val\"ue` as one string. -/
theorem C12_string_ends_at_unescaped_quote {σ H : Type} (vt : H → ajson_sax_cb_t σ H)
    (lx : Lexer) (cs : Consumer σ H) (q : Nat) (hq : ClosingQuote lx.mem lx.p lx.ep q) :
    Emits vt .start_value lx cs (.string (slice lx.mem (lx.p + 1) (q - (lx.p + 1))))
      .add_string
      { lx with p := q + 1, ch := rd lx.mem (q + 1), stringp := lx.p + 1,
                after_comma := false } ∧
    Emits vt .start_key_object lx cs (.string (slice lx.mem (lx.p + 1) (q - (lx.p + 1))))
      .look_for_key
      { lx with p := q + 1, ch := rd lx.mem (q + 1), stringp := lx.p + 1 } ∧
    Emits vt .start_key lx cs (.key (slice lx.mem (lx.p + 1) (q - (lx.p + 1))))
      .start_key_object
      { lx with p := scan_to lx.mem lx.ep 58 (lx.ep - (q + 1)) (q + 1) + 1, ch := 34,
                stringp := lx.p + 1, after_comma := false } ∧
    events (parse_doc vt_quiet
        (ascii "\x7b\"k\": \"val\\\"ue\", \"k2\": \"line\\nbreak\"\x7d") () ()) =
      some (0, [.start_object, .key (ascii "k"), .string (ascii "val\\\"ue"),
        .key (ascii "k2"), .string (ascii "line\\nbreak"), .end_object]) ∧
    events (parse_doc vt_quiet (ascii "\x7b\"\\u00E9\": 1\x7d") () ()) =
      some (0, [.start_object, .key (ascii "\\u00E9"), .number (ascii "1"), .end_object]) ∧
    (ascii "\\u00E9").length = 6 ∧ (ascii "line\\nbreak").length = 11 := by
  have hp : lx.p < lx.ep := Nat.lt_trans hq.2.1 hq.2.2.1
  exact ⟨start_value_string vt lx cs q hp hq, start_key_object_string vt lx cs q hp hq,
    start_key_key vt lx cs q hp hq, by decide, by decide, by decide, by decide⟩

theorem C12_witness :
    ClosingQuote (ascii "\"val\\\"ue\" " ++ [0]) 0 10 8 ∧
    ¬ Unescaped (ascii "\"val\\\"ue\" " ++ [0]) 5 ∧
    Emits vt_quiet .start_value (init_lexer (ascii "\"val\\\"ue\" " ++ [0]) 10)
      (init_consumer () ()) (.string (ascii "val\\\"ue")) .add_string
      { init_lexer (ascii "\"val\\\"ue\" " ++ [0]) 10 with
        p := 9, ch := 32, stringp := 1, after_comma := false } :=
  ⟨by unfold ClosingQuote; decide, by decide,
   (C12_string_ends_at_unescaped_quote vt_quiet
      (init_lexer (ascii "\"val\\\"ue\" " ++ [0]) 10) (init_consumer () ()) 8
      (by unfold ClosingQuote; decide)).1⟩

/-- C13: a top-level scalar is a legal document.  For every run `ws` of whitespace
bytes and every consumer with all nine handlers, each returning 0: a number of the
number shape, a string whose closing quote is the first quote preceded by an even
number of backslashes, and each of `true`, `false`, `null`, given alone in a
buffer with a NUL at its end and followed by `ws`, returns 0 and delivers exactly
one event, the one of the scalar. -/
theorem C13_root_scalar_accepted {σ H : Type} (vt : H → ajson_sax_cb_t σ H)
    (hc : Complete vt) (ws : List Nat) (hws : ∀ c ∈ ws, isSpace c) (cb : H) (ctx : σ) :
    (∀ t, NumberShape t → events (parse_doc vt (t ++ ws) cb ctx) = some (0, [.number t])) ∧
    (∀ s, ClosingQuote ((34 :: s ++ 34 :: ws) ++ [0]) 0 (34 :: s ++ 34 :: ws).length
        (s.length + 1) →
      events (parse_doc vt (34 :: s ++ 34 :: ws) cb ctx) = some (0, [.string s])) ∧
    events (parse_doc vt (ascii "true" ++ ws) cb ctx) = some (0, [.bool true]) ∧
    events (parse_doc vt (ascii "false" ++ ws) cb ctx) = some (0, [.bool false]) ∧
    events (parse_doc vt (ascii "null" ++ ws) cb ctx) = some (0, [.null]) := by
  have hl := root_literal_events ws hws
  unfold parse_doc at hl ⊢
  simp only [events_eq_quiet hc]
  refine ⟨fun t ht => ?_, fun s hs => ?_, hl.1, hl.2.1, hl.2.2⟩
  · exact root_number_events t ws ht hws
  · exact root_string_events s ws hws hs

theorem C13_witness :
    events (parse_doc vt_quiet (ascii "123   ") () ()) = some (0, [.number (ascii "123")]) ∧
    events (parse_doc vt_quiet (ascii "-1.5e3   ") () ()) =
      some (0, [.number (ascii "-1.5e3")]) ∧
    events (parse_doc vt_quiet (ascii "\"hello\"   ") () ()) =
      some (0, [.string (ascii "hello")]) ∧
    events (parse_doc vt_quiet (ascii "null   ") () ()) = some (0, [.null]) :=
  have h := C13_root_scalar_accepted vt_quiet Complete_quiet_handlers (ascii "   ")
    (by decide) () ()
  ⟨h.1 (ascii "123") ((number_ok_iff _).1 (by decide)),
   h.1 (ascii "-1.5e3") ((number_ok_iff _).1 (by decide)),
   h.2.1 (ascii "hello") (by unfold ClosingQuote; decide), h.2.2.2.2⟩

/-- C14: whitespace between tokens is insignificant.  Take any document `u ++ v`
with `v` not empty, any consumer and any run `ws` of bytes from
`{0x20, 0x09, 0x0A, 0x0D}`.  When the offset `|u|` is a place between two tokens for
the parser (the parse of `u ++ v` passes through a state that is about to read the
next token, or the delimiter after a value, with the cursor at `|u|`, or `|u|` lies
between the closing quote of a key and its colon), the parse of `u ++ ws ++ v`
returns the same code and invokes the same callbacks with the same slices and the
same results as the parse of `u ++ v`.  Before the first token this holds of every
document: the parse of `ws ++ v` has the outcome of the parse of `v`. -/
theorem C14_whitespace_between_tokens_insignificant {σ H : Type}
    (vt : H → ajson_sax_cb_t σ H) (u ws v : List Nat) (cb : H) (ctx : σ)
    (hws : ∀ c ∈ ws, isSpace c) (hv : v ≠ [])
    (hb : TokenBoundary vt (u ++ v) cb ctx u.length) :
    outcome (parse_doc vt (u ++ ws ++ v) cb ctx) = outcome (parse_doc vt (u ++ v) cb ctx) ∧
      outcome (parse_doc vt (ws ++ v) cb ctx) = outcome (parse_doc vt v cb ctx) := by
  refine ⟨insert_outcome vt u ws v cb ctx hws hv hb, ?_⟩
  have h := insert_outcome vt [] ws v cb ctx hws hv
    ⟨.start_value, _, ⟨0, _, rfl⟩, Or.inl ⟨trivial, rfl⟩⟩
  simpa using h

theorem C14_witness :
    TokenBoundary vt_quiet (ascii "\x7b\"a\":[1,2]\x7d") () () 4 ∧
    TokenBoundary vt_quiet (ascii "\x7b\"a\":[1,2]\x7d") () () 7 ∧
    outcome (parse_doc vt_quiet (ascii "\x7b\"a\" \t:[1,2]\x7d") () ()) =
      outcome (parse_doc vt_quiet (ascii "\x7b\"a\":[1,2]\x7d") () ()) ∧
    outcome (parse_doc vt_quiet (ascii "\x7b\"a\":[1\n\r,2]\x7d") () ()) =
      outcome (parse_doc vt_quiet (ascii "\x7b\"a\":[1,2]\x7d") () ()) ∧
    events (parse_doc vt_quiet
        (ascii " \n\t \x7b \n \"a\" \t : \n [ \t 1 \n , \r 2 \t ] \n \x7d \t ") () ()) =
      events (parse_doc vt_quiet (ascii "\x7b\"a\":[1,2]\x7d") () ()) :=
  have b4 : TokenBoundary vt_quiet (ascii "\x7b\"a\"" ++ ascii ":[1,2]\x7d") () ()
      (ascii "\x7b\"a\"").length :=
    ⟨_, _, ⟨2, _, rfl⟩, Or.inr ⟨rfl, by decide⟩⟩
  have b7 : TokenBoundary vt_quiet (ascii "\x7b\"a\":[1" ++ ascii ",2]\x7d") () ()
      (ascii "\x7b\"a\":[1").length :=
    ⟨_, _, ⟨6, _, rfl⟩, Or.inl ⟨by decide, rfl⟩⟩
  ⟨b4, b7,
   (C14_whitespace_between_tokens_insignificant vt_quiet (ascii "\x7b\"a\"") (ascii " \t")
      (ascii ":[1,2]\x7d") () () (by decide) (by decide) b4).1,
   (C14_whitespace_between_tokens_insignificant vt_quiet (ascii "\x7b\"a\":[1") (ascii "\n\r")
      (ascii ",2]\x7d") () () (by decide) (by decide) b7).1,
   by decide⟩

/-- C21: delegation routes events by lexical scope.  Let no callback write
`current_depth`, let `sub` be a handler set that resigns in its end callbacks (its
other callbacks leave the handle alone, its end callbacks call
`ajson_sax_try_pop`), and let the parse of a document come to a state `cs0` whose
transition opens a container `C` while the start callback pushes `sub`
(`ajson_sax_push`, followed by the `current_depth++` of the parser).  Then in every
state the parse comes to while `C` is open, `sub` is the active handler set, so
that every event after the start of `C`, the end of `C` included, is offered to
the handlers of `sub` and to no other; the transition that closes `C` offers its
end event in such a state, and when `sub` has a handler for it the handle is
afterwards what it was before the push: the root set is the active one again, with
its anchor depth and its saved frames, and the next event is offered to it.  With
the two handler sets of the test `sax_stack_unified_logic` and the document
`{"special": {"v": x}, "normal": {"v": y}}`, for all unsigned integers `x` and
`y`, the parse returns 0, `u_user_handlers` is given the number `x` (and the end
of the object that holds it, but no key), `u_root_handlers` is given the number
`y`, and `u_root_handlers` is the active set at the end: whatever function stands
for `atoi`, `user_num` is what it makes of the text `x` and `root_num` what it
makes of the text `y`, and `(int) strtol(s, NULL, 10)` makes of a text its value
whenever that fits `int`. -/
theorem C21_delegation_routes_by_scope {σ H : Type} (vt : H → ajson_sax_cb_t σ H)
    (hk : KeepsDepth vt) (sub : H) (hr : Resigns vt sub) (doc : List Nat) (cb : H) (ctx : σ)
    (k : Nat) (l0 : Label) (lx0 : Lexer) (cs0 : Consumer σ H)
    (h0 : reach vt k .start_value (init_lexer (doc ++ [0]) doc.length) (init_consumer cb ctx) =
      some (l0, lx0, cs0))
    (l1 : Label) (lx1 : Lexer) (cs1 : Consumer σ H)
    (hopen : step vt l0 lx0 cs0 = .goto l1 lx1 cs1)
    (hC : lx1.stack.length = lx0.stack.length + 1)
    (hpush : cs1.sax =
      { ajson_sax_push cs0.sax (some sub) with current_depth := cs0.sax.current_depth + 1 })
    (j : Nat) (l : Label) (lx : Lexer) (cs : Consumer σ H)
    (hj : reach_within vt lx1.stack.length j l1 lx1 cs1 = some (l, lx, cs)) :
    (cs.sax.cb = sub ∧ cs.sax.top = (cs0.sax.cb, cs0.sax.anchor_depth) :: cs0.sax.top ∧
      cs.sax.anchor_depth = cs0.sax.current_depth + 1) ∧
    (∀ (l2 : Label) (lx2 : Lexer) (cs2 : Consumer σ H),
      step vt l lx cs = .goto l2 lx2 cs2 → lx2.stack.length < lx1.stack.length →
      ∃ ev cs3, ev.closes = true ∧ Delivered vt cs ev cs3 ∧ cs2 = depth_dec cs3 ∧
        (invoke vt cs ev ≠ none → cs2.sax = cs0.sax)) ∧
    (∀ (f : List Nat → Int) (x y : List Nat), IsIntPart x → IsIntPart y →
      (parse_doc (unified_vt f) (unified_doc x y) .u_root_handlers ⟨[], 0, 0⟩).map
        (fun r => (r.rc, r.cs.trace.map Prod.fst, r.cs.ctx.user_num, r.cs.ctx.root_num,
          r.cs.sax.cb)) =
        some (0, [.start_object, .key (ascii "special"), .start_object, .number x,
          .end_object, .key (ascii "normal"), .start_object, .key (ascii "v"), .number y],
          f x, f y, .u_root_handlers)) ∧
    (∀ x : List Nat, IsIntPart x → atoi_digits x 0 < 2147483648 →
      atoi x = (atoi_digits x 0 : Int)) := by
  have i0 := reach_DepthInv hk k (DepthInv_init _ _ cb ctx) h0
  have d0 : cs0.sax.current_depth = (lx0.stack.length : Int) := by
    rcases i0 with h | ⟨rfl, hnil⟩
    · exact h
    · simp [step, determine_next_step, stack_depth, hnil] at hopen
  have hbase : Delegated sub ((cs0.sax.cb, cs0.sax.anchor_depth) :: cs0.sax.top)
      lx1.stack.length lx1 cs1 :=
    ⟨by rw [hpush]; rfl, by rw [hpush]; rfl,
      by rw [hpush, hC]; show cs0.sax.current_depth + 1 = _; rw [d0]; simp,
      by rw [hpush, hC]; show cs0.sax.current_depth + 1 = _; rw [d0]; simp,
      Nat.le_refl _, by omega⟩
  have hin := reach_within_Delegated hr j hbase hj
  refine ⟨⟨hin.cb, hin.top, by rw [hin.anchor, hC, d0]; simp⟩, ?_, unified_doc_routes,
    atoi_in_range⟩
  intro l2 lx2 cs2 hs hlt
  obtain ⟨ev, cs3, hc, hd, he, hsax⟩ := step_resigns hr hin hs hlt
  refine ⟨ev, cs3, hc, hd, he, fun hne => ?_⟩
  have e : ((lx0.stack.length + 1 : Nat) : Int) - 1 = cs0.sax.current_depth := by
    rw [d0]
    simp
  rw [hsax hne, hC, e]

theorem C21_witness :
    (∃ lx cs, reach (unified_vt atoi) 10 .start_value
        (init_lexer (unified_doc (ascii "100") (ascii "200") ++ [0]) 45)
        (init_consumer .u_root_handlers ⟨[], 0, 0⟩) = some (.look_for_key, lx, cs) ∧
      lx.ch = 125 ∧ lx.stack.length = 2 ∧ cs.sax.cb = .u_user_handlers) ∧
    (parse_doc (unified_vt atoi)
        (ascii "\x7b\"special\": \x7b\"v\": 100\x7d, \"normal\": \x7b\"v\": 200\x7d\x7d")
        .u_root_handlers ⟨[], 0, 0⟩).map
      (fun r => (r.rc, r.cs.trace.map Prod.fst, r.cs.ctx.user_num, r.cs.ctx.root_num,
        r.cs.sax.cb)) =
      some (0, [.start_object, .key (ascii "special"), .start_object, .number (ascii "100"),
        .end_object, .key (ascii "normal"), .start_object, .key (ascii "v"),
        .number (ascii "200")], atoi (ascii "100"), atoi (ascii "200"), .u_root_handlers) ∧
    atoi (ascii "100") = 100 ∧ atoi (ascii "200") = 200 :=
  have h := C21_delegation_routes_by_scope (unified_vt atoi) (KeepsDepth_unified_vt atoi)
    .u_user_handlers (Resigns_unified_vt atoi) (unified_doc (ascii "100") (ascii "200"))
    .u_root_handlers ⟨[], 0, 0⟩ 4 _ _ _ rfl _ _ _ rfl rfl rfl 5 _ _ _ rfl
  have h1 : IsIntPart (ascii "100") := Or.inr ⟨49, [48, 48], rfl, by decide, by decide⟩
  have h2 : IsIntPart (ascii "200") := Or.inr ⟨50, [48, 48], rfl, by decide, by decide⟩
  ⟨⟨_, _, rfl, rfl, rfl, h.1.1⟩, h.2.2.1 atoi (ascii "100") (ascii "200") h1 h2,
   h.2.2.2 (ascii "100") h1 (by decide), h.2.2.2 (ascii "200") h2 (by decide)⟩

/-- C22: the transient NUL terminators are undone.  For every input and every
consumer whose callbacks all return 0 (a callback of the embedding cannot write
the buffer: it is handed copies of the slices), `ajson_sax_parse` returns, with 0
or -1, and every byte of `[buf_begin, buf_end)` then holds the value it had before
the call. -/
theorem C22_buffer_restored {σ H : Type} (vt : H → ajson_sax_cb_t σ H) (hz : ReturnsZero vt)
    (mem : List Nat) (ep : Nat) (cb : H) (ctx : σ) :
    ∃ r, ajson_sax_parse vt mem ep cb ctx = some r ∧ (r.rc = 0 ∨ r.rc = -1) ∧
      ∀ i, i < ep → rd r.lx.mem i = rd mem i := by
  obtain ⟨r, hr⟩ := ajson_sax_parse_total vt mem ep cb ctx
  exact ⟨r, hr, ajson_sax_parse_rc_of_zero hz mem ep cb ctx r hr,
    ajson_sax_parse_SameBuf hz mem ep cb ctx r hr⟩

theorem C22_witness :
    (∃ r, ajson_sax_parse vt_quiet (ascii "\x7b\"a\\\"b\": [1, \"x\", -2.5e3], \"c\": 0\x7d" ++ [0])
        34 () () = some r ∧ (r.rc = 0 ∨ r.rc = -1) ∧
      ∀ i, i < 34 →
        rd r.lx.mem i =
          rd (ascii "\x7b\"a\\\"b\": [1, \"x\", -2.5e3], \"c\": 0\x7d" ++ [0]) i) ∧
    (ajson_sax_parse vt_quiet (ascii "\x7b\"a\\\"b\": [1, \"x\", -2.5e3], \"c\": 0\x7d" ++ [0])
        34 () ()).map (fun r => (r.rc, r.lx.mem)) =
      some (0, ascii "\x7b\"a\\\"b\": [1, \"x\", -2.5e3], \"c\": 0\x7d" ++ [0]) :=
  ⟨C22_buffer_restored vt_quiet (ReturnsZero_of_complete Complete_quiet_handlers)
      (ascii "\x7b\"a\\\"b\": [1, \"x\", -2.5e3], \"c\": 0\x7d" ++ [0]) 34 () (),
   by decide⟩

/-- C23: absent handlers are ignored and consumers do not influence acceptance.
For every input, `ajson_sax_parse` with a handler set whose nine callbacks are all
absent and `ajson_sax_parse` with any consumer whose callbacks all return 0,
whatever they do to the context and to the handler stack, both return, and with
the same code. -/
theorem C23_return_code_independent_of_handlers {σ H σ₀ H₀ : Type}
    (vt : H → ajson_sax_cb_t σ H) (hz : ReturnsZero vt) (vt₀ : H₀ → ajson_sax_cb_t σ₀ H₀)
    (cb₀ : H₀) (h0 : vt₀ cb₀ = no_handlers σ₀ H₀) (mem : List Nat) (ep : Nat) (cb : H)
    (ctx : σ) (ctx₀ : σ₀) :
    ∃ rc, code (ajson_sax_parse vt₀ mem ep cb₀ ctx₀) = some rc ∧
      code (ajson_sax_parse vt mem ep cb ctx) = some rc := by
  have h := ajson_sax_parse_Rel (Compat_absent h0 hz) mem ep cb₀ ctx₀ cb ctx rfl
  obtain ⟨r0, hr0⟩ := ajson_sax_parse_total vt₀ mem ep cb₀ ctx₀
  obtain ⟨r, hr⟩ := ajson_sax_parse_total vt mem ep cb ctx
  rw [hr0, hr] at h ⊢
  exact ⟨r0.rc, rfl, by simp [code, h.1]⟩

theorem C23_witness :
    ∃ rc, code (parse_doc vt_none (ascii "\x7b\"a\": [1, true, null]\x7d") () ()) = some rc ∧
      code (parse_doc (unified_vt atoi) (ascii "\x7b\"a\": [1, true, null]\x7d")
        .u_root_handlers ⟨[], 0, 0⟩) = some rc :=
  C23_return_code_independent_of_handlers (unified_vt atoi) (ReturnsZero_unified_vt atoi)
    vt_none () rfl
    (ascii "\x7b\"a\": [1, true, null]\x7d" ++ [0]) 22 .u_root_handlers ⟨[], 0, 0⟩ ()

/-- C24: decoding undoes encoding.  For every byte sequence `raw`, given with its
length and followed in memory by anything, the bytes that `ajson_encode` returns
for it hold no NUL (their number is the `strlen` of the result wherever a NUL
follows them, as it does in a result of `_ajson_encode`), and `ajson_decode2`
applied to them (followed in memory by anything) returns exactly the bytes of
`raw` and reports the length of `raw` as the decoded length. -/
theorem C24_decode_undoes_encode (raw rest rest1 : List Nat) :
    0 ∉ (ajson_encode (raw ++ rest) raw.length).bytes ∧
    (ajson_decode2 ((ajson_encode (raw ++ rest) raw.length).bytes ++ rest1)
        (ajson_encode (raw ++ rest) raw.length).bytes.length).map
      (fun r => (r.1.bytes, r.2)) = some (raw, raw.length) := by
  have e : (ajson_encode (raw ++ rest) raw.length).bytes = raw.flatMap encode_byte := by
    rw [ajson_encode_bytes _ _ (by simp), slice_append_self]
  rw [e]
  constructor
  · rw [List.mem_flatMap]
    rintro ⟨c, _, hc⟩
    exact encode_byte_no_nul c hc
  · rw [ajson_decode2_eq_loop _ _ (by simp), decode_encoded]
    rfl

/-- C25: for every byte slice `s` that holds no backslash, whatever follows it in
memory, `ajson_decode` and `ajson_decode2` return the input itself (the same
pointer, hence the same bytes), and `ajson_decode2` reports the length of the
input as the decoded length. -/
theorem C25_decode_without_backslash_is_identity (s rest : List Nat)
    (h : ∀ c ∈ s, c ≠ 92) :
    ajson_decode (s ++ rest) s.length = some ⟨true, s⟩ ∧
      ajson_decode2 (s ++ rest) s.length = some (⟨true, s⟩, s.length) := by
  have hn : first_backslash (s ++ rest) s.length 0 = none := by
    rcases first_backslash_spec (s ++ rest) s.length 0 with ⟨e, _⟩ | ⟨q, _, _, h2, h3, _⟩
    · exact e
    · exfalso
      rw [rd_append_left _ _ _ (by omega)] at h3
      exact h _ (rd_mem_of_lt _ _ (by omega)) h3
  unfold ajson_decode ajson_decode2
  rw [hn]
  simp only [slice_append_self, and_self]

theorem C25_witness :
    ajson_decode (ascii "no_escapes_here" ++ [0]) 15 = some ⟨true, ascii "no_escapes_here"⟩ ∧
      ajson_decode2 (ascii "no_escapes_here" ++ [0]) 15 =
        some (⟨true, ascii "no_escapes_here"⟩, 15) :=
  C25_decode_without_backslash_is_identity (ascii "no_escapes_here") [0] (by decide)

/-- C26: the escape `\uXXXX` whose four hex digits `c0 c1 c2 c3`, upper or lower
case, encode a code point `cp` outside D800-DBFF is decoded to the UTF-8 bit
layout of `cp`: the byte `cp` when `cp < 0x80`, the two bytes `0xC0 | cp>>6`,
`0x80 | cp&0x3F` when `cp < 0x800`, else the three bytes `0xE0 | cp>>12`,
`0x80 | (cp>>6)&0x3F`, `0x80 | cp&0x3F`.  Wherever the cursor of the decoder
stands on such an escape, the iteration writes these bytes and passes the six
bytes of the escape; and `ajson_decode2` on the six bytes alone returns these
bytes and their number. -/
theorem C26_unicode_escape_utf8_layout (c0 c1 c2 c3 : Nat) (h0 : IsHexDigit c0)
    (h1 : IsHexDigit c1) (h2 : IsHexDigit c2) (h3 : IsHexDigit c3)
    (hs : ¬ (0xD800 ≤ code_point c0 c1 c2 c3 ∧ code_point c0 c1 c2 c3 ≤ 0xDBFF)) :
    (∀ (mem : List Nat) (p : Nat) (out : List Nat), At mem p [92, 117, c0, c1, c2, c3] →
      decode_step mem p out = (p + 6, out ++ utf8_bmp (code_point c0 c1 c2 c3))) ∧
    (∀ rest : List Nat, ajson_decode2 ([92, 117, c0, c1, c2, c3] ++ rest) 6 =
      some (⟨false, utf8_bmp (code_point c0 c1 c2 c3)⟩,
        (utf8_bmp (code_point c0 c1 c2 c3)).length)) := by
  have key : ∀ (mem : List Nat) (p : Nat) (out : List Nat),
      At mem p [92, 117, c0, c1, c2, c3] →
      decode_step mem p out = (p + 6, out ++ utf8_bmp (code_point c0 c1 c2 c3)) := by
    intro mem p out hat
    have e0 : rd mem p = 92 := by simpa [rd] using hat 0 (by simp)
    have e1 : rd mem (p + 1) = 117 := by simpa [rd] using hat 1 (by simp)
    have hd : At mem (p + 2) [c0, c1, c2, c3] := by
      have := At_shift 2 hat
      simpa using this
    rw [decode_step_unicode _ _ _ e0 e1, unicode_to_utf8_bmp hd h0 h1 h2 h3 hs]
  refine ⟨key, fun rest => ?_⟩
  have hat : At ([92, 117, c0, c1, c2, c3] ++ rest) 0 [92, 117, c0, c1, c2, c3] := by
    have := At_append_mid [] [92, 117, c0, c1, c2, c3] rest
    simpa using this
  have hstep := key _ 0 [] hat
  rw [ajson_decode2_one ([92, 117, c0, c1, c2, c3] ++ rest) 6 _ _ rfl (by decide) hstep
    (by decide)]
  rfl

theorem C26_witness :
    ajson_decode2 (ascii "\\u00E9" ++ [0]) 6 = some (⟨false, [0xC3, 0xA9]⟩, 2) ∧
    ajson_decode2 (ascii "\\u00e9" ++ [0]) 6 = some (⟨false, [0xC3, 0xA9]⟩, 2) ∧
    ajson_decode2 (ascii "\\u0041" ++ [0]) 6 = some (⟨false, [0x41]⟩, 1) ∧
    ajson_decode2 (ascii "\\u20AC" ++ [0]) 6 = some (⟨false, [0xE2, 0x82, 0xAC]⟩, 3) ∧
    ajson_decode2 (ascii "\\uDC00" ++ [0]) 6 = some (⟨false, [0xED, 0xB0, 0x80]⟩, 3) :=
  ⟨(C26_unicode_escape_utf8_layout 48 48 69 57 (by decide) (by decide) (by decide) (by decide)
      (by decide)).2 [0],
   (C26_unicode_escape_utf8_layout 48 48 101 57 (by decide) (by decide) (by decide) (by decide)
      (by decide)).2 [0],
   (C26_unicode_escape_utf8_layout 48 48 52 49 (by decide) (by decide) (by decide) (by decide)
      (by decide)).2 [0],
   (C26_unicode_escape_utf8_layout 50 48 65 67 (by decide) (by decide) (by decide) (by decide)
      (by decide)).2 [0],
   (C26_unicode_escape_utf8_layout 68 67 48 48 (by decide) (by decide) (by decide) (by decide)
      (by decide)).2 [0]⟩

/-- C27: surrogate pairs are combined.  For hex digits `a0 a1 a2 a3` of a high
surrogate `h` in D800-DBFF and `b0 b1 b2 b3` of a low surrogate `l` in DC00-DFFF,
`ajson_decode2` on the twelve bytes `\uhhhh\ullll` returns exactly the four-byte
UTF-8 encoding of the code point `((h - 0xD800) << 10) + (l - 0xDC00) + 0x10000`,
with decoded length 4; and wherever the cursor of the decoder stands on such a
pair, the iteration writes these four bytes and passes the twelve bytes. -/
theorem C27_surrogate_pair_combined (a0 a1 a2 a3 b0 b1 b2 b3 : Nat)
    (ha0 : IsHexDigit a0) (ha1 : IsHexDigit a1) (ha2 : IsHexDigit a2) (ha3 : IsHexDigit a3)
    (hb0 : IsHexDigit b0) (hb1 : IsHexDigit b1) (hb2 : IsHexDigit b2) (hb3 : IsHexDigit b3)
    (hh : 0xD800 ≤ code_point a0 a1 a2 a3 ∧ code_point a0 a1 a2 a3 ≤ 0xDBFF)
    (hl : 0xDC00 ≤ code_point b0 b1 b2 b3 ∧ code_point b0 b1 b2 b3 ≤ 0xDFFF) :
    (∀ rest : List Nat,
      ajson_decode2 ([92, 117, a0, a1, a2, a3, 92, 117, b0, b1, b2, b3] ++ rest) 12 =
        some (⟨false, utf8_four (((code_point a0 a1 a2 a3 - 0xD800) <<< 10) +
          (code_point b0 b1 b2 b3 - 0xDC00) + 0x10000)⟩, 4)) ∧
    (∀ (mem : List Nat) (p : Nat) (out : List Nat),
      At mem p [92, 117, a0, a1, a2, a3, 92, 117, b0, b1, b2, b3] →
      decode_step mem p out = (p + 12, out ++ utf8_four (((code_point a0 a1 a2 a3 - 0xD800) <<< 10) +
          (code_point b0 b1 b2 b3 - 0xDC00) + 0x10000))) := by
  have key : ∀ (mem : List Nat) (p : Nat) (out : List Nat),
      At mem p [92, 117, a0, a1, a2, a3, 92, 117, b0, b1, b2, b3] →
      decode_step mem p out = (p + 12, out ++ utf8_four (((code_point a0 a1 a2 a3 - 0xD800) <<< 10) +
          (code_point b0 b1 b2 b3 - 0xDC00) + 0x10000)) := by
    intro mem p out hat
    have e0 : rd mem p = 92 := by simpa [rd] using hat 0 (by simp)
    have e1 : rd mem (p + 1) = 117 := by simpa [rd] using hat 1 (by simp)
    have hd : At mem (p + 2) [a0, a1, a2, a3, 92, 117, b0, b1, b2, b3] := by
      have := At_shift 2 hat
      simpa using this
    rw [decode_step_unicode _ _ _ e0 e1,
      unicode_to_utf8_pair hd ha0 ha1 ha2 ha3 hb0 hb1 hb2 hb3 hh hl]
  refine ⟨fun rest => ?_, key⟩
  have hat : At ([92, 117, a0, a1, a2, a3, 92, 117, b0, b1, b2, b3] ++ rest) 0
      [92, 117, a0, a1, a2, a3, 92, 117, b0, b1, b2, b3] := by
    have := At_append_mid [] [92, 117, a0, a1, a2, a3, 92, 117, b0, b1, b2, b3] rest
    simpa using this
  have hstep := key _ 0 [] hat
  rw [ajson_decode2_one ([92, 117, a0, a1, a2, a3, 92, 117, b0, b1, b2, b3] ++ rest) 12 _ _ rfl
    (by decide) hstep (by decide)]
  simp [utf8_four]

theorem C27_witness :
    ajson_decode2 (ascii "\\uD834\\uDD1E" ++ [0]) 12 = some (⟨false, [0xF0, 0x9D, 0x84, 0x9E]⟩, 4) ∧
    ajson_decode2 (ascii "\\ud83d\\ude00" ++ [0]) 12 = some (⟨false, [0xF0, 0x9F, 0x98, 0x80]⟩, 4) :=
  ⟨(C27_surrogate_pair_combined 68 56 51 52 68 68 49 69 (by decide) (by decide) (by decide)
      (by decide) (by decide) (by decide) (by decide) (by decide) (by decide) (by decide)).1 [0],
   (C27_surrogate_pair_combined 100 56 51 100 100 101 48 48 (by decide) (by decide) (by decide)
      (by decide) (by decide) (by decide) (by decide) (by decide) (by decide) (by decide)).1 [0]⟩

/-- C28: the decoder never fails on a malformed `\u` escape.  `ajson_decode2`
returns on every input; and when the escape under the cursor of the decoder is
malformed (a byte that is no hex digit among the four after `\u`; a high surrogate
that `\u` does not follow; a high surrogate followed by `\u` and a value outside
DC00-DFFF, or by `\u` and a byte that is no hex digit), the iteration copies the
six bytes from the backslash on to the output and leaves the cursor right after
them, so that a slice made of such an escape alone is returned as it is, with
length 6.  The six bytes are those that stand in memory from the backslash on,
whether the slice holds them all or not. -/
theorem C28_malformed_escape_copied (mem : List Nat) (p : Nat) (h : Malformed mem p) :
    (∀ out : List Nat, decode_step mem p out =
      (p + 6, out ++ [rd mem p, rd mem (p + 1), rd mem (p + 2), rd mem (p + 3), rd mem (p + 4),
        rd mem (p + 5)])) ∧
    (p = 0 → ajson_decode2 mem 6 =
      some (⟨false, [rd mem 0, rd mem 1, rd mem 2, rd mem 3, rd mem 4, rd mem 5]⟩, 6)) ∧
    (∀ n : Nat, ∃ r, ajson_decode2 mem n = some r) := by
  have key : ∀ out : List Nat, decode_step mem p out =
      (p + 6, out ++ [rd mem p, rd mem (p + 1), rd mem (p + 2), rd mem (p + 3), rd mem (p + 4),
        rd mem (p + 5)]) := by
    intro out
    rw [decode_step_unicode _ _ _ h.1 h.2.1, unicode_to_utf8_of_malformed h]
  refine ⟨key, ?_, fun n => ajson_decode2_total mem n⟩
  intro hp
  subst hp
  have hstep := key []
  rw [ajson_decode2_one _ 6 _ _ h.1 (by decide) hstep (by decide)]
  rfl

theorem C28_witness :
    ajson_decode2 (ascii "\\uD800" ++ [0]) 6 = some (⟨false, ascii "\\uD800"⟩, 6) ∧
    ajson_decode2 (ascii "\\u12G4" ++ [0]) 6 = some (⟨false, ascii "\\u12G4"⟩, 6) ∧
    decode_step (ascii "\\uD800\\u0041" ++ [0]) 0 [] = (6, ascii "\\uD800") ∧
    decode_step (ascii "ab\\uD800xy" ++ [0]) 2 [97, 98] = (8, ascii "ab\\uD800") :=
  ⟨(C28_malformed_escape_copied (ascii "\\uD800" ++ [0]) 0 (by decide)).2.1 rfl,
   (C28_malformed_escape_copied (ascii "\\u12G4" ++ [0]) 0 (by decide)).2.1 rfl,
   (C28_malformed_escape_copied (ascii "\\uD800\\u0041" ++ [0]) 0 (by decide)).1 [],
   (C28_malformed_escape_copied (ascii "ab\\uD800xy" ++ [0]) 2 (by decide)).1 [97, 98]⟩

/-- C29 (fails on the code): the decoded length can exceed the input length.  The
parser accepts the document `["\u","abc"]` and hands `on_string` the two-byte
slice `\u` of its first element, with a NUL on the closing quote and the rest of
the document after it.  On that slice `unicode_to_utf8` meets the NUL and returns
-1, and `_ajson_decode` copies six bytes from the backslash on, four of them from
beyond the slice, into the result allocated with `length + 1 = 3` bytes; the
decoded length reported is 6. -/
theorem C29_decoded_length_exceeds_input :
    events (parse_doc vt_quiet (ascii "[\"\\u\",\"abc\"]") () ()) =
      some (0, [.start_array, .string (ascii "\\u"), .string (ascii "abc"), .end_array]) ∧
    ajson_decode2 (ascii "\\u" ++ [0] ++ ascii ",\"abc\"]") 2 =
      some (⟨false, [92, 117, 0, 44, 34, 97]⟩, 6) := by
  decide

/-- C30: `ajson_encode` is the byte-wise escape map.  For every byte slice `raw`,
whatever follows it in memory, the bytes returned are the concatenation, in
order, of the escapes of its bytes (`escape_map`: the short forms for the quote,
the backslash, the slash, 0x08, 0x0C, 0x0A, 0x0D and 0x09; `\u00XX` with upper-case
hex digits for any other byte below 0x20, NUL included; the byte itself
otherwise, bytes from 0x80 on included); the input itself is returned exactly
when no byte of it is below 0x20, a quote, a backslash or a slash, and then the
escape map leaves the slice unchanged. -/
theorem C30_encode_is_escape_map (raw rest : List Nat) :
    (ajson_encode (raw ++ rest) raw.length).bytes = raw.flatMap escape_map ∧
    ((ajson_encode (raw ++ rest) raw.length).same = true ↔
      ∀ c ∈ raw, ¬ (c < 0x20 ∨ c = 34 ∨ c = 92 ∨ c = 47)) ∧
    ((∀ c ∈ raw, ¬ (c < 0x20 ∨ c = 34 ∨ c = 92 ∨ c = 47)) → raw.flatMap escape_map = raw) := by
  have hfun : encode_byte = escape_map := funext encode_byte_eq
  have e : (ajson_encode (raw ++ rest) raw.length).bytes = raw.flatMap encode_byte := by
    rw [ajson_encode_bytes _ _ (by simp), slice_append_self]
  have hiff : (∀ i, i < raw.length → ¬ needs_escape (rd (raw ++ rest) i)) ↔
      ∀ c ∈ raw, ¬ (c < 0x20 ∨ c = 34 ∨ c = 92 ∨ c = 47) := by
    constructor
    · intro h c hc
      obtain ⟨i, hi, rfl⟩ := List.getElem_of_mem hc
      have := h i hi
      rw [rd_append_left _ _ _ hi, rd, List.getD_eq_getElem _ _ hi] at this
      unfold needs_escape at this
      omega
    · intro h i hi
      rw [rd_append_left _ _ _ hi]
      have := h _ (rd_mem_of_lt raw i hi)
      unfold needs_escape
      omega
  refine ⟨by rw [e, hfun], by rw [ajson_encode_same, hiff], fun h => ?_⟩
  have h2 := hiff.2 h
  have := flatMap_plain (raw ++ rest) 0 raw.length (by simp) (fun i _ hi => h2 i (by omega))
  rw [slice_append_self, hfun] at this
  exact this

theorem C30_witness :
    (ajson_encode ([47, 92, 34] ++ [0]) 3).bytes = ascii "\\/\\\\\\\"" ∧
    (ajson_encode ([65, 0, 66, 10] ++ [0]) 4).bytes = ascii "A\\u0000B\\n" ∧
    (ajson_encode ([0x1F, 0x7F, 0x80, 0xFF] ++ [0]) 4).bytes = ascii "\\u001F" ++ [0x7F, 0x80, 0xFF] ∧
    (ajson_encode (ascii "simple" ++ [0]) 6).same = true :=
  ⟨(C30_encode_is_escape_map [47, 92, 34] [0]).1,
   (C30_encode_is_escape_map [65, 0, 66, 10] [0]).1,
   (C30_encode_is_escape_map [0x1F, 0x7F, 0x80, 0xFF] [0]).1,
   (C30_encode_is_escape_map (ascii "simple") [0]).2.1.2 (by decide)⟩

/-- C31: the UTF-8 filter is idempotent.  For every range `x` of bytes, whatever
follows it in memory, let `y` be the bytes that `ajson_copy_valid_utf8` stores for
it.  Then `ajson_copy_valid_utf8` on `y` stores `y` again, whatever follows `y` in
memory; `ajson_strip_invalid_utf8_inplace` on `x` returns the length of `y` and
leaves `y` at the start of the buffer; and applied once more to that buffer with
the length returned, it returns the same length and leaves the same bytes. -/
theorem C31_filter_idempotent (x rest : List Nat) (hb : ∀ c ∈ x, c < 256) :
    ∃ y m m1, ajson_copy_valid_utf8 (x ++ rest) x.length = some y ∧
      (∀ rest1 : List Nat, ajson_copy_valid_utf8 (y ++ rest1) y.length = some y) ∧
      ajson_strip_invalid_utf8_inplace (x ++ rest) x.length = some (m, y.length) ∧
      slice m 0 y.length = y ∧
      ajson_strip_invalid_utf8_inplace m y.length = some (m1, y.length) ∧
      slice m1 0 y.length = y := by
  obtain ⟨y, m, hs, hc, hst, hm, hsl, _⟩ := filter_outcome x rest [] hb
  have hby : ∀ c ∈ y, c < 256 := fun c hc => hb c (Sifted_subset hs c hc)
  have hyy : Sifted y y := Sifted_of_wellFormed (Sifted_wellFormed hs)
  have again : ∀ rest1 : List Nat, ∃ m2,
      ajson_copy_valid_utf8 (y ++ rest1) y.length = some y ∧
      ajson_strip_invalid_utf8_inplace (y ++ rest1) y.length = some (m2, y.length) ∧
      slice m2 0 y.length = y := by
    intro rest1
    obtain ⟨z, m2, hs2, hc2, hst2, _, hsl2, _⟩ := filter_outcome y rest1 [] hby
    have e := Sifted_unique hs2 hyy
    subst e
    exact ⟨m2, hc2, hst2, hsl2⟩
  have hmm := slice_append_take m y.length
  rw [hsl] at hmm
  obtain ⟨m1, _, h1, h2⟩ := again (m.drop y.length)
  rw [← hmm] at h1
  exact ⟨y, m, m1, hc, fun rest1 => (again rest1).choose_spec.1, hst, hsl, h1, h2⟩

theorem C31_witness :
    ∃ y m m1,
      ajson_copy_valid_utf8 ([0x58, 0x59, 0xE2, 0x82, 0x5A] ++ [0]) 5 = some y ∧
      (∀ rest1 : List Nat, ajson_copy_valid_utf8 (y ++ rest1) y.length = some y) ∧
      ajson_strip_invalid_utf8_inplace ([0x58, 0x59, 0xE2, 0x82, 0x5A] ++ [0]) 5 =
        some (m, y.length) ∧
      slice m 0 y.length = y ∧
      ajson_strip_invalid_utf8_inplace m y.length = some (m1, y.length) ∧
      slice m1 0 y.length = y :=
  C31_filter_idempotent [0x58, 0x59, 0xE2, 0x82, 0x5A] [0] (by decide)

/-- C32: the UTF-8 filter emits only complete sequences.  For every range `x` of
bytes there is one way to read it from left to right as complete sequences (a byte
below 0x80, or a lead byte `110xxxxx`, `1110xxxx`, `11110xxx` followed by exactly
one, two, three continuation bytes `10xxxxxx`) and bytes dropped alone (a lead
byte without its full set of continuation bytes in the range, a stray
continuation byte, a byte from 0xF8 on), the bytes after a dropped byte being
examined afresh; what is left, `y`, is a concatenation of complete sequences, and
it is what `ajson_copy_valid_utf8` stores, what `ajson_strip_invalid_utf8_inplace`
leaves at the start of the buffer, returning its length, and what
`ajson_buffer_append_valid_utf8` appends. -/
theorem C32_filter_keeps_complete_sequences (x rest bh : List Nat) (hb : ∀ c ∈ x, c < 256) :
    ∃ y m, Sifted x y ∧ (∀ z, Sifted x z → z = y) ∧ WellFormed y ∧
      ajson_copy_valid_utf8 (x ++ rest) x.length = some y ∧
      ajson_strip_invalid_utf8_inplace (x ++ rest) x.length = some (m, y.length) ∧
      slice m 0 y.length = y ∧
      ajson_buffer_append_valid_utf8 bh (x ++ rest) x.length = some (bh ++ y) := by
  obtain ⟨y, m, hs, hc, hst, _, hsl, ha⟩ := filter_outcome x rest bh hb
  exact ⟨y, m, hs, fun z hz => Sifted_unique hz hs, Sifted_wellFormed hs, hc, hst, hsl, ha⟩

theorem C32_witness :
    (∃ m, ajson_strip_invalid_utf8_inplace [0x58, 0x59, 0xE2, 0x82, 0x5A, 0] 5 = some (m, 3) ∧
      slice m 0 3 = ascii "XYZ") ∧
    ajson_buffer_append_valid_utf8 [] [0x41, 0xC3, 0x28, 0x42, 0x43, 0] 5 = some (ascii "A(BC") ∧
    ajson_copy_valid_utf8 [0x41, 0xC3, 0xA9, 0xE2, 0x82, 0xAC, 0xF0, 0x9F, 0x98, 0x80, 0xF8, 0x80,
      0xC3] 13 = some [0x41, 0xC3, 0xA9, 0xE2, 0x82, 0xAC, 0xF0, 0x9F, 0x98, 0x80] ∧
    ∃ y m, Sifted [0x58, 0x59, 0xE2, 0x82, 0x5A] y ∧
      (∀ z, Sifted [0x58, 0x59, 0xE2, 0x82, 0x5A] z → z = y) ∧ WellFormed y ∧
      ajson_copy_valid_utf8 ([0x58, 0x59, 0xE2, 0x82, 0x5A] ++ [0]) 5 = some y ∧
      ajson_strip_invalid_utf8_inplace ([0x58, 0x59, 0xE2, 0x82, 0x5A] ++ [0]) 5 =
        some (m, y.length) ∧
      slice m 0 y.length = y ∧
      ajson_buffer_append_valid_utf8 [] ([0x58, 0x59, 0xE2, 0x82, 0x5A] ++ [0]) 5 =
        some ([] ++ y) :=
  ⟨⟨_, rfl, rfl⟩, rfl, rfl,
    C32_filter_keeps_complete_sequences [0x58, 0x59, 0xE2, 0x82, 0x5A] [0] [] (by decide)⟩

/-- C33: the filter variants compute the same function.  For every range `x`,
whatever follows it in memory and whatever the buffer `bh` holds:
`ajson_copy_valid_utf8` stores some bytes `y` to its destination (and returns
`dest` plus their number `k`), `ajson_strip_invalid_utf8_inplace` returns `k` and
leaves exactly `y` in the first `k` bytes of the buffer, and
`ajson_buffer_append_valid_utf8` appends exactly `y` to `bh`. -/
theorem C33_filter_variants_agree (x rest bh : List Nat) :
    ∃ y m, ajson_copy_valid_utf8 (x ++ rest) x.length = some y ∧
      ajson_strip_invalid_utf8_inplace (x ++ rest) x.length = some (m, y.length) ∧
      slice m 0 y.length = y ∧
      ajson_buffer_append_valid_utf8 bh (x ++ rest) x.length = some (bh ++ y) := by
  obtain ⟨y, m, hc, hs, _, _, hsl, ha⟩ := filter_variants (x ++ rest) x.length (by simp) bh
  exact ⟨y, m, hc, hs, hsl, ha⟩

/-- C34 (as stated, fails): directly after `ajson_sax_push` the anchor depth of
the active set is above `current_depth`.  In the test `sax_anchor_correctness` the
parse of `{}` invokes `on_start_object` of `anchor_root` on the initial handle; the
callback calls `ajson_sax_push(sax, &anchor_h)`, and the handle it leaves has
`current_depth == 0` and `anchor_depth == 1`. -/
theorem C34_counterexample_anchor_above_depth_after_push :
    (parse_doc anchor_vt (ascii "\x7b\x7d") .anchor_root 0).map
        (fun r => (r.rc, r.cs.trace.map Prod.fst)) = some (0, [.start_object, .end_object]) ∧
    ∃ c s, invoke anchor_vt (init_consumer .anchor_root 0) .start_object = some (c, s, 0) ∧
      s = ajson_sax_push (init_consumer .anchor_root (0 : Nat)).sax (some .anchor_h) ∧
      s.cb = .anchor_h ∧ s.current_depth = 0 ∧ s.anchor_depth = 1 ∧
      ¬ s.anchor_depth ≤ s.current_depth :=
  ⟨by decide, _, _, rfl, rfl, rfl, rfl, rfl, by decide⟩

/-- C34 (as amended): between two transitions of the parser the anchor depth is at
most `current_depth`.  Let the callbacks keep the discipline of delegation:
callbacks for scalars and keys leave the handle alone; a start callback leaves it
alone or calls `ajson_sax_push` with a set that resigns at the end of the container
being opened (its callback for the end event of that kind of container is present
and calls `ajson_sax_try_pop` when `current_depth == anchor_depth`); an end
callback leaves the handle alone or calls `ajson_sax_try_pop` or `ajson_sax_pop`.
The consumers of the tests `sax_anchor_correctness` and `sax_stack_unified_logic`
keep it.  Then in every state that the parse of any input comes to (at a label of
`ajson_sax_parse`, outside the callbacks) the anchor depth of the active set is at
most `current_depth`, except in the state right after a closer met outside every
container, where `current_depth` is -1 and the parse returns at once.  Inside a
start callback, directly after `ajson_sax_push` with a set, the anchor depth is
`current_depth + 1`: it is the `current_depth++` of the parser's `SYNTAX_PUSH`,
executed after the callback has returned, that makes the two equal. -/
theorem C34_anchor_at_most_depth_between_transitions {σ H : Type}
    (vt : H → ajson_sax_cb_t σ H) (ho : Orderly vt) (mem : List Nat)
    (ep : Nat) (cb : H) (ctx : σ) (k : Nat) (l : Label) (lx : Lexer) (cs : Consumer σ H)
    (hr : reach vt k .start_value (init_lexer mem ep) (init_consumer cb ctx) =
      some (l, lx, cs)) :
    (cs.sax.anchor_depth ≤ cs.sax.current_depth ∨
      (l = .determine_next_step ∧ lx.stack = [] ∧ cs.sax.current_depth = -1)) ∧
    (l ≠ .determine_next_step ∨ lx.stack ≠ [] →
      cs.sax.current_depth = (lx.stack.length : Int) ∧
        cs.sax.anchor_depth ≤ cs.sax.current_depth) ∧
    (∀ sub : H, (ajson_sax_push cs.sax (some sub)).current_depth = cs.sax.current_depth ∧
      (ajson_sax_push cs.sax (some sub)).anchor_depth = cs.sax.current_depth + 1) ∧
    Orderly anchor_vt ∧ ∀ f : List Nat → Int, Orderly (unified_vt f) := by
  have hi := (reach_Anchored ho k (Sided_init mem ep) (Anchored_init vt mem ep cb ctx) hr).2
  refine ⟨?_, fun hne => ?_, fun sub => ⟨rfl, rfl⟩, Orderly_anchor_vt, Orderly_unified_vt⟩
  · rcases hi with h | h
    · exact Or.inl h.2.1
    · exact Or.inr h
  · rcases hi with h | h
    · exact ⟨h.1, h.2.1⟩
    · rcases hne with h1 | h1
      · exact absurd h.1 h1
      · exact absurd h.2.1 h1

theorem C34_witness :
    (∃ l lx cs, reach anchor_vt 10 .start_value
        (init_lexer (ascii "\x7b\"a\": \x7b \"b\": \x7b\x7d \x7d\x7d" ++ [0]) 18)
        (init_consumer .anchor_root 0) = some (l, lx, cs) ∧
      (l, cs.sax.cb, cs.sax.top.length, cs.sax.anchor_depth, cs.sax.current_depth) =
        (.start_key, .anchor_h, 1, 1, 3) ∧
      (l ≠ .determine_next_step ∨ lx.stack ≠ [] →
        cs.sax.current_depth = (lx.stack.length : Int) ∧
          cs.sax.anchor_depth ≤ cs.sax.current_depth)) ∧
    (∃ l lx cs, reach (unified_vt atoi) 10 .start_value
        (init_lexer (unified_doc (ascii "100") (ascii "200") ++ [0]) 45)
        (init_consumer .u_root_handlers ⟨[], 0, 0⟩) = some (l, lx, cs) ∧
      (l, cs.sax.cb, cs.sax.top.length, cs.sax.anchor_depth, cs.sax.current_depth) =
        (.look_for_key, .u_user_handlers, 1, 2, 2) ∧
      (l ≠ .determine_next_step ∨ lx.stack ≠ [] →
        cs.sax.current_depth = (lx.stack.length : Int) ∧
          cs.sax.anchor_depth ≤ cs.sax.current_depth)) := by
  have hd : (reach anchor_vt 10 .start_value
      (init_lexer (ascii "\x7b\"a\": \x7b \"b\": \x7b\x7d \x7d\x7d" ++ [0]) 18)
      (init_consumer .anchor_root 0)).map
        (fun x => (x.1, x.2.2.sax.cb, x.2.2.sax.top.length, x.2.2.sax.anchor_depth,
          x.2.2.sax.current_depth)) =
      some (.start_key, .anchor_h, 1, 1, 3) := by decide
  have hu : (reach (unified_vt atoi) 10 .start_value
      (init_lexer (unified_doc (ascii "100") (ascii "200") ++ [0]) 45)
      (init_consumer .u_root_handlers ⟨[], 0, 0⟩)).map
        (fun x => (x.1, x.2.2.sax.cb, x.2.2.sax.top.length, x.2.2.sax.anchor_depth,
          x.2.2.sax.current_depth)) =
      some (.look_for_key, .u_user_handlers, 1, 2, 2) := by decide
  constructor
  · cases hx : reach anchor_vt 10 .start_value
        (init_lexer (ascii "\x7b\"a\": \x7b \"b\": \x7b\x7d \x7d\x7d" ++ [0]) 18)
        (init_consumer .anchor_root 0) with
    | none =>
      rw [hx] at hd
      cases hd
    | some x =>
      obtain ⟨l, lx, cs⟩ := x
      rw [hx] at hd
      exact ⟨l, lx, cs, rfl, Option.some.inj hd,
        (C34_anchor_at_most_depth_between_transitions anchor_vt Orderly_anchor_vt
          (ascii "\x7b\"a\": \x7b \"b\": \x7b\x7d \x7d\x7d" ++ [0]) 18 .anchor_root 0 10 l lx
          cs hx).2.1⟩
  · cases hx : reach (unified_vt atoi) 10 .start_value
        (init_lexer (unified_doc (ascii "100") (ascii "200") ++ [0]) 45)
        (init_consumer .u_root_handlers ⟨[], 0, 0⟩) with
    | none =>
      rw [hx] at hu
      cases hu
    | some x =>
      obtain ⟨l, lx, cs⟩ := x
      rw [hx] at hu
      exact ⟨l, lx, cs, rfl, Option.some.inj hu,
        (C34_anchor_at_most_depth_between_transitions (unified_vt atoi)
          (Orderly_unified_vt atoi) (unified_doc (ascii "100") (ascii "200") ++ [0]) 45
          .u_root_handlers ⟨[], 0, 0⟩ 10 l lx cs hx).2.1⟩

/-- C35: `ajson_sax_parse` is a total function.  On every buffer and for every
consumer (a callback of the embedding is a function, so it returns) the state
machine returns, within `fuel` transitions; on the empty buffer it returns -1 at
once.  Every transition of a parse that does not return moves the cursor forward,
or leaves it where it is and goes to a label of lower rank (from the dispatch of
a finished value to the delimiter test); and the weight
`3 * (span + 3 - p) + rank`, a natural number that measures the work left, falls
at every transition, so that after `k` transitions it has fallen by `k` at least. -/
theorem C35_parse_is_total {σ H : Type} (vt : H → ajson_sax_cb_t σ H) (mem : List Nat)
    (ep : Nat) (cb : H) (ctx : σ) :
    (∃ n r, n ≤ fuel mem ep ∧
      (ep = 0 ∨ run vt n .start_value (init_lexer mem ep) (init_consumer cb ctx) = some r) ∧
      ajson_sax_parse vt mem ep cb ctx = some r) ∧
    (ep = 0 → code (ajson_sax_parse vt mem ep cb ctx) = some (-1)) ∧
    (∀ (k : Nat) (l : Label) (lx : Lexer) (cs : Consumer σ H),
      reach vt k .start_value (init_lexer mem ep) (init_consumer cb ctx) = some (l, lx, cs) →
      weight l lx + k ≤ weight .start_value (init_lexer mem ep) ∧
      ∀ (l1 : Label) (lx1 : Lexer) (cs1 : Consumer σ H),
        step vt l lx cs = .goto l1 lx1 cs1 →
        (lx.p < lx1.p ∨ (lx1.p = lx.p ∧ rank l1 < rank l)) ∧ weight l1 lx1 < weight l lx) := by
  refine ⟨?_, ?_, ?_⟩
  · obtain ⟨r, hr⟩ := ajson_sax_parse_total vt mem ep cb ctx
    refine ⟨fuel mem ep, r, Nat.le_refl _, ?_, hr⟩
    by_cases h0 : ep = 0
    · exact Or.inl h0
    · right
      unfold ajson_sax_parse at hr
      dsimp only at hr
      rw [if_neg (by simp only [init_lexer]; omega)] at hr
      exact hr
  · intro h0
    subst h0
    rfl
  · intro k l lx cs hk
    obtain ⟨hs, hspan, hw⟩ := reach_Sane vt k .start_value _ _ _ _ _ (by trivial) hk
    refine ⟨hw, fun l1 lx1 cs1 hstep => ?_⟩
    have hf := step_falls vt l lx cs hs
    have ha := step_advances vt l lx cs
    rw [hstep] at hf ha
    obtain ⟨_, hsp, hlt⟩ := hf
    have hspan0 : span (init_lexer mem ep) = max ep mem.length := rfl
    simp only [weight] at hlt
    rw [hsp] at hlt
    rw [hspan, hspan0] at hlt
    refine ⟨?_, ?_⟩
    · rcases ha with h | ⟨h, _⟩
      · exact Or.inl h
      · right
        refine ⟨h, ?_⟩
        rw [h] at hlt
        omega
    · simp only [weight]
      rw [hsp, hspan, hspan0]
      exact hlt

theorem C35_witness :
    code (parse_doc vt_quiet [] () ()) = some (-1) ∧
    (∃ n r, n ≤ fuel (ascii "[1, 2]" ++ [0]) 6 ∧
      (6 = 0 ∨ run vt_quiet n .start_value (init_lexer (ascii "[1, 2]" ++ [0]) 6)
        (init_consumer () ()) = some r) ∧
      ajson_sax_parse vt_quiet (ascii "[1, 2]" ++ [0]) 6 () () = some r) ∧
    events (parse_doc vt_quiet (ascii "[1, 2]") () ()) =
      some (0, [.start_array, .number [49], .number [50], .end_array]) :=
  ⟨(C35_parse_is_total vt_quiet [0] 0 () ()).2.1 rfl,
   (C35_parse_is_total vt_quiet (ascii "[1, 2]" ++ [0]) 6 () ()).1,
   by decide⟩

/-- C36: documents built only from objects and arrays.  Take a text `v` of the JSON
grammar restricted to objects and arrays (possibly empty, whitespace wherever the
grammar allows it, keys written without escapes) that nests at most 511 deep and
holds `o` objects, `a` arrays and `m` object members, and a document made of
whitespace, `v` and any bytes after it (whitespace in a well-formed document).
With every consumer whose handlers are all present and return 0, `ajson_sax_parse`
returns 0; the callbacks invoked are `o` times `on_start_object`, `o` times
`on_end_object`, `a` times `on_start_array`, `a` times `on_end_array` and `m` times
`on_key`, and no other. -/
theorem C36_nested_containers_counted {σ H : Type} (vt : H → ajson_sax_cb_t σ H)
    (hc : Complete vt) (w0 v w1 : List Nat) (d o a m : Nat) (cb : H) (ctx : σ)
    (h0 : Blank w0) (hv : Nested .value v d o a m) (hd : d ≤ 511) :
    ∃ r, parse_doc vt (w0 ++ (v ++ w1)) cb ctx = some r ∧ r.rc = 0 ∧
      count_events (Event.isEvent .start_object) r.cs.trace = o ∧
      count_events (Event.isEvent .end_object) r.cs.trace = o ∧
      count_events (Event.isEvent .start_array) r.cs.trace = a ∧
      count_events (Event.isEvent .end_array) r.cs.trace = a ∧
      count_events Event.isKey r.cs.trace = m ∧
      r.cs.trace.length = 2 * o + 2 * a + m := by
  obtain ⟨r, hr, hrc, t, ht, hl, c1, c2, c3, c4, c5⟩ := nested_doc_run hc w0 v w1 d o a m cb ctx
    h0 hv hd
  have e : r.cs.trace = t := by simpa [init_consumer] using ht
  refine ⟨r, hr, hrc, ?_⟩
  rw [e]
  exact ⟨c1, c2, c3, c4, c5, by omega⟩

theorem C36_witness :
    ∃ r, parse_doc vt_quiet
        (ascii "\x7b\"a\": [], \"b\": \x7b\x7d, \"c\": [\x7b\x7d], \"d\": \x7b\"e\": []\x7d\x7d")
        () () = some r ∧ r.rc = 0 ∧
      count_events (Event.isEvent .start_object) r.cs.trace = 4 ∧
      count_events (Event.isEvent .end_object) r.cs.trace = 4 ∧
      count_events (Event.isEvent .start_array) r.cs.trace = 3 ∧
      count_events (Event.isEvent .end_array) r.cs.trace = 3 ∧
      count_events Event.isKey r.cs.trace = 5 ∧
      r.cs.trace.length = 2 * 4 + 2 * 3 + 5 := by
  have hb : Blank [] := by decide
  have hs : Blank [32] := by decide
  have ha := Nested.member [] (ascii "a") [] [32] _ [] 1 0 1 0 hb (by decide) hb hs
    (Nested.empty_array [] hb) hb
  have hbm := Nested.member [32] (ascii "b") [] [32] _ [] 1 1 0 0 hs (by decide) hb hs
    (Nested.empty_object [] hb) hb
  have hcm := Nested.member [32] (ascii "c") [] [32] _ [] 2 1 1 0 hs (by decide) hb hs
    (Nested.array _ 1 1 0 0 (Nested.one_element _ 1 1 0 0
      (Nested.element [] _ [] 1 1 0 0 hb (Nested.empty_object [] hb) hb))) hb
  have hdm := Nested.member [32] (ascii "d") [] [32] _ [] 2 1 1 1 hs (by decide) hb hs
    (Nested.object _ 1 0 1 1 (Nested.one_member _ 1 0 1 1
      (Nested.member [] (ascii "e") [] [32] _ [] 1 0 1 0 hb (by decide) hb hs
        (Nested.empty_array [] hb) hb))) hb
  have hv := Nested.object _ 2 3 3 5 (Nested.more_members _ _ 1 0 1 1 2 3 2 4 ha
    (Nested.more_members _ _ 1 1 0 1 2 2 2 3 hbm
      (Nested.more_members _ _ 2 1 1 1 2 1 1 2 hcm (Nested.one_member _ 2 1 1 2 hdm))))
  have h := C36_nested_containers_counted vt_quiet Complete_quiet_handlers [] _ [] 3 4 3 5 ()
    () hb hv (by decide)
  have e : ascii "\x7b\"a\": [], \"b\": \x7b\x7d, \"c\": [\x7b\x7d], \"d\": \x7b\"e\": []\x7d\x7d" =
      [] ++ (123 :: ([] ++ 34 :: (ascii "a" ++ 34 :: ([] ++ 58 :: ([32] ++ (91 :: ([] ++ [93]) ++
        [])))) ++ 44 :: ([32] ++ 34 :: (ascii "b" ++ 34 :: ([] ++ 58 :: ([32] ++ (123 :: ([] ++
        [125]) ++ [])))) ++ 44 :: ([32] ++ 34 :: (ascii "c" ++ 34 :: ([] ++ 58 :: ([32] ++ (91
        :: ([] ++ (123 :: ([] ++ [125]) ++ []) ++ [93]) ++ [])))) ++ 44 :: ([32] ++ 34 ::
        (ascii "d" ++ 34 :: ([] ++ 58 :: ([32] ++ (123 :: ([] ++ 34 :: (ascii "e" ++ 34 :: ([]
        ++ 58 :: ([32] ++ (91 :: ([] ++ [93]) ++ [])))) ++ [125]) ++ []))))))) ++ [125]) ++
        []) := by decide
  rw [e]
  exact h

/-- C37: bytes after the root container are never examined.  Take a document `d`
whose first byte after leading whitespace is `{` or `[`, and which
`ajson_sax_parse` accepts (return code 0) with every opened container closed (the
syntax stack is empty at the return), the buffer holding a NUL right after the
document as in the tests.  Then for every byte string `g` and every consumer the
parse of `d` followed by `g` returns 0 as well and leaves the same consumer state:
the same callbacks were invoked with the same slices and the same results, and the
context and the handle are the same.  The cursor stops at the same offset in both,
and that offset lies inside `d`. -/
theorem C37_bytes_after_root_not_examined {σ H : Type} (vt : H → ajson_sax_cb_t σ H)
    (ws rest g : List Nat) (c : Nat) (cb : H) (ctx : σ) (r : Result σ H)
    (hws : ∀ b ∈ ws, isSpace b) (hc : c = 123 ∨ c = 91)
    (hr : parse_doc vt (ws ++ c :: rest) cb ctx = some r) (hrc : r.rc = 0)
    (hst : r.lx.stack = []) :
    ∃ r1, parse_doc vt (ws ++ c :: rest ++ g) cb ctx = some r1 ∧ r1.rc = 0 ∧ r1.cs = r.cs ∧
      r1.lx.p = r.lx.p ∧ r.lx.p ≤ (ws ++ c :: rest).length :=
  root_container_tail vt ws rest g c cb ctx r hws hc hr hrc hst

theorem C37_witness :
    ∃ r r1, parse_doc vt_quiet (ascii " [1, \x7b\"a\": \"x\"\x7d]") () () = some r ∧
      parse_doc vt_quiet (ascii " [1, \x7b\"a\": \"x\"\x7d]" ++ ascii "]garbage\"\x7b") () () =
        some r1 ∧
      r1.rc = 0 ∧ r1.cs = r.cs ∧ r1.lx.p = r.lx.p ∧ r.lx.p ≤ 16 := by
  have e : ascii " [1, \x7b\"a\": \"x\"\x7d]" = [32] ++ 91 :: ascii "1, \x7b\"a\": \"x\"\x7d]" := by
    decide
  have e1 : ([32] ++ 91 :: ascii "1, \x7b\"a\": \"x\"\x7d]").length = 16 := by decide
  rw [e]
  obtain ⟨r, hr⟩ : ∃ r, parse_doc vt_quiet ([32] ++ 91 :: ascii "1, \x7b\"a\": \"x\"\x7d]")
      () () = some r := ajson_sax_parse_total vt_quiet _ _ () ()
  have h0 : (parse_doc vt_quiet ([32] ++ 91 :: ascii "1, \x7b\"a\": \"x\"\x7d]") () ()).map
      (fun r => (r.rc, r.lx.stack)) = some (0, []) := by decide
  rw [hr] at h0
  have h1 : r.rc = 0 ∧ r.lx.stack = [] := by simpa using h0
  obtain ⟨r1, h2⟩ := C37_bytes_after_root_not_examined vt_quiet [32]
    (ascii "1, \x7b\"a\": \"x\"\x7d]") (ascii "]garbage\"\x7b") 91 () () r (by decide)
    (Or.inr rfl) hr h1.1 h1.2
  rw [e1] at h2
  exact ⟨r, r1, hr, h2⟩

/-- C38: in `ajson_decode` and `ajson_decode2`, a backslash followed by a byte `e`
other than the quote, the backslash, the slash and `b`, `f`, `n`, `r`, `t`, `u`
contributes nothing to the output.  Wherever the cursor of the decoder stands on
such a backslash, the iteration writes nothing and leaves the cursor two bytes
further, on the byte after `e`; so a slice `pre \ e post` with no other backslash
is decoded to `pre post`, with the length of `pre post` as the decoded length. -/
theorem C38_unlisted_escape_dropped (e : Nat)
    (he : e ≠ 34 ∧ e ≠ 92 ∧ e ≠ 47 ∧ e ≠ 98 ∧ e ≠ 102 ∧ e ≠ 110 ∧ e ≠ 114 ∧ e ≠ 116 ∧ e ≠ 117) :
    (∀ (mem : List Nat) (p : Nat) (out : List Nat), rd mem p = 92 → rd mem (p + 1) = e →
      decode_step mem p out = (p + 2, out)) ∧
    (∀ pre post rest : List Nat, (∀ c ∈ pre, c ≠ 92) → (∀ c ∈ post, c ≠ 92) →
      ajson_decode (pre ++ 92 :: e :: (post ++ rest)) (pre.length + 2 + post.length) =
        some ⟨false, pre ++ post⟩ ∧
      ajson_decode2 (pre ++ 92 :: e :: (post ++ rest)) (pre.length + 2 + post.length) =
        some (⟨false, pre ++ post⟩, (pre ++ post).length)) := by
  refine ⟨fun mem p out h0 h1 => decode_step_unlisted out h0 h1 he, ?_⟩
  intro pre post rest hpre hpost
  have hf := first_backslash_at pre (e :: (post ++ rest)) (pre.length + 2 + post.length) hpre
    (by omega)
  unfold ajson_decode ajson_decode2
  rw [hf]
  dsimp only
  rw [decode_unlisted pre post rest e he hpost]
  exact ⟨rfl, rfl⟩

theorem C38_witness :
    decode_step (ascii "a\\xb" ++ [0]) 1 [97] = (3, [97]) ∧
    ajson_decode (ascii "a\\xb" ++ [0]) 4 = some ⟨false, ascii "ab"⟩ ∧
    ajson_decode2 (ascii "a\\xb" ++ [0]) 4 = some (⟨false, ascii "ab"⟩, 2) :=
  ⟨(C38_unlisted_escape_dropped 120 (by decide)).1 (ascii "a\\xb" ++ [0]) 1 [97] rfl rfl,
   (C38_unlisted_escape_dropped 120 (by decide)).2 [97] [98] [0] (by decide) (by decide)⟩

/-- C39: the UTF-8 filter never damages well-formed input.  For every range `x`
that is a concatenation of complete sequences, whatever follows it in memory,
`ajson_copy_valid_utf8` stores exactly the bytes of `x`, and
`ajson_strip_invalid_utf8_inplace` returns the length of `x` and leaves exactly
the bytes of `x` in the buffer. -/
theorem C39_filter_keeps_well_formed (x rest : List Nat) (hw : WellFormed x) :
    ajson_copy_valid_utf8 (x ++ rest) x.length = some x ∧
    ∃ m, ajson_strip_invalid_utf8_inplace (x ++ rest) x.length = some (m, x.length) ∧
      slice m 0 x.length = x := by
  obtain ⟨y, m, hs, hc, hst, _, hsl, _⟩ := filter_outcome x rest [] (WellFormed_bytes hw)
  have e := Sifted_unique hs (Sifted_of_wellFormed hw)
  subst e
  exact ⟨hc, m, hst, hsl⟩

theorem C39_witness :
    ajson_copy_valid_utf8 ([0x41, 0xC3, 0xA9, 0xE2, 0x82, 0xAC, 0xF0, 0x9F, 0x98, 0x80] ++ [0]) 10 =
      some [0x41, 0xC3, 0xA9, 0xE2, 0x82, 0xAC, 0xF0, 0x9F, 0x98, 0x80] ∧
    ∃ m, ajson_strip_invalid_utf8_inplace
        ([0x41, 0xC3, 0xA9, 0xE2, 0x82, 0xAC, 0xF0, 0x9F, 0x98, 0x80] ++ [0]) 10 = some (m, 10) ∧
      slice m 0 10 = [0x41, 0xC3, 0xA9, 0xE2, 0x82, 0xAC, 0xF0, 0x9F, 0x98, 0x80] :=
  C39_filter_keeps_well_formed [0x41, 0xC3, 0xA9, 0xE2, 0x82, 0xAC, 0xF0, 0x9F, 0x98, 0x80] [0]
    ⟨[[0x41], [0xC3, 0xA9], [0xE2, 0x82, 0xAC], [0xF0, 0x9F, 0x98, 0x80]], rfl, by
      intro u hu
      simp only [List.mem_cons, List.mem_singleton, List.not_mem_nil, or_false] at hu
      rcases hu with rfl | rfl | rfl | rfl
      · exact Or.inl ⟨_, rfl, by decide⟩
      · exact Or.inr (Or.inl ⟨_, _, rfl, by decide, by decide⟩)
      · exact Or.inr (Or.inr (Or.inl ⟨_, _, _, rfl, by decide, by decide, by decide⟩))
      · exact Or.inr (Or.inr (Or.inr ⟨_, _, _, _, rfl, by decide, by decide, by decide,
          by decide⟩))⟩

end Theorems

end AJsonSax
